import Mathlib

/-! cpBBTree: the dynamic bounding-volume broadphase

A shallow embedding of `src/src/cpBBTree.c`.

* Memory is explicit.  Nodes and pairs live in two typed heaps, both total
  functions from addresses to records; a pointer is an `Option Nat`
  (`none` is `NULL`).  Object handles (`void *obj`) are naturals, `0` is `NULL`.
* The anonymous union of `struct Node` is kept as four separate fields
  (`a`, `b`, `stamp`, `pairs`); the C code reads a variant only behind
  `NodeIsLeaf`.
* `cpFloat` is idealised by `ℚ`; `cpTimestamp` by `Nat`.
* Recursive functions and pointer-chasing loops take a `fuel`; `none` means
  that the fuel ran out, an assertion failed or `NULL` was dereferenced.
* The callback `func` is a value of `QueryFunc`; a recording callback appends
  its two object arguments to `World.calls`.
-/

namespace BBTree



/-! ## Boxes and vectors -/

/-- Axis-aligned box `{l, b, r, t}`. -/
structure cpBB where
  l : ℚ
  b : ℚ
  r : ℚ
  t : ℚ
deriving DecidableEq, Inhabited

/-- 2D vector. -/
structure cpVect where
  x : ℚ
  y : ℚ
deriving DecidableEq, Inhabited

/-- Modelled from the spec: `cpBBNew` of the absent header `cpBB.h`,
the box with the four given bounds. -/
def cpBBNew (l b r t : ℚ) : cpBB := ⟨l, b, r, t⟩

/-- Modelled from the spec: `cpvmult` of the absent header `cpVect.h`,
scalar multiplication. -/
def cpvmult (v : cpVect) (s : ℚ) : cpVect := ⟨v.x * s, v.y * s⟩

/-- Modelled from the spec: `cpBBIntersects` of the absent header `cpBB.h`
(closed boxes, touching counts as intersecting). -/
def cpBBIntersects (a b : cpBB) : Bool :=
  decide (a.l ≤ b.r) && decide (b.l ≤ a.r) && decide (a.b ≤ b.t) && decide (b.b ≤ a.t)

/-- Modelled from the spec: `cpBBContainsBB` of the absent header `cpBB.h`. -/
def cpBBContainsBB (bb other : cpBB) : Bool :=
  decide (bb.l ≤ other.l) && decide (other.r ≤ bb.r) && decide (bb.b ≤ other.b) &&
    decide (other.t ≤ bb.t)

/-- Modelled from the spec: `cpBBMerge` of the absent header `cpBB.h`,
the smallest box holding both. -/
def cpBBMerge (a b : cpBB) : cpBB :=
  cpBBNew (min a.l b.l) (min a.b b.b) (max a.r b.r) (max a.t b.t)

/-- Modelled from the spec: `cpBBArea` of the absent header `cpBB.h`. -/
def cpBBArea (bb : cpBB) : ℚ := (bb.r - bb.l) * (bb.t - bb.b)

/-- Modelled from the spec: `cpBBMergedArea` of the absent header `cpBB.h`,
the area of the merge of two boxes. -/
def cpBBMergedArea (a b : cpBB) : ℚ :=
  (max a.r b.r - min a.l b.l) * (max a.t b.t - min a.b b.b)

/-! ## Records -/

/-- The `struct Node` record. -/
structure Node where
  obj : Nat
  bb : cpBB
  parent : Option Nat
  a : Option Nat
  b : Option Nat
  stamp : Nat
  pairs : Option Nat
deriving Inhabited

/-- The `struct Thread` record. -/
structure Thread where
  prev : Option Nat
  leaf : Option Nat
  next : Option Nat
deriving DecidableEq, Inhabited

/-- The `struct Pair` record. -/
structure Pair where
  a : Thread
  b : Thread
deriving DecidableEq, Inhabited

/-- One entry of `allocatedBuffers`: the base address of a node buffer or of
a pair buffer. -/
inductive Buffer where
  | nodes (base : Nat)
  | pairs (base : Nat)
deriving DecidableEq

/-- The `struct cpBBTree` record together with its embedded `cpSpatialIndex`
header (`klass`, `bbfunc`, `staticIndex`, `dynamicIndex`).  `isTree` stands for
`klass == Klass()`.  `leaves` is the `cpHashSet`: entries `(hash, leaf)`. -/
structure cpBBTree where
  isTree : Bool
  bbfunc : Nat → cpBB
  staticIndex : Option Nat
  dynamicIndex : Option Nat
  velocityFunc : Option (Nat → cpVect)
  leaves : List (Nat × Nat)
  root : Option Nat
  pooledNodes : Option Nat
  pooledPairs : Option Nat
  allocatedBuffers : List Buffer
  stamp : Nat

/-- A record filled with zero bytes, as `cpcalloc` returns it. -/
def zeroBB : cpBB := ⟨0, 0, 0, 0⟩

/-- A node filled with zero bytes. -/
def zeroNode : Node := ⟨0, zeroBB, none, none, none, 0, none⟩

/-- A pair filled with zero bytes. -/
def zeroPair : Pair := ⟨⟨none, none, none⟩, ⟨none, none, none⟩⟩

/-- A tree record filled with zero bytes. -/
def zeroTree : cpBBTree :=
  ⟨false, fun _ => zeroBB, none, none, none, [], none, none, none, [], 0⟩

/-- The callback handed to a query. -/
inductive QueryFunc where
  | null
  | void
  | record
deriving DecidableEq

/-- The whole memory: the node heap, the pair heap, the spatial indexes, the
allocation frontiers of the three heaps, the number of records per buffer
(`CP_BUFFER_BYTES/sizeof(Node)` and `CP_BUFFER_BYTES/sizeof(Pair)`, whose
constant is not among the sources), the pairs that the external
`cpSpatialIndexCollideStatic` hook reports for a dynamic and a static index,
and the log of recorded callback calls. -/
structure World where
  node : Nat → Node
  pair : Nat → Pair
  index : Nat → cpBBTree
  nodeBrk : Nat
  pairBrk : Nat
  indexBrk : Nat
  nodeCount : Nat
  pairCount : Nat
  external : Nat → Nat → List (Nat × Nat)
  calls : List (Nat × Nat)

/-- Store `v` at address `i`. -/
def upd {α : Type} (m : Nat → α) (i : Nat) (v : α) : Nat → α :=
  fun j => if j = i then v else m j

/-- Write a node record. -/
def World.setNode (w : World) (i : Nat) (n : Node) : World :=
  { w with node := upd w.node i n }

/-- Write a pair record. -/
def World.setPair (w : World) (i : Nat) (p : Pair) : World :=
  { w with pair := upd w.pair i p }

/-- Write a tree record. -/
def World.setIndex (w : World) (i : Nat) (t : cpBBTree) : World :=
  { w with index := upd w.index i t }

/-- Invoke the callback `func(a, b, data)`. -/
def callFunc (func : QueryFunc) (a b : Nat) (w : World) : Option World :=
  match func with
  | QueryFunc.null => none
  | QueryFunc.void => some w
  | QueryFunc.record => some { w with calls := w.calls ++ [(a, b)] }

/-! ## Misc functions -/

/-- `GetBB`: the box stored on a leaf, the tight box expanded by a tenth of
its size and of the velocity when a velocity function is set. -/
def GetBB (w : World) (tree : Nat) (obj : Nat) : cpBB :=
  let bb := (w.index tree).bbfunc obj
  match (w.index tree).velocityFunc with
  | some velocityFunc =>
    let coef : ℚ := 1 / 10
    let x := (bb.r - bb.l) * coef
    let y := (bb.t - bb.b) * coef
    let v := cpvmult (velocityFunc obj) (1 / 10)
    cpBBNew (bb.l + min (-x) v.x) (bb.b + min (-y) v.y) (bb.r + max x v.x) (bb.t + max y v.y)
  | none => bb

/-- `GetTree`: the index itself when it is a tree, else `NULL`. -/
def GetTree (w : World) (index : Option Nat) : Option Nat :=
  match index with
  | some i => if (w.index i).isTree then some i else none
  | none => none

/-- `GetRootIfTree`. -/
def GetRootIfTree (w : World) (index : Option Nat) : Option Nat :=
  match index with
  | some i => if (w.index i).isTree then (w.index i).root else none
  | none => none

/-- `GetStamp`: the stamp of the dynamic partner when there is one. -/
def GetStamp (w : World) (tree : Nat) : Nat :=
  match GetTree w (w.index tree).dynamicIndex with
  | some dynamicTree => (w.index dynamicTree).stamp
  | none => (w.index tree).stamp

/-- `IncrementStamp`. -/
def IncrementStamp (tree : Nat) (w : World) : World :=
  match GetTree w (w.index tree).dynamicIndex with
  | some dynamicTree =>
    w.setIndex dynamicTree { w.index dynamicTree with stamp := (w.index dynamicTree).stamp + 1 }
  | none => w.setIndex tree { w.index tree with stamp := (w.index tree).stamp + 1 }

/-! ## Pair/Thread functions -/

/-- `PairRecycle`. -/
def PairRecycle (tree : Nat) (pair : Nat) (w : World) : World :=
  let w1 := w.setPair pair
    { w.pair pair with a := { (w.pair pair).a with next := (w.index tree).pooledPairs } }
  w1.setIndex tree { w1.index tree with pooledPairs := some pair }

/-- `PairFromPool`. -/
def PairFromPool (tree : Nat) (w : World) : Option (Nat × World) :=
  match (w.index tree).pooledPairs with
  | some pair =>
    some (pair, w.setIndex tree { w.index tree with pooledPairs := (w.pair pair).a.next })
  | none =>
    let count := w.pairCount
    if count = 0 then none
    else
      let buffer := w.pairBrk
      let w1 : World :=
        { w with
          pair := fun j => if buffer ≤ j ∧ j < buffer + count then zeroPair else w.pair j
          pairBrk := buffer + count }
      let w2 := w1.setIndex tree
        { w1.index tree with
          allocatedBuffers := (w1.index tree).allocatedBuffers ++ [Buffer.pairs buffer] }
      some (buffer, (List.range' 1 (count - 1)).foldl (fun v i => PairRecycle tree (buffer + i) v) w2)

/-- Write `prev` into the thread of pair `p` that belongs to `leaf`
(`if(p->a.leaf == leaf) p->a.prev = prev; else p->b.prev = prev;`). -/
def setPrevOn (p : Nat) (leaf : Option Nat) (prev : Option Nat) (w : World) : World :=
  if (w.pair p).a.leaf = leaf then
    w.setPair p { w.pair p with a := { (w.pair p).a with prev := prev } }
  else
    w.setPair p { w.pair p with b := { (w.pair p).b with prev := prev } }

/-- Write `next` into the thread of pair `p` that belongs to `leaf`
(`if(p->a.leaf == leaf) p->a.next = next; else p->b.next = next;`). -/
def setNextOn (p : Nat) (leaf : Option Nat) (next : Option Nat) (w : World) : World :=
  if (w.pair p).a.leaf = leaf then
    w.setPair p { w.pair p with a := { (w.pair p).a with next := next } }
  else
    w.setPair p { w.pair p with b := { (w.pair p).b with next := next } }

/-- `ThreadUnlink`. -/
def ThreadUnlink (thread : Thread) (w : World) : Option World :=
  let next := thread.next
  let prev := thread.prev
  let w1 := match next with
    | some n => setPrevOn n thread.leaf prev w
    | none => w
  match prev with
  | some p => some (setNextOn p thread.leaf next w1)
  | none =>
    match thread.leaf with
    | some l => some (w1.setNode l { w1.node l with pairs := next })
    | none => none

/-- The `while(pair)` loop of `PairsClear`. -/
def PairsClearLoop (leaf tree : Nat) : Nat → Option Nat → World → Option World
  | _, none, w => some w
  | 0, some _, _ => none
  | fuel + 1, some pair, w =>
    if (w.pair pair).a.leaf = some leaf then
      let next := (w.pair pair).a.next
      match ThreadUnlink (w.pair pair).b w with
      | none => none
      | some w1 => PairsClearLoop leaf tree fuel next (PairRecycle tree pair w1)
    else
      let next := (w.pair pair).b.next
      match ThreadUnlink (w.pair pair).a w with
      | none => none
      | some w1 => PairsClearLoop leaf tree fuel next (PairRecycle tree pair w1)

/-- `PairsClear`. -/
def PairsClear (fuel : Nat) (leaf tree : Nat) (w : World) : Option World :=
  let pair := (w.node leaf).pairs
  PairsClearLoop leaf tree fuel pair (w.setNode leaf { w.node leaf with pairs := none })

/-- `PairInsert`. -/
def PairInsert (a b tree : Nat) (w : World) : Option World :=
  let nextA := (w.node a).pairs
  let nextB := (w.node b).pairs
  match PairFromPool tree w with
  | none => none
  | some (pair, w1) =>
    let temp : Pair := ⟨⟨none, some a, nextA⟩, ⟨none, some b, nextB⟩⟩
    let w2 := w1.setNode b { w1.node b with pairs := some pair }
    let w3 := w2.setNode a { w2.node a with pairs := some pair }
    let w4 := w3.setPair pair temp
    let w5 := match nextA with
      | some n => setPrevOn n (some a) (some pair) w4
      | none => w4
    let w6 := match nextB with
      | some n => setPrevOn n (some b) (some pair) w5
      | none => w5
    some w6

/-! ## Node functions -/

/-- `NodeRecycle`. -/
def NodeRecycle (tree : Nat) (node : Nat) (w : World) : World :=
  let w1 := w.setNode node { w.node node with parent := (w.index tree).pooledNodes }
  w1.setIndex tree { w1.index tree with pooledNodes := some node }

/-- `NodeFromPool`. -/
def NodeFromPool (tree : Nat) (w : World) : Option (Nat × World) :=
  match (w.index tree).pooledNodes with
  | some node =>
    some (node, w.setIndex tree { w.index tree with pooledNodes := (w.node node).parent })
  | none =>
    let count := w.nodeCount
    if count = 0 then none
    else
      let buffer := w.nodeBrk
      let w1 : World :=
        { w with
          node := fun j => if buffer ≤ j ∧ j < buffer + count then zeroNode else w.node j
          nodeBrk := buffer + count }
      let w2 := w1.setIndex tree
        { w1.index tree with
          allocatedBuffers := (w1.index tree).allocatedBuffers ++ [Buffer.nodes buffer] }
      some (buffer, (List.range' 1 (count - 1)).foldl (fun v i => NodeRecycle tree (buffer + i) v) w2)

/-- `NodeSetA`. -/
def NodeSetA (node value : Nat) (w : World) : World :=
  let w1 := w.setNode node { w.node node with a := some value }
  w1.setNode value { w1.node value with parent := some node }

/-- `NodeSetB`. -/
def NodeSetB (node value : Nat) (w : World) : World :=
  let w1 := w.setNode node { w.node node with b := some value }
  w1.setNode value { w1.node value with parent := some node }

/-- `NodeNew`. -/
def NodeNew (tree : Nat) (a b : Nat) (w : World) : Option (Nat × World) :=
  match NodeFromPool tree w with
  | none => none
  | some (node, w1) =>
    let w2 := w1.setNode node { w1.node node with obj := 0 }
    let w3 := w2.setNode node { w2.node node with bb := cpBBMerge (w2.node a).bb (w2.node b).bb }
    let w4 := w3.setNode node { w3.node node with parent := none }
    some (node, NodeSetB node b (NodeSetA node a w4))

/-- `NodeIsLeaf`. -/
def NodeIsLeaf (w : World) (node : Nat) : Bool := decide ((w.node node).obj ≠ 0)

/-- `NodeOther`. -/
def NodeOther (w : World) (node child : Nat) : Option Nat :=
  if (w.node node).a = some child then (w.node node).b else (w.node node).a

/-- The `for(Node *node=parent; node; node = node->parent)` loop of
`NodeReplaceChild`, which recomputes the boxes up to the root. -/
def refitLoop : Nat → Option Nat → World → Option World
  | _, none, w => some w
  | 0, some _, _ => none
  | fuel + 1, some node, w =>
    match (w.node node).a, (w.node node).b with
    | some a, some b =>
      let w1 := w.setNode node { w.node node with bb := cpBBMerge (w.node a).bb (w.node b).bb }
      refitLoop fuel (w1.node node).parent w1
    | _, _ => none

/-- `NodeReplaceChild`; a failed assertion is `none`. -/
def NodeReplaceChild (fuel : Nat) (parent child : Nat) (value : Option Nat) (tree : Nat)
    (w : World) : Option World :=
  if NodeIsLeaf w parent then none
  else if ¬ (some child = (w.node parent).a ∨ some child = (w.node parent).b) then none
  else
    match value with
    | none => none
    | some value =>
      if (w.node parent).a = some child then
        refitLoop fuel (some parent) (NodeSetA parent value (NodeRecycle tree child w))
      else
        refitLoop fuel (some parent) (NodeSetB parent value (NodeRecycle tree child w))

/-! ## Subtree functions -/

/-- `SubtreeInsert`. -/
def SubtreeInsert : Nat → Option Nat → Nat → Nat → World → Option (Nat × World)
  | _, none, leaf, _, w => some (leaf, w)
  | 0, some _, _, _, _ => none
  | fuel + 1, some subtree, leaf, tree, w =>
    if NodeIsLeaf w subtree then NodeNew tree leaf subtree w
    else
      match (w.node subtree).a, (w.node subtree).b with
      | some a, some b =>
        let cost_a := cpBBArea (w.node b).bb + cpBBMergedArea (w.node a).bb (w.node leaf).bb
        let cost_b := cpBBArea (w.node a).bb + cpBBMergedArea (w.node b).bb (w.node leaf).bb
        let r :=
          if cost_b < cost_a then
            match SubtreeInsert fuel (some b) leaf tree w with
            | none => none
            | some (v, w1) => some (NodeSetB subtree v w1)
          else
            match SubtreeInsert fuel (some a) leaf tree w with
            | none => none
            | some (v, w1) => some (NodeSetA subtree v w1)
        match r with
        | none => none
        | some w2 =>
          some (subtree, w2.setNode subtree
            { w2.node subtree with bb := cpBBMerge (w2.node subtree).bb (w2.node leaf).bb })
      | _, _ => none

/-- `SubtreeQuery`. -/
def SubtreeQuery : Nat → Nat → Nat → cpBB → QueryFunc → World → Option World
  | 0, _, _, _, _, _ => none
  | fuel + 1, subtree, obj, bb, func, w =>
    if cpBBIntersects (w.node subtree).bb bb then
      if NodeIsLeaf w subtree then callFunc func obj (w.node subtree).obj w
      else
        match (w.node subtree).a, (w.node subtree).b with
        | some a, some b =>
          match SubtreeQuery fuel a obj bb func w with
          | none => none
          | some w1 => SubtreeQuery fuel b obj bb func w1
        | _, _ => none
    else some w

/-- `SubtreeRecycle`. -/
def SubtreeRecycle : Nat → Nat → Nat → World → Option World
  | 0, _, _, _ => none
  | fuel + 1, tree, node, w =>
    if NodeIsLeaf w node then some w
    else
      match (w.node node).a, (w.node node).b with
      | some a, some b =>
        match SubtreeRecycle fuel tree a w with
        | none => none
        | some w1 =>
          match SubtreeRecycle fuel tree b w1 with
          | none => none
          | some w2 => some (NodeRecycle tree node w2)
      | _, _ => none

/-- `SubtreeRemove`; the result is the new root. -/
def SubtreeRemove (fuel : Nat) (subtree : Option Nat) (leaf : Nat) (tree : Nat) (w : World) :
    Option (Option Nat × World) :=
  if some leaf = subtree then some (none, w)
  else
    match (w.node leaf).parent with
    | none => none
    | some parent =>
      if some parent = subtree then
        match NodeOther w parent leaf with
        | none => none
        | some other =>
          let w1 := w.setNode other { w.node other with parent := (w.node parent).parent }
          some (some other, NodeRecycle tree parent w1)
      else
        match (w.node parent).parent with
        | none => none
        | some grand =>
          match NodeReplaceChild fuel grand parent (NodeOther w parent leaf) tree w with
          | none => none
          | some w1 => some (subtree, w1)

/-! ## Marking functions -/

/-- The `struct MarkContext` record. -/
structure MarkContext where
  tree : Nat
  staticRoot : Option Nat
  func : QueryFunc

/-- `MarkLeafQuery`. -/
def MarkLeafQuery : Nat → Nat → Nat → Bool → MarkContext → World → Option World
  | 0, _, _, _, _, _ => none
  | fuel + 1, subtree, leaf, left, context, w =>
    if cpBBIntersects (w.node leaf).bb (w.node subtree).bb then
      if NodeIsLeaf w subtree then
        if left then PairInsert leaf subtree context.tree w
        else
          let r :=
            if (w.node subtree).stamp < (w.node leaf).stamp then
              PairInsert subtree leaf context.tree w
            else some w
          match r with
          | none => none
          | some w1 => callFunc context.func (w1.node leaf).obj (w1.node subtree).obj w1
      else
        match (w.node subtree).a, (w.node subtree).b with
        | some a, some b =>
          match MarkLeafQuery fuel a leaf left context w with
          | none => none
          | some w1 => MarkLeafQuery fuel b leaf left context w1
        | _, _ => none
    else some w

/-- The `for(Node *node = leaf; node->parent; node = node->parent)` loop of
`MarkLeaf`. -/
def markUpLoop (leaf : Nat) (context : MarkContext) : Nat → Nat → World → Option World
  | 0, _, _ => none
  | fuel + 1, node, w =>
    match (w.node node).parent with
    | none => some w
    | some parent =>
      let r :=
        if some node = (w.node parent).a then
          match (w.node parent).b with
          | none => none
          | some b => MarkLeafQuery fuel b leaf true context w
        else
          match (w.node parent).a with
          | none => none
          | some a => MarkLeafQuery fuel a leaf false context w
      match r with
      | none => none
      | some w1 =>
        match (w1.node node).parent with
        | none => none
        | some next => markUpLoop leaf context fuel next w1

/-- The `while(pair)` loop of `MarkLeaf`, which reports the cached pairs. -/
def markCachedLoop (leaf : Nat) (context : MarkContext) : Nat → Option Nat → World → Option World
  | _, none, w => some w
  | 0, some _, _ => none
  | fuel + 1, some pair, w =>
    if some leaf = (w.pair pair).b.leaf then
      match (w.pair pair).a.leaf with
      | none => none
      | some other =>
        match callFunc context.func (w.node other).obj (w.node leaf).obj w with
        | none => none
        | some w1 => markCachedLoop leaf context fuel (w1.pair pair).b.next w1
    else markCachedLoop leaf context fuel (w.pair pair).a.next w

/-- `MarkLeaf`. -/
def MarkLeaf (fuel : Nat) (leaf : Nat) (context : MarkContext) (w : World) : Option World :=
  let tree := context.tree
  if (w.node leaf).stamp = GetStamp w tree then
    let r := match context.staticRoot with
      | some staticRoot => MarkLeafQuery fuel staticRoot leaf false context w
      | none => some w
    match r with
    | none => none
    | some w1 => markUpLoop leaf context fuel leaf w1
  else markCachedLoop leaf context fuel (w.node leaf).pairs w

/-- `MarkSubtree`. -/
def MarkSubtree : Nat → Nat → MarkContext → World → Option World
  | 0, _, _, _ => none
  | fuel + 1, subtree, context, w =>
    if NodeIsLeaf w subtree then MarkLeaf fuel subtree context w
    else
      match (w.node subtree).a, (w.node subtree).b with
      | some a, some b =>
        match MarkSubtree fuel a context w with
        | none => none
        | some w1 => MarkSubtree fuel b context w1
      | _, _ => none

/-! ## Leaf functions -/

/-- `LeafNew`. -/
def LeafNew (tree : Nat) (obj : Nat) (w : World) : Option (Nat × World) :=
  match NodeFromPool tree w with
  | none => none
  | some (node, w1) =>
    let w2 := w1.setNode node { w1.node node with obj := obj }
    let w3 := w2.setNode node { w2.node node with bb := GetBB w2 tree obj }
    let w4 := w3.setNode node { w3.node node with parent := none }
    let w5 := w4.setNode node { w4.node node with stamp := 0 }
    some (node, w5.setNode node { w5.node node with pairs := none })

/-- `LeafUpdate`; the Boolean is the returned `cpBool`. -/
def LeafUpdate (fuel : Nat) (leaf : Nat) (tree : Nat) (w : World) : Option (Bool × World) :=
  let root := (w.index tree).root
  let bb := (w.index tree).bbfunc (w.node leaf).obj
  if ¬ cpBBContainsBB (w.node leaf).bb bb then
    let w1 := w.setNode leaf { w.node leaf with bb := GetBB w tree (w.node leaf).obj }
    match SubtreeRemove fuel root leaf tree w1 with
    | none => none
    | some (root1, w2) =>
      match SubtreeInsert fuel root1 leaf tree w2 with
      | none => none
      | some (root2, w3) =>
        let w4 := w3.setIndex tree { w3.index tree with root := some root2 }
        match PairsClear fuel leaf tree w4 with
        | none => none
        | some w5 => some (true, w5.setNode leaf { w5.node leaf with stamp := GetStamp w5 tree })
  else some (false, w)

/-- `LeafAddPairs`. -/
def LeafAddPairs (fuel : Nat) (leaf : Nat) (tree : Nat) (w : World) : Option World :=
  match (w.index tree).dynamicIndex with
  | some dynamicIndex =>
    match GetRootIfTree w (some dynamicIndex) with
    | some dynamicRoot =>
      MarkLeafQuery fuel dynamicRoot leaf true ⟨dynamicIndex, none, QueryFunc.null⟩ w
    | none => some w
  | none =>
    let staticRoot := GetRootIfTree w (w.index tree).staticIndex
    MarkLeaf fuel leaf ⟨tree, staticRoot, QueryFunc.void⟩ w

/-! ## The hash set of leaves -/

/-- Modelled from the spec: `cpHashSetFind` of the absent `cpHashSet.c` with
`leafSetEql`; the entry with the given hash whose leaf carries `obj`. -/
def cpHashSetFind (w : World) (tree : Nat) (hashid obj : Nat) : Option Nat :=
  ((w.index tree).leaves.find? (fun e => decide (e.1 = hashid ∧ (w.node e.2).obj = obj))).map
    (fun e => e.2)

/-- Modelled from the spec: `cpHashSetInsert` of the absent `cpHashSet.c` with
`leafSetTrans`; on a miss a new leaf is minted by `LeafNew` and stored, on a
hit the existing leaf is returned. -/
def cpHashSetInsert (tree : Nat) (hashid obj : Nat) (w : World) : Option (Nat × World) :=
  match cpHashSetFind w tree hashid obj with
  | some leaf => some (leaf, w)
  | none =>
    match LeafNew tree obj w with
    | none => none
    | some (leaf, w1) =>
      some (leaf, w1.setIndex tree
        { w1.index tree with leaves := (hashid, leaf) :: (w1.index tree).leaves })

/-- Modelled from the spec: `cpHashSetRemove` of the absent `cpHashSet.c`;
returns and detaches the leaf, undefined (`none`) if absent. -/
def cpHashSetRemove (tree : Nat) (hashid obj : Nat) (w : World) : Option (Nat × World) :=
  match cpHashSetFind w tree hashid obj with
  | none => none
  | some leaf =>
    some (leaf, w.setIndex tree
      { w.index tree with leaves := (w.index tree).leaves.erase (hashid, leaf) })

/-- Modelled from the spec: `cpHashSetCount` of the absent `cpHashSet.c`. -/
def cpHashSetCount (w : World) (tree : Nat) : Nat := (w.index tree).leaves.length

/-! ## Memory management functions -/

/-- Modelled from the spec: `cpSpatialIndexInit` of the absent
`cpSpatialIndex.c`; it stores the class, the box function and the static
partner, and makes the new index the dynamic partner of its static partner. -/
def cpSpatialIndexInit (index : Nat) (bbfunc : Nat → cpBB) (staticIndex : Option Nat)
    (w : World) : World :=
  let w1 := w.setIndex index
    { w.index index with isTree := true, bbfunc := bbfunc, staticIndex := staticIndex }
  match staticIndex with
  | some s => w1.setIndex s { w1.index s with dynamicIndex := some index }
  | none => w1

/-- `cpBBTreeInit`. -/
def cpBBTreeInit (tree : Nat) (bbfunc : Nat → cpBB) (staticIndex : Option Nat) (w : World) :
    World :=
  let w1 := cpSpatialIndexInit tree bbfunc staticIndex w
  w1.setIndex tree
    { w1.index tree with
      velocityFunc := none, leaves := [], root := none, pooledNodes := none,
      allocatedBuffers := [], stamp := 0 }

/-- `cpBBTreeAlloc`: a fresh tree record filled with zero bytes. -/
def cpBBTreeAlloc (w : World) : Nat × World :=
  (w.indexBrk, { w with index := upd w.index w.indexBrk zeroTree, indexBrk := w.indexBrk + 1 })

/-- `cpBBTreeNew`. -/
def cpBBTreeNew (bbfunc : Nat → cpBB) (staticIndex : Option Nat) (w : World) : Nat × World :=
  let r := cpBBTreeAlloc w
  (r.1, cpBBTreeInit r.1 bbfunc staticIndex r.2)

/-- `cpBBTreeSetVelocityFunc`. -/
def cpBBTreeSetVelocityFunc (index : Nat) (func : Option (Nat → cpVect)) (w : World) : World :=
  if (w.index index).isTree then w.setIndex index { w.index index with velocityFunc := func }
  else w

/-! ## Insert/Remove -/

/-- `cpBBTreeInsert`. -/
def cpBBTreeInsert (fuel : Nat) (tree : Nat) (obj hashid : Nat) (w : World) : Option World :=
  match cpHashSetInsert tree hashid obj w with
  | none => none
  | some (leaf, w1) =>
    let root := (w1.index tree).root
    match SubtreeInsert fuel root leaf tree w1 with
    | none => none
    | some (root1, w2) =>
      let w3 := w2.setIndex tree { w2.index tree with root := some root1 }
      let w4 := w3.setNode leaf { w3.node leaf with stamp := GetStamp w3 tree }
      match LeafAddPairs fuel leaf tree w4 with
      | none => none
      | some w5 => some (IncrementStamp tree w5)

/-- `cpBBTreeRemove`. -/
def cpBBTreeRemove (fuel : Nat) (tree : Nat) (obj hashid : Nat) (w : World) : Option World :=
  match cpHashSetRemove tree hashid obj w with
  | none => none
  | some (leaf, w1) =>
    match SubtreeRemove fuel (w1.index tree).root leaf tree w1 with
    | none => none
    | some (root1, w2) =>
      let w3 := w2.setIndex tree { w2.index tree with root := root1 }
      match PairsClear fuel leaf tree w3 with
      | none => none
      | some w4 => some (NodeRecycle tree leaf w4)

/-- `cpBBTreeContains`. -/
def cpBBTreeContains (w : World) (tree : Nat) (obj hashid : Nat) : Bool :=
  (cpHashSetFind w tree hashid obj).isSome

/-! ## Reindex -/

/-- The `cpHashSetEach(tree->leaves, LeafUpdate, tree)` iteration. -/
def leafUpdateEach (fuel : Nat) (tree : Nat) : List (Nat × Nat) → World → Option World
  | [], w => some w
  | e :: es, w =>
    match LeafUpdate fuel e.2 tree w with
    | none => none
    | some (_, w1) => leafUpdateEach fuel tree es w1

/-- Modelled from the spec: the external `cpSpatialIndexCollideStatic` hook;
it reports the pairs `World.external` lists for the two indexes and leaves the
trees alone. -/
def cpSpatialIndexCollideStatic (dynamicIndex staticIndex : Nat) (func : QueryFunc) :
    List (Nat × Nat) → World → Option World
  | [], w => some w
  | c :: cs, w =>
    match callFunc func c.1 c.2 w with
    | none => none
    | some w1 => cpSpatialIndexCollideStatic dynamicIndex staticIndex func cs w1

/-- `cpBBTreeReindexQuery`. -/
def cpBBTreeReindexQuery (fuel : Nat) (tree : Nat) (func : QueryFunc) (w : World) :
    Option World :=
  match (w.index tree).root with
  | none => some w
  | some _ =>
    match leafUpdateEach fuel tree (w.index tree).leaves w with
    | none => none
    | some w1 =>
      let staticIndex := (w1.index tree).staticIndex
      let staticRoot := GetRootIfTree w1 staticIndex
      match (w1.index tree).root with
      | none => none
      | some root =>
        match MarkSubtree fuel root ⟨tree, staticRoot, func⟩ w1 with
        | none => none
        | some w2 =>
          let r := match staticIndex, staticRoot with
            | some s, none => cpSpatialIndexCollideStatic tree s func (w2.external tree s) w2
            | _, _ => some w2
          match r with
          | none => none
          | some w3 => some (IncrementStamp tree w3)

/-- `cpBBTreeReindex`. -/
def cpBBTreeReindex (fuel : Nat) (tree : Nat) (w : World) : Option World :=
  cpBBTreeReindexQuery fuel tree QueryFunc.void w

/-- `cpBBTreeReindexObject`. -/
def cpBBTreeReindexObject (fuel : Nat) (tree : Nat) (obj hashid : Nat) (w : World) :
    Option World :=
  match cpHashSetFind w tree hashid obj with
  | none => some w
  | some leaf =>
    match LeafUpdate fuel leaf tree w with
    | none => none
    | some (moved, w1) =>
      let r := if moved then LeafAddPairs fuel leaf tree w1 else some w1
      match r with
      | none => none
      | some w2 => some (IncrementStamp tree w2)

/-! ## Query -/

/-- `cpBBTreePointQuery`; `pointObj` stands for the address `&point` that is
handed to the callback. -/
def cpBBTreePointQuery (fuel : Nat) (tree : Nat) (pointObj : Nat) (point : cpVect)
    (func : QueryFunc) (w : World) : Option World :=
  match (w.index tree).root with
  | some root =>
    SubtreeQuery fuel root pointObj (cpBBNew point.x point.y point.x point.y) func w
  | none => some w

/-- `cpBBTreeQuery`. -/
def cpBBTreeQuery (fuel : Nat) (tree : Nat) (obj : Nat) (bb : cpBB) (func : QueryFunc)
    (w : World) : Option World :=
  match (w.index tree).root with
  | some root => SubtreeQuery fuel root obj bb func w
  | none => some w

/-! ## Misc -/

/-- `cpBBTreeCount`. -/
def cpBBTreeCount (w : World) (tree : Nat) : Nat := cpHashSetCount w tree

/-! ## Tree optimization -/

/-- The bounds `bounds[2*i], bounds[2*i + 1]` that `partitionNodes` collects. -/
def collectBounds (w : World) (splitWidth : Bool) : List Nat → List ℚ
  | [] => []
  | n :: ns =>
    if splitWidth then (w.node n).bb.l :: (w.node n).bb.r :: collectBounds w splitWidth ns
    else (w.node n).bb.b :: (w.node n).bb.t :: collectBounds w splitWidth ns

/-- The `for(int left=0; left < right;)` loop of `partitionNodes`; the first
argument counts the iterations that remain (`right - left`). -/
def partitionLoop (w : World) (a b : cpBB) : Nat → Nat → Nat → List Nat → List Nat × Nat
  | 0, _, right, nodes => (nodes, right)
  | k + 1, left, right, nodes =>
    if left < right then
      let node := nodes.getD left 0
      if cpBBMergedArea (w.node node).bb b < cpBBMergedArea (w.node node).bb a then
        partitionLoop w a b k left (right - 1)
          ((nodes.set left (nodes.getD (right - 1) 0)).set (right - 1) node)
      else partitionLoop w a b k (left + 1) right nodes
    else (nodes, right)

/-- The `for(int i=0; i<count; i++) node = SubtreeInsert(node, nodes[i], tree)`
loop of `partitionNodes`. -/
def insertEach (fuel : Nat) (tree : Nat) : List Nat → Option Nat → World → Option (Option Nat × World)
  | [], node, w => some (node, w)
  | n :: ns, node, w =>
    match SubtreeInsert fuel node n tree w with
    | none => none
    | some (r, w1) => insertEach fuel tree ns (some r) w1

/-- `partitionNodes` on the array segment `nodes` (`count = nodes.length`).
The two recursive calls in the argument list of `NodeNew` are run left to
right. -/
def partitionNodes : Nat → Nat → List Nat → World → Option (Nat × World)
  | 0, _, _, _ => none
  | fuel + 1, tree, nodes, w =>
    match nodes with
    | [] => none
    | [n] => some (n, w)
    | [n0, n1] => NodeNew tree n0 n1 w
    | n0 :: rest =>
      let count := nodes.length
      let bb := rest.foldl (fun acc n => cpBBMerge acc (w.node n).bb) (w.node n0).bb
      let splitWidth := decide (bb.r - bb.l > bb.t - bb.b)
      let bounds := (collectBounds w splitWidth nodes).insertionSort (fun x y => x ≤ y)
      let split := (bounds.getD (count - 1) 0 + bounds.getD count 0) * (1 / 2)
      let a : cpBB := if splitWidth then { bb with r := split } else { bb with t := split }
      let b : cpBB := if splitWidth then { bb with l := split } else { bb with b := split }
      let pr := partitionLoop w a b count 0 count nodes
      if pr.2 = count then
        match insertEach fuel tree pr.1 none w with
        | some (some node, w1) => some (node, w1)
        | _ => none
      else
        match partitionNodes fuel tree (pr.1.take pr.2) w with
        | none => none
        | some (na, w1) =>
          match partitionNodes fuel tree (pr.1.drop pr.2) w1 with
          | none => none
          | some (nb, w2) => NodeNew tree na nb w2

/-- `cpBBTreeOptimize`. -/
def cpBBTreeOptimize (fuel : Nat) (index : Nat) (w : World) : Option World :=
  if ¬ (w.index index).isTree then some w
  else
    match (w.index index).root with
    | none => some w
    | some root =>
      let nodes := (w.index index).leaves.map (fun e => e.2)
      match SubtreeRecycle fuel index root w with
      | none => none
      | some w1 =>
        match partitionNodes fuel index nodes w1 with
        | none => none
        | some (root1, w2) => some (w2.setIndex index { w2.index index with root := some root1 })

/-! ## Concrete scenarios -/

/-- The memory before anything is allocated, with four records per buffer. -/
def World.init : World :=
  { node := fun _ => zeroNode, pair := fun _ => zeroPair, index := fun _ => zeroTree,
    nodeBrk := 0, pairBrk := 0, indexBrk := 0, nodeCount := 4, pairCount := 4,
    external := fun _ _ => [], calls := [] }

/-! ## Segment queries -/

/-- `SubtreeSegmentQuery`; the segment-versus-box test `cpBBIntersectsSegment`
of the absent header `cpBB.h` is the parameter `isect`. -/
def SubtreeSegmentQuery (isect : cpBB → cpVect → cpVect → Bool) :
    Nat → Nat → Nat → cpVect → cpVect → QueryFunc → World → Option World
  | 0, _, _, _, _, _, _ => none
  | fuel + 1, subtree, obj, a, b, func, w =>
    if isect (w.node subtree).bb a b then
      if NodeIsLeaf w subtree then callFunc func obj (w.node subtree).obj w
      else
        match (w.node subtree).a, (w.node subtree).b with
        | some na, some nb =>
          match SubtreeSegmentQuery isect fuel na obj a b func w with
          | none => none
          | some w1 => SubtreeSegmentQuery isect fuel nb obj a b func w1
        | _, _ => none
    else some w

/-- `cpBBTreeSegmentQuery`; the parameter `t_exit` is not used. -/
def cpBBTreeSegmentQuery (isect : cpBB → cpVect → cpVect → Bool) (fuel : Nat) (tree : Nat)
    (obj : Nat) (a b : cpVect) (t_exit : ℚ) (func : QueryFunc) (w : World) : Option World :=
  match (w.index tree).root with
  | some root => SubtreeSegmentQuery isect fuel root obj a b func w
  | none => some w

/-! ## Ghost structure: shapes, lists and invariants -/

/-- The shape of a tree: which node addresses are leaves and which are
internal nodes, with the `a` child first. -/
inductive Shape where
  | leaf (id : Nat)
  | node (id : Nat) (l r : Shape)
deriving DecidableEq, Repr

/-- Address of the root node of a shape. -/
def Shape.root : Shape → Nat
  | Shape.leaf i => i
  | Shape.node i _ _ => i

/-- The leaves of a shape, `a` before `b`. -/
def Shape.leaves : Shape → List Nat
  | Shape.leaf i => [i]
  | Shape.node _ l r => l.leaves ++ r.leaves

/-- The internal nodes of a shape. -/
def Shape.inner : Shape → List Nat
  | Shape.leaf _ => []
  | Shape.node i l r => i :: (l.inner ++ r.inner)

/-- All node addresses of a shape. -/
def Shape.ids (t : Shape) : List Nat := t.inner ++ t.leaves

/-- Height of a shape (a leaf has height one). -/
def Shape.height : Shape → Nat
  | Shape.leaf _ => 1
  | Shape.node _ l r => max l.height r.height + 1

/-- The memory `w` after the callback recorded the calls `cs`. -/
def World.addCalls (w : World) (cs : List (Nat × Nat)) : World :=
  { w with calls := w.calls ++ cs }

/-- The node heap `nd` holds the shape `t` below its root: leaves carry an
object, internal nodes carry none and point to their two children, and both
children point back to their parent.  The parent pointer of the root itself is
left open. -/
def Sub (nd : Nat → Node) : Shape → Prop
  | Shape.leaf i => (nd i).obj ≠ 0
  | Shape.node i l r =>
    (nd i).obj = 0 ∧ (nd i).a = some l.root ∧ (nd i).b = some r.root ∧
      (nd l.root).parent = some i ∧ (nd r.root).parent = some i ∧ Sub nd l ∧ Sub nd r

/-- The node heap holds the shape `t` and the root of `t` has parent `par`. -/
def Rep (nd : Nat → Node) (par : Option Nat) (t : Shape) : Prop :=
  (nd t.root).parent = par ∧ Sub nd t

/-- Every internal node's box is the merge of its children's boxes. -/
def Fit (nd : Nat → Node) : Shape → Prop
  | Shape.leaf _ => True
  | Shape.node i l r =>
    (nd i).bb = cpBBMerge (nd l.root).bb (nd r.root).bb ∧ Fit nd l ∧ Fit nd r

/-- The calls a range query makes on a shape: one per leaf whose box
intersects `bb`, `a` before `b`. -/
def queryCalls (nd : Nat → Node) (obj : Nat) (bb : cpBB) (t : Shape) : List (Nat × Nat) :=
  (t.leaves.filter (fun x => cpBBIntersects (nd x).bb bb)).map (fun x => (obj, (nd x).obj))

/-- The root field of tree `tree` points to the shape `sh` (`none`: the tree
is empty), which the node heap holds with a null parent at the root. -/
def RootRep (w : World) (tree : Nat) : Option Shape → Prop
  | none => (w.index tree).root = none
  | some t => (w.index tree).root = some t.root ∧ Rep w.node none t

/-- The thread of the pair record `pr` that belongs to leaf `x`. -/
def thr (pr : Pair) (x : Nat) : Thread := if pr.a.leaf = some x then pr.a else pr.b

/-- Starting at `head`, the threads that belong to leaf `x` link exactly the
pairs of the list, in order, each pointing back to its predecessor (`prev` for
the first); the `next` field of the last one (or `head` itself, if the list is
empty) is `tl`. -/
def Seg (pm : Nat → Pair) (x : Nat) : Option Nat → Option Nat → List Nat → Option Nat → Prop
  | _, head, [], tl => head = tl
  | prev, head, p :: ps, tl =>
    head = some p ∧ (thr (pm p) x).leaf = some x ∧ (thr (pm p) x).prev = prev ∧
      Seg pm x (some p) (thr (pm p) x).next ps tl

/-- The pair list of leaf `x`, from `head` to the null pointer. -/
def ListFrom (pm : Nat → Pair) (x : Nat) (prev head : Option Nat) (l : List Nat) : Prop :=
  Seg pm x prev head l none

/-- The last element of `l` as a pointer, or `pv` if `l` is empty. -/
def lastOr (pv : Option Nat) (l : List Nat) : Option Nat :=
  match l.getLast? with
  | some q => some q
  | none => pv

/-- Pair `p` has leaf `u` on thread `a` and leaf `v` on thread `b`. -/
def Ends (pm : Nat → Pair) (p u v : Nat) : Prop :=
  (pm p).a.leaf = some u ∧ (pm p).b.leaf = some v

/-- The pair record `pr` with the `prev` field of the thread of `y` set to `v`. -/
def Pair.setPrev (pr : Pair) (y : Option Nat) (v : Option Nat) : Pair :=
  if pr.a.leaf = y then { pr with a := { pr.a with prev := v } }
  else { pr with b := { pr.b with prev := v } }

/-- The pair record `pr` with the `next` field of the thread of `y` set to `v`. -/
def Pair.setNext (pr : Pair) (y : Option Nat) (v : Option Nat) : Pair :=
  if pr.a.leaf = y then { pr with a := { pr.a with next := v } }
  else { pr with b := { pr.b with next := v } }

/-- A singly linked chain through `nxt` that starts at `head`. -/
def Chain (nxt : Nat → Option Nat) : Option Nat → List Nat → Prop
  | head, [] => head = none
  | head, p :: ps => head = some p ∧ Chain nxt (nxt p) ps

/-- The pair heap after `if(next) setPrevOn(next, y, v)` where `next` is the
head pointer of the pair list of leaf `y`. -/
def linkHead (pm : Nat → Pair) (y : Nat) (next : Option Nat) (v : Option Nat) : Nat → Pair :=
  match next with
  | some n => upd pm n ((pm n).setPrev (some y) v)
  | none => pm

/-- The pair heap after `ThreadUnlink` of the thread `T` of leaf `y`. -/
def unlinkMap (pm : Nat → Pair) (y : Nat) (T : Thread) : Nat → Pair :=
  match T.prev with
  | some q =>
    upd (linkHead pm y T.next T.prev) q
      ((linkHead pm y T.next T.prev q).setNext (some y) T.next)
  | none => linkHead pm y T.next none

/-- The node heap after `ThreadUnlink` of the thread `T` of leaf `y`. -/
def unlinkNodes (nd : Nat → Node) (y : Nat) (T : Thread) : Nat → Node :=
  match T.prev with
  | some _ => nd
  | none => upd nd y { nd y with pairs := T.next }

/-- The pair structure of the live leaves `lv`: `L x` is the pair list of leaf
`x`, every pair of a list joins two different live leaves and is in the list of
both, and `FP` is the free list of the pair pool of `tree`. -/
structure PairInv (w : World) (tree : Nat) (lv : List Nat) (L : Nat → List Nat)
    (FP : List Nat) : Prop where
  list : ∀ x ∈ lv, ListFrom w.pair x none (w.node x).pairs (L x)
  nodup : ∀ x ∈ lv, (L x).Nodup
  ends : ∀ x ∈ lv, ∀ p ∈ L x, ∃ y ∈ lv, y ≠ x ∧ p ∈ L y ∧ (Ends w.pair p x y ∨ Ends w.pair p y x)
  chain : Chain (fun p => (w.pair p).a.next) (w.index tree).pooledPairs FP
  freeNodup : FP.Nodup
  fresh : ∀ x ∈ lv, ∀ p ∈ L x, p ∉ FP
  bound : ∀ p ∈ FP, p < w.pairBrk
  boundL : ∀ x ∈ lv, ∀ p ∈ L x, p < w.pairBrk
  count : 0 < w.pairCount

/-- The pair structure while `PairsClear` walks the list of leaf `x`: as
`PairInv`, but the rest of the list of `x` starts at the cursor `cur` (the head
pointer of `x` is already null) and its first pair still points back to `pv`. -/
structure ClearInv (w : World) (tree : Nat) (lv : List Nat) (x : Nat) (pv cur : Option Nat)
    (L : Nat → List Nat) (FP : List Nat) : Prop where
  xmem : x ∈ lv
  segx : Seg w.pair x pv cur (L x) none
  list : ∀ y ∈ lv, y ≠ x → ListFrom w.pair y none (w.node y).pairs (L y)
  nodup : ∀ y ∈ lv, (L y).Nodup
  ends : ∀ y ∈ lv, ∀ p ∈ L y, ∃ z ∈ lv, z ≠ y ∧ p ∈ L z ∧ (Ends w.pair p y z ∨ Ends w.pair p z y)
  chain : Chain (fun p => (w.pair p).a.next) (w.index tree).pooledPairs FP
  freeNodup : FP.Nodup
  fresh : ∀ y ∈ lv, ∀ p ∈ L y, p ∉ FP
  bound : ∀ p ∈ FP, p < w.pairBrk
  boundL : ∀ y ∈ lv, ∀ p ∈ L y, p < w.pairBrk
  count : 0 < w.pairCount

/-- The fields of a node that the pair functions never write. -/
def Node.skel (n : Node) : Node := { n with pairs := none }

/-- The fields of a tree record that the pool functions never write. -/
def cpBBTree.core (t : cpBBTree) : cpBBTree :=
  { t with pooledNodes := none, pooledPairs := none, allocatedBuffers := [] }

/-- What the pair functions leave alone: every node field but `pairs`, every
tree field but the pools, the node heap frontier and the constants. -/
structure PairFrame (tree : Nat) (w w' : World) : Prop where
  skel : ∀ i, (w'.node i).skel = (w.node i).skel
  core : ∀ j, (w'.index j).core = (w.index j).core
  pooledNodes : ∀ j, (w'.index j).pooledNodes = (w.index j).pooledNodes
  other : ∀ j, j ≠ tree → w'.index j = w.index j
  nodeBrk : w'.nodeBrk = w.nodeBrk
  indexBrk : w'.indexBrk = w.indexBrk
  nodeCount : w'.nodeCount = w.nodeCount
  pairCount : w'.pairCount = w.pairCount
  external : w'.external = w.external
  pairBrk : w.pairBrk ≤ w'.pairBrk

/-- What the node functions leave alone: the pair heap, the call log, every
tree field but the pools, the constants, and the `stamp` and `pairs` fields of
every node that is already allocated. -/
structure NodeFrame (tree : Nat) (w w' : World) : Prop where
  pair : w'.pair = w.pair
  calls : w'.calls = w.calls
  core : ∀ j, (w'.index j).core = (w.index j).core
  pooledPairs : ∀ j, (w'.index j).pooledPairs = (w.index j).pooledPairs
  other : ∀ j, j ≠ tree → w'.index j = w.index j
  pairBrk : w'.pairBrk = w.pairBrk
  indexBrk : w'.indexBrk = w.indexBrk
  nodeCount : w'.nodeCount = w.nodeCount
  pairCount : w'.pairCount = w.pairCount
  external : w'.external = w.external
  nodeBrk : w.nodeBrk ≤ w'.nodeBrk
  stamp : ∀ i, i < w.nodeBrk → (w'.node i).stamp = (w.node i).stamp
  pairs : ∀ i, i < w.nodeBrk → (w'.node i).pairs = (w.node i).pairs

/-- The node pool of `tree`: its free list is `FN`. -/
structure NodePool (w : World) (tree : Nat) (FN : List Nat) : Prop where
  chain : Chain (fun i => (w.node i).parent) (w.index tree).pooledNodes FN
  nodup : FN.Nodup
  bound : ∀ i ∈ FN, i < w.nodeBrk
  count : 0 < w.nodeCount

/-- The shape `SubtreeInsert` builds from `t` when it inserts the leaf `x` and
takes the internal node `n` from the pool; the descent reads the boxes of `nd`. -/
def insShape (nd : Nat → Node) (x n : Nat) : Shape → Shape
  | Shape.leaf i => Shape.node n (Shape.leaf x) (Shape.leaf i)
  | Shape.node i l r =>
    if cpBBArea (nd l.root).bb + cpBBMergedArea (nd r.root).bb (nd x).bb <
        cpBBArea (nd r.root).bb + cpBBMergedArea (nd l.root).bb (nd x).bb then
      Shape.node i l (insShape nd x n r)
    else Shape.node i (insShape nd x n l) r

/-- Node record `m` is `n` up to the parent pointer. -/
def Node.sameButParent (n m : Node) : Prop := m = { n with parent := m.parent }

/-- The parent pointer the root of the shape built by `SubtreeInsert` has on
return: null for a fresh internal node, untouched for an old one. -/
def insParent (nd : Nat → Node) : Shape → Option Nat
  | Shape.leaf _ => none
  | Shape.node i _ _ => (nd i).parent

/-- One step of the path from a node up to the root: the internal node `id`
and the subtree `sib` on its other side.  `left`: the path comes up through
child `a`; `right`: through child `b`. -/
inductive Frame where
  | left (id : Nat) (sib : Shape)
  | right (id : Nat) (sib : Shape)
deriving DecidableEq

/-- The internal node of a frame. -/
def Frame.id : Frame → Nat
  | Frame.left i _ => i
  | Frame.right i _ => i

/-- The sibling subtree of a frame. -/
def Frame.sib : Frame → Shape
  | Frame.left _ s => s
  | Frame.right _ s => s

/-- The shape with `t` put below a frame. -/
def Frame.fill : Frame → Shape → Shape
  | Frame.left i s, t => Shape.node i t s
  | Frame.right i s, t => Shape.node i s t

/-- The shape with `t` put at the bottom of a path (innermost frame first). -/
def plug : List Frame → Shape → Shape
  | [], t => t
  | f :: fs, t => plug fs (f.fill t)

/-- All node addresses of a path. -/
def ctxIds : List Frame → List Nat
  | [] => []
  | f :: fs => f.id :: (f.sib.ids ++ ctxIds fs)

/-- The leaves on the other sides of a path, innermost frame first. -/
def ctxLeaves : List Frame → List Nat
  | [] => []
  | f :: fs => f.sib.leaves ++ ctxLeaves fs

/-- The pointer to the innermost internal node of a path. -/
def ctxHead : List Frame → Option Nat
  | [] => none
  | f :: _ => some f.id

/-- The node heap holds the path `fs` above the node `h`. -/
def CtxSub (nd : Nat → Node) : List Frame → Nat → Prop
  | [], _ => True
  | Frame.left i s :: fs, h =>
    (nd i).obj = 0 ∧ (nd i).a = some h ∧ (nd i).b = some s.root ∧ (nd h).parent = some i ∧
      (nd s.root).parent = some i ∧ Sub nd s ∧ CtxSub nd fs i
  | Frame.right i s :: fs, h =>
    (nd i).obj = 0 ∧ (nd i).a = some s.root ∧ (nd i).b = some h ∧ (nd s.root).parent = some i ∧
      (nd h).parent = some i ∧ Sub nd s ∧ CtxSub nd fs i

/-- Root address of `plug fs t` when `t` has root `h`. -/
def ctxRoot : List Frame → Nat → Nat
  | [], h => h
  | f :: fs, _ => ctxRoot fs f.id

/-- Node record `m` is `n` up to the box. -/
def Node.sameButBB (n m : Node) : Prop := m = { n with bb := m.bb }

/-- The box an internal node of a path must carry when the node below it on
the path is `h`: the merge of the boxes of its two children, child `a` first. -/
def Frame.box (f : Frame) (nd : Nat → Node) (h : Nat) : cpBB :=
  match f with
  | Frame.left _ s => cpBBMerge (nd h).bb (nd s.root).bb
  | Frame.right _ s => cpBBMerge (nd s.root).bb (nd h).bb

/-- `NodeOther` as a function of the node heap. -/
def NodeOther' (nd : Nat → Node) (node child : Nat) : Option Nat :=
  if (nd node).a = some child then (nd node).b else (nd node).a

/-! ## Concrete scenarios -/

/-- The box function of the scenarios: object 1 has box {0,0,10,10}, object 2
has {5,5,15,15}, object 3 has {0,0,5,5}, object 4 has {3,3,8,8}. -/
def scenarioBB (o : Nat) : cpBB :=
  if o = 1 then ⟨0, 0, 10, 10⟩ else if o = 2 then ⟨5, 5, 15, 15⟩
  else if o = 3 then ⟨0, 0, 5, 5⟩ else if o = 4 then ⟨3, 3, 8, 8⟩ else ⟨100, 100, 110, 110⟩

/-- A standalone tree (index 0) after objects 1 and 2 were inserted. -/
def twoLeafWorld : World :=
  (((cpBBTreeInsert 10 0 1 1 (cpBBTreeNew scenarioBB none World.init).2).bind
    (cpBBTreeInsert 10 0 2 2))).getD World.init

/-- What a recording callback adds to the call log; the empty callback adds
nothing. -/
def logOf (func : QueryFunc) (cs : List (Nat × Nat)) : List (Nat × Nat) :=
  match func with
  | QueryFunc.record => cs
  | _ => []

/-- The leaves of `s` whose box intersects the box of leaf `x`, `a` before `b`. -/
def hits (nd : Nat → Node) (x : Nat) (s : Shape) : List Nat :=
  s.leaves.filter (fun y => cpBBIntersects (nd x).bb (nd y).bb)

/-- The leaves of `s` for which `MarkLeafQuery` on behalf of leaf `x` inserts a
pair, each with the `left` flag of the call. -/
def insOf (nd : Nat → Node) (x : Nat) (left : Bool) (s : Shape) : List (Nat × Bool) :=
  ((hits nd x s).filter (fun y => left || decide ((nd y).stamp < (nd x).stamp))).map
    (fun y => (y, left))

/-- The calls `MarkLeafQuery` on behalf of leaf `x` makes on the shape `s`. -/
def markCalls (nd : Nat → Node) (x : Nat) (left : Bool) (s : Shape) : List (Nat × Nat) :=
  if left then [] else (hits nd x s).map (fun y => ((nd x).obj, (nd y).obj))

/-- How the pair lists grow when pairs between leaf `x` and the leaves of `ins`
are inserted one after the other: the list of `x` gains the new pairs `N`
(newest first), the list of every leaf of `ins` gains its pair at the head, and
the flag of an entry tells which thread of the pair belongs to `x`. -/
structure Grown (lv : List Nat) (x : Nat) (pm : Nat → Pair) (L : Nat → List Nat)
    (pm' : Nat → Pair) (L' : Nat → List Nat) (ins : List (Nat × Bool)) : Prop where
  keep : ∀ z, z ≠ x → z ∉ ins.map Prod.fst → L' z = L z
  mono : ∀ z, ∀ q ∈ L z, q ∈ L' z
  leafs : ∀ z ∈ lv, ∀ q ∈ L z,
    (pm' q).a.leaf = (pm q).a.leaf ∧ (pm' q).b.leaf = (pm q).b.leaf
  grow : ∃ N, L' x = N ++ L x ∧
    List.Forall₂ (fun p e => (∀ z ∈ lv, p ∉ L z) ∧ L' e.1 = p :: L e.1 ∧
      (if e.2 = true then Ends pm' p x e.1 else Ends pm' p e.1 x)) N ins.reverse

/-- Whether the path comes up through child `a` at this frame. -/
def Frame.isLeft : Frame → Bool
  | Frame.left _ _ => true
  | Frame.right _ _ => false

/-- The pairs the walk of `MarkLeaf` from leaf `x` up the path inserts. -/
def upIns (nd : Nat → Node) (x : Nat) : List Frame → List (Nat × Bool)
  | [] => []
  | f :: fs => insOf nd x f.isLeft f.sib ++ upIns nd x fs

/-- The calls the walk of `MarkLeaf` from leaf `x` up the path makes. -/
def upCalls (nd : Nat → Node) (x : Nat) : List Frame → List (Nat × Nat)
  | [] => []
  | f :: fs => markCalls nd x f.isLeft f.sib ++ upCalls nd x fs

/-- The calls `MarkLeaf` makes for an unmoved leaf `x` with pair list `l`: one
for every pair that has `x` on thread `b`. -/
def cachedCalls (nd : Nat → Node) (pm : Nat → Pair) (x : Nat) (l : List Nat) :
    List (Nat × Nat) :=
  (l.filter (fun p => decide ((pm p).b.leaf = some x))).map
    (fun p => ((nd ((pm p).a.leaf.getD 0)).obj, (nd x).obj))

/-! ## Well-formed trees -/

/-- A box with `l ≤ r` and `b ≤ t`. -/
def cpBBValid (bb : cpBB) : Prop := bb.l ≤ bb.r ∧ bb.b ≤ bb.t

/-- The leaves of a tree shape, none for the empty tree. -/
def shLeaves : Option Shape → List Nat
  | none => []
  | some t => t.leaves

/-- The node addresses of a tree shape, none for the empty tree. -/
def shIds : Option Shape → List Nat
  | none => []
  | some t => t.ids

/-- A standalone tree whose structure is sound: `sh` is its shape, `L` the pair
lists of its leaves, `FN` and `FP` the free lists of its node pool and pair
pool; every leaf stamp is below the tree stamp plus `slack` (`slack = 1` while
an operation runs and moved leaves carry the current stamp). -/
structure TreeOK (slack : Nat) (w : World) (tree : Nat) (sh : Option Shape)
    (L : Nat → List Nat) (FN FP : List Nat) : Prop where
  isTree : (w.index tree).isTree = true
  noStatic : (w.index tree).staticIndex = none
  noDynamic : (w.index tree).dynamicIndex = none
  root : RootRep w tree sh
  nodup : (shIds sh).Nodup
  fit : ∀ t, sh = some t → Fit w.node t
  pool : NodePool w tree FN
  live : ∀ i ∈ shIds sh, i < w.nodeBrk ∧ i ∉ FN
  pairs : PairInv w tree (shLeaves sh) L FP
  stamps : ∀ x ∈ shLeaves sh, (w.node x).stamp < (w.index tree).stamp + slack
  valid : ∀ x ∈ shLeaves sh, cpBBValid (w.node x).bb
  validF : ∀ o, cpBBValid ((w.index tree).bbfunc o)

/-- The hash set of the tree lists exactly the leaves of the shape. -/
def Listed (w : World) (tree : Nat) (sh : Option Shape) : Prop :=
  ((w.index tree).leaves.map Prod.snd).Perm (shLeaves sh)

/-- A well-formed standalone tree between two operations: the structure is
sound, every leaf stamp is below the tree stamp, and the hash set lists the
leaves. -/
def WF (w : World) (tree : Nat) (sh : Option Shape) (L : Nat → List Nat)
    (FN FP : List Nat) : Prop :=
  TreeOK 0 w tree sh L FN FP ∧ Listed w tree sh

/-- The state of a tree while leaf `x` is detached from it: `sh` is the shape
of the rest, and the root field of the tree record is not looked at. -/
structure Detached (w : World) (tree : Nat) (sh : Option Shape) (x : Nat)
    (L : Nat → List Nat) (FN FP : List Nat) : Prop where
  isTree : (w.index tree).isTree = true
  noStatic : (w.index tree).staticIndex = none
  noDynamic : (w.index tree).dynamicIndex = none
  sub : ∀ t, sh = some t → Sub w.node t ∧ (w.node t.root).parent = none ∧ Fit w.node t
  nodup : (x :: shIds sh).Nodup
  xobj : (w.node x).obj ≠ 0
  xpar : sh = none → (w.node x).parent = none
  pool : NodePool w tree FN
  live : ∀ i ∈ x :: shIds sh, i < w.nodeBrk ∧ i ∉ FN
  pairs : PairInv w tree (x :: shLeaves sh) L FP
  stamps : ∀ y ∈ x :: shLeaves sh, (w.node y).stamp < (w.index tree).stamp + 1
  valid : ∀ y ∈ x :: shLeaves sh, cpBBValid (w.node y).bb
  validF : ∀ o, cpBBValid ((w.index tree).bbfunc o)

/-- Tree record `t'` has the configuration of `t`: class, box function,
partners and velocity function. -/
def SameCfg (t t' : cpBBTree) : Prop :=
  t'.isTree = t.isTree ∧ t'.bbfunc = t.bbfunc ∧ t'.staticIndex = t.staticIndex ∧
    t'.dynamicIndex = t.dynamicIndex ∧ t'.velocityFunc = t.velocityFunc

/-- What no operation on `tree` touches: the pair heap apart, the constants,
the other indexes, and the call log when the callback records nothing. -/
structure Outside (tree : Nat) (w w' : World) : Prop where
  cfg : SameCfg (w.index tree) (w'.index tree)
  other : ∀ j, j ≠ tree → w'.index j = w.index j
  indexBrk : w'.indexBrk = w.indexBrk
  nodeCount : w'.nodeCount = w.nodeCount
  pairCount : w'.pairCount = w.pairCount
  external : w'.external = w.external
  nodeBrk : w.nodeBrk ≤ w'.nodeBrk
  pairBrk : w.pairBrk ≤ w'.pairBrk

/-! ## More scenarios -/

/-- The velocity function of the scenarios: every object moves with (1,0). -/
def scenarioVelocity (_o : Nat) : cpVect := ⟨1, 0⟩

/-- A standalone tree (index 0) with the velocity function set, after object 1
(tight box {0,0,10,10}) was inserted. -/
def velocityWorld : World :=
  (cpBBTreeInsert 10 0 1 1
    (cpBBTreeSetVelocityFunc 0 (some scenarioVelocity)
      (cpBBTreeNew scenarioBB none World.init).2)).getD World.init

/-- The box function after object 1 drifted to {0.5,0,10.5,10}. -/
def driftBB (o : Nat) : cpBB :=
  if o = 1 then ⟨1 / 2, 0, 21 / 2, 10⟩ else scenarioBB o

/-- The tree of `velocityWorld` after object 1 drifted. -/
def driftWorld : World :=
  velocityWorld.setIndex 0 { velocityWorld.index 0 with bbfunc := driftBB }

/-- A standalone tree (index 0) that was just created. -/
def emptyTreeWorld : World := (cpBBTreeNew scenarioBB none World.init).2

/-- A segment-versus-box test for the scenarios: the box of the segment
intersects the box. -/
def segmentBoxTest (bb : cpBB) (a b : cpVect) : Bool :=
  cpBBIntersects bb (cpBBNew (min a.x b.x) (min a.y b.y) (max a.x b.x) (max a.y b.y))

/-! ## Paths -/

/-- The nodes on the way from the root of the shape down to leaf `x`. -/
def Shape.path : Shape → Nat → List Nat
  | Shape.leaf i, _ => [i]
  | Shape.node i l r, x => i :: (if x ∈ l.leaves then l.path x else r.path x)

/-- The leaves a segment query reaches: those for which the segment meets the
box of the leaf and of every ancestor. -/
def segLeaves (isect : cpBB → cpVect → cpVect → Bool) (nd : Nat → Node) (a b : cpVect)
    (t : Shape) : List Nat :=
  t.leaves.filter (fun x => (t.path x).all (fun i => isect (nd i).bb a b))

/-! ## Reference definitions -/

/-- Reference definition of subtree insert, after section 4.4 of the
specification: an empty subtree gives the leaf; a leaf subtree gives a new
internal node whose children are the leaf and the subtree; otherwise descend
into `a` if `cost_a ≤ cost_b`, else into `b`, put the result in the place of the
descended child and set the box of the subtree to `merge(subtree.bb, leaf.bb)`. -/
def SubtreeInsertRef : Nat → Option Nat → Nat → Nat → World → Option (Nat × World)
  | _, none, leaf, _, w => some (leaf, w)
  | 0, some _, _, _, _ => none
  | fuel + 1, some subtree, leaf, tree, w =>
    if (w.node subtree).obj ≠ 0 then NodeNew tree leaf subtree w
    else
      match (w.node subtree).a, (w.node subtree).b with
      | some a, some b =>
        let cost_a := cpBBArea (w.node b).bb + cpBBMergedArea (w.node a).bb (w.node leaf).bb
        let cost_b := cpBBArea (w.node a).bb + cpBBMergedArea (w.node b).bb (w.node leaf).bb
        let descended :=
          if cost_a ≤ cost_b then
            (SubtreeInsertRef fuel (some a) leaf tree w).map (fun r => NodeSetA subtree r.1 r.2)
          else
            (SubtreeInsertRef fuel (some b) leaf tree w).map (fun r => NodeSetB subtree r.1 r.2)
        descended.map (fun w2 => (subtree, w2.setNode subtree
          { w2.node subtree with bb := cpBBMerge (w2.node subtree).bb (w2.node leaf).bb }))
      | _, _ => none

/-- The leaves to the left of the hole of a path, `a` before `b`. -/
def ctxBefore : List Frame → List Nat
  | [] => []
  | Frame.left _ _ :: fs => ctxBefore fs
  | Frame.right _ s :: fs => ctxBefore fs ++ s.leaves

/-- The leaves to the right of the hole of a path, `a` before `b`. -/
def ctxAfter : List Frame → List Nat
  | [] => []
  | Frame.left _ s :: fs => s.leaves ++ ctxAfter fs
  | Frame.right _ _ :: fs => ctxAfter fs

/-- The shape that remains when the leaf at the bottom of a path is taken
out: nothing for the root leaf, else the sibling moves up into the place of the
parent. -/
def unplug : List Frame → Option Shape
  | [] => none
  | f :: fs => some (plug fs f.sib)

/-- The internal node that taking out the leaf at the bottom of a path sets
free: its parent, if it has one. -/
def unplugFree : List Frame → List Nat
  | [] => []
  | f :: _ => [f.id]

/-- The tree of `emptyTreeWorld` with object 1 inserted and the leaf of
object 2 minted by the hash set but not yet linked into the tree, together
with that leaf. -/
def pendingLeaf : Nat × World :=
  ((cpBBTreeInsert 10 0 1 1 emptyTreeWorld).bind (cpHashSetInsert 0 2 2)).getD (0, World.init)

/-! ## The public operations -/

/-- A public mutation of a tree. -/
inductive Op where
  | insert (obj hashid : Nat)
  | remove (obj hashid : Nat)
  | reindexObject (obj hashid : Nat)
  | reindexQuery (func : QueryFunc)
  | optimize
deriving DecidableEq

/-- Run a public mutation on `tree`. -/
def Op.run (fuel tree : Nat) : Op → World → Option World
  | Op.insert obj hashid, w => cpBBTreeInsert fuel tree obj hashid w
  | Op.remove obj hashid, w => cpBBTreeRemove fuel tree obj hashid w
  | Op.reindexObject obj hashid, w => cpBBTreeReindexObject fuel tree obj hashid w
  | Op.reindexQuery func, w => cpBBTreeReindexQuery fuel tree func w
  | Op.optimize, w => cpBBTreeOptimize fuel tree w

/-- The preconditions of a public mutation: the caller hands in the hash value
`hash obj` of the object, inserts only a non-null object that is absent,
removes only an object that is present, and passes a callback to a query. -/
def Op.pre (hash : Nat → Nat) (w : World) (tree : Nat) : Op → Prop
  | Op.insert obj hashid =>
    obj ≠ 0 ∧ hashid = hash obj ∧ cpBBTreeContains w tree obj hashid = false
  | Op.remove obj hashid => hashid = hash obj ∧ cpBBTreeContains w tree obj hashid = true
  | Op.reindexObject _ hashid => ∃ obj, hashid = hash obj
  | Op.reindexQuery func => func ≠ QueryFunc.null
  | Op.optimize => True

/-! ## The invariants, read off the heap -/

/-- Node `n` is reachable from the pointer `r` through the child pointers of
internal nodes. -/
inductive Reach (nd : Nat → Node) : Option Nat → Nat → Prop
  | root (r : Nat) : Reach nd (some r) r
  | left (r : Option Nat) (n c : Nat) :
    Reach nd r n → (nd n).obj = 0 → (nd n).a = some c → Reach nd r c
  | right (r : Option Nat) (n c : Nat) :
    Reach nd r n → (nd n).obj = 0 → (nd n).b = some c → Reach nd r c

/-- The leaves the hash index lists are exactly the reachable nodes with an
object, each listed once; an object is contained exactly if a reachable leaf
carries it; the root is null exactly if the count is zero. -/
def IndexInv (hash : Nat → Nat) (w : World) (tree : Nat) : Prop :=
  (∀ n, n ∈ (w.index tree).leaves.map Prod.snd ↔
    (Reach w.node (w.index tree).root n ∧ (w.node n).obj ≠ 0)) ∧
  ((w.index tree).leaves.map Prod.snd).Nodup ∧
  cpBBTreeCount w tree = ((w.index tree).leaves.map Prod.snd).length ∧
  (∀ obj, cpBBTreeContains w tree obj (hash obj) = true ↔
    ∃ n, Reach w.node (w.index tree).root n ∧ (w.node n).obj ≠ 0 ∧ (w.node n).obj = obj) ∧
  ((w.index tree).root = none ↔ cpBBTreeCount w tree = 0)

/-- A well-formed standalone tree whose hash index files every leaf under the
hash value of its object and whose leaves carry distinct objects. -/
structure Sound (hash : Nat → Nat) (w : World) (tree : Nat) (sh : Option Shape)
    (L : Nat → List Nat) (FN FP : List Nat) : Prop where
  wf : WF w tree sh L FN FP
  hashed : ∀ e ∈ (w.index tree).leaves, e.1 = hash (w.node e.2).obj
  distinct : ∀ x ∈ shLeaves sh, ∀ y ∈ shLeaves sh, (w.node x).obj = (w.node y).obj → x = y

/-- The states of a standalone tree with box function `bbfunc` that the public
mutations reach from the newly created tree; the box function returns boxes
with `l ≤ r` and `b ≤ t`, and every mutation is given enough fuel. -/
inductive Reached (hash : Nat → Nat) (bbfunc : Nat → cpBB) : Nat → World → Prop
  | new (w0 : World) : 0 < w0.nodeCount → 0 < w0.pairCount → (∀ o, cpBBValid (bbfunc o)) →
    Reached hash bbfunc (cpBBTreeNew bbfunc none w0).1 (cpBBTreeNew bbfunc none w0).2
  | step (tree : Nat) (w w' : World) (op : Op) (fuel : Nat) :
    Reached hash bbfunc tree w → op.pre hash w tree →
    3 * cpBBTreeCount w tree + w.pairBrk + 2 ≤ fuel → op.run fuel tree w = some w' →
    Reached hash bbfunc tree w'

/-! ## The stamp protocol -/

/-- The fields of a tree record that tell which stamp is authoritative and
what it is: the class, the dynamic partner and the stamp. -/
def cpBBTree.clock (t : cpBBTree) : Bool × Option Nat × Nat :=
  (t.isTree, t.dynamicIndex, t.stamp)

/-- No tree record of `w'` differs from `w` in its class, dynamic partner or
stamp. -/
def SameClock (w w' : World) : Prop := ∀ j, (w'.index j).clock = (w.index j).clock

/-- A static tree (index 0) and a dynamic tree (index 1) that has the static
tree as its partner, both still empty. -/
def pairedWorld : World :=
  (cpBBTreeNew scenarioBB (some 0) (cpBBTreeNew scenarioBB none World.init).2).2

/-! ## The pair cache -/

/-- The number of pair records in the list of leaf `v` that have leaf `u` on
thread `a` and leaf `v` on thread `b`. -/
def links (pm : Nat → Pair) (L : Nat → List Nat) (u v : Nat) : Nat :=
  (L v).countP (fun p => decide ((pm p).a.leaf = some u ∧ (pm p).b.leaf = some v))

/-- One if the stored boxes of the nodes `u` and `v` intersect, else zero. -/
def touch (nd : Nat → Node) (u v : Nat) : Nat :=
  if cpBBIntersects (nd u).bb (nd v).bb then 1 else 0

/-- Whether `LeafUpdate` finds that leaf `x` moved: the tight box of its object
is not inside its stored box. -/
def movedLeaf (w : World) (tree x : Nat) : Bool :=
  !cpBBContainsBB (w.node x).bb ((w.index tree).bbfunc (w.node x).obj)

/-- The callback calls of a list of pairs of leaves: the objects of the two
leaves. -/
def callsOf (nd : Nat → Node) (lc : List (Nat × Nat)) : List (Nat × Nat) :=
  lc.map (fun e => ((nd e.1).obj, (nd e.2).obj))

/-- The calls the walk of `MarkLeaf` from a moved leaf `x` up the path makes,
as pairs of leaves: `x` with every leaf of a sibling to its left whose box
intersects the box of `x`. -/
def upLeafCalls (nd : Nat → Node) (x : Nat) : List Frame → List (Nat × Nat)
  | [] => []
  | f :: fs =>
    (if f.isLeft then [] else (hits nd x f.sib).map (fun y => (x, y))) ++ upLeafCalls nd x fs

/-- The calls `MarkLeaf` makes for an unmoved leaf `x` with pair list `l`, as
pairs of leaves: one for every pair that has `x` on thread `b`. -/
def cachedLeafCalls (pm : Nat → Pair) (x : Nat) (l : List Nat) : List (Nat × Nat) :=
  (l.filter (fun p => decide ((pm p).b.leaf = some x))).map
    (fun p => ((pm p).a.leaf.getD 0, x))

/-! ## The mark pass -/

/-- Whether leaf `x` carries the current stamp of the tree: it moved in the
pass that is under way. -/
def stamped (w : World) (tree x : Nat) : Bool :=
  decide ((w.node x).stamp = (w.index tree).stamp)

/-- Whether leaf `u` comes before leaf `v` in the list `all`. -/
def bef (all : List Nat) (u v : Nat) : Bool :=
  decide (u ∈ all.takeWhile (fun z => decide (z ≠ v)))

/-- The number of pair records with `u` on thread `a` and `v` on thread `b`
that the mark pass has inserted when the leaves `done` are processed: one if
the boxes intersect, `u` comes before `v`, and either `u` moved and is
processed, or `v` moved and is processed and `u` did not move. -/
def passLinks (w : World) (tree : Nat) (all done : List Nat) (u v : Nat) : Nat :=
  (if stamped w tree u = true ∧ u ∈ done ∧ bef all u v = true ∧
      cpBBIntersects (w.node u).bb (w.node v).bb = true then 1 else 0) +
  (if stamped w tree v = true ∧ v ∈ done ∧ bef all u v = true ∧ stamped w tree u = false ∧
      cpBBIntersects (w.node u).bb (w.node v).bb = true then 1 else 0)

/-- The number of calls with the leaves `(a, b)` that the mark pass has made
when the leaves `done` are processed. -/
def passCalls (w : World) (tree : Nat) (L : Nat → List Nat) (all done : List Nat)
    (a b : Nat) : Nat :=
  (if stamped w tree a = true ∧ a ∈ done ∧ bef all b a = true ∧
      cpBBIntersects (w.node a).bb (w.node b).bb = true then 1 else 0) +
  (if stamped w tree b = false ∧ b ∈ done then
    links w.pair L a b +
      (if stamped w tree a = true ∧ bef all a b = true ∧
        cpBBIntersects (w.node a).bb (w.node b).bb = true then 1 else 0)
  else 0)

/-- The state of the mark pass of `cpBBTreeReindexQuery` when the leaves `done`
are processed; `w1` is the state after the leaf updates, with pair lists `L1`,
and `K` bounds the length of the pair lists then. -/
def PassInv (tree : Nat) (func : QueryFunc) (t : Shape) (w1 : World) (L1 : Nat → List Nat)
    (FN : List Nat) (K : Nat) (done : List Nat) (w : World) : Prop :=
  ∃ L FP lc, TreeOK 1 w tree (some t) L FN FP ∧ PairFrame tree w1 w ∧
    (∀ z ∈ t.leaves, z ∉ done → (L z).length ≤ K + done.length) ∧
    w.calls = w1.calls ++ logOf func (callsOf w1.node lc) ∧
    (∀ u ∈ t.leaves, ∀ v ∈ t.leaves, u ≠ v →
      links w.pair L u v = links w1.pair L1 u v + passLinks w1 tree t.leaves done u v) ∧
    (∀ a ∈ t.leaves, ∀ b ∈ t.leaves, a ≠ b →
      lc.count (a, b) = passCalls w1 tree L1 t.leaves done a b) ∧
    (∀ e ∈ lc, e.1 ∈ t.leaves ∧ e.2 ∈ t.leaves ∧ e.1 ≠ e.2) ∧
    ((∀ y ∈ t.leaves, stamped w1 tree y = false) →
      w = w1.addCalls (logOf func (callsOf w1.node lc)) ∧ L = L1)

/-! ## Leaves, read off the heap -/

/-- Node `n` is a leaf of `tree`: it is reachable from the root and carries an
object. -/
def LeafOf (w : World) (tree n : Nat) : Prop :=
  Reach w.node (w.index tree).root n ∧ (w.node n).obj ≠ 0

/-- The box function after object 2 moved to {100,100,110,110}. -/
def farBB (o : Nat) : cpBB :=
  if o = 2 then ⟨100, 100, 110, 110⟩ else scenarioBB o

/-- The tree of `twoLeafWorld` after object 2 moved away. -/
def farWorld : World := twoLeafWorld.setIndex 0 { twoLeafWorld.index 0 with bbfunc := farBB }

/-! ## The split of `partitionNodes` -/

/-- The split `partitionNodes` computes for a group of nodes: whether it
splits the width, and the two child boxes `a` and `b`. -/
def splitOf (w : World) : List Nat → Bool × cpBB × cpBB
  | [] => (false, ⟨0, 0, 0, 0⟩, ⟨0, 0, 0, 0⟩)
  | n0 :: rest =>
    let count := (n0 :: rest).length
    let bb := rest.foldl (fun acc n => cpBBMerge acc (w.node n).bb) (w.node n0).bb
    let splitWidth := decide (bb.r - bb.l > bb.t - bb.b)
    let bounds := (collectBounds w splitWidth (n0 :: rest)).insertionSort (fun x y => x ≤ y)
    let split := (bounds.getD (count - 1) 0 + bounds.getD count 0) * (1 / 2)
    let a : cpBB := if splitWidth then { bb with r := split } else { bb with t := split }
    let b : cpBB := if splitWidth then { bb with l := split } else { bb with b := split }
    (splitWidth, a, b)

/-- The array and the value of `right` after the partition loop of
`partitionNodes`. -/
def partitionOf (w : World) (nodes : List Nat) : List Nat × Nat :=
  partitionLoop w (splitOf w nodes).2.1 (splitOf w nodes).2.2 nodes.length 0 nodes.length nodes

/-- The lower bound of a box on the split axis. -/
def lowerOn (splitWidth : Bool) (bb : cpBB) : ℚ := if splitWidth then bb.l else bb.b

/-! ## More scenarios -/

/-- The tree of `twoLeafWorld` after object 4 (box {3,3,8,8}) was inserted. -/
def threeLeafWorld : World := (cpBBTreeInsert 20 0 4 4 twoLeafWorld).getD World.init

/-! ## Reading and filling pair lists -/

/-- The pairs met when the pair list of leaf `x` is walked from `head` along
the `next` pointers of the threads of `x`, at most `fuel` of them. -/
def walkPairs (pm : Nat → Pair) (x : Nat) : Nat → Option Nat → List Nat
  | 0, _ => []
  | _ + 1, none => []
  | fuel + 1, some p => p :: walkPairs pm x fuel (thr (pm p) x).next

/-- A sequence of `PairInsert` calls, one for each pair of leaves of the list. -/
def pairInsertEach (tree : Nat) : List (Nat × Nat) → World → Option World
  | [], w => some w
  | e :: rest, w => (PairInsert e.1 e.2 tree w).bind (pairInsertEach tree rest)

/-- Of the pair records `ps`, made in this order for the pairs of leaves
`ins`, those that have leaf `x` at an end, in the order in which they were
made. -/
def newOf : List Nat → List (Nat × Nat) → Nat → List Nat
  | p :: ps, e :: ins, x => (if e.1 = x ∨ e.2 = x then [p] else []) ++ newOf ps ins x
  | _, _, _ => []

/-- The box function after object 2 moved to {4,4,14,14}, which its stored
box {5,5,15,15} does not contain. -/
def nudgeBB (o : Nat) : cpBB :=
  if o = 2 then ⟨4, 4, 14, 14⟩ else scenarioBB o

/-- The tree of `twoLeafWorld` after object 2 moved a little. -/
def nudgeWorld : World :=
  twoLeafWorld.setIndex 0 { twoLeafWorld.index 0 with bbfunc := nudgeBB }

/-- The memory between the two calls of `cpBBTreeReindexObject` for object 2
in `nudgeWorld`: `LeafUpdate` has run on its leaf 3, `LeafAddPairs` has not. -/
def nudgedWorld : World := ((LeafUpdate 20 3 0 nudgeWorld).getD (false, World.init)).2

/-- The box function after object 5 moved to {0,0,5,5}. -/
def homeBB (o : Nat) : cpBB :=
  if o = 5 then ⟨0, 0, 5, 5⟩ else scenarioBB o

/-- The two trees of `pairedWorld` after object 4 (box {3,3,8,8}) was inserted
into the dynamic tree 1 and object 5 (box {100,100,110,110}) into the static
tree 0. -/
def apartWorld : World :=
  ((cpBBTreeInsert 10 1 4 4 pairedWorld).bind (cpBBTreeInsert 10 0 5 5)).getD World.init

/-- The trees of `apartWorld` after object 5 moved onto object 4. -/
def meetWorld : World := apartWorld.setIndex 0 { apartWorld.index 0 with bbfunc := homeBB }

/-- The memory between the two calls of `cpBBTreeReindexObject` for object 5
in `meetWorld`: `LeafUpdate` has run on its leaf 4, `LeafAddPairs` has not. -/
def metWorld : World := ((LeafUpdate 20 4 0 meetWorld).getD (false, World.init)).2

/-- The two trees of `pairedWorld` after object 3 was inserted into the static
tree 0; the dynamic tree 1 is empty. -/
def loneWorld : World := (cpBBTreeInsert 10 0 3 3 pairedWorld).getD World.init

/-- All objects have the box {0,0,1,1}. -/
def sameBB (_o : Nat) : cpBB := ⟨0, 0, 1, 1⟩

/-- Unit boxes in a row: object 1 at {0,0,1,1}, object 2 at {1,0,2,1},
object 3 at {2,0,3,1}, and every other object at {10,0,11,1}. -/
def rowBB (o : Nat) : cpBB :=
  if o = 1 then ⟨0, 0, 1, 1⟩ else if o = 2 then ⟨1, 0, 2, 1⟩
  else if o = 3 then ⟨2, 0, 3, 1⟩ else ⟨10, 0, 11, 1⟩

/-- A standalone tree (index 0) with box function `f` after the objects 1 to
`n` were inserted in this order. -/
def leafWorld (f : Nat → cpBB) : Nat → World
  | 0 => (cpBBTreeNew f none World.init).2
  | n + 1 => (cpBBTreeInsert 20 0 (n + 1) (n + 1) (leafWorld f n)).getD World.init

/-- The memory after `SubtreeRecycle` in `cpBBTreeOptimize` on `leafWorld f n`;
this is what `partitionNodes` starts from. -/
def recycledWorld (f : Nat → cpBB) (n : Nat) : World :=
  (((leafWorld f n).index 0).root.bind (fun r => SubtreeRecycle 20 0 r (leafWorld f n))).getD
    World.init

/-- The shape the node heap holds below node `n`, read along the child
pointers down to the nodes that carry an object. -/
def shapeAt (nd : Nat → Node) : Nat → Nat → Option Shape
  | 0, _ => none
  | fuel + 1, n =>
    if (nd n).obj ≠ 0 then some (Shape.leaf n)
    else
      match (nd n).a, (nd n).b with
      | some a, some b =>
        (shapeAt nd fuel a).bind (fun sa => (shapeAt nd fuel b).map (Shape.node n sa))
      | _, _ => none

/-- The shape of tree `tree`, read off the heap from its root. -/
def treeShape (w : World) (fuel tree : Nat) : Option Shape :=
  (w.index tree).root.bind (shapeAt w.node fuel)

/-- A shape is balanced: at every internal node the heights of the two child
subtrees differ by at most one. -/
def Shape.Balanced : Shape → Prop
  | Shape.leaf _ => True
  | Shape.node _ l r =>
    (l.height ≤ r.height + 1 ∧ r.height ≤ l.height + 1) ∧ l.Balanced ∧ r.Balanced

instance Shape.decBalanced : (t : Shape) → Decidable t.Balanced
  | Shape.leaf _ => isTrue trivial
  | Shape.node _ l r =>
    have := Shape.decBalanced l
    have := Shape.decBalanced r
    inferInstanceAs (Decidable ((l.height ≤ r.height + 1 ∧ r.height ≤ l.height + 1) ∧
      l.Balanced ∧ r.Balanced))

/-! ## The state inside `NodeReplaceChild` -/

/-- The memory when `NodeReplaceChild` enters its loop: `child` is recycled
and `value` has taken its slot below `parent`. -/
def replaceEntry (parent child value tree : Nat) (w : World) : World :=
  if (w.node parent).a = some child then NodeSetA parent value (NodeRecycle tree child w)
  else NodeSetB parent value (NodeRecycle tree child w)

/-! ## The segment query of a shape (`cpShape.c`) -/

/-- The fields of `struct cpShape` that `cpShapeSegmentQuery` reads.  The
struct is declared in the header `cpShape.h`, which is not among the sources:
`klass` is the address of the shape class, `group` and `layers` are unsigned
integers. -/
structure cpShape where
  klass : Nat
  group : Nat
  layers : Nat
deriving DecidableEq

/-- One call of the `segmentQuery` function of a shape class: the class, the
shape, the two end points and the `info` pointer. -/
structure SegmentCall where
  klass : Nat
  shape : cpShape
  a : cpVect
  b : cpVect
  info : Option Nat
deriving DecidableEq

/-- `cpShapeSegmentQuery`.  `segmentQuery k` is the function that the class
at address `k` has in its `segmentQuery` slot; it returns a pointer (`none` is
`NULL`) and may change the memory `s`.  The result is the returned pointer, the
memory, and the calls of class functions that were made. -/
def cpShapeSegmentQuery {σ : Type}
    (segmentQuery : Nat → cpShape → cpVect → cpVect → Option Nat → σ → Option Nat × σ)
    (shape : cpShape) (a b : cpVect) (layers group : Nat) (info : Option Nat) (s : σ) :
    Option Nat × σ × List SegmentCall :=
  if (group ≠ 0 ∧ shape.group ≠ 0 ∧ group = shape.group) ∨ ¬ ((layers &&& shape.layers) ≠ 0) then
    (none, s, [])
  else
    let r := segmentQuery shape.klass shape a b info s
    (r.1, r.2, [⟨shape.klass, shape, a, b, info⟩])

/-! ## Basic facts about memory updates -/

@[simp] theorem upd_same {α : Type} (m : Nat → α) (i : Nat) (v : α) : upd m i v i = v := by
  simp [upd]

theorem upd_other {α : Type} (m : Nat → α) (i j : Nat) (v : α) (h : j ≠ i) :
    upd m i v j = m j := by
  simp [upd, h]

theorem upd_apply {α : Type} (m : Nat → α) (i j : Nat) (v : α) :
    upd m i v j = if j = i then v else m j := rfl

@[simp] theorem setNode_node (w : World) (i : Nat) (n : Node) :
    (w.setNode i n).node = upd w.node i n := rfl
@[simp] theorem setNode_pair (w : World) (i : Nat) (n : Node) : (w.setNode i n).pair = w.pair := rfl
@[simp] theorem setNode_index (w : World) (i : Nat) (n : Node) :
    (w.setNode i n).index = w.index := rfl
@[simp] theorem setNode_nodeBrk (w : World) (i : Nat) (n : Node) :
    (w.setNode i n).nodeBrk = w.nodeBrk := rfl
@[simp] theorem setNode_pairBrk (w : World) (i : Nat) (n : Node) :
    (w.setNode i n).pairBrk = w.pairBrk := rfl
@[simp] theorem setNode_indexBrk (w : World) (i : Nat) (n : Node) :
    (w.setNode i n).indexBrk = w.indexBrk := rfl
@[simp] theorem setNode_nodeCount (w : World) (i : Nat) (n : Node) :
    (w.setNode i n).nodeCount = w.nodeCount := rfl
@[simp] theorem setNode_pairCount (w : World) (i : Nat) (n : Node) :
    (w.setNode i n).pairCount = w.pairCount := rfl
@[simp] theorem setNode_external (w : World) (i : Nat) (n : Node) :
    (w.setNode i n).external = w.external := rfl
@[simp] theorem setNode_calls (w : World) (i : Nat) (n : Node) :
    (w.setNode i n).calls = w.calls := rfl

@[simp] theorem setPair_node (w : World) (i : Nat) (p : Pair) : (w.setPair i p).node = w.node := rfl
@[simp] theorem setPair_pair (w : World) (i : Nat) (p : Pair) :
    (w.setPair i p).pair = upd w.pair i p := rfl
@[simp] theorem setPair_index (w : World) (i : Nat) (p : Pair) :
    (w.setPair i p).index = w.index := rfl
@[simp] theorem setPair_nodeBrk (w : World) (i : Nat) (p : Pair) :
    (w.setPair i p).nodeBrk = w.nodeBrk := rfl
@[simp] theorem setPair_pairBrk (w : World) (i : Nat) (p : Pair) :
    (w.setPair i p).pairBrk = w.pairBrk := rfl
@[simp] theorem setPair_indexBrk (w : World) (i : Nat) (p : Pair) :
    (w.setPair i p).indexBrk = w.indexBrk := rfl
@[simp] theorem setPair_nodeCount (w : World) (i : Nat) (p : Pair) :
    (w.setPair i p).nodeCount = w.nodeCount := rfl
@[simp] theorem setPair_pairCount (w : World) (i : Nat) (p : Pair) :
    (w.setPair i p).pairCount = w.pairCount := rfl
@[simp] theorem setPair_external (w : World) (i : Nat) (p : Pair) :
    (w.setPair i p).external = w.external := rfl
@[simp] theorem setPair_calls (w : World) (i : Nat) (p : Pair) :
    (w.setPair i p).calls = w.calls := rfl

@[simp] theorem setIndex_node (w : World) (i : Nat) (t : cpBBTree) :
    (w.setIndex i t).node = w.node := rfl
@[simp] theorem setIndex_pair (w : World) (i : Nat) (t : cpBBTree) :
    (w.setIndex i t).pair = w.pair := rfl
@[simp] theorem setIndex_index (w : World) (i : Nat) (t : cpBBTree) :
    (w.setIndex i t).index = upd w.index i t := rfl
@[simp] theorem setIndex_nodeBrk (w : World) (i : Nat) (t : cpBBTree) :
    (w.setIndex i t).nodeBrk = w.nodeBrk := rfl
@[simp] theorem setIndex_pairBrk (w : World) (i : Nat) (t : cpBBTree) :
    (w.setIndex i t).pairBrk = w.pairBrk := rfl
@[simp] theorem setIndex_indexBrk (w : World) (i : Nat) (t : cpBBTree) :
    (w.setIndex i t).indexBrk = w.indexBrk := rfl
@[simp] theorem setIndex_nodeCount (w : World) (i : Nat) (t : cpBBTree) :
    (w.setIndex i t).nodeCount = w.nodeCount := rfl
@[simp] theorem setIndex_pairCount (w : World) (i : Nat) (t : cpBBTree) :
    (w.setIndex i t).pairCount = w.pairCount := rfl
@[simp] theorem setIndex_external (w : World) (i : Nat) (t : cpBBTree) :
    (w.setIndex i t).external = w.external := rfl
@[simp] theorem setIndex_calls (w : World) (i : Nat) (t : cpBBTree) :
    (w.setIndex i t).calls = w.calls := rfl

@[simp] theorem addCalls_node (w : World) (cs : List (Nat × Nat)) :
    (w.addCalls cs).node = w.node := rfl
@[simp] theorem addCalls_pair (w : World) (cs : List (Nat × Nat)) :
    (w.addCalls cs).pair = w.pair := rfl
@[simp] theorem addCalls_index (w : World) (cs : List (Nat × Nat)) :
    (w.addCalls cs).index = w.index := rfl
@[simp] theorem addCalls_nodeBrk (w : World) (cs : List (Nat × Nat)) :
    (w.addCalls cs).nodeBrk = w.nodeBrk := rfl
@[simp] theorem addCalls_pairBrk (w : World) (cs : List (Nat × Nat)) :
    (w.addCalls cs).pairBrk = w.pairBrk := rfl
@[simp] theorem addCalls_indexBrk (w : World) (cs : List (Nat × Nat)) :
    (w.addCalls cs).indexBrk = w.indexBrk := rfl
@[simp] theorem addCalls_nodeCount (w : World) (cs : List (Nat × Nat)) :
    (w.addCalls cs).nodeCount = w.nodeCount := rfl
@[simp] theorem addCalls_pairCount (w : World) (cs : List (Nat × Nat)) :
    (w.addCalls cs).pairCount = w.pairCount := rfl
@[simp] theorem addCalls_external (w : World) (cs : List (Nat × Nat)) :
    (w.addCalls cs).external = w.external := rfl
@[simp] theorem addCalls_calls (w : World) (cs : List (Nat × Nat)) :
    (w.addCalls cs).calls = w.calls ++ cs := rfl
@[simp] theorem addCalls_nil (w : World) : w.addCalls [] = w := by
  simp [World.addCalls]
@[simp] theorem addCalls_addCalls (w : World) (cs ds : List (Nat × Nat)) :
    (w.addCalls cs).addCalls ds = w.addCalls (cs ++ ds) := by
  simp [World.addCalls, List.append_assoc]

theorem callFunc_record (a b : Nat) (w : World) :
    callFunc QueryFunc.record a b w = some (w.addCalls [(a, b)]) := rfl

theorem callFunc_void (a b : Nat) (w : World) : callFunc QueryFunc.void a b w = some w := rfl

/-! ## Frames -/

theorem skel_obj {n m : Node} (h : n.skel = m.skel) : n.obj = m.obj := by
  have e := congrArg Node.obj h; exact e
theorem skel_bb {n m : Node} (h : n.skel = m.skel) : n.bb = m.bb := by
  have e := congrArg Node.bb h; exact e
theorem skel_parent {n m : Node} (h : n.skel = m.skel) : n.parent = m.parent := by
  have e := congrArg Node.parent h; exact e
theorem skel_a {n m : Node} (h : n.skel = m.skel) : n.a = m.a := by
  have e := congrArg Node.a h; exact e
theorem skel_b {n m : Node} (h : n.skel = m.skel) : n.b = m.b := by
  have e := congrArg Node.b h; exact e
theorem skel_stamp {n m : Node} (h : n.skel = m.skel) : n.stamp = m.stamp := by
  have e := congrArg Node.stamp h; exact e

@[simp] theorem skel_setPairs (n : Node) (v : Option Nat) : ({ n with pairs := v } : Node).skel = n.skel :=
  rfl

theorem core_isTree {s t : cpBBTree} (h : s.core = t.core) : s.isTree = t.isTree := by
  have e := congrArg cpBBTree.isTree h; exact e
theorem core_bbfunc {s t : cpBBTree} (h : s.core = t.core) : s.bbfunc = t.bbfunc := by
  have e := congrArg cpBBTree.bbfunc h; exact e
theorem core_staticIndex {s t : cpBBTree} (h : s.core = t.core) : s.staticIndex = t.staticIndex := by
  have e := congrArg cpBBTree.staticIndex h; exact e
theorem core_dynamicIndex {s t : cpBBTree} (h : s.core = t.core) :
    s.dynamicIndex = t.dynamicIndex := by
  have e := congrArg cpBBTree.dynamicIndex h; exact e
theorem core_velocityFunc {s t : cpBBTree} (h : s.core = t.core) :
    s.velocityFunc = t.velocityFunc := by
  have e := congrArg cpBBTree.velocityFunc h; exact e
theorem core_leaves {s t : cpBBTree} (h : s.core = t.core) : s.leaves = t.leaves := by
  have e := congrArg cpBBTree.leaves h; exact e
theorem core_root {s t : cpBBTree} (h : s.core = t.core) : s.root = t.root := by
  have e := congrArg cpBBTree.root h; exact e
theorem core_stamp {s t : cpBBTree} (h : s.core = t.core) : s.stamp = t.stamp := by
  have e := congrArg cpBBTree.stamp h; exact e

@[simp] theorem core_setPooledPairs (t : cpBBTree) (v : Option Nat) :
    ({ t with pooledPairs := v } : cpBBTree).core = t.core := rfl
@[simp] theorem core_setPooledNodes (t : cpBBTree) (v : Option Nat) :
    ({ t with pooledNodes := v } : cpBBTree).core = t.core := rfl
@[simp] theorem core_setBuffers (t : cpBBTree) (v : List Buffer) :
    ({ t with allocatedBuffers := v } : cpBBTree).core = t.core := rfl

theorem PairFrame.pairRefl (tree : Nat) (w : World) : PairFrame tree w w :=
  ⟨fun _ => rfl, fun _ => rfl, fun _ => rfl, fun _ _ => rfl, rfl, rfl, rfl, rfl, rfl,
    Nat.le_refl _⟩

theorem PairFrame.pairTrans {tree : Nat} {w1 w2 w3 : World} (h1 : PairFrame tree w1 w2)
    (h2 : PairFrame tree w2 w3) : PairFrame tree w1 w3 :=
  ⟨fun i => (h2.skel i).trans (h1.skel i), fun j => (h2.core j).trans (h1.core j),
    fun j => (h2.pooledNodes j).trans (h1.pooledNodes j),
    fun j hj => (h2.other j hj).trans (h1.other j hj),
    h2.nodeBrk.trans h1.nodeBrk, h2.indexBrk.trans h1.indexBrk, h2.nodeCount.trans h1.nodeCount,
    h2.pairCount.trans h1.pairCount, h2.external.trans h1.external,
    Nat.le_trans h1.pairBrk h2.pairBrk⟩

/-! ## Shapes -/

@[simp] theorem Shape.root_leaf (i : Nat) : (Shape.leaf i).root = i := rfl
@[simp] theorem Shape.root_node (i : Nat) (l r : Shape) : (Shape.node i l r).root = i := rfl
@[simp] theorem Shape.leaves_leaf (i : Nat) : (Shape.leaf i).leaves = [i] := rfl
@[simp] theorem Shape.leaves_node (i : Nat) (l r : Shape) :
    (Shape.node i l r).leaves = l.leaves ++ r.leaves := rfl
@[simp] theorem Shape.inner_leaf (i : Nat) : (Shape.leaf i).inner = [] := rfl
@[simp] theorem Shape.inner_node (i : Nat) (l r : Shape) :
    (Shape.node i l r).inner = i :: (l.inner ++ r.inner) := rfl
@[simp] theorem Shape.height_leaf (i : Nat) : (Shape.leaf i).height = 1 := rfl
@[simp] theorem Shape.height_node (i : Nat) (l r : Shape) :
    (Shape.node i l r).height = max l.height r.height + 1 := rfl

theorem Shape.height_pos (t : Shape) : 0 < t.height := by
  cases t <;> simp

theorem Shape.root_mem_ids (t : Shape) : t.root ∈ t.ids := by
  cases t <;> simp [Shape.ids]

theorem Shape.mem_ids_node (x i : Nat) (l r : Shape) :
    x ∈ (Shape.node i l r).ids ↔ x = i ∨ x ∈ l.ids ∨ x ∈ r.ids := by
  simp only [Shape.ids, Shape.inner_node, Shape.leaves_node, List.cons_append, List.mem_cons,
    List.mem_append]
  constructor
  · rintro (h | (h | h) | h | h) <;> simp [h]
  · rintro (h | (h | h) | h | h) <;> simp [h]

theorem Shape.leaves_ne_nil (t : Shape) : t.leaves ≠ [] := by
  induction t with
  | leaf i => simp
  | node i l r ihl _ => simp [ihl]

theorem Shape.leaf_mem_ids (t : Shape) (x : Nat) (h : x ∈ t.leaves) : x ∈ t.ids := by
  simp [Shape.ids, h]

theorem Shape.inner_mem_ids (t : Shape) (x : Nat) (h : x ∈ t.inner) : x ∈ t.ids := by
  simp [Shape.ids, h]

/-! ## Boxes -/

theorem cpBBIntersects_merge_left (a b q : cpBB) (h : cpBBIntersects a q = true) :
    cpBBIntersects (cpBBMerge a b) q = true := by
  simp only [cpBBIntersects, cpBBMerge, cpBBNew, Bool.and_eq_true, decide_eq_true_eq] at h ⊢
  obtain ⟨⟨⟨h1, h2⟩, h3⟩, h4⟩ := h
  exact ⟨⟨⟨le_trans (min_le_left _ _) h1, le_trans h2 (le_max_left _ _)⟩,
    le_trans (min_le_left _ _) h3⟩, le_trans h4 (le_max_left _ _)⟩

theorem cpBBIntersects_merge_right (a b q : cpBB) (h : cpBBIntersects b q = true) :
    cpBBIntersects (cpBBMerge a b) q = true := by
  simp only [cpBBIntersects, cpBBMerge, cpBBNew, Bool.and_eq_true, decide_eq_true_eq] at h ⊢
  obtain ⟨⟨⟨h1, h2⟩, h3⟩, h4⟩ := h
  exact ⟨⟨⟨le_trans (min_le_right _ _) h1, le_trans h2 (le_max_right _ _)⟩,
    le_trans (min_le_right _ _) h3⟩, le_trans h4 (le_max_right _ _)⟩

theorem cpBBIntersects_comm (a b : cpBB) : cpBBIntersects a b = cpBBIntersects b a := by
  simp only [cpBBIntersects]
  rw [Bool.eq_iff_iff]
  simp only [Bool.and_eq_true, decide_eq_true_eq]
  tauto

theorem cpBBMerge_comm (a b : cpBB) : cpBBMerge a b = cpBBMerge b a := by
  simp [cpBBMerge, cpBBNew, min_comm, max_comm]

theorem cpBBMerge_assoc (a b c : cpBB) :
    cpBBMerge (cpBBMerge a b) c = cpBBMerge a (cpBBMerge b c) := by
  simp [cpBBMerge, cpBBNew, min_assoc, max_assoc]

/-- A leaf below a fitted shape intersects `q` only if the root box does. -/
theorem root_intersects_of_leaf (nd : Nat → Node) (q : cpBB) :
    ∀ (t : Shape), Fit nd t → ∀ x ∈ t.leaves, cpBBIntersects (nd x).bb q = true →
      cpBBIntersects (nd t.root).bb q = true
  | Shape.leaf i, _, x, hx, h => by
    simp only [Shape.leaves_leaf, List.mem_singleton] at hx
    subst hx; exact h
  | Shape.node i l r, hf, x, hx, h => by
    obtain ⟨hbb, hl, hr⟩ := hf
    simp only [Shape.leaves_node, List.mem_append] at hx
    simp only [Shape.root_node, hbb]
    rcases hx with hx | hx
    · exact cpBBIntersects_merge_left _ _ _ (root_intersects_of_leaf nd q l hl x hx h)
    · exact cpBBIntersects_merge_right _ _ _ (root_intersects_of_leaf nd q r hr x hx h)

theorem queryCalls_of_miss (nd : Nat → Node) (obj : Nat) (q : cpBB) (t : Shape) (hf : Fit nd t)
    (h : cpBBIntersects (nd t.root).bb q = false) : queryCalls nd obj q t = [] := by
  unfold queryCalls
  rw [List.map_eq_nil_iff, List.filter_eq_nil_iff]
  intro x hx hq
  rw [root_intersects_of_leaf nd q t hf x hx hq] at h
  exact Bool.noConfusion h

theorem SubtreeQuery_spec (obj : Nat) (q : cpBB) :
    ∀ (t : Shape) (w : World) (fuel : Nat), Sub w.node t → Fit w.node t →
      t.height ≤ fuel →
      SubtreeQuery fuel t.root obj q QueryFunc.record w =
        some (w.addCalls (queryCalls w.node obj q t))
  | Shape.leaf i, w, fuel, hr, _, hfuel => by
    have hobj : (w.node i).obj ≠ 0 := hr
    cases fuel with
    | zero => simp at hfuel
    | succ fuel =>
      simp only [SubtreeQuery, Shape.root_leaf, NodeIsLeaf, queryCalls, Shape.leaves_leaf]
      by_cases hq : cpBBIntersects (w.node i).bb q = true
      · simp [hq, hobj, callFunc, World.addCalls]
      · simp [hq]
  | Shape.node i l r, w, fuel, hr, hf, hfuel => by
    obtain ⟨hobj, ha, hb, _, _, hl, hrr⟩ := hr
    cases fuel with
    | zero => simp at hfuel
    | succ fuel =>
      simp only [Shape.height_node, Nat.add_le_add_iff_right, max_le_iff] at hfuel
      by_cases hq : cpBBIntersects (w.node i).bb q = true
      · have h1 := SubtreeQuery_spec obj q l w fuel hl hf.2.1 hfuel.1
        have h2 := SubtreeQuery_spec obj q r
          (w.addCalls (queryCalls w.node obj q l)) fuel hrr hf.2.2 hfuel.2
        simp only [SubtreeQuery, Shape.root_node, NodeIsLeaf, hq, hobj, ha, hb, h1, h2]
        simp [queryCalls]
      · have hm := queryCalls_of_miss w.node obj q (Shape.node i l r) hf
          (by simpa using hq)
        simp [SubtreeQuery, hq, hm]

/-! ## Threads -/

theorem setPrevOn_eq (n : Nat) (y v : Option Nat) (w : World) :
    setPrevOn n y v w = w.setPair n ((w.pair n).setPrev y v) := by
  unfold setPrevOn Pair.setPrev
  split <;> rfl

theorem setNextOn_eq (n : Nat) (y v : Option Nat) (w : World) :
    setNextOn n y v w = w.setPair n ((w.pair n).setNext y v) := by
  unfold setNextOn Pair.setNext
  split <;> rfl

@[simp] theorem Pair.setPrev_a_leaf (pr : Pair) (y v : Option Nat) :
    (pr.setPrev y v).a.leaf = pr.a.leaf := by
  unfold Pair.setPrev; split <;> rfl

@[simp] theorem Pair.setPrev_b_leaf (pr : Pair) (y v : Option Nat) :
    (pr.setPrev y v).b.leaf = pr.b.leaf := by
  unfold Pair.setPrev; split <;> rfl

@[simp] theorem Pair.setNext_a_leaf (pr : Pair) (y v : Option Nat) :
    (pr.setNext y v).a.leaf = pr.a.leaf := by
  unfold Pair.setNext; split <;> rfl

@[simp] theorem Pair.setNext_b_leaf (pr : Pair) (y v : Option Nat) :
    (pr.setNext y v).b.leaf = pr.b.leaf := by
  unfold Pair.setNext; split <;> rfl

theorem thr_leaf_iff (pr : Pair) (x : Nat) :
    (thr pr x).leaf = some x ↔ pr.a.leaf = some x ∨ pr.b.leaf = some x := by
  unfold thr
  by_cases h : pr.a.leaf = some x <;> simp [h]

theorem thr_setPrev_same (pr : Pair) (y : Nat) (v : Option Nat) :
    thr (pr.setPrev (some y) v) y = { thr pr y with prev := v } := by
  unfold thr Pair.setPrev
  by_cases h : pr.a.leaf = some y <;> simp [h]

theorem thr_setNext_same (pr : Pair) (y : Nat) (v : Option Nat) :
    thr (pr.setNext (some y) v) y = { thr pr y with next := v } := by
  unfold thr Pair.setNext
  by_cases h : pr.a.leaf = some y <;> simp [h]

theorem thr_setPrev_other (pr : Pair) (y z : Nat) (v : Option Nat) (hz : z ≠ y)
    (hy : (thr pr y).leaf = some y) (hzl : (thr pr z).leaf = some z) :
    thr (pr.setPrev (some y) v) z = thr pr z := by
  have hyz : ¬ (some y : Option Nat) = some z := fun e => hz (Option.some.inj e).symm
  have hzy : ¬ (some z : Option Nat) = some y := fun e => hz (Option.some.inj e)
  by_cases h : pr.a.leaf = some y
  · simp only [thr, Pair.setPrev, h, if_true, hyz, if_false]
  · by_cases h2 : pr.a.leaf = some z
    · have e1 : pr.setPrev (some y) v = { pr with b := { pr.b with prev := v } } := by
        unfold Pair.setPrev; rw [if_neg h]
      rw [e1]; unfold thr; rw [if_pos h2, if_pos (by exact h2)]
    · simp only [thr, h, h2, if_false] at hy hzl
      rw [hy] at hzl
      exact absurd hzl hyz

theorem thr_setNext_other (pr : Pair) (y z : Nat) (v : Option Nat) (hz : z ≠ y)
    (hy : (thr pr y).leaf = some y) (hzl : (thr pr z).leaf = some z) :
    thr (pr.setNext (some y) v) z = thr pr z := by
  have hyz : ¬ (some y : Option Nat) = some z := fun e => hz (Option.some.inj e).symm
  have hzy : ¬ (some z : Option Nat) = some y := fun e => hz (Option.some.inj e)
  by_cases h : pr.a.leaf = some y
  · simp only [thr, Pair.setNext, h, if_true, hyz, if_false]
  · by_cases h2 : pr.a.leaf = some z
    · have e1 : pr.setNext (some y) v = { pr with b := { pr.b with next := v } } := by
        unfold Pair.setNext; rw [if_neg h]
      rw [e1]; unfold thr; rw [if_pos h2, if_pos (by exact h2)]
    · simp only [thr, h, h2, if_false] at hy hzl
      rw [hy] at hzl
      exact absurd hzl hyz

theorem thr_of_ends_left (pm : Nat → Pair) (p u v : Nat) (h : Ends pm p u v) :
    thr (pm p) u = (pm p).a := by
  simp [thr, h.1]

theorem thr_of_ends_right (pm : Nat → Pair) (p u v : Nat) (h : Ends pm p u v) (huv : u ≠ v) :
    thr (pm p) v = (pm p).b := by
  have : ¬ (pm p).a.leaf = some v := by
    rw [h.1]; intro e; exact huv (Option.some.inj e)
  simp [thr, this]

/-! ## List segments -/

theorem Seg_congr (pm pm' : Nat → Pair) (x : Nat) :
    ∀ (l : List Nat) (pv hd tl : Option Nat), (∀ p ∈ l, thr (pm' p) x = thr (pm p) x) →
      Seg pm x pv hd l tl → Seg pm' x pv hd l tl
  | [], _, _, _, _, h => h
  | p :: ps, pv, hd, tl, hc, h => by
    obtain ⟨h1, h2, h3, h4⟩ := h
    have hp := hc p (List.mem_cons_self _ _)
    refine ⟨h1, by rw [hp]; exact h2, by rw [hp]; exact h3, ?_⟩
    rw [hp]
    exact Seg_congr pm pm' x ps _ _ _ (fun q hq => hc q (List.mem_cons_of_mem _ hq)) h4

theorem Seg_mem_leaf (pm : Nat → Pair) (x : Nat) :
    ∀ (l : List Nat) (pv hd tl : Option Nat), Seg pm x pv hd l tl → ∀ p ∈ l,
      (thr (pm p) x).leaf = some x
  | [], _, _, _, _, p, hp => by simp at hp
  | q :: ps, pv, hd, tl, h, p, hp => by
    obtain ⟨_, h2, _, h4⟩ := h
    rcases List.mem_cons.1 hp with e | e
    · subst e; exact h2
    · exact Seg_mem_leaf pm x ps _ _ _ h4 p e

@[simp] theorem lastOr_nil (pv : Option Nat) : lastOr pv [] = pv := rfl

theorem lastOr_cons (pv : Option Nat) (p : Nat) (l : List Nat) :
    lastOr pv (p :: l) = lastOr (some p) l := by
  cases l with
  | nil => simp [lastOr]
  | cons q l =>
    have h : (q :: l).getLast? = some ((q :: l).getLast (List.cons_ne_nil _ _)) :=
      List.getLast?_eq_getLast _ _
    simp only [lastOr, List.getLast?_cons_cons, h]

theorem lastOr_append_singleton (pv : Option Nat) (l : List Nat) (q : Nat) :
    lastOr pv (l ++ [q]) = some q := by
  simp [lastOr]

theorem Seg_append (pm : Nat → Pair) (x : Nat) :
    ∀ (l1 l2 : List Nat) (pv hd tl : Option Nat),
      Seg pm x pv hd (l1 ++ l2) tl ↔
        ∃ mid, Seg pm x pv hd l1 mid ∧ Seg pm x (lastOr pv l1) mid l2 tl
  | [], l2, pv, hd, tl => by
    simp only [List.nil_append, lastOr_nil]
    constructor
    · intro h; exact ⟨hd, rfl, h⟩
    · rintro ⟨mid, h1, h2⟩
      have h1' : hd = mid := h1
      rw [h1']; exact h2
  | p :: ps, l2, pv, hd, tl => by
    simp only [List.cons_append, Seg, lastOr_cons]
    constructor
    · rintro ⟨h1, h2, h3, h4⟩
      obtain ⟨mid, h5, h6⟩ := (Seg_append pm x ps l2 _ _ _).1 h4
      exact ⟨mid, ⟨h1, h2, h3, h5⟩, h6⟩
    · rintro ⟨mid, ⟨h1, h2, h3, h5⟩, h6⟩
      exact ⟨h1, h2, h3, (Seg_append pm x ps l2 _ _ _).2 ⟨mid, h5, h6⟩⟩

/-- Rewriting the `next` field of the thread of the last pair of a segment
moves the end of the segment. -/
theorem Seg_setNext_last (pm : Nat → Pair) (x : Nat) (q : Nat) (v : Option Nat) :
    ∀ (l : List Nat) (pv hd tl : Option Nat), Seg pm x pv hd (l ++ [q]) tl →
      (l ++ [q]).Nodup →
      Seg (upd pm q ((pm q).setNext (some x) v)) x pv hd (l ++ [q]) v
  | [], pv, hd, tl, h, _ => by
    obtain ⟨h1, h2, h3, _⟩ := h
    refine ⟨h1, ?_, ?_, ?_⟩
    · rw [upd_same, thr_setNext_same]; exact h2
    · rw [upd_same, thr_setNext_same]; exact h3
    · rw [upd_same, thr_setNext_same]; rfl
  | p :: ps, pv, hd, tl, h, hn => by
    obtain ⟨h1, h2, h3, h4⟩ := h
    have hpq : p ≠ q := by
      intro e
      simp [e] at hn
    have hn' : (ps ++ [q]).Nodup := (List.nodup_cons.1 hn).2
    have hp : upd pm q ((pm q).setNext (some x) v) p = pm p := upd_other _ _ _ _ hpq
    refine ⟨h1, by rw [hp]; exact h2, by rw [hp]; exact h3, ?_⟩
    rw [hp]
    exact Seg_setNext_last pm x q v ps _ _ _ h4 hn'

/-- Rewriting the `prev` field of the thread of the first pair of a segment
changes the predecessor the segment records. -/
theorem Seg_setPrev_head (pm : Nat → Pair) (x : Nat) (n : Nat) (v : Option Nat)
    (l : List Nat) (pv hd tl : Option Nat) (h : Seg pm x pv hd (n :: l) tl)
    (hn : (n :: l).Nodup) :
    Seg (upd pm n ((pm n).setPrev (some x) v)) x v hd (n :: l) tl := by
  obtain ⟨h1, h2, h3, h4⟩ := h
  refine ⟨h1, ?_, ?_, ?_⟩
  · rw [upd_same, thr_setPrev_same]; exact h2
  · rw [upd_same, thr_setPrev_same]
  · rw [upd_same, thr_setPrev_same]
    refine Seg_congr pm _ x l _ _ _ ?_ h4
    intro p hp
    have : p ≠ n := by
      intro e; subst e; exact (List.nodup_cons.1 hn).1 hp
    rw [upd_other _ _ _ _ this]

/-! ## Chains -/

theorem Chain_congr (nxt nxt' : Nat → Option Nat) :
    ∀ (l : List Nat) (hd : Option Nat), (∀ p ∈ l, nxt' p = nxt p) → Chain nxt hd l →
      Chain nxt' hd l
  | [], _, _, h => h
  | p :: ps, hd, hc, h => by
    obtain ⟨h1, h2⟩ := h
    refine ⟨h1, ?_⟩
    rw [hc p (List.mem_cons_self _ _)]
    exact Chain_congr nxt nxt' ps _ (fun q hq => hc q (List.mem_cons_of_mem _ hq)) h2

theorem Chain_none (nxt : Nat → Option Nat) (l : List Nat) (h : Chain nxt none l) : l = [] := by
  cases l with
  | nil => rfl
  | cons p ps => exact Option.noConfusion h.1

theorem Chain_some (nxt : Nat → Option Nat) (p : Nat) (l : List Nat) (h : Chain nxt (some p) l) :
    ∃ ps, l = p :: ps ∧ Chain nxt (nxt p) ps := by
  cases l with
  | nil => exact Option.noConfusion h
  | cons q ps =>
    obtain ⟨h1, h2⟩ := h
    have e : p = q := Option.some.inj h1
    subst e
    exact ⟨ps, rfl, h2⟩

/-! ## The pair pool -/

theorem PairRecycle_pair (tree p : Nat) (w : World) :
    (PairRecycle tree p w).pair =
      upd w.pair p { w.pair p with a := { (w.pair p).a with next := (w.index tree).pooledPairs } } :=
  rfl

theorem PairRecycle_pair_other (tree p q : Nat) (w : World) (h : q ≠ p) :
    (PairRecycle tree p w).pair q = w.pair q := by
  rw [PairRecycle_pair, upd_other _ _ _ _ h]

theorem PairRecycle_node (tree p : Nat) (w : World) : (PairRecycle tree p w).node = w.node := rfl

theorem PairRecycle_pooled (tree p : Nat) (w : World) :
    ((PairRecycle tree p w).index tree).pooledPairs = some p := by
  simp [PairRecycle]

theorem PairRecycle_pairBrk (tree p : Nat) (w : World) :
    (PairRecycle tree p w).pairBrk = w.pairBrk := rfl

theorem PairRecycle_calls (tree p : Nat) (w : World) :
    (PairRecycle tree p w).calls = w.calls := rfl

theorem PairRecycle_frame (tree p : Nat) (w : World) : PairFrame tree w (PairRecycle tree p w) := by
  refine ⟨fun _ => rfl, ?_, ?_, ?_, rfl, rfl, rfl, rfl, rfl, Nat.le_refl _⟩
  · intro j
    by_cases h : j = tree
    · subst h; simp [PairRecycle]
    · simp [PairRecycle, upd_other _ _ _ _ h]
  · intro j
    by_cases h : j = tree
    · subst h; simp [PairRecycle]
    · simp [PairRecycle, upd_other _ _ _ _ h]
  · intro j h
    simp [PairRecycle, upd_other _ _ _ _ h]

theorem PairRecycle_chain (tree p : Nat) (w : World) (FP : List Nat)
    (h : Chain (fun q => (w.pair q).a.next) (w.index tree).pooledPairs FP) (hp : p ∉ FP) :
    Chain (fun q => ((PairRecycle tree p w).pair q).a.next)
      ((PairRecycle tree p w).index tree).pooledPairs (p :: FP) := by
  refine ⟨PairRecycle_pooled tree p w, ?_⟩
  have e : ((PairRecycle tree p w).pair p).a.next = (w.index tree).pooledPairs := by
    simp [PairRecycle_pair]
  show Chain _ (((PairRecycle tree p w).pair p).a.next) FP
  rw [e]
  refine Chain_congr _ _ FP _ ?_ h
  intro q hq
  have : q ≠ p := fun e => hp (e ▸ hq)
  show ((PairRecycle tree p w).pair q).a.next = (w.pair q).a.next
  rw [PairRecycle_pair_other _ _ _ _ this]

/-- The loop `for(int i=1; i<count; i++) PairRecycle(tree, buffer + i)`. -/
theorem recycleRange_spec (tree buffer : Nat) :
    ∀ (is : List Nat) (w : World) (FP : List Nat),
      Chain (fun q => (w.pair q).a.next) (w.index tree).pooledPairs FP →
      (∀ i ∈ is, buffer + i ∉ FP) → is.Nodup →
      ∃ w', w' = is.foldl (fun v i => PairRecycle tree (buffer + i) v) w ∧
      Chain (fun q => (w'.pair q).a.next) (w'.index tree).pooledPairs
          ((is.map (fun i => buffer + i)).reverse ++ FP) ∧
        (∀ q, q ∉ is.map (fun i => buffer + i) → w'.pair q = w.pair q) ∧
        PairFrame tree w w' ∧ w'.pairBrk = w.pairBrk ∧ w'.calls = w.calls ∧ w'.node = w.node
  | [], w, FP, h, _, _ =>
    ⟨w, rfl, h, fun _ _ => rfl, PairFrame.pairRefl _ _, rfl, rfl, rfl⟩
  | i :: is, w, FP, h, hf, hn => by
    have hi : buffer + i ∉ FP := hf i (List.mem_cons_self _ _)
    have h1 := PairRecycle_chain tree (buffer + i) w FP h hi
    have hn' := List.nodup_cons.1 hn
    have hf' : ∀ j ∈ is, buffer + j ∉ (buffer + i) :: FP := by
      intro j hj hm
      rcases List.mem_cons.1 hm with e | e
      · have : j = i := by omega
        subst this; exact hn'.1 hj
      · exact hf j (List.mem_cons_of_mem _ hj) e
    obtain ⟨w', hw', c, fr, pf, hb, hc, hnd⟩ :=
      recycleRange_spec tree buffer is (PairRecycle tree (buffer + i) w) _ h1 hf' hn'.2
    simp only [List.map_cons, List.reverse_cons, List.append_assoc,
      List.singleton_append]
    refine ⟨w', hw', c, ?_, (PairRecycle_frame tree _ w).pairTrans pf, hb, hc, hnd⟩
    intro q hq
    simp only [List.mem_cons, not_or] at hq
    rw [fr q hq.2, PairRecycle_pair_other _ _ _ _ hq.1]

theorem PairFromPool_spec (tree : Nat) (w : World) (FP : List Nat)
    (hc : Chain (fun q => (w.pair q).a.next) (w.index tree).pooledPairs FP)
    (hn : FP.Nodup) (hb : ∀ q ∈ FP, q < w.pairBrk) (hcount : 0 < w.pairCount) :
    ∃ p w' FP', PairFromPool tree w = some (p, w') ∧
      Chain (fun q => (w'.pair q).a.next) (w'.index tree).pooledPairs FP' ∧
      FP'.Nodup ∧ p ∉ FP' ∧ (∀ q ∈ FP', q < w'.pairBrk) ∧ p < w'.pairBrk ∧
      (p ∈ FP ∨ w.pairBrk ≤ p) ∧ (∀ q ∈ FP', q ∈ FP ∨ w.pairBrk ≤ q) ∧
      (∀ q, q < w.pairBrk → w'.pair q = w.pair q) ∧
      PairFrame tree w w' ∧ w'.calls = w.calls ∧ w'.node = w.node := by
  cases hpool : (w.index tree).pooledPairs with
  | some p =>
    rw [hpool] at hc
    obtain ⟨ps, hFP, hch⟩ := Chain_some _ p FP hc
    subst hFP
    have hnd := List.nodup_cons.1 hn
    refine ⟨p, w.setIndex tree { w.index tree with pooledPairs := (w.pair p).a.next }, ps, ?_,
      ?_, hnd.2, hnd.1, fun q hq => hb q (List.mem_cons_of_mem _ hq),
      hb p (List.mem_cons_self _ _), Or.inl (List.mem_cons_self _ _),
      fun q hq => Or.inl (List.mem_cons_of_mem _ hq), fun _ _ => rfl, ?_, rfl, rfl⟩
    · simp [PairFromPool, hpool]
    · simpa using hch
    · refine ⟨fun _ => rfl, ?_, ?_, ?_, rfl, rfl, rfl, rfl, rfl, Nat.le_refl _⟩
      · intro j
        by_cases h : j = tree
        · subst h; simp
        · simp [upd_other _ _ _ _ h]
      · intro j
        by_cases h : j = tree
        · subst h; simp
        · simp [upd_other _ _ _ _ h]
      · intro j h
        simp [upd_other _ _ _ _ h]
  | none =>
    rw [hpool] at hc
    have hFP := Chain_none _ FP hc
    subst hFP
    let buffer := w.pairBrk
    let count := w.pairCount
    let w1 : World :=
      { w with
        pair := fun j => if buffer ≤ j ∧ j < buffer + count then zeroPair else w.pair j
        pairBrk := buffer + count }
    let w2 := w1.setIndex tree
      { w1.index tree with
        allocatedBuffers := (w1.index tree).allocatedBuffers ++ [Buffer.pairs buffer] }
    have hc2 : Chain (fun q => (w2.pair q).a.next) (w2.index tree).pooledPairs [] := by
      show (w2.index tree).pooledPairs = none
      simp [w2, w1, hpool]
    obtain ⟨w', hw', c, fr, pf, hbk, hcl, hnd⟩ :=
      recycleRange_spec tree buffer (List.range' 1 (count - 1)) w2 [] hc2
        (fun _ _ => List.not_mem_nil _) (List.nodup_range' _ _)
    have hmem : ∀ q, q ∈ (List.range' 1 (count - 1)).map (fun i => buffer + i) →
        buffer + 1 ≤ q ∧ q < buffer + count := by
      intro q hq
      obtain ⟨i, hi, e⟩ := List.mem_map.1 hq
      have := List.mem_range'_1.1 hi
      omega
    refine ⟨buffer, w', ((List.range' 1 (count - 1)).map (fun i => buffer + i)).reverse ++ [], ?_,
      c, ?_, ?_, ?_, ?_, Or.inr (Nat.le_refl _), ?_, ?_, ?_, ?_, ?_⟩
    · have hne : w.pairCount ≠ 0 := Nat.pos_iff_ne_zero.1 hcount
      unfold PairFromPool
      split
      · rename_i p hp
        rw [hpool] at hp
        exact Option.noConfusion hp
      · rw [hw']
        simp only [hne, if_false]
    · simp only [List.append_nil]
      exact List.nodup_reverse.2 ((List.nodup_range' _ _).map (fun a b h => by
        simpa using h))
    · intro hm
      simp only [List.append_nil, List.mem_reverse] at hm
      have := hmem _ hm
      omega
    · intro q hq
      simp only [List.append_nil, List.mem_reverse] at hq
      rw [hbk]
      exact (hmem q hq).2
    · rw [hbk]
      show buffer < buffer + count
      omega
    · intro q hq
      simp only [List.append_nil, List.mem_reverse] at hq
      right
      have := hmem q hq
      show buffer ≤ q
      omega
    · intro q hq
      have hq' : q ∉ (List.range' 1 (count - 1)).map (fun i => buffer + i) := by
        intro hm
        have := hmem q hm
        have hq2 : q < buffer := hq
        omega
      rw [fr q hq']
      have hq2 : ¬ (buffer ≤ q ∧ q < buffer + count) := by
        intro h; have hq2 : q < buffer := hq; omega
      simp [w2, w1, hq2]
    · refine PairFrame.pairTrans ?_ pf
      refine ⟨fun _ => rfl, ?_, ?_, ?_, rfl, rfl, rfl, rfl, rfl, ?_⟩
      · intro j
        by_cases h : j = tree
        · subst h; simp [w2, w1]
        · simp [w2, w1, upd_other _ _ _ _ h]
      · intro j
        by_cases h : j = tree
        · subst h; simp [w2, w1]
        · simp [w2, w1, upd_other _ _ _ _ h]
      · intro j h
        simp [w2, w1, upd_other _ _ _ _ h]
      · show w.pairBrk ≤ buffer + count
        omega
    · rw [hcl]; rfl
    · rw [hnd]; rfl

/-! ## PairInsert -/

theorem Seg_other_setPrev (pm : Nat → Pair) (x y n : Nat) (v : Option Nat) (hxy : x ≠ y)
    (hy : (thr (pm n) y).leaf = some y) (l : List Nat) (pv hd tl : Option Nat)
    (h : Seg pm x pv hd l tl) :
    Seg (upd pm n ((pm n).setPrev (some y) v)) x pv hd l tl := by
  refine Seg_congr pm _ x l pv hd tl ?_ h
  intro q hq
  by_cases e : q = n
  · subst e
    rw [upd_same]
    exact thr_setPrev_other _ y x v hxy hy (Seg_mem_leaf pm x l pv hd tl h q hq)
  · rw [upd_other _ _ _ _ e]

theorem Seg_other_setNext (pm : Nat → Pair) (x y n : Nat) (v : Option Nat) (hxy : x ≠ y)
    (hy : (thr (pm n) y).leaf = some y) (l : List Nat) (pv hd tl : Option Nat)
    (h : Seg pm x pv hd l tl) :
    Seg (upd pm n ((pm n).setNext (some y) v)) x pv hd l tl := by
  refine Seg_congr pm _ x l pv hd tl ?_ h
  intro q hq
  by_cases e : q = n
  · subst e
    rw [upd_same]
    exact thr_setNext_other _ y x v hxy hy (Seg_mem_leaf pm x l pv hd tl h q hq)
  · rw [upd_other _ _ _ _ e]

theorem linkHead_same (pm : Nat → Pair) (y : Nat) (v : Option Nat) (l : List Nat)
    (pv hd tl : Option Nat) (h : Seg pm y pv hd l tl) (hn : l.Nodup) (hl : l ≠ []) :
    Seg (linkHead pm y hd v) y v hd l tl := by
  cases l with
  | nil => exact absurd rfl hl
  | cons n rest =>
    have e : hd = some n := h.1
    subst e
    exact Seg_setPrev_head pm y n v rest pv _ tl h hn

theorem linkHead_other (pm : Nat → Pair) (x y : Nat) (next v : Option Nat) (hxy : x ≠ y)
    (hy : ∀ n, next = some n → (thr (pm n) y).leaf = some y) (l : List Nat)
    (pv hd tl : Option Nat) (h : Seg pm x pv hd l tl) :
    Seg (linkHead pm y next v) x pv hd l tl := by
  cases next with
  | none => exact h
  | some n => exact Seg_other_setPrev pm x y n v hxy (hy n rfl) l pv hd tl h

theorem linkHead_leaf (pm : Nat → Pair) (y : Nat) (next v : Option Nat) (q : Nat) :
    ((linkHead pm y next v) q).a.leaf = (pm q).a.leaf ∧
      ((linkHead pm y next v) q).b.leaf = (pm q).b.leaf := by
  cases next with
  | none => exact ⟨rfl, rfl⟩
  | some n =>
    by_cases e : q = n
    · subst e; simp [linkHead]
    · simp [linkHead, upd_other _ _ _ _ e]

theorem linkHead_apply_other (pm : Nat → Pair) (y : Nat) (next v : Option Nat) (q : Nat)
    (h : next ≠ some q) : linkHead pm y next v q = pm q := by
  cases next with
  | none => rfl
  | some n =>
    have : q ≠ n := fun e => h (by rw [e])
    simp [linkHead, upd_other _ _ _ _ this]

theorem linkHead_a_next (pm : Nat → Pair) (y : Nat) (next v : Option Nat) (q : Nat) :
    ((linkHead pm y next v) q).a.next = (pm q).a.next := by
  cases next with
  | none => rfl
  | some n =>
    by_cases e : q = n
    · subst e
      simp only [linkHead, upd_same, Pair.setPrev]
      split <;> rfl
    · simp [linkHead, upd_other _ _ _ _ e]

theorem setPrevOn_pair_eq (y : Nat) (next v : Option Nat) (w : World) :
    (match next with
      | some n => setPrevOn n (some y) v w
      | none => w) = { w with pair := linkHead w.pair y next v } := by
  cases next with
  | none => rfl
  | some n =>
    show setPrevOn n (some y) v w = _
    rw [setPrevOn_eq]; rfl

theorem Seg_head_of_cons (pm : Nat → Pair) (x : Nat) (pv hd tl : Option Nat) (l : List Nat)
    (h : Seg pm x pv hd l tl) (n : Nat) (hn : hd = some n) (htl : tl = none) : n ∈ l := by
  cases l with
  | nil =>
    have e : hd = tl := h
    rw [hn, htl] at e
    exact Option.noConfusion e
  | cons m rest =>
    have e : hd = some m := h.1
    rw [hn] at e
    rw [Option.some.inj e]
    exact List.mem_cons_self _ _

theorem Seg_nil_head (pm : Nat → Pair) (x : Nat) (pv hd : Option Nat) (l : List Nat)
    (h : Seg pm x pv hd l none) : l = [] ↔ hd = none := by
  cases l with
  | nil => exact ⟨fun _ => h, fun _ => rfl⟩
  | cons m rest =>
    constructor
    · intro e; exact absurd e (List.cons_ne_nil _ _)
    · intro e
      have : hd = some m := h.1
      rw [e] at this
      exact Option.noConfusion this

theorem PairInsert_eq (tree u v : Nat) (w : World) :
    PairInsert u v tree w =
      match PairFromPool tree w with
      | none => none
      | some (p, w1) =>
        some { (w1.setNode v { w1.node v with pairs := some p }).setNode u
                { (w1.setNode v { w1.node v with pairs := some p }).node u with pairs := some p } with
              pair := linkHead (linkHead (upd w1.pair p
                  ⟨⟨none, some u, (w.node u).pairs⟩, ⟨none, some v, (w.node v).pairs⟩⟩)
                u (w.node u).pairs (some p)) v (w.node v).pairs (some p) } := by
  unfold PairInsert
  cases PairFromPool tree w with
  | none => rfl
  | some r =>
    obtain ⟨p, w1⟩ := r
    simp only []
    generalize (w.node u).pairs = nA
    generalize (w.node v).pairs = nB
    cases nA <;> cases nB <;> simp only [setPrevOn_eq, linkHead] <;> rfl

theorem setPairs2_node (nd : Nat → Node) (u v : Nat) (p : Option Nat) (huv : u ≠ v) (i : Nat) :
    ((upd (upd nd v { nd v with pairs := p }) u
        { (upd nd v { nd v with pairs := p }) u with pairs := p }) i).skel = (nd i).skel ∧
      ((upd (upd nd v { nd v with pairs := p }) u
        { (upd nd v { nd v with pairs := p }) u with pairs := p }) i).pairs =
        if i = u then p else if i = v then p else (nd i).pairs := by
  by_cases e1 : i = u
  · rw [e1, upd_same, if_pos rfl, skel_setPairs, upd_other _ _ _ _ huv]
    exact ⟨rfl, rfl⟩
  · rw [upd_other _ _ _ _ e1, if_neg e1]
    by_cases e2 : i = v
    · rw [e2, upd_same, if_pos rfl, skel_setPairs]
      exact ⟨rfl, rfl⟩
    · rw [upd_other _ _ _ _ e2, if_neg e2]
      exact ⟨rfl, rfl⟩

theorem PairInsert_spec (tree u v : Nat) (w : World) (lv : List Nat) (L : Nat → List Nat)
    (FP : List Nat) (inv : PairInv w tree lv L FP) (hu : u ∈ lv) (hv : v ∈ lv) (huv : u ≠ v) :
    ∃ p w' FP', PairInsert u v tree w = some w' ∧
      (∀ x ∈ lv, p ∉ L x) ∧
      PairInv w' tree lv (upd (upd L u (p :: L u)) v (p :: L v)) FP' ∧
      Ends w'.pair p u v ∧
      (∀ x ∈ lv, ∀ q ∈ L x, (w'.pair q).a.leaf = (w.pair q).a.leaf ∧
        (w'.pair q).b.leaf = (w.pair q).b.leaf) ∧
      PairFrame tree w w' ∧ w'.calls = w.calls := by
  obtain ⟨p, w1, FP', hpool, hch, hnd, hpF, hbF, hpb, hpfresh, hFsub, hpm1, hfr1, hcl1, hnode1⟩ :=
    PairFromPool_spec tree w FP inv.chain inv.freeNodup inv.bound inv.count
  have hfresh : ∀ x ∈ lv, p ∉ L x := by
    intro x hx hp
    rcases hpfresh with h | h
    · exact inv.fresh x hx p hp h
    · have := inv.boundL x hx p hp
      omega
  have hold : ∀ x ∈ lv, ∀ q ∈ L x, w1.pair q = w.pair q ∧ q ≠ p ∧ q ∉ FP' := by
    intro x hx q hq
    have hb := inv.boundL x hx q hq
    refine ⟨hpm1 q hb, fun e => hfresh x hx (e ▸ hq), ?_⟩
    intro hm
    rcases hFsub q hm with h | h
    · exact inv.fresh x hx q hq h
    · omega
  let nextA := (w.node u).pairs
  let nextB := (w.node v).pairs
  let temp : Pair := ⟨⟨none, some u, nextA⟩, ⟨none, some v, nextB⟩⟩
  let pm4 := upd w1.pair p temp
  let pm5 := linkHead pm4 u nextA (some p)
  let pm6 := linkHead pm5 v nextB (some p)
  let w2 := w1.setNode v { w1.node v with pairs := some p }
  let w3 := w2.setNode u { w2.node u with pairs := some p }
  let w6 : World := { w3 with pair := pm6 }
  have hres : PairInsert u v tree w = some w6 := by
    rw [PairInsert_eq, hpool]
  have hnd6 : ∀ i, (w6.node i).skel = (w.node i).skel := by
    intro i
    have h := (setPairs2_node w1.node u v (some p) huv i).1
    exact h.trans (by rw [hnode1])
  have hhead : ∀ x, (w6.node x).pairs =
      if x = u then some p else if x = v then some p else (w.node x).pairs := by
    intro x
    have h := (setPairs2_node w1.node u v (some p) huv x).2
    exact h.trans (by rw [hnode1])
  -- the old lists in the new pair heap
  have hseg4 : ∀ x ∈ lv, Seg pm4 x none (w.node x).pairs (L x) none := by
    intro x hx
    refine Seg_congr w.pair pm4 x (L x) _ _ _ ?_ (inv.list x hx)
    intro q hq
    obtain ⟨h1, h2, _⟩ := hold x hx q hq
    show thr (upd w1.pair p temp q) x = _
    rw [upd_other _ _ _ _ h2, h1]
  have hleafA : ∀ n, nextA = some n → (thr (pm4 n) u).leaf = some u := by
    intro n hn
    exact Seg_mem_leaf pm4 u (L u) _ _ _ (hseg4 u hu) n
      (Seg_head_of_cons pm4 u _ _ _ _ (hseg4 u hu) n hn rfl)
  have hseg5 : ∀ x ∈ lv, Seg pm5 x (if x = u ∧ L u ≠ [] then some p else none)
      (w.node x).pairs (L x) none := by
    intro x hx
    by_cases e : x = u
    · rw [e]
      by_cases hl : L u = []
      · rw [if_neg (fun h => h.2 hl)]
        have h0 := hseg4 u hu
        rw [hl] at h0 ⊢
        exact h0
      · rw [if_pos ⟨rfl, hl⟩]
        exact linkHead_same pm4 u (some p) (L u) none _ none (hseg4 u hu) (inv.nodup u hu) hl
    · simp only [e, false_and, if_false]
      exact linkHead_other pm4 x u nextA (some p) e hleafA (L x) _ _ _ (hseg4 x hx)
  have hleafB : ∀ n, nextB = some n → (thr (pm5 n) v).leaf = some v := by
    intro n hn
    exact Seg_mem_leaf pm5 v (L v) _ _ _ (hseg5 v hv) n
      (Seg_head_of_cons pm5 v _ _ _ _ (hseg5 v hv) n hn rfl)
  have hseg6 : ∀ x ∈ lv, Seg pm6 x
      (if (x = u ∧ L u ≠ []) ∨ (x = v ∧ L v ≠ []) then some p else none)
      (w.node x).pairs (L x) none := by
    intro x hx
    by_cases e : x = v
    · rw [e]
      have hxu : ¬ v = u := fun e => huv e.symm
      by_cases hl : L v = []
      · have h0 := hseg5 v hv
        rw [hl] at h0 ⊢
        exact h0
      · rw [if_pos (Or.inr ⟨rfl, hl⟩)]
        exact linkHead_same pm5 v (some p) (L v) _ _ none (hseg5 v hv) (inv.nodup v hv) hl
    · simp only [e, false_and, or_false]
      exact linkHead_other pm5 x v nextB (some p) e hleafB (L x) _ _ _ (hseg5 x hx)
  have hp6 : pm6 p = temp := by
    have h1 : nextB ≠ some p := by
      intro e
      exact hfresh v hv (Seg_head_of_cons w.pair v _ _ _ _ (inv.list v hv) p e rfl)
    have h2 : nextA ≠ some p := by
      intro e
      exact hfresh u hu (Seg_head_of_cons w.pair u _ _ _ _ (inv.list u hu) p e rfl)
    show linkHead pm5 v nextB (some p) p = temp
    rw [linkHead_apply_other _ _ _ _ _ h1]
    show linkHead pm4 u nextA (some p) p = temp
    rw [linkHead_apply_other _ _ _ _ _ h2]
    exact upd_same _ _ _
  have hleaf6 : ∀ q, q ≠ p → (pm6 q).a.leaf = (w1.pair q).a.leaf ∧
      (pm6 q).b.leaf = (w1.pair q).b.leaf := by
    intro q hq
    have h1 := linkHead_leaf pm5 v nextB (some p) q
    have h2 := linkHead_leaf pm4 u nextA (some p) q
    have h3 : pm4 q = w1.pair q := upd_other _ _ _ _ hq
    exact ⟨h1.1.trans (h2.1.trans (by rw [h3])), h1.2.trans (h2.2.trans (by rw [h3]))⟩
  have hleafOld : ∀ x ∈ lv, ∀ q ∈ L x, (w6.pair q).a.leaf = (w.pair q).a.leaf ∧
      (w6.pair q).b.leaf = (w.pair q).b.leaf := by
    intro x hx q hq
    obtain ⟨h1, h2, _⟩ := hold x hx q hq
    have := hleaf6 q h2
    rw [h1] at this
    exact this
  have hL' : ∀ x, upd (upd L u (p :: L u)) v (p :: L v) x =
      if x = v then p :: L v else if x = u then p :: L u else L x := by
    intro x
    by_cases e1 : x = v
    · rw [e1, upd_same]; simp
    · rw [upd_other _ _ _ _ e1]
      by_cases e2 : x = u
      · rw [e2, upd_same]; simp [huv]
      · simp [upd_other _ _ _ _ e2, e1, e2]
  have hsub : ∀ x q, q ∈ L x → q ∈ upd (upd L u (p :: L u)) v (p :: L v) x := by
    intro x q hq
    rw [hL']
    by_cases e1 : x = v
    · rw [if_pos e1]
      exact List.mem_cons_of_mem _ (e1 ▸ hq)
    · by_cases e2 : x = u
      · rw [if_neg e1, if_pos e2]
        exact List.mem_cons_of_mem _ (e2 ▸ hq)
      · rw [if_neg e1, if_neg e2]
        exact hq
  have hmem' : ∀ x q, q ∈ upd (upd L u (p :: L u)) v (p :: L v) x →
      (q = p ∧ (x = u ∨ x = v)) ∨ q ∈ L x := by
    intro x q hq
    rw [hL'] at hq
    by_cases e1 : x = v
    · rw [if_pos e1, List.mem_cons] at hq
      rcases hq with h | h
      · exact Or.inl ⟨h, Or.inr e1⟩
      · exact Or.inr (e1 ▸ h)
    · by_cases e2 : x = u
      · rw [if_neg e1, if_pos e2, List.mem_cons] at hq
        rcases hq with h | h
        · exact Or.inl ⟨h, Or.inl e2⟩
        · exact Or.inr (e2 ▸ h)
      · rw [if_neg e1, if_neg e2] at hq
        exact Or.inr hq
  have hends : Ends w6.pair p u v := by
    show (pm6 p).a.leaf = some u ∧ (pm6 p).b.leaf = some v
    rw [hp6]; exact ⟨rfl, rfl⟩
  refine ⟨p, w6, FP', hres, hfresh, ?_, hends, hleafOld, ?_, hcl1⟩
  · refine ⟨?_, ?_, ?_, ?_, hnd, ?_, hbF, ?_, ?_⟩
    · -- list
      intro x hx
      rw [hL', hhead]
      by_cases e1 : x = v
      · have e1' : v = x := e1.symm
        subst e1'
        have hxu : ¬ v = u := fun e => huv e.symm
        rw [if_neg hxu, if_pos rfl, if_pos rfl]
        have ht : thr (pm6 p) v = temp.b := by
          rw [hp6]
          exact thr_of_ends_right (fun _ => temp) 0 u v ⟨rfl, rfl⟩ huv
        refine ⟨rfl, ?_, ?_, ?_⟩
        · show (thr (pm6 p) v).leaf = some v
          rw [ht]
        · show (thr (pm6 p) v).prev = none
          rw [ht]
        · show Seg pm6 v (some p) (thr (pm6 p) v).next (L v) none
          rw [ht]
          have h6 := hseg6 v hx
          by_cases hl : L v = []
          · rw [hl] at h6 ⊢
            exact h6
          · rw [if_pos (Or.inr ⟨rfl, hl⟩)] at h6
            exact h6
      · by_cases e2 : x = u
        · have e2' : u = x := e2.symm
          subst e2'
          rw [if_pos rfl, if_neg e1, if_pos rfl]
          have ht : thr (pm6 p) u = temp.a := by
            rw [hp6]
            exact thr_of_ends_left (fun _ => temp) 0 u v ⟨rfl, rfl⟩
          refine ⟨rfl, ?_, ?_, ?_⟩
          · show (thr (pm6 p) u).leaf = some u
            rw [ht]
          · show (thr (pm6 p) u).prev = none
            rw [ht]
          · show Seg pm6 u (some p) (thr (pm6 p) u).next (L u) none
            rw [ht]
            have h6 := hseg6 u hx
            by_cases hl : L u = []
            · rw [hl] at h6 ⊢
              exact h6
            · rw [if_pos (Or.inl ⟨rfl, hl⟩)] at h6
              exact h6
        · rw [if_neg e2, if_neg e1, if_neg e1, if_neg e2]
          have h6 := hseg6 x hx
          rw [if_neg (by rintro (⟨h, _⟩ | ⟨h, _⟩); exact e2 h; exact e1 h)] at h6
          exact h6
    · -- nodup
      intro x hx
      rw [hL']
      by_cases e1 : x = v
      · rw [if_pos e1]
        exact List.nodup_cons.2 ⟨hfresh v hv, inv.nodup v hv⟩
      · by_cases e2 : x = u
        · rw [if_neg e1, if_pos e2]
          exact List.nodup_cons.2 ⟨hfresh u hu, inv.nodup u hu⟩
        · rw [if_neg e1, if_neg e2]
          exact inv.nodup x hx
    · -- ends
      intro x hx q hq
      rcases hmem' x q hq with ⟨hqp, hxuv⟩ | hq'
      · rw [hqp]
        rcases hxuv with e | e
        · rw [e]
          exact ⟨v, hv, fun e => huv e.symm, by rw [hL']; simp, Or.inl hends⟩
        · rw [e]
          refine ⟨u, hu, huv, ?_, Or.inr hends⟩
          rw [hL']
          simp [huv]
      · obtain ⟨y, hy, hyx, hqy, he⟩ := inv.ends x hx q hq'
        obtain ⟨ha, hb⟩ := hleafOld x hx q hq'
        refine ⟨y, hy, hyx, hsub y q hqy, ?_⟩
        unfold Ends at he ⊢
        rw [ha, hb]
        exact he
    · -- chain
      show Chain (fun q => (pm6 q).a.next) (w1.index tree).pooledPairs FP'
      refine Chain_congr _ _ FP' _ ?_ hch
      intro q hq
      show (pm6 q).a.next = (w1.pair q).a.next
      have hqp : q ≠ p := fun e => hpF (e ▸ hq)
      have h1 := linkHead_a_next pm5 v nextB (some p) q
      have h2 := linkHead_a_next pm4 u nextA (some p) q
      have h3 : pm4 q = w1.pair q := upd_other _ _ _ _ hqp
      exact h1.trans (h2.trans (by rw [h3]))
    · -- fresh
      intro x hx q hq
      rcases hmem' x q hq with ⟨hqp, _⟩ | hq'
      · rw [hqp]; exact hpF
      · exact (hold x hx q hq').2.2
    · -- boundL
      intro x hx q hq
      rcases hmem' x q hq with ⟨hqp, _⟩ | hq'
      · rw [hqp]; exact hpb
      · exact Nat.lt_of_lt_of_le (inv.boundL x hx q hq') hfr1.pairBrk
    · show 0 < w1.pairCount
      rw [hfr1.pairCount]; exact inv.count
  · exact ⟨hnd6, hfr1.core, hfr1.pooledNodes, hfr1.other, hfr1.nodeBrk, hfr1.indexBrk,
      hfr1.nodeCount, hfr1.pairCount, hfr1.external, hfr1.pairBrk⟩

/-! ## ThreadUnlink -/

theorem filter_ne_of_nodup (p : Nat) (pre post : List Nat) (h : (pre ++ p :: post).Nodup) :
    (pre ++ p :: post).filter (fun q => decide (q ≠ p)) = pre ++ post := by
  have h1 : p ∉ pre := by
    intro hm
    have := List.nodup_append.1 h
    exact this.2.2 hm (List.mem_cons_self _ _) 
  have h2 : p ∉ post := by
    have := (List.nodup_append.1 h).2.1
    exact (List.nodup_cons.1 this).1
  rw [List.filter_append, List.filter_cons]
  have e1 : pre.filter (fun q => decide (q ≠ p)) = pre := by
    rw [List.filter_eq_self]
    intro a ha
    simp only [ne_eq, decide_not, Bool.not_eq_eq_eq_not, Bool.not_true, decide_eq_false_iff_not]
    intro e; exact h1 (e ▸ ha)
  have e2 : post.filter (fun q => decide (q ≠ p)) = post := by
    rw [List.filter_eq_self]
    intro a ha
    simp only [ne_eq, decide_not, Bool.not_eq_eq_eq_not, Bool.not_true, decide_eq_false_iff_not]
    intro e; exact h2 (e ▸ ha)
  rw [e1, e2]
  simp

/-- Unlinking the pair `p` from the list `pre ++ p :: post` of leaf `y`, when
`p` is not the head: the successor's back pointer and the predecessor's
forward pointer are redirected. -/
theorem unlink_mid (pm : Nat → Pair) (y p q : Nat) (pre post : List Nat) (hd : Option Nat)
    (h : Seg pm y none hd ((pre ++ [q]) ++ p :: post) none)
    (hn : ((pre ++ [q]) ++ p :: post).Nodup) :
    (thr (pm p) y).prev = some q ∧
    Seg (upd (linkHead pm y (thr (pm p) y).next (some q)) q
        ((linkHead pm y (thr (pm p) y).next (some q) q).setNext (some y) (thr (pm p) y).next))
      y none hd ((pre ++ [q]) ++ post) none := by
  obtain ⟨mid, h1, h2⟩ := (Seg_append pm y (pre ++ [q]) (p :: post) none hd none).1 h
  rw [lastOr_append_singleton] at h2
  obtain ⟨hmid, _, hprev, hpost⟩ := h2
  subst hmid
  refine ⟨hprev, ?_⟩
  have hnd := List.nodup_append.1 hn
  have hnpost : post.Nodup := (List.nodup_cons.1 hnd.2.1).2
  have hq_post : q ∉ post := fun hm =>
    hnd.2.2 (List.mem_append_right _ (List.mem_singleton_self q)) (List.mem_cons_of_mem _ hm)
  set nx := (thr (pm p) y).next with hnx
  set pm1 := linkHead pm y nx (some q) with hpm1
  -- the part after p
  have hpost1 : Seg pm1 y (some q) nx post none := by
    by_cases hl : post = []
    · subst hl; exact hpost
    · exact linkHead_same pm y (some q) post _ _ none hpost hnpost hl
  -- the part before p
  have hpre1 : Seg pm1 y none hd (pre ++ [q]) (some p) := by
    refine Seg_congr pm pm1 y _ _ _ _ ?_ h1
    intro r hr
    have : nx ≠ some r := by
      intro e
      have hrp : r ∈ post := Seg_head_of_cons pm y _ _ _ _ hpost r e rfl
      exact hnd.2.2 hr (List.mem_cons_of_mem _ hrp)
    rw [hpm1, linkHead_apply_other _ _ _ _ _ this]
  have hpre2 := Seg_setNext_last pm1 y q nx pre none hd (some p) hpre1 hnd.1
  have hpost2 : Seg (upd pm1 q ((pm1 q).setNext (some y) nx)) y (some q) nx post none := by
    refine Seg_congr pm1 _ y post _ _ _ ?_ hpost1
    intro r hr
    have : r ≠ q := fun e => hq_post (e ▸ hr)
    rw [upd_other _ _ _ _ this]
  refine (Seg_append _ y (pre ++ [q]) post none hd none).2 ⟨nx, hpre2, ?_⟩
  rw [lastOr_append_singleton]
  exact hpost2

/-- Unlinking the head pair `p` of the list `p :: post` of leaf `y`. -/
theorem unlink_head (pm : Nat → Pair) (y p : Nat) (post : List Nat) (hd : Option Nat)
    (h : Seg pm y none hd (p :: post) none) (hn : (p :: post).Nodup) :
    (thr (pm p) y).prev = none ∧
    Seg (linkHead pm y (thr (pm p) y).next none) y none (thr (pm p) y).next post none := by
  obtain ⟨_, _, hprev, hpost⟩ := h
  refine ⟨hprev, ?_⟩
  by_cases hl : post = []
  · subst hl
    have e : (thr (pm p) y).next = none := hpost
    rw [e]; rfl
  · exact linkHead_same pm y none post _ _ none hpost (List.nodup_cons.1 hn).2 hl

theorem ThreadUnlink_eq (T : Thread) (y : Nat) (w : World) (hT : T.leaf = some y) :
    ThreadUnlink T w =
      some { w with pair := unlinkMap w.pair y T, node := unlinkNodes w.node y T } := by
  obtain ⟨prev, leaf, next⟩ := T
  have hT' : leaf = some y := hT
  subst hT'
  unfold ThreadUnlink unlinkMap unlinkNodes
  cases prev <;> cases next <;> simp only [setPrevOn_eq, setNextOn_eq, linkHead] <;> rfl

theorem thr_leaf_congr (pr pr' : Pair) (y : Nat) (ha : pr'.a.leaf = pr.a.leaf)
    (hb : pr'.b.leaf = pr.b.leaf) : (thr pr' y).leaf = some y ↔ (thr pr y).leaf = some y := by
  rw [thr_leaf_iff, thr_leaf_iff, ha, hb]

theorem unlinkMap_leaf (pm : Nat → Pair) (y : Nat) (T : Thread) (r : Nat) :
    (unlinkMap pm y T r).a.leaf = (pm r).a.leaf ∧ (unlinkMap pm y T r).b.leaf = (pm r).b.leaf := by
  unfold unlinkMap
  cases hp : T.prev with
  | none => exact linkHead_leaf pm y T.next none r
  | some q =>
    have h := linkHead_leaf pm y T.next (some q) r
    by_cases e : r = q
    · rw [e] at h ⊢
      simp only [upd_same, Pair.setNext_a_leaf, Pair.setNext_b_leaf]
      exact h
    · simp only [upd_other _ _ _ _ e]
      exact h

theorem unlinkMap_apply_other (pm : Nat → Pair) (y : Nat) (T : Thread) (r : Nat)
    (h1 : T.next ≠ some r) (h2 : T.prev ≠ some r) : unlinkMap pm y T r = pm r := by
  unfold unlinkMap
  cases hp : T.prev with
  | none => exact linkHead_apply_other pm y _ _ r h1
  | some q =>
    have : r ≠ q := fun e => h2 (by rw [hp, e])
    simp only [upd_other _ _ _ _ this]
    exact linkHead_apply_other pm y _ _ r h1

theorem unlinkMap_other_seg (pm : Nat → Pair) (y z : Nat) (T : Thread) (hzy : z ≠ y)
    (h1 : ∀ n, T.next = some n → (thr (pm n) y).leaf = some y)
    (h2 : ∀ q, T.prev = some q → (thr (pm q) y).leaf = some y)
    (l : List Nat) (pv hd tl : Option Nat) (h : Seg pm z pv hd l tl) :
    Seg (unlinkMap pm y T) z pv hd l tl := by
  unfold unlinkMap
  cases hp : T.prev with
  | none => exact linkHead_other pm z y T.next none hzy h1 l pv hd tl h
  | some q =>
    simp only []
    have hs := linkHead_other pm z y T.next (some q) hzy h1 l pv hd tl h
    refine Seg_other_setNext _ z y q T.next hzy ?_ l pv hd tl hs
    have hl := linkHead_leaf pm y T.next (some q) q
    exact (thr_leaf_congr _ _ y hl.1 hl.2).2 (h2 q hp)

theorem unlinkMap_same_seg (pm : Nat → Pair) (y p : Nat) (pre post : List Nat) (hd : Option Nat)
    (h : Seg pm y none hd (pre ++ p :: post) none) (hn : (pre ++ p :: post).Nodup) :
    Seg (unlinkMap pm y (thr (pm p) y)) y none
        (if pre = [] then (thr (pm p) y).next else hd) (pre ++ post) none ∧
      (pre = [] ↔ (thr (pm p) y).prev = none) := by
  rcases List.eq_nil_or_concat pre with e | ⟨pre', q, e⟩
  · subst e
    obtain ⟨h1, h2⟩ := unlink_head pm y p post hd h hn
    refine ⟨?_, ⟨fun _ => h1, fun _ => rfl⟩⟩
    simp only [if_true, List.nil_append]
    unfold unlinkMap
    rw [h1]
    exact h2
  · rw [List.concat_eq_append] at e
    subst e
    obtain ⟨h1, h2⟩ := unlink_mid pm y p q pre' post hd h hn
    have hne : pre' ++ [q] ≠ [] := by simp
    refine ⟨?_, ⟨fun e => absurd e hne, fun e => ?_⟩⟩
    · rw [if_neg hne]
      unfold unlinkMap
      rw [h1]
      exact h2
    · rw [h1] at e
      exact Option.noConfusion e

theorem unlinkNodes_skel (nd : Nat → Node) (y : Nat) (T : Thread) (i : Nat) :
    (unlinkNodes nd y T i).skel = (nd i).skel := by
  unfold unlinkNodes
  cases T.prev with
  | some _ => rfl
  | none =>
    show (upd nd y _ i).skel = _
    by_cases e : i = y
    · rw [e, upd_same]; rfl
    · rw [upd_other _ _ _ _ e]

theorem unlinkNodes_other (nd : Nat → Node) (y : Nat) (T : Thread) (i : Nat) (h : i ≠ y) :
    unlinkNodes nd y T i = nd i := by
  unfold unlinkNodes
  cases T.prev with
  | some _ => rfl
  | none => exact upd_other _ _ _ _ h

theorem unlinkNodes_pairs (nd : Nat → Node) (y : Nat) (T : Thread) :
    (unlinkNodes nd y T y).pairs = if T.prev = none then T.next else (nd y).pairs := by
  unfold unlinkNodes
  cases T.prev with
  | some _ => simp
  | none => simp

/-! ## One step of PairsClear -/

theorem lastOr_mem (l : List Nat) (q : Nat) (h : lastOr none l = some q) : q ∈ l := by
  unfold lastOr at h
  cases hl : l.getLast? with
  | none => rw [hl] at h; exact Option.noConfusion h
  | some r =>
    rw [hl] at h
    have : r = q := Option.some.inj h
    subst this
    exact List.mem_of_getLast?_eq_some hl

theorem ends_endpoint (pm : Nat → Pair) (p x y z z' : Nat)
    (h : Ends pm p x y ∨ Ends pm p y x) (h' : Ends pm p z z' ∨ Ends pm p z' z) :
    z = x ∨ z = y := by
  unfold Ends at h h'
  rcases h with ⟨a, b⟩ | ⟨a, b⟩ <;> rcases h' with ⟨c, d⟩ | ⟨c, d⟩
  · left; rw [a] at c; exact (Option.some.inj c).symm
  · right; rw [b] at d; exact (Option.some.inj d).symm
  · right; rw [a] at c; exact (Option.some.inj c).symm
  · left; rw [b] at d; exact (Option.some.inj d).symm

theorem thr_leaf_of_ends (pm : Nat → Pair) (p x y : Nat) (h : Ends pm p x y ∨ Ends pm p y x) :
    (thr (pm p) y).leaf = some y := by
  rw [thr_leaf_iff]
  rcases h with ⟨_, b⟩ | ⟨a, _⟩
  · exact Or.inr b
  · exact Or.inl a

theorem clear_step (w : World) (tree : Nat) (lv : List Nat) (x : Nat) (pv : Option Nat) (p : Nat)
    (rest : List Nat) (L : Nat → List Nat) (FP : List Nat)
    (inv : ClearInv w tree lv x pv (some p) L FP) (hL : L x = p :: rest) :
    ∃ y, y ∈ lv ∧ y ≠ x ∧ p ∈ L y ∧ (Ends w.pair p x y ∨ Ends w.pair p y x) ∧
      ClearInv (PairRecycle tree p
          { w with pair := unlinkMap w.pair y (thr (w.pair p) y),
                   node := unlinkNodes w.node y (thr (w.pair p) y) })
        tree lv x (some p) (thr (w.pair p) x).next
        (upd (upd L x rest) y ((L y).filter (fun q => decide (q ≠ p)))) (p :: FP) ∧
      (∀ r, r ≠ p →
        ((PairRecycle tree p
          { w with pair := unlinkMap w.pair y (thr (w.pair p) y),
                   node := unlinkNodes w.node y (thr (w.pair p) y) }).pair r).a.leaf =
            (w.pair r).a.leaf ∧
        ((PairRecycle tree p
          { w with pair := unlinkMap w.pair y (thr (w.pair p) y),
                   node := unlinkNodes w.node y (thr (w.pair p) y) }).pair r).b.leaf =
            (w.pair r).b.leaf) := by
  have hpx : p ∈ L x := by rw [hL]; exact List.mem_cons_self _ _
  obtain ⟨y, hy, hyx, hpy, hends⟩ := inv.ends x inv.xmem p hpx
  refine ⟨y, hy, hyx, hpy, hends, ?_⟩
  rw [and_comm]
  set T := thr (w.pair p) y with hT
  set pm2 := unlinkMap w.pair y T with hpm2
  set nd2 := unlinkNodes w.node y T with hnd2
  set w2 : World := { w with pair := pm2, node := nd2 } with hw2
  have hxy : x ≠ y := fun e => hyx e.symm
  obtain ⟨pre, post, hpre⟩ := List.append_of_mem hpy
  have hsegy := inv.list y hy hyx
  have hndy : (pre ++ p :: post).Nodup := hpre ▸ inv.nodup y hy
  have hsegy' : Seg w.pair y none (w.node y).pairs (pre ++ p :: post) none := hpre ▸ hsegy
  obtain ⟨mid, hs1, hs2⟩ := (Seg_append w.pair y pre (p :: post) none _ none).1 hsegy'
  obtain ⟨_, _, hTprev, hspost⟩ := hs2
  have hmemy : ∀ r, r ∈ pre ∨ r ∈ post → r ∈ L y := by
    intro r hr
    rw [hpre]
    rcases hr with h | h
    · exact List.mem_append_left _ h
    · exact List.mem_append_right _ (List.mem_cons_of_mem _ h)
  have hnext_mem : ∀ n, T.next = some n → n ∈ L y := by
    intro n hn
    exact hmemy n (Or.inr (Seg_head_of_cons w.pair y _ _ _ _ hspost n hn rfl))
  have hprev_mem : ∀ q, T.prev = some q → q ∈ L y := by
    intro q hq
    have : lastOr none pre = some q := by rw [← hTprev]; exact hq
    exact hmemy q (Or.inl (lastOr_mem pre q this))
  have hleafy : ∀ r ∈ L y, (thr (w.pair r) y).leaf = some y :=
    fun r hr => Seg_mem_leaf w.pair y (L y) _ _ _ hsegy r hr
  have h1 : ∀ n, T.next = some n → (thr (w.pair n) y).leaf = some y :=
    fun n hn => hleafy n (hnext_mem n hn)
  have h2 : ∀ q, T.prev = some q → (thr (w.pair q) y).leaf = some y :=
    fun q hq => hleafy q (hprev_mem q hq)
  -- membership in the new lists
  have hL' : ∀ z, upd (upd L x rest) y ((L y).filter (fun q => decide (q ≠ p))) z =
      if z = y then (L y).filter (fun q => decide (q ≠ p)) else if z = x then rest else L z := by
    intro z
    by_cases e1 : z = y
    · rw [e1, upd_same, if_pos rfl]
    · rw [upd_other _ _ _ _ e1, if_neg e1]
      by_cases e2 : z = x
      · rw [e2, upd_same, if_pos rfl]
      · rw [upd_other _ _ _ _ e2, if_neg e2]
  have hndx : (p :: rest).Nodup := hL ▸ inv.nodup x inv.xmem
  have hp_only : ∀ z ∈ lv, p ∈ L z → z = x ∨ z = y := by
    intro z hz hpz
    obtain ⟨z', _, _, _, he⟩ := inv.ends z hz p hpz
    exact ends_endpoint w.pair p x y z z' hends he
  have hmem : ∀ z ∈ lv, ∀ q, q ∈ upd (upd L x rest) y ((L y).filter (fun q => decide (q ≠ p))) z ↔
      q ∈ L z ∧ q ≠ p := by
    intro z hz q
    rw [hL']
    by_cases e1 : z = y
    · rw [if_pos e1, e1]
      simp [List.mem_filter]
    · rw [if_neg e1]
      by_cases e2 : z = x
      · rw [if_pos e2, e2, hL]
        constructor
        · intro h
          exact ⟨List.mem_cons_of_mem _ h, fun e => (List.nodup_cons.1 hndx).1 (e ▸ h)⟩
        · rintro ⟨h, hne⟩
          rcases List.mem_cons.1 h with e | e
          · exact absurd e hne
          · exact e
      · rw [if_neg e2]
        constructor
        · intro h
          refine ⟨h, fun e => ?_⟩
          rcases hp_only z hz (e ▸ h) with e' | e'
          · exact e2 e'
          · exact e1 e'
        · exact fun h => h.1
  -- the pair heap after the unlink and the recycle
  have hpm3 : ∀ r, r ≠ p → (PairRecycle tree p w2).pair r = pm2 r := by
    intro r hr
    rw [PairRecycle_pair_other _ _ _ _ hr]
  have hleaf3 : ∀ r, r ≠ p → ((PairRecycle tree p w2).pair r).a.leaf = (w.pair r).a.leaf ∧
      ((PairRecycle tree p w2).pair r).b.leaf = (w.pair r).b.leaf := by
    intro r hr
    rw [hpm3 r hr]
    exact unlinkMap_leaf w.pair y T r
  have htrans : ∀ z, z ≠ y → ∀ (l : List Nat) (pv hd tl : Option Nat), p ∉ l →
      Seg w.pair z pv hd l tl → Seg (PairRecycle tree p w2).pair z pv hd l tl := by
    intro z hz l pv hd tl hpl hs
    have hs2 := unlinkMap_other_seg w.pair y z T hz h1 h2 l pv hd tl hs
    refine Seg_congr pm2 _ z l pv hd tl ?_ hs2
    intro r hr
    have : r ≠ p := fun e => hpl (e ▸ hr)
    rw [hpm3 r this]
  have hfil : (L y).filter (fun q => decide (q ≠ p)) = pre ++ post := by
    rw [hpre]; exact filter_ne_of_nodup p pre post hndy
  obtain ⟨hsame, hpre_nil⟩ := unlinkMap_same_seg w.pair y p pre post _ hsegy' hndy
  refine ⟨hleaf3, inv.xmem, ?_, ?_, ?_, ?_, ?_, ?_, ?_, ?_, ?_, ?_⟩
  · -- segx
    rw [hL', if_neg hxy, if_pos rfl]
    have hs := inv.segx
    rw [hL] at hs
    exact htrans x hxy rest _ _ _ (List.nodup_cons.1 hndx).1 hs.2.2.2
  · -- list
    intro z hz hzx
    rw [hL']
    by_cases e1 : z = y
    · rw [if_pos e1, e1, hfil]
      show Seg (PairRecycle tree p w2).pair y none (nd2 y).pairs (pre ++ post) none
      have hhead : (nd2 y).pairs = if pre = [] then T.next else (w.node y).pairs := by
        rw [hnd2, unlinkNodes_pairs]
        by_cases hp : pre = []
        · rw [if_pos hp, if_pos (hpre_nil.1 hp)]
        · rw [if_neg hp, if_neg (fun e => hp (hpre_nil.2 e))]
      rw [hhead]
      refine Seg_congr pm2 _ y _ _ _ _ ?_ hsame
      intro r hr
      have : r ≠ p := by
        intro e
        rw [e] at hr
        have hn := List.nodup_append.1 hndy
        rcases List.mem_append.1 hr with h | h
        · exact hn.2.2 h (List.mem_cons_self _ _) 
        · exact (List.nodup_cons.1 hn.2.1).1 h
      rw [hpm3 r this]
    · rw [if_neg e1, if_neg hzx]
      have hpz : p ∉ L z := by
        intro h
        rcases hp_only z hz h with e | e
        · exact hzx e
        · exact e1 e
      show Seg (PairRecycle tree p w2).pair z none (nd2 z).pairs (L z) none
      rw [hnd2, unlinkNodes_other _ _ _ _ e1]
      exact htrans z e1 (L z) _ _ _ hpz (inv.list z hz hzx)
  · -- nodup
    intro z hz
    rw [hL']
    by_cases e1 : z = y
    · rw [if_pos e1]
      exact (inv.nodup y hy).filter _
    · rw [if_neg e1]
      by_cases e2 : z = x
      · rw [if_pos e2]
        exact (List.nodup_cons.1 hndx).2
      · rw [if_neg e2]
        exact inv.nodup z hz
  · -- ends
    intro z hz q hq
    obtain ⟨hq1, hq2⟩ := (hmem z hz q).1 hq
    obtain ⟨z', hz', hne, hqz', he⟩ := inv.ends z hz q hq1
    refine ⟨z', hz', hne, (hmem z' hz' q).2 ⟨hqz', hq2⟩, ?_⟩
    obtain ⟨ha, hb⟩ := hleaf3 q hq2
    unfold Ends at he ⊢
    rw [ha, hb]
    exact he
  · -- chain
    refine PairRecycle_chain tree p w2 FP ?_ (inv.fresh x inv.xmem p hpx)
    show Chain (fun q => (pm2 q).a.next) (w.index tree).pooledPairs FP
    refine Chain_congr _ _ FP _ ?_ inv.chain
    intro r hr
    show (pm2 r).a.next = (w.pair r).a.next
    have e1 : T.next ≠ some r := fun e => inv.fresh y hy r (hnext_mem r e) hr
    have e2 : T.prev ≠ some r := fun e => inv.fresh y hy r (hprev_mem r e) hr
    rw [hpm2, unlinkMap_apply_other _ _ _ _ e1 e2]
  · exact List.nodup_cons.2 ⟨inv.fresh x inv.xmem p hpx, inv.freeNodup⟩
  · intro z hz q hq hm
    obtain ⟨hq1, hq2⟩ := (hmem z hz q).1 hq
    rcases List.mem_cons.1 hm with e | e
    · exact hq2 e
    · exact inv.fresh z hz q hq1 e
  · intro q hq
    rcases List.mem_cons.1 hq with e | e
    · rw [e]; exact inv.boundL x inv.xmem p hpx
    · exact inv.bound q e
  · intro z hz q hq
    exact inv.boundL z hz q ((hmem z hz q).1 hq).1
  · exact inv.count

theorem ClearInv_congr (w : World) (tree : Nat) (lv : List Nat) (x : Nat) (pv cur : Option Nat)
    (L L' : Nat → List Nat) (FP : List Nat) (h : ∀ z ∈ lv, L' z = L z)
    (inv : ClearInv w tree lv x pv cur L FP) : ClearInv w tree lv x pv cur L' FP := by
  refine ⟨inv.xmem, ?_, ?_, ?_, ?_, inv.chain, inv.freeNodup, ?_, inv.bound, ?_, inv.count⟩
  · rw [h x inv.xmem]; exact inv.segx
  · intro y hy hyx; rw [h y hy]; exact inv.list y hy hyx
  · intro y hy; rw [h y hy]; exact inv.nodup y hy
  · intro y hy p hp
    rw [h y hy] at hp
    obtain ⟨z, hz, hne, hpz, he⟩ := inv.ends y hy p hp
    exact ⟨z, hz, hne, by rw [h z hz]; exact hpz, he⟩
  · intro y hy p hp
    rw [h y hy] at hp
    exact inv.fresh y hy p hp
  · intro y hy p hp
    rw [h y hy] at hp
    exact inv.boundL y hy p hp

theorem PairsClearLoop_spec (tree : Nat) (lv : List Nat) (x : Nat) :
    ∀ (rem : List Nat) (w : World) (pv cur : Option Nat) (L : Nat → List Nat) (FP : List Nat)
      (fuel : Nat), ClearInv w tree lv x pv cur L FP → L x = rem → rem.length ≤ fuel →
      ∃ w' pv', PairsClearLoop x tree fuel cur w = some w' ∧
        ClearInv w' tree lv x pv' none
          (fun z => if z = x then [] else (L z).filter (fun q => decide (q ∉ rem)))
          (rem.reverse ++ FP) ∧
        PairFrame tree w w' ∧ w'.calls = w.calls ∧ (w'.node x).pairs = (w.node x).pairs ∧
        (∀ r, r ∉ rem → (w'.pair r).a.leaf = (w.pair r).a.leaf ∧
          (w'.pair r).b.leaf = (w.pair r).b.leaf)
  | [], w, pv, cur, L, FP, fuel, inv, hL, _ => by
    have hcur : cur = none := by
      have := inv.segx
      rw [hL] at this
      exact this
    subst hcur
    refine ⟨w, pv, ?_, ?_, PairFrame.pairRefl _ _, rfl, rfl, fun _ _ => ⟨rfl, rfl⟩⟩
    · cases fuel <;> rfl
    · refine ClearInv_congr w tree lv x pv none L _ FP ?_ inv
      intro z _
      by_cases e : z = x
      · rw [if_pos e, e, hL]
      · rw [if_neg e]
        simp
  | p :: rest, w, pv, cur, L, FP, fuel, inv, hL, hfuel => by
    have hcur : cur = some p := by
      have := inv.segx
      rw [hL] at this
      exact this.1
    subst hcur
    cases fuel with
    | zero => simp at hfuel
    | succ fuel =>
      obtain ⟨y, hy, hyx, hpy, hends, inv3, hleaf3⟩ := clear_step w tree lv x pv p rest L FP inv hL
      have hxy : x ≠ y := fun e => hyx e.symm
      have hTy : (thr (w.pair p) y).leaf = some y := thr_leaf_of_ends w.pair p x y hends
      have hun := ThreadUnlink_eq (thr (w.pair p) y) y w hTy
      set w2 : World := { w with pair := unlinkMap w.pair y (thr (w.pair p) y),
                                 node := unlinkNodes w.node y (thr (w.pair p) y) } with hw2
      have hstep : PairsClearLoop x tree (fuel + 1) (some p) w =
          PairsClearLoop x tree fuel (thr (w.pair p) x).next (PairRecycle tree p w2) := by
        rcases hends with he | he
        · have ha : (w.pair p).a.leaf = some x := he.1
          have e1 : thr (w.pair p) y = (w.pair p).b := thr_of_ends_right w.pair p x y he hxy
          have e2 : thr (w.pair p) x = (w.pair p).a := thr_of_ends_left w.pair p x y he
          rw [e1] at hun
          simp only [PairsClearLoop, ha, if_true, hun, e2]
        · have ha : ¬ (w.pair p).a.leaf = some x := by
            rw [he.1]; intro e; exact hyx (Option.some.inj e)
          have e1 : thr (w.pair p) y = (w.pair p).a := thr_of_ends_left w.pair p y x he
          have e2 : thr (w.pair p) x = (w.pair p).b := thr_of_ends_right w.pair p y x he hyx
          rw [e1] at hun
          simp only [PairsClearLoop, ha, if_false, hun, e2]
      have hL3 : upd (upd L x rest) y ((L y).filter (fun q => decide (q ≠ p))) x = rest := by
        rw [upd_other _ _ _ _ hxy, upd_same]
      obtain ⟨w', pv', hloop, inv', hfr, hcl, hhead, hleaf'⟩ :=
        PairsClearLoop_spec tree lv x rest (PairRecycle tree p w2) (some p) _ _ (p :: FP) fuel
          inv3 hL3 (by simpa using hfuel)
      have hndx : (p :: rest).Nodup := hL ▸ inv.nodup x inv.xmem
      have hp_only : ∀ z ∈ lv, p ∈ L z → z = x ∨ z = y := by
        intro z hz hpz
        obtain ⟨z', _, _, _, he⟩ := inv.ends z hz p hpz
        exact ends_endpoint w.pair p x y z z' hends he
      refine ⟨w', pv', hstep.trans hloop, ?_, ?_, ?_, ?_, ?_⟩
      · have e : (p :: rest).reverse ++ FP = rest.reverse ++ (p :: FP) := by simp
        rw [e]
        refine ClearInv_congr w' tree lv x pv' none _ _ _ ?_ inv'
        intro z hz
        by_cases e1 : z = x
        · rw [if_pos e1, if_pos e1]
        · rw [if_neg e1, if_neg e1]
          by_cases e2 : z = y
          · rw [e2, upd_same, List.filter_filter]
            congr 1
            funext q
            simp only [List.mem_cons, not_or, ne_eq, decide_not, Bool.and_eq_true,
              Bool.not_eq_eq_eq_not, Bool.not_true, decide_eq_false_iff_not, Bool.decide_and]
            rw [Bool.and_comm]
          · rw [upd_other _ _ _ _ e2, upd_other _ _ _ _ e1]
            apply List.filter_congr
            intro q hq
            have : q ≠ p := by
              intro e
              rcases hp_only z hz (e ▸ hq) with h | h
              · exact e1 h
              · exact e2 h
            simp [this]
      · refine PairFrame.pairTrans ?_ hfr
        refine @PairFrame.pairTrans tree w w2 _ ?_ (PairRecycle_frame tree p w2)
        exact ⟨fun i => unlinkNodes_skel w.node y _ i, fun _ => rfl, fun _ => rfl, fun _ _ => rfl,
          rfl, rfl, rfl, rfl, rfl, Nat.le_refl _⟩
      · rw [hcl]; rfl
      · rw [hhead]
        show (unlinkNodes w.node y (thr (w.pair p) y) x).pairs = _
        rw [unlinkNodes_other _ _ _ _ hxy]
      · intro r hr
        simp only [List.mem_cons, not_or] at hr
        obtain ⟨h1, h2⟩ := hleaf' r hr.2
        obtain ⟨h3, h4⟩ := hleaf3 r hr.1
        exact ⟨h1.trans h3, h2.trans h4⟩

theorem PairsClear_spec (tree : Nat) (lv : List Nat) (x : Nat) (w : World) (L : Nat → List Nat)
    (FP : List Nat) (fuel : Nat) (inv : PairInv w tree lv L FP) (hx : x ∈ lv)
    (hfuel : (L x).length ≤ fuel) :
    ∃ w', PairsClear fuel x tree w = some w' ∧
      PairInv w' tree lv
        (fun z => if z = x then [] else (L z).filter (fun q => decide (q ∉ L x)))
        ((L x).reverse ++ FP) ∧
      PairFrame tree w w' ∧ w'.calls = w.calls ∧
      (∀ r, r ∉ L x → (w'.pair r).a.leaf = (w.pair r).a.leaf ∧
        (w'.pair r).b.leaf = (w.pair r).b.leaf) := by
  set w0 := w.setNode x { w.node x with pairs := none } with hw0
  have inv0 : ClearInv w0 tree lv x none (w.node x).pairs L FP := by
    refine ⟨hx, inv.list x hx, ?_, inv.nodup, inv.ends, inv.chain, inv.freeNodup, inv.fresh,
      inv.bound, inv.boundL, inv.count⟩
    intro y hy hyx
    show Seg w.pair y none ((upd w.node x _) y).pairs (L y) none
    rw [upd_other _ _ _ _ hyx]
    exact inv.list y hy
  obtain ⟨w', pv', hloop, inv', hfr, hcl, hhead, hleaf⟩ :=
    PairsClearLoop_spec tree lv x (L x) w0 none _ L FP fuel inv0 rfl hfuel
  refine ⟨w', hloop, ?_, ?_, hcl, hleaf⟩
  · refine ⟨?_, inv'.nodup, inv'.ends, inv'.chain, inv'.freeNodup, inv'.fresh, inv'.bound,
      inv'.boundL, inv'.count⟩
    intro y hy
    by_cases e : y = x
    · rw [e, if_pos rfl, hhead]
      show Seg w'.pair x none ((upd w.node x _) x).pairs [] none
      rw [upd_same]
      rfl
    · exact inv'.list y hy e
  · refine PairFrame.pairTrans ?_ hfr
    refine ⟨?_, fun _ => rfl, fun _ => rfl, fun _ _ => rfl, rfl, rfl, rfl, rfl, rfl, Nat.le_refl _⟩
    intro i
    show ((upd w.node x _) i).skel = _
    by_cases e : i = x
    · rw [e, upd_same]; rfl
    · rw [upd_other _ _ _ _ e]

/-! ## The node pool -/

theorem NodeFrame.nodeRefl (tree : Nat) (w : World) : NodeFrame tree w w :=
  ⟨rfl, rfl, fun _ => rfl, fun _ => rfl, fun _ _ => rfl, rfl, rfl, rfl, rfl, rfl, Nat.le_refl _,
    fun _ _ => rfl, fun _ _ => rfl⟩

theorem NodeFrame.nodeTrans {tree : Nat} {w1 w2 w3 : World} (h1 : NodeFrame tree w1 w2)
    (h2 : NodeFrame tree w2 w3) : NodeFrame tree w1 w3 :=
  ⟨h2.pair.trans h1.pair, h2.calls.trans h1.calls, fun j => (h2.core j).trans (h1.core j),
    fun j => (h2.pooledPairs j).trans (h1.pooledPairs j),
    fun j hj => (h2.other j hj).trans (h1.other j hj),
    h2.pairBrk.trans h1.pairBrk, h2.indexBrk.trans h1.indexBrk, h2.nodeCount.trans h1.nodeCount,
    h2.pairCount.trans h1.pairCount, h2.external.trans h1.external,
    Nat.le_trans h1.nodeBrk h2.nodeBrk,
    fun i hi => (h2.stamp i (Nat.lt_of_lt_of_le hi h1.nodeBrk)).trans (h1.stamp i hi),
    fun i hi => (h2.pairs i (Nat.lt_of_lt_of_le hi h1.nodeBrk)).trans (h1.pairs i hi)⟩

/-- A frame for a step that rewrites node records but keeps their `stamp`
and `pairs` fields, and leaves everything else alone. -/
theorem NodeFrame.of_nodes (tree : Nat) (w : World) (nd : Nat → Node)
    (h : ∀ i, (nd i).stamp = (w.node i).stamp ∧ (nd i).pairs = (w.node i).pairs) :
    NodeFrame tree w { w with node := nd } :=
  ⟨rfl, rfl, fun _ => rfl, fun _ => rfl, fun _ _ => rfl, rfl, rfl, rfl, rfl, rfl, Nat.le_refl _,
    fun i _ => (h i).1, fun i _ => (h i).2⟩

theorem NodeRecycle_node (tree n : Nat) (w : World) :
    (NodeRecycle tree n w).node =
      upd w.node n { w.node n with parent := (w.index tree).pooledNodes } := rfl

theorem NodeRecycle_node_other (tree n i : Nat) (w : World) (h : i ≠ n) :
    (NodeRecycle tree n w).node i = w.node i := by
  rw [NodeRecycle_node, upd_other _ _ _ _ h]

theorem NodeRecycle_pooled (tree n : Nat) (w : World) :
    ((NodeRecycle tree n w).index tree).pooledNodes = some n := by
  simp [NodeRecycle]

theorem NodeRecycle_nodeBrk (tree n : Nat) (w : World) :
    (NodeRecycle tree n w).nodeBrk = w.nodeBrk := rfl

theorem NodeRecycle_frame (tree n : Nat) (w : World) : NodeFrame tree w (NodeRecycle tree n w) := by
  refine ⟨rfl, rfl, ?_, ?_, ?_, rfl, rfl, rfl, rfl, rfl, Nat.le_refl _, ?_, ?_⟩
  · intro j
    by_cases h : j = tree
    · subst h; simp [NodeRecycle]
    · simp [NodeRecycle, upd_other _ _ _ _ h]
  · intro j
    by_cases h : j = tree
    · subst h; simp [NodeRecycle]
    · simp [NodeRecycle, upd_other _ _ _ _ h]
  · intro j h
    simp [NodeRecycle, upd_other _ _ _ _ h]
  · intro i _
    rw [NodeRecycle_node]
    by_cases e : i = n
    · rw [e, upd_same]
    · rw [upd_other _ _ _ _ e]
  · intro i _
    rw [NodeRecycle_node]
    by_cases e : i = n
    · rw [e, upd_same]
    · rw [upd_other _ _ _ _ e]

theorem NodeRecycle_chain (tree n : Nat) (w : World) (FN : List Nat)
    (h : Chain (fun i => (w.node i).parent) (w.index tree).pooledNodes FN) (hn : n ∉ FN) :
    Chain (fun i => ((NodeRecycle tree n w).node i).parent)
      ((NodeRecycle tree n w).index tree).pooledNodes (n :: FN) := by
  refine ⟨NodeRecycle_pooled tree n w, ?_⟩
  have e : ((NodeRecycle tree n w).node n).parent = (w.index tree).pooledNodes := by
    simp [NodeRecycle_node]
  show Chain _ (((NodeRecycle tree n w).node n).parent) FN
  rw [e]
  refine Chain_congr _ _ FN _ ?_ h
  intro q hq
  have : q ≠ n := fun e => hn (e ▸ hq)
  show ((NodeRecycle tree n w).node q).parent = (w.node q).parent
  rw [NodeRecycle_node_other _ _ _ _ this]

theorem NodeRecycle_pool (tree n : Nat) (w : World) (FN : List Nat) (h : NodePool w tree FN)
    (hn : n ∉ FN) (hb : n < w.nodeBrk) : NodePool (NodeRecycle tree n w) tree (n :: FN) :=
  ⟨NodeRecycle_chain tree n w FN h.chain hn, List.nodup_cons.2 ⟨hn, h.nodup⟩,
    fun i hi => by
      rcases List.mem_cons.1 hi with e | e
      · rw [e]; exact hb
      · exact h.bound i e,
    h.count⟩

/-- The loop `for(int i=1; i<count; i++) NodeRecycle(tree, buffer + i)`. -/
theorem recycleNodeRange_spec (tree buffer : Nat) :
    ∀ (is : List Nat) (w : World) (FN : List Nat),
      Chain (fun q => (w.node q).parent) (w.index tree).pooledNodes FN →
      (∀ i ∈ is, buffer + i ∉ FN) → is.Nodup →
      ∃ w', w' = is.foldl (fun v i => NodeRecycle tree (buffer + i) v) w ∧
      Chain (fun q => (w'.node q).parent) (w'.index tree).pooledNodes
          ((is.map (fun i => buffer + i)).reverse ++ FN) ∧
        (∀ q, q ∉ is.map (fun i => buffer + i) → w'.node q = w.node q) ∧
        NodeFrame tree w w' ∧ w'.nodeBrk = w.nodeBrk
  | [], w, FN, h, _, _ =>
    ⟨w, rfl, h, fun _ _ => rfl, NodeFrame.nodeRefl _ _, rfl⟩
  | i :: is, w, FN, h, hf, hn => by
    have hi : buffer + i ∉ FN := hf i (List.mem_cons_self _ _)
    have h1 := NodeRecycle_chain tree (buffer + i) w FN h hi
    have hn' := List.nodup_cons.1 hn
    have hf' : ∀ j ∈ is, buffer + j ∉ (buffer + i) :: FN := by
      intro j hj hm
      rcases List.mem_cons.1 hm with e | e
      · have : j = i := by omega
        subst this; exact hn'.1 hj
      · exact hf j (List.mem_cons_of_mem _ hj) e
    obtain ⟨w', hw', c, fr, pf, hb⟩ :=
      recycleNodeRange_spec tree buffer is (NodeRecycle tree (buffer + i) w) _ h1 hf' hn'.2
    simp only [List.map_cons, List.reverse_cons, List.append_assoc,
      List.singleton_append]
    refine ⟨w', hw', c, ?_, (NodeRecycle_frame tree _ w).nodeTrans pf, hb⟩
    intro q hq
    simp only [List.mem_cons, not_or] at hq
    rw [fr q hq.2, NodeRecycle_node_other _ _ _ _ hq.1]

theorem NodeFromPool_spec (tree : Nat) (w : World) (FN : List Nat) (pool : NodePool w tree FN) :
    ∃ n w' FN', NodeFromPool tree w = some (n, w') ∧ NodePool w' tree FN' ∧
      n ∉ FN' ∧ n < w'.nodeBrk ∧
      (n ∈ FN ∨ w.nodeBrk ≤ n) ∧ (∀ q ∈ FN', q ∈ FN ∨ w.nodeBrk ≤ q) ∧
      (∀ q, q < w.nodeBrk → w'.node q = w.node q) ∧
      NodeFrame tree w w' := by
  have hc := pool.chain
  cases hpool : (w.index tree).pooledNodes with
  | some p =>
    rw [hpool] at hc
    obtain ⟨ps, hFP, hch⟩ := Chain_some _ p FN hc
    subst hFP
    have hnd := List.nodup_cons.1 pool.nodup
    refine ⟨p, w.setIndex tree { w.index tree with pooledNodes := (w.node p).parent }, ps, ?_,
      ⟨?_, hnd.2, fun q hq => pool.bound q (List.mem_cons_of_mem _ hq), pool.count⟩, hnd.1,
      pool.bound p (List.mem_cons_self _ _), Or.inl (List.mem_cons_self _ _),
      fun q hq => Or.inl (List.mem_cons_of_mem _ hq), fun _ _ => rfl, ?_⟩
    · simp [NodeFromPool, hpool]
    · simpa using hch
    · refine ⟨rfl, rfl, ?_, ?_, ?_, rfl, rfl, rfl, rfl, rfl, Nat.le_refl _, fun _ _ => rfl,
        fun _ _ => rfl⟩
      · intro j
        by_cases h : j = tree
        · subst h; simp
        · simp [upd_other _ _ _ _ h]
      · intro j
        by_cases h : j = tree
        · subst h; simp
        · simp [upd_other _ _ _ _ h]
      · intro j h
        simp [upd_other _ _ _ _ h]
  | none =>
    rw [hpool] at hc
    have hFP := Chain_none _ FN hc
    subst hFP
    let buffer := w.nodeBrk
    let count := w.nodeCount
    let w1 : World :=
      { w with
        node := fun j => if buffer ≤ j ∧ j < buffer + count then zeroNode else w.node j
        nodeBrk := buffer + count }
    let w2 := w1.setIndex tree
      { w1.index tree with
        allocatedBuffers := (w1.index tree).allocatedBuffers ++ [Buffer.nodes buffer] }
    have hc2 : Chain (fun q => (w2.node q).parent) (w2.index tree).pooledNodes [] := by
      show (w2.index tree).pooledNodes = none
      simp [w2, w1, hpool]
    obtain ⟨w', hw', c, fr, pf, hbk⟩ :=
      recycleNodeRange_spec tree buffer (List.range' 1 (count - 1)) w2 [] hc2
        (fun _ _ => List.not_mem_nil _) (List.nodup_range' _ _)
    have hmem : ∀ q, q ∈ (List.range' 1 (count - 1)).map (fun i => buffer + i) →
        buffer + 1 ≤ q ∧ q < buffer + count := by
      intro q hq
      obtain ⟨i, hi, e⟩ := List.mem_map.1 hq
      have := List.mem_range'_1.1 hi
      omega
    have hcount := pool.count
    refine ⟨buffer, w', ((List.range' 1 (count - 1)).map (fun i => buffer + i)).reverse ++ [], ?_,
      ⟨c, ?_, ?_, ?_⟩, ?_, ?_, Or.inr (Nat.le_refl _), ?_, ?_, ?_⟩
    · have hne : w.nodeCount ≠ 0 := Nat.pos_iff_ne_zero.1 hcount
      unfold NodeFromPool
      split
      · rename_i p hp
        rw [hpool] at hp
        exact Option.noConfusion hp
      · rw [hw']
        simp only [hne, if_false]
    · simp only [List.append_nil]
      exact List.nodup_reverse.2 ((List.nodup_range' _ _).map (fun a b h => by
        simpa using h))
    · intro q hq
      simp only [List.append_nil, List.mem_reverse] at hq
      rw [hbk]
      exact (hmem q hq).2
    · rw [pf.nodeCount]; exact hcount
    · intro hm
      simp only [List.append_nil, List.mem_reverse] at hm
      have := hmem _ hm
      omega
    · rw [hbk]
      show buffer < buffer + count
      omega
    · intro q hq
      simp only [List.append_nil, List.mem_reverse] at hq
      right
      have := hmem q hq
      show buffer ≤ q
      omega
    · intro q hq
      have hq' : q ∉ (List.range' 1 (count - 1)).map (fun i => buffer + i) := by
        intro hm
        have := hmem q hm
        have hq2 : q < buffer := hq
        omega
      rw [fr q hq']
      have hq2 : ¬ (buffer ≤ q ∧ q < buffer + count) := by
        intro h; have hq2 : q < buffer := hq; omega
      simp [w2, w1, hq2]
    · refine NodeFrame.nodeTrans ?_ pf
      refine ⟨rfl, rfl, ?_, ?_, ?_, rfl, rfl, rfl, rfl, rfl, ?_, ?_, ?_⟩
      · intro j
        by_cases h : j = tree
        · subst h; simp [w2, w1]
        · simp [w2, w1, upd_other _ _ _ _ h]
      · intro j
        by_cases h : j = tree
        · subst h; simp [w2, w1]
        · simp [w2, w1, upd_other _ _ _ _ h]
      · intro j h
        simp [w2, w1, upd_other _ _ _ _ h]
      · show w.nodeBrk ≤ buffer + count
        omega
      · intro i hi
        have hq2 : ¬ (buffer ≤ i ∧ i < buffer + count) := by
          intro h; have hq2 : i < buffer := hi; omega
        simp [w2, w1, hq2]
      · intro i hi
        have hq2 : ¬ (buffer ≤ i ∧ i < buffer + count) := by
          intro h; have hq2 : i < buffer := hi; omega
        simp [w2, w1, hq2]

/-! ## Shapes in the node heap -/

theorem Shape.ids_node_perm (i : Nat) (l r : Shape) :
    (Shape.node i l r).ids.Perm (i :: (l.ids ++ r.ids)) := by
  simp only [Shape.ids, Shape.inner_node, Shape.leaves_node, List.cons_append]
  refine List.Perm.cons _ ?_
  -- (li ++ ri) ++ (ll ++ rl) ~ (li ++ ll) ++ (ri ++ rl)
  rw [List.append_assoc, List.append_assoc]
  refine List.Perm.append_left _ ?_
  rw [← List.append_assoc, ← List.append_assoc]
  exact List.Perm.append_right _ List.perm_append_comm

theorem Shape.nodup_node (i : Nat) (l r : Shape) :
    (Shape.node i l r).ids.Nodup ↔
      i ∉ l.ids ∧ i ∉ r.ids ∧ l.ids.Nodup ∧ r.ids.Nodup ∧ (∀ x ∈ l.ids, x ∉ r.ids) := by
  rw [(Shape.ids_node_perm i l r).nodup_iff, List.nodup_cons, List.nodup_append]
  constructor
  · rintro ⟨h1, h2, h3, h4⟩
    exact ⟨fun h => h1 (List.mem_append_left _ h), fun h => h1 (List.mem_append_right _ h), h2, h3,
      fun x hx hx' => h4 hx hx'⟩
  · rintro ⟨h1, h2, h3, h4, h5⟩
    refine ⟨fun h => ?_, h3, h4, fun x hx hx' => h5 x hx hx'⟩
    rcases List.mem_append.1 h with h | h
    · exact h1 h
    · exact h2 h

theorem Shape.leaves_nodup (t : Shape) (h : t.ids.Nodup) : t.leaves.Nodup :=
  (List.nodup_append.1 h).2.1

theorem Sub_congr (nd nd' : Nat → Node) :
    ∀ (t : Shape), t.ids.Nodup →
      (∀ i ∈ t.ids, (nd' i).obj = (nd i).obj ∧ (nd' i).a = (nd i).a ∧ (nd' i).b = (nd i).b ∧
        (i ≠ t.root → (nd' i).parent = (nd i).parent)) →
      Sub nd t → Sub nd' t
  | Shape.leaf i, _, h, hs => by
    have := h i (Shape.root_mem_ids _)
    show (nd' i).obj ≠ 0
    rw [this.1]; exact hs
  | Shape.node i l r, hn, h, hs => by
    obtain ⟨h1, h2, h3, h4, h5, h6, h7⟩ := hs
    obtain ⟨n1, n2, n3, n4, n5⟩ := (Shape.nodup_node i l r).1 hn
    have hi := h i (Shape.root_mem_ids _)
    have hl : l.root ∈ (Shape.node i l r).ids :=
      (Shape.mem_ids_node _ _ _ _).2 (Or.inr (Or.inl (Shape.root_mem_ids l)))
    have hr : r.root ∈ (Shape.node i l r).ids :=
      (Shape.mem_ids_node _ _ _ _).2 (Or.inr (Or.inr (Shape.root_mem_ids r)))
    have hli : l.root ≠ i := fun e => n1 (e ▸ Shape.root_mem_ids l)
    have hri : r.root ≠ i := fun e => n2 (e ▸ Shape.root_mem_ids r)
    refine ⟨hi.1.trans h1, hi.2.1.trans h2, hi.2.2.1.trans h3,
      ((h _ hl).2.2.2 hli).trans h4, ((h _ hr).2.2.2 hri).trans h5, ?_, ?_⟩
    · refine Sub_congr nd nd' l n3 ?_ h6
      intro j hj
      have hj' : j ∈ (Shape.node i l r).ids := (Shape.mem_ids_node _ _ _ _).2 (Or.inr (Or.inl hj))
      have hji : j ≠ i := fun e => n1 (e ▸ hj)
      obtain ⟨a, b, c, d⟩ := h j hj'
      exact ⟨a, b, c, fun _ => d hji⟩
    · refine Sub_congr nd nd' r n4 ?_ h7
      intro j hj
      have hj' : j ∈ (Shape.node i l r).ids := (Shape.mem_ids_node _ _ _ _).2 (Or.inr (Or.inr hj))
      have hji : j ≠ i := fun e => n2 (e ▸ hj)
      obtain ⟨a, b, c, d⟩ := h j hj'
      exact ⟨a, b, c, fun _ => d hji⟩

theorem Sub_congr_eq (nd nd' : Nat → Node) (t : Shape) (hn : t.ids.Nodup)
    (h : ∀ i ∈ t.ids, nd' i = nd i) (hs : Sub nd t) : Sub nd' t :=
  Sub_congr nd nd' t hn (fun i hi => by rw [h i hi]; exact ⟨rfl, rfl, rfl, fun _ => rfl⟩) hs

theorem Fit_congr (nd nd' : Nat → Node) :
    ∀ (t : Shape), (∀ i ∈ t.ids, (nd' i).bb = (nd i).bb) → Fit nd t → Fit nd' t
  | Shape.leaf _, _, _ => trivial
  | Shape.node i l r, h, hf => by
    obtain ⟨h1, h2, h3⟩ := hf
    have hi := h i (Shape.root_mem_ids _)
    have hl := h l.root ((Shape.mem_ids_node _ _ _ _).2 (Or.inr (Or.inl (Shape.root_mem_ids l))))
    have hr := h r.root ((Shape.mem_ids_node _ _ _ _).2 (Or.inr (Or.inr (Shape.root_mem_ids r))))
    refine ⟨by rw [hi, hl, hr]; exact h1, ?_, ?_⟩
    · exact Fit_congr nd nd' l
        (fun j hj => h j ((Shape.mem_ids_node _ _ _ _).2 (Or.inr (Or.inl hj)))) h2
    · exact Fit_congr nd nd' r
        (fun j hj => h j ((Shape.mem_ids_node _ _ _ _).2 (Or.inr (Or.inr hj)))) h3

theorem Sub_leaf_obj (nd : Nat → Node) :
    ∀ (t : Shape), Sub nd t → ∀ x ∈ t.leaves, (nd x).obj ≠ 0
  | Shape.leaf i, hs, x, hx => by
    simp only [Shape.leaves_leaf, List.mem_singleton] at hx
    rw [hx]; exact hs
  | Shape.node i l r, hs, x, hx => by
    obtain ⟨_, _, _, _, _, h6, h7⟩ := hs
    simp only [Shape.leaves_node, List.mem_append] at hx
    rcases hx with h | h
    · exact Sub_leaf_obj nd l h6 x h
    · exact Sub_leaf_obj nd r h7 x h

theorem Sub_inner_obj (nd : Nat → Node) :
    ∀ (t : Shape), Sub nd t → ∀ x ∈ t.inner, (nd x).obj = 0
  | Shape.leaf i, _, x, hx => by simp at hx
  | Shape.node i l r, hs, x, hx => by
    obtain ⟨h1, _, _, _, _, h6, h7⟩ := hs
    simp only [Shape.inner_node, List.mem_cons, List.mem_append] at hx
    rcases hx with h | h | h
    · rw [h]; exact h1
    · exact Sub_inner_obj nd l h6 x h
    · exact Sub_inner_obj nd r h7 x h

/-! ## NodeNew -/

theorem NodeNew_spec (tree a b : Nat) (w : World) (FN : List Nat) (pool : NodePool w tree FN)
    (ha : a < w.nodeBrk) (hb : b < w.nodeBrk) (haF : a ∉ FN) (hbF : b ∉ FN) (hab : a ≠ b) :
    ∃ n w' FN', NodeNew tree a b w = some (n, w') ∧ NodePool w' tree FN' ∧
      n ∉ FN' ∧ n < w'.nodeBrk ∧
      (n ∈ FN ∨ w.nodeBrk ≤ n) ∧ (∀ q ∈ FN', q ∈ FN ∨ w.nodeBrk ≤ q) ∧
      (w'.node n).obj = 0 ∧ (w'.node n).bb = cpBBMerge (w.node a).bb (w.node b).bb ∧
      (w'.node n).parent = none ∧ (w'.node n).a = some a ∧ (w'.node n).b = some b ∧
      w'.node a = { w.node a with parent := some n } ∧
      w'.node b = { w.node b with parent := some n } ∧
      (∀ i, i < w.nodeBrk → i ≠ n → i ≠ a → i ≠ b → w'.node i = w.node i) ∧
      NodeFrame tree w w' := by
  obtain ⟨n, w1, FN', hpool, pool1, hnF, hnb, hnfresh, hsub, hold, hfr⟩ :=
    NodeFromPool_spec tree w FN pool
  have hna : n ≠ a := by
    intro e
    rcases hnfresh with h | h
    · exact haF (e ▸ h)
    · omega
  have hnb' : n ≠ b := by
    intro e
    rcases hnfresh with h | h
    · exact hbF (e ▸ h)
    · omega
  have han : a ≠ n := fun e => hna e.symm
  have hbn : b ≠ n := fun e => hnb' e.symm
  have hba : b ≠ a := fun e => hab e.symm
  obtain ⟨w', hw'⟩ : ∃ w', NodeNew tree a b w = some (n, w') ∧ w'.index = w1.index ∧
      w'.nodeBrk = w1.nodeBrk ∧ w'.pair = w1.pair ∧ w'.calls = w1.calls ∧
      w'.pairBrk = w1.pairBrk ∧ w'.indexBrk = w1.indexBrk ∧ w'.nodeCount = w1.nodeCount ∧
      w'.pairCount = w1.pairCount ∧ w'.external = w1.external ∧
      w'.node n = { w1.node n with obj := 0, bb := cpBBMerge (w1.node a).bb (w1.node b).bb,
                                   parent := none, a := some a, b := some b } ∧
      w'.node a = { w1.node a with parent := some n } ∧
      w'.node b = { w1.node b with parent := some n } ∧
      (∀ i, i ≠ n → i ≠ a → i ≠ b → w'.node i = w1.node i) := by
    refine ⟨NodeSetB n b (NodeSetA n a
        (((w1.setNode n { w1.node n with obj := 0 }).setNode n
          { (w1.setNode n { w1.node n with obj := 0 }).node n with
            bb := cpBBMerge ((w1.setNode n { w1.node n with obj := 0 }).node a).bb
              ((w1.setNode n { w1.node n with obj := 0 }).node b).bb }).setNode n
          { ((w1.setNode n { w1.node n with obj := 0 }).setNode n
            { (w1.setNode n { w1.node n with obj := 0 }).node n with
              bb := cpBBMerge ((w1.setNode n { w1.node n with obj := 0 }).node a).bb
                ((w1.setNode n { w1.node n with obj := 0 }).node b).bb }).node n with
            parent := none })),
      by unfold NodeNew; rw [hpool], rfl, rfl, rfl, rfl, rfl, rfl, rfl, rfl, rfl, ?_, ?_, ?_, ?_⟩
    · simp [NodeSetA, NodeSetB, upd_apply, hna, hnb', han, hbn, hab, hba]
    · simp [NodeSetA, NodeSetB, upd_apply, hna, hnb', han, hbn, hab, hba]
    · simp [NodeSetA, NodeSetB, upd_apply, hna, hnb', han, hbn, hab, hba]
    · intro i h1 h2 h3
      simp [NodeSetA, NodeSetB, upd_apply, h1, h2, h3]
  obtain ⟨hres, hidx, hbrk, hpair, hcalls, hpb, hib, hnc, hpc, hext, hn, hna', hnb'', hoth⟩ := hw'
  have haF' : a ∉ FN' := by
    intro h
    rcases hsub a h with h | h
    · exact haF h
    · omega
  have hbF' : b ∉ FN' := by
    intro h
    rcases hsub b h with h | h
    · exact hbF h
    · omega
  refine ⟨n, w', FN', hres, ⟨?_, pool1.nodup, ?_, ?_⟩, hnF, ?_, hnfresh, hsub, ?_, ?_, ?_, ?_, ?_,
    ?_, ?_, ?_, ?_⟩
  · rw [hidx]
    refine Chain_congr _ _ FN' _ ?_ pool1.chain
    intro q hq
    have h1 : q ≠ n := fun e => hnF (e ▸ hq)
    have h2 : q ≠ a := fun e => haF' (e ▸ hq)
    have h3 : q ≠ b := fun e => hbF' (e ▸ hq)
    show (w'.node q).parent = (w1.node q).parent
    rw [hoth q h1 h2 h3]
  · rw [hbrk]; exact pool1.bound
  · rw [hnc]; exact pool1.count
  · rw [hbrk]; exact hnb
  · rw [hn]
  · rw [hn, hold a ha, hold b hb]
  · rw [hn]
  · rw [hn]
  · rw [hn]
  · rw [hna', hold a ha]
  · rw [hnb'', hold b hb]
  · intro i hi h1 h2 h3
    rw [hoth i h1 h2 h3, hold i hi]
  · refine ⟨hpair.trans hfr.pair, hcalls.trans hfr.calls, ?_, ?_, ?_, hpb.trans hfr.pairBrk,
      hib.trans hfr.indexBrk, hnc.trans hfr.nodeCount, hpc.trans hfr.pairCount,
      hext.trans hfr.external, by rw [hbrk]; exact hfr.nodeBrk, ?_, ?_⟩
    · intro j; rw [hidx]; exact hfr.core j
    · intro j; rw [hidx]; exact hfr.pooledPairs j
    · intro j hj; rw [hidx]; exact hfr.other j hj
    · intro i hi
      by_cases e1 : i = n
      · rw [e1, hn]; exact hfr.stamp n (e1 ▸ hi)
      · by_cases e2 : i = a
        · rw [e2, hna']; exact hfr.stamp a ha
        · by_cases e3 : i = b
          · rw [e3, hnb'']; exact hfr.stamp b hb
          · rw [hoth i e1 e2 e3]; exact hfr.stamp i hi
    · intro i hi
      by_cases e1 : i = n
      · rw [e1, hn]; exact hfr.pairs n (e1 ▸ hi)
      · by_cases e2 : i = a
        · rw [e2, hna']; exact hfr.pairs a ha
        · by_cases e3 : i = b
          · rw [e3, hnb'']; exact hfr.pairs b hb
          · rw [hoth i e1 e2 e3]; exact hfr.pairs i hi

/-! ## SubtreeInsert -/

theorem sameButParent_refl (n : Node) : n.sameButParent n := by
  cases n; rfl

theorem sameButParent_trans {n m k : Node} (h1 : n.sameButParent m) (h2 : m.sameButParent k) :
    n.sameButParent k := by
  unfold Node.sameButParent at *
  rw [h2, h1]

theorem sameButParent_set (n m : Node) (v : Option Nat) (h : n.sameButParent m) :
    n.sameButParent { m with parent := v } := by
  unfold Node.sameButParent at *
  rw [h]

theorem sameButParent_obj {n m : Node} (h : n.sameButParent m) : m.obj = n.obj := by
  unfold Node.sameButParent at h; rw [h]
theorem sameButParent_bb {n m : Node} (h : n.sameButParent m) : m.bb = n.bb := by
  unfold Node.sameButParent at h; rw [h]
theorem sameButParent_a {n m : Node} (h : n.sameButParent m) : m.a = n.a := by
  unfold Node.sameButParent at h; rw [h]
theorem sameButParent_b {n m : Node} (h : n.sameButParent m) : m.b = n.b := by
  unfold Node.sameButParent at h; rw [h]
theorem sameButParent_stamp {n m : Node} (h : n.sameButParent m) : m.stamp = n.stamp := by
  unfold Node.sameButParent at h; rw [h]
theorem sameButParent_pairs {n m : Node} (h : n.sameButParent m) : m.pairs = n.pairs := by
  unfold Node.sameButParent at h; rw [h]

theorem insShape_root (nd : Nat → Node) (x n : Nat) (t : Shape) :
    (insShape nd x n t).root = match t with
      | Shape.leaf _ => n
      | Shape.node i _ _ => i := by
  cases t with
  | leaf i => rfl
  | node i l r =>
    simp only [insShape]
    split <;> rfl

theorem insShape_ids_perm (nd : Nat → Node) (x n : Nat) :
    ∀ t : Shape, (insShape nd x n t).ids.Perm (n :: x :: t.ids)
  | Shape.leaf i => by
    simp [insShape, Shape.ids]
  | Shape.node i l r => by
    simp only [insShape]
    split
    · refine (Shape.ids_node_perm i l _).trans ?_
      have h := insShape_ids_perm nd x n r
      have h2 : (i :: (l.ids ++ (insShape nd x n r).ids)).Perm (i :: (l.ids ++ (n :: x :: r.ids))) :=
        List.Perm.cons _ (List.Perm.append_left _ h)
      refine h2.trans ?_
      have h3 : (n :: x :: (Shape.node i l r).ids).Perm (n :: x :: i :: (l.ids ++ r.ids)) :=
        List.Perm.cons _ (List.Perm.cons _ (Shape.ids_node_perm i l r))
      refine List.Perm.trans ?_ h3.symm
      have h4 : (l.ids ++ n :: x :: r.ids).Perm (n :: x :: (l.ids ++ r.ids)) := by
        have := (@List.perm_middle _ n l.ids (x :: r.ids))
        refine this.trans (List.Perm.cons _ ?_)
        exact List.perm_middle
      refine (List.Perm.cons i h4).trans ?_
      refine (List.Perm.swap n i _).trans (List.Perm.cons n ?_)
      exact List.Perm.swap x i _
    · refine (Shape.ids_node_perm i _ r).trans ?_
      have h := insShape_ids_perm nd x n l
      have h2 : (i :: ((insShape nd x n l).ids ++ r.ids)).Perm (i :: ((n :: x :: l.ids) ++ r.ids)) :=
        List.Perm.cons _ (List.Perm.append_right _ h)
      refine h2.trans ?_
      have h3 : (n :: x :: (Shape.node i l r).ids).Perm (n :: x :: i :: (l.ids ++ r.ids)) :=
        List.Perm.cons _ (List.Perm.cons _ (Shape.ids_node_perm i l r))
      refine List.Perm.trans ?_ h3.symm
      simp only [List.cons_append]
      refine (List.Perm.swap n i _).trans (List.Perm.cons n ?_)
      exact List.Perm.swap x i _

theorem insShape_mem_ids (nd : Nat → Node) (x n : Nat) (t : Shape) (j : Nat) :
    j ∈ (insShape nd x n t).ids ↔ j = n ∨ j = x ∨ j ∈ t.ids := by
  rw [(insShape_ids_perm nd x n t).mem_iff]
  simp

theorem insShape_nodup (nd : Nat → Node) (x n : Nat) (t : Shape) (h : t.ids.Nodup)
    (hx : x ∉ t.ids) (hn : n ∉ t.ids) (hnx : n ≠ x) : (insShape nd x n t).ids.Nodup := by
  rw [(insShape_ids_perm nd x n t).nodup_iff]
  refine List.nodup_cons.2 ⟨?_, List.nodup_cons.2 ⟨hx, h⟩⟩
  intro hm
  rcases List.mem_cons.1 hm with e | e
  · exact hnx e
  · exact hn e

theorem insShape_leaves_perm (nd : Nat → Node) (x n : Nat) :
    ∀ t : Shape, (insShape nd x n t).leaves.Perm (x :: t.leaves)
  | Shape.leaf i => by simp [insShape]
  | Shape.node i l r => by
    simp only [insShape]
    split
    · simp only [Shape.leaves_node]
      have h := insShape_leaves_perm nd x n r
      exact (List.Perm.append_left _ h).trans List.perm_middle
    · simp only [Shape.leaves_node]
      have h := insShape_leaves_perm nd x n l
      exact List.Perm.append_right _ h

theorem insShape_inner_perm (nd : Nat → Node) (x n : Nat) :
    ∀ t : Shape, (insShape nd x n t).inner.Perm (n :: t.inner)
  | Shape.leaf i => by simp [insShape]
  | Shape.node i l r => by
    simp only [insShape]
    split
    · simp only [Shape.inner_node]
      have h := insShape_inner_perm nd x n r
      refine (List.Perm.cons i ((List.Perm.append_left _ h).trans List.perm_middle)).trans ?_
      exact List.Perm.swap n i _
    · simp only [Shape.inner_node]
      have h := insShape_inner_perm nd x n l
      refine (List.Perm.cons i (List.Perm.append_right _ h)).trans ?_
      simp only [List.cons_append]
      exact List.Perm.swap n i _

theorem insShape_height (nd : Nat → Node) (x n : Nat) :
    ∀ t : Shape, (insShape nd x n t).height ≤ t.height + 1
  | Shape.leaf i => by simp [insShape]
  | Shape.node i l r => by
    simp only [insShape]
    have h1 := insShape_height nd x n l
    have h2 := insShape_height nd x n r
    split <;> simp only [Shape.height_node] <;> omega

theorem insParent_congr (nd nd' : Nat → Node) (t : Shape) (h : nd' t.root = nd t.root) :
    insParent nd' t = insParent nd t := by
  cases t with
  | leaf i => rfl
  | node i l r => simp only [insParent]; rw [show nd' i = nd i from h]

/-- The node heap after `NodeSetB(i, c)` and the box update of `SubtreeInsert`. -/
theorem finishB_node (i c x : Nat) (w1 : World) (hic : i ≠ c) (hix : i ≠ x) (hcx : c ≠ x) :
    let w3 := (NodeSetB i c w1).setNode i
      { (NodeSetB i c w1).node i with
        bb := cpBBMerge ((NodeSetB i c w1).node i).bb ((NodeSetB i c w1).node x).bb }
    w3.node i = { w1.node i with b := some c, bb := cpBBMerge (w1.node i).bb (w1.node x).bb } ∧
      w3.node c = { w1.node c with parent := some i } ∧
      (∀ j, j ≠ i → j ≠ c → w3.node j = w1.node j) ∧
      w3.index = w1.index ∧ NodeFrame 0 w1 w3 := by
  have hci : c ≠ i := fun e => hic e.symm
  have hxi : x ≠ i := fun e => hix e.symm
  have hxc : x ≠ c := fun e => hcx e.symm
  refine ⟨?_, ?_, ?_, rfl, ?_⟩
  · simp [NodeSetB, upd_apply, hic, hci, hxi, hxc]
  · simp [NodeSetB, upd_apply, hic, hci, hxi, hxc]
  · intro j h1 h2
    simp [NodeSetB, upd_apply, h1, h2]
  · refine ⟨rfl, rfl, fun _ => rfl, fun _ => rfl, fun _ _ => rfl, rfl, rfl, rfl, rfl, rfl,
      Nat.le_refl _, ?_, ?_⟩
    · intro j _
      by_cases e1 : j = i
      · rw [e1]; simp [NodeSetB, upd_apply, hic, hci, hxi, hxc]
      · by_cases e2 : j = c
        · rw [e2]; simp [NodeSetB, upd_apply, hic, hci, hxi, hxc]
        · simp [NodeSetB, upd_apply, e1, e2]
    · intro j _
      by_cases e1 : j = i
      · rw [e1]; simp [NodeSetB, upd_apply, hic, hci, hxi, hxc]
      · by_cases e2 : j = c
        · rw [e2]; simp [NodeSetB, upd_apply, hic, hci, hxi, hxc]
        · simp [NodeSetB, upd_apply, e1, e2]

/-- The node heap after `NodeSetA(i, c)` and the box update of `SubtreeInsert`. -/
theorem finishA_node (i c x : Nat) (w1 : World) (hic : i ≠ c) (hix : i ≠ x) (hcx : c ≠ x) :
    let w3 := (NodeSetA i c w1).setNode i
      { (NodeSetA i c w1).node i with
        bb := cpBBMerge ((NodeSetA i c w1).node i).bb ((NodeSetA i c w1).node x).bb }
    w3.node i = { w1.node i with a := some c, bb := cpBBMerge (w1.node i).bb (w1.node x).bb } ∧
      w3.node c = { w1.node c with parent := some i } ∧
      (∀ j, j ≠ i → j ≠ c → w3.node j = w1.node j) ∧
      w3.index = w1.index ∧ NodeFrame 0 w1 w3 := by
  have hci : c ≠ i := fun e => hic e.symm
  have hxi : x ≠ i := fun e => hix e.symm
  have hxc : x ≠ c := fun e => hcx e.symm
  refine ⟨?_, ?_, ?_, rfl, ?_⟩
  · simp [NodeSetA, upd_apply, hic, hci, hxi, hxc]
  · simp [NodeSetA, upd_apply, hic, hci, hxi, hxc]
  · intro j h1 h2
    simp [NodeSetA, upd_apply, h1, h2]
  · refine ⟨rfl, rfl, fun _ => rfl, fun _ => rfl, fun _ _ => rfl, rfl, rfl, rfl, rfl, rfl,
      Nat.le_refl _, ?_, ?_⟩
    · intro j _
      by_cases e1 : j = i
      · rw [e1]; simp [NodeSetA, upd_apply, hic, hci, hxi, hxc]
      · by_cases e2 : j = c
        · rw [e2]; simp [NodeSetA, upd_apply, hic, hci, hxi, hxc]
        · simp [NodeSetA, upd_apply, e1, e2]
    · intro j _
      by_cases e1 : j = i
      · rw [e1]; simp [NodeSetA, upd_apply, hic, hci, hxi, hxc]
      · by_cases e2 : j = c
        · rw [e2]; simp [NodeSetA, upd_apply, hic, hci, hxi, hxc]
        · simp [NodeSetA, upd_apply, e1, e2]

theorem NodeFrame.retag {t t' : Nat} {w w' : World} (h : NodeFrame t w w')
    (hidx : w'.index = w.index) : NodeFrame t' w w' :=
  ⟨h.pair, h.calls, h.core, h.pooledPairs, fun j _ => by rw [hidx], h.pairBrk, h.indexBrk,
    h.nodeCount, h.pairCount, h.external, h.nodeBrk, h.stamp, h.pairs⟩

set_option maxHeartbeats 1600000 in
theorem SubtreeInsert_spec (tree x : Nat) :
    ∀ (t : Shape) (w : World) (FN : List Nat) (fuel : Nat),
      NodePool w tree FN → Sub w.node t → t.ids.Nodup → x ∉ t.ids → (w.node x).obj ≠ 0 →
      (∀ i ∈ x :: t.ids, i < w.nodeBrk ∧ i ∉ FN) → t.height ≤ fuel →
      ∃ n w' FN',
        SubtreeInsert fuel (some t.root) x tree w = some ((insShape w.node x n t).root, w') ∧
        NodePool w' tree FN' ∧ n ∉ FN' ∧ n < w'.nodeBrk ∧ (n ∈ FN ∨ w.nodeBrk ≤ n) ∧
        (∀ q ∈ FN', q ∈ FN ∨ w.nodeBrk ≤ q) ∧
        Sub w'.node (insShape w.node x n t) ∧
        (Fit w.node t → Fit w'.node (insShape w.node x n t)) ∧
        (w'.node (insShape w.node x n t).root).bb = cpBBMerge (w.node t.root).bb (w.node x).bb ∧
        (w'.node (insShape w.node x n t).root).parent = insParent w.node t ∧
        (∀ i, i < w.nodeBrk → i ≠ n → i ∉ t.ids → i ≠ x → w'.node i = w.node i) ∧
        (∀ i ∈ x :: t.leaves, (w.node i).sameButParent (w'.node i)) ∧
        NodeFrame tree w w'
  | Shape.leaf i, w, FN, fuel, pool, hs, _, hx, hxobj, hlive, hfuel => by
    have hxi : x ≠ i := by
      intro e; exact hx (by rw [e]; exact Shape.root_mem_ids _)
    have hlx := hlive x (List.mem_cons_self _ _)
    have hli := hlive i (List.mem_cons_of_mem _ (Shape.root_mem_ids (Shape.leaf i)))
    obtain ⟨n, w', FN', hres, pool', hnF, hnb, hnfresh, hsub, ho, hbb, hpar, ha, hb, hnx, hni,
      hoth, hfr⟩ := NodeNew_spec tree x i w FN pool hlx.1 hli.1 hlx.2 hli.2 hxi
    have hiobj : (w.node i).obj ≠ 0 := hs
    refine ⟨n, w', FN', ?_, pool', hnF, hnb, hnfresh, hsub, ?_, ?_, ?_, ?_, ?_, ?_, hfr⟩
    · cases fuel with
      | zero => simp at hfuel
      | succ fuel =>
        have hleaf : NodeIsLeaf w i = true := by simp [NodeIsLeaf, hiobj]
        simp only [SubtreeInsert, Shape.root_leaf, hleaf, if_true, insShape, Shape.root_node]
        exact hres
    · show Sub w'.node (Shape.node n (Shape.leaf x) (Shape.leaf i))
      refine ⟨ho, ha, hb, ?_, ?_, ?_, ?_⟩
      · rw [Shape.root_leaf, hnx]
      · rw [Shape.root_leaf, hni]
      · show (w'.node x).obj ≠ 0
        rw [hnx]; exact hxobj
      · show (w'.node i).obj ≠ 0
        rw [hni]; exact hiobj
    · intro _
      show Fit w'.node (Shape.node n (Shape.leaf x) (Shape.leaf i))
      refine ⟨?_, trivial, trivial⟩
      rw [hbb, Shape.root_leaf, Shape.root_leaf, hnx, hni]
    · show (w'.node n).bb = _
      rw [hbb, Shape.root_leaf, cpBBMerge_comm]
    · exact hpar
    · intro j hj hjn hjt hjx
      have hji : j ≠ i := fun e => hjt (by rw [e]; exact Shape.root_mem_ids _)
      exact hoth j hj hjn hjx hji
    · intro j hj
      simp only [Shape.leaves_leaf, List.mem_cons, List.mem_singleton, List.not_mem_nil,
        or_false] at hj
      rcases hj with e | e
      · rw [e, hnx]; exact sameButParent_set _ _ _ (sameButParent_refl _)
      · rw [e, hni]; exact sameButParent_set _ _ _ (sameButParent_refl _)
  | Shape.node i l r, w, FN, fuel, pool, hs, hnd, hx, hxobj, hlive, hfuel => by
    obtain ⟨h1, h2, h3, h4, h5, h6, h7⟩ := hs
    obtain ⟨n1, n2, n3, n4, n5⟩ := (Shape.nodup_node i l r).1 hnd
    have hxids : x ≠ i ∧ x ∉ l.ids ∧ x ∉ r.ids := by
      have := (Shape.mem_ids_node x i l r).not.1 hx
      simp only [not_or] at this
      exact this
    have hlx := hlive x (List.mem_cons_self _ _)
    have hlivei : i < w.nodeBrk ∧ i ∉ FN :=
      hlive i (List.mem_cons_of_mem _ (Shape.root_mem_ids (Shape.node i l r)))
    have hlivel : ∀ j ∈ l.ids, j < w.nodeBrk ∧ j ∉ FN := fun j hj =>
      hlive j (List.mem_cons_of_mem _ ((Shape.mem_ids_node _ _ _ _).2 (Or.inr (Or.inl hj))))
    have hliver : ∀ j ∈ r.ids, j < w.nodeBrk ∧ j ∉ FN := fun j hj =>
      hlive j (List.mem_cons_of_mem _ ((Shape.mem_ids_node _ _ _ _).2 (Or.inr (Or.inr hj))))
    cases fuel with
    | zero => simp at hfuel
    | succ fuel =>
    have hfl : l.height ≤ fuel := by
      simp only [Shape.height_node] at hfuel; omega
    have hfr0 : r.height ≤ fuel := by
      simp only [Shape.height_node] at hfuel; omega
    have hleaf : NodeIsLeaf w i = false := by simp [NodeIsLeaf, h1]
    by_cases hc : cpBBArea (w.node l.root).bb + cpBBMergedArea (w.node r.root).bb (w.node x).bb <
        cpBBArea (w.node r.root).bb + cpBBMergedArea (w.node l.root).bb (w.node x).bb
    · -- descend into b
      obtain ⟨n, w1, FN1, hrec, pool1, hnF, hnb, hnfresh, hsub, hSub', hFit', hbb', hpar',
        hframe1, hleaf1, hfr1⟩ := SubtreeInsert_spec tree x r w FN fuel pool h7 n4 hxids.2.2 hxobj
          (by
            intro j hj
            rcases List.mem_cons.1 hj with e | e
            · rw [e]; exact hlx
            · exact hliver j e) hfr0
      have hfresh : ∀ j, j < w.nodeBrk → j ∉ FN → j ≠ n := by
        intro j hj hjF e
        rcases hnfresh with h | h
        · exact hjF (e ▸ h)
        · omega
      have hstay : ∀ j, j < w.nodeBrk → j ∉ FN → j ∉ FN1 := by
        intro j hj hjF hm
        rcases hsub j hm with h | h
        · exact hjF h
        · omega
      set r' := insShape w.node x n r with hr'
      set c := r'.root with hcdef
      have hcr : c = n ∨ c = r.root := by
        rw [hcdef, hr', insShape_root]
        cases r with
        | leaf k => exact Or.inl rfl
        | node k a b => exact Or.inr rfl
      have hni : n ≠ i := fun e => hfresh i hlivei.1 hlivei.2 e.symm
      have hnx : n ≠ x := fun e => hfresh x hlx.1 hlx.2 e.symm
      have hnl : n ∉ l.ids := fun h => hfresh n (hlivel n h).1 (hlivel n h).2 rfl
      have hnr : n ∉ r.ids := fun h => hfresh n (hliver n h).1 (hliver n h).2 rfl
      have hrroot : r.root ∈ r.ids := Shape.root_mem_ids r
      have hic : i ≠ c := by
        rcases hcr with e | e
        · rw [e]; exact fun h => hni h.symm
        · rw [e]; exact fun h => n2 (h ▸ hrroot)
      have hcx : c ≠ x := by
        rcases hcr with e | e
        · rw [e]; exact hnx
        · rw [e]; exact fun h => hxids.2.2 (h ▸ hrroot)
      have hcl : c ∉ l.ids := by
        rcases hcr with e | e
        · rw [e]; exact hnl
        · rw [e]; exact fun h => n5 _ h hrroot
      have hcF1 : c ∉ FN1 := by
        rcases hcr with e | e
        · rw [e]; exact hnF
        · rw [e]; exact hstay _ (hliver _ hrroot).1 (hliver _ hrroot).2
      obtain ⟨f1, f2, f3, f4, f5⟩ := finishB_node i c x w1 hic hxids.1.symm hcx
      set w3 := (NodeSetB i c w1).setNode i
        { (NodeSetB i c w1).node i with
          bb := cpBBMerge ((NodeSetB i c w1).node i).bb ((NodeSetB i c w1).node x).bb } with hw3
      have hi1 : w1.node i = w.node i := hframe1 i hlivei.1 hni.symm n2 hxids.1.symm
      have hl1 : ∀ j ∈ l.ids, w1.node j = w.node j := fun j hj =>
        hframe1 j (hlivel j hj).1 (fun e => hnl (e ▸ hj)) (fun h => n5 j hj h)
          (fun e => hxids.2.1 (e ▸ hj))
      have hl3 : ∀ j ∈ l.ids, w3.node j = w.node j := fun j hj => by
        rw [f3 j (fun e => n1 (e ▸ hj)) (fun e => hcl (e ▸ hj))]
        exact hl1 j hj
      have hx1 : (w1.node x).bb = (w.node x).bb :=
        sameButParent_bb (hleaf1 x (List.mem_cons_self _ _))
      have hshape : insShape w.node x n (Shape.node i l r) = Shape.node i l r' := by
        simp only [insShape, hc, if_true]
      have hr'ids : ∀ j, j ∈ r'.ids ↔ j = n ∨ j = x ∨ j ∈ r.ids := insShape_mem_ids w.node x n r
      have hr'nd : r'.ids.Nodup := insShape_nodup w.node x n r n4 hxids.2.2 hnr hnx
      have hi_r' : i ∉ r'.ids := by
        rw [hr'ids]
        rintro (e | e | e)
        · exact hni e.symm
        · exact hxids.1 e.symm
        · exact n2 e
      refine ⟨n, w3, FN1, ?_, ?_, hnF, ?_, hnfresh, hsub, ?_, ?_, ?_, ?_, ?_, ?_, ?_⟩
      · rw [hshape, Shape.root_node]
        simp only [SubtreeInsert, Shape.root_node, hleaf, h2, h3, hc, if_true, hrec]
        rfl
      · refine ⟨?_, pool1.nodup, pool1.bound, pool1.count⟩
        show Chain (fun j => (w3.node j).parent) (w3.index tree).pooledNodes FN1
        rw [f4]
        refine Chain_congr _ _ FN1 _ ?_ pool1.chain
        intro q hq
        show (w3.node q).parent = (w1.node q).parent
        rw [f3 q (fun e => hstay i hlivei.1 hlivei.2 (e ▸ hq)) (fun e => hcF1 (e ▸ hq))]
      · exact hnb
      · rw [hshape]
        refine ⟨?_, ?_, ?_, ?_, ?_, ?_, ?_⟩
        · rw [f1]; show (w1.node i).obj = 0; rw [hi1]; exact h1
        · rw [f1]; show (w1.node i).a = some l.root; rw [hi1]; exact h2
        · rw [f1]
        · rw [hl3 _ (Shape.root_mem_ids l)]; exact h4
        · rw [f2]
        · exact Sub_congr_eq w.node w3.node l n3 hl3 h6
        · refine Sub_congr w1.node w3.node r' hr'nd ?_ hSub'
          intro j hj
          have hji : j ≠ i := fun e => hi_r' (e ▸ hj)
          by_cases e : j = c
          · rw [e, f2]
            exact ⟨rfl, rfl, rfl, fun h => absurd rfl h⟩
          · rw [f3 j hji e]
            exact ⟨rfl, rfl, rfl, fun _ => rfl⟩
      · intro hfit
        obtain ⟨g1, g2, g3⟩ := hfit
        rw [hshape]
        refine ⟨?_, ?_, ?_⟩
        · rw [f1, hl3 _ (Shape.root_mem_ids l)]
          show cpBBMerge (w1.node i).bb (w1.node x).bb = cpBBMerge (w.node l.root).bb (w3.node c).bb
          rw [f2]
          show _ = cpBBMerge (w.node l.root).bb (w1.node c).bb
          rw [hbb', hi1, hx1, g1, cpBBMerge_assoc]
        · exact Fit_congr w.node w3.node l (fun j hj => by rw [hl3 j hj]) g2
        · refine Fit_congr w1.node w3.node r' ?_ (hFit' g3)
          intro j hj
          have hji : j ≠ i := fun e => hi_r' (e ▸ hj)
          by_cases e : j = c
          · rw [e, f2]
          · rw [f3 j hji e]
      · rw [hshape, Shape.root_node, Shape.root_node, f1]
        show cpBBMerge (w1.node i).bb (w1.node x).bb = _
        rw [hi1, hx1]
      · rw [hshape, Shape.root_node, f1]
        show (w1.node i).parent = (w.node i).parent
        rw [hi1]
      · intro j hj hjn hjt hjx
        have hjt' := (Shape.mem_ids_node j i l r).not.1 hjt
        simp only [not_or] at hjt'
        have hjc : j ≠ c := by
          rcases hcr with e | e
          · rw [e]; exact hjn
          · rw [e]; exact fun h => hjt'.2.2 (h ▸ hrroot)
        rw [f3 j hjt'.1 hjc]
        exact hframe1 j hj hjn hjt'.2.2 hjx
      · intro j hj
        have hjcases : j ∈ x :: r.leaves ∨ j ∈ l.leaves := by
          simp only [Shape.leaves_node, List.mem_cons, List.mem_append] at hj ⊢
          tauto
        have hji : j ≠ i := by
          intro e
          rcases hjcases with h | h
          · rcases List.mem_cons.1 h with e' | e'
            · exact hxids.1 (e' ▸ e)
            · exact n2 (e ▸ Shape.leaf_mem_ids r j e')
          · exact n1 (e ▸ Shape.leaf_mem_ids l j h)
        rcases hjcases with h | h
        · have hs1 := hleaf1 j h
          by_cases e : j = c
          · rw [e, f2]
            rw [e] at hs1
            exact sameButParent_set _ _ _ hs1
          · rw [f3 j hji e]; exact hs1
        · rw [hl3 j (Shape.leaf_mem_ids l j h)]
          exact sameButParent_refl _
      · exact hfr1.nodeTrans (f5.retag f4)
    · -- descend into a
      obtain ⟨n, w1, FN1, hrec, pool1, hnF, hnb, hnfresh, hsub, hSub', hFit', hbb', hpar',
        hframe1, hleaf1, hfr1⟩ := SubtreeInsert_spec tree x l w FN fuel pool h6 n3 hxids.2.1 hxobj
          (by
            intro j hj
            rcases List.mem_cons.1 hj with e | e
            · rw [e]; exact hlx
            · exact hlivel j e) hfl
      have hfresh : ∀ j, j < w.nodeBrk → j ∉ FN → j ≠ n := by
        intro j hj hjF e
        rcases hnfresh with h | h
        · exact hjF (e ▸ h)
        · omega
      have hstay : ∀ j, j < w.nodeBrk → j ∉ FN → j ∉ FN1 := by
        intro j hj hjF hm
        rcases hsub j hm with h | h
        · exact hjF h
        · omega
      set l' := insShape w.node x n l with hl'
      set c := l'.root with hcdef
      have hcr : c = n ∨ c = l.root := by
        rw [hcdef, hl', insShape_root]
        cases l with
        | leaf k => exact Or.inl rfl
        | node k a b => exact Or.inr rfl
      have hni : n ≠ i := fun e => hfresh i hlivei.1 hlivei.2 e.symm
      have hnx : n ≠ x := fun e => hfresh x hlx.1 hlx.2 e.symm
      have hnl : n ∉ l.ids := fun h => hfresh n (hlivel n h).1 (hlivel n h).2 rfl
      have hnr : n ∉ r.ids := fun h => hfresh n (hliver n h).1 (hliver n h).2 rfl
      have hlroot : l.root ∈ l.ids := Shape.root_mem_ids l
      have hic : i ≠ c := by
        rcases hcr with e | e
        · rw [e]; exact fun h => hni h.symm
        · rw [e]; exact fun h => n1 (h ▸ hlroot)
      have hcx : c ≠ x := by
        rcases hcr with e | e
        · rw [e]; exact hnx
        · rw [e]; exact fun h => hxids.2.1 (h ▸ hlroot)
      have hcrr : c ∉ r.ids := by
        rcases hcr with e | e
        · rw [e]; exact hnr
        · rw [e]; exact fun h => n5 _ hlroot h
      have hcF1 : c ∉ FN1 := by
        rcases hcr with e | e
        · rw [e]; exact hnF
        · rw [e]; exact hstay _ (hlivel _ hlroot).1 (hlivel _ hlroot).2
      obtain ⟨f1, f2, f3, f4, f5⟩ := finishA_node i c x w1 hic hxids.1.symm hcx
      set w3 := (NodeSetA i c w1).setNode i
        { (NodeSetA i c w1).node i with
          bb := cpBBMerge ((NodeSetA i c w1).node i).bb ((NodeSetA i c w1).node x).bb } with hw3
      have hi1 : w1.node i = w.node i := hframe1 i hlivei.1 hni.symm n1 hxids.1.symm
      have hr1 : ∀ j ∈ r.ids, w1.node j = w.node j := fun j hj =>
        hframe1 j (hliver j hj).1 (fun e => hnr (e ▸ hj)) (fun h => n5 j h hj)
          (fun e => hxids.2.2 (e ▸ hj))
      have hr3 : ∀ j ∈ r.ids, w3.node j = w.node j := fun j hj => by
        rw [f3 j (fun e => n2 (e ▸ hj)) (fun e => hcrr (e ▸ hj))]
        exact hr1 j hj
      have hx1 : (w1.node x).bb = (w.node x).bb :=
        sameButParent_bb (hleaf1 x (List.mem_cons_self _ _))
      have hshape : insShape w.node x n (Shape.node i l r) = Shape.node i l' r := by
        simp only [insShape, hc, if_false]
      have hl'ids : ∀ j, j ∈ l'.ids ↔ j = n ∨ j = x ∨ j ∈ l.ids := insShape_mem_ids w.node x n l
      have hl'nd : l'.ids.Nodup := insShape_nodup w.node x n l n3 hxids.2.1 hnl hnx
      have hi_l' : i ∉ l'.ids := by
        rw [hl'ids]
        rintro (e | e | e)
        · exact hni e.symm
        · exact hxids.1 e.symm
        · exact n1 e
      refine ⟨n, w3, FN1, ?_, ?_, hnF, ?_, hnfresh, hsub, ?_, ?_, ?_, ?_, ?_, ?_, ?_⟩
      · rw [hshape, Shape.root_node]
        simp only [SubtreeInsert, Shape.root_node, hleaf, h2, h3, hc, if_false, hrec]
        rfl
      · refine ⟨?_, pool1.nodup, pool1.bound, pool1.count⟩
        show Chain (fun j => (w3.node j).parent) (w3.index tree).pooledNodes FN1
        rw [f4]
        refine Chain_congr _ _ FN1 _ ?_ pool1.chain
        intro q hq
        show (w3.node q).parent = (w1.node q).parent
        rw [f3 q (fun e => hstay i hlivei.1 hlivei.2 (e ▸ hq)) (fun e => hcF1 (e ▸ hq))]
      · exact hnb
      · rw [hshape]
        refine ⟨?_, ?_, ?_, ?_, ?_, ?_, ?_⟩
        · rw [f1]; show (w1.node i).obj = 0; rw [hi1]; exact h1
        · rw [f1]
        · rw [f1]; show (w1.node i).b = some r.root; rw [hi1]; exact h3
        · rw [f2]
        · rw [hr3 _ (Shape.root_mem_ids r)]; exact h5
        · refine Sub_congr w1.node w3.node l' hl'nd ?_ hSub'
          intro j hj
          have hji : j ≠ i := fun e => hi_l' (e ▸ hj)
          by_cases e : j = c
          · rw [e, f2]
            exact ⟨rfl, rfl, rfl, fun h => absurd rfl h⟩
          · rw [f3 j hji e]
            exact ⟨rfl, rfl, rfl, fun _ => rfl⟩
        · exact Sub_congr_eq w.node w3.node r n4 hr3 h7
      · intro hfit
        obtain ⟨g1, g2, g3⟩ := hfit
        rw [hshape]
        refine ⟨?_, ?_, ?_⟩
        · rw [f1, hr3 _ (Shape.root_mem_ids r)]
          show cpBBMerge (w1.node i).bb (w1.node x).bb = cpBBMerge (w3.node c).bb (w.node r.root).bb
          rw [f2]
          show _ = cpBBMerge (w1.node c).bb (w.node r.root).bb
          rw [hbb', hi1, hx1, g1, cpBBMerge_assoc, cpBBMerge_assoc,
            cpBBMerge_comm (w.node r.root).bb]
        · refine Fit_congr w1.node w3.node l' ?_ (hFit' g2)
          intro j hj
          have hji : j ≠ i := fun e => hi_l' (e ▸ hj)
          by_cases e : j = c
          · rw [e, f2]
          · rw [f3 j hji e]
        · exact Fit_congr w.node w3.node r (fun j hj => by rw [hr3 j hj]) g3
      · rw [hshape, Shape.root_node, Shape.root_node, f1]
        show cpBBMerge (w1.node i).bb (w1.node x).bb = _
        rw [hi1, hx1]
      · rw [hshape, Shape.root_node, f1]
        show (w1.node i).parent = (w.node i).parent
        rw [hi1]
      · intro j hj hjn hjt hjx
        have hjt' := (Shape.mem_ids_node j i l r).not.1 hjt
        simp only [not_or] at hjt'
        have hjc : j ≠ c := by
          rcases hcr with e | e
          · rw [e]; exact hjn
          · rw [e]; exact fun h => hjt'.2.1 (h ▸ hlroot)
        rw [f3 j hjt'.1 hjc]
        exact hframe1 j hj hjn hjt'.2.1 hjx
      · intro j hj
        have hjcases : j ∈ x :: l.leaves ∨ j ∈ r.leaves := by
          simp only [Shape.leaves_node, List.mem_cons, List.mem_append] at hj ⊢
          tauto
        have hji : j ≠ i := by
          intro e
          rcases hjcases with h | h
          · rcases List.mem_cons.1 h with e' | e'
            · exact hxids.1 (e' ▸ e)
            · exact n1 (e ▸ Shape.leaf_mem_ids l j e')
          · exact n2 (e ▸ Shape.leaf_mem_ids r j h)
        rcases hjcases with h | h
        · have hs1 := hleaf1 j h
          by_cases e : j = c
          · rw [e, f2]
            rw [e] at hs1
            exact sameButParent_set _ _ _ hs1
          · rw [f3 j hji e]; exact hs1
        · rw [hr3 j (Shape.leaf_mem_ids r j h)]
          exact sameButParent_refl _
      · exact hfr1.nodeTrans (f5.retag f4)

/-! ## Paths -/

@[simp] theorem Frame.fill_root (f : Frame) (t : Shape) : (f.fill t).root = f.id := by
  cases f <;> rfl

theorem Frame.fill_ids_perm (f : Frame) (t : Shape) :
    (f.fill t).ids.Perm (t.ids ++ (f.id :: f.sib.ids)) := by
  cases f with
  | left i s =>
    refine (Shape.ids_node_perm i t s).trans ?_
    exact (@List.perm_middle _ i t.ids s.ids).symm
  | right i s =>
    refine (Shape.ids_node_perm i s t).trans ?_
    refine (List.Perm.cons i List.perm_append_comm).trans ?_
    exact (@List.perm_middle _ i t.ids s.ids).symm

theorem plug_root (fs : List Frame) (t : Shape) : (plug fs t).root = ctxRoot fs t.root := by
  induction fs generalizing t with
  | nil => rfl
  | cons f fs ih => simp only [plug, ctxRoot, ih, Frame.fill_root]

theorem plug_ids_perm (fs : List Frame) (t : Shape) :
    (plug fs t).ids.Perm (t.ids ++ ctxIds fs) := by
  induction fs generalizing t with
  | nil => simp [plug, ctxIds]
  | cons f fs ih =>
    simp only [plug, ctxIds]
    refine (ih (f.fill t)).trans ?_
    refine (List.Perm.append_right _ (Frame.fill_ids_perm f t)).trans ?_
    simp [List.append_assoc]

theorem plug_mem_ids (fs : List Frame) (t : Shape) (j : Nat) :
    j ∈ (plug fs t).ids ↔ j ∈ t.ids ∨ j ∈ ctxIds fs := by
  rw [(plug_ids_perm fs t).mem_iff, List.mem_append]

theorem plug_nodup (fs : List Frame) (t : Shape) :
    (plug fs t).ids.Nodup ↔ t.ids.Nodup ∧ (ctxIds fs).Nodup ∧ ∀ j ∈ t.ids, j ∉ ctxIds fs := by
  rw [(plug_ids_perm fs t).nodup_iff, List.nodup_append]
  constructor
  · rintro ⟨h1, h2, h3⟩; exact ⟨h1, h2, fun j hj hj' => h3 hj hj'⟩
  · rintro ⟨h1, h2, h3⟩; exact ⟨h1, h2, fun j hj hj' => h3 j hj hj'⟩

theorem Frame.fill_leaves_perm (f : Frame) (t : Shape) :
    (f.fill t).leaves.Perm (t.leaves ++ f.sib.leaves) := by
  cases f with
  | left i s => exact List.Perm.refl _
  | right i s => exact List.perm_append_comm

theorem plug_leaves_perm (fs : List Frame) (t : Shape) :
    (plug fs t).leaves.Perm (t.leaves ++ ctxLeaves fs) := by
  induction fs generalizing t with
  | nil => simp [plug, ctxLeaves]
  | cons f fs ih =>
    simp only [plug, ctxLeaves]
    refine (ih (f.fill t)).trans ?_
    refine (List.Perm.append_right _ (Frame.fill_leaves_perm f t)).trans ?_
    simp [List.append_assoc]

theorem Sub_fill (nd : Nat → Node) (f : Frame) (t : Shape) :
    Sub nd (f.fill t) ↔ Sub nd t ∧ CtxSub nd [f] t.root := by
  cases f with
  | left i s =>
    simp only [Frame.fill, Sub, CtxSub, and_true]
    tauto
  | right i s =>
    simp only [Frame.fill, Sub, CtxSub, and_true]
    tauto

theorem CtxSub_cons (nd : Nat → Node) (f : Frame) (fs : List Frame) (h : Nat) :
    CtxSub nd (f :: fs) h ↔ CtxSub nd [f] h ∧ CtxSub nd fs f.id := by
  cases f with
  | left i s =>
    simp only [CtxSub, and_true, Frame.id]
    tauto
  | right i s =>
    simp only [CtxSub, and_true, Frame.id]
    tauto

theorem Sub_plug (nd : Nat → Node) (fs : List Frame) (t : Shape) :
    Sub nd (plug fs t) ↔ Sub nd t ∧ CtxSub nd fs t.root := by
  induction fs generalizing t with
  | nil => simp [plug, CtxSub]
  | cons f fs ih =>
    rw [plug, ih, Sub_fill, Frame.fill_root, CtxSub_cons nd f fs]
    tauto

/-- Every leaf of a shape sits at the bottom of a path. -/
theorem exists_path (x : Nat) : ∀ t : Shape, x ∈ t.leaves → ∃ fs, t = plug fs (Shape.leaf x)
  | Shape.leaf i, h => by
    simp only [Shape.leaves_leaf, List.mem_singleton] at h
    exact ⟨[], by rw [h]; rfl⟩
  | Shape.node i l r, h => by
    simp only [Shape.leaves_node, List.mem_append] at h
    rcases h with h | h
    · obtain ⟨fs, hfs⟩ := exists_path x l h
      refine ⟨fs ++ [Frame.left i r], ?_⟩
      have : ∀ (fs : List Frame) (u : Shape), plug (fs ++ [Frame.left i r]) u =
          Shape.node i (plug fs u) r := by
        intro fs
        induction fs with
        | nil => intro u; rfl
        | cons f fs ih => intro u; exact ih (f.fill u)
      rw [this, ← hfs]
    · obtain ⟨fs, hfs⟩ := exists_path x r h
      refine ⟨fs ++ [Frame.right i l], ?_⟩
      have : ∀ (fs : List Frame) (u : Shape), plug (fs ++ [Frame.right i l]) u =
          Shape.node i l (plug fs u) := by
        intro fs
        induction fs with
        | nil => intro u; rfl
        | cons f fs ih => intro u; exact ih (f.fill u)
      rw [this, ← hfs]

theorem plug_height (fs : List Frame) (t : Shape) : fs.length + t.height ≤ (plug fs t).height := by
  induction fs generalizing t with
  | nil => simp [plug]
  | cons f fs ih =>
    have h := ih (f.fill t)
    have h2 : t.height + 1 ≤ (f.fill t).height := by
      cases f <;> simp only [Frame.fill, Shape.height_node] <;> omega
    simp only [plug, List.length_cons]
    omega

/-! ## The refit loop of NodeReplaceChild -/

theorem sameButBB_refl (n : Node) : n.sameButBB n := by
  cases n; rfl

theorem sameButBB_trans {n m k : Node} (h1 : n.sameButBB m) (h2 : m.sameButBB k) :
    n.sameButBB k := by
  unfold Node.sameButBB at *
  rw [h2, h1]

theorem sameButBB_set (n : Node) (v : cpBB) : n.sameButBB { n with bb := v } := by
  cases n; rfl

theorem Sub_of_sameButBB (nd nd' : Nat → Node) (h : ∀ j, (nd j).sameButBB (nd' j)) :
    ∀ t : Shape, Sub nd t → Sub nd' t
  | Shape.leaf i, hs => by
    show (nd' i).obj ≠ 0
    have := h i; unfold Node.sameButBB at this; rw [this]; exact hs
  | Shape.node i l r, hs => by
    obtain ⟨h1, h2, h3, h4, h5, h6, h7⟩ := hs
    have hi := h i
    have hl := h l.root
    have hr := h r.root
    unfold Node.sameButBB at hi hl hr
    refine ⟨by rw [hi]; exact h1, by rw [hi]; exact h2, by rw [hi]; exact h3,
      by rw [hl]; exact h4, by rw [hr]; exact h5, Sub_of_sameButBB nd nd' h l h6,
      Sub_of_sameButBB nd nd' h r h7⟩

theorem CtxSub_parent (nd : Nat → Node) :
    ∀ (fs : List Frame) (h : Nat), CtxSub nd fs h → (nd (ctxRoot fs h)).parent = none →
      (nd h).parent = ctxHead fs
  | [], _, _, hr => hr
  | Frame.left _ _ :: _, _, hc, _ => hc.2.2.2.1
  | Frame.right _ _ :: _, _, hc, _ => hc.2.2.2.2.1

theorem CtxSub_head_children (nd : Nat → Node) (f : Frame) (fs : List Frame) (h : Nat)
    (hc : CtxSub nd (f :: fs) h) :
    (nd f.id).obj = 0 ∧
      ((nd f.id).a = some h ∧ (nd f.id).b = some f.sib.root ∧ f = Frame.left f.id f.sib ∨
        (nd f.id).a = some f.sib.root ∧ (nd f.id).b = some h ∧ f = Frame.right f.id f.sib) := by
  cases f with
  | left i s => exact ⟨hc.1, Or.inl ⟨hc.2.1, hc.2.2.1, rfl⟩⟩
  | right i s => exact ⟨hc.1, Or.inr ⟨hc.2.1, hc.2.2.1, rfl⟩⟩

theorem ctxIds_mem_id (fs : List Frame) (f : Frame) (h : f ∈ fs) : f.id ∈ ctxIds fs := by
  induction fs with
  | nil => simp at h
  | cons g fs ih =>
    rcases List.mem_cons.1 h with e | e
    · rw [e]; simp [ctxIds]
    · simp [ctxIds, ih e]

theorem ctxIds_mem_sib (fs : List Frame) (f : Frame) (h : f ∈ fs) (j : Nat) (hj : j ∈ f.sib.ids) :
    j ∈ ctxIds fs := by
  induction fs with
  | nil => simp at h
  | cons g fs ih =>
    rcases List.mem_cons.1 h with e | e
    · rw [← e]; simp [ctxIds, hj]
    · simp [ctxIds, ih e]

theorem Fit_fill (nd : Nat → Node) (f : Frame) (t : Shape) :
    Fit nd (f.fill t) ↔ (nd f.id).bb = f.box nd t.root ∧ Fit nd t ∧ Fit nd f.sib := by
  cases f with
  | left i s => simp only [Frame.fill, Fit, Frame.id, Frame.sib, Frame.box]
  | right i s =>
    simp only [Frame.fill, Fit, Frame.id, Frame.sib, Frame.box]
    tauto

theorem CtxSub_head_ab (nd : Nat → Node) (f : Frame) (fs : List Frame) (h : Nat)
    (hc : CtxSub nd (f :: fs) h) :
    ∃ a b, (nd f.id).a = some a ∧ (nd f.id).b = some b ∧
      f.box nd h = cpBBMerge (nd a).bb (nd b).bb := by
  cases f with
  | left i s => exact ⟨_, _, hc.2.1, hc.2.2.1, rfl⟩
  | right i s => exact ⟨_, _, hc.2.1, hc.2.2.1, rfl⟩

theorem Frame.box_congr (f : Frame) (nd nd' : Nat → Node) (h : Nat)
    (h1 : (nd' h).bb = (nd h).bb) (h2 : (nd' f.sib.root).bb = (nd f.sib.root).bb) :
    f.box nd' h = f.box nd h := by
  cases f with
  | left i s => simp only [Frame.box, Frame.sib] at *; rw [h1, h2]
  | right i s => simp only [Frame.box, Frame.sib] at *; rw [h1, h2]

theorem refitLoop_step (fuel i a b : Nat) (w : World) (ha : (w.node i).a = some a)
    (hb : (w.node i).b = some b) :
    refitLoop (fuel + 1) (some i) w =
      refitLoop fuel (w.node i).parent
        (w.setNode i { w.node i with bb := cpBBMerge (w.node a).bb (w.node b).bb }) := by
  rw [refitLoop]
  split
  · rename_i a' b' ha' hb'
    rw [ha] at ha'
    rw [hb] at hb'
    cases ha'
    cases hb'
    simp only [setNode_node, upd_same]
  · rename_i hno
    exact absurd hb (hno a b ha)

theorem refitLoop_spec (tree : Nat) :
    ∀ (fs : List Frame) (u : Shape) (w : World) (fuel : Nat),
      Sub w.node (plug fs u) → (w.node (plug fs u).root).parent = none →
      (plug fs u).ids.Nodup → Fit w.node u → (∀ f ∈ fs, Fit w.node f.sib) → fs.length ≤ fuel →
      ∃ w', refitLoop fuel (ctxHead fs) w = some w' ∧
        Fit w'.node (plug fs u) ∧
        (∀ j, j ∉ fs.map Frame.id → w'.node j = w.node j) ∧
        (∀ j, (w.node j).sameButBB (w'.node j)) ∧
        w'.index = w.index ∧ w'.nodeBrk = w.nodeBrk ∧ NodeFrame tree w w'
  | [], u, w, fuel, _, _, _, hfit, _, _ => by
    refine ⟨w, ?_, hfit, fun _ _ => rfl, fun _ => sameButBB_refl _, rfl, rfl, NodeFrame.nodeRefl _ _⟩
    cases fuel <;> rfl
  | f :: fs, u, w, fuel, hs, hroot, hnd, hfit, hsib, hfuel => by
    cases fuel with
    | zero => simp at hfuel
    | succ fuel =>
    have hs' := (Sub_plug w.node (f :: fs) u).1 hs
    obtain ⟨hsu, hctx⟩ := hs'
    obtain ⟨hobj, hch⟩ := CtxSub_head_children w.node f fs u.root hctx
    have hctx' := (CtxSub_cons w.node f fs u.root).1 hctx
    have hroot' : (w.node (ctxRoot fs f.id)).parent = none := by
      have := plug_root (f :: fs) u
      rw [this] at hroot
      exact hroot
    have hpar : (w.node f.id).parent = ctxHead fs := CtxSub_parent w.node fs f.id hctx'.2 hroot'
    have hnd' := (plug_nodup (f :: fs) u).1 hnd
    obtain ⟨hndu, hndc, hdisj⟩ := hnd'
    have hndc' : f.id ∉ f.sib.ids ++ ctxIds fs ∧ (f.sib.ids ++ ctxIds fs).Nodup :=
      List.nodup_cons.1 hndc
    have hid_u : f.id ∉ u.ids := fun h => hdisj _ h (by simp [ctxIds])
    have hid_sib : f.id ∉ f.sib.ids := fun h => hndc'.1 (List.mem_append_left _ h)
    have hid_fs : f.id ∉ ctxIds fs := fun h => hndc'.1 (List.mem_append_right _ h)
    -- the step
    obtain ⟨a, b, ha, hb, hbb⟩ := CtxSub_head_ab w.node f fs u.root hctx
    set w1 := w.setNode f.id { w.node f.id with bb := cpBBMerge (w.node a).bb (w.node b).bb }
      with hw1
    have hw1_other : ∀ j, j ≠ f.id → w1.node j = w.node j := fun j hj => by
      show upd w.node f.id _ j = _
      rw [upd_other _ _ _ _ hj]
    have hw1_same : ∀ j, (w.node j).sameButBB (w1.node j) := by
      intro j
      by_cases e : j = f.id
      · rw [e]
        show (w.node f.id).sameButBB (upd w.node f.id _ f.id)
        rw [upd_same]
        exact sameButBB_set _ _
      · rw [hw1_other j e]; exact sameButBB_refl _
    have hstep : refitLoop (fuel + 1) (ctxHead (f :: fs)) w = refitLoop fuel (ctxHead fs) w1 := by
      show refitLoop (fuel + 1) (some f.id) w = _
      rw [refitLoop_step fuel f.id a b w ha hb, hpar]
    have hs1 : Sub w1.node (plug fs (f.fill u)) := Sub_of_sameButBB w.node w1.node hw1_same _ hs
    have hfit1 : Fit w1.node (f.fill u) := by
      rw [Fit_fill]
      refine ⟨?_, ?_, ?_⟩
      · have e1 : (w1.node f.id).bb = cpBBMerge (w.node a).bb (w.node b).bb := by
          show (upd w.node f.id _ f.id).bb = _
          rw [upd_same]
        have hu : w1.node u.root = w.node u.root :=
          hw1_other _ (fun e => hid_u (e ▸ Shape.root_mem_ids u))
        have hsr : w1.node f.sib.root = w.node f.sib.root :=
          hw1_other _ (fun e => hid_sib (e ▸ Shape.root_mem_ids f.sib))
        rw [e1, ← hbb]
        exact (Frame.box_congr f w.node w1.node u.root (by rw [hu]) (by rw [hsr])).symm
      · exact Fit_congr w.node w1.node u
          (fun j hj => by rw [hw1_other j (fun e => hid_u (e ▸ hj))]) hfit
      · exact Fit_congr w.node w1.node f.sib
          (fun j hj => by rw [hw1_other j (fun e => hid_sib (e ▸ hj))])
          (hsib f (List.mem_cons_self _ _))
    have hsib1 : ∀ g ∈ fs, Fit w1.node g.sib := by
      intro g hg
      refine Fit_congr w.node w1.node g.sib ?_ (hsib g (List.mem_cons_of_mem _ hg))
      intro j hj
      rw [hw1_other j (fun e => hid_fs (e ▸ ctxIds_mem_sib fs g hg j hj))]
    have hroot1 : (w1.node (plug fs (f.fill u)).root).parent = none := by
      have := hw1_same (plug fs (f.fill u)).root
      unfold Node.sameButBB at this
      rw [this]; exact hroot
    obtain ⟨w', hres, hfit', hoth, hsame, hidx, hbrk, hfr⟩ :=
      refitLoop_spec tree fs (f.fill u) w1 fuel hs1 hroot1 hnd hfit1 hsib1
        (by simpa using hfuel)
    refine ⟨w', hstep.trans hres, hfit', ?_, ?_, hidx, hbrk, ?_⟩
    · intro j hj
      simp only [List.map_cons, List.mem_cons, not_or] at hj
      rw [hoth j hj.2, hw1_other j hj.1]
    · intro j
      exact sameButBB_trans (hw1_same j) (hsame j)
    · refine NodeFrame.nodeTrans ?_ hfr
      refine NodeFrame.of_nodes tree w w1.node ?_
      intro j
      have := hw1_same j
      unfold Node.sameButBB at this
      rw [this]
      exact ⟨rfl, rfl⟩

/-! ## SubtreeRemove -/

theorem ctxRoot_mem (fs : List Frame) (f : Frame) (h : Nat) :
    ctxRoot (f :: fs) h ∈ (f :: fs).map Frame.id := by
  induction fs generalizing f h with
  | nil => simp [ctxRoot]
  | cons g fs ih =>
    have := ih g f.id
    simp only [ctxRoot] at this ⊢
    exact List.mem_cons_of_mem _ this

theorem map_id_subset_ctxIds (fs : List Frame) (j : Nat) (h : j ∈ fs.map Frame.id) :
    j ∈ ctxIds fs := by
  obtain ⟨f, hf, e⟩ := List.mem_map.1 h
  rw [← e]; exact ctxIds_mem_id fs f hf

theorem CtxSub_congr (nd nd' : Nat → Node) :
    ∀ (fs : List Frame) (h : Nat), (ctxIds fs).Nodup → (∀ j ∈ ctxIds fs, nd' j = nd j) →
      (nd' h).parent = (nd h).parent → CtxSub nd fs h → CtxSub nd' fs h
  | [], _, _, _, _, _ => trivial
  | Frame.left i s :: fs, h, hn, he, hp, hc => by
    obtain ⟨c1, c2, c3, c4, c5, c6, c7⟩ := hc
    have hn' := List.nodup_cons.1 hn
    have hn'' := List.nodup_append.1 hn'.2
    have hi : nd' i = nd i := he i (by simp [ctxIds, Frame.id])
    have hs : ∀ j ∈ s.ids, nd' j = nd j := fun j hj => he j (by simp [ctxIds, Frame.sib, hj])
    refine ⟨by rw [hi]; exact c1, by rw [hi]; exact c2, by rw [hi]; exact c3, hp.trans c4,
      by rw [hs _ (Shape.root_mem_ids s)]; exact c5, Sub_congr_eq nd nd' s hn''.1 hs c6, ?_⟩
    exact CtxSub_congr nd nd' fs i hn''.2.1
      (fun j hj => he j (by simp [ctxIds, hj])) (by rw [hi]) c7
  | Frame.right i s :: fs, h, hn, he, hp, hc => by
    obtain ⟨c1, c2, c3, c4, c5, c6, c7⟩ := hc
    have hn' := List.nodup_cons.1 hn
    have hn'' := List.nodup_append.1 hn'.2
    have hi : nd' i = nd i := he i (by simp [ctxIds, Frame.id])
    have hs : ∀ j ∈ s.ids, nd' j = nd j := fun j hj => he j (by simp [ctxIds, Frame.sib, hj])
    refine ⟨by rw [hi]; exact c1, by rw [hi]; exact c2, by rw [hi]; exact c3,
      by rw [hs _ (Shape.root_mem_ids s)]; exact c4, hp.trans c5,
      Sub_congr_eq nd nd' s hn''.1 hs c6, ?_⟩
    exact CtxSub_congr nd nd' fs i hn''.2.1
      (fun j hj => he j (by simp [ctxIds, hj])) (by rw [hi]) c7

theorem SubtreeRemove_root (tree x fuel : Nat) (w : World) :
    SubtreeRemove fuel (some x) x tree w = some (none, w) := by
  simp [SubtreeRemove]

theorem CtxSub_other (nd : Nat → Node) (f : Frame) (fs : List Frame) (x : Nat)
    (hc : CtxSub nd (f :: fs) x) (hx : x ≠ f.sib.root) :
    NodeOther' nd f.id x = some f.sib.root := by
  cases f with
  | left i s =>
    have := hc.2.1
    simp only [NodeOther', Frame.id, Frame.sib, this, if_true]
    exact hc.2.2.1
  | right i s =>
    have ha := hc.2.1
    have : ¬ (nd i).a = some x := by
      rw [ha]; intro e; exact hx (Option.some.inj e).symm
    simp only [NodeOther', Frame.id, Frame.sib, this, if_false]
    exact ha

theorem NodeOther_eq (w : World) (node child : Nat) :
    NodeOther w node child = NodeOther' w.node node child := rfl

/-- Removing a leaf whose parent is the root. -/
theorem SubtreeRemove_one (tree x : Nat) (f : Frame) (w : World) (FN : List Nat) (fuel : Nat)
    (pool : NodePool w tree FN)
    (hs : Sub w.node (plug [f] (Shape.leaf x)))
    (hroot : (w.node (plug [f] (Shape.leaf x)).root).parent = none)
    (hnd : (plug [f] (Shape.leaf x)).ids.Nodup)
    (hlive : ∀ i ∈ (plug [f] (Shape.leaf x)).ids, i < w.nodeBrk ∧ i ∉ FN) :
    ∃ w', SubtreeRemove fuel (some (plug [f] (Shape.leaf x)).root) x tree w =
        some (some f.sib.root, w') ∧
      NodePool w' tree (f.id :: FN) ∧
      Sub w'.node f.sib ∧ (w'.node f.sib.root).parent = none ∧
      (∀ j, j ≠ f.id → j ≠ f.sib.root → w'.node j = w.node j) ∧
      (∀ j, j ≠ f.id → (w.node j).sameButParent (w'.node j)) ∧
      w'.nodeBrk = w.nodeBrk ∧ NodeFrame tree w w' := by
  have hs' := (Sub_plug w.node [f] (Shape.leaf x)).1 hs
  obtain ⟨_, hctx⟩ := hs'
  simp only [Shape.root_leaf] at hctx
  have hnd' := (plug_nodup [f] (Shape.leaf x)).1 hnd
  obtain ⟨_, hndc, hdisj⟩ := hnd'
  have hndc' : f.id ∉ f.sib.ids ++ [] ∧ (f.sib.ids ++ []).Nodup := List.nodup_cons.1 hndc
  simp only [List.append_nil] at hndc'
  have hx_ctx : x ∉ ctxIds [f] := hdisj x (by simp [Shape.ids])
  have hxp : x ≠ f.id := fun e => hx_ctx (by simp [ctxIds, e])
  have hxs : x ∉ f.sib.ids := fun h => hx_ctx (by simp [ctxIds, h])
  have hxsr : x ≠ f.sib.root := fun e => hxs (e ▸ Shape.root_mem_ids _)
  have hsp : f.sib.root ≠ f.id := fun e => hndc'.1 (e ▸ Shape.root_mem_ids _)
  have hrootid : (plug [f] (Shape.leaf x)).root = f.id := by
    rw [plug_root]; rfl
  rw [hrootid] at hroot ⊢
  have hpar : (w.node x).parent = some f.id := CtxSub_parent w.node [f] x hctx hroot
  have hother := CtxSub_other w.node f [] x hctx hxsr
  have hlivep : f.id < w.nodeBrk ∧ f.id ∉ FN :=
    hlive f.id ((plug_mem_ids _ _ _).2 (Or.inr (by simp [ctxIds])))
  have hlives : f.sib.root < w.nodeBrk ∧ f.sib.root ∉ FN :=
    hlive f.sib.root ((plug_mem_ids _ _ _).2 (Or.inr (by simp [ctxIds, Shape.root_mem_ids])))
  set w1 := w.setNode f.sib.root { w.node f.sib.root with parent := (w.node f.id).parent } with hw1
  have hw1o : ∀ j, j ≠ f.sib.root → w1.node j = w.node j := fun j hj => by
    show upd w.node _ _ j = _
    rw [upd_other _ _ _ _ hj]
  have hw1s : w1.node f.sib.root = { w.node f.sib.root with parent := none } := by
    show upd w.node _ _ _ = _
    rw [upd_same, hroot]
  have pool1 : NodePool w1 tree FN := by
    refine ⟨?_, pool.nodup, pool.bound, pool.count⟩
    refine Chain_congr _ _ FN _ ?_ pool.chain
    intro q hq
    show (w1.node q).parent = (w.node q).parent
    rw [hw1o q (fun e => hlives.2 (e ▸ hq))]
  have hfs : Sub w.node f.sib := by
    cases f with
    | left i s => exact hctx.2.2.2.2.2.1
    | right i s => exact hctx.2.2.2.2.2.1
  refine ⟨NodeRecycle tree f.id w1, ?_, NodeRecycle_pool tree f.id w1 FN pool1 hlivep.2 hlivep.1,
    ?_, ?_, ?_, ?_, rfl, ?_⟩
  · have hne : ¬ (some x = some f.id) := fun e => hxp (Option.some.inj e)
    simp only [SubtreeRemove, hne, if_false, hpar, if_true, NodeOther_eq, hother]
  · refine Sub_congr w.node _ f.sib hndc'.2 ?_ hfs
    intro j hj
    have hjp : j ≠ f.id := fun e => hndc'.1 (e ▸ hj)
    rw [NodeRecycle_node_other _ _ _ _ hjp]
    by_cases e : j = f.sib.root
    · rw [e, hw1s]
      exact ⟨rfl, rfl, rfl, fun h => absurd rfl h⟩
    · rw [hw1o j e]
      exact ⟨rfl, rfl, rfl, fun _ => rfl⟩
  · rw [NodeRecycle_node_other _ _ _ _ hsp, hw1s]
  · intro j h1 h2
    rw [NodeRecycle_node_other _ _ _ _ h1, hw1o j h2]
  · intro j h1
    rw [NodeRecycle_node_other _ _ _ _ h1]
    by_cases e : j = f.sib.root
    · rw [e, hw1s]; exact sameButParent_set _ _ _ (sameButParent_refl _)
    · rw [hw1o j e]; exact sameButParent_refl _
  · refine NodeFrame.nodeTrans ?_ (NodeRecycle_frame tree f.id w1)
    refine NodeFrame.of_nodes tree w w1.node ?_
    intro j
    by_cases e : j = f.sib.root
    · rw [e, hw1s]; exact ⟨rfl, rfl⟩
    · rw [hw1o j e]; exact ⟨rfl, rfl⟩

/-- The first half of `NodeReplaceChild` on the grandparent frame `f2`: parent
`p` is recycled and the sibling root `c` takes its slot. -/
theorem replaceChild_step (tree p c fuel : Nat) (f2 : Frame) (rest : List Frame) (w : World)
    (hctx : CtxSub w.node (f2 :: rest) p) (hpg : p ≠ f2.id) (hcg : c ≠ f2.id) (hpc : p ≠ c)
    (hps : p ∉ f2.sib.ids) (hcs : c ∉ f2.sib.ids) (hgs : f2.id ∉ f2.sib.ids)
    (hnds : f2.sib.ids.Nodup) :
    ∃ w2, NodeReplaceChild fuel f2.id p (some c) tree w = refitLoop fuel (some f2.id) w2 ∧
      w2.node p = { w.node p with parent := (w.index tree).pooledNodes } ∧
      w2.node c = { w.node c with parent := some f2.id } ∧
      (w2.node f2.id).obj = 0 ∧ (w2.node f2.id).parent = (w.node f2.id).parent ∧
      (w2.node f2.id).bb = (w.node f2.id).bb ∧
      (w2.node f2.id).stamp = (w.node f2.id).stamp ∧ (w2.node f2.id).pairs = (w.node f2.id).pairs ∧
      (∀ j, j ≠ p → j ≠ c → j ≠ f2.id → w2.node j = w.node j) ∧
      CtxSub w2.node [f2] c ∧
      w2.index = (NodeRecycle tree p w).index ∧ w2.nodeBrk = w.nodeBrk ∧
      w2.pair = w.pair ∧ w2.calls = w.calls ∧ w2.pairBrk = w.pairBrk ∧
      w2.indexBrk = w.indexBrk ∧ w2.nodeCount = w.nodeCount ∧ w2.pairCount = w.pairCount ∧
      w2.external = w.external := by
  have hgp : f2.id ≠ p := fun e => hpg e.symm
  have hgc : f2.id ≠ c := fun e => hcg e.symm
  have hcp : c ≠ p := fun e => hpc e.symm
  cases f2 with
  | left g s2 =>
    obtain ⟨c1, c2, c3, c4, c5, c6, c7⟩ := hctx
    simp only [Frame.id, Frame.sib] at *
    have hleaf : NodeIsLeaf w g = false := by simp [NodeIsLeaf, c1]
    have hs2p : s2.root ≠ p := fun e => hps (e ▸ Shape.root_mem_ids _)
    have hs2c : s2.root ≠ c := fun e => hcs (e ▸ Shape.root_mem_ids _)
    have hs2g : s2.root ≠ g := fun e => hgs (e ▸ Shape.root_mem_ids _)
    refine ⟨NodeSetA g c (NodeRecycle tree p w), ?_, ?_, ?_, ?_, ?_, ?_, ?_, ?_, ?_, ?_,
      rfl, rfl, rfl, rfl, rfl, rfl, rfl, rfl, rfl⟩
    · simp [NodeReplaceChild, hleaf, c2]
    · simp [NodeSetA, NodeRecycle, upd_apply, hpg, hpc, hgp, hcp]
    · simp [NodeSetA, NodeRecycle, upd_apply, hpg, hpc, hgp, hcp, hcg, hgc]
    · simp [NodeSetA, NodeRecycle, upd_apply, hpg, hpc, hgp, hcp, hcg, hgc, c1]
    · simp [NodeSetA, NodeRecycle, upd_apply, hpg, hpc, hgp, hcp, hcg, hgc]
    · simp [NodeSetA, NodeRecycle, upd_apply, hpg, hpc, hgp, hcp, hcg, hgc]
    · simp [NodeSetA, NodeRecycle, upd_apply, hpg, hpc, hgp, hcp, hcg, hgc]
    · simp [NodeSetA, NodeRecycle, upd_apply, hpg, hpc, hgp, hcp, hcg, hgc]
    · intro j h1 h2 h3
      simp [NodeSetA, NodeRecycle, upd_apply, h1, h2, h3]
    · refine ⟨?_, ?_, ?_, ?_, ?_, ?_, trivial⟩
      · simp [NodeSetA, NodeRecycle, upd_apply, hpg, hpc, hgp, hcp, hcg, hgc, c1]
      · simp [NodeSetA, NodeRecycle, upd_apply, hpg, hpc, hgp, hcp, hcg, hgc]
      · simp [NodeSetA, NodeRecycle, upd_apply, hpg, hpc, hgp, hcp, hcg, hgc, c3]
      · simp [NodeSetA, NodeRecycle, upd_apply, hpg, hpc, hgp, hcp, hcg, hgc]
      · simp [NodeSetA, NodeRecycle, upd_apply, hs2p, hs2c, hs2g, c5]
      · refine Sub_congr_eq w.node _ s2 hnds ?_ c6
        intro j hj
        have h1 : j ≠ p := fun e => hps (e ▸ hj)
        have h2 : j ≠ c := fun e => hcs (e ▸ hj)
        have h3 : j ≠ g := fun e => hgs (e ▸ hj)
        simp [NodeSetA, NodeRecycle, upd_apply, h1, h2, h3]
  | right g s2 =>
    obtain ⟨c1, c2, c3, c4, c5, c6, c7⟩ := hctx
    simp only [Frame.id, Frame.sib] at *
    have hleaf : NodeIsLeaf w g = false := by simp [NodeIsLeaf, c1]
    have hs2p : s2.root ≠ p := fun e => hps (e ▸ Shape.root_mem_ids _)
    have hs2c : s2.root ≠ c := fun e => hcs (e ▸ Shape.root_mem_ids _)
    have hs2g : s2.root ≠ g := fun e => hgs (e ▸ Shape.root_mem_ids _)
    have hna : ¬ (w.node g).a = some p := by
      rw [c2]; intro e; exact hs2p (Option.some.inj e)
    refine ⟨NodeSetB g c (NodeRecycle tree p w), ?_, ?_, ?_, ?_, ?_, ?_, ?_, ?_, ?_, ?_,
      rfl, rfl, rfl, rfl, rfl, rfl, rfl, rfl, rfl⟩
    · simp [NodeReplaceChild, hleaf, c2, c3, hs2p]
    · simp [NodeSetB, NodeRecycle, upd_apply, hpg, hpc, hgp, hcp]
    · simp [NodeSetB, NodeRecycle, upd_apply, hpg, hpc, hgp, hcp, hcg, hgc]
    · simp [NodeSetB, NodeRecycle, upd_apply, hpg, hpc, hgp, hcp, hcg, hgc, c1]
    · simp [NodeSetB, NodeRecycle, upd_apply, hpg, hpc, hgp, hcp, hcg, hgc]
    · simp [NodeSetB, NodeRecycle, upd_apply, hpg, hpc, hgp, hcp, hcg, hgc]
    · simp [NodeSetB, NodeRecycle, upd_apply, hpg, hpc, hgp, hcp, hcg, hgc]
    · simp [NodeSetB, NodeRecycle, upd_apply, hpg, hpc, hgp, hcp, hcg, hgc]
    · intro j h1 h2 h3
      simp [NodeSetB, NodeRecycle, upd_apply, h1, h2, h3]
    · refine ⟨?_, ?_, ?_, ?_, ?_, ?_, trivial⟩
      · simp [NodeSetB, NodeRecycle, upd_apply, hpg, hpc, hgp, hcp, hcg, hgc, c1]
      · simp [NodeSetB, NodeRecycle, upd_apply, hpg, hpc, hgp, hcp, hcg, hgc, c2]
      · simp [NodeSetB, NodeRecycle, upd_apply, hpg, hpc, hgp, hcp, hcg, hgc]
      · simp [NodeSetB, NodeRecycle, upd_apply, hs2p, hs2c, hs2g, c4]
      · simp [NodeSetB, NodeRecycle, upd_apply, hpg, hpc, hgp, hcp, hcg, hgc]
      · refine Sub_congr_eq w.node _ s2 hnds ?_ c6
        intro j hj
        have h1 : j ≠ p := fun e => hps (e ▸ hj)
        have h2 : j ≠ c := fun e => hcs (e ▸ hj)
        have h3 : j ≠ g := fun e => hgs (e ▸ hj)
        simp [NodeSetB, NodeRecycle, upd_apply, h1, h2, h3]

theorem CtxSub_obj (nd : Nat → Node) :
    ∀ (fs : List Frame) (h : Nat), CtxSub nd fs h → ∀ j ∈ fs.map Frame.id, (nd j).obj = 0
  | [], _, _, j, hj => by simp at hj
  | Frame.left i s :: fs, h, hc, j, hj => by
    simp only [List.map_cons, List.mem_cons, Frame.id] at hj
    rcases hj with e | e
    · rw [e]; exact hc.1
    · exact CtxSub_obj nd fs i hc.2.2.2.2.2.2 j e
  | Frame.right i s :: fs, h, hc, j, hj => by
    simp only [List.map_cons, List.mem_cons, Frame.id] at hj
    rcases hj with e | e
    · rw [e]; exact hc.1
    · exact CtxSub_obj nd fs i hc.2.2.2.2.2.2 j e

theorem CtxSub_sib (nd : Nat → Node) (f : Frame) (fs : List Frame) (h : Nat)
    (hc : CtxSub nd (f :: fs) h) : Sub nd f.sib := by
  cases f with
  | left i s => exact hc.2.2.2.2.2.1
  | right i s => exact hc.2.2.2.2.2.1

/-- Removing a leaf whose parent is not the root. -/
theorem SubtreeRemove_deep (tree x : Nat) (f1 f2 : Frame) (rest : List Frame) (w : World)
    (FN : List Nat) (fuel : Nat) (pool : NodePool w tree FN)
    (hs : Sub w.node (plug (f1 :: f2 :: rest) (Shape.leaf x)))
    (hroot : (w.node (plug (f1 :: f2 :: rest) (Shape.leaf x)).root).parent = none)
    (hnd : (plug (f1 :: f2 :: rest) (Shape.leaf x)).ids.Nodup)
    (hfit : ∀ f ∈ f1 :: f2 :: rest, Fit w.node f.sib)
    (hlive : ∀ i ∈ (plug (f1 :: f2 :: rest) (Shape.leaf x)).ids, i < w.nodeBrk ∧ i ∉ FN)
    (hfuel : (f2 :: rest).length ≤ fuel) :
    ∃ w', SubtreeRemove fuel (some (plug (f1 :: f2 :: rest) (Shape.leaf x)).root) x tree w =
        some (some (plug (f2 :: rest) f1.sib).root, w') ∧
      NodePool w' tree (f1.id :: FN) ∧
      Sub w'.node (plug (f2 :: rest) f1.sib) ∧
      (w'.node (plug (f2 :: rest) f1.sib).root).parent = none ∧
      Fit w'.node (plug (f2 :: rest) f1.sib) ∧
      (∀ j, j ≠ f1.id → j ≠ f1.sib.root → j ∉ (f2 :: rest).map Frame.id → w'.node j = w.node j) ∧
      (∀ j, (w.node j).obj ≠ 0 → (w.node j).sameButParent (w'.node j)) ∧
      w'.nodeBrk = w.nodeBrk ∧ NodeFrame tree w w' := by
  have hs' := (Sub_plug w.node (f1 :: f2 :: rest) (Shape.leaf x)).1 hs
  obtain ⟨_, hctx⟩ := hs'
  simp only [Shape.root_leaf] at hctx
  have hctx1 := (CtxSub_cons w.node f1 (f2 :: rest) x).1 hctx
  obtain ⟨hctx_f1, hctx2⟩ := hctx1
  have hctx3 := (CtxSub_cons w.node f2 rest f1.id).1 hctx2
  -- distinctness
  have hnd' := (plug_nodup (f1 :: f2 :: rest) (Shape.leaf x)).1 hnd
  obtain ⟨_, hndc, hdisj⟩ := hnd'
  have hx_ctx : x ∉ ctxIds (f1 :: f2 :: rest) := hdisj x (by simp [Shape.ids])
  have hA := List.nodup_cons.1 hndc
  have hB := List.nodup_append.1 hA.2
  have hC := List.nodup_cons.1 hB.2.1
  have hD := List.nodup_append.1 hC.2
  set p := f1.id with hp
  set s := f1.sib with hsdef
  set c := s.root with hcdef
  set g := f2.id with hg
  have hc_s : c ∈ s.ids := Shape.root_mem_ids s
  have hp_s : p ∉ s.ids := fun h => hA.1 (List.mem_append_left _ h)
  have hp_ctx2 : p ∉ ctxIds (f2 :: rest) := fun h => hA.1 (List.mem_append_right _ h)
  have hs_ctx2 : ∀ j ∈ s.ids, j ∉ ctxIds (f2 :: rest) := fun j hj hj' => hB.2.2 hj hj'
  have hg_ctx2 : g ∈ ctxIds (f2 :: rest) := by simp [ctxIds, hg]
  have hpg : p ≠ g := fun e => hp_ctx2 (e ▸ hg_ctx2)
  have hcg : c ≠ g := fun e => hs_ctx2 c hc_s (e ▸ hg_ctx2)
  have hpc : p ≠ c := fun e => hp_s (e ▸ hc_s)
  have hps2 : p ∉ f2.sib.ids := fun h => hp_ctx2 (by simp [ctxIds, h])
  have hcs2 : c ∉ f2.sib.ids := fun h => hs_ctx2 c hc_s (by simp [ctxIds, h])
  have hgs2 : g ∉ f2.sib.ids := fun h => hC.1 (List.mem_append_left _ h)
  have hg_rest : g ∉ ctxIds rest := fun h => hC.1 (List.mem_append_right _ h)
  have hxp : x ≠ p := fun e => hx_ctx (by simp [ctxIds, e, hp])
  have hxs : x ∉ s.ids := fun h => hx_ctx (by simp [ctxIds, h, hsdef])
  have hxc : x ≠ c := fun e => hxs (e ▸ hc_s)
  have hroot_eq : (plug (f1 :: f2 :: rest) (Shape.leaf x)).root = ctxRoot rest g := by
    rw [plug_root]; rfl
  have hroot_eq' : (plug (f2 :: rest) s).root = ctxRoot rest g := by
    rw [plug_root]; rfl
  have hroot_mem : ctxRoot rest g ∈ (f2 :: rest).map Frame.id := ctxRoot_mem rest f2 p
  have hroot_ctx : ctxRoot rest g ∈ ctxIds (f2 :: rest) := map_id_subset_ctxIds _ _ hroot_mem
  rw [hroot_eq] at hroot ⊢
  rw [hroot_eq']
  have hp_root : p ≠ ctxRoot rest g := fun e => hp_ctx2 (e ▸ hroot_ctx)
  have hc_root : c ≠ ctxRoot rest g := fun e => hs_ctx2 c hc_s (e ▸ hroot_ctx)
  have hx_root : x ≠ ctxRoot rest g := fun e => hx_ctx (by
    rw [e]; simp only [ctxIds]
    exact List.mem_cons_of_mem _ (List.mem_append_right _ hroot_ctx))
  -- pointers
  have hparx : (w.node x).parent = some p := by
    cases f1 with
    | left i s' => exact hctx.2.2.2.1
    | right i s' => exact hctx.2.2.2.2.1
  have hparp : (w.node p).parent = some g := by
    cases f2 with
    | left i s' => exact hctx2.2.2.2.1
    | right i s' => exact hctx2.2.2.2.2.1
  have hother := CtxSub_other w.node f1 (f2 :: rest) x hctx hxc
  obtain ⟨w2, hrc, n_p, n_c, g_obj, g_par, g_bb, g_st, g_pr, n_oth, hctx_f2', hidx2, hbrk2, hpair2,
    hcalls2, hpb2, hib2, hnc2, hpc2, hext2⟩ :=
    replaceChild_step tree p c fuel f2 rest w hctx2 hpg hcg hpc hps2 hcs2 hgs2 hD.1
  -- the shape after the first half
  have hSubs : Sub w.node s := CtxSub_sib w.node f1 (f2 :: rest) x hctx
  have hSub2s : Sub w2.node s := by
    refine Sub_congr w.node w2.node s hB.1 ?_ hSubs
    intro j hj
    have h1 : j ≠ p := fun e => hp_s (e ▸ hj)
    have h3 : j ≠ g := fun e => hs_ctx2 j hj (e ▸ hg_ctx2)
    by_cases e : j = c
    · rw [e, n_c]; exact ⟨rfl, rfl, rfl, fun h => absurd rfl h⟩
    · rw [n_oth j h1 e h3]; exact ⟨rfl, rfl, rfl, fun _ => rfl⟩
  have hctx_rest2 : CtxSub w2.node rest g := by
    refine CtxSub_congr w.node w2.node rest g hD.2.1 ?_ g_par hctx3.2
    intro j hj
    have hj2 : j ∈ ctxIds (f2 :: rest) := by simp [ctxIds, hj]
    exact n_oth j (fun e => hp_ctx2 (e ▸ hj2)) (fun e => hs_ctx2 c hc_s (e ▸ hj2))
      (fun e => hg_rest (by have h3 := hj; rw [e] at h3; exact h3))
  have hSub2 : Sub w2.node (plug (f2 :: rest) s) :=
    (Sub_plug w2.node (f2 :: rest) s).2 ⟨hSub2s, (CtxSub_cons w2.node f2 rest c).2
      ⟨hctx_f2', hctx_rest2⟩⟩
  have hbb2 : ∀ j, (w2.node j).bb = (w.node j).bb := by
    intro j
    by_cases e1 : j = p
    · rw [e1, n_p]
    · by_cases e2 : j = c
      · rw [e2, n_c]
      · by_cases e3 : j = g
        · rw [e3]; exact g_bb
        · rw [n_oth j e1 e2 e3]
  have hpar2 : ∀ j, j ≠ p → j ≠ c → (w2.node j).parent = (w.node j).parent := by
    intro j e1 e2
    by_cases e3 : j = g
    · rw [e3]; exact g_par
    · rw [n_oth j e1 e2 e3]
  have hroot2 : (w2.node (plug (f2 :: rest) s).root).parent = none := by
    rw [hroot_eq', hpar2 _ (fun e => hp_root e.symm) (fun e => hc_root e.symm)]
    exact hroot
  have hnd2 : (plug (f2 :: rest) s).ids.Nodup :=
    (plug_nodup (f2 :: rest) s).2 ⟨hB.1, hB.2.1, hs_ctx2⟩
  have hfit2s : Fit w2.node s :=
    Fit_congr w.node w2.node s (fun j _ => hbb2 j) (hfit f1 (List.mem_cons_self _ _))
  have hfit2 : ∀ f ∈ f2 :: rest, Fit w2.node f.sib := fun f hf =>
    Fit_congr w.node w2.node f.sib (fun j _ => hbb2 j) (hfit f (List.mem_cons_of_mem _ hf))
  obtain ⟨w', hres, hfit', hoth, hsame, hidx, hbrk, hfr⟩ :=
    refitLoop_spec tree (f2 :: rest) s w2 fuel hSub2 hroot2 hnd2 hfit2s hfit2 hfuel
  have hpar' : ∀ j, (w'.node j).parent = (w2.node j).parent := by
    intro j
    have := hsame j
    unfold Node.sameButBB at this
    rw [this]
  have hlivep : p < w.nodeBrk ∧ p ∉ FN :=
    hlive p ((plug_mem_ids _ _ _).2 (Or.inr (by simp [ctxIds, hp])))
  have hlive_ctx2 : ∀ j ∈ ctxIds (f2 :: rest), j < w.nodeBrk ∧ j ∉ FN := fun j hj =>
    hlive j ((plug_mem_ids _ _ _).2 (Or.inr (by
      simp only [ctxIds]
      exact List.mem_cons_of_mem _ (List.mem_append_right _ hj))))
  have hlivec : c < w.nodeBrk ∧ c ∉ FN :=
    hlive c ((plug_mem_ids _ _ _).2 (Or.inr (by
      simp only [ctxIds]
      exact List.mem_cons_of_mem _ (List.mem_append_left _ hc_s))))
  have hobjs := CtxSub_obj w.node (f2 :: rest) p hctx2
  refine ⟨w', ?_, ?_, Sub_of_sameButBB w2.node w'.node hsame _ hSub2, ?_, hfit', ?_, ?_, ?_, ?_⟩
  · have hne : ¬ (some x = some (ctxRoot rest g)) := fun e => hx_root (Option.some.inj e)
    have hne2 : ¬ (some p = some (ctxRoot rest g)) := fun e => hp_root (Option.some.inj e)
    have hres2 : refitLoop fuel (some f2.id) w2 = some w' := hres
    simp only [SubtreeRemove, hne, if_false, hparx, hne2, hparp, NodeOther_eq, hother, hrc, hres2]
  · refine ⟨⟨?_, ?_⟩, List.nodup_cons.2 ⟨hlivep.2, pool.nodup⟩, ?_, ?_⟩
    · rw [hidx, hidx2]; exact NodeRecycle_pooled tree p w
    · show Chain _ ((w'.node p).parent) FN
      rw [hpar' p, n_p]
      refine Chain_congr _ _ FN _ ?_ pool.chain
      intro q hq
      show (w'.node q).parent = (w.node q).parent
      rw [hpar' q, hpar2 q (fun e => hlivep.2 (e ▸ hq)) (fun e => hlivec.2 (e ▸ hq))]
    · intro i hi
      rw [hbrk, hbrk2]
      rcases List.mem_cons.1 hi with e | e
      · rw [e]; exact hlivep.1
      · exact pool.bound i e
    · rw [hfr.nodeCount, hnc2]; exact pool.count
  · rw [hpar' _, ← hroot_eq']; exact hroot2
  · intro j h1 h2 h3
    rw [hoth j h3]
    have hjg : j ≠ g := fun e => h3 (by rw [e]; simp [hg])
    exact n_oth j h1 h2 hjg
  · intro j hj
    by_cases e1 : j = p
    · exfalso
      have hpobj : (w.node p).obj = 0 := by
        cases f1 with
        | left i s' => exact hctx.1
        | right i s' => exact hctx.1
      exact hj (e1 ▸ hpobj)
    · by_cases e3 : j ∈ (f2 :: rest).map Frame.id
      · exact absurd (hobjs j e3) hj
      · rw [hoth j e3]
        by_cases e2 : j = c
        · rw [e2, n_c]; exact sameButParent_set _ _ _ (sameButParent_refl _)
        · have hjg : j ≠ g := fun e => e3 (by rw [e]; simp [hg])
          rw [n_oth j e1 e2 hjg]; exact sameButParent_refl _
  · rw [hbrk, hbrk2]
  · refine NodeFrame.nodeTrans ?_ hfr
    have hfrR := NodeRecycle_frame tree p w
    refine ⟨hpair2, hcalls2, ?_, ?_, ?_, hpb2, hib2, hnc2, hpc2, hext2, by rw [hbrk2], ?_, ?_⟩
    · intro j; rw [hidx2]; exact hfrR.core j
    · intro j; rw [hidx2]; exact hfrR.pooledPairs j
    · intro j hj; rw [hidx2]; exact hfrR.other j hj
    · intro j _
      by_cases e1 : j = p
      · rw [e1, n_p]
      · by_cases e2 : j = c
        · rw [e2, n_c]
        · by_cases e3 : j = g
          · rw [e3]; exact g_st
          · rw [n_oth j e1 e2 e3]
    · intro j _
      by_cases e1 : j = p
      · rw [e1, n_p]
      · by_cases e2 : j = c
        · rw [e2, n_c]
        · by_cases e3 : j = g
          · rw [e3]; exact g_pr
          · rw [n_oth j e1 e2 e3]

/-! ## Moving invariants across the two layers -/

theorem PairInv_of_nodeFrame (tree : Nat) (w w' : World) (lv : List Nat) (L : Nat → List Nat)
    (FP : List Nat) (inv : PairInv w tree lv L FP) (hfr : NodeFrame tree w w')
    (hlv : ∀ x ∈ lv, x < w.nodeBrk) : PairInv w' tree lv L FP := by
  refine ⟨?_, inv.nodup, ?_, ?_, inv.freeNodup, inv.fresh, ?_, ?_, ?_⟩
  · intro x hx
    rw [hfr.pair, hfr.pairs x (hlv x hx)]
    exact inv.list x hx
  · intro x hx p hp
    rw [hfr.pair]
    exact inv.ends x hx p hp
  · rw [hfr.pair, hfr.pooledPairs tree]
    exact inv.chain
  · rw [hfr.pairBrk]; exact inv.bound
  · rw [hfr.pairBrk]; exact inv.boundL
  · rw [hfr.pairCount]; exact inv.count

theorem skel_eq_fields {n m : Node} (h : m.skel = n.skel) :
    m.obj = n.obj ∧ m.bb = n.bb ∧ m.parent = n.parent ∧ m.a = n.a ∧ m.b = n.b ∧
      m.stamp = n.stamp := by
  have e1 := congrArg Node.obj h
  have e2 := congrArg Node.bb h
  have e3 := congrArg Node.parent h
  have e4 := congrArg Node.a h
  have e5 := congrArg Node.b h
  have e6 := congrArg Node.stamp h
  exact ⟨e1, e2, e3, e4, e5, e6⟩

theorem Sub_of_skel (nd nd' : Nat → Node) (h : ∀ i, (nd' i).skel = (nd i).skel) :
    ∀ t : Shape, Sub nd t → Sub nd' t
  | Shape.leaf i, hs => by
    show (nd' i).obj ≠ 0
    rw [(skel_eq_fields (h i)).1]; exact hs
  | Shape.node i l r, hs => by
    obtain ⟨h1, h2, h3, h4, h5, h6, h7⟩ := hs
    refine ⟨?_, ?_, ?_, ?_, ?_, Sub_of_skel nd nd' h l h6, Sub_of_skel nd nd' h r h7⟩
    · rw [(skel_eq_fields (h i)).1]; exact h1
    · rw [(skel_eq_fields (h i)).2.2.2.1]; exact h2
    · rw [(skel_eq_fields (h i)).2.2.2.2.1]; exact h3
    · rw [(skel_eq_fields (h _)).2.2.1]; exact h4
    · rw [(skel_eq_fields (h _)).2.2.1]; exact h5

theorem Fit_of_skel (nd nd' : Nat → Node) (h : ∀ i, (nd' i).skel = (nd i).skel) (t : Shape)
    (hf : Fit nd t) : Fit nd' t :=
  Fit_congr nd nd' t (fun i _ => (skel_eq_fields (h i)).2.1) hf

theorem NodePool_of_pairFrame (tree : Nat) (w w' : World) (FN : List Nat)
    (pool : NodePool w tree FN) (hfr : PairFrame tree w w') : NodePool w' tree FN := by
  refine ⟨?_, pool.nodup, ?_, ?_⟩
  · rw [hfr.pooledNodes tree]
    exact Chain_congr _ _ FN _ (fun q _ => (skel_eq_fields (hfr.skel q)).2.2.1) pool.chain
  · rw [hfr.nodeBrk]; exact pool.bound
  · rw [hfr.nodeCount]; exact pool.count

/-! ## Growth of the pair lists -/

theorem forall₂_imp_mem {α β : Type} {R S : α → β → Prop} :
    ∀ {l1 : List α} {l2 : List β}, List.Forall₂ R l1 l2 →
      (∀ a b, a ∈ l1 → b ∈ l2 → R a b → S a b) → List.Forall₂ S l1 l2
  | _, _, List.Forall₂.nil, _ => List.Forall₂.nil
  | _, _, List.Forall₂.cons h t, hi =>
    List.Forall₂.cons (hi _ _ (List.mem_cons_self _ _) (List.mem_cons_self _ _) h)
      (forall₂_imp_mem t (fun a b ha hb => hi a b (List.mem_cons_of_mem _ ha)
        (List.mem_cons_of_mem _ hb)))

theorem Grown.none (lv : List Nat) (x : Nat) (pm : Nat → Pair) (L : Nat → List Nat) :
    Grown lv x pm L pm L [] :=
  ⟨fun _ _ _ => rfl, fun _ _ h => h, fun _ _ _ _ => ⟨rfl, rfl⟩, [], rfl, List.Forall₂.nil⟩

theorem Grown.append {lv : List Nat} {x : Nat} {pm pm1 pm2 : Nat → Pair}
    {L L1 L2 : Nat → List Nat} {i1 i2 : List (Nat × Bool)}
    (g1 : Grown lv x pm L pm1 L1 i1) (g2 : Grown lv x pm1 L1 pm2 L2 i2)
    (h1 : ∀ e ∈ i1, e.1 ∈ lv ∧ e.1 ≠ x ∧ e.1 ∉ i2.map Prod.fst)
    (h2 : ∀ e ∈ i2, e.1 ≠ x ∧ e.1 ∉ i1.map Prod.fst) :
    Grown lv x pm L pm2 L2 (i1 ++ i2) := by
  obtain ⟨N1, hN1, hF1⟩ := g1.grow
  obtain ⟨N2, hN2, hF2⟩ := g2.grow
  refine ⟨?_, fun z q hq => g2.mono z q (g1.mono z q hq), ?_, N2 ++ N1, ?_, ?_⟩
  · intro z hzx hz
    rw [List.map_append, List.mem_append, not_or] at hz
    rw [g2.keep z hzx hz.2, g1.keep z hzx hz.1]
  · intro z hz q hq
    have a1 := g1.leafs z hz q hq
    have a2 := g2.leafs z hz q (g1.mono z q hq)
    exact ⟨a2.1.trans a1.1, a2.2.trans a1.2⟩
  · rw [hN2, hN1, List.append_assoc]
  · rw [List.reverse_append]
    refine List.rel_append ?_ ?_
    · refine forall₂_imp_mem hF2 ?_
      intro p e _ he ⟨hfresh, hcons, hends⟩
      have he2 := h2 e (List.mem_reverse.1 he)
      refine ⟨fun z hz hp => hfresh z hz (g1.mono z p hp), ?_, hends⟩
      rw [hcons, g1.keep e.1 he2.1 he2.2]
    · refine forall₂_imp_mem hF1 ?_
      intro p e _ he ⟨hfresh, hcons, hends⟩
      have he1 := h1 e (List.mem_reverse.1 he)
      have hp1 : p ∈ L1 e.1 := by rw [hcons]; exact List.mem_cons_self _ _
      have hl := g2.leafs e.1 he1.1 p hp1
      refine ⟨hfresh, ?_, ?_⟩
      · rw [g2.keep e.1 he1.2.1 he1.2.2, hcons]
      · unfold Ends at hends ⊢
        rw [hl.1, hl.2]
        exact hends

theorem logOf_nil (func : QueryFunc) : logOf func [] = [] := by
  cases func <;> rfl

theorem logOf_append (func : QueryFunc) (a b : List (Nat × Nat)) :
    logOf func (a ++ b) = logOf func a ++ logOf func b := by
  cases func <;> simp [logOf]

theorem callFunc_log (func : QueryFunc) (hf : func ≠ QueryFunc.null) (a b : Nat) (w : World) :
    callFunc func a b w = some (w.addCalls (logOf func [(a, b)])) := by
  cases func with
  | null => exact absurd rfl hf
  | void => simp [callFunc, logOf]
  | record => simp [callFunc, logOf, World.addCalls]

theorem hits_leaf (nd : Nat → Node) (x i : Nat) :
    hits nd x (Shape.leaf i) = if cpBBIntersects (nd x).bb (nd i).bb then [i] else [] := by
  unfold hits
  simp only [Shape.leaves_leaf, List.filter_cons, List.filter_nil]

theorem hits_node (nd : Nat → Node) (x i : Nat) (l r : Shape) :
    hits nd x (Shape.node i l r) = hits nd x l ++ hits nd x r := by
  unfold hits
  simp only [Shape.leaves_node, List.filter_append]

theorem insOf_node (nd : Nat → Node) (x i : Nat) (left : Bool) (l r : Shape) :
    insOf nd x left (Shape.node i l r) = insOf nd x left l ++ insOf nd x left r := by
  unfold insOf
  rw [hits_node, List.filter_append, List.map_append]

theorem markCalls_node (nd : Nat → Node) (x i : Nat) (left : Bool) (l r : Shape) :
    markCalls nd x left (Shape.node i l r) = markCalls nd x left l ++ markCalls nd x left r := by
  unfold markCalls
  cases left
  · simp only [Bool.false_eq_true, if_false, hits_node, List.map_append]
  · simp only [if_true, List.append_nil]

theorem hits_of_miss (nd : Nat → Node) (x : Nat) (s : Shape) (hf : Fit nd s)
    (h : cpBBIntersects (nd x).bb (nd s.root).bb = false) : hits nd x s = [] := by
  unfold hits
  rw [List.filter_eq_nil_iff]
  intro y hy hq
  rw [cpBBIntersects_comm] at hq
  have := root_intersects_of_leaf nd (nd x).bb s hf y hy hq
  rw [cpBBIntersects_comm, h] at this
  exact Bool.noConfusion this

theorem mem_insOf (nd : Nat → Node) (x : Nat) (left : Bool) (s : Shape) (e : Nat × Bool)
    (he : e ∈ insOf nd x left s) : e.1 ∈ s.leaves ∧ e.2 = left := by
  unfold insOf hits at he
  simp only [List.mem_map, List.mem_filter] at he
  obtain ⟨y, ⟨⟨hy, _⟩, _⟩, rfl⟩ := he
  exact ⟨hy, rfl⟩

theorem mem_insOf_fst (nd : Nat → Node) (x : Nat) (left : Bool) (s : Shape) (y : Nat)
    (he : y ∈ (insOf nd x left s).map Prod.fst) : y ∈ s.leaves := by
  rw [List.mem_map] at he
  obtain ⟨e, he, rfl⟩ := he
  exact (mem_insOf nd x left s e he).1

/-- One `PairInsert` between leaf `x` and leaf `y` grows the lists by one pair. -/
theorem Grown.one (tree x y : Nat) (left : Bool) (w : World) (lv : List Nat)
    (L : Nat → List Nat) (FP : List Nat) (inv : PairInv w tree lv L FP) (hx : x ∈ lv)
    (hy : y ∈ lv) (hxy : x ≠ y) :
    ∃ w' L' FP',
      (if left then PairInsert x y tree w else PairInsert y x tree w) = some w' ∧
      PairInv w' tree lv L' FP' ∧ PairFrame tree w w' ∧ w'.calls = w.calls ∧
      Grown lv x w.pair L w'.pair L' [(y, left)] := by
  cases left with
  | true =>
    obtain ⟨p, w', FP', hres, hfresh, inv', hends, hleafs, hfr, hcalls⟩ :=
      PairInsert_spec tree x y w lv L FP inv hx hy hxy
    refine ⟨w', _, FP', by simpa using hres, inv', hfr, hcalls, ?_, ?_, hleafs, [p], ?_, ?_⟩
    · intro z hzx hz
      simp only [List.map_cons, List.map_nil, List.mem_singleton] at hz
      rw [upd_other _ _ _ _ hz, upd_other _ _ _ _ hzx]
    · intro z q hq
      by_cases e1 : z = y
      · rw [e1, upd_same]; rw [e1] at hq; exact List.mem_cons_of_mem _ hq
      · rw [upd_other _ _ _ _ e1]
        by_cases e2 : z = x
        · rw [e2, upd_same]; rw [e2] at hq; exact List.mem_cons_of_mem _ hq
        · rw [upd_other _ _ _ _ e2]; exact hq
    · rw [upd_other _ _ _ _ hxy, upd_same]; rfl
    · simp only [List.reverse_cons, List.reverse_nil, List.nil_append]
      refine List.Forall₂.cons ⟨hfresh, ?_, ?_⟩ List.Forall₂.nil
      · show upd (upd L x (p :: L x)) y (p :: L y) y = p :: L y
        rw [upd_same]
      · simpa using hends
  | false =>
    obtain ⟨p, w', FP', hres, hfresh, inv', hends, hleafs, hfr, hcalls⟩ :=
      PairInsert_spec tree y x w lv L FP inv hy hx (Ne.symm hxy)
    refine ⟨w', _, FP', by simpa using hres, inv', hfr, hcalls, ?_, ?_, hleafs, [p], ?_, ?_⟩
    · intro z hzx hz
      simp only [List.map_cons, List.map_nil, List.mem_singleton] at hz
      rw [upd_other _ _ _ _ hzx, upd_other _ _ _ _ hz]
    · intro z q hq
      by_cases e1 : z = x
      · rw [e1, upd_same]; rw [e1] at hq; exact List.mem_cons_of_mem _ hq
      · rw [upd_other _ _ _ _ e1]
        by_cases e2 : z = y
        · rw [e2, upd_same]; rw [e2] at hq; exact List.mem_cons_of_mem _ hq
        · rw [upd_other _ _ _ _ e2]; exact hq
    · rw [upd_same]; rfl
    · simp only [List.reverse_cons, List.reverse_nil, List.nil_append]
      refine List.Forall₂.cons ⟨hfresh, ?_, ?_⟩ List.Forall₂.nil
      · show upd (upd L y (p :: L y)) x (p :: L x) y = p :: L y
        rw [upd_other _ _ _ _ (Ne.symm hxy), upd_same]
      · simpa using hends

theorem PairInv.withCalls {w : World} {tree : Nat} {lv : List Nat} {L : Nat → List Nat}
    {FP : List Nat} (inv : PairInv w tree lv L FP) (cs : List (Nat × Nat)) :
    PairInv (w.addCalls cs) tree lv L FP :=
  ⟨inv.list, inv.nodup, inv.ends, inv.chain, inv.freeNodup, inv.fresh, inv.bound, inv.boundL,
    inv.count⟩

theorem PairFrame.ofCalls (tree : Nat) (w : World) (cs : List (Nat × Nat)) :
    PairFrame tree w (w.addCalls cs) :=
  ⟨fun _ => rfl, fun _ => rfl, fun _ => rfl, fun _ _ => rfl, rfl, rfl, rfl, rfl, rfl,
    Nat.le_refl _⟩

theorem hits_congr (nd nd' : Nat → Node) (h : ∀ i, (nd' i).skel = (nd i).skel) (x : Nat)
    (s : Shape) : hits nd' x s = hits nd x s := by
  unfold hits
  refine List.filter_congr ?_
  intro y _
  rw [(skel_eq_fields (h x)).2.1, (skel_eq_fields (h y)).2.1]

theorem insOf_congr (nd nd' : Nat → Node) (h : ∀ i, (nd' i).skel = (nd i).skel) (x : Nat)
    (left : Bool) (s : Shape) : insOf nd' x left s = insOf nd x left s := by
  unfold insOf
  rw [hits_congr nd nd' h]
  congr 1
  refine List.filter_congr ?_
  intro y _
  rw [(skel_eq_fields (h x)).2.2.2.2.2, (skel_eq_fields (h y)).2.2.2.2.2]

theorem markCalls_congr (nd nd' : Nat → Node) (h : ∀ i, (nd' i).skel = (nd i).skel) (x : Nat)
    (left : Bool) (s : Shape) : markCalls nd' x left s = markCalls nd x left s := by
  unfold markCalls
  rw [hits_congr nd nd' h]
  cases left
  · simp only [Bool.false_eq_true, if_false]
    refine List.map_congr_left ?_
    intro y _
    rw [(skel_eq_fields (h x)).1, (skel_eq_fields (h y)).1]
  · rfl

theorem MarkLeafQuery_spec (tree x : Nat) (left : Bool) (func : QueryFunc)
    (hfunc : func ≠ QueryFunc.null) (sr : Option Nat) (lv : List Nat) (hx : x ∈ lv) :
    ∀ (s : Shape) (w : World) (L : Nat → List Nat) (FP : List Nat) (fuel : Nat),
      PairInv w tree lv L FP → Sub w.node s → Fit w.node s → (∀ y ∈ s.leaves, y ∈ lv) →
      x ∉ s.leaves → s.leaves.Nodup → s.height ≤ fuel →
      ∃ w' L' FP', MarkLeafQuery fuel s.root x left ⟨tree, sr, func⟩ w = some w' ∧
        PairInv w' tree lv L' FP' ∧ PairFrame tree w w' ∧
        w'.calls = w.calls ++ logOf func (markCalls w.node x left s) ∧
        Grown lv x w.pair L w'.pair L' (insOf w.node x left s)
  | Shape.leaf i, w, L, FP, fuel, inv, hs, _, hlv, hxs, _, hfuel => by
    cases fuel with
    | zero => simp at hfuel
    | succ fuel =>
    have hiobj : (w.node i).obj ≠ 0 := hs
    have hleaf : NodeIsLeaf w i = true := by simp [NodeIsLeaf, hiobj]
    have hxi : x ≠ i := fun e => hxs (by rw [e]; simp)
    have hi : i ∈ lv := hlv i (by simp)
    by_cases hq : cpBBIntersects (w.node x).bb (w.node i).bb = true
    · have hh : hits w.node x (Shape.leaf i) = [i] := by rw [hits_leaf, if_pos hq]
      cases left with
      | true =>
        obtain ⟨w', L', FP', hres, inv', hfr, hcalls, hg⟩ :=
          Grown.one tree x i true w lv L FP inv hx hi hxi
        refine ⟨w', L', FP', ?_, inv', hfr, ?_, ?_⟩
        · simp only [MarkLeafQuery, Shape.root_leaf, hq, hleaf, if_true]
          simpa using hres
        · rw [hcalls]; simp [markCalls, logOf_nil]
        · have : insOf w.node x true (Shape.leaf i) = [(i, true)] := by
            unfold insOf; rw [hh]; simp
          rw [this]; exact hg
      | false =>
        by_cases hst : (w.node i).stamp < (w.node x).stamp
        · obtain ⟨w', L', FP', hres, inv', hfr, hcalls, hg⟩ :=
            Grown.one tree x i false w lv L FP inv hx hi hxi
          have hres' : PairInsert i x tree w = some w' := by simpa using hres
          have ox := (skel_eq_fields (hfr.skel x)).1
          have oi := (skel_eq_fields (hfr.skel i)).1
          refine ⟨w'.addCalls (logOf func [((w.node x).obj, (w.node i).obj)]), L', FP', ?_,
            inv'.withCalls _, hfr.pairTrans (PairFrame.ofCalls tree w' _), ?_, ?_⟩
          · simp only [MarkLeafQuery, Shape.root_leaf, hq, hleaf, if_true, hst,
              Bool.false_eq_true, if_false, hres', ox, oi]
            exact callFunc_log func hfunc _ _ _
          · show w'.calls ++ _ = _
            rw [hcalls]; simp [markCalls, hh]
          · have : insOf w.node x false (Shape.leaf i) = [(i, false)] := by
              unfold insOf; rw [hh]; simp [hst]
            rw [this]; exact hg
        · refine ⟨w.addCalls (logOf func [((w.node x).obj, (w.node i).obj)]), L, FP, ?_,
            inv.withCalls _, PairFrame.ofCalls tree w _, ?_, ?_⟩
          · simp only [MarkLeafQuery, Shape.root_leaf, hq, hleaf, if_true, hst,
              Bool.false_eq_true, if_false]
            exact callFunc_log func hfunc _ _ _
          · show w.calls ++ _ = _
            simp [markCalls, hh]
          · have : insOf w.node x false (Shape.leaf i) = [] := by
              unfold insOf; rw [hh]; simp [hst]
            rw [this]; exact Grown.none lv x w.pair L
    · have hq' : cpBBIntersects (w.node x).bb (w.node i).bb = false := by simpa using hq
      have hh : hits w.node x (Shape.leaf i) = [] := by rw [hits_leaf, hq']; rfl
      refine ⟨w, L, FP, ?_, inv, PairFrame.pairRefl tree w, ?_, ?_⟩
      · simp only [MarkLeafQuery, Shape.root_leaf, hq', Bool.false_eq_true, if_false]
      · unfold markCalls; rw [hh]; cases left <;> simp [logOf_nil]
      · have : insOf w.node x left (Shape.leaf i) = [] := by unfold insOf; rw [hh]; rfl
        rw [this]; exact Grown.none lv x w.pair L
  | Shape.node i l r, w, L, FP, fuel, inv, hs, hf, hlv, hxs, hnd, hfuel => by
    cases fuel with
    | zero => simp at hfuel
    | succ fuel =>
    obtain ⟨hobj, ha, hb, _, _, hsl, hsr⟩ := hs
    simp only [Shape.height_node, Nat.add_le_add_iff_right, max_le_iff] at hfuel
    simp only [Shape.leaves_node, List.mem_append, not_or] at hxs
    simp only [Shape.leaves_node] at hnd hlv
    have hnd' := List.nodup_append.1 hnd
    have hleaf : NodeIsLeaf w i = false := by simp [NodeIsLeaf, hobj]
    by_cases hq : cpBBIntersects (w.node x).bb (w.node i).bb = true
    · obtain ⟨w1, L1, FP1, hres1, inv1, hfr1, hcalls1, hg1⟩ :=
        MarkLeafQuery_spec tree x left func hfunc sr lv hx l w L FP fuel inv hsl hf.2.1
          (fun y hy => hlv y (List.mem_append_left _ hy)) hxs.1 hnd'.1 hfuel.1
      obtain ⟨w2, L2, FP2, hres2, inv2, hfr2, hcalls2, hg2⟩ :=
        MarkLeafQuery_spec tree x left func hfunc sr lv hx r w1 L1 FP1 fuel inv1
          (Sub_of_skel w.node w1.node hfr1.skel r hsr)
          (Fit_of_skel w.node w1.node hfr1.skel r hf.2.2)
          (fun y hy => hlv y (List.mem_append_right _ hy)) hxs.2 hnd'.2.1 hfuel.2
      rw [insOf_congr w.node w1.node hfr1.skel] at hg2
      rw [markCalls_congr w.node w1.node hfr1.skel] at hcalls2
      refine ⟨w2, L2, FP2, ?_, inv2, hfr1.pairTrans hfr2, ?_, ?_⟩
      · simp only [MarkLeafQuery, Shape.root_node, hq, hleaf, if_true, Bool.false_eq_true,
          if_false, ha, hb, hres1, hres2]
      · rw [hcalls2, hcalls1, markCalls_node, logOf_append, List.append_assoc]
      · rw [insOf_node]
        refine Grown.append hg1 hg2 ?_ ?_
        · intro e he
          have h1 := (mem_insOf w.node x left l e he).1
          refine ⟨hlv _ (List.mem_append_left _ h1), fun e' => hxs.1 (e' ▸ h1), ?_⟩
          intro h2
          exact hnd'.2.2 h1 (mem_insOf_fst w.node x left r _ h2)
        · intro e he
          have h1 := (mem_insOf w.node x left r e he).1
          refine ⟨fun e' => hxs.2 (e' ▸ h1), ?_⟩
          intro h2
          exact hnd'.2.2 (mem_insOf_fst w.node x left l _ h2) h1
    · have hq' : cpBBIntersects (w.node x).bb (w.node (Shape.node i l r).root).bb = false := by
        simpa using hq
      have hh := hits_of_miss w.node x (Shape.node i l r) hf hq'
      refine ⟨w, L, FP, ?_, inv, PairFrame.pairRefl tree w, ?_, ?_⟩
      · simp only [Shape.root_node] at hq'
        simp only [MarkLeafQuery, Shape.root_node, hq', Bool.false_eq_true, if_false]
      · unfold markCalls; rw [hh]; cases left <;> simp [logOf_nil]
      · have : insOf w.node x left (Shape.node i l r) = [] := by unfold insOf; rw [hh]; rfl
        rw [this]; exact Grown.none lv x w.pair L

theorem CtxSub_of_skel (nd nd' : Nat → Node) (h : ∀ i, (nd' i).skel = (nd i).skel) :
    ∀ (fs : List Frame) (x : Nat), CtxSub nd fs x → CtxSub nd' fs x
  | [], _, _ => trivial
  | Frame.left i s :: fs, x, hc => by
    obtain ⟨h1, h2, h3, h4, h5, h6, h7⟩ := hc
    refine ⟨?_, ?_, ?_, ?_, ?_, Sub_of_skel nd nd' h s h6, CtxSub_of_skel nd nd' h fs i h7⟩
    · rw [(skel_eq_fields (h i)).1]; exact h1
    · rw [(skel_eq_fields (h i)).2.2.2.1]; exact h2
    · rw [(skel_eq_fields (h i)).2.2.2.2.1]; exact h3
    · rw [(skel_eq_fields (h _)).2.2.1]; exact h4
    · rw [(skel_eq_fields (h _)).2.2.1]; exact h5
  | Frame.right i s :: fs, x, hc => by
    obtain ⟨h1, h2, h3, h4, h5, h6, h7⟩ := hc
    refine ⟨?_, ?_, ?_, ?_, ?_, Sub_of_skel nd nd' h s h6, CtxSub_of_skel nd nd' h fs i h7⟩
    · rw [(skel_eq_fields (h i)).1]; exact h1
    · rw [(skel_eq_fields (h i)).2.2.2.1]; exact h2
    · rw [(skel_eq_fields (h i)).2.2.2.2.1]; exact h3
    · rw [(skel_eq_fields (h _)).2.2.1]; exact h4
    · rw [(skel_eq_fields (h _)).2.2.1]; exact h5

theorem upIns_congr (nd nd' : Nat → Node) (h : ∀ i, (nd' i).skel = (nd i).skel) (x : Nat) :
    ∀ fs : List Frame, upIns nd' x fs = upIns nd x fs
  | [] => rfl
  | f :: fs => by
    simp only [upIns]
    rw [insOf_congr nd nd' h, upIns_congr nd nd' h x fs]

theorem upCalls_congr (nd nd' : Nat → Node) (h : ∀ i, (nd' i).skel = (nd i).skel) (x : Nat) :
    ∀ fs : List Frame, upCalls nd' x fs = upCalls nd x fs
  | [] => rfl
  | f :: fs => by
    simp only [upCalls]
    rw [markCalls_congr nd nd' h, upCalls_congr nd nd' h x fs]

theorem mem_upIns_fst (nd : Nat → Node) (x : Nat) :
    ∀ (fs : List Frame) (y : Nat), y ∈ (upIns nd x fs).map Prod.fst → y ∈ ctxLeaves fs
  | [], y, hy => by simp [upIns] at hy
  | f :: fs, y, hy => by
    simp only [upIns, List.map_append, List.mem_append] at hy
    simp only [ctxLeaves, List.mem_append]
    rcases hy with hy | hy
    · exact Or.inl (mem_insOf_fst nd x _ _ y hy)
    · exact Or.inr (mem_upIns_fst nd x fs y hy)

/-- One round of the loop of `MarkLeaf`. -/
theorem markUpLoop_step (x : Nat) (context : MarkContext) (fuel h : Nat) (f : Frame)
    (fs : List Frame) (w w1 : World) (next : Nat) (hc : CtxSub w.node (f :: fs) h)
    (hh : h ∉ f.sib.ids)
    (hq : MarkLeafQuery fuel f.sib.root x f.isLeft context w = some w1)
    (hn : (w1.node h).parent = some next) :
    markUpLoop x context (fuel + 1) h w = markUpLoop x context fuel next w1 := by
  cases f with
  | left i s =>
    obtain ⟨_, h2, h3, h4, _, _, _⟩ := hc
    simp only [Frame.sib, Frame.isLeft] at hq
    simp only [markUpLoop, h4, h2, if_true, h3, hq, hn]
  | right i s =>
    obtain ⟨_, h2, h3, _, h5, _, _⟩ := hc
    have hne : ¬ (some h = some s.root) := by
      intro e
      exact hh (by rw [Option.some.inj e]; exact Shape.root_mem_ids s)
    simp only [Frame.sib, Frame.isLeft] at hq
    simp only [markUpLoop, h5, h2, hne, if_false, hq, hn]

theorem markUpLoop_spec (tree x : Nat) (func : QueryFunc) (hfunc : func ≠ QueryFunc.null)
    (sr : Option Nat) (lv : List Nat) (hx : x ∈ lv) (H : Nat) :
    ∀ (fs : List Frame) (h : Nat) (w : World) (L : Nat → List Nat) (FP : List Nat) (fuel : Nat),
      PairInv w tree lv L FP → CtxSub w.node fs h → (w.node (ctxRoot fs h)).parent = none →
      (h :: ctxIds fs).Nodup → (∀ f ∈ fs, Fit w.node f.sib) → (∀ y ∈ ctxLeaves fs, y ∈ lv) →
      x ∉ ctxLeaves fs → (ctxLeaves fs).Nodup → (∀ f ∈ fs, f.sib.height ≤ H) →
      fs.length + H + 1 ≤ fuel →
      ∃ w' L' FP', markUpLoop x ⟨tree, sr, func⟩ fuel h w = some w' ∧
        PairInv w' tree lv L' FP' ∧ PairFrame tree w w' ∧
        w'.calls = w.calls ++ logOf func (upCalls w.node x fs) ∧
        Grown lv x w.pair L w'.pair L' (upIns w.node x fs)
  | [], h, w, L, FP, fuel, inv, _, hroot, _, _, _, _, _, _, hfuel => by
    cases fuel with
    | zero => simp at hfuel
    | succ fuel =>
    refine ⟨w, L, FP, ?_, inv, PairFrame.pairRefl tree w, ?_, Grown.none lv x w.pair L⟩
    · simp only [ctxRoot] at hroot
      simp only [markUpLoop, hroot]
    · simp [upCalls, logOf_nil]
  | f :: fs, h, w, L, FP, fuel, inv, hc, hroot, hnd, hfit, hlv, hxs, hlnd, hH, hfuel => by
    cases fuel with
    | zero => simp at hfuel
    | succ fuel =>
    simp only [List.length_cons] at hfuel
    have hnd1 := List.nodup_cons.1 hnd
    have hh : h ∉ f.sib.ids := by
      intro e
      exact hnd1.1 (by simp only [ctxIds]; exact List.mem_cons_of_mem _ (List.mem_append_left _ e))
    have hnd2 : (f.id :: ctxIds fs).Nodup := by
      have h2 := hnd1.2
      simp only [ctxIds] at h2
      have h3 := List.nodup_cons.1 h2
      have h4 := List.nodup_append.1 h3.2
      exact List.nodup_cons.2 ⟨fun e => h3.1 (List.mem_append_right _ e), h4.2.1⟩
    simp only [ctxLeaves, List.mem_append, not_or] at hxs
    simp only [ctxLeaves] at hlnd hlv
    have hl := List.nodup_append.1 hlnd
    have hc' := (CtxSub_cons w.node f fs h).1 hc
    have hsib : Sub w.node f.sib := CtxSub_sib w.node f fs h hc
    have hpar : (w.node h).parent = some f.id := by
      cases f with
      | left i s => exact hc.2.2.2.1
      | right i s => exact hc.2.2.2.2.1
    obtain ⟨w1, L1, FP1, hres1, inv1, hfr1, hcalls1, hg1⟩ :=
      MarkLeafQuery_spec tree x f.isLeft func hfunc sr lv hx f.sib w L FP fuel inv hsib
        (hfit f (List.mem_cons_self _ _)) (fun y hy => hlv y (List.mem_append_left _ hy))
        hxs.1 hl.1 (by have := hH f (List.mem_cons_self _ _); omega)
    obtain ⟨w2, L2, FP2, hres2, inv2, hfr2, hcalls2, hg2⟩ :=
      markUpLoop_spec tree x func hfunc sr lv hx H fs f.id w1 L1 FP1 fuel inv1
        (CtxSub_of_skel w.node w1.node hfr1.skel fs f.id hc'.2)
        (by rw [(skel_eq_fields (hfr1.skel _)).2.2.1]; exact hroot) hnd2
        (fun g hg => Fit_of_skel w.node w1.node hfr1.skel g.sib
          (hfit g (List.mem_cons_of_mem _ hg)))
        (fun y hy => hlv y (List.mem_append_right _ hy)) hxs.2 hl.2.1
        (fun g hg => hH g (List.mem_cons_of_mem _ hg)) (by omega)
    rw [upIns_congr w.node w1.node hfr1.skel] at hg2
    rw [upCalls_congr w.node w1.node hfr1.skel] at hcalls2
    refine ⟨w2, L2, FP2, ?_, inv2, hfr1.pairTrans hfr2, ?_, ?_⟩
    · rw [markUpLoop_step x _ fuel h f fs w w1 f.id hc hh hres1
        (by rw [(skel_eq_fields (hfr1.skel h)).2.2.1]; exact hpar)]
      exact hres2
    · rw [hcalls2, hcalls1]
      simp only [upCalls, logOf_append, List.append_assoc]
    · simp only [upIns]
      refine Grown.append hg1 hg2 ?_ ?_
      · intro e he
        have h1 := (mem_insOf w.node x _ f.sib e he).1
        refine ⟨hlv _ (List.mem_append_left _ h1), fun e' => hxs.1 (e' ▸ h1), ?_⟩
        intro h2
        exact hl.2.2 h1 (mem_upIns_fst w.node x fs _ h2)
      · intro e he
        have h1 := mem_upIns_fst w.node x fs e.1 (List.mem_map_of_mem _ he)
        refine ⟨fun e' => hxs.2 (e' ▸ h1), ?_⟩
        intro h2
        exact hl.2.2 (mem_insOf_fst w.node x _ f.sib _ h2) h1

theorem markCachedLoop_spec (x : Nat) (context : MarkContext)
    (hfunc : context.func ≠ QueryFunc.null) :
    ∀ (l : List Nat) (pv hd : Option Nat) (w : World) (fuel : Nat),
      Seg w.pair x pv hd l none →
      (∀ p ∈ l, ∃ y, y ≠ x ∧ (Ends w.pair p x y ∨ Ends w.pair p y x)) → l.length ≤ fuel →
      markCachedLoop x context fuel hd w =
        some (w.addCalls (logOf context.func (cachedCalls w.node w.pair x l)))
  | [], pv, hd, w, fuel, hseg, _, _ => by
    have : hd = none := hseg
    subst this
    cases fuel <;> simp [markCachedLoop, cachedCalls, logOf_nil]
  | p :: ps, pv, hd, w, fuel, hseg, hends, hfuel => by
    cases fuel with
    | zero => simp at hfuel
    | succ fuel =>
    obtain ⟨hhd, _, _, hrest⟩ := hseg
    subst hhd
    obtain ⟨y, hyx, he⟩ := hends p (List.mem_cons_self _ _)
    have hends' : ∀ q ∈ ps, ∃ y, y ≠ x ∧ (Ends w.pair q x y ∨ Ends w.pair q y x) :=
      fun q hq => hends q (List.mem_cons_of_mem _ hq)
    have hfuel' : ps.length ≤ fuel := by simpa using hfuel
    rcases he with he | he
    · -- `x` is on thread `a`
      have hb : ¬ (some x = (w.pair p).b.leaf) := by
        rw [he.2]; intro e; exact hyx (Option.some.inj e).symm
      have hb' : ¬ ((w.pair p).b.leaf = some x) := fun e => hb e.symm
      rw [thr_of_ends_left w.pair p x y he] at hrest
      have ih := markCachedLoop_spec x context hfunc ps (some p) _ w fuel hrest hends' hfuel'
      simp only [markCachedLoop, hb, if_false, ih]
      simp [cachedCalls, hb']
    · -- `x` is on thread `b`
      have hb : some x = (w.pair p).b.leaf := he.2.symm
      rw [thr_of_ends_right w.pair p y x he hyx] at hrest
      have ih := markCachedLoop_spec x context hfunc ps (some p) _
        (w.addCalls (logOf context.func [((w.node y).obj, (w.node x).obj)])) fuel hrest hends'
        hfuel'
      simp only [markCachedLoop, hb, if_true, he.1, callFunc_log context.func hfunc]
      simp only [addCalls_pair, addCalls_node, addCalls_addCalls] at ih ⊢
      rw [ih, ← logOf_append]
      simp [cachedCalls, he.2, he.1]

theorem GetStamp_alone (w : World) (tree : Nat) (h : (w.index tree).dynamicIndex = none) :
    GetStamp w tree = (w.index tree).stamp := by
  simp [GetStamp, GetTree, h]

theorem sib_height_le : ∀ (fs : List Frame) (u : Shape) (f : Frame), f ∈ fs →
    f.sib.height + 1 ≤ (plug fs u).height
  | [], _, f, hf => by simp at hf
  | g :: fs, u, f, hf => by
    rcases List.mem_cons.1 hf with e | e
    · subst e
      show f.sib.height + 1 ≤ (plug fs (f.fill u)).height
      have h1 := plug_height fs (f.fill u)
      have h2 : f.sib.height + 1 ≤ (f.fill u).height := by
        cases f <;> simp [Frame.fill, Frame.sib]
      omega
    · exact sib_height_le fs (g.fill u) f e

theorem Fit_plug (nd : Nat → Node) : ∀ (fs : List Frame) (u : Shape), Fit nd (plug fs u) →
    Fit nd u ∧ ∀ f ∈ fs, Fit nd f.sib
  | [], _, h => ⟨h, fun f hf => by simp at hf⟩
  | g :: fs, u, h => by
    have ih := Fit_plug nd fs (g.fill u) h
    have h1 := (Fit_fill nd g u).1 ih.1
    refine ⟨h1.2.1, ?_⟩
    intro f hf
    rcases List.mem_cons.1 hf with e | e
    · rw [e]; exact h1.2.2
    · exact ih.2 f e

theorem Shape.height_le_leaves : ∀ t : Shape, t.height ≤ t.leaves.length
  | Shape.leaf _ => by simp
  | Shape.node _ l r => by
    have h1 := Shape.height_le_leaves l
    have h2 := Shape.height_le_leaves r
    have h3 := Shape.height_pos l
    have h4 := Shape.height_pos r
    simp only [Shape.height_node, Shape.leaves_node, List.length_append]
    omega

/-- The pairs a leaf's list gains are one per entry. -/
theorem Grown.length_le {lv : List Nat} {x : Nat} {pm pm' : Nat → Pair}
    {L L' : Nat → List Nat} {ins : List (Nat × Bool)} (g : Grown lv x pm L pm' L' ins)
    (z : Nat) (hz : z ≠ x) : (L' z).length ≤ (L z).length + 1 := by
  by_cases h : z ∈ ins.map Prod.fst
  · obtain ⟨N, _, hF⟩ := g.grow
    rw [List.mem_map] at h
    obtain ⟨e, he, rfl⟩ := h
    have he' : e ∈ ins.reverse := List.mem_reverse.2 he
    obtain ⟨i, hi, rfl⟩ := List.mem_iff_get.1 he'
    have hlen := hF.length_eq
    have := List.forall₂_iff_get.1 hF
    have h3 := this.2 i (by rw [hlen]; exact i.2) i.2
    rw [h3.2.1]
    simp
  · rw [g.keep z hz h]; omega

/-- `MarkLeaf` on a leaf of a tree without partners. -/
theorem MarkLeaf_spec (tree x : Nat) (func : QueryFunc) (hfunc : func ≠ QueryFunc.null)
    (fs : List Frame) (w : World) (lv : List Nat) (L : Nat → List Nat) (FP : List Nat)
    (fuel : Nat) (halone : (w.index tree).dynamicIndex = none)
    (inv : PairInv w tree lv L FP) (hs : Sub w.node (plug fs (Shape.leaf x)))
    (hroot : (w.node (plug fs (Shape.leaf x)).root).parent = none)
    (hnd : (plug fs (Shape.leaf x)).ids.Nodup) (hfit : Fit w.node (plug fs (Shape.leaf x)))
    (hlv : ∀ y ∈ (plug fs (Shape.leaf x)).leaves, y ∈ lv)
    (hfuel : (w.node x).stamp = (w.index tree).stamp →
      2 * (plug fs (Shape.leaf x)).height ≤ fuel)
    (hfuel2 : (w.node x).stamp ≠ (w.index tree).stamp → (L x).length ≤ fuel) :
    ∃ w' L' FP', MarkLeaf fuel x ⟨tree, none, func⟩ w = some w' ∧
      PairInv w' tree lv L' FP' ∧ PairFrame tree w w' ∧
      ((w.node x).stamp = (w.index tree).stamp →
        w'.calls = w.calls ++ logOf func (upCalls w.node x fs) ∧
        Grown lv x w.pair L w'.pair L' (upIns w.node x fs)) ∧
      ((w.node x).stamp ≠ (w.index tree).stamp →
        w' = w.addCalls (logOf func (cachedCalls w.node w.pair x (L x))) ∧ L' = L ∧
          FP' = FP) := by
  have hxl : x ∈ (plug fs (Shape.leaf x)).leaves :=
    ((plug_leaves_perm fs (Shape.leaf x)).mem_iff).2 (by simp)
  have hx : x ∈ lv := hlv x hxl
  by_cases hst : (w.node x).stamp = (w.index tree).stamp
  · have hfuel := hfuel hst
    have hs' := (Sub_plug w.node fs (Shape.leaf x)).1 hs
    have hnd' := (plug_nodup fs (Shape.leaf x)).1 hnd
    have hlperm := plug_leaves_perm fs (Shape.leaf x)
    have hlnd : ((Shape.leaf x).leaves ++ ctxLeaves fs).Nodup :=
      (hlperm.nodup_iff).1 (Shape.leaves_nodup _ hnd)
    simp only [Shape.leaves_leaf, List.singleton_append, List.nodup_cons] at hlnd
    have hfits : ∀ f ∈ fs, Fit w.node f.sib := (Fit_plug w.node fs (Shape.leaf x) hfit).2
    obtain ⟨w', L', FP', hres, inv', hfr, hcalls, hg⟩ :=
      markUpLoop_spec tree x func hfunc none lv hx (plug fs (Shape.leaf x)).height fs x w L FP
        fuel inv hs'.2 (by rw [plug_root] at hroot; exact hroot)
        (by
          refine List.nodup_cons.2 ⟨?_, hnd'.2.1⟩
          exact hnd'.2.2 x (by simp [Shape.ids]))
        hfits
        (fun y hy => hlv y ((hlperm.mem_iff).2 (List.mem_append_right _ hy)))
        hlnd.1 hlnd.2
        (fun f hf => by have := sib_height_le fs (Shape.leaf x) f hf; omega)
        (by
          have := plug_height fs (Shape.leaf x)
          simp only [Shape.height_leaf] at this
          omega)
    refine ⟨w', L', FP', ?_, inv', hfr, fun _ => ⟨hcalls, hg⟩, fun h => absurd hst h⟩
    simp only [MarkLeaf, GetStamp_alone w tree halone, hst, if_true]
    exact hres
  · have hfuel2 := hfuel2 hst
    have hl := inv.list x hx
    have he : ∀ p ∈ L x, ∃ y, y ≠ x ∧ (Ends w.pair p x y ∨ Ends w.pair p y x) := by
      intro p hp
      obtain ⟨y, _, hyx, _, h⟩ := inv.ends x hx p hp
      exact ⟨y, hyx, h⟩
    have hres := markCachedLoop_spec x ⟨tree, none, func⟩ hfunc (L x) none _ w fuel hl he hfuel2
    refine ⟨_, L, FP, ?_, inv.withCalls _, PairFrame.ofCalls tree w _, fun h => absurd h hst,
      fun _ => ⟨rfl, rfl, rfl⟩⟩
    simp only [MarkLeaf, GetStamp_alone w tree halone, hst, if_false]
    exact hres

/-- `MarkSubtree` runs `MarkLeaf` on the leaves of the subtree from `a` to `b`:
a property that every `MarkLeaf` carries from the leaves done so far to one
more leaf is carried across the whole subtree. -/
theorem MarkSubtree_fold (context : MarkContext) (all : List Nat)
    (Inv : List Nat → World → Prop) (B : Nat)
    (step : ∀ (done : List Nat) (x : Nat) (rest : List Nat) (w : World) (fuel : Nat),
      done ++ x :: rest = all → Inv done w → B ≤ fuel →
      ∃ w', MarkLeaf fuel x context w = some w' ∧ Inv (done ++ [x]) w' ∧
        ∀ i, (w'.node i).skel = (w.node i).skel) :
    ∀ (s : Shape) (done rest : List Nat) (w : World) (fuel : Nat),
      done ++ s.leaves ++ rest = all → Sub w.node s → Inv done w → s.height + B ≤ fuel →
      ∃ w', MarkSubtree fuel s.root context w = some w' ∧ Inv (done ++ s.leaves) w' ∧
        ∀ i, (w'.node i).skel = (w.node i).skel
  | Shape.leaf i, done, rest, w, fuel, hall, hs, hinv, hfuel => by
    cases fuel with
    | zero => simp at hfuel
    | succ fuel =>
    have hiobj : (w.node i).obj ≠ 0 := hs
    have hleaf : NodeIsLeaf w i = true := by simp [NodeIsLeaf, hiobj]
    obtain ⟨w', hres, hinv', hsk⟩ := step done i rest w fuel (by simpa using hall) hinv
      (by simp only [Shape.height_leaf] at hfuel; omega)
    refine ⟨w', ?_, hinv', hsk⟩
    simp only [MarkSubtree, Shape.root_leaf, hleaf, if_true]
    exact hres
  | Shape.node i l r, done, rest, w, fuel, hall, hs, hinv, hfuel => by
    cases fuel with
    | zero => simp at hfuel
    | succ fuel =>
    obtain ⟨hobj, ha, hb, _, _, hsl, hsr⟩ := hs
    have hleaf : NodeIsLeaf w i = false := by simp [NodeIsLeaf, hobj]
    simp only [Shape.height_node] at hfuel
    have hfl : l.height + B ≤ fuel := by
      have := le_max_left l.height r.height; omega
    have hfr : r.height + B ≤ fuel := by
      have := le_max_right l.height r.height; omega
    obtain ⟨w1, hres1, hinv1, hsk1⟩ :=
      MarkSubtree_fold context all Inv B step l done (r.leaves ++ rest) w fuel
        (by rw [← hall]; simp [List.append_assoc]) hsl hinv hfl
    obtain ⟨w2, hres2, hinv2, hsk2⟩ :=
      MarkSubtree_fold context all Inv B step r (done ++ l.leaves) rest w1 fuel
        (by rw [← hall]; simp [List.append_assoc]) (Sub_of_skel w.node w1.node hsk1 r hsr)
        hinv1 hfr
    refine ⟨w2, ?_, ?_, fun j => (hsk2 j).trans (hsk1 j)⟩
    · simp only [MarkSubtree, Shape.root_node, hleaf, Bool.false_eq_true, if_false, ha, hb,
        hres1, hres2]
    · simpa [List.append_assoc] using hinv2

/-! ## Congruence of the invariants -/

theorem PairInv_congr {w w' : World} {tree : Nat} {lv : List Nat} {L : Nat → List Nat}
    {FP : List Nat} (inv : PairInv w tree lv L FP) (hp : w'.pair = w.pair)
    (hn : ∀ x ∈ lv, (w'.node x).pairs = (w.node x).pairs)
    (hi : (w'.index tree).pooledPairs = (w.index tree).pooledPairs)
    (hb : w'.pairBrk = w.pairBrk) (hc : w'.pairCount = w.pairCount) :
    PairInv w' tree lv L FP := by
  refine ⟨?_, inv.nodup, ?_, ?_, inv.freeNodup, inv.fresh, ?_, ?_, ?_⟩
  · intro x hx
    rw [hp, hn x hx]
    exact inv.list x hx
  · intro x hx p hp'
    rw [hp]
    exact inv.ends x hx p hp'
  · rw [hp, hi]
    exact inv.chain
  · rw [hb]; exact inv.bound
  · rw [hb]; exact inv.boundL
  · rw [hc]; exact inv.count

theorem PairInv_congrL {w : World} {tree : Nat} {lv : List Nat} {L L' : Nat → List Nat}
    {FP : List Nat} (inv : PairInv w tree lv L FP) (h : ∀ x ∈ lv, L' x = L x) :
    PairInv w tree lv L' FP := by
  refine ⟨?_, ?_, ?_, inv.chain, inv.freeNodup, ?_, inv.bound, ?_, inv.count⟩
  · intro x hx; rw [h x hx]; exact inv.list x hx
  · intro x hx; rw [h x hx]; exact inv.nodup x hx
  · intro x hx p hp
    rw [h x hx] at hp
    obtain ⟨y, hy, hyx, hpy, he⟩ := inv.ends x hx p hp
    exact ⟨y, hy, hyx, by rw [h y hy]; exact hpy, he⟩
  · intro x hx p hp; rw [h x hx] at hp; exact inv.fresh x hx p hp
  · intro x hx p hp; rw [h x hx] at hp; exact inv.boundL x hx p hp

/-- The live leaves enter `PairInv` as a set. -/
theorem PairInv_mem {w : World} {tree : Nat} {lv lv' : List Nat} {L : Nat → List Nat}
    {FP : List Nat} (inv : PairInv w tree lv L FP) (h : ∀ x, x ∈ lv' ↔ x ∈ lv) :
    PairInv w tree lv' L FP := by
  refine ⟨?_, ?_, ?_, inv.chain, inv.freeNodup, ?_, inv.bound, ?_, inv.count⟩
  · intro x hx; exact inv.list x ((h x).1 hx)
  · intro x hx; exact inv.nodup x ((h x).1 hx)
  · intro x hx p hp
    obtain ⟨y, hy, hyx, hpy, he⟩ := inv.ends x ((h x).1 hx) p hp
    exact ⟨y, (h y).2 hy, hyx, hpy, he⟩
  · intro x hx p hp; exact inv.fresh x ((h x).1 hx) p hp
  · intro x hx p hp; exact inv.boundL x ((h x).1 hx) p hp

/-- A leaf without pairs joins the live leaves. -/
theorem PairInv_add {w : World} {tree : Nat} {lv lv' : List Nat} {L : Nat → List Nat}
    {FP : List Nat} (inv : PairInv w tree lv L FP) (x : Nat) (hx : x ∉ lv)
    (hp : (w.node x).pairs = none) (h : ∀ z, z ∈ lv' ↔ z = x ∨ z ∈ lv) :
    PairInv w tree lv' (upd L x []) FP := by
  have hL : ∀ z ∈ lv, upd L x [] z = L z := fun z hz =>
    upd_other _ _ _ _ (fun e => hx (e ▸ hz))
  have inv1 := PairInv_congrL inv hL
  refine ⟨?_, ?_, ?_, inv.chain, inv.freeNodup, ?_, inv.bound, ?_, inv.count⟩
  · intro z hz
    rcases (h z).1 hz with e | e
    · rw [e, upd_same, hp]; rfl
    · exact inv1.list z e
  · intro z hz
    rcases (h z).1 hz with e | e
    · rw [e, upd_same]; exact List.nodup_nil
    · exact inv1.nodup z e
  · intro z hz p hp'
    rcases (h z).1 hz with e | e
    · rw [e, upd_same] at hp'; simp at hp'
    · obtain ⟨y, hy, hyx, hpy, he⟩ := inv1.ends z e p hp'
      exact ⟨y, (h y).2 (Or.inr hy), hyx, hpy, he⟩
  · intro z hz p hp'
    rcases (h z).1 hz with e | e
    · rw [e, upd_same] at hp'; simp at hp'
    · exact inv1.fresh z e p hp'
  · intro z hz p hp'
    rcases (h z).1 hz with e | e
    · rw [e, upd_same] at hp'; simp at hp'
    · exact inv1.boundL z e p hp'

/-- A leaf without pairs leaves the live leaves. -/
theorem PairInv_drop {w : World} {tree : Nat} {lv lv' : List Nat} {L : Nat → List Nat}
    {FP : List Nat} (inv : PairInv w tree lv L FP) (x : Nat) (hp : L x = [])
    (h : ∀ z, z ∈ lv' ↔ z ∈ lv ∧ z ≠ x) : PairInv w tree lv' L FP := by
  refine ⟨?_, ?_, ?_, inv.chain, inv.freeNodup, ?_, inv.bound, ?_, inv.count⟩
  · intro z hz; exact inv.list z ((h z).1 hz).1
  · intro z hz; exact inv.nodup z ((h z).1 hz).1
  · intro z hz p hp'
    obtain ⟨y, hy, hyx, hpy, he⟩ := inv.ends z ((h z).1 hz).1 p hp'
    refine ⟨y, (h y).2 ⟨hy, ?_⟩, hyx, hpy, he⟩
    intro e
    rw [e, hp] at hpy
    simp at hpy
  · intro z hz p hp'; exact inv.fresh z ((h z).1 hz).1 p hp'
  · intro z hz p hp'; exact inv.boundL z ((h z).1 hz).1 p hp'

theorem NodePool_congr {w w' : World} {tree : Nat} {FN : List Nat} (pool : NodePool w tree FN)
    (hn : ∀ i ∈ FN, (w'.node i).parent = (w.node i).parent)
    (hi : (w'.index tree).pooledNodes = (w.index tree).pooledNodes)
    (hb : w.nodeBrk ≤ w'.nodeBrk) (hc : w'.nodeCount = w.nodeCount) : NodePool w' tree FN := by
  refine ⟨?_, pool.nodup, fun i h => Nat.lt_of_lt_of_le (pool.bound i h) hb, ?_⟩
  · rw [hi]
    exact Chain_congr _ _ FN _ hn pool.chain
  · rw [hc]; exact pool.count

theorem sameButParent_fit (nd nd' : Nat → Node) (t : Shape)
    (h : ∀ j ∈ t.ids, (nd j).sameButParent (nd' j)) (hf : Fit nd t) : Fit nd' t :=
  Fit_congr nd nd' t (fun j hj => (sameButParent_bb (h j hj))) hf

/-- `SubtreeRemove` of a leaf of the tree, wherever it sits. -/
theorem SubtreeRemove_any (tree x : Nat) (t : Shape) (w : World) (FN : List Nat) (fuel : Nat)
    (pool : NodePool w tree FN) (hs : Sub w.node t) (hroot : (w.node t.root).parent = none)
    (hnd : t.ids.Nodup)
    (hfit : ∀ fs, t = plug fs (Shape.leaf x) → ∀ f ∈ fs, Fit w.node f.sib)
    (hlive : ∀ i ∈ t.ids, i < w.nodeBrk ∧ i ∉ FN) (hx : x ∈ t.leaves)
    (hfuel : t.height ≤ fuel) :
    ∃ sh' w' FN', SubtreeRemove fuel (some t.root) x tree w =
        some (Option.map Shape.root sh', w') ∧
      NodePool w' tree FN' ∧
      (∀ t', sh' = some t' →
        Sub w'.node t' ∧ (w'.node t'.root).parent = none ∧ Fit w'.node t') ∧
      (sh' = none → (w'.node x).parent = none) ∧
      (x :: shLeaves sh').Perm t.leaves ∧
      (∀ i ∈ shIds sh', i ∈ t.ids) ∧ (shIds sh').Nodup ∧ x ∉ shIds sh' ∧
      (∀ i ∈ shIds sh', i ∉ FN') ∧ x ∉ FN' ∧ (∀ q ∈ FN', q ∈ FN ∨ q ∈ t.ids) ∧
      (∀ j, (w.node j).obj ≠ 0 → (w.node j).sameButParent (w'.node j)) ∧
      (∀ j, j ∉ t.ids → w'.node j = w.node j) ∧
      w'.nodeBrk = w.nodeBrk ∧ NodeFrame tree w w' := by
  obtain ⟨fs, hfs⟩ := exists_path x t hx
  subst hfs
  have hfit := hfit fs rfl
  have hxid : x ∈ (plug fs (Shape.leaf x)).ids := Shape.leaf_mem_ids _ _ hx
  have hlp := plug_leaves_perm fs (Shape.leaf x)
  cases fs with
  | nil =>
    refine ⟨none, w, FN, ?_, pool, ?_, (fun _ => hroot), ?_, ?_, List.nodup_nil,
      (by simp [shIds]), ?_, (hlive x hxid).2,
      fun q hq => Or.inl hq, fun j _ => sameButParent_refl _, fun _ _ => rfl, rfl,
      NodeFrame.nodeRefl tree w⟩
    · exact SubtreeRemove_root tree x fuel w
    · intro t' h; cases h
    · simp [shLeaves, plug]
    · intro i hi; simp [shIds] at hi
    · intro i hi; simp [shIds] at hi
  | cons f fs' =>
  cases fs' with
  | nil =>
    obtain ⟨w', hres, pool', hsub, hpar, hoth, hsame, hbrk, hfr⟩ :=
      SubtreeRemove_one tree x f w FN fuel pool hs hroot hnd hlive
    have hs' := (Sub_plug w.node [f] (Shape.leaf x)).1 hs
    have hfobj : (w.node f.id).obj = 0 := CtxSub_obj w.node [f] x hs'.2 f.id (by simp)
    have hnd' := (plug_nodup [f] (Shape.leaf x)).1 hnd
    have hfits := hfit f (by simp)
    have hsibsub : ∀ i ∈ f.sib.ids, i ∈ (plug [f] (Shape.leaf x)).ids := by
      intro i hi
      exact (plug_mem_ids _ _ _).2 (Or.inr (by simp [ctxIds, hi]))
    have hfid : f.id ∈ (plug [f] (Shape.leaf x)).ids :=
      (plug_mem_ids _ _ _).2 (Or.inr (by simp [ctxIds]))
    have hndc : (f.id :: (f.sib.ids ++ [])).Nodup := hnd'.2.1
    simp only [List.append_nil, List.nodup_cons] at hndc
    refine ⟨some f.sib, w', f.id :: FN, hres, pool', ?_, (fun h => by cases h), ?_, hsibsub,
      hndc.2,
      (fun h => hnd'.2.2 x (by simp [Shape.ids]) (by simp [ctxIds, shIds] at h ⊢; exact Or.inr h)),
      ?_, ?_, ?_, ?_, ?_, hbrk, hfr⟩
    · intro t' ht'
      cases ht'
      refine ⟨hsub, hpar, sameButParent_fit w.node w'.node f.sib ?_ hfits⟩
      intro j hj
      exact hsame j (fun e => hndc.1 (e ▸ hj))
    · refine List.Perm.trans ?_ hlp.symm
      simp [shLeaves, ctxLeaves]
    · intro i hi hF
      rcases List.mem_cons.1 hF with e | e
      · exact hndc.1 (e ▸ hi)
      · exact (hlive i (hsibsub i hi)).2 e
    · intro hF
      rcases List.mem_cons.1 hF with e | e
      · exact hnd'.2.2 x (by simp [Shape.ids]) (by simp [ctxIds, e])
      · exact (hlive x hxid).2 e
    · intro q hq
      rcases List.mem_cons.1 hq with e | e
      · right; rw [e]; exact hfid
      · left; exact e
    · intro j hj
      exact hsame j (fun e => hj (e ▸ hfobj))
    · intro j hj
      refine hoth j (fun e => hj (e ▸ hfid)) (fun e => hj ?_)
      rw [e]; exact hsibsub _ (Shape.root_mem_ids _)
  | cons f2 rest =>
    rename' f => f1
    have hh := plug_height (f1 :: f2 :: rest) (Shape.leaf x)
    simp only [List.length_cons, Shape.height_leaf] at hh
    obtain ⟨w', hres, pool', hsub, hpar, hfit', hoth, hsame, hbrk, hfr⟩ :=
      SubtreeRemove_deep tree x f1 f2 rest w FN fuel pool hs hroot hnd
        hfit hlive (by simp only [List.length_cons]; omega)
    have hnd' := (plug_nodup (f1 :: f2 :: rest) (Shape.leaf x)).1 hnd
    have hndc := hnd'.2.1
    have hA := List.nodup_cons.1 hndc
    have hB := List.nodup_append.1 hA.2
    have hsubset : ∀ i ∈ (plug (f2 :: rest) f1.sib).ids,
        i ∈ (plug (f1 :: f2 :: rest) (Shape.leaf x)).ids := by
      intro i hi
      rcases (plug_mem_ids _ _ _).1 hi with h | h
      · exact (plug_mem_ids _ _ _).2 (Or.inr (by
          simp only [ctxIds]; exact List.mem_cons_of_mem _ (List.mem_append_left _ h)))
      · exact (plug_mem_ids _ _ _).2 (Or.inr (by
          simp only [ctxIds]; exact List.mem_cons_of_mem _ (List.mem_append_right _ h)))
    have hf1 : f1.id ∈ (plug (f1 :: f2 :: rest) (Shape.leaf x)).ids :=
      (plug_mem_ids _ _ _).2 (Or.inr (by simp [ctxIds]))
    have hf1not : f1.id ∉ (plug (f2 :: rest) f1.sib).ids := by
      intro hi
      rcases (plug_mem_ids _ _ _).1 hi with h | h
      · exact hA.1 (List.mem_append_left _ h)
      · exact hA.1 (List.mem_append_right _ h)
    have hxnot : x ∉ shIds (some (plug (f2 :: rest) f1.sib)) := by
      intro hi
      have hx_ctx := hnd'.2.2 x (by simp [Shape.ids])
      rcases (plug_mem_ids _ _ _).1 hi with h | h
      · exact hx_ctx (by
          simp only [ctxIds]; exact List.mem_cons_of_mem _ (List.mem_append_left _ h))
      · exact hx_ctx (by
          simp only [ctxIds]; exact List.mem_cons_of_mem _ (List.mem_append_right _ h))
    refine ⟨some (plug (f2 :: rest) f1.sib), w', f1.id :: FN, hres, pool', ?_,
      (fun h => by cases h), ?_, hsubset, ?_, hxnot, ?_, ?_, ?_, hsame, ?_, hbrk, hfr⟩
    · intro t' ht'
      cases ht'
      exact ⟨hsub, hpar, hfit'⟩
    · refine List.Perm.trans ?_ hlp.symm
      have := plug_leaves_perm (f2 :: rest) f1.sib
      simp only [shLeaves, Shape.leaves_leaf, List.singleton_append, List.perm_cons]
      exact this
    · exact (plug_nodup (f2 :: rest) f1.sib).2 ⟨hB.1, hB.2.1, fun j hj hj' => hB.2.2 hj hj'⟩
    · intro i hi hF
      rcases List.mem_cons.1 hF with e | e
      · exact hf1not (e ▸ hi)
      · exact (hlive i (hsubset i hi)).2 e
    · intro hF
      rcases List.mem_cons.1 hF with e | e
      · exact hnd'.2.2 x (by simp [Shape.ids]) (by simp [ctxIds, e])
      · exact (hlive x hxid).2 e
    · intro q hq
      rcases List.mem_cons.1 hq with e | e
      · right; rw [e]; exact hf1
      · left; exact e
    · intro j hj
      refine hoth j (fun e => hj (e ▸ hf1)) (fun e => hj ?_) (fun hm => hj ?_)
      · rw [e]
        exact (plug_mem_ids _ _ _).2 (Or.inr (by
          simp only [ctxIds]
          exact List.mem_cons_of_mem _ (List.mem_append_left _ (Shape.root_mem_ids _))))
      · exact (plug_mem_ids _ _ _).2 (Or.inr (by
          simp only [ctxIds]
          exact List.mem_cons_of_mem _ (List.mem_append_right _
            (map_id_subset_ctxIds _ _ hm))))

/-- `SubtreeInsert` of a fresh leaf into a tree that may be empty. -/
theorem SubtreeInsert_any (tree x : Nat) (sh : Option Shape) (w : World) (FN : List Nat)
    (fuel : Nat) (pool : NodePool w tree FN)
    (hs : ∀ t, sh = some t → Sub w.node t ∧ Fit w.node t)
    (hnd : (shIds sh).Nodup) (hx : x ∉ shIds sh) (hxobj : (w.node x).obj ≠ 0)
    (hlive : ∀ i ∈ x :: shIds sh, i < w.nodeBrk ∧ i ∉ FN)
    (hfuel : (shLeaves sh).length ≤ fuel) :
    ∃ t' w' FN', SubtreeInsert fuel (Option.map Shape.root sh) x tree w = some (t'.root, w') ∧
      NodePool w' tree FN' ∧ Sub w'.node t' ∧
      ((sh = none → (w.node x).parent = none) →
        (∀ i l r, sh = some (Shape.node i l r) → (w.node i).parent = none) →
        (w'.node t'.root).parent = none) ∧
      Fit w'.node t' ∧ t'.ids.Nodup ∧ t'.leaves.Perm (x :: shLeaves sh) ∧
      (∀ i ∈ t'.ids, i < w'.nodeBrk ∧ i ∉ FN') ∧
      (∀ i ∈ t'.ids, i = x ∨ i ∈ shIds sh ∨ i ∈ FN ∨ w.nodeBrk ≤ i) ∧
      (∀ q ∈ FN', q ∈ FN ∨ w.nodeBrk ≤ q) ∧
      (∀ i, i < w.nodeBrk → i ∉ FN → i ∉ shIds sh → i ≠ x → w'.node i = w.node i) ∧
      (∀ i ∈ x :: shLeaves sh, (w.node i).sameButParent (w'.node i)) ∧
      NodeFrame tree w w' := by
  cases sh with
  | none =>
    refine ⟨Shape.leaf x, w, FN, ?_, pool, hxobj, fun h _ => h rfl, trivial, ?_, ?_, ?_, ?_,
      fun q hq => Or.inl hq, fun _ _ _ _ _ => rfl, fun _ _ => sameButParent_refl _,
      NodeFrame.nodeRefl tree w⟩
    · cases fuel <;> rfl
    · simp [Shape.ids, Shape.inner]
    · simp [shLeaves]
    · intro i hi
      simp only [Shape.ids, Shape.inner, Shape.leaves_leaf, List.nil_append,
        List.mem_singleton] at hi
      rw [hi]; exact hlive x (List.mem_cons_self _ _)
    · intro i hi
      simp only [Shape.ids, Shape.inner, Shape.leaves_leaf, List.nil_append,
        List.mem_singleton] at hi
      exact Or.inl hi
  | some t =>
    obtain ⟨hsub, hfit⟩ := hs t rfl
    simp only [shIds] at hnd hx hlive
    simp only [shLeaves] at hfuel
    obtain ⟨n, w', FN', hres, pool', hnF, hnb, hnfresh, hFsub, hsub', hfit', _, hpar, hoth,
      hsame, hfr⟩ :=
      SubtreeInsert_spec tree x t w FN fuel pool hsub hnd hx hxobj hlive
        (le_trans (Shape.height_le_leaves t) hfuel)
    have hnt : n ∉ t.ids := by
      intro h
      rcases hnfresh with e | e
      · exact (hlive n (List.mem_cons_of_mem _ h)).2 e
      · have := (hlive n (List.mem_cons_of_mem _ h)).1; omega
    have hnx : n ≠ x := by
      intro h
      rcases hnfresh with e | e
      · exact (hlive x (List.mem_cons_self _ _)).2 (h ▸ e)
      · have := (hlive x (List.mem_cons_self _ _)).1; omega
    refine ⟨insShape w.node x n t, w', FN', hres, pool', hsub', ?_, hfit' hfit,
      insShape_nodup w.node x n t hnd hx hnt hnx, insShape_leaves_perm w.node x n t, ?_, ?_,
      hFsub, ?_, hsame, hfr⟩
    · intro _ hroot
      rw [hpar]
      cases t with
      | leaf i => rfl
      | node i l r => exact hroot i l r rfl
    · intro i hi
      rcases (insShape_mem_ids w.node x n t i).1 hi with e | e | e
      · rw [e]; exact ⟨hnb, hnF⟩
      · rw [e]
        refine ⟨Nat.lt_of_lt_of_le (hlive x (List.mem_cons_self _ _)).1 hfr.nodeBrk, ?_⟩
        intro hF
        rcases hFsub x hF with h | h
        · exact (hlive x (List.mem_cons_self _ _)).2 h
        · have := (hlive x (List.mem_cons_self _ _)).1; omega
      · have hl := hlive i (List.mem_cons_of_mem _ e)
        refine ⟨Nat.lt_of_lt_of_le hl.1 hfr.nodeBrk, ?_⟩
        intro hF
        rcases hFsub i hF with h | h
        · exact hl.2 h
        · omega
    · intro i hi
      rcases (insShape_mem_ids w.node x n t i).1 hi with e | e | e
      · rcases hnfresh with h | h
        · exact Or.inr (Or.inr (Or.inl (e ▸ h)))
        · exact Or.inr (Or.inr (Or.inr (e ▸ h)))
      · exact Or.inl e
      · exact Or.inr (Or.inl e)
    · intro i hi hiF hit hix
      refine hoth i hi ?_ hit hix
      intro e
      rcases hnfresh with h | h
      · exact hiF (e ▸ h)
      · omega

theorem SameCfg.cfgSame (t : cpBBTree) : SameCfg t t := ⟨rfl, rfl, rfl, rfl, rfl⟩

theorem SameCfg.cfgComp {t1 t2 t3 : cpBBTree} (h1 : SameCfg t1 t2) (h2 : SameCfg t2 t3) :
    SameCfg t1 t3 :=
  ⟨h2.1.trans h1.1, h2.2.1.trans h1.2.1, h2.2.2.1.trans h1.2.2.1,
    h2.2.2.2.1.trans h1.2.2.2.1, h2.2.2.2.2.trans h1.2.2.2.2⟩

theorem SameCfg.of_core {t t' : cpBBTree} (h : t'.core = t.core) : SameCfg t t' :=
  ⟨core_isTree h, core_bbfunc h, core_staticIndex h, core_dynamicIndex h, core_velocityFunc h⟩

theorem Outside.outSame (tree : Nat) (w : World) : Outside tree w w :=
  ⟨SameCfg.cfgSame _, fun _ _ => rfl, rfl, rfl, rfl, rfl, Nat.le_refl _, Nat.le_refl _⟩

theorem Outside.outComp {tree : Nat} {w1 w2 w3 : World} (h1 : Outside tree w1 w2)
    (h2 : Outside tree w2 w3) : Outside tree w1 w3 :=
  ⟨h1.cfg.cfgComp h2.cfg, fun j hj => (h2.other j hj).trans (h1.other j hj),
    h2.indexBrk.trans h1.indexBrk, h2.nodeCount.trans h1.nodeCount,
    h2.pairCount.trans h1.pairCount, h2.external.trans h1.external,
    Nat.le_trans h1.nodeBrk h2.nodeBrk, Nat.le_trans h1.pairBrk h2.pairBrk⟩

theorem NodeFrame.toOutside {tree : Nat} {w w' : World} (h : NodeFrame tree w w') :
    Outside tree w w' :=
  ⟨SameCfg.of_core (h.core tree), h.other, h.indexBrk, h.nodeCount, h.pairCount, h.external,
    h.nodeBrk, Nat.le_of_eq h.pairBrk.symm⟩

theorem PairFrame.pairOutside {tree : Nat} {w w' : World} (h : PairFrame tree w w') :
    Outside tree w w' :=
  ⟨SameCfg.of_core (h.core tree), h.other, h.indexBrk, h.nodeCount, h.pairCount, h.external,
    Nat.le_of_eq h.nodeBrk.symm, h.pairBrk⟩

/-- `Sub` reads only the fields `obj`, `a`, `b` and `parent`. -/
theorem Sub_of_links (nd nd' : Nat → Node)
    (h : ∀ i, (nd' i).obj = (nd i).obj ∧ (nd' i).a = (nd i).a ∧ (nd' i).b = (nd i).b ∧
      (nd' i).parent = (nd i).parent) :
    ∀ t : Shape, Sub nd t → Sub nd' t
  | Shape.leaf i, hs => by
    show (nd' i).obj ≠ 0
    rw [(h i).1]; exact hs
  | Shape.node i l r, hs => by
    obtain ⟨h1, h2, h3, h4, h5, h6, h7⟩ := hs
    refine ⟨?_, ?_, ?_, ?_, ?_, Sub_of_links nd nd' h l h6, Sub_of_links nd nd' h r h7⟩
    · rw [(h i).1]; exact h1
    · rw [(h i).2.1]; exact h2
    · rw [(h i).2.2.1]; exact h3
    · rw [(h _).2.2.2]; exact h4
    · rw [(h _).2.2.2]; exact h5

theorem GetBB_congr (w w' : World) (tree : Nat) (h : SameCfg (w.index tree) (w'.index tree))
    (obj : Nat) : GetBB w' tree obj = GetBB w tree obj := by
  unfold GetBB
  rw [h.2.1, h.2.2.2.2]

theorem grow_valid (l r v : ℚ) (h : l ≤ r) :
    l + min (-((r - l) * (1 / 10))) v ≤ r + max ((r - l) * (1 / 10)) v := by
  have h0 : 0 ≤ (r - l) * (1 / 10) := mul_nonneg (sub_nonneg.2 h) (by norm_num)
  have a1 : min (-((r - l) * (1 / 10))) v ≤ 0 :=
    le_trans (min_le_left _ _) (by linarith)
  have a2 : 0 ≤ max ((r - l) * (1 / 10)) v := le_trans h0 (le_max_left _ _)
  linarith

theorem GetBB_valid (w : World) (tree : Nat) (obj : Nat)
    (h : cpBBValid ((w.index tree).bbfunc obj)) : cpBBValid (GetBB w tree obj) := by
  unfold GetBB
  cases (w.index tree).velocityFunc with
  | none => exact h
  | some vf =>
    obtain ⟨h1, h2⟩ := h
    exact ⟨grow_valid _ _ _ h1, grow_valid _ _ _ h2⟩

/-- `LeafNew` takes a node from the pool and fills in a leaf. -/
theorem LeafNew_spec (tree obj : Nat) (w : World) (FN : List Nat) (pool : NodePool w tree FN) :
    ∃ x w' FN', LeafNew tree obj w = some (x, w') ∧ NodePool w' tree FN' ∧
      x ∉ FN' ∧ x < w'.nodeBrk ∧ (x ∈ FN ∨ w.nodeBrk ≤ x) ∧
      (∀ q ∈ FN', q ∈ FN ∨ w.nodeBrk ≤ q) ∧
      (w'.node x).obj = obj ∧ (w'.node x).bb = GetBB w tree obj ∧
      (w'.node x).parent = none ∧ (w'.node x).stamp = 0 ∧ (w'.node x).pairs = none ∧
      (∀ q, q < w.nodeBrk → q ≠ x → w'.node q = w.node q) ∧
      w'.pair = w.pair ∧ w'.calls = w.calls ∧ w'.pairBrk = w.pairBrk ∧
      (∀ j, (w'.index j).core = (w.index j).core) ∧
      (∀ j, (w'.index j).pooledPairs = (w.index j).pooledPairs) ∧
      Outside tree w w' := by
  obtain ⟨x, w1, FN', hres, pool1, hxF, hxb, hxfresh, hFsub, hold, hfr⟩ :=
    NodeFromPool_spec tree w FN pool
  refine ⟨x, (w1.setNode x
      { obj := obj, bb := GetBB w tree obj, parent := none, a := (w1.node x).a,
        b := (w1.node x).b, stamp := 0, pairs := none }), FN', ?_, ?_, hxF, hxb, hxfresh, hFsub,
    ?_, ?_, ?_, ?_, ?_, ?_, hfr.pair, hfr.calls, hfr.pairBrk, hfr.core, hfr.pooledPairs,
    ⟨hfr.toOutside.cfg, hfr.toOutside.other, hfr.toOutside.indexBrk, hfr.toOutside.nodeCount,
      hfr.toOutside.pairCount, hfr.toOutside.external, hfr.toOutside.nodeBrk, hfr.toOutside.pairBrk⟩⟩
  · have hbb : GetBB (w1.setNode x { w1.node x with obj := obj }) tree obj = GetBB w tree obj :=
      GetBB_congr w _ tree (SameCfg.of_core (hfr.core tree)) obj
    simp only [LeafNew, hres]
    rw [hbb]
    simp only [setNode_node, upd_same]
    congr 2
    unfold World.setNode
    simp only [World.mk.injEq, and_true, true_and]
    funext j
    by_cases h : j = x
    · subst h; simp [upd]
    · simp [upd, h]
  · refine NodePool_congr pool1 ?_ rfl (Nat.le_refl _) rfl
    intro i hi
    have : i ≠ x := fun e => hxF (e ▸ hi)
    simp [upd_other _ _ _ _ this]
  · simp
  · simp
  · simp
  · simp
  · simp
  · intro q hq hqx
    simp only [setNode_node, upd_other _ _ _ _ hqx]
    exact hold q hq

theorem TreeOK.weaken {w : World} {tree : Nat} {sh : Option Shape} {L : Nat → List Nat}
    {FN FP : List Nat} (h : TreeOK 0 w tree sh L FN FP) : TreeOK 1 w tree sh L FN FP :=
  ⟨h.isTree, h.noStatic, h.noDynamic, h.root, h.nodup, h.fit, h.pool, h.live, h.pairs,
    fun x hx => Nat.lt_succ_of_lt (h.stamps x hx), h.valid, h.validF⟩

theorem RootRep_congr (w w' : World) (tree : Nat) (sh : Option Shape)
    (hr : (w'.index tree).root = (w.index tree).root)
    (hn : ∀ i, (w'.node i).obj = (w.node i).obj ∧ (w'.node i).a = (w.node i).a ∧
      (w'.node i).b = (w.node i).b ∧ (w'.node i).parent = (w.node i).parent)
    (h : RootRep w tree sh) : RootRep w' tree sh := by
  cases sh with
  | none => exact hr.trans h
  | some t =>
    obtain ⟨h1, h2, h3⟩ := h
    exact ⟨hr.trans h1, by rw [(hn _).2.2.2]; exact h2, Sub_of_links w.node w'.node hn t h3⟩

theorem Listed_congr (w w' : World) (tree : Nat) (sh : Option Shape)
    (h : (w'.index tree).leaves = (w.index tree).leaves) (hl : Listed w tree sh) :
    Listed w' tree sh := by
  unfold Listed at hl ⊢
  rw [h]; exact hl

theorem IncrementStamp_alone (tree : Nat) (w : World)
    (h : (w.index tree).dynamicIndex = none) :
    IncrementStamp tree w =
      w.setIndex tree { w.index tree with stamp := (w.index tree).stamp + 1 } := by
  simp [IncrementStamp, GetTree, h]

/-- `IncrementStamp` closes an operation: every leaf stamp is below the new
tree stamp. -/
theorem IncrementStamp_ok {w : World} {tree : Nat} {sh : Option Shape} {L : Nat → List Nat}
    {FN FP : List Nat} (h : TreeOK 1 w tree sh L FN FP) :
    TreeOK 0 (IncrementStamp tree w) tree sh L FN FP := by
  rw [IncrementStamp_alone tree w h.noDynamic]
  refine ⟨?_, ?_, ?_, ?_, h.nodup, h.fit, ?_, h.live, ?_, ?_, h.valid, ?_⟩
  · simpa using h.isTree
  · simpa using h.noStatic
  · simpa using h.noDynamic
  · exact RootRep_congr w _ tree sh (by simp) (fun _ => ⟨rfl, rfl, rfl, rfl⟩) h.root
  · exact NodePool_congr h.pool (fun _ _ => rfl) (by simp) (Nat.le_refl _) rfl
  · exact PairInv_congr h.pairs rfl (fun _ _ => rfl) (by simp) rfl rfl
  · intro x hx
    have := h.stamps x hx
    simpa using this
  · simpa using h.validF

theorem TreeOK_of_pairFrame {k : Nat} {w w' : World} {tree : Nat} {sh : Option Shape}
    {L L' : Nat → List Nat} {FN FP FP' : List Nat} (h : TreeOK k w tree sh L FN FP)
    (hfr : PairFrame tree w w') (inv : PairInv w' tree (shLeaves sh) L' FP') :
    TreeOK k w' tree sh L' FN FP' := by
  have hc := hfr.core tree
  have hl : ∀ i, (w'.node i).obj = (w.node i).obj ∧ (w'.node i).a = (w.node i).a ∧
      (w'.node i).b = (w.node i).b ∧ (w'.node i).parent = (w.node i).parent := fun i =>
    ⟨skel_obj (hfr.skel i), skel_a (hfr.skel i), skel_b (hfr.skel i), skel_parent (hfr.skel i)⟩
  refine ⟨?_, ?_, ?_, ?_, h.nodup, ?_, NodePool_of_pairFrame tree w w' FN h.pool hfr, ?_,
    inv, ?_, ?_, ?_⟩
  · rw [core_isTree hc]; exact h.isTree
  · rw [core_staticIndex hc]; exact h.noStatic
  · rw [core_dynamicIndex hc]; exact h.noDynamic
  · exact RootRep_congr w w' tree sh (core_root hc) hl h.root
  · intro t ht
    exact Fit_of_skel w.node w'.node hfr.skel t (h.fit t ht)
  · rw [hfr.nodeBrk]; exact h.live
  · intro x hx
    rw [skel_stamp (hfr.skel x), core_stamp hc]
    exact h.stamps x hx
  · intro x hx
    rw [skel_bb (hfr.skel x)]
    exact h.valid x hx
  · rw [core_bbfunc hc]; exact h.validF

/-- Stamping a leaf with the current tree stamp. -/
theorem TreeOK_restamp {w : World} {tree : Nat} {sh : Option Shape} {L : Nat → List Nat}
    {FN FP : List Nat} (h : TreeOK 1 w tree sh L FN FP) (x : Nat) :
    TreeOK 1 (w.setNode x { w.node x with stamp := (w.index tree).stamp }) tree sh L FN FP := by
  have hl : ∀ i, ((w.setNode x { w.node x with stamp := (w.index tree).stamp }).node i).obj =
        (w.node i).obj ∧
      ((w.setNode x { w.node x with stamp := (w.index tree).stamp }).node i).a = (w.node i).a ∧
      ((w.setNode x { w.node x with stamp := (w.index tree).stamp }).node i).b = (w.node i).b ∧
      ((w.setNode x { w.node x with stamp := (w.index tree).stamp }).node i).parent =
        (w.node i).parent := by
    intro i
    by_cases e : i = x
    · subst e; simp
    · simp [upd_other _ _ _ _ e]
  have hbb : ∀ i, ((w.setNode x { w.node x with stamp := (w.index tree).stamp }).node i).bb =
      (w.node i).bb := by
    intro i
    by_cases e : i = x
    · subst e; simp
    · simp [upd_other _ _ _ _ e]
  have hpr : ∀ i, ((w.setNode x { w.node x with stamp := (w.index tree).stamp }).node i).pairs =
      (w.node i).pairs := by
    intro i
    by_cases e : i = x
    · subst e; simp
    · simp [upd_other _ _ _ _ e]
  refine ⟨h.isTree, h.noStatic, h.noDynamic, ?_, h.nodup, ?_, ?_, h.live, ?_, ?_, ?_,
    h.validF⟩
  · exact RootRep_congr w _ tree sh rfl hl h.root
  · intro t ht
    exact Fit_congr w.node _ t (fun i _ => hbb i) (h.fit t ht)
  · exact NodePool_congr h.pool (fun i _ => (hl i).2.2.2) rfl (Nat.le_refl _) rfl
  · exact PairInv_congr h.pairs rfl (fun i _ => hpr i) rfl rfl rfl
  · intro y hy
    by_cases e : y = x
    · subst e
      simp
    · simp only [setNode_node, upd_other _ _ _ _ e, setNode_index]
      exact h.stamps y hy
  · intro y hy
    rw [hbb y]
    exact h.valid y hy

theorem shLeaves_sub_shIds (sh : Option Shape) (y : Nat) (h : y ∈ shLeaves sh) : y ∈ shIds sh := by
  cases sh with
  | none => simp [shLeaves] at h
  | some t => exact Shape.leaf_mem_ids t y h

/-- Attaching the detached leaf: `SubtreeInsert` followed by the store to
`tree->root`. -/
theorem attach_spec (tree x : Nat) (sh : Option Shape) (w : World) (L : Nat → List Nat)
    (FN FP : List Nat) (fuel : Nat) (d : Detached w tree sh x L FN FP)
    (hfuel : (shLeaves sh).length ≤ fuel) :
    ∃ t' w3 FN', SubtreeInsert fuel (Option.map Shape.root sh) x tree w = some (t'.root, w3) ∧
      TreeOK 1 (w3.setIndex tree { w3.index tree with root := some t'.root }) tree (some t') L
        FN' FP ∧
      t'.leaves.Perm (x :: shLeaves sh) ∧ NodeFrame tree w w3 ∧
      (∀ y ∈ x :: shLeaves sh, (w.node y).sameButParent (w3.node y)) ∧
      (∀ q ∈ FN', q ∈ FN ∨ w.nodeBrk ≤ q) ∧
      (∀ i ∈ t'.ids, i = x ∨ i ∈ shIds sh ∨ i ∈ FN ∨ w.nodeBrk ≤ i) := by
  have hnd := List.nodup_cons.1 d.nodup
  obtain ⟨t', w3, FN', hres, pool', hsub, hroot, hfit, hnd', hperm, hlive', hids, hFsub, _,
    hsame, hfr⟩ :=
    SubtreeInsert_any tree x sh w FN fuel d.pool
      (fun t ht => ⟨(d.sub t ht).1, (d.sub t ht).2.2⟩) hnd.2 hnd.1 d.xobj d.live hfuel
  have hc := hfr.core tree
  have hlvb : ∀ y ∈ x :: shLeaves sh, y < w.nodeBrk := by
    intro y hy
    rcases List.mem_cons.1 hy with e | e
    · rw [e]; exact (d.live x (List.mem_cons_self _ _)).1
    · exact (d.live y (List.mem_cons_of_mem _ (shLeaves_sub_shIds sh y e))).1
  refine ⟨t', w3, FN', hres, ⟨?_, ?_, ?_, ?_, hnd', ?_, ?_, hlive', ?_, ?_, ?_, ?_⟩, hperm,
    hfr, hsame, hFsub, hids⟩
  · simp only [setIndex_index, upd_same]
    rw [core_isTree hc]; exact d.isTree
  · simp only [setIndex_index, upd_same]
    rw [core_staticIndex hc]; exact d.noStatic
  · simp only [setIndex_index, upd_same]
    rw [core_dynamicIndex hc]; exact d.noDynamic
  · refine ⟨by simp, hroot d.xpar (fun i l r h => (d.sub _ h).2.1), hsub⟩
  · intro t ht
    cases ht
    exact hfit
  · exact NodePool_congr pool' (fun _ _ => rfl) (by simp) (Nat.le_refl _) rfl
  · have inv3 := PairInv_of_nodeFrame tree w w3 _ L FP d.pairs hfr hlvb
    have inv4 : PairInv (w3.setIndex tree { w3.index tree with root := some t'.root }) tree
        (x :: shLeaves sh) L FP :=
      PairInv_congr inv3 rfl (fun _ _ => rfl) (by simp) rfl rfl
    exact PairInv_mem inv4 (fun y => hperm.mem_iff)
  · intro y hy
    have hy' : y ∈ x :: shLeaves sh := hperm.mem_iff.1 hy
    simp only [setIndex_index, upd_same, setIndex_node]
    rw [hfr.stamp y (hlvb y hy'), core_stamp hc]
    exact d.stamps y hy'
  · intro y hy
    have hy' : y ∈ x :: shLeaves sh := hperm.mem_iff.1 hy
    simp only [setIndex_node]
    rw [sameButParent_bb (hsame y hy')]
    exact d.valid y hy'
  · simp only [setIndex_index, upd_same]
    rw [core_bbfunc hc]; exact d.validF

theorem RootRep_root (w : World) (tree : Nat) (sh : Option Shape) (h : RootRep w tree sh) :
    (w.index tree).root = Option.map Shape.root sh := by
  cases sh with
  | none => exact h
  | some t => exact h.1

theorem RootRep_sub (w : World) (tree : Nat) (sh : Option Shape) (h : RootRep w tree sh) :
    ∀ t, sh = some t → Sub w.node t ∧ (w.node t.root).parent = none := by
  intro t ht
  subst ht
  exact ⟨h.2.2, h.2.1⟩

theorem GetRootIfTree_none (w : World) : GetRootIfTree w none = none := rfl

/-- `LeafAddPairs` on a leaf that carries the current stamp: the walk up the
tree pairs it with every leaf it intersects. -/
theorem LeafAddPairs_spec (tree x : Nat) (fs : List Frame) (w : World) (L : Nat → List Nat)
    (FN FP : List Nat) (fuel : Nat)
    (ok : TreeOK 1 w tree (some (plug fs (Shape.leaf x))) L FN FP)
    (hst : (w.node x).stamp = (w.index tree).stamp)
    (hfuel : 2 * (plug fs (Shape.leaf x)).leaves.length ≤ fuel) :
    ∃ w' L' FP', LeafAddPairs fuel x tree w = some w' ∧
      TreeOK 1 w' tree (some (plug fs (Shape.leaf x))) L' FN FP' ∧ PairFrame tree w w' ∧
      w'.calls = w.calls ∧
      Grown (plug fs (Shape.leaf x)).leaves x w.pair L w'.pair L' (upIns w.node x fs) := by
  have hh := Shape.height_le_leaves (plug fs (Shape.leaf x))
  obtain ⟨w', L', FP', hres, inv', hfr, hmoved, _⟩ :=
    MarkLeaf_spec tree x QueryFunc.void (by decide) fs w _ L FP fuel
      ok.noDynamic ok.pairs ok.root.2.2 ok.root.2.1 ok.nodup (ok.fit _ rfl) (fun y hy => hy)
      (fun _ => by omega) (fun h => absurd hst h)
  obtain ⟨hcalls, hg⟩ := hmoved hst
  refine ⟨w', L', FP', ?_, TreeOK_of_pairFrame ok hfr inv', hfr, ?_, hg⟩
  · simp only [LeafAddPairs, ok.noDynamic, ok.noStatic, GetRootIfTree_none]
    exact hres
  · rw [hcalls]; simp [logOf]

/-- The state after `cpHashSetInsert` minted the leaf of a new object. -/
theorem hashInsert_spec (tree obj hashid : Nat) (w : World) (sh : Option Shape)
    (L : Nat → List Nat) (FN FP : List Nat) (wf : TreeOK 0 w tree sh L FN FP) (hobj : obj ≠ 0)
    (hmiss : cpHashSetFind w tree hashid obj = none) :
    ∃ x w2 FN2, cpHashSetInsert tree hashid obj w = some (x, w2) ∧
      Detached w2 tree sh x (upd L x []) FN2 FP ∧
      (w2.index tree).root = Option.map Shape.root sh ∧
      (w2.index tree).leaves = (hashid, x) :: (w.index tree).leaves ∧
      (w2.index tree).stamp = (w.index tree).stamp ∧
      (w2.node x).obj = obj ∧ (w2.node x).bb = GetBB w tree obj ∧ (w2.node x).stamp = 0 ∧
      (∀ y ∈ shIds sh, w2.node y = w.node y) ∧
      w2.pair = w.pair ∧ w2.calls = w.calls ∧ w2.pairBrk = w.pairBrk ∧ Outside tree w w2 := by
  obtain ⟨x, w1, FN1, hres, pool1, hxF, hxb, hxfresh, hFsub, ho, hbb, hpar, hstamp, hpairs, hold,
    hpair, hcalls, hpbrk, hcore, hpp, hout⟩ := LeafNew_spec tree obj w FN wf.pool
  have hc := hcore tree
  have hxids : x ∉ shIds sh := by
    intro h
    rcases hxfresh with e | e
    · exact (wf.live x h).2 e
    · have := (wf.live x h).1; omega
  have hxl : x ∉ shLeaves sh := fun h => hxids (shLeaves_sub_shIds sh x h)
  have hsame : ∀ y ∈ shIds sh, w1.node y = w.node y := fun y hy =>
    hold y (wf.live y hy).1 (fun e => hxids (e ▸ hy))
  refine ⟨x, w1.setIndex tree
      { w1.index tree with leaves := (hashid, x) :: (w1.index tree).leaves }, FN1, ?_,
    ⟨?_, ?_, ?_, ?_, List.nodup_cons.2 ⟨hxids, wf.nodup⟩, ?_, fun _ => hpar, ?_, ?_, ?_, ?_, ?_,
      ?_⟩, ?_, ?_, ?_, ho, hbb, hstamp, hsame, hpair, hcalls, hpbrk, ?_⟩
  · simp only [cpHashSetInsert, hmiss, hres]
  · simp only [setIndex_index, upd_same]; rw [core_isTree hc]; exact wf.isTree
  · simp only [setIndex_index, upd_same]; rw [core_staticIndex hc]; exact wf.noStatic
  · simp only [setIndex_index, upd_same]; rw [core_dynamicIndex hc]; exact wf.noDynamic
  · intro t ht
    subst ht
    have hr := wf.root
    refine ⟨Sub_congr_eq w.node _ t wf.nodup hsame hr.2.2, ?_,
      Fit_congr w.node _ t (fun i hi => by rw [setIndex_node, hsame i hi]) (wf.fit t rfl)⟩
    rw [setIndex_node, hsame _ (Shape.root_mem_ids t)]
    exact hr.2.1
  · rw [setIndex_node, ho]; exact hobj
  · exact NodePool_congr pool1 (fun _ _ => rfl) (by simp) (Nat.le_refl _) rfl
  · intro i hi
    rcases List.mem_cons.1 hi with e | e
    · rw [e]; exact ⟨hxb, hxF⟩
    · have hl := wf.live i e
      refine ⟨Nat.lt_of_lt_of_le hl.1 hout.nodeBrk, ?_⟩
      intro hF
      rcases hFsub i hF with h | h
      · exact hl.2 h
      · omega
  · have inv1 : PairInv (w1.setIndex tree
        { w1.index tree with leaves := (hashid, x) :: (w1.index tree).leaves }) tree
        (shLeaves sh) L FP := by
      refine PairInv_congr wf.pairs hpair ?_ ?_ hpbrk hout.pairCount
      · intro y hy
        rw [setIndex_node, hsame y (shLeaves_sub_shIds sh y hy)]
      · simp only [setIndex_index, upd_same]
        exact hpp tree
    exact PairInv_add inv1 x hxl (by rw [setIndex_node]; exact hpairs) (fun z => List.mem_cons)
  · intro y hy
    simp only [setIndex_index, upd_same, setIndex_node]
    rw [core_stamp hc]
    rcases List.mem_cons.1 hy with e | e
    · rw [e, hstamp]; omega
    · rw [hsame y (shLeaves_sub_shIds sh y e)]
      exact Nat.lt_succ_of_lt (wf.stamps y e)
  · intro y hy
    simp only [setIndex_node]
    rcases List.mem_cons.1 hy with e | e
    · rw [e, hbb]; exact GetBB_valid w tree obj (wf.validF obj)
    · rw [hsame y (shLeaves_sub_shIds sh y e)]
      exact wf.valid y e
  · simp only [setIndex_index, upd_same]; rw [core_bbfunc hc]; exact wf.validF
  · simp only [setIndex_index, upd_same]
    rw [core_root hc]
    exact RootRep_root w tree sh wf.root
  · simp only [setIndex_index, upd_same]
    rw [core_leaves hc]
  · simp only [setIndex_index, upd_same]
    rw [core_stamp hc]
  · refine ⟨?_, ?_, hout.indexBrk, hout.nodeCount, hout.pairCount, hout.external, hout.nodeBrk,
      hout.pairBrk⟩
    · simp only [setIndex_index, upd_same]
      exact hout.cfg
    · intro j hj
      simp only [setIndex_index, upd_other _ _ _ _ hj]
      exact hout.other j hj

theorem Outside.setIndex (tree : Nat) (w : World) (r : cpBBTree)
    (h : SameCfg (w.index tree) r) : Outside tree w (w.setIndex tree r) :=
  ⟨by simpa using h, fun j hj => by simp [upd_other _ _ _ _ hj], rfl, rfl, rfl, rfl,
    Nat.le_refl _, Nat.le_refl _⟩

theorem Outside.setNode (tree : Nat) (w : World) (i : Nat) (n : Node) :
    Outside tree w (w.setNode i n) :=
  ⟨SameCfg.cfgSame _, fun _ _ => rfl, rfl, rfl, rfl, rfl, Nat.le_refl _, Nat.le_refl _⟩

/-- `cpBBTreeInsert` of a new object into a well-formed tree. -/
theorem cpBBTreeInsert_ok (tree obj hashid : Nat) (w : World) (sh : Option Shape)
    (L : Nat → List Nat) (FN FP : List Nat) (fuel : Nat) (wf : WF w tree sh L FN FP)
    (hobj : obj ≠ 0) (hmiss : cpHashSetFind w tree hashid obj = none)
    (hfuel : 2 * (shLeaves sh).length + 2 ≤ fuel) :
    ∃ x fs w' L' FN' FP', cpBBTreeInsert fuel tree obj hashid w = some w' ∧
      WF w' tree (some (plug fs (Shape.leaf x))) L' FN' FP' ∧
      (plug fs (Shape.leaf x)).leaves.Perm (x :: shLeaves sh) ∧ x ∉ shIds sh ∧
      (w'.index tree).leaves = (hashid, x) :: (w.index tree).leaves ∧
      (w'.index tree).stamp = (w.index tree).stamp + 1 ∧
      (w'.node x).obj = obj ∧ (w'.node x).bb = GetBB w tree obj ∧
      (w'.node x).stamp = (w.index tree).stamp ∧
      (∀ y ∈ shLeaves sh, (w'.node y).obj = (w.node y).obj ∧ (w'.node y).bb = (w.node y).bb ∧
        (w'.node y).stamp = (w.node y).stamp) ∧
      Grown (plug fs (Shape.leaf x)).leaves x w.pair (upd L x []) w'.pair L'
        (upIns w'.node x fs) ∧
      w'.calls = w.calls ∧ Outside tree w w' := by
  obtain ⟨x, w2, FN2, hhash, det, hroot2, hleaves2, hstamp2, ho2, hbb2, _, hsame2, hpair2,
    hcalls2, _, hout2⟩ := hashInsert_spec tree obj hashid w sh L FN FP wf.1 hobj hmiss
  obtain ⟨t', w3, FN', hres3, ok4, hperm, hfr3, hsame3, _, _⟩ :=
    attach_spec tree x sh w2 (upd L x []) FN2 FP fuel det (by omega)
  have hc3 := hfr3.core tree
  have hxl' : x ∈ t'.leaves := hperm.mem_iff.2 (List.mem_cons_self _ _)
  have hxids : x ∉ shIds sh := (List.nodup_cons.1 det.nodup).1
  obtain ⟨fs, hfs⟩ := exists_path x t' hxl'
  subst hfs
  have hlen : (plug fs (Shape.leaf x)).leaves.length = (shLeaves sh).length + 1 := by
    rw [hperm.length_eq]; rfl
  set w4 := w3.setIndex tree { w3.index tree with root := some (plug fs (Shape.leaf x)).root }
    with hw4
  have hst4 : (w4.index tree).stamp = (w3.index tree).stamp := by simp [hw4]
  have hlv4 : (w4.index tree).leaves = (w3.index tree).leaves := by simp [hw4]
  have ok5 := TreeOK_restamp ok4 x
  set w5 := w4.setNode x { w4.node x with stamp := (w4.index tree).stamp } with hw5
  have hn5x : w5.node x = { w3.node x with stamp := (w3.index tree).stamp } := by
    simp [hw5, hw4]
  have hn5 : ∀ y, y ≠ x → w5.node y = w3.node y := by
    intro y hy
    simp [hw5, hw4, upd_other _ _ _ _ hy]
  have hi5 : w5.index = w4.index := rfl
  obtain ⟨w6, L', FP', hres6, ok6, hfr6, hcalls6, hg⟩ :=
    LeafAddPairs_spec tree x fs w5 (upd L x []) FN' FP fuel ok5 (by simp [hw5]) (by omega)
  have hc6 := hfr6.core tree
  have ok7 := IncrementStamp_ok ok6
  have hinc := IncrementStamp_alone tree w6 ok6.noDynamic
  have hlv7 : ((IncrementStamp tree w6).index tree).leaves =
      (hashid, x) :: (w.index tree).leaves := by
    rw [hinc]
    simp only [setIndex_index, upd_same]
    rw [core_leaves hc6, hi5, hlv4, core_leaves hc3, hleaves2]
  have hlisted : Listed (IncrementStamp tree w6) tree (some (plug fs (Shape.leaf x))) := by
    unfold Listed
    rw [hlv7]
    exact (List.Perm.cons x wf.2).trans hperm.symm
  refine ⟨x, fs, IncrementStamp tree w6, L', FN', FP', ?_, ⟨ok7, hlisted⟩, hperm, hxids, hlv7,
    ?_, ?_, ?_, ?_, ?_, ?_, ?_, ?_⟩
  · have e5 : GetStamp w4 tree = (w4.index tree).stamp :=
      GetStamp_alone _ tree ok4.noDynamic
    simp only [cpBBTreeInsert, hhash, hroot2, hres3]
    rw [← hw4, e5, ← hw5, hres6]
  · rw [hinc]
    simp only [setIndex_index, upd_same]
    rw [core_stamp hc6, hi5, hst4, core_stamp hc3, hstamp2]
  · rw [hinc, setIndex_node, skel_obj (hfr6.skel x), hn5x]
    show (w3.node x).obj = obj
    rw [sameButParent_obj (hsame3 x (List.mem_cons_self _ _)), ho2]
  · rw [hinc, setIndex_node, skel_bb (hfr6.skel x), hn5x]
    show (w3.node x).bb = _
    rw [sameButParent_bb (hsame3 x (List.mem_cons_self _ _)), hbb2]
  · rw [hinc, setIndex_node, skel_stamp (hfr6.skel x), hn5x]
    show (w3.index tree).stamp = _
    rw [core_stamp hc3, hstamp2]
  · intro y hy
    have hyx : y ≠ x := fun e => hxids (e ▸ shLeaves_sub_shIds sh y hy)
    have h3 := hsame3 y (List.mem_cons_of_mem _ hy)
    have h2 := hsame2 y (shLeaves_sub_shIds sh y hy)
    rw [hinc, setIndex_node, skel_obj (hfr6.skel y), skel_bb (hfr6.skel y),
      skel_stamp (hfr6.skel y), hn5 y hyx]
    rw [sameButParent_obj h3, sameButParent_bb h3, sameButParent_stamp h3, h2]
    exact ⟨rfl, rfl, rfl⟩
  · have hp : (IncrementStamp tree w6).pair = w6.pair := by rw [hinc]; rfl
    have hn : ∀ i, ((IncrementStamp tree w6).node i).skel = (w5.node i).skel := by
      intro i
      rw [hinc, setIndex_node]
      exact hfr6.skel i
    rw [hp, upIns_congr _ _ hn]
    have hp5 : w.pair = w5.pair := by
      show w.pair = w3.pair
      rw [hfr3.pair, hpair2]
    rw [hp5]
    exact hg
  · rw [hinc]
    simp only [setIndex_calls]
    rw [hcalls6]
    show w3.calls = w.calls
    rw [hfr3.calls, hcalls2]
  · rw [hinc]
    have o34 : Outside tree w3 w4 := Outside.setIndex tree w3 _ ⟨rfl, rfl, rfl, rfl, rfl⟩
    have o45 : Outside tree w4 w5 := Outside.setNode tree w4 x _
    have o67 : Outside tree w6 (w6.setIndex tree
        { w6.index tree with stamp := (w6.index tree).stamp + 1 }) :=
      Outside.setIndex tree w6 _ ⟨rfl, rfl, rfl, rfl, rfl⟩
    exact hout2.outComp (hfr3.toOutside.outComp (o34.outComp (o45.outComp (hfr6.pairOutside.outComp o67))))

theorem cpHashSetFind_some (w : World) (tree hashid obj x : Nat)
    (h : cpHashSetFind w tree hashid obj = some x) :
    (hashid, x) ∈ (w.index tree).leaves ∧ (w.node x).obj = obj := by
  unfold cpHashSetFind at h
  rw [Option.map_eq_some'] at h
  obtain ⟨e, he, rfl⟩ := h
  have h1 := List.find?_some he
  have h2 := List.mem_of_find?_eq_some he
  simp only [decide_eq_true_eq] at h1
  obtain ⟨a, b⟩ := e
  simp only at h1
  rw [← h1.1]
  exact ⟨h2, h1.2⟩

theorem map_snd_erase : ∀ (l : List (Nat × Nat)) (e : Nat × Nat), (l.map Prod.snd).Nodup →
    e ∈ l → (l.erase e).map Prod.snd = (l.map Prod.snd).erase e.2
  | [], _, _, h => by simp at h
  | a :: l, e, hnd, h => by
    simp only [List.map_cons, List.nodup_cons] at hnd
    by_cases hae : a = e
    · subst hae
      simp
    · have hel : e ∈ l := by
        rcases List.mem_cons.1 h with h' | h'
        · exact absurd h'.symm hae
        · exact h'
      have hne : a.2 ≠ e.2 := by
        intro h2
        exact hnd.1 (h2 ▸ List.mem_map_of_mem Prod.snd hel)
      rw [List.erase_cons_tail (by simpa using hae), List.map_cons, List.map_cons,
        List.erase_cons_tail (by simpa using hne), map_snd_erase l e hnd.2 hel]

theorem Listed_mem (w : World) (tree : Nat) (sh : Option Shape) (hl : Listed w tree sh)
    (hashid x : Nat) (h : (hashid, x) ∈ (w.index tree).leaves) : x ∈ shLeaves sh :=
  hl.mem_iff.1 (List.mem_map_of_mem Prod.snd h)

theorem shLeaves_nodup (sh : Option Shape) (h : (shIds sh).Nodup) : (shLeaves sh).Nodup := by
  cases sh with
  | none => exact List.nodup_nil
  | some t => exact Shape.leaves_nodup t h

theorem setBB_links (w : World) (x : Nat) (b : cpBB) (i : Nat) :
    ((w.setNode x { w.node x with bb := b }).node i).obj = (w.node i).obj ∧
    ((w.setNode x { w.node x with bb := b }).node i).a = (w.node i).a ∧
    ((w.setNode x { w.node x with bb := b }).node i).b = (w.node i).b ∧
    ((w.setNode x { w.node x with bb := b }).node i).parent = (w.node i).parent := by
  by_cases e : i = x
  · subst e; simp
  · simp [upd_other _ _ _ _ e]

theorem setBB_rest (w : World) (x : Nat) (b : cpBB) (i : Nat) :
    ((w.setNode x { w.node x with bb := b }).node i).stamp = (w.node i).stamp ∧
    ((w.setNode x { w.node x with bb := b }).node i).pairs = (w.node i).pairs := by
  by_cases e : i = x
  · subst e; simp
  · simp [upd_other _ _ _ _ e]

/-- Detaching a leaf whose box was just replaced by `b`: `SubtreeRemove` leaves
the rest of the tree sound. -/
theorem detach_spec (tree x : Nat) (t : Shape) (w0 : World) (L : Nat → List Nat)
    (FN FP : List Nat) (fuel : Nat) (b : cpBB)
    (ok : TreeOK 1 w0 tree (some t) L FN FP) (hx : x ∈ t.leaves) (hb : cpBBValid b)
    (hfuel : t.leaves.length ≤ fuel) :
    ∃ sh' w2 FN',
      SubtreeRemove fuel (some t.root) x tree (w0.setNode x { w0.node x with bb := b }) =
        some (Option.map Shape.root sh', w2) ∧
      Detached w2 tree sh' x L FN' FP ∧ (x :: shLeaves sh').Perm t.leaves ∧
      NodeFrame tree (w0.setNode x { w0.node x with bb := b }) w2 ∧
      (∀ j, (w0.node j).obj ≠ 0 →
        ((w0.setNode x { w0.node x with bb := b }).node j).sameButParent (w2.node j)) ∧
      (∀ q ∈ FN', q ∈ FN ∨ q ∈ t.ids) ∧ (∀ i ∈ shIds sh', i ∈ t.ids) ∧
      w2.nodeBrk = w0.nodeBrk := by
  set w := w0.setNode x { w0.node x with bb := b } with hw
  have hlinks : ∀ i, (w.node i).obj = (w0.node i).obj ∧ (w.node i).a = (w0.node i).a ∧
      (w.node i).b = (w0.node i).b ∧ (w.node i).parent = (w0.node i).parent :=
    setBB_links w0 x b
  have hrest := setBB_rest w0 x b
  have hbbx : (w.node x).bb = b := by simp [hw]
  have hbbo : ∀ i, i ≠ x → (w.node i).bb = (w0.node i).bb := by
    intro i hi; simp [hw, upd_other _ _ _ _ hi]
  have hr := ok.root
  have hnd : t.ids.Nodup := ok.nodup
  have hpool : NodePool w tree FN :=
    NodePool_congr ok.pool (fun i _ => (hlinks i).2.2.2) rfl (Nat.le_refl _) rfl
  have hsub : Sub w.node t := Sub_of_links w0.node w.node hlinks t hr.2.2
  have hrootp : (w.node t.root).parent = none := by rw [(hlinks _).2.2.2]; exact hr.2.1
  have hfit : ∀ fs, t = plug fs (Shape.leaf x) → ∀ f ∈ fs, Fit w.node f.sib := by
    intro fs hfs f hf
    subst hfs
    have h0 := (Fit_plug w0.node fs (Shape.leaf x) (ok.fit _ rfl)).2 f hf
    have hnd' := (plug_nodup fs (Shape.leaf x)).1 hnd
    refine Fit_congr w0.node w.node f.sib ?_ h0
    intro i hi
    refine hbbo i ?_
    intro e
    exact hnd'.2.2 x (by simp [Shape.ids]) (ctxIds_mem_sib fs f hf x (e ▸ hi))
  obtain ⟨sh', w2, FN', hres, pool', hsub', hxpar, hperm, hids, hnd', hxnot, hlive', hxF, hFsub,
    hsame, _, hbrk, hfr⟩ :=
    SubtreeRemove_any tree x t w FN fuel hpool hsub hrootp hnd hfit ok.live hx
      (le_trans (Shape.height_le_leaves t) hfuel)
  have hc := hfr.core tree
  have hxid : x ∈ t.ids := Shape.leaf_mem_ids t x hx
  have hmem : ∀ y, y ∈ x :: shLeaves sh' ↔ y ∈ t.leaves := fun y => hperm.mem_iff
  have hxobj0 : (w0.node x).obj ≠ 0 := Sub_leaf_obj w0.node t hr.2.2 x hx
  have hsame' : ∀ j, (w0.node j).obj ≠ 0 → (w.node j).sameButParent (w2.node j) := by
    intro j hj
    exact hsame j (by rw [(hlinks j).1]; exact hj)
  refine ⟨sh', w2, FN', hres, ⟨?_, ?_, ?_, hsub', List.nodup_cons.2 ⟨hxnot, hnd'⟩, ?_, hxpar,
    pool', ?_, ?_, ?_, ?_, ?_⟩, hperm, hfr, hsame', hFsub, hids, hbrk⟩
  · rw [core_isTree hc]; exact ok.isTree
  · rw [core_staticIndex hc]; exact ok.noStatic
  · rw [core_dynamicIndex hc]; exact ok.noDynamic
  · rw [sameButParent_obj (hsame' x hxobj0), (hlinks x).1]; exact hxobj0
  · intro i hi
    rcases List.mem_cons.1 hi with e | e
    · rw [e, hbrk]; exact ⟨(ok.live x hxid).1, hxF⟩
    · rw [hbrk]; exact ⟨(ok.live i (hids i e)).1, hlive' i e⟩
  · have inv1 : PairInv w tree t.leaves L FP :=
      PairInv_congr ok.pairs rfl (fun i _ => (hrest i).2) rfl rfl rfl
    have inv2 := PairInv_of_nodeFrame tree w w2 _ L FP inv1 hfr
      (fun y hy => (ok.live y (Shape.leaf_mem_ids t y hy)).1)
    exact PairInv_mem inv2 hmem
  · intro y hy
    have hy' := (hmem y).1 hy
    rw [hfr.stamp y (ok.live y (Shape.leaf_mem_ids t y hy')).1, (hrest y).1, core_stamp hc]
    exact ok.stamps y hy'
  · intro y hy
    have hy' := (hmem y).1 hy
    have hyobj : (w0.node y).obj ≠ 0 := Sub_leaf_obj w0.node t hr.2.2 y hy'
    rw [sameButParent_bb (hsame' y hyobj)]
    by_cases e : y = x
    · rw [e, hbbx]; exact hb
    · rw [hbbo y e]; exact ok.valid y hy'
  · rw [core_bbfunc hc]; exact ok.validF

theorem setNode_self (w : World) (x : Nat) :
    w.setNode x { w.node x with bb := (w.node x).bb } = w := by
  unfold World.setNode
  have : upd w.node x { w.node x with bb := (w.node x).bb } = w.node := by
    funext j
    by_cases e : j = x
    · subst e; simp
    · simp [upd_other _ _ _ _ e]
  rw [this]

theorem TreeOK_setLeaves {k : Nat} {w : World} {tree : Nat} {sh : Option Shape}
    {L : Nat → List Nat} {FN FP : List Nat} (h : TreeOK k w tree sh L FN FP)
    (l : List (Nat × Nat)) :
    TreeOK k (w.setIndex tree { w.index tree with leaves := l }) tree sh L FN FP := by
  refine ⟨?_, ?_, ?_, ?_, h.nodup, h.fit, ?_, h.live, ?_, ?_, h.valid, ?_⟩
  · simpa using h.isTree
  · simpa using h.noStatic
  · simpa using h.noDynamic
  · exact RootRep_congr w _ tree sh (by simp) (fun _ => ⟨rfl, rfl, rfl, rfl⟩) h.root
  · exact NodePool_congr h.pool (fun _ _ => rfl) (by simp) (Nat.le_refl _) rfl
  · exact PairInv_congr h.pairs rfl (fun _ _ => rfl) (by simp) rfl rfl
  · intro x hx
    have := h.stamps x hx
    simpa using this
  · simpa using h.validF

/-- `cpBBTreeRemove` of an object of a well-formed tree. -/
theorem cpBBTreeRemove_ok (tree obj hashid x : Nat) (w : World) (sh : Option Shape)
    (L : Nat → List Nat) (FN FP : List Nat) (fuel : Nat) (wf : WF w tree sh L FN FP)
    (hfind : cpHashSetFind w tree hashid obj = some x)
    (hfuel1 : (shLeaves sh).length ≤ fuel) (hfuel2 : (L x).length ≤ fuel) :
    ∃ sh' w' FN' FP', cpBBTreeRemove fuel tree obj hashid w = some w' ∧
      WF w' tree sh' (fun z => if z = x then [] else (L z).filter (fun q => decide (q ∉ L x)))
        FN' FP' ∧
      (x :: shLeaves sh').Perm (shLeaves sh) ∧
      (w'.index tree).leaves = (w.index tree).leaves.erase (hashid, x) ∧
      (w'.index tree).stamp = (w.index tree).stamp ∧
      (∀ y ∈ shLeaves sh', (w'.node y).obj = (w.node y).obj ∧ (w'.node y).bb = (w.node y).bb ∧
        (w'.node y).stamp = (w.node y).stamp) ∧
      (∀ r, r ∉ L x → (w'.pair r).a.leaf = (w.pair r).a.leaf ∧
        (w'.pair r).b.leaf = (w.pair r).b.leaf) ∧
      w'.calls = w.calls ∧ Outside tree w w' := by
  obtain ⟨hmem, _⟩ := cpHashSetFind_some w tree hashid obj x hfind
  have hxl : x ∈ shLeaves sh := Listed_mem w tree sh wf.2 hashid x hmem
  cases sh with
  | none => simp [shLeaves] at hxl
  | some t =>
  simp only [shLeaves] at hxl hfuel1
  set w1 := w.setIndex tree
    { w.index tree with leaves := (w.index tree).leaves.erase (hashid, x) } with hw1
  have ok1 : TreeOK 1 w1 tree (some t) L FN FP := (TreeOK_setLeaves wf.1 _).weaken
  have hrem : cpHashSetRemove tree hashid obj w = some (x, w1) := by
    simp only [cpHashSetRemove, hfind]
  have hroot1 : (w1.index tree).root = some t.root := by
    simp only [hw1, setIndex_index, upd_same]
    exact wf.1.root.1
  obtain ⟨sh', w2, FN2, hres2, det, hperm, hfr2, hsame2, _, hids, hbrk2⟩ :=
    detach_spec tree x t w1 L FN FP fuel (w1.node x).bb ok1 hxl (ok1.valid x hxl) hfuel1
  rw [setNode_self] at hres2 hfr2 hsame2
  have hc2 := hfr2.core tree
  set w3 := w2.setIndex tree { w2.index tree with root := Option.map Shape.root sh' } with hw3
  have inv3 : PairInv w3 tree (x :: shLeaves sh') L FP :=
    PairInv_congr det.pairs rfl (fun _ _ => rfl) (by simp [hw3]) rfl rfl
  obtain ⟨w4, hres4, inv4, hfr4, hcalls4, hleaf4⟩ :=
    PairsClear_spec tree (x :: shLeaves sh') x w3 L FP fuel inv3 (List.mem_cons_self _ _) hfuel2
  have hc4 := hfr4.core tree
  have hfr5 := NodeRecycle_frame tree x w4
  have hc5 := hfr5.core tree
  have hnd := List.nodup_cons.1 det.nodup
  have hxnl : x ∉ shLeaves sh' := fun h => hnd.1 (shLeaves_sub_shIds sh' x h)
  have hlx := det.live x (List.mem_cons_self _ _)
  -- nodes other than `x`
  have hsk : ∀ i, i ≠ x → ((NodeRecycle tree x w4).node i).skel = (w2.node i).skel := by
    intro i hi
    rw [NodeRecycle_node_other tree x i w4 hi]
    exact hfr4.skel i
  have hprs : ∀ i, i ≠ x → ((NodeRecycle tree x w4).node i).pairs = (w4.node i).pairs := by
    intro i hi
    rw [NodeRecycle_node_other tree x i w4 hi]
  have hleaf : ∀ y ∈ shLeaves sh', y ≠ x ∧ y ∈ t.leaves ∧ (w.node y).obj ≠ 0 := by
    intro y hy
    have hy' : y ∈ t.leaves := hperm.mem_iff.1 (List.mem_cons_of_mem _ hy)
    exact ⟨fun e => hxnl (e ▸ hy), hy', Sub_leaf_obj w.node t wf.1.root.2.2 y hy'⟩
  have hout : Outside tree w (NodeRecycle tree x w4) := by
    have o01 : Outside tree w w1 := Outside.setIndex tree w _ ⟨rfl, rfl, rfl, rfl, rfl⟩
    have o23 : Outside tree w2 w3 := Outside.setIndex tree w2 _ ⟨rfl, rfl, rfl, rfl, rfl⟩
    exact o01.outComp (hfr2.toOutside.outComp (o23.outComp (hfr4.pairOutside.outComp
      hfr5.toOutside)))
  have hst5 : ((NodeRecycle tree x w4).index tree).stamp = (w.index tree).stamp := by
    rw [core_stamp hc5, core_stamp hc4]
    simp only [hw3, setIndex_index, upd_same]
    rw [core_stamp hc2]
    simp [hw1]
  have hlv5 : ((NodeRecycle tree x w4).index tree).leaves =
      (w.index tree).leaves.erase (hashid, x) := by
    rw [core_leaves hc5, core_leaves hc4]
    simp only [hw3, setIndex_index, upd_same]
    rw [core_leaves hc2]
    simp [hw1]
  have hrt5 : ((NodeRecycle tree x w4).index tree).root = Option.map Shape.root sh' := by
    rw [core_root hc5, core_root hc4]
    simp [hw3]
  have hnode : ∀ y ∈ shLeaves sh', ((NodeRecycle tree x w4).node y).obj = (w.node y).obj ∧
      ((NodeRecycle tree x w4).node y).bb = (w.node y).bb ∧
      ((NodeRecycle tree x w4).node y).stamp = (w.node y).stamp := by
    intro y hy
    obtain ⟨hyx, hyt, hyo⟩ := hleaf y hy
    have h2 := hsame2 y hyo
    have e := skel_eq_fields (hsk y hyx)
    rw [e.1, e.2.1, e.2.2.2.2.2, sameButParent_obj h2, sameButParent_bb h2,
      sameButParent_stamp h2]
    exact ⟨rfl, rfl, rfl⟩
  refine ⟨sh', NodeRecycle tree x w4, x :: FN2, (L x).reverse ++ FP, ?_,
    ⟨⟨?_, ?_, ?_, ?_, hnd.2, ?_, ?_, ?_, ?_, ?_, ?_, ?_⟩, ?_⟩, hperm, hlv5, hst5, hnode, ?_, ?_,
    hout⟩
  · simp only [cpBBTreeRemove, hrem, hroot1, hres2]
    rw [← hw3, hres4]
  · rw [hout.cfg.1]; exact wf.1.isTree
  · rw [hout.cfg.2.2.1]; exact wf.1.noStatic
  · rw [hout.cfg.2.2.2.1]; exact wf.1.noDynamic
  · -- root
    cases sh' with
    | none => exact hrt5
    | some t' =>
      obtain ⟨hs', hp', _⟩ := det.sub t' rfl
      have hxt : ∀ i ∈ t'.ids, i ≠ x := fun i hi e => hnd.1 (e ▸ hi)
      refine ⟨hrt5, ?_, ?_⟩
      · rw [(skel_eq_fields (hsk _ (hxt _ (Shape.root_mem_ids t')))).2.2.1]; exact hp'
      · refine Sub_congr w2.node _ t' hnd.2 ?_ hs'
        intro i hi
        have e := skel_eq_fields (hsk i (hxt i hi))
        exact ⟨e.1, e.2.2.2.1, e.2.2.2.2.1, fun _ => e.2.2.1⟩
  · intro t' ht'
    subst ht'
    obtain ⟨_, _, hf'⟩ := det.sub t' rfl
    refine Fit_congr w2.node _ t' ?_ hf'
    intro i hi
    exact (skel_eq_fields (hsk i (fun e => hnd.1 (e ▸ hi)))).2.1
  · have pool3 : NodePool w3 tree FN2 :=
      NodePool_congr det.pool (fun _ _ => rfl) (by simp [hw3]) (Nat.le_refl _) rfl
    have pool4 := NodePool_of_pairFrame tree w3 w4 FN2 pool3 hfr4
    exact NodeRecycle_pool tree x w4 FN2 pool4 hlx.2 (by rw [hfr4.nodeBrk]; exact hlx.1)
  · intro i hi
    have hl := det.live i (List.mem_cons_of_mem _ hi)
    refine ⟨?_, ?_⟩
    · rw [NodeRecycle_nodeBrk, hfr4.nodeBrk]; exact hl.1
    · intro hF
      rcases List.mem_cons.1 hF with e | e
      · exact hnd.1 (e ▸ hi)
      · exact hl.2 e
  · have inv4' := @PairInv_drop _ _ _ (shLeaves sh') _ _ inv4 x (by simp) (by
      intro z
      constructor
      · intro hz
        exact ⟨List.mem_cons_of_mem _ hz, fun e => hxnl (e ▸ hz)⟩
      · rintro ⟨hz, hzx⟩
        rcases List.mem_cons.1 hz with e | e
        · exact absurd e hzx
        · exact e)
    refine PairInv_congr inv4' hfr5.pair ?_ (hfr5.pooledPairs tree) hfr5.pairBrk hfr5.pairCount
    intro y hy
    exact hprs y (fun e => hxnl (e ▸ hy))
  · intro y hy
    rw [(hnode y hy).2.2, hst5]
    exact wf.1.stamps y (hleaf y hy).2.1
  · intro y hy
    rw [(hnode y hy).2.1]
    exact wf.1.valid y (hleaf y hy).2.1
  · rw [hout.cfg.2.1]; exact wf.1.validF
  · -- the hash set
    unfold Listed
    rw [hlv5, map_snd_erase _ _ (wf.2.nodup_iff.2 (Shape.leaves_nodup t wf.1.nodup)) hmem]
    have h1 : (((w.index tree).leaves.map Prod.snd).erase x).Perm (t.leaves.erase x) :=
      List.Perm.erase x wf.2
    have h2 : ((x :: shLeaves sh').erase x).Perm (t.leaves.erase x) := List.Perm.erase x hperm
    rw [List.erase_cons_head] at h2
    exact h1.trans h2.symm
  · intro r hr
    have h4 := hleaf4 r hr
    rw [hfr5.pair, h4.1, h4.2]
    have : w3.pair = w.pair := by
      show w2.pair = w.pair
      rw [hfr2.pair]; rfl
    rw [this]
    exact ⟨rfl, rfl⟩
  · rw [hfr5.calls, hcalls4]
    show w2.calls = w.calls
    rw [hfr2.calls]; rfl

/-- `LeafUpdate` of a leaf of a sound tree: nothing happens while the tight box
stays inside the stored box; otherwise the leaf gets its new box, is moved to a
new place in the tree, loses its pairs and is stamped. -/
theorem LeafUpdate_spec (tree x : Nat) (t : Shape) (w : World) (L : Nat → List Nat)
    (FN FP : List Nat) (fuel : Nat) (ok : TreeOK 1 w tree (some t) L FN FP)
    (hx : x ∈ t.leaves) (hfuel1 : t.leaves.length ≤ fuel) (hfuel2 : (L x).length ≤ fuel) :
    (cpBBContainsBB (w.node x).bb ((w.index tree).bbfunc (w.node x).obj) = true →
      LeafUpdate fuel x tree w = some (false, w)) ∧
    (cpBBContainsBB (w.node x).bb ((w.index tree).bbfunc (w.node x).obj) = false →
      ∃ t' w' FN' FP', LeafUpdate fuel x tree w = some (true, w') ∧
        TreeOK 1 w' tree (some t')
          (fun z => if z = x then [] else (L z).filter (fun q => decide (q ∉ L x))) FN' FP' ∧
        t'.leaves.Perm t.leaves ∧
        (w'.node x).obj = (w.node x).obj ∧ (w'.node x).bb = GetBB w tree (w.node x).obj ∧
        (w'.node x).stamp = (w.index tree).stamp ∧
        (∀ y ∈ t.leaves, y ≠ x → (w'.node y).obj = (w.node y).obj ∧
          (w'.node y).bb = (w.node y).bb ∧ (w'.node y).stamp = (w.node y).stamp) ∧
        (∀ r, r ∉ L x → (w'.pair r).a.leaf = (w.pair r).a.leaf ∧
          (w'.pair r).b.leaf = (w.pair r).b.leaf) ∧
        (w'.index tree).leaves = (w.index tree).leaves ∧
        (w'.index tree).stamp = (w.index tree).stamp ∧
        w'.calls = w.calls ∧ Outside tree w w') := by
  constructor
  · intro hc
    simp only [LeafUpdate, hc, not_true_eq_false, if_false]
  · intro hc
    have hvalid : cpBBValid (GetBB w tree (w.node x).obj) :=
      GetBB_valid w tree _ (ok.validF _)
    obtain ⟨sh', w2, FN2, hres2, det, hperm2, hfr2, hsame2, _, _, _⟩ :=
      detach_spec tree x t w L FN FP fuel (GetBB w tree (w.node x).obj) ok hx hvalid hfuel1
    set w1 := w.setNode x { w.node x with bb := GetBB w tree (w.node x).obj } with hw1
    have hlen2 : (shLeaves sh').length ≤ fuel := by
      have := hperm2.length_eq
      simp only [List.length_cons] at this
      omega
    obtain ⟨t', w3, FN3, hres3, ok4, hperm3, hfr3, hsame3, _, _⟩ :=
      attach_spec tree x sh' w2 L FN2 FP fuel det hlen2
    set w4 := w3.setIndex tree { w3.index tree with root := some t'.root } with hw4
    have hperm : t'.leaves.Perm t.leaves := hperm3.trans hperm2
    have hx' : x ∈ t'.leaves := hperm.mem_iff.2 hx
    obtain ⟨w5, hres5, inv5, hfr5, hcalls5, hleaf5⟩ :=
      PairsClear_spec tree t'.leaves x w4 L FP fuel ok4.pairs hx' hfuel2
    have ok5 := TreeOK_of_pairFrame ok4 hfr5 inv5
    have ok6 := TreeOK_restamp ok5 x
    have hc2 := hfr2.core tree
    have hc3 := hfr3.core tree
    have hc5 := hfr5.core tree
    have hst4 : (w4.index tree).stamp = (w.index tree).stamp := by
      simp only [hw4, setIndex_index, upd_same]
      rw [core_stamp hc3, core_stamp hc2]
      rfl
    have hst5 : (w5.index tree).stamp = (w.index tree).stamp := by
      rw [core_stamp hc5, hst4]
    have hobjs : ∀ y ∈ t.leaves, (w.node y).obj ≠ 0 :=
      Sub_leaf_obj w.node t ok.root.2.2
    have hchain : ∀ y ∈ t.leaves, (w1.node y).sameButParent (w3.node y) := by
      intro y hy
      exact sameButParent_trans (hsame2 y (hobjs y hy)) (hsame3 y (hperm2.mem_iff.2 hy))
    refine ⟨t', w5.setNode x { w5.node x with stamp := (w5.index tree).stamp }, FN3,
      (L x).reverse ++ FP, ?_, ok6, hperm, ?_, ?_, ?_, ?_, ?_, ?_, ?_, ?_, ?_⟩
    · have hroot : (w.index tree).root = some t.root := ok.root.1
      have e5 : GetStamp w5 tree = (w5.index tree).stamp := GetStamp_alone _ tree ok5.noDynamic
      simp only [LeafUpdate, hc, Bool.false_eq_true, not_false_eq_true, if_true, hroot]
      rw [← hw1, hres2]
      simp only [hres3]
      rw [← hw4, hres5]
      simp only [e5]
    · simp only [setNode_node, upd_same]
      rw [skel_obj (hfr5.skel x)]
      show (w3.node x).obj = _
      rw [sameButParent_obj (hchain x hx)]
      simp [hw1]
    · simp only [setNode_node, upd_same]
      rw [skel_bb (hfr5.skel x)]
      show (w3.node x).bb = _
      rw [sameButParent_bb (hchain x hx)]
      simp [hw1]
    · simp only [setNode_node, upd_same]
      exact hst5
    · intro y hy hyx
      simp only [setNode_node, upd_other _ _ _ _ hyx]
      rw [skel_obj (hfr5.skel y), skel_bb (hfr5.skel y), skel_stamp (hfr5.skel y)]
      show (w3.node y).obj = _ ∧ (w3.node y).bb = _ ∧ (w3.node y).stamp = _
      rw [sameButParent_obj (hchain y hy), sameButParent_bb (hchain y hy),
        sameButParent_stamp (hchain y hy)]
      simp [hw1, upd_other _ _ _ _ hyx]
    · intro r hr
      have h5 := hleaf5 r hr
      simp only [setNode_pair]
      rw [h5.1, h5.2]
      have : w4.pair = w.pair := by
        show w3.pair = w.pair
        rw [hfr3.pair, hfr2.pair]; rfl
      rw [this]
      exact ⟨rfl, rfl⟩
    · simp only [setNode_index]
      rw [core_leaves hc5]
      simp only [hw4, setIndex_index, upd_same]
      rw [core_leaves hc3, core_leaves hc2]
      rfl
    · simp only [setNode_index]
      exact hst5
    · simp only [setNode_calls]
      rw [hcalls5]
      show w3.calls = w.calls
      rw [hfr3.calls, hfr2.calls]; rfl
    · have o01 : Outside tree w w1 := Outside.setNode tree w x _
      have o34 : Outside tree w3 w4 := Outside.setIndex tree w3 _ ⟨rfl, rfl, rfl, rfl, rfl⟩
      have o56 : Outside tree w5 (w5.setNode x { w5.node x with stamp := (w5.index tree).stamp }) :=
        Outside.setNode tree w5 x _
      exact o01.outComp (hfr2.toOutside.outComp (hfr3.toOutside.outComp (o34.outComp
        (hfr5.pairOutside.outComp o56))))

/-- `cpBBTreeReindexObject` on a well-formed tree. -/
theorem cpBBTreeReindexObject_ok (tree obj hashid : Nat) (w : World) (sh : Option Shape)
    (L : Nat → List Nat) (FN FP : List Nat) (fuel : Nat) (wf : WF w tree sh L FN FP)
    (hfuel1 : 2 * (shLeaves sh).length ≤ fuel)
    (hfuel2 : ∀ x ∈ shLeaves sh, (L x).length ≤ fuel) :
    (cpHashSetFind w tree hashid obj = none →
      cpBBTreeReindexObject fuel tree obj hashid w = some w) ∧
    (∀ x, cpHashSetFind w tree hashid obj = some x →
      ∃ t t' w' L' FN' FP', sh = some t ∧ x ∈ t.leaves ∧
        cpBBTreeReindexObject fuel tree obj hashid w = some w' ∧
        WF w' tree (some t') L' FN' FP' ∧ t'.leaves.Perm t.leaves ∧
        (w'.index tree).leaves = (w.index tree).leaves ∧
        (w'.index tree).stamp = (w.index tree).stamp + 1 ∧
        w'.calls = w.calls ∧ Outside tree w w' ∧
        (∀ y ∈ t.leaves, y ≠ x → (w'.node y).obj = (w.node y).obj ∧
          (w'.node y).bb = (w.node y).bb ∧ (w'.node y).stamp = (w.node y).stamp) ∧
        (w'.node x).obj = (w.node x).obj ∧
        (cpBBContainsBB (w.node x).bb ((w.index tree).bbfunc (w.node x).obj) = true →
          w' = IncrementStamp tree w ∧ t' = t ∧ L' = L ∧ FN' = FN ∧ FP' = FP) ∧
        (cpBBContainsBB (w.node x).bb ((w.index tree).bbfunc (w.node x).obj) = false →
          (w'.node x).bb = GetBB w tree (w.node x).obj ∧
          (w'.node x).stamp = (w.index tree).stamp ∧
          ∃ fs pm, t' = plug fs (Shape.leaf x) ∧
            (∀ r, r ∉ L x → (pm r).a.leaf = (w.pair r).a.leaf ∧
              (pm r).b.leaf = (w.pair r).b.leaf) ∧
            Grown t'.leaves x pm
              (fun z => if z = x then [] else (L z).filter (fun q => decide (q ∉ L x)))
              w'.pair L' (upIns w'.node x fs))) := by
  constructor
  · intro h
    simp only [cpBBTreeReindexObject, h]
  · intro x hfind
    obtain ⟨hmem, _⟩ := cpHashSetFind_some w tree hashid obj x hfind
    have hxl : x ∈ shLeaves sh := Listed_mem w tree sh wf.2 hashid x hmem
    cases sh with
    | none => simp [shLeaves] at hxl
    | some t =>
    simp only [shLeaves] at hxl hfuel1 hfuel2
    obtain ⟨hstay, hmove⟩ := LeafUpdate_spec tree x t w L FN FP fuel wf.1.weaken hxl
      (by omega) (hfuel2 x hxl)
    cases hc : cpBBContainsBB (w.node x).bb ((w.index tree).bbfunc (w.node x).obj) with
    | true =>
      have hres := hstay hc
      have hinc := IncrementStamp_alone tree w wf.1.noDynamic
      refine ⟨t, t, IncrementStamp tree w, L, FN, FP, rfl, hxl, ?_,
        ⟨IncrementStamp_ok wf.1.weaken, ?_⟩, List.Perm.refl _, ?_, ?_, ?_, ?_, ?_, ?_,
        fun _ => ⟨rfl, rfl, rfl, rfl, rfl⟩, fun h => by cases h⟩
      · simp only [cpBBTreeReindexObject, hfind, hres, Bool.false_eq_true, if_false]
      · exact Listed_congr w _ tree (some t) (by rw [hinc]; simp) wf.2
      · rw [hinc]; simp
      · rw [hinc]; simp
      · rw [hinc]; rfl
      · rw [hinc]; exact Outside.setIndex tree w _ ⟨rfl, rfl, rfl, rfl, rfl⟩
      · intro y _ _; rw [hinc]; exact ⟨rfl, rfl, rfl⟩
      · rw [hinc]; rfl
    | false =>
      obtain ⟨t', w1, FN', FP1, hres, ok1, hperm, hox, hbx, hsx, hoth, hleaf, hlv, hst, hcalls,
        hout⟩ := hmove hc
      have hx' : x ∈ t'.leaves := hperm.mem_iff.2 hxl
      obtain ⟨fs, hfs⟩ := exists_path x t' hx'
      subst hfs
      obtain ⟨w2, L', FP', hres2, ok2, hfr2, hcalls2, hg⟩ :=
        LeafAddPairs_spec tree x fs w1 _ FN' FP1 fuel ok1 (by rw [hsx, hst])
          (by rw [hperm.length_eq]; exact hfuel1)
      have hinc := IncrementStamp_alone tree w2 ok2.noDynamic
      have hc2 := hfr2.core tree
      have hn : ∀ i, ((IncrementStamp tree w2).node i).skel = (w1.node i).skel := by
        intro i
        rw [hinc, setIndex_node]
        exact hfr2.skel i
      have hlv2 : ((IncrementStamp tree w2).index tree).leaves = (w.index tree).leaves := by
        rw [hinc]
        simp only [setIndex_index, upd_same]
        rw [core_leaves hc2, hlv]
      refine ⟨t, plug fs (Shape.leaf x), IncrementStamp tree w2, L', FN', FP', rfl, hxl, ?_,
        ⟨IncrementStamp_ok ok2, ?_⟩, hperm, hlv2, ?_, ?_, ?_, ?_, ?_, (fun h => by cases h), ?_⟩
      · simp only [cpBBTreeReindexObject, hfind, hres, if_true, hres2]
      · unfold Listed
        rw [hlv2]
        exact wf.2.trans hperm.symm
      · rw [hinc]
        simp only [setIndex_index, upd_same]
        rw [core_stamp hc2, hst]
      · rw [hinc]
        simp only [setIndex_calls]
        rw [hcalls2, hcalls]
      · rw [hinc]
        have o : Outside tree w2 (w2.setIndex tree
            { w2.index tree with stamp := (w2.index tree).stamp + 1 }) :=
          Outside.setIndex tree w2 _ ⟨rfl, rfl, rfl, rfl, rfl⟩
        exact hout.outComp (hfr2.pairOutside.outComp o)
      · intro y hy hyx
        have e := skel_eq_fields (hn y)
        rw [e.1, e.2.1, e.2.2.2.2.2]
        exact hoth y hy hyx
      · rw [(skel_eq_fields (hn x)).1]; exact hox
      · intro _
        refine ⟨?_, ?_, fs, w1.pair, rfl, hleaf, ?_⟩
        · rw [(skel_eq_fields (hn x)).2.1]; exact hbx
        · rw [(skel_eq_fields (hn x)).2.2.2.2.2]; exact hsx
        · have hp : (IncrementStamp tree w2).pair = w2.pair := by rw [hinc]; rfl
          rw [hp, upIns_congr _ _ hn]
          exact hg

/-- With no motion, the `LeafUpdate` pass leaves the memory alone. -/
theorem leafUpdateEach_still (tree : Nat) (t : Shape) (w : World) (L : Nat → List Nat)
    (FN FP : List Nat) (fuel : Nat) (ok : TreeOK 1 w tree (some t) L FN FP)
    (hfuel1 : t.leaves.length ≤ fuel) (hfuel2 : ∀ x ∈ t.leaves, (L x).length ≤ fuel) :
    ∀ es : List (Nat × Nat), (∀ e ∈ es, e.2 ∈ t.leaves) →
      (∀ e ∈ es, cpBBContainsBB (w.node e.2).bb ((w.index tree).bbfunc (w.node e.2).obj) = true) →
      leafUpdateEach fuel tree es w = some w
  | [], _, _ => rfl
  | e :: es, hes, hc => by
    have h1 := (LeafUpdate_spec tree e.2 t w L FN FP fuel ok (hes e (List.mem_cons_self _ _))
      hfuel1 (hfuel2 _ (hes e (List.mem_cons_self _ _)))).1 (hc e (List.mem_cons_self _ _))
    simp only [leafUpdateEach, h1]
    exact leafUpdateEach_still tree t w L FN FP fuel ok hfuel1 hfuel2 es
      (fun e' he' => hes e' (List.mem_cons_of_mem _ he'))
      (fun e' he' => hc e' (List.mem_cons_of_mem _ he'))

/-- The `LeafUpdate` pass keeps the tree sound. -/
theorem leafUpdateEach_ok (tree : Nat) (K fuel : Nat) :
    ∀ (es : List (Nat × Nat)) (t : Shape) (w : World) (L : Nat → List Nat) (FN FP : List Nat),
      TreeOK 1 w tree (some t) L FN FP → (∀ e ∈ es, e.2 ∈ t.leaves) →
      (∀ z ∈ t.leaves, (L z).length ≤ K) → t.leaves.length ≤ fuel → K ≤ fuel →
      ∃ t' w' L' FN' FP', leafUpdateEach fuel tree es w = some w' ∧
        TreeOK 1 w' tree (some t') L' FN' FP' ∧ t'.leaves.Perm t.leaves ∧
        (∀ z ∈ t.leaves, (L' z).length ≤ K) ∧
        (w'.index tree).leaves = (w.index tree).leaves ∧
        (w'.index tree).stamp = (w.index tree).stamp ∧
        w'.calls = w.calls ∧ Outside tree w w' ∧
        (∀ y ∈ t.leaves, (w'.node y).obj = (w.node y).obj)
  | [], t, w, L, FN, FP, ok, _, hK, _, _ =>
    ⟨t, w, L, FN, FP, rfl, ok, List.Perm.refl _, hK, rfl, rfl, rfl, Outside.outSame tree w,
      fun _ _ => rfl⟩
  | e :: es, t, w, L, FN, FP, ok, hes, hK, hf1, hf2 => by
    have hx := hes e (List.mem_cons_self _ _)
    obtain ⟨hstay, hmove⟩ := LeafUpdate_spec tree e.2 t w L FN FP fuel ok hx hf1
      (le_trans (hK _ hx) hf2)
    cases hc : cpBBContainsBB (w.node e.2).bb ((w.index tree).bbfunc (w.node e.2).obj) with
    | true =>
      obtain ⟨t', w', L', FN', FP', hres, ok', hperm, hK', hlv, hst, hcalls, hout, hobj⟩ :=
        leafUpdateEach_ok tree K fuel es t w L FN FP ok
          (fun e' he' => hes e' (List.mem_cons_of_mem _ he')) hK hf1 hf2
      refine ⟨t', w', L', FN', FP', ?_, ok', hperm, hK', hlv, hst, hcalls, hout, hobj⟩
      simp only [leafUpdateEach, hstay hc]
      exact hres
    | false =>
      obtain ⟨t1, w1, FN1, FP1, hres1, ok1, hperm1, hox, _, _, hoy, _, hlv1, hst1, hcalls1,
          hout1⟩ := hmove hc
      have hK1 : ∀ z ∈ t1.leaves,
          ((fun z => if z = e.2 then [] else (L z).filter (fun q => decide (q ∉ L e.2))) z).length
            ≤ K := by
        intro z hz
        by_cases hze : z = e.2
        · simp [hze]
        · simp only [hze, if_false]
          exact le_trans (List.length_filter_le _ _) (hK z (hperm1.mem_iff.1 hz))
      obtain ⟨t', w', L', FN', FP', hres, ok', hperm, hK', hlv, hst, hcalls, hout, hobj⟩ :=
        leafUpdateEach_ok tree K fuel es t1 w1 _ FN1 FP1 ok1
          (fun e' he' => hperm1.mem_iff.2 (hes e' (List.mem_cons_of_mem _ he'))) hK1
          (by rw [hperm1.length_eq]; exact hf1) hf2
      refine ⟨t', w', L', FN', FP', ?_, ok', hperm.trans hperm1,
        fun z hz => hK' z (hperm1.mem_iff.2 hz), hlv.trans hlv1, hst.trans hst1,
        hcalls.trans hcalls1, hout1.outComp hout, ?_⟩
      · simp only [leafUpdateEach, hres1]
        exact hres
      · intro y hy
        rw [hobj y (hperm1.mem_iff.2 hy)]
        by_cases hyx : y = e.2
        · rw [hyx]; exact hox
        · exact (hoy y hy hyx).1

theorem not_mem_of_split {α : Type} (done rest all : List α) (x : α)
    (h : done ++ x :: rest = all) (hnd : all.Nodup) : x ∉ done := by
  subst h
  intro hx
  have := List.nodup_append.1 hnd
  exact this.2.2 hx (List.mem_cons_self _ _)

/-- The mark pass keeps the tree sound. -/
theorem MarkSubtree_ok (tree : Nat) (func : QueryFunc) (hfunc : func ≠ QueryFunc.null)
    (t : Shape) (w : World) (L : Nat → List Nat) (FN FP : List Nat) (K fuel : Nat)
    (ok : TreeOK 1 w tree (some t) L FN FP) (hK : ∀ z ∈ t.leaves, (L z).length ≤ K)
    (hfuel : K + 3 * t.leaves.length ≤ fuel) :
    ∃ w' L' FP', MarkSubtree fuel t.root ⟨tree, none, func⟩ w = some w' ∧
      TreeOK 1 w' tree (some t) L' FN FP' ∧ PairFrame tree w w' := by
  have hnd : t.leaves.Nodup := Shape.leaves_nodup t ok.nodup
  have hh := Shape.height_le_leaves t
  obtain ⟨w', hres, ⟨L', FP', ok', _, hfr⟩, _⟩ :=
    MarkSubtree_fold ⟨tree, none, func⟩ t.leaves
      (fun done w1 => ∃ L1 FP1, TreeOK 1 w1 tree (some t) L1 FN FP1 ∧
        (∀ z ∈ t.leaves, z ∉ done → (L1 z).length ≤ K + done.length) ∧ PairFrame tree w w1)
      (K + 2 * t.leaves.length)
      (by
        intro done x rest w1 fuel1 hall ⟨L1, FP1, ok1, hK1, hfr1⟩ hB
        have hxl : x ∈ t.leaves := by rw [← hall]; simp
        have hxd : x ∉ done := not_mem_of_split done rest t.leaves x hall hnd
        have hdl : done.length + 1 ≤ t.leaves.length := by
          rw [← hall]; simp
        obtain ⟨fs, hfs⟩ := exists_path x t hxl
        subst hfs
        obtain ⟨w2, L2, FP2, hres2, inv2, hfr2, hmoved, hstill⟩ :=
          MarkLeaf_spec tree x func hfunc fs w1 _ L1 FP1 fuel1 ok1.noDynamic ok1.pairs
            ok1.root.2.2 ok1.root.2.1 ok1.nodup (ok1.fit _ rfl) (fun y hy => hy)
            (fun _ => by omega) (fun _ => by have := hK1 x hxl hxd; omega)
        refine ⟨w2, hres2, ⟨L2, FP2, TreeOK_of_pairFrame ok1 hfr2 inv2, ?_,
          hfr1.pairTrans hfr2⟩, hfr2.skel⟩
        intro z hz hzd
        simp only [List.mem_append, List.mem_singleton, not_or] at hzd
        simp only [List.length_append, List.length_singleton]
        have h1 := hK1 z hz hzd.1
        by_cases hst : (w1.node x).stamp = (w1.index tree).stamp
        · have := (hmoved hst).2.length_le z hzd.2
          omega
        · rw [(hstill hst).2.1]
          omega)
      t [] [] w fuel (by simp) ok.root.2.2
      ⟨L, FP, ok, fun z hz _ => by have := hK z hz; simpa using this, PairFrame.pairRefl tree w⟩
      (by omega)
  exact ⟨w', L', FP', hres, ok', hfr⟩

/-- `cpBBTreeReindexQuery` on a well-formed tree. -/
theorem cpBBTreeReindexQuery_ok (tree : Nat) (func : QueryFunc) (hfunc : func ≠ QueryFunc.null)
    (w : World) (sh : Option Shape) (L : Nat → List Nat) (FN FP : List Nat) (K fuel : Nat)
    (wf : WF w tree sh L FN FP) (hK : ∀ z ∈ shLeaves sh, (L z).length ≤ K)
    (hfuel : K + 3 * (shLeaves sh).length ≤ fuel) :
    (sh = none → cpBBTreeReindexQuery fuel tree func w = some w) ∧
    (∀ t, sh = some t →
      ∃ t' w' L' FN' FP', cpBBTreeReindexQuery fuel tree func w = some w' ∧
        WF w' tree (some t') L' FN' FP' ∧ t'.leaves.Perm t.leaves ∧
        (w'.index tree).leaves = (w.index tree).leaves ∧
        (w'.index tree).stamp = (w.index tree).stamp + 1 ∧ Outside tree w w' ∧
        (∀ y ∈ t.leaves, (w'.node y).obj = (w.node y).obj)) := by
  constructor
  · intro h
    subst h
    have hr : (w.index tree).root = none := wf.1.root
    simp only [cpBBTreeReindexQuery, hr]
  · intro t ht
    subst ht
    simp only [shLeaves] at hK hfuel
    have hr : (w.index tree).root = some t.root := wf.1.root.1
    have hes : ∀ e ∈ (w.index tree).leaves, e.2 ∈ t.leaves := by
      intro e he
      exact wf.2.mem_iff.1 (List.mem_map_of_mem Prod.snd he)
    obtain ⟨t1, w1, L1, FN1, FP1, hres1, ok1, hperm1, hK1, hlv1, hst1, _, hout1, hobj1⟩ :=
      leafUpdateEach_ok tree K fuel (w.index tree).leaves t w L FN FP wf.1.weaken hes hK
        (by omega) (by omega)
    obtain ⟨w2, L2, FP2, hres2, ok2, hfr2⟩ :=
      MarkSubtree_ok tree func hfunc t1 w1 L1 FN1 FP1 K fuel ok1
        (fun z hz => hK1 z (hperm1.mem_iff.1 hz)) (by rw [hperm1.length_eq]; exact hfuel)
    have hinc := IncrementStamp_alone tree w2 ok2.noDynamic
    have hc2 := hfr2.core tree
    have hlv : ((IncrementStamp tree w2).index tree).leaves = (w.index tree).leaves := by
      rw [hinc]
      simp only [setIndex_index, upd_same]
      rw [core_leaves hc2, hlv1]
    refine ⟨t1, IncrementStamp tree w2, L2, FN1, FP2, ?_, ⟨IncrementStamp_ok ok2, ?_⟩, hperm1,
      hlv, ?_, ?_, ?_⟩
    · have hr1 : (w1.index tree).root = some t1.root := ok1.root.1
      simp only [cpBBTreeReindexQuery, hr, hres1, ok1.noStatic, GetRootIfTree_none, hr1, hres2]
    · unfold Listed
      rw [hlv]
      exact wf.2.trans hperm1.symm
    · rw [hinc]
      simp only [setIndex_index, upd_same]
      rw [core_stamp hc2, hst1]
    · rw [hinc]
      have o : Outside tree w2 (w2.setIndex tree
          { w2.index tree with stamp := (w2.index tree).stamp + 1 }) :=
        Outside.setIndex tree w2 _ ⟨rfl, rfl, rfl, rfl, rfl⟩
      exact hout1.outComp (hfr2.pairOutside.outComp o)
    · intro y hy
      rw [hinc]
      show (w2.node y).obj = (w.node y).obj
      rw [(skel_eq_fields (hfr2.skel y)).1]
      exact hobj1 y hy

/-- `SubtreeRecycle` returns the internal nodes of the shape to the pool and
leaves every other node alone. -/
theorem SubtreeRecycle_spec (tree : Nat) :
    ∀ (t : Shape) (w : World) (FN : List Nat) (fuel : Nat),
      NodePool w tree FN → Sub w.node t → t.ids.Nodup →
      (∀ i ∈ t.ids, i < w.nodeBrk ∧ i ∉ FN) → t.height ≤ fuel →
      ∃ w' FN', SubtreeRecycle fuel tree t.root w = some w' ∧ NodePool w' tree FN' ∧
        (∀ q, q ∈ FN' ↔ q ∈ t.inner ∨ q ∈ FN) ∧ (∀ j, j ∉ t.inner → w'.node j = w.node j) ∧
        w'.nodeBrk = w.nodeBrk ∧ NodeFrame tree w w'
  | Shape.leaf i, w, FN, fuel, pool, hs, _, _, hfuel => by
    cases fuel with
    | zero => simp at hfuel
    | succ fuel =>
    have hiobj : (w.node i).obj ≠ 0 := hs
    have hleaf : NodeIsLeaf w i = true := by simp [NodeIsLeaf, hiobj]
    refine ⟨w, FN, ?_, pool, fun q => by simp, fun _ _ => rfl, rfl, NodeFrame.nodeRefl tree w⟩
    simp only [SubtreeRecycle, Shape.root_leaf, hleaf, if_true]
  | Shape.node i l r, w, FN, fuel, pool, hs, hnd, hlive, hfuel => by
    cases fuel with
    | zero => simp at hfuel
    | succ fuel =>
    obtain ⟨hobj, ha, hb, _, _, hsl, hsr⟩ := hs
    obtain ⟨hil, hir, hndl, hndr, hdisj⟩ := (Shape.nodup_node i l r).1 hnd
    simp only [Shape.height_node, Nat.add_le_add_iff_right, max_le_iff] at hfuel
    have hleaf : NodeIsLeaf w i = false := by simp [NodeIsLeaf, hobj]
    have hll : ∀ j ∈ l.ids, j < w.nodeBrk ∧ j ∉ FN := fun j hj =>
      hlive j ((Shape.mem_ids_node _ _ _ _).2 (Or.inr (Or.inl hj)))
    have hlr : ∀ j ∈ r.ids, j < w.nodeBrk ∧ j ∉ FN := fun j hj =>
      hlive j ((Shape.mem_ids_node _ _ _ _).2 (Or.inr (Or.inr hj)))
    have hli := hlive i ((Shape.mem_ids_node _ _ _ _).2 (Or.inl rfl))
    obtain ⟨w1, FN1, hres1, pool1, hF1, hoth1, hbrk1, hfr1⟩ :=
      SubtreeRecycle_spec tree l w FN fuel pool hsl hndl hll hfuel.1
    have hsr1 : Sub w1.node r := by
      refine Sub_congr_eq w.node w1.node r hndr ?_ hsr
      intro j hj
      exact hoth1 j (fun h => hdisj j (Shape.inner_mem_ids l j h) hj)
    have hlr1 : ∀ j ∈ r.ids, j < w1.nodeBrk ∧ j ∉ FN1 := by
      intro j hj
      refine ⟨by rw [hbrk1]; exact (hlr j hj).1, ?_⟩
      intro h
      rcases (hF1 j).1 h with h' | h'
      · exact hdisj j (Shape.inner_mem_ids l j h') hj
      · exact (hlr j hj).2 h'
    obtain ⟨w2, FN2, hres2, pool2, hF2, hoth2, hbrk2, hfr2⟩ :=
      SubtreeRecycle_spec tree r w1 FN1 fuel pool1 hsr1 hndr hlr1 hfuel.2
    have hiF2 : i ∉ FN2 := by
      intro h
      rcases (hF2 i).1 h with h' | h'
      · exact hir (Shape.inner_mem_ids r i h')
      · rcases (hF1 i).1 h' with h'' | h''
        · exact hil (Shape.inner_mem_ids l i h'')
        · exact hli.2 h''
    refine ⟨NodeRecycle tree i w2, i :: FN2, ?_,
      NodeRecycle_pool tree i w2 FN2 pool2 hiF2 (by rw [hbrk2, hbrk1]; exact hli.1), ?_, ?_, ?_,
      (hfr1.nodeTrans hfr2).nodeTrans (NodeRecycle_frame tree i w2)⟩
    · simp only [SubtreeRecycle, Shape.root_node, hleaf, Bool.false_eq_true, if_false, ha, hb,
        hres1, hres2]
    · intro q
      simp only [List.mem_cons, Shape.inner_node, List.mem_append, hF2 q, hF1 q]
      tauto
    · intro j hj
      simp only [Shape.inner_node, List.mem_cons, List.mem_append, not_or] at hj
      rw [NodeRecycle_node_other tree i j w2 hj.1, hoth2 j hj.2.2, hoth1 j hj.2.1]
    · rw [NodeRecycle_nodeBrk, hbrk2, hbrk1]

/-! ## Segment queries -/

theorem Shape.path_leaf (i x : Nat) : (Shape.leaf i).path x = [i] := rfl

theorem Shape.path_node_left (i : Nat) (l r : Shape) (x : Nat) (h : x ∈ l.leaves) :
    (Shape.node i l r).path x = i :: l.path x := by
  simp [Shape.path, h]

theorem Shape.path_node_right (i : Nat) (l r : Shape) (x : Nat) (h : x ∉ l.leaves) :
    (Shape.node i l r).path x = i :: r.path x := by
  simp [Shape.path, h]

theorem segLeaves_leaf (isect : cpBB → cpVect → cpVect → Bool) (nd : Nat → Node) (a b : cpVect)
    (i : Nat) :
    segLeaves isect nd a b (Shape.leaf i) = if isect (nd i).bb a b then [i] else [] := by
  simp [segLeaves, Shape.path, List.filter_cons]

theorem segLeaves_node (isect : cpBB → cpVect → cpVect → Bool) (nd : Nat → Node) (a b : cpVect)
    (i : Nat) (l r : Shape) (hnd : (Shape.node i l r).leaves.Nodup) :
    segLeaves isect nd a b (Shape.node i l r) =
      if isect (nd i).bb a b then segLeaves isect nd a b l ++ segLeaves isect nd a b r
      else [] := by
  simp only [Shape.leaves_node] at hnd
  have hd := List.nodup_append.1 hnd
  unfold segLeaves
  simp only [Shape.leaves_node, List.filter_append]
  by_cases hq : isect (nd i).bb a b = true
  · rw [if_pos hq]
    congr 1
    · refine List.filter_congr ?_
      intro x hx
      rw [Shape.path_node_left i l r x hx]
      simp [hq]
    · refine List.filter_congr ?_
      intro x hx
      rw [Shape.path_node_right i l r x (fun h => hd.2.2 h hx)]
      simp [hq]
  · rw [if_neg hq]
    have hq' : isect (nd i).bb a b = false := by simpa using hq
    have e1 : l.leaves.filter (fun x =>
        ((Shape.node i l r).path x).all (fun j => isect (nd j).bb a b)) = [] := by
      rw [List.filter_eq_nil_iff]
      intro x hx
      rw [Shape.path_node_left i l r x hx]
      simp [hq']
    have e2 : r.leaves.filter (fun x =>
        ((Shape.node i l r).path x).all (fun j => isect (nd j).bb a b)) = [] := by
      rw [List.filter_eq_nil_iff]
      intro x hx
      rw [Shape.path_node_right i l r x (fun h => hd.2.2 h hx)]
      simp [hq']
    rw [e1, e2]
    rfl

theorem SubtreeSegmentQuery_spec (isect : cpBB → cpVect → cpVect → Bool) (obj : Nat)
    (a b : cpVect) :
    ∀ (t : Shape) (w : World) (fuel : Nat), Sub w.node t → t.leaves.Nodup → t.height ≤ fuel →
      SubtreeSegmentQuery isect fuel t.root obj a b QueryFunc.record w =
        some (w.addCalls ((segLeaves isect w.node a b t).map (fun x => (obj, (w.node x).obj))))
  | Shape.leaf i, w, fuel, hs, _, hfuel => by
    cases fuel with
    | zero => simp at hfuel
    | succ fuel =>
    have hiobj : (w.node i).obj ≠ 0 := hs
    have hleaf : NodeIsLeaf w i = true := by simp [NodeIsLeaf, hiobj]
    rw [segLeaves_leaf]
    by_cases hq : isect (w.node i).bb a b = true
    · simp [SubtreeSegmentQuery, hq, hleaf, callFunc, World.addCalls]
    · simp [SubtreeSegmentQuery, hq]
  | Shape.node i l r, w, fuel, hs, hnd, hfuel => by
    cases fuel with
    | zero => simp at hfuel
    | succ fuel =>
    obtain ⟨hobj, ha, hb, _, _, hsl, hsr⟩ := hs
    have hleaf : NodeIsLeaf w i = false := by simp [NodeIsLeaf, hobj]
    simp only [Shape.height_node, Nat.add_le_add_iff_right, max_le_iff] at hfuel
    have hd := List.nodup_append.1 (by simpa using hnd : (l.leaves ++ r.leaves).Nodup)
    rw [segLeaves_node isect w.node a b i l r hnd]
    by_cases hq : isect (w.node i).bb a b = true
    · have h1 := SubtreeSegmentQuery_spec isect obj a b l w fuel hsl hd.1 hfuel.1
      have h2 := SubtreeSegmentQuery_spec isect obj a b r
        (w.addCalls ((segLeaves isect w.node a b l).map (fun x => (obj, (w.node x).obj)))) fuel
        hsr hd.2.1 hfuel.2
      simp only [SubtreeSegmentQuery, Shape.root_node, hq, hleaf, if_true, Bool.false_eq_true,
        if_false, ha, hb, h1, h2]
      simp
    · simp [SubtreeSegmentQuery, hq]

theorem SubtreeInsert_eq_ref :
    ∀ (fuel : Nat) (subtree : Option Nat) (leaf tree : Nat) (w : World),
      SubtreeInsert fuel subtree leaf tree w = SubtreeInsertRef fuel subtree leaf tree w
  | 0, none, _, _, _ => rfl
  | _ + 1, none, _, _, _ => rfl
  | 0, some _, _, _, _ => rfl
  | fuel + 1, some subtree, leaf, tree, w => by
    simp only [SubtreeInsert, SubtreeInsertRef, NodeIsLeaf]
    by_cases hobj : (w.node subtree).obj = 0
    · simp only [hobj, ne_eq, not_true_eq_false, decide_False, Bool.false_eq_true, if_false]
      cases ha : (w.node subtree).a with
      | none => rfl
      | some a =>
        cases hb : (w.node subtree).b with
        | none => rfl
        | some b =>
          simp only []
          by_cases hc : cpBBArea (w.node a).bb + cpBBMergedArea (w.node b).bb (w.node leaf).bb <
              cpBBArea (w.node b).bb + cpBBMergedArea (w.node a).bb (w.node leaf).bb
          · have hc' : ¬ (cpBBArea (w.node b).bb + cpBBMergedArea (w.node a).bb (w.node leaf).bb ≤
                cpBBArea (w.node a).bb + cpBBMergedArea (w.node b).bb (w.node leaf).bb) :=
              not_le.2 hc
            simp only [hc, hc', if_true, if_false,
              SubtreeInsert_eq_ref fuel (some b) leaf tree w]
            cases SubtreeInsertRef fuel (some b) leaf tree w <;> rfl
          · have hc' : cpBBArea (w.node b).bb + cpBBMergedArea (w.node a).bb (w.node leaf).bb ≤
                cpBBArea (w.node a).bb + cpBBMergedArea (w.node b).bb (w.node leaf).bb :=
              not_lt.1 hc
            simp only [hc, hc', if_true, if_false,
              SubtreeInsert_eq_ref fuel (some a) leaf tree w]
            cases SubtreeInsertRef fuel (some a) leaf tree w <;> rfl
    · simp only [hobj, ne_eq, not_false_eq_true, decide_True, if_true]

theorem Frame.fill_leaves (f : Frame) (t : Shape) :
    (f.fill t).leaves = if f.isLeft then t.leaves ++ f.sib.leaves else f.sib.leaves ++ t.leaves := by
  cases f <;> simp [Frame.fill, Frame.isLeft, Frame.sib]

theorem plug_leaves_eq : ∀ (fs : List Frame) (t : Shape),
    (plug fs t).leaves = ctxBefore fs ++ t.leaves ++ ctxAfter fs
  | [], t => by simp [plug, ctxBefore, ctxAfter]
  | Frame.left i s :: fs, t => by
    show (plug fs ((Frame.left i s).fill t)).leaves = _
    rw [plug_leaves_eq fs]
    simp [Frame.fill, ctxBefore, ctxAfter, List.append_assoc]
  | Frame.right i s :: fs, t => by
    show (plug fs ((Frame.right i s).fill t)).leaves = _
    rw [plug_leaves_eq fs]
    simp [Frame.fill, ctxBefore, ctxAfter, List.append_assoc]

theorem unplug_leaves : ∀ (fs : List Frame), shLeaves (unplug fs) = ctxBefore fs ++ ctxAfter fs
  | [] => rfl
  | Frame.left i s :: fs => by
    simp [unplug, shLeaves, plug_leaves_eq, ctxBefore, ctxAfter, Frame.sib, List.append_assoc]
  | Frame.right i s :: fs => by
    simp [unplug, shLeaves, plug_leaves_eq, ctxBefore, ctxAfter, Frame.sib, List.append_assoc]

/-- `SubtreeRemove` of the leaf at the bottom of a path, in its three cases. -/
theorem SubtreeRemove_path (tree x : Nat) (fs : List Frame) (w : World) (FN : List Nat)
    (fuel : Nat) (pool : NodePool w tree FN)
    (hs : Sub w.node (plug fs (Shape.leaf x)))
    (hroot : (w.node (plug fs (Shape.leaf x)).root).parent = none)
    (hnd : (plug fs (Shape.leaf x)).ids.Nodup)
    (hfit : ∀ f ∈ fs, Fit w.node f.sib)
    (hlive : ∀ i ∈ (plug fs (Shape.leaf x)).ids, i < w.nodeBrk ∧ i ∉ FN)
    (hfuel : (plug fs (Shape.leaf x)).height ≤ fuel) :
    ∃ w', SubtreeRemove fuel (some (plug fs (Shape.leaf x)).root) x tree w =
        some (Option.map Shape.root (unplug fs), w') ∧
      NodePool w' tree (unplugFree fs ++ FN) ∧
      (∀ t', unplug fs = some t' →
        Sub w'.node t' ∧ (w'.node t'.root).parent = none ∧ Fit w'.node t') ∧
      (fs = [] → w' = w) := by
  cases fs with
  | nil =>
    exact ⟨w, SubtreeRemove_root tree x fuel w, pool, (fun t' h => by cases h), fun _ => rfl⟩
  | cons f1 fs' =>
  cases fs' with
  | nil =>
    obtain ⟨w', hres, pool', hsub, hpar, _, hsame, _, _⟩ :=
      SubtreeRemove_one tree x f1 w FN fuel pool hs hroot hnd hlive
    have hnd' := (plug_nodup [f1] (Shape.leaf x)).1 hnd
    have hndc : (f1.id :: (f1.sib.ids ++ [])).Nodup := hnd'.2.1
    simp only [List.append_nil, List.nodup_cons] at hndc
    refine ⟨w', hres, pool', ?_, fun h => by cases h⟩
    intro t' ht'
    cases ht'
    refine ⟨hsub, hpar, sameButParent_fit w.node w'.node f1.sib ?_ (hfit f1 (by simp))⟩
    intro j hj
    exact hsame j (fun e => hndc.1 (e ▸ hj))
  | cons f2 rest =>
    have hh := plug_height (f1 :: f2 :: rest) (Shape.leaf x)
    simp only [List.length_cons, Shape.height_leaf] at hh
    obtain ⟨w', hres, pool', hsub, hpar, hfit', _, _, _, _⟩ :=
      SubtreeRemove_deep tree x f1 f2 rest w FN fuel pool hs hroot hnd hfit hlive
        (by simp only [List.length_cons]; omega)
    refine ⟨w', hres, pool', ?_, fun h => by cases h⟩
    intro t' ht'
    cases ht'
    exact ⟨hsub, hpar, hfit'⟩

/-! ## The partition loop of `partitionNodes` -/

theorem swap_perm_aux (l : List Nat) (i j x y : Nat) (hi : i < l.length) (hj : j < l.length)
    (hx : l[i] = x) (hy : l[j] = y) : ((l.set i y).set j x).Perm l := by
  rw [List.perm_iff_count]
  intro c
  have hj' : j < (l.set i y).length := by simpa using hj
  rw [List.count_set _ _ _ _ hj', List.count_set _ _ _ _ hi]
  have hxm : x ∈ l := hx ▸ List.getElem_mem hi
  have hym : y ∈ l := hy ▸ List.getElem_mem hj
  by_cases hij : i = j
  · subst hij
    simp only [List.getElem_set_self, hx]
    rw [hx] at hy
    subst hy
    by_cases h : x = c
    · have : 0 < l.count c := List.count_pos_iff.2 (h ▸ hxm)
      simp [h]; omega
    · simp [h]
  · simp only [List.getElem_set_ne hij, hx, hy]
    by_cases h : x = c <;> by_cases h2 : y = c
    · have : 0 < l.count c := List.count_pos_iff.2 (h ▸ hxm)
      simp [h, h2]; omega
    · have : 0 < l.count c := List.count_pos_iff.2 (h ▸ hxm)
      simp [h, h2]; omega
    · have : 0 < l.count c := List.count_pos_iff.2 (h2 ▸ hym)
      simp [h, h2]
    · simp [h, h2]

theorem getD_eq_get (l : List Nat) (i : Nat) (hi : i < l.length) : l.getD i 0 = l[i] := by
  simp [List.getD_eq_getElem?_getD, hi]

theorem swap_perm (l : List Nat) (i j : Nat) (hi : i < l.length) (hj : j < l.length) :
    ((l.set i (l.getD j 0)).set j (l.getD i 0)).Perm l :=
  swap_perm_aux l i j _ _ hi hj (getD_eq_get l i hi).symm (getD_eq_get l j hj).symm

theorem swap_getD_left (l : List Nat) (i j : Nat) (hi : i < l.length) (hj : j < l.length)
    (hij : i ≠ j) : ((l.set i (l.getD j 0)).set j (l.getD i 0)).getD i 0 = l.getD j 0 := by
  simp [List.getD_eq_getElem?_getD, List.getElem?_set, hi, hj, hij, Ne.symm hij]

theorem swap_getD_other (l : List Nat) (i j k x y : Nat) (hki : k ≠ i) (hkj : k ≠ j) :
    ((l.set i x).set j y).getD k 0 = l.getD k 0 := by
  simp [List.getD_eq_getElem?_getD, List.getElem?_set, Ne.symm hki, Ne.symm hkj]

/-- The loop of `partitionNodes` permutes the nodes, and the left part it
returns is not empty when some node prefers the left box. -/
theorem partitionLoop_spec (w : World) (a b : cpBB) :
    ∀ (k left right : Nat) (nodes : List Nat), right ≤ nodes.length →
      (∃ i, i < right ∧ ¬ (cpBBMergedArea (w.node (nodes.getD i 0)).bb b <
        cpBBMergedArea (w.node (nodes.getD i 0)).bb a)) →
      (partitionLoop w a b k left right nodes).1.Perm nodes ∧
        1 ≤ (partitionLoop w a b k left right nodes).2 ∧
        (partitionLoop w a b k left right nodes).2 ≤ nodes.length
  | 0, left, right, nodes, hr, ⟨i, hi, _⟩ => by
    simp only [partitionLoop]
    exact ⟨List.Perm.refl _, by omega, hr⟩
  | k + 1, left, right, nodes, hr, ⟨i, hi, hP⟩ => by
    simp only [partitionLoop]
    by_cases hlr : left < right
    · simp only [hlr, if_true]
      by_cases hgo : cpBBMergedArea (w.node (nodes.getD left 0)).bb b <
          cpBBMergedArea (w.node (nodes.getD left 0)).bb a
      · simp only [hgo, if_true]
        have hil : i ≠ left := fun e => hP (e ▸ hgo)
        have hl : left < nodes.length := by omega
        have hr1 : right - 1 < nodes.length := by omega
        have hperm := swap_perm nodes left (right - 1) hl hr1
        have hlen : ((nodes.set left (nodes.getD (right - 1) 0)).set (right - 1)
            (nodes.getD left 0)).length = nodes.length := by simp
        have ih := partitionLoop_spec w a b k left (right - 1)
          ((nodes.set left (nodes.getD (right - 1) 0)).set (right - 1) (nodes.getD left 0))
          (by rw [hlen]; omega)
          (by
            by_cases hir : i = right - 1
            · have hne : left ≠ right - 1 := fun e => hil (hir.trans e.symm)
              refine ⟨left, by omega, ?_⟩
              rw [swap_getD_left nodes left (right - 1) hl hr1 hne, ← hir]
              exact hP
            · refine ⟨i, by omega, ?_⟩
              rw [swap_getD_other nodes left (right - 1) i _ _ hil hir]
              exact hP)
        rw [hlen] at ih
        exact ⟨ih.1.trans hperm, ih.2⟩
      · simp only [hgo, if_false]
        exact partitionLoop_spec w a b k (left + 1) right nodes hr ⟨i, hi, hP⟩
    · simp only [hlr, if_false]
      exact ⟨List.Perm.refl _, by omega, hr⟩

/-! ## The box of a group of nodes -/

theorem foldl_merge_le (nd : Nat → Node) :
    ∀ (ns : List Nat) (acc : cpBB),
      (ns.foldl (fun acc n => cpBBMerge acc (nd n).bb) acc).l ≤ acc.l ∧
      (ns.foldl (fun acc n => cpBBMerge acc (nd n).bb) acc).b ≤ acc.b ∧
      acc.r ≤ (ns.foldl (fun acc n => cpBBMerge acc (nd n).bb) acc).r ∧
      acc.t ≤ (ns.foldl (fun acc n => cpBBMerge acc (nd n).bb) acc).t ∧
      ∀ n ∈ ns,
        (ns.foldl (fun acc n => cpBBMerge acc (nd n).bb) acc).l ≤ (nd n).bb.l ∧
        (ns.foldl (fun acc n => cpBBMerge acc (nd n).bb) acc).b ≤ (nd n).bb.b ∧
        (nd n).bb.r ≤ (ns.foldl (fun acc n => cpBBMerge acc (nd n).bb) acc).r ∧
        (nd n).bb.t ≤ (ns.foldl (fun acc n => cpBBMerge acc (nd n).bb) acc).t
  | [], acc => by simp
  | m :: ns, acc => by
    simp only [List.foldl_cons]
    obtain ⟨h1, h2, h3, h4, h5⟩ := foldl_merge_le nd ns (cpBBMerge acc (nd m).bb)
    have e1 : (cpBBMerge acc (nd m).bb).l = min acc.l (nd m).bb.l := rfl
    have e2 : (cpBBMerge acc (nd m).bb).b = min acc.b (nd m).bb.b := rfl
    have e3 : (cpBBMerge acc (nd m).bb).r = max acc.r (nd m).bb.r := rfl
    have e4 : (cpBBMerge acc (nd m).bb).t = max acc.t (nd m).bb.t := rfl
    rw [e1] at h1; rw [e2] at h2; rw [e3] at h3; rw [e4] at h4
    refine ⟨h1.trans (min_le_left _ _), h2.trans (min_le_left _ _),
      (le_max_left _ _).trans h3, (le_max_left _ _).trans h4, ?_⟩
    intro n hn
    rcases List.mem_cons.1 hn with e | e
    · subst e
      exact ⟨h1.trans (min_le_right _ _), h2.trans (min_le_right _ _),
        (le_max_right _ _).trans h3, (le_max_right _ _).trans h4⟩
    · exact h5 n e

theorem foldl_merge_attain (nd : Nat → Node) :
    ∀ (ns : List Nat) (acc : cpBB),
      ((ns.foldl (fun acc n => cpBBMerge acc (nd n).bb) acc).l = acc.l ∨
        ∃ n ∈ ns, (ns.foldl (fun acc n => cpBBMerge acc (nd n).bb) acc).l = (nd n).bb.l) ∧
      ((ns.foldl (fun acc n => cpBBMerge acc (nd n).bb) acc).b = acc.b ∨
        ∃ n ∈ ns, (ns.foldl (fun acc n => cpBBMerge acc (nd n).bb) acc).b = (nd n).bb.b)
  | [], acc => by simp
  | m :: ns, acc => by
    simp only [List.foldl_cons]
    obtain ⟨h1, h2⟩ := foldl_merge_attain nd ns (cpBBMerge acc (nd m).bb)
    have e1 : (cpBBMerge acc (nd m).bb).l = min acc.l (nd m).bb.l := rfl
    have e2 : (cpBBMerge acc (nd m).bb).b = min acc.b (nd m).bb.b := rfl
    constructor
    · rcases h1 with h | ⟨n, hn, h⟩
      · rw [e1] at h
        rcases min_choice acc.l (nd m).bb.l with c | c
        · left; rw [h, c]
        · right; exact ⟨m, List.mem_cons_self _ _, by rw [h, c]⟩
      · right; exact ⟨n, List.mem_cons_of_mem _ hn, h⟩
    · rcases h2 with h | ⟨n, hn, h⟩
      · rw [e2] at h
        rcases min_choice acc.b (nd m).bb.b with c | c
        · left; rw [h, c]
        · right; exact ⟨m, List.mem_cons_self _ _, by rw [h, c]⟩
      · right; exact ⟨n, List.mem_cons_of_mem _ hn, h⟩

theorem collectBounds_mem (w : World) (splitWidth : Bool) :
    ∀ (ns : List Nat) (q : ℚ), q ∈ collectBounds w splitWidth ns →
      ∃ n ∈ ns, if splitWidth = true then q = (w.node n).bb.l ∨ q = (w.node n).bb.r
        else q = (w.node n).bb.b ∨ q = (w.node n).bb.t
  | [], q, h => by simp [collectBounds] at h
  | m :: ns, q, h => by
    cases splitWidth with
    | true =>
      simp only [collectBounds, if_true, List.mem_cons] at h
      rcases h with h | h | h
      · exact ⟨m, List.mem_cons_self _ _, by simp [h]⟩
      · exact ⟨m, List.mem_cons_self _ _, by simp [h]⟩
      · obtain ⟨n, hn, hq⟩ := collectBounds_mem w true ns q h
        exact ⟨n, List.mem_cons_of_mem _ hn, hq⟩
    | false =>
      simp only [collectBounds, Bool.false_eq_true, if_false, List.mem_cons] at h
      rcases h with h | h | h
      · exact ⟨m, List.mem_cons_self _ _, by simp [h]⟩
      · exact ⟨m, List.mem_cons_self _ _, by simp [h]⟩
      · obtain ⟨n, hn, hq⟩ := collectBounds_mem w false ns q h
        exact ⟨n, List.mem_cons_of_mem _ hn, hq⟩

theorem collectBounds_length (w : World) (splitWidth : Bool) :
    ∀ ns : List Nat, (collectBounds w splitWidth ns).length = 2 * ns.length
  | [] => rfl
  | m :: ns => by
    have ih := collectBounds_length w splitWidth ns
    cases splitWidth <;> simp [collectBounds, ih] <;> omega

theorem mem_getD (l : List Nat) (n : Nat) (h : n ∈ l) : ∃ i, i < l.length ∧ l.getD i 0 = n := by
  obtain ⟨i, hi, e⟩ := List.getElem_of_mem h
  exact ⟨i, hi, by rw [getD_eq_get l i hi, e]⟩

theorem getD_mem_rat (l : List ℚ) (i : Nat) (h : i < l.length) : l.getD i 0 ∈ l := by
  have : l.getD i 0 = l[i] := by simp [List.getD_eq_getElem?_getD, h]
  rw [this]
  exact List.getElem_mem h

/-- Some node of the group prefers the left box of the split: the left part
of the partition is never empty. -/
theorem partition_keeps_one (w : World) (n0 : Nat) (rest : List Nat)
    (hv : ∀ n ∈ n0 :: rest, cpBBValid (w.node n).bb) (bb a b : cpBB) (sw : Bool) (split : ℚ)
    (hbb : bb = rest.foldl (fun acc n => cpBBMerge acc (w.node n).bb) (w.node n0).bb)
    (hsplit : split =
      (((collectBounds w sw (n0 :: rest)).insertionSort (fun x y => x ≤ y)).getD
          ((n0 :: rest).length - 1) 0 +
        ((collectBounds w sw (n0 :: rest)).insertionSort (fun x y => x ≤ y)).getD
          (n0 :: rest).length 0) * (1 / 2))
    (ha : a = if sw = true then { bb with r := split } else { bb with t := split })
    (hb : b = if sw = true then { bb with l := split } else { bb with b := split }) :
    ∃ i, i < (n0 :: rest).length ∧
      ¬ (cpBBMergedArea (w.node ((n0 :: rest).getD i 0)).bb b <
        cpBBMergedArea (w.node ((n0 :: rest).getD i 0)).bb a) := by
  obtain ⟨f1, f2, f3, f4, f5⟩ := foldl_merge_le w.node rest (w.node n0).bb
  obtain ⟨g1, g2⟩ := foldl_merge_attain w.node rest (w.node n0).bb
  rw [← hbb] at f1 f2 f3 f4 f5 g1 g2
  have hall : ∀ n ∈ n0 :: rest, bb.l ≤ (w.node n).bb.l ∧ bb.b ≤ (w.node n).bb.b ∧
      (w.node n).bb.r ≤ bb.r ∧ (w.node n).bb.t ≤ bb.t := by
    intro n hn
    rcases List.mem_cons.1 hn with e | e
    · subst e; exact ⟨f1, f2, f3, f4⟩
    · exact f5 n e
  have hminl : ∃ n ∈ n0 :: rest, (w.node n).bb.l = bb.l := by
    rcases g1 with h | ⟨n, hn, h⟩
    · exact ⟨n0, List.mem_cons_self _ _, h.symm⟩
    · exact ⟨n, List.mem_cons_of_mem _ hn, h.symm⟩
  have hminb : ∃ n ∈ n0 :: rest, (w.node n).bb.b = bb.b := by
    rcases g2 with h | ⟨n, hn, h⟩
    · exact ⟨n0, List.mem_cons_self _ _, h.symm⟩
    · exact ⟨n, List.mem_cons_of_mem _ hn, h.symm⟩
  have hlen : ((collectBounds w sw (n0 :: rest)).insertionSort (fun x y => x ≤ y)).length =
      2 * (n0 :: rest).length := by
    rw [List.length_insertionSort, collectBounds_length]
  have hbound : ∀ q ∈ (collectBounds w sw (n0 :: rest)).insertionSort (fun x y => x ≤ y),
      if sw = true then bb.l ≤ q ∧ q ≤ bb.r else bb.b ≤ q ∧ q ≤ bb.t := by
    intro q hq
    have hq' : q ∈ collectBounds w sw (n0 :: rest) :=
      (List.perm_insertionSort _ _).mem_iff.1 hq
    obtain ⟨n, hn, hc⟩ := collectBounds_mem w sw _ q hq'
    obtain ⟨h1, h2, h3, h4⟩ := hall n hn
    obtain ⟨v1, v2⟩ := hv n hn
    cases sw with
    | true =>
      simp only [if_true] at hc ⊢
      rcases hc with e | e <;> rw [e] <;> constructor <;> linarith
    | false =>
      simp only [Bool.false_eq_true, if_false] at hc ⊢
      rcases hc with e | e <;> rw [e] <;> constructor <;> linarith
  have hlpos : 0 < (n0 :: rest).length := by simp
  have hq1 := hbound _ (getD_mem_rat _ ((n0 :: rest).length - 1) (by rw [hlen]; omega))
  have hq2 := hbound _ (getD_mem_rat _ (n0 :: rest).length (by rw [hlen]; omega))
  cases sw with
  | true =>
    simp only [if_true] at hq1 hq2 ha hb
    have hs1 : bb.l ≤ split := by rw [hsplit]; linarith
    have hs2 : split ≤ bb.r := by rw [hsplit]; linarith
    obtain ⟨n, hn, hl⟩ := hminl
    obtain ⟨i, hi, hgi⟩ := mem_getD _ n hn
    refine ⟨i, hi, ?_⟩
    rw [hgi, ha, hb]
    obtain ⟨h1, h2, h3, h4⟩ := hall n hn
    obtain ⟨v1, v2⟩ := hv n hn
    simp only [cpBBMergedArea, not_lt]
    have e1 : max (w.node n).bb.r bb.r = bb.r := max_eq_right h3
    have e2 : min (w.node n).bb.l split = bb.l := by rw [hl]; exact min_eq_left hs1
    have e3 : min (w.node n).bb.l bb.l = bb.l := by rw [hl]; exact min_self _
    have e4 : max (w.node n).bb.t bb.t = bb.t := max_eq_right h4
    have e5 : min (w.node n).bb.b bb.b = bb.b := min_eq_right h2
    rw [e1, e2, e3, e4, e5]
    have hm : max (w.node n).bb.r split ≤ bb.r := max_le h3 hs2
    exact mul_le_mul_of_nonneg_right (by linarith) (by linarith)
  | false =>
    simp only [Bool.false_eq_true, if_false] at hq1 hq2 ha hb
    have hs1 : bb.b ≤ split := by rw [hsplit]; linarith
    have hs2 : split ≤ bb.t := by rw [hsplit]; linarith
    obtain ⟨n, hn, hl⟩ := hminb
    obtain ⟨i, hi, hgi⟩ := mem_getD _ n hn
    refine ⟨i, hi, ?_⟩
    rw [hgi, ha, hb]
    obtain ⟨h1, h2, h3, h4⟩ := hall n hn
    obtain ⟨v1, v2⟩ := hv n hn
    simp only [cpBBMergedArea, not_lt]
    have e1 : max (w.node n).bb.r bb.r = bb.r := max_eq_right h3
    have e2 : min (w.node n).bb.b split = bb.b := by rw [hl]; exact min_eq_left hs1
    have e3 : min (w.node n).bb.b bb.b = bb.b := by rw [hl]; exact min_self _
    have e4 : max (w.node n).bb.t bb.t = bb.t := max_eq_right h4
    have e5 : min (w.node n).bb.l bb.l = bb.l := min_eq_right h1
    rw [e1, e2, e3, e4, e5]
    have hm : max (w.node n).bb.t split ≤ bb.t := max_le h4 hs2
    exact mul_le_mul_of_nonneg_left (by linarith) (by linarith)

/-! ## The insertion loop of `partitionNodes` -/

theorem Shape.two_le_leaves (i : Nat) (l r : Shape) : 2 ≤ (Shape.node i l r).leaves.length := by
  have h1 := List.length_pos.2 (Shape.leaves_ne_nil l)
  have h2 := List.length_pos.2 (Shape.leaves_ne_nil r)
  simp only [Shape.leaves_node, List.length_append]
  omega

theorem insertEach_spec (tree : Nat) :
    ∀ (ns : List Nat) (sh : Option Shape) (w : World) (FN : List Nat) (fuel : Nat),
      NodePool w tree FN → (∀ t, sh = some t → Sub w.node t ∧ Fit w.node t) →
      (ns ++ shIds sh).Nodup → (∀ i ∈ ns ++ shIds sh, i < w.nodeBrk ∧ i ∉ FN) →
      (∀ x ∈ ns, (w.node x).obj ≠ 0) →
      (∀ i l r, sh = some (Shape.node i l r) → (w.node i).parent = none) →
      ns.length + (shLeaves sh).length ≤ fuel + 1 →
      ∃ sh' w' FN', insertEach fuel tree ns (Option.map Shape.root sh) w =
          some (Option.map Shape.root sh', w') ∧
        NodePool w' tree FN' ∧ (∀ t, sh' = some t → Sub w'.node t ∧ Fit w'.node t) ∧
        (shIds sh').Nodup ∧ (shLeaves sh').Perm (ns ++ shLeaves sh) ∧
        (∀ i l r, sh' = some (Shape.node i l r) → (w'.node i).parent = none) ∧
        (∀ i ∈ shIds sh', i < w'.nodeBrk ∧ i ∉ FN') ∧
        (∀ i ∈ shIds sh', i ∈ ns ∨ i ∈ shIds sh ∨ i ∈ FN ∨ w.nodeBrk ≤ i) ∧
        (∀ q ∈ FN', q ∈ FN ∨ w.nodeBrk ≤ q) ∧
        (∀ i, i < w.nodeBrk → i ∉ FN → i ∉ ns → i ∉ shIds sh → w'.node i = w.node i) ∧
        (∀ i ∈ ns ++ shLeaves sh, (w.node i).sameButParent (w'.node i)) ∧
        NodeFrame tree w w'
  | [], sh, w, FN, fuel, pool, hs, hnd, hlive, _, hpar, _ => by
    refine ⟨sh, w, FN, rfl, pool, hs, by simpa using hnd, List.Perm.refl _, hpar,
      fun i hi => hlive i (by simpa using hi), fun i hi => Or.inr (Or.inl hi),
      fun q hq => Or.inl hq, fun _ _ _ _ _ => rfl, fun _ _ => sameButParent_refl _,
      NodeFrame.nodeRefl _ _⟩
  | x :: ns, sh, w, FN, fuel, pool, hs, hnd, hlive, hobj, hpar, hfuel => by
    have hnd' : x ∉ ns ++ shIds sh ∧ (ns ++ shIds sh).Nodup := List.nodup_cons.1 hnd
    have hxns : x ∉ ns := fun h => hnd'.1 (List.mem_append_left _ h)
    have hxsh : x ∉ shIds sh := fun h => hnd'.1 (List.mem_append_right _ h)
    have hnsnd : ns.Nodup := (List.nodup_append.1 hnd'.2).1
    have hshnd : (shIds sh).Nodup := (List.nodup_append.1 hnd'.2).2.1
    have hdisj : ∀ i ∈ ns, i ∉ shIds sh := fun i hi h =>
      (List.nodup_append.1 hnd'.2).2.2 hi h
    simp only [List.length_cons] at hfuel
    obtain ⟨t1, w1, FN1, hres, pool1, hsub1, hpar1, hfit1, hnd1, hperm1, hlive1, horig1,
        hfree1, hrest1, hsame1, hfr1⟩ :=
      SubtreeInsert_any tree x sh w FN fuel pool hs hshnd hxsh (hobj x (List.mem_cons_self _ _))
        (by
          intro i hi
          rcases List.mem_cons.1 hi with e | e
          · exact hlive i (by rw [e]; exact List.mem_cons_self _ _)
          · exact hlive i (List.mem_cons_of_mem _ (List.mem_append_right _ e)))
        (by omega)
    have hns1 : ∀ i ∈ ns, w1.node i = w.node i := by
      intro i hi
      have hl := hlive i (List.mem_cons_of_mem _ (List.mem_append_left _ hi))
      exact hrest1 i hl.1 hl.2 (hdisj i hi) (fun e => hxns (e ▸ hi))
    have hnst1 : ∀ i ∈ ns, i ∉ t1.ids := by
      intro i hi h
      have hl := hlive i (List.mem_cons_of_mem _ (List.mem_append_left _ hi))
      rcases horig1 i h with e | e | e | e
      · exact hxns (e ▸ hi)
      · exact hdisj i hi e
      · exact hl.2 e
      · omega
    have hlen1 : t1.leaves.length = (shLeaves sh).length + 1 := by
      rw [hperm1.length_eq]; simp
    obtain ⟨sh', w', FN', hres', pool', hsub', hnd'', hperm', hpar', hlive', horig', hfree',
        hrest', hsame', hfr'⟩ :=
      insertEach_spec tree ns (some t1) w1 FN1 fuel pool1
        (by intro t ht; cases ht; exact ⟨hsub1, hfit1⟩)
        (by
          show (ns ++ t1.ids).Nodup
          exact List.nodup_append.2 ⟨hnsnd, hnd1, fun i hi h => hnst1 i hi h⟩)
        (by
          intro i hi
          show i < w1.nodeBrk ∧ i ∉ FN1
          rcases List.mem_append.1 hi with h | h
          · have hl := hlive i (List.mem_cons_of_mem _ (List.mem_append_left _ h))
            refine ⟨lt_of_lt_of_le hl.1 hfr1.nodeBrk, fun hF => ?_⟩
            rcases hfree1 i hF with e | e
            · exact hl.2 e
            · omega
          · exact hlive1 i h)
        (by intro i hi; rw [hns1 i hi]; exact hobj i (List.mem_cons_of_mem _ hi))
        (by
          intro i l r ht
          cases ht
          cases sh with
          | none =>
            have := Shape.two_le_leaves i l r
            have h1 : (Shape.node i l r).leaves.length = 1 := by rw [hperm1.length_eq]; rfl
            omega
          | some t =>
            exact hpar1 (fun h => by cases h) (fun i' l' r' h => hpar i' l' r' h))
        (by
          show ns.length + t1.leaves.length ≤ fuel + 1
          omega)
    refine ⟨sh', w', FN', ?_, pool', hsub', hnd'', ?_, hpar', hlive', ?_, ?_, ?_, ?_,
      hfr1.nodeTrans hfr'⟩
    · simp only [insertEach, hres]
      exact hres'
    · refine hperm'.trans ?_
      show (ns ++ t1.leaves).Perm (x :: ns ++ shLeaves sh)
      refine (List.Perm.append_left ns hperm1).trans ?_
      simp only [List.cons_append]
      exact List.perm_middle
    · intro i hi
      rcases horig' i hi with e | e | e | e
      · exact Or.inl (List.mem_cons_of_mem _ e)
      · rcases horig1 i e with f | f | f | f
        · exact Or.inl (f ▸ List.mem_cons_self _ _)
        · exact Or.inr (Or.inl f)
        · exact Or.inr (Or.inr (Or.inl f))
        · exact Or.inr (Or.inr (Or.inr f))
      · rcases hfree1 i e with f | f
        · exact Or.inr (Or.inr (Or.inl f))
        · exact Or.inr (Or.inr (Or.inr f))
      · exact Or.inr (Or.inr (Or.inr (le_trans hfr1.nodeBrk e)))
    · intro q hq
      rcases hfree' q hq with e | e
      · exact hfree1 q e
      · exact Or.inr (le_trans hfr1.nodeBrk e)
    · intro i hib hiF hins hish
      have hix : i ≠ x := fun e => hins (e ▸ List.mem_cons_self _ _)
      have hi_ns : i ∉ ns := fun h => hins (List.mem_cons_of_mem _ h)
      rw [← hrest1 i hib hiF hish hix]
      refine hrest' i (lt_of_lt_of_le hib hfr1.nodeBrk) ?_ hi_ns ?_
      · intro hF
        rcases hfree1 i hF with e | e
        · exact hiF e
        · omega
      · intro h
        rcases horig1 i h with e | e | e | e
        · exact hix e
        · exact hish e
        · exact hiF e
        · omega
    · intro i hi
      have h1 : (w.node i).sameButParent (w1.node i) := by
        rcases List.mem_cons.1 hi with e | e
        · exact hsame1 i (by rw [e]; exact List.mem_cons_self _ _)
        · rcases List.mem_append.1 e with f | f
          · rw [hns1 i f]; exact sameButParent_refl _
          · exact hsame1 i (List.mem_cons_of_mem _ f)
      have h2 : (w1.node i).sameButParent (w'.node i) := by
        refine hsame' i ?_
        show i ∈ ns ++ t1.leaves
        rcases List.mem_cons.1 hi with e | e
        · exact List.mem_append_right _ (hperm1.mem_iff.2 (by rw [e]; exact List.mem_cons_self _ _))
        · rcases List.mem_append.1 e with f | f
          · exact List.mem_append_left _ f
          · exact List.mem_append_right _ (hperm1.mem_iff.2 (List.mem_cons_of_mem _ f))
      exact sameButParent_trans h1 h2

/-! ## Joining two subtrees with `NodeNew` -/

theorem NodeNew_join (tree : Nat) (ta tb : Shape) (w : World) (FN : List Nat)
    (pool : NodePool w tree FN) (ha : Sub w.node ta) (hb : Sub w.node tb)
    (fa : Fit w.node ta) (fb : Fit w.node tb) (hnd : (ta.ids ++ tb.ids).Nodup)
    (hlive : ∀ i ∈ ta.ids ++ tb.ids, i < w.nodeBrk ∧ i ∉ FN) :
    ∃ n w' FN', NodeNew tree ta.root tb.root w = some (n, w') ∧ NodePool w' tree FN' ∧
      Sub w'.node (Shape.node n ta tb) ∧ Fit w'.node (Shape.node n ta tb) ∧
      (Shape.node n ta tb).ids.Nodup ∧ (w'.node n).parent = none ∧
      (∀ i ∈ (Shape.node n ta tb).ids, i < w'.nodeBrk ∧ i ∉ FN') ∧
      (n ∈ FN ∨ w.nodeBrk ≤ n) ∧ (∀ q ∈ FN', q ∈ FN ∨ w.nodeBrk ≤ q) ∧
      (∀ i, i < w.nodeBrk → i ≠ n → i ∉ ta.ids → i ∉ tb.ids → w'.node i = w.node i) ∧
      (∀ i ∈ ta.ids ++ tb.ids, (w.node i).sameButParent (w'.node i)) ∧
      NodeFrame tree w w' := by
  have hnda : ta.ids.Nodup := (List.nodup_append.1 hnd).1
  have hndb : tb.ids.Nodup := (List.nodup_append.1 hnd).2.1
  have hdisj : ∀ i ∈ ta.ids, i ∉ tb.ids := fun i hi h => (List.nodup_append.1 hnd).2.2 hi h
  have hra := Shape.root_mem_ids ta
  have hrb := Shape.root_mem_ids tb
  have hla := hlive ta.root (List.mem_append_left _ hra)
  have hlb := hlive tb.root (List.mem_append_right _ hrb)
  have hab : ta.root ≠ tb.root := fun e => hdisj _ hra (e ▸ hrb)
  obtain ⟨n, w', FN', hres, pool', hnF, hnb, hnfresh, hfree, hobj, hbb, hpar, hna, hnb', hwa,
      hwb, hrest, hfr⟩ := NodeNew_spec tree ta.root tb.root w FN pool hla.1 hlb.1 hla.2 hlb.2 hab
  have hnot : ∀ i ∈ ta.ids ++ tb.ids, i ≠ n := by
    intro i hi e
    have hl := hlive i hi
    rcases hnfresh with f | f
    · exact hl.2 (e ▸ f)
    · omega
  have hnode : ∀ i ∈ ta.ids ++ tb.ids, (w.node i).sameButParent (w'.node i) := by
    intro i hi
    by_cases h1 : i = ta.root
    · rw [h1, hwa]; rfl
    · by_cases h2 : i = tb.root
      · rw [h2, hwb]; rfl
      · rw [hrest i (hlive i hi).1 (hnot i hi) h1 h2]
        exact sameButParent_refl _
  have hkeep : ∀ (t : Shape), (∀ i ∈ t.ids, i ∈ ta.ids ++ tb.ids) → t.ids.Nodup →
      (∀ i ∈ t.ids, i ≠ t.root → i ≠ ta.root ∧ i ≠ tb.root) → Sub w.node t → Sub w'.node t := by
    intro t ht hn hroot hs
    refine Sub_congr w.node w'.node t hn ?_ hs
    intro i hi
    have hsb := hnode i (ht i hi)
    refine ⟨sameButParent_obj hsb, sameButParent_a hsb, sameButParent_b hsb, fun hir => ?_⟩
    obtain ⟨h1, h2⟩ := hroot i hi hir
    rw [hrest i (hlive i (ht i hi)).1 (hnot i (ht i hi)) h1 h2]
  have hsa : Sub w'.node ta := by
    refine hkeep ta (fun i hi => List.mem_append_left _ hi) hnda ?_ ha
    intro i hi hir
    exact ⟨hir, fun e => hdisj i hi (e ▸ hrb)⟩
  have hsb : Sub w'.node tb := by
    refine hkeep tb (fun i hi => List.mem_append_right _ hi) hndb ?_ hb
    intro i hi hir
    exact ⟨fun e => hdisj _ hra (e ▸ hi), hir⟩
  have hfa : Fit w'.node ta :=
    sameButParent_fit w.node w'.node ta (fun j hj => hnode j (List.mem_append_left _ hj)) fa
  have hfb : Fit w'.node tb :=
    sameButParent_fit w.node w'.node tb (fun j hj => hnode j (List.mem_append_right _ hj)) fb
  have hba : (w'.node ta.root).bb = (w.node ta.root).bb := by rw [hwa]
  have hbb' : (w'.node tb.root).bb = (w.node tb.root).bb := by rw [hwb]
  have hpa : (w'.node ta.root).parent = some n := by rw [hwa]
  have hpb : (w'.node tb.root).parent = some n := by rw [hwb]
  refine ⟨n, w', FN', hres, pool', ⟨hobj, hna, hnb', hpa, hpb, hsa, hsb⟩,
    ⟨by rw [hbb, hba, hbb'], hfa, hfb⟩, ?_, hpar, ?_, hnfresh, hfree, ?_, hnode, hfr⟩
  · exact (Shape.nodup_node n ta tb).2
      ⟨fun h => hnot n (List.mem_append_left _ h) rfl,
        fun h => hnot n (List.mem_append_right _ h) rfl, hnda, hndb, hdisj⟩
  · intro i hi
    rcases (Shape.mem_ids_node i n ta tb).1 hi with e | e | e
    · rw [e]; exact ⟨hnb, hnF⟩
    · have hl := hlive i (List.mem_append_left _ e)
      refine ⟨lt_of_lt_of_le hl.1 hfr.nodeBrk, fun hF => ?_⟩
      rcases hfree i hF with f | f
      · exact hl.2 f
      · omega
    · have hl := hlive i (List.mem_append_right _ e)
      refine ⟨lt_of_lt_of_le hl.1 hfr.nodeBrk, fun hF => ?_⟩
      rcases hfree i hF with f | f
      · exact hl.2 f
      · omega
  · intro i hib hin hia hitb
    exact hrest i hib hin (fun e => hia (e ▸ hra)) (fun e => hitb (e ▸ hrb))

/-! ## `partitionNodes` -/

theorem partitionNodes_unfold (fuel tree n0 n1 n2 : Nat) (rest : List Nat) (w : World)
    (bb a b : cpBB) (sw : Bool) (split : ℚ) (pr : List Nat × Nat)
    (hbb : bb = (n1 :: n2 :: rest).foldl (fun acc n => cpBBMerge acc (w.node n).bb) (w.node n0).bb)
    (hsw : sw = decide (bb.r - bb.l > bb.t - bb.b))
    (hsplit : split =
      (((collectBounds w sw (n0 :: n1 :: n2 :: rest)).insertionSort (fun x y => x ≤ y)).getD
          ((n0 :: n1 :: n2 :: rest).length - 1) 0 +
        ((collectBounds w sw (n0 :: n1 :: n2 :: rest)).insertionSort (fun x y => x ≤ y)).getD
          (n0 :: n1 :: n2 :: rest).length 0) * (1 / 2))
    (ha : a = if sw = true then { bb with r := split } else { bb with t := split })
    (hb : b = if sw = true then { bb with l := split } else { bb with b := split })
    (hpr : pr = partitionLoop w a b (n0 :: n1 :: n2 :: rest).length 0
      (n0 :: n1 :: n2 :: rest).length (n0 :: n1 :: n2 :: rest)) :
    (pr.2 = (n0 :: n1 :: n2 :: rest).length → ∀ r w1,
      insertEach fuel tree pr.1 none w = some (some r, w1) →
      partitionNodes (fuel + 1) tree (n0 :: n1 :: n2 :: rest) w = some (r, w1)) ∧
    (pr.2 ≠ (n0 :: n1 :: n2 :: rest).length → ∀ na w1 nb w2,
      partitionNodes fuel tree (pr.1.take pr.2) w = some (na, w1) →
      partitionNodes fuel tree (pr.1.drop pr.2) w1 = some (nb, w2) →
      partitionNodes (fuel + 1) tree (n0 :: n1 :: n2 :: rest) w = NodeNew tree na nb w2) := by
  subst hbb hsw hsplit ha hb hpr
  constructor
  · intro h r w1 hins
    rw [partitionNodes]
    · simp only [h, if_true, hins]
    · intro e; cases e
    · intro _ e; cases e
  · intro h na w1 nb w2 h1 h2
    rw [partitionNodes]
    · simp only [h, if_false, h1, h2]
    · intro e; cases e
    · intro _ e; cases e

/-- `partitionNodes` on a group of detached leaves with valid boxes builds a
tree over exactly these leaves. -/
theorem partitionNodes_spec (tree : Nat) :
    ∀ (k : Nat) (nodes : List Nat) (w : World) (FN : List Nat) (fuel : Nat),
      nodes.length ≤ k → nodes ≠ [] → NodePool w tree FN → nodes.Nodup →
      (∀ x ∈ nodes, (w.node x).obj ≠ 0 ∧ x < w.nodeBrk ∧ x ∉ FN ∧ cpBBValid (w.node x).bb) →
      nodes.length ≤ fuel →
      ∃ t' w' FN', partitionNodes fuel tree nodes w = some (t'.root, w') ∧
        NodePool w' tree FN' ∧ Sub w'.node t' ∧ Fit w'.node t' ∧ t'.ids.Nodup ∧
        t'.leaves.Perm nodes ∧
        (∀ i l r, t' = Shape.node i l r → (w'.node i).parent = none) ∧
        (∀ x, nodes = [x] → w' = w) ∧
        (∀ i ∈ t'.ids, i < w'.nodeBrk ∧ i ∉ FN') ∧
        (∀ i ∈ t'.ids, i ∈ nodes ∨ i ∈ FN ∨ w.nodeBrk ≤ i) ∧
        (∀ q ∈ FN', q ∈ FN ∨ w.nodeBrk ≤ q) ∧
        (∀ i, i < w.nodeBrk → i ∉ FN → i ∉ nodes → w'.node i = w.node i) ∧
        (∀ i ∈ nodes, (w.node i).sameButParent (w'.node i)) ∧
        NodeFrame tree w w'
  | 0, nodes, _, _, _, hk, hne, _, _, _, _ => by
    cases nodes with
    | nil => exact absurd rfl hne
    | cons _ _ => simp at hk
  | k + 1, nodes, w, FN, fuel, hk, hne, pool, hnd, hall, hfuel => by
    cases fuel with
    | zero =>
      cases nodes with
      | nil => exact absurd rfl hne
      | cons _ _ => simp at hfuel
    | succ fuel =>
    match nodes, hk, hne, hnd, hall, hfuel with
    | [], _, hne, _, _, _ => exact absurd rfl hne
    | [n], _, _, _, hall, _ =>
      have hn := hall n (List.mem_singleton.2 rfl)
      exact ⟨Shape.leaf n, w, FN, rfl, pool, hn.1, trivial, (by simp [Shape.ids]),
        List.Perm.refl _, (fun i l r h => by cases h), (fun _ _ => rfl),
        (fun i hi => by
          have : i = n := by simpa [Shape.ids] using hi
          rw [this]; exact ⟨hn.2.1, hn.2.2.1⟩),
        (fun i hi => Or.inl (by simpa [Shape.ids] using hi)), (fun q hq => Or.inl hq),
        (fun _ _ _ _ => rfl), (fun _ _ => sameButParent_refl _), NodeFrame.nodeRefl _ _⟩
    | [n0, n1], _, _, hnd, hall, _ =>
      have h0 := hall n0 (by simp)
      have h1 := hall n1 (by simp)
      have hne01 : n0 ≠ n1 := by
        intro e
        simp [e] at hnd
      obtain ⟨n, w', FN', hres, pool', hsub, hfit, hnd', hpar, hlive, hnfresh, hfree, hrest,
          hsame, hfr⟩ :=
        NodeNew_join tree (Shape.leaf n0) (Shape.leaf n1) w FN pool h0.1 h1.1 trivial trivial
          (by simpa [Shape.ids] using hne01)
          (by
            intro i hi
            have : i = n0 ∨ i = n1 := by simpa [Shape.ids] using hi
            rcases this with e | e
            · rw [e]; exact ⟨h0.2.1, h0.2.2.1⟩
            · rw [e]; exact ⟨h1.2.1, h1.2.2.1⟩)
      exact ⟨Shape.node n (Shape.leaf n0) (Shape.leaf n1), w', FN', hres, pool', hsub, hfit,
        hnd', List.Perm.refl _, (fun i l r h => by cases h; exact hpar),
        (fun x h => by cases h), hlive,
        (fun i hi => by
          rcases (Shape.mem_ids_node i n _ _).1 hi with e | e | e
          · rw [e]; exact Or.inr hnfresh
          · exact Or.inl (by
              have : i = n0 := by simpa [Shape.ids] using e
              simp [this])
          · exact Or.inl (by
              have : i = n1 := by simpa [Shape.ids] using e
              simp [this])),
        hfree,
        (fun i hib hiF hin => hrest i hib
          (fun e => by
            rcases hnfresh with f | f
            · exact hiF (e ▸ f)
            · omega)
          (fun h => hin (by
            have : i = n0 := by simpa [Shape.ids] using h
            simp [this]))
          (fun h => hin (by
            have : i = n1 := by simpa [Shape.ids] using h
            simp [this]))),
        (fun i hi => hsame i (by simpa [Shape.ids] using hi)), hfr⟩
    | n0 :: n1 :: n2 :: rest, hk, _, hnd, hall, hfuel =>
      have hv : ∀ n ∈ n0 :: n1 :: n2 :: rest, cpBBValid (w.node n).bb :=
        fun n hn => (hall n hn).2.2.2
      obtain ⟨hU1, hU2⟩ := partitionNodes_unfold fuel tree n0 n1 n2 rest w _ _ _ _ _ _
        rfl rfl rfl rfl rfl rfl
      obtain ⟨i0, hi0, hP0⟩ := partition_keeps_one w n0 (n1 :: n2 :: rest) hv _ _ _ _ _
        rfl rfl rfl rfl
      obtain ⟨hperm, hge, hle⟩ := partitionLoop_spec w _ _ (n0 :: n1 :: n2 :: rest).length 0
        (n0 :: n1 :: n2 :: rest).length (n0 :: n1 :: n2 :: rest) (Nat.le_refl _)
        ⟨i0, hi0, hP0⟩
      generalize hprdef : partitionLoop w _ _ (n0 :: n1 :: n2 :: rest).length 0
        (n0 :: n1 :: n2 :: rest).length (n0 :: n1 :: n2 :: rest) = pr at hU1 hU2 hperm hge hle
      have hprnd : pr.1.Nodup := hperm.nodup_iff.2 hnd
      have hprall : ∀ x ∈ pr.1, (w.node x).obj ≠ 0 ∧ x < w.nodeBrk ∧ x ∉ FN ∧
          cpBBValid (w.node x).bb := fun x hx => hall x (hperm.mem_iff.1 hx)
      have hprlen : pr.1.length = (n0 :: n1 :: n2 :: rest).length := hperm.length_eq
      by_cases hall_left : pr.2 = (n0 :: n1 :: n2 :: rest).length
      · obtain ⟨sh', w', FN', hres, pool', hsub, hnd', hperm', hpar, hlive, horig, hfree,
            hrest, hsame, hfr⟩ :=
          insertEach_spec tree pr.1 none w FN fuel pool (fun t h => by cases h)
            (by simpa [shIds] using hprnd)
            (by
              intro i hi
              have : i ∈ pr.1 := by simpa [shIds] using hi
              exact ⟨(hprall i this).2.1, (hprall i this).2.2.1⟩)
            (fun x hx => (hprall x hx).1) (fun i l r h => by cases h)
            (by
              simp only [shLeaves, List.length_nil, Nat.add_zero, hprlen]
              simp only [List.length_cons] at hfuel ⊢
              omega)
        cases sh' with
        | none =>
          have := hperm'.length_eq
          simp [shLeaves, hprlen] at this
        | some t' =>
          refine ⟨t', w', FN', hU1 hall_left t'.root w' hres, pool', (hsub t' rfl).1,
            (hsub t' rfl).2, hnd', ?_, ?_, (fun x h => by cases h), hlive, ?_, hfree, ?_, ?_,
            hfr⟩
          · exact (hperm'.trans (by simp [shLeaves])).trans hperm
          · intro i l r h
            exact hpar i l r (by rw [h])
          · intro i hi
            rcases horig i hi with e | e | e | e
            · exact Or.inl (hperm.mem_iff.1 e)
            · simp [shIds] at e
            · exact Or.inr (Or.inl e)
            · exact Or.inr (Or.inr e)
          · intro i hib hiF hin
            exact hrest i hib hiF (fun h => hin (hperm.mem_iff.1 h)) (by simp [shIds])
          · intro i hi
            exact hsame i (List.mem_append_left _ (hperm.mem_iff.2 hi))
      · have hlt : pr.2 < (n0 :: n1 :: n2 :: rest).length := lt_of_le_of_ne hle hall_left
        have hsplit : pr.1.take pr.2 ++ pr.1.drop pr.2 = pr.1 := List.take_append_drop _ _
        have hndsplit : (pr.1.take pr.2 ++ pr.1.drop pr.2).Nodup := by rw [hsplit]; exact hprnd
        have hndL : (pr.1.take pr.2).Nodup := (List.nodup_append.1 hndsplit).1
        have hndR : (pr.1.drop pr.2).Nodup := (List.nodup_append.1 hndsplit).2.1
        have hLR : ∀ i ∈ pr.1.take pr.2, i ∉ pr.1.drop pr.2 :=
          fun i hi h => (List.nodup_append.1 hndsplit).2.2 hi h
        have hLmem : ∀ i ∈ pr.1.take pr.2, i ∈ pr.1 := fun i hi => List.mem_of_mem_take hi
        have hRmem : ∀ i ∈ pr.1.drop pr.2, i ∈ pr.1 := fun i hi => List.mem_of_mem_drop hi
        have hmemLR : ∀ i ∈ pr.1, i ∈ pr.1.take pr.2 ∨ i ∈ pr.1.drop pr.2 := by
          intro i hi
          rw [← hsplit] at hi
          exact List.mem_append.1 hi
        have hlenL : (pr.1.take pr.2).length = pr.2 := by
          rw [List.length_take, hprlen]; omega
        have hlenR : (pr.1.drop pr.2).length = (n0 :: n1 :: n2 :: rest).length - pr.2 := by
          rw [List.length_drop, hprlen]
        simp only [List.length_cons] at hk hfuel hlt hlenR
        obtain ⟨ta, w1, FN1, hres1, pool1, hsub1, hfit1, hnd1, hperm1, _, _, hlive1, horig1,
            hfree1, hrest1, hsame1, hfr1⟩ :=
          partitionNodes_spec tree k (pr.1.take pr.2) w FN fuel (by omega)
            (by intro e; rw [e] at hlenL; simp at hlenL; omega) pool hndL
            (fun x hx => hprall x (hLmem x hx)) (by omega)
        have hR1 : ∀ i ∈ pr.1.drop pr.2, w1.node i = w.node i := by
          intro i hi
          have hl := hprall i (hRmem i hi)
          exact hrest1 i hl.2.1 hl.2.2.1 (fun h => hLR i h hi)
        have hFN1 : ∀ i, i < w.nodeBrk → i ∉ FN → i ∉ FN1 := by
          intro i hib hiF h
          rcases hfree1 i h with e | e
          · exact hiF e
          · omega
        obtain ⟨tb, w2, FN2, hres2, pool2, hsub2, hfit2, hnd2, hperm2, _, _, hlive2, horig2,
            hfree2, hrest2, hsame2, hfr2⟩ :=
          partitionNodes_spec tree k (pr.1.drop pr.2) w1 FN1 fuel (by omega)
            (by intro e; rw [e] at hlenR; simp at hlenR; omega) pool1 hndR
            (by
              intro x hx
              have hl := hprall x (hRmem x hx)
              rw [hR1 x hx]
              exact ⟨hl.1, lt_of_lt_of_le hl.2.1 hfr1.nodeBrk, hFN1 x hl.2.1 hl.2.2.1,
                hl.2.2.2⟩)
            (by omega)
        have hta_notR : ∀ i ∈ ta.ids, i ∉ pr.1.drop pr.2 := by
          intro i hi h
          have hl := hprall i (hRmem i h)
          rcases horig1 i hi with e | e | e
          · exact hLR i e h
          · exact hl.2.2.1 e
          · omega
        have hta2 : ∀ i ∈ ta.ids, w2.node i = w1.node i := fun i hi =>
          hrest2 i (hlive1 i hi).1 (hlive1 i hi).2 (hta_notR i hi)
        have hFN2 : ∀ i, i < w1.nodeBrk → i ∉ FN1 → i ∉ FN2 := by
          intro i hib hiF h
          rcases hfree2 i h with e | e
          · exact hiF e
          · omega
        have hdisj : ∀ i ∈ ta.ids, i ∉ tb.ids := by
          intro i hi h
          rcases horig2 i h with e | e | e
          · exact hta_notR i hi e
          · exact (hlive1 i hi).2 e
          · have := (hlive1 i hi).1; omega
        obtain ⟨n, w3, FN3, hres3, pool3, hsub3, hfit3, hnd3, hpar3, hlive3, hnfresh3, hfree3,
            hrest3, hsame3, hfr3⟩ :=
          NodeNew_join tree ta tb w2 FN2 pool2
            (Sub_congr_eq w1.node w2.node ta hnd1 hta2 hsub1) hsub2
            (Fit_congr w1.node w2.node ta (fun i hi => by rw [hta2 i hi]) hfit1) hfit2
            (List.nodup_append.2 ⟨hnd1, hnd2, fun i hi h => hdisj i hi h⟩)
            (by
              intro i hi
              rcases List.mem_append.1 hi with h | h
              · exact ⟨lt_of_lt_of_le (hlive1 i h).1 hfr2.nodeBrk,
                  hFN2 i (hlive1 i h).1 (hlive1 i h).2⟩
              · exact hlive2 i h)
        have hFN3 : ∀ q ∈ FN3, q ∈ FN ∨ w.nodeBrk ≤ q := by
          intro q hq
          rcases hfree3 q hq with e | e
          · rcases hfree2 q e with f | f
            · exact hfree1 q f
            · exact Or.inr (le_trans hfr1.nodeBrk f)
          · exact Or.inr (le_trans (le_trans hfr1.nodeBrk hfr2.nodeBrk) e)
        have horigA : ∀ i ∈ ta.ids, i ∈ n0 :: n1 :: n2 :: rest ∨ i ∈ FN ∨ w.nodeBrk ≤ i := by
          intro i hi
          rcases horig1 i hi with e | e | e
          · exact Or.inl (hperm.mem_iff.1 (hLmem i e))
          · exact Or.inr (Or.inl e)
          · exact Or.inr (Or.inr e)
        have horigB : ∀ i ∈ tb.ids, i ∈ n0 :: n1 :: n2 :: rest ∨ i ∈ FN ∨ w.nodeBrk ≤ i := by
          intro i hi
          rcases horig2 i hi with e | e | e
          · exact Or.inl (hperm.mem_iff.1 (hRmem i e))
          · rcases hfree1 i e with f | f
            · exact Or.inr (Or.inl f)
            · exact Or.inr (Or.inr f)
          · exact Or.inr (Or.inr (le_trans hfr1.nodeBrk e))
        have horigN : n ∈ FN ∨ w.nodeBrk ≤ n := by
          rcases hnfresh3 with e | e
          · rcases hfree2 n e with f | f
            · exact hfree1 n f
            · exact Or.inr (le_trans hfr1.nodeBrk f)
          · exact Or.inr (le_trans (le_trans hfr1.nodeBrk hfr2.nodeBrk) e)
        refine ⟨Shape.node n ta tb, w3, FN3, ?_, pool3, hsub3, hfit3, hnd3, ?_, ?_,
          (fun x h => by cases h), hlive3, ?_, hFN3, ?_, ?_,
          (hfr1.nodeTrans hfr2).nodeTrans hfr3⟩
        · rw [hU2 hall_left ta.root w1 tb.root w2 hres1 hres2]
          exact hres3
        · simp only [Shape.leaves_node]
          refine ((hperm1.append hperm2).trans ?_).trans hperm
          rw [hsplit]
        · intro i l r h
          cases h
          exact hpar3
        · intro i hi
          rcases (Shape.mem_ids_node i n ta tb).1 hi with e | e | e
          · rw [e]; exact Or.inr horigN
          · exact horigA i e
          · exact horigB i e
        · intro i hib hiF hin
          have hiL : i ∉ pr.1.take pr.2 := fun h => hin (hperm.mem_iff.1 (hLmem i h))
          have hiR : i ∉ pr.1.drop pr.2 := fun h => hin (hperm.mem_iff.1 (hRmem i h))
          have hib1 : i < w1.nodeBrk := lt_of_lt_of_le hib hfr1.nodeBrk
          have hiF1 : i ∉ FN1 := hFN1 i hib hiF
          have hib2 : i < w2.nodeBrk := lt_of_lt_of_le hib1 hfr2.nodeBrk
          rw [← hrest1 i hib hiF hiL, ← hrest2 i hib1 hiF1 hiR]
          refine hrest3 i hib2 ?_ ?_ ?_
          · intro e
            rcases horigN with f | f
            · exact hiF (e ▸ f)
            · omega
          · intro h
            rcases horigA i h with f | f | f
            · exact hin f
            · exact hiF f
            · omega
          · intro h
            rcases horigB i h with f | f | f
            · exact hin f
            · exact hiF f
            · omega
        · intro i hi
          have hi' := hperm.mem_iff.2 hi
          rcases hmemLR i hi' with h | h
          · have hia : i ∈ ta.ids := Shape.leaf_mem_ids ta i (hperm1.mem_iff.2 h)
            have s1 := hsame1 i h
            have s3 := hsame3 i (List.mem_append_left _ hia)
            rw [hta2 i hia] at s3
            exact sameButParent_trans s1 s3
          · have hib : i ∈ tb.ids := Shape.leaf_mem_ids tb i (hperm2.mem_iff.2 h)
            have s2 := hsame2 i h
            rw [hR1 i h] at s2
            have s3 := hsame3 i (List.mem_append_right _ hib)
            exact sameButParent_trans s2 s3

/-! ## `cpBBTreeOptimize` -/

/-- `cpBBTreeOptimize` on a well-formed tree: it returns, the tree is
well-formed again over the same leaves, and nothing but the internal nodes, the
parent pointers of the leaves, the node pool and the root changes. -/
theorem cpBBTreeOptimize_ok (tree : Nat) (w : World) (sh : Option Shape) (L : Nat → List Nat)
    (FN FP : List Nat) (fuel : Nat) (wf : WF w tree sh L FN FP)
    (hfuel : (shLeaves sh).length ≤ fuel) :
    ∃ sh' w' FN', cpBBTreeOptimize fuel tree w = some w' ∧ WF w' tree sh' L FN' FP ∧
      (shLeaves sh').Perm (shLeaves sh) ∧ (sh = none → w' = w) ∧
      w'.pair = w.pair ∧ w'.calls = w.calls ∧
      (w'.index tree).leaves = (w.index tree).leaves ∧
      (w'.index tree).stamp = (w.index tree).stamp ∧
      (∀ y ∈ shLeaves sh, (w.node y).sameButParent (w'.node y)) ∧ Outside tree w w' := by
  have hisT : (w.index tree).isTree = true := wf.1.isTree
  cases sh with
  | none =>
    have hroot : (w.index tree).root = none := wf.1.root
    refine ⟨none, w, FN, ?_, wf, List.Perm.refl _, fun _ => rfl, rfl, rfl, rfl, rfl,
      fun _ _ => sameButParent_refl _, Outside.outSame _ _⟩
    simp [cpBBTreeOptimize, hisT, hroot]
  | some t =>
  simp only [shLeaves] at hfuel
  obtain ⟨hroot, hpar0, hsub⟩ := wf.1.root
  have hnd : t.ids.Nodup := wf.1.nodup
  have hlive : ∀ i ∈ t.ids, i < w.nodeBrk ∧ i ∉ FN := wf.1.live
  have hlnd : t.leaves.Nodup := Shape.leaves_nodup t hnd
  have hlisted : ((w.index tree).leaves.map Prod.snd).Perm t.leaves := wf.2
  obtain ⟨w1, FN1, hres1, pool1, hFN1, hrest1, hbrk1, hfr1⟩ :=
    SubtreeRecycle_spec tree t w FN fuel wf.1.pool hsub hnd hlive
      (le_trans (Shape.height_le_leaves t) hfuel)
  have hleaf_inner : ∀ x ∈ t.leaves, x ∉ t.inner := by
    intro x hx h
    have : (t.inner ++ t.leaves).Nodup := hnd
    exact (List.nodup_append.1 this).2.2 h hx
  have hleaf1 : ∀ x ∈ t.leaves, w1.node x = w.node x := fun x hx =>
    hrest1 x (hleaf_inner x hx)
  set nodes := (w.index tree).leaves.map (fun e => e.2) with hnodes
  have hnperm : nodes.Perm t.leaves := hlisted
  have hnmem : ∀ x, x ∈ nodes ↔ x ∈ t.leaves := fun x => hnperm.mem_iff
  obtain ⟨t', w2, FN2, hres2, pool2, hsub2, hfit2, hnd2, hperm2, hpar2, hone2, hlive2, horig2,
      hfree2, hrest2, hsame2, hfr2⟩ :=
    partitionNodes_spec tree nodes.length nodes w1 FN1 fuel (Nat.le_refl _)
      (by
        intro e
        have := hnperm.length_eq
        rw [e] at this
        exact Shape.leaves_ne_nil t (List.length_eq_zero.1 this.symm))
      pool1 (hnperm.nodup_iff.2 hlnd)
      (by
        intro x hx
        have hx' := (hnmem x).1 hx
        have hl := hlive x (Shape.leaf_mem_ids t x hx')
        rw [hleaf1 x hx', hbrk1]
        refine ⟨Sub_leaf_obj w.node t hsub x hx', hl.1, ?_, wf.1.valid x hx'⟩
        intro hF
        rcases (hFN1 x).1 hF with e | e
        · exact hleaf_inner x hx' e
        · exact hl.2 e)
      (by rw [hnperm.length_eq]; exact hfuel)
  have hfr12 : NodeFrame tree w w2 := hfr1.nodeTrans hfr2
  have hc2 := hfr12.core tree
  set w3 := w2.setIndex tree { w2.index tree with root := some t'.root } with hw3
  have hsame : ∀ y ∈ t.leaves, (w.node y).sameButParent (w3.node y) := by
    intro y hy
    have := hsame2 y ((hnmem y).2 hy)
    rw [hleaf1 y hy] at this
    exact this
  have hl' : ∀ y, y ∈ t'.leaves ↔ y ∈ t.leaves := fun y =>
    (hperm2.trans hnperm).mem_iff
  have hout : Outside tree w w3 :=
    hfr12.toOutside.outComp (Outside.setIndex tree w2 _ ⟨rfl, rfl, rfl, rfl, rfl⟩)
  have hst : (w3.index tree).stamp = (w.index tree).stamp := by
    simp only [hw3, setIndex_index, upd_same]
    exact core_stamp hc2
  have hlv : (w3.index tree).leaves = (w.index tree).leaves := by
    simp only [hw3, setIndex_index, upd_same]
    exact core_leaves hc2
  refine ⟨some t', w3, FN2, ?_, ⟨⟨?_, ?_, ?_, ⟨?_, ?_, hsub2⟩, hnd2, ?_, ?_, hlive2, ?_, ?_, ?_,
    ?_⟩, ?_⟩, hperm2.trans hnperm, (fun h => by cases h), hfr12.pair, hfr12.calls, hlv, hst,
    hsame, hout⟩
  · simp only [cpBBTreeOptimize, hisT, hroot, hres1]
    rw [← hnodes, hres2]
    simp
  · rw [hout.cfg.1]; exact hisT
  · rw [hout.cfg.2.2.1]; exact wf.1.noStatic
  · rw [hout.cfg.2.2.2.1]; exact wf.1.noDynamic
  · simp [hw3]
  · -- the parent of the new root
    show (w2.node t'.root).parent = none
    cases t' with
    | node i l r => exact hpar2 i l r rfl
    | leaf x =>
      have hlen : nodes.length = 1 := by rw [← hperm2.length_eq]; rfl
      have hnx : nodes = [x] := by
        have hx : x ∈ nodes := hperm2.mem_iff.1 (by simp [Shape.leaves])
        match nodes, hlen, hx with
        | [y], _, hx => simp at hx; rw [hx]
      have hw21 : w2 = w1 := hone2 x hnx
      have htl : t.leaves.length = 1 := by rw [← hnperm.length_eq]; exact hlen
      have hxt : x ∈ t.leaves := (hnmem x).1 (by rw [hnx]; simp)
      cases t with
      | node i l r =>
        have := Shape.two_le_leaves i l r
        omega
      | leaf y =>
        have hxy : x = y := by simpa [Shape.leaves] using hxt
        show (w2.node x).parent = none
        rw [hw21, hleaf1 x hxt, hxy]
        exact hpar0
  · intro t'' h
    cases h
    exact hfit2
  · exact NodePool_congr pool2 (fun _ _ => rfl) (by simp [hw3]) (Nat.le_refl _) rfl
  · have inv2 : PairInv w2 tree t.leaves L FP :=
      PairInv_of_nodeFrame tree w w2 t.leaves L FP wf.1.pairs hfr12
        (fun x hx => (hlive x (Shape.leaf_mem_ids t x hx)).1)
    have inv2' : PairInv w2 tree t'.leaves L FP := PairInv_mem inv2 hl'
    exact PairInv_congr inv2' rfl (fun _ _ => rfl) (by simp [hw3]) rfl rfl
  · intro y hy
    have hy' := (hl' y).1 hy
    rw [sameButParent_stamp (hsame y hy'), hst]
    exact wf.1.stamps y hy'
  · intro y hy
    have hy' := (hl' y).1 hy
    rw [sameButParent_bb (hsame y hy')]
    exact wf.1.valid y hy'
  · intro o
    rw [hout.cfg.2.1]
    exact wf.1.validF o
  · show ((w3.index tree).leaves.map Prod.snd).Perm t'.leaves
    rw [hlv]
    exact hlisted.trans (hperm2.trans hnperm).symm

/-! ## Reachability and shapes -/

theorem Sub_node_at (nd : Nat → Node) :
    ∀ (t : Shape), Sub nd t → ∀ n ∈ t.ids, (nd n).obj = 0 →
      ∃ a b, (nd n).a = some a ∧ (nd n).b = some b ∧ a ∈ t.ids ∧ b ∈ t.ids ∧
        (Fit nd t → (nd n).bb = cpBBMerge (nd a).bb (nd b).bb)
  | Shape.leaf i, hs, n, hn, ho => by
    have : n = i := by simpa [Shape.ids, Shape.inner, Shape.leaves] using hn
    subst this
    exact absurd ho hs
  | Shape.node i l r, hs, n, hn, ho => by
    obtain ⟨h1, h2, h3, h4, h5, h6, h7⟩ := hs
    rcases (Shape.mem_ids_node n i l r).1 hn with e | e | e
    · subst e
      exact ⟨l.root, r.root, h2, h3,
        (Shape.mem_ids_node _ _ _ _).2 (Or.inr (Or.inl (Shape.root_mem_ids l))),
        (Shape.mem_ids_node _ _ _ _).2 (Or.inr (Or.inr (Shape.root_mem_ids r))),
        fun hf => hf.1⟩
    · obtain ⟨a, b, ha, hb, hal, hbl, hf⟩ := Sub_node_at nd l h6 n e ho
      exact ⟨a, b, ha, hb, (Shape.mem_ids_node _ _ _ _).2 (Or.inr (Or.inl hal)),
        (Shape.mem_ids_node _ _ _ _).2 (Or.inr (Or.inl hbl)), fun h => hf h.2.1⟩
    · obtain ⟨a, b, ha, hb, hal, hbl, hf⟩ := Sub_node_at nd r h7 n e ho
      exact ⟨a, b, ha, hb, (Shape.mem_ids_node _ _ _ _).2 (Or.inr (Or.inr hal)),
        (Shape.mem_ids_node _ _ _ _).2 (Or.inr (Or.inr hbl)), fun h => hf h.2.2⟩

theorem Reach_of_mem (nd : Nat → Node) (r : Option Nat) :
    ∀ t : Shape, Sub nd t → Reach nd r t.root → ∀ n ∈ t.ids, Reach nd r n
  | Shape.leaf i, _, hr, n, hn => by
    have : n = i := by simpa [Shape.ids, Shape.inner, Shape.leaves] using hn
    rw [this]; exact hr
  | Shape.node i l r', hs, hr, n, hn => by
    obtain ⟨h1, h2, h3, _, _, h6, h7⟩ := hs
    rcases (Shape.mem_ids_node n i l r').1 hn with e | e | e
    · rw [e]; exact hr
    · exact Reach_of_mem nd r l h6 (Reach.left r i l.root hr h1 h2) n e
    · exact Reach_of_mem nd r r' h7 (Reach.right r i r'.root hr h1 h3) n e

theorem mem_of_Reach (nd : Nat → Node) (t : Shape) (hs : Sub nd t) :
    ∀ (r : Option Nat) (n : Nat), Reach nd r n → r = some t.root → n ∈ t.ids := by
  intro r n h
  induction h with
  | root r0 =>
    intro e
    cases e
    exact Shape.root_mem_ids t
  | left r0 m c _ ho ha ih =>
    intro e
    obtain ⟨a, b, ha', _, hal, _, _⟩ := Sub_node_at nd t hs m (ih e) ho
    rw [ha] at ha'
    cases ha'
    exact hal
  | right r0 m c _ ho hb ih =>
    intro e
    obtain ⟨a, b, _, hb', _, hbl, _⟩ := Sub_node_at nd t hs m (ih e) ho
    rw [hb] at hb'
    cases hb'
    exact hbl

theorem Reach_none (nd : Nat → Node) : ∀ (r : Option Nat) (n : Nat), Reach nd r n → r ≠ none := by
  intro r n h
  induction h with
  | root r0 => exact fun e => by cases e
  | left _ _ _ _ _ _ ih => exact ih
  | right _ _ _ _ _ _ ih => exact ih

theorem Reach_iff (w : World) (tree : Nat) (sh : Option Shape) (h : RootRep w tree sh) (n : Nat) :
    Reach w.node (w.index tree).root n ↔ n ∈ shIds sh := by
  cases sh with
  | none =>
    have hr : (w.index tree).root = none := h
    rw [hr]
    constructor
    · intro hre
      exact absurd rfl (Reach_none w.node none n hre)
    · intro hm
      simp [shIds] at hm
  | some t =>
    obtain ⟨hr, _, hs⟩ := h
    rw [hr]
    constructor
    · intro hre
      exact mem_of_Reach w.node t hs _ n hre rfl
    · intro hm
      exact Reach_of_mem w.node _ t hs (Reach.root t.root) n hm

theorem mem_leaves_iff (nd : Nat → Node) (t : Shape) (hs : Sub nd t) (n : Nat) :
    n ∈ t.leaves ↔ n ∈ t.ids ∧ (nd n).obj ≠ 0 := by
  constructor
  · intro h
    exact ⟨Shape.leaf_mem_ids t n h, Sub_leaf_obj nd t hs n h⟩
  · rintro ⟨h, ho⟩
    rcases List.mem_append.1 (show n ∈ t.inner ++ t.leaves from h) with e | e
    · exact absurd (Sub_inner_obj nd t hs n e) ho
    · exact e

theorem shLeaves_iff (w : World) (tree : Nat) (sh : Option Shape) (h : RootRep w tree sh)
    (n : Nat) : n ∈ shLeaves sh ↔ (Reach w.node (w.index tree).root n ∧ (w.node n).obj ≠ 0) := by
  rw [Reach_iff w tree sh h n]
  cases sh with
  | none => simp [shLeaves, shIds]
  | some t => exact mem_leaves_iff w.node t h.2.2 n

/-! ## The invariants of a well-formed tree -/

theorem Sound.indexInv {hash : Nat → Nat} {w : World} {tree : Nat} {sh : Option Shape}
    {L : Nat → List Nat} {FN FP : List Nat} (h : Sound hash w tree sh L FN FP) :
    IndexInv hash w tree := by
  have hl : ((w.index tree).leaves.map Prod.snd).Perm (shLeaves sh) := h.wf.2
  have hiff := shLeaves_iff w tree sh h.wf.1.root
  refine ⟨fun n => hl.mem_iff.trans (hiff n), hl.nodup_iff.2 (shLeaves_nodup sh h.wf.1.nodup),
    by simp [cpBBTreeCount, cpHashSetCount], ?_, ?_⟩
  · intro obj
    simp only [cpBBTreeContains, cpHashSetFind, Option.isSome_map', List.find?_isSome,
      decide_eq_true_eq]
    constructor
    · rintro ⟨e, he, _, ho⟩
      have hm : e.2 ∈ shLeaves sh := hl.mem_iff.1 (List.mem_map_of_mem Prod.snd he)
      obtain ⟨hre, hne⟩ := (hiff e.2).1 hm
      exact ⟨e.2, hre, hne, ho⟩
    · rintro ⟨n, hre, hne, ho⟩
      have hm : n ∈ (w.index tree).leaves.map Prod.snd := hl.mem_iff.2 ((hiff n).2 ⟨hre, hne⟩)
      obtain ⟨e, he, hen⟩ := List.mem_map.1 hm
      refine ⟨e, he, ?_, ?_⟩
      · rw [h.hashed e he, hen, ho]
      · rw [hen]; exact ho
  · simp only [cpBBTreeCount, cpHashSetCount]
    have hlen : (w.index tree).leaves.length = (shLeaves sh).length := by
      rw [← hl.length_eq, List.length_map]
    rw [hlen]
    cases sh with
    | none =>
      have : (w.index tree).root = none := h.wf.1.root
      simp [this, shLeaves]
    | some t =>
      have hr : (w.index tree).root = some t.root := h.wf.1.root.1
      have := List.length_pos.2 (Shape.leaves_ne_nil t)
      simp only [hr, shLeaves]
      constructor
      · intro e; cases e
      · intro e; omega

/-! ## Every public mutation keeps the tree sound -/

theorem length_le_of_nodup_lt (l : List Nat) (n : Nat) (hnd : l.Nodup) (hb : ∀ p ∈ l, p < n) :
    l.length ≤ n := by
  have hsub : l ⊆ List.range n := fun p hp => List.mem_range.2 (hb p hp)
  have := (List.subperm_of_subset hnd hsub).length_le
  simpa using this

theorem PairInv.listLength_le {w : World} {tree : Nat} {lv : List Nat} {L : Nat → List Nat}
    {FP : List Nat} (inv : PairInv w tree lv L FP) (x : Nat) (hx : x ∈ lv) :
    (L x).length ≤ w.pairBrk :=
  length_le_of_nodup_lt _ _ (inv.nodup x hx) (inv.boundL x hx)

theorem WF.count_eq {w : World} {tree : Nat} {sh : Option Shape} {L : Nat → List Nat}
    {FN FP : List Nat} (h : WF w tree sh L FN FP) :
    cpBBTreeCount w tree = (shLeaves sh).length := by
  have hl : ((w.index tree).leaves.map Prod.snd).Perm (shLeaves sh) := h.2
  simp only [cpBBTreeCount, cpHashSetCount]
  rw [← hl.length_eq, List.length_map]

theorem contains_false_find {w : World} {tree obj hashid : Nat}
    (h : cpBBTreeContains w tree obj hashid = false) : cpHashSetFind w tree hashid obj = none := by
  simp only [cpBBTreeContains] at h
  cases hf : cpHashSetFind w tree hashid obj with
  | none => rfl
  | some x => rw [hf] at h; simp at h

theorem contains_true_find {w : World} {tree obj hashid : Nat}
    (h : cpBBTreeContains w tree obj hashid = true) :
    ∃ x, cpHashSetFind w tree hashid obj = some x := by
  simp only [cpBBTreeContains] at h
  exact Option.isSome_iff_exists.1 h

/-- Every public mutation of a sound tree returns and leaves a sound tree. -/
theorem Op.run_sound (hash : Nat → Nat) (tree : Nat) (op : Op) (w : World) (sh : Option Shape)
    (L : Nat → List Nat) (FN FP : List Nat) (fuel : Nat)
    (h : Sound hash w tree sh L FN FP) (hpre : op.pre hash w tree)
    (hfuel : 3 * cpBBTreeCount w tree + w.pairBrk + 2 ≤ fuel) :
    ∃ w' sh' L' FN' FP', op.run fuel tree w = some w' ∧ Sound hash w' tree sh' L' FN' FP' ∧
      Outside tree w w' := by
  rw [h.wf.count_eq] at hfuel
  have hK : ∀ z ∈ shLeaves sh, (L z).length ≤ w.pairBrk := fun z hz =>
    h.wf.1.pairs.listLength_le z hz
  have hlisted : ((w.index tree).leaves.map Prod.snd).Perm (shLeaves sh) := h.wf.2
  cases op with
  | insert obj hashid =>
    obtain ⟨hobj, hhash, hc⟩ := hpre
    obtain ⟨x, fs, w', L', FN', FP', hres, wf', hperm, hxn, hlv, _, hox, _, _, hoy, _, _, hout⟩ :=
      cpBBTreeInsert_ok tree obj hashid w sh L FN FP fuel h.wf hobj (contains_false_find hc)
        (by omega)
    refine ⟨w', _, L', FN', FP', hres, ⟨wf', ?_, ?_⟩, hout⟩
    · intro e he
      rw [hlv] at he
      rcases List.mem_cons.1 he with e1 | e1
      · rw [e1]
        show hashid = hash (w'.node x).obj
        rw [hox]; exact hhash
      · have hm : e.2 ∈ shLeaves sh := hlisted.mem_iff.1 (List.mem_map_of_mem Prod.snd e1)
        rw [(hoy e.2 hm).1]
        exact h.hashed e e1
    · have hnone : ∀ y ∈ shLeaves sh, (w.node y).obj ≠ obj := by
        intro y hy ho
        have hin := ((Sound.indexInv h).2.2.2.1 obj).2
          ⟨y, ((shLeaves_iff w tree sh h.wf.1.root y).1 hy).1,
            ((shLeaves_iff w tree sh h.wf.1.root y).1 hy).2, ho⟩
        rw [← hhash, hc] at hin
        cases hin
      intro y hy z hz hyz
      have hy' := List.mem_cons.1 (hperm.mem_iff.1 hy)
      have hz' := List.mem_cons.1 (hperm.mem_iff.1 hz)
      rcases hy' with ey | ey <;> rcases hz' with ez | ez
      · rw [ey, ez]
      · rw [ey, hox, (hoy z ez).1] at hyz
        exact absurd hyz.symm (hnone z ez)
      · rw [ez, hox, (hoy y ey).1] at hyz
        exact absurd hyz (hnone y ey)
      · rw [(hoy y ey).1, (hoy z ez).1] at hyz
        exact h.distinct y ey z ez hyz
  | remove obj hashid =>
    obtain ⟨hhash, hc⟩ := hpre
    obtain ⟨x, hfind⟩ := contains_true_find hc
    have hxl : x ∈ shLeaves sh :=
      Listed_mem w tree sh h.wf.2 hashid x (cpHashSetFind_some w tree hashid obj x hfind).1
    obtain ⟨sh', w', FN', FP', hres, wf', hperm, hlv, _, hoy, _, _, hout⟩ :=
      cpBBTreeRemove_ok tree obj hashid x w sh L FN FP fuel h.wf hfind (by omega)
        (by have := hK x hxl; omega)
    have hsub : ∀ y ∈ shLeaves sh', y ∈ shLeaves sh := fun y hy =>
      hperm.mem_iff.1 (List.mem_cons_of_mem _ hy)
    refine ⟨w', sh', _, FN', FP', hres, ⟨wf', ?_, ?_⟩, hout⟩
    · intro e he
      have hm : e.2 ∈ shLeaves sh' :=
        (show ((w'.index tree).leaves.map Prod.snd).Perm (shLeaves sh') from wf'.2).mem_iff.1
          (List.mem_map_of_mem Prod.snd he)
      rw [(hoy e.2 hm).1]
      rw [hlv] at he
      exact h.hashed e (List.mem_of_mem_erase he)
    · intro y hy z hz hyz
      rw [(hoy y hy).1, (hoy z hz).1] at hyz
      exact h.distinct y (hsub y hy) z (hsub z hz) hyz
  | reindexObject obj hashid =>
    obtain ⟨hnone, hsome⟩ := cpBBTreeReindexObject_ok tree obj hashid w sh L FN FP fuel h.wf
      (by omega) (fun x hx => by have := hK x hx; omega)
    cases hf : cpHashSetFind w tree hashid obj with
    | none => exact ⟨w, sh, L, FN, FP, hnone hf, h, Outside.outSame _ _⟩
    | some x =>
      obtain ⟨t, t', w', L', FN', FP', hsh, hxt, hres, wf', hperm, hlv, _, _, hout, hoy, hox, _⟩ :=
        hsome x hf
      subst hsh
      have hobj : ∀ y ∈ t.leaves, (w'.node y).obj = (w.node y).obj := by
        intro y hy
        by_cases hyx : y = x
        · rw [hyx]; exact hox
        · exact (hoy y hy hyx).1
      refine ⟨w', some t', L', FN', FP', hres, ⟨wf', ?_, ?_⟩, hout⟩
      · intro e he
        rw [hlv] at he
        have hm : e.2 ∈ t.leaves := hlisted.mem_iff.1 (List.mem_map_of_mem Prod.snd he)
        rw [hobj e.2 hm]
        exact h.hashed e he
      · intro y hy z hz hyz
        have hy' : y ∈ t.leaves := hperm.mem_iff.1 hy
        have hz' : z ∈ t.leaves := hperm.mem_iff.1 hz
        rw [hobj y hy', hobj z hz'] at hyz
        exact h.distinct y hy' z hz' hyz
  | reindexQuery func =>
    obtain ⟨hnone, hsome⟩ := cpBBTreeReindexQuery_ok tree func hpre w sh L FN FP w.pairBrk fuel
      h.wf hK (by omega)
    cases sh with
    | none => exact ⟨w, none, L, FN, FP, hnone rfl, h, Outside.outSame _ _⟩
    | some t =>
      obtain ⟨t', w', L', FN', FP', hres, wf', hperm, hlv, _, hout, hobj⟩ := hsome t rfl
      refine ⟨w', some t', L', FN', FP', hres, ⟨wf', ?_, ?_⟩, hout⟩
      · intro e he
        rw [hlv] at he
        have hm : e.2 ∈ t.leaves := hlisted.mem_iff.1 (List.mem_map_of_mem Prod.snd he)
        rw [hobj e.2 hm]
        exact h.hashed e he
      · intro y hy z hz hyz
        have hy' : y ∈ t.leaves := hperm.mem_iff.1 hy
        have hz' : z ∈ t.leaves := hperm.mem_iff.1 hz
        rw [hobj y hy', hobj z hz'] at hyz
        exact h.distinct y hy' z hz' hyz
  | optimize =>
    obtain ⟨sh', w', FN', hres, wf', hperm, _, _, _, hlv, _, hsame, hout⟩ :=
      cpBBTreeOptimize_ok tree w sh L FN FP fuel h.wf (by omega)
    have hobj : ∀ y ∈ shLeaves sh, (w'.node y).obj = (w.node y).obj := fun y hy =>
      sameButParent_obj (hsame y hy)
    refine ⟨w', sh', L, FN', FP, hres, ⟨wf', ?_, ?_⟩, hout⟩
    · intro e he
      rw [hlv] at he
      have hm : e.2 ∈ shLeaves sh := hlisted.mem_iff.1 (List.mem_map_of_mem Prod.snd he)
      rw [hobj e.2 hm]
      exact h.hashed e he
    · intro y hy z hz hyz
      have hy' : y ∈ shLeaves sh := hperm.mem_iff.1 hy
      have hz' : z ∈ shLeaves sh := hperm.mem_iff.1 hz
      rw [hobj y hy', hobj z hz'] at hyz
      exact h.distinct y hy' z hz' hyz

/-! ## The reachable states are sound -/

theorem Sound_new (hash : Nat → Nat) (bbfunc : Nat → cpBB) (hv : ∀ o, cpBBValid (bbfunc o))
    (w0 : World) (hn : 0 < w0.nodeCount) (hp : 0 < w0.pairCount) :
    Sound hash (cpBBTreeNew bbfunc none w0).2 (cpBBTreeNew bbfunc none w0).1 none
      (fun _ => []) [] [] := by
  have hidx : ((cpBBTreeNew bbfunc none w0).2.index (cpBBTreeNew bbfunc none w0).1) =
      { zeroTree with isTree := true, bbfunc := bbfunc } := by
    simp [cpBBTreeNew, cpBBTreeAlloc, cpBBTreeInit, cpSpatialIndexInit, World.setIndex, upd,
      zeroTree]
  refine ⟨⟨⟨?_, ?_, ?_, ?_, List.nodup_nil, (fun t h => by cases h), ⟨?_, List.nodup_nil,
    (fun i hi => by cases hi), hn⟩, (fun i hi => by cases hi),
    ⟨(fun x hx => by cases hx), (fun x hx => by cases hx), (fun x hx => by cases hx), ?_,
      List.nodup_nil, (fun x hx => by cases hx), (fun p hp' => by cases hp'),
      (fun x hx => by cases hx), hp⟩,
    (fun x hx => by cases hx), (fun x hx => by cases hx), ?_⟩, ?_⟩, ?_, (fun x hx => by cases hx)⟩
  · rw [hidx]
  · rw [hidx]; rfl
  · rw [hidx]; rfl
  · show ((cpBBTreeNew bbfunc none w0).2.index (cpBBTreeNew bbfunc none w0).1).root = none
    rw [hidx]; rfl
  · show ((cpBBTreeNew bbfunc none w0).2.index (cpBBTreeNew bbfunc none w0).1).pooledNodes = none
    rw [hidx]; rfl
  · show ((cpBBTreeNew bbfunc none w0).2.index (cpBBTreeNew bbfunc none w0).1).pooledPairs = none
    rw [hidx]; rfl
  · intro o
    rw [hidx]
    exact hv o
  · show (((cpBBTreeNew bbfunc none w0).2.index (cpBBTreeNew bbfunc none w0).1).leaves.map
      Prod.snd).Perm []
    rw [hidx]
    exact List.Perm.refl _
  · intro e he
    rw [hidx] at he
    cases he

/-- Every state the public mutations reach from a new tree is sound. -/
theorem Reached.sound {hash : Nat → Nat} {bbfunc : Nat → cpBB} {tree : Nat} {w : World}
    (h : Reached hash bbfunc tree w) : ∃ sh L FN FP, Sound hash w tree sh L FN FP := by
  induction h with
  | new w0 hn hp hv => exact ⟨none, fun _ => [], [], [], Sound_new hash bbfunc hv w0 hn hp⟩
  | step tree w w' op fuel _ hpre hfuel hrun ih =>
    obtain ⟨sh, L, FN, FP, hs⟩ := ih
    obtain ⟨w'', sh', L', FN', FP', hres, hs', _⟩ :=
      Op.run_sound hash tree op w sh L FN FP fuel hs hpre hfuel
    rw [hrun] at hres
    cases hres
    exact ⟨sh', L', FN', FP', hs'⟩

/-! ## Transitions between the empty and the non-empty tree -/

theorem getD_of_isSome {α : Type} (o : Option α) (d : α) (h : o.isSome = true) :
    o = some (o.getD d) := by
  cases o with
  | none => cases h
  | some a => rfl

theorem scenarioBB_valid (o : Nat) : cpBBValid (scenarioBB o) := by
  unfold scenarioBB cpBBValid
  split_ifs <;> constructor <;> norm_num

theorem emptyTreeWorld_reached : Reached id scenarioBB 0 emptyTreeWorld :=
  Reached.new World.init (by decide) (by decide) scenarioBB_valid

theorem bind_getD {α : Type} (o : Option α) (f : α → Option α) (d : α)
    (h : o.isSome = true) : (o.bind f).getD d = (f (o.getD d)).getD d := by
  cases o with
  | none => cases h
  | some a => rfl

theorem twoLeafWorld_eq :
    twoLeafWorld = (cpBBTreeInsert 10 0 2 2
      ((cpBBTreeInsert 10 0 1 1 emptyTreeWorld).getD World.init)).getD World.init :=
  bind_getD (cpBBTreeInsert 10 0 1 1 emptyTreeWorld) (cpBBTreeInsert 10 0 2 2) World.init
    (by decide)

theorem twoLeafWorld_reached : Reached id scenarioBB 0 twoLeafWorld := by
  have h1 := getD_of_isSome (cpBBTreeInsert 10 0 1 1 emptyTreeWorld) World.init (by decide)
  have r1 := Reached.step 0 emptyTreeWorld _ (Op.insert 1 1) 10 emptyTreeWorld_reached
    ⟨by decide, rfl, by decide⟩ (by decide) h1
  have h2 := getD_of_isSome
    (cpBBTreeInsert 10 0 2 2 ((cpBBTreeInsert 10 0 1 1 emptyTreeWorld).getD World.init))
    World.init (by decide)
  rw [twoLeafWorld_eq]
  exact Reached.step 0 _ _ (Op.insert 2 2) 10 r1 ⟨by decide, rfl, by decide⟩ (by decide) h2

/-! ## What never touches a stamp -/

theorem SameClock.stamp {w w' : World} (h : SameClock w w') (j : Nat) :
    (w'.index j).stamp = (w.index j).stamp := by
  have hj := h j
  simp only [cpBBTree.clock, Prod.mk.injEq] at hj
  exact hj.2.2

theorem SameClock.dynamicIndex {w w' : World} (h : SameClock w w') (j : Nat) :
    (w'.index j).dynamicIndex = (w.index j).dynamicIndex := by
  have hj := h j
  simp only [cpBBTree.clock, Prod.mk.injEq] at hj
  exact hj.2.1

theorem links_congr (pm pm' : Nat → Pair) (L L' : Nat → List Nat) (u v : Nat)
    (hL : L' v = L v)
    (hp : ∀ q ∈ L v, (pm' q).a.leaf = (pm q).a.leaf ∧ (pm' q).b.leaf = (pm q).b.leaf) :
    links pm' L' u v = links pm L u v := by
  unfold links
  rw [hL]
  apply List.countP_congr
  intro q hq
  rw [(hp q hq).1, (hp q hq).2]

theorem links_cons (pm pm' : Nat → Pair) (L L' : Nat → List Nat) (u v p : Nat)
    (hL : L' v = p :: L v)
    (hp : ∀ q ∈ L v, (pm' q).a.leaf = (pm q).a.leaf ∧ (pm' q).b.leaf = (pm q).b.leaf) :
    links pm' L' u v = links pm L u v +
      (if (pm' p).a.leaf = some u ∧ (pm' p).b.leaf = some v then 1 else 0) := by
  unfold links
  rw [hL, List.countP_cons]
  have e : (L v).countP (fun p => decide ((pm' p).a.leaf = some u ∧ (pm' p).b.leaf = some v)) =
      (L v).countP (fun p => decide ((pm p).a.leaf = some u ∧ (pm p).b.leaf = some v)) := by
    apply List.countP_congr
    intro q hq
    rw [(hp q hq).1, (hp q hq).2]
  rw [e]
  by_cases h : (pm' p).a.leaf = some u ∧ (pm' p).b.leaf = some v
  · simp [h]
  · simp [h]

theorem links_nil (pm : Nat → Pair) (L : Nat → List Nat) (u v : Nat) (h : L v = []) :
    links pm L u v = 0 := by
  unfold links
  rw [h]
  rfl

/-- The new pairs of `MarkLeaf` that have `u` on thread `a` and the marked leaf
`x` on thread `b`. -/
theorem countP_new (pm' : Nat → Pair) (x u : Nat) (R : Nat → Nat × Bool → Prop)
    (hR : ∀ p e, R p e → if e.2 = true then Ends pm' p x e.1 else Ends pm' p e.1 x) :
    ∀ (N : List Nat) (E : List (Nat × Bool)), List.Forall₂ R N E → (E.map Prod.fst).Nodup →
      x ∉ E.map Prod.fst →
      N.countP (fun p => decide ((pm' p).a.leaf = some u ∧ (pm' p).b.leaf = some x)) =
        if (u, false) ∈ E then 1 else 0
  | [], [], _, _, _ => by simp
  | p :: N, e :: E, h, hnd, hx => by
    cases h with
    | cons h1 h2 =>
    simp only [List.map_cons, List.nodup_cons, List.mem_cons, not_or] at hnd hx
    have ih := countP_new pm' x u R hR N E h2 hnd.2 hx.2
    rw [List.countP_cons, ih]
    have he := hR p e h1
    obtain ⟨e1, e2⟩ := e
    simp only at he hnd hx
    cases e2 with
    | true =>
      simp only [if_true] at he
      have hb : (pm' p).b.leaf ≠ some x := by
        rw [he.2]
        intro c
        exact hx.1 (Option.some.inj c).symm
      have : ¬ ((pm' p).a.leaf = some u ∧ (pm' p).b.leaf = some x) := fun c => hb c.2
      simp [this]
    | false =>
      simp only [Bool.false_eq_true, if_false] at he
      by_cases hu : e1 = u
      · subst hu
        have hnot : (e1, false) ∉ E := fun c => hnd.1 (List.mem_map_of_mem Prod.fst c)
        simp [he.1, he.2, hnot]
      · have : ¬ ((pm' p).a.leaf = some u ∧ (pm' p).b.leaf = some x) := by
          intro c
          rw [he.1] at c
          exact hu (Option.some.inj c.1)
        have hne : (u, false) ≠ (e1, false) := fun c => hu (Prod.mk.inj c).1.symm
        simp [this, hne]

theorem forall₂_of_mem {α β : Type} {R : α → β → Prop} :
    ∀ {l1 : List α} {l2 : List β}, List.Forall₂ R l1 l2 → ∀ b ∈ l2, ∃ a ∈ l1, R a b
  | _, _, List.Forall₂.nil, b, hb => by cases hb
  | _, _, List.Forall₂.cons h1 h2, b, hb => by
    rcases List.mem_cons.1 hb with e | e
    · subst e
      exact ⟨_, List.mem_cons_self _ _, h1⟩
    · obtain ⟨a, ha, hr⟩ := forall₂_of_mem h2 b e
      exact ⟨a, List.mem_cons_of_mem _ ha, hr⟩

/-- How the links change when `MarkLeaf` inserts the pairs `ins` for leaf `x`. -/
theorem Grown.links_eq {lv : List Nat} {x : Nat} {pm pm' : Nat → Pair} {L L' : Nat → List Nat}
    {ins : List (Nat × Bool)} (g : Grown lv x pm L pm' L' ins)
    (hnd : (ins.map Prod.fst).Nodup) (hx : x ∉ ins.map Prod.fst) (hxl : x ∈ lv)
    (u v : Nat) (hv : v ∈ lv) :
    links pm' L' u v = links pm L u v + (if u = x ∧ (v, true) ∈ ins then 1 else 0) +
      (if v = x ∧ (u, false) ∈ ins then 1 else 0) := by
  obtain ⟨N, hN, hF⟩ := g.grow
  by_cases hvx : v = x
  · subst hvx
    have h1 : ¬ (u = v ∧ (v, true) ∈ ins) := fun c => hx (List.mem_map_of_mem Prod.fst c.2)
    simp only [h1, if_false, Nat.add_zero, true_and]
    unfold links
    rw [hN, List.countP_append]
    have hnew := countP_new pm' v u _ (fun p e h => h.2.2) N ins.reverse hF
      (by rw [List.map_reverse]; exact List.nodup_reverse.2 hnd)
      (by rw [List.map_reverse]; exact fun c => hx (List.mem_reverse.1 c))
    rw [hnew]
    have e : (L v).countP (fun p => decide ((pm' p).a.leaf = some u ∧ (pm' p).b.leaf = some v)) =
        (L v).countP (fun p => decide ((pm p).a.leaf = some u ∧ (pm p).b.leaf = some v)) := by
      apply List.countP_congr
      intro q hq
      rw [(g.leafs v hv q hq).1, (g.leafs v hv q hq).2]
    rw [e]
    simp only [List.mem_reverse]
    omega
  · have h2 : ¬ (v = x ∧ (u, false) ∈ ins) := fun c => hvx c.1
    simp only [h2, if_false, Nat.add_zero]
    by_cases hvi : v ∈ ins.map Prod.fst
    · obtain ⟨e, he, hev⟩ := List.mem_map.1 hvi
      obtain ⟨p, _, _, hLp, hends⟩ := forall₂_of_mem hF e (List.mem_reverse.2 he)
      rw [hev] at hLp
      rw [links_cons pm pm' L L' u v p hLp (g.leafs v hv)]
      congr 1
      obtain ⟨e1, e2⟩ := e
      simp only at hev hends
      subst hev
      have huniq : ∀ b, (e1, b) ∈ ins → b = e2 := by
        intro b hb
        have := List.inj_on_of_nodup_map hnd hb he rfl
        exact (Prod.mk.inj this).2
      cases e2 with
      | true =>
        simp only [if_true] at hends
        by_cases hux : u = x
        · simp [hux, hends.1, hends.2, he]
        · have : ¬ ((pm' p).a.leaf = some u ∧ (pm' p).b.leaf = some e1) := by
            intro c
            rw [hends.1] at c
            exact hux (Option.some.inj c.1).symm
          simp [this, hux]
      | false =>
        simp only [Bool.false_eq_true, if_false] at hends
        have : ¬ ((pm' p).a.leaf = some u ∧ (pm' p).b.leaf = some e1) := by
          intro c
          rw [hends.2] at c
          exact hvx (Option.some.inj c.2).symm
        have hnot : (e1, true) ∉ ins := fun c => by cases huniq true c
        simp [this, hnot]
    · have hk := g.keep v hvx hvi
      have h1 : ¬ (u = x ∧ (v, true) ∈ ins) :=
        fun c => hvi (List.mem_map_of_mem Prod.fst c.2)
      simp only [h1, if_false, Nat.add_zero]
      exact links_congr pm pm' L L' u v hk (g.leafs v hv)

/-! ## The pairs and calls of the walk up the path -/

theorem mem_insOf_iff (nd : Nat → Node) (x : Nat) (left : Bool) (s : Shape) (y : Nat) (b : Bool) :
    (y, b) ∈ insOf nd x left s ↔
      (y ∈ s.leaves ∧ cpBBIntersects (nd x).bb (nd y).bb = true ∧
        (left = true ∨ (nd y).stamp < (nd x).stamp) ∧ b = left) := by
  simp only [insOf, hits, List.mem_map, List.mem_filter, Bool.or_eq_true, decide_eq_true_eq,
    Prod.mk.injEq]
  constructor
  · rintro ⟨z, ⟨⟨hz, hi⟩, hs⟩, hzy, hb⟩
    subst hzy
    exact ⟨hz, hi, hs, hb.symm⟩
  · rintro ⟨hy, hi, hs, hb⟩
    exact ⟨y, ⟨⟨hy, hi⟩, hs⟩, rfl, hb.symm⟩

theorem mem_upIns_true (nd : Nat → Node) (x : Nat) :
    ∀ (fs : List Frame) (y : Nat), (y, true) ∈ upIns nd x fs ↔
      (y ∈ ctxAfter fs ∧ cpBBIntersects (nd x).bb (nd y).bb = true)
  | [], y => by simp [upIns, ctxAfter]
  | Frame.left i s :: fs, y => by
    have ih := mem_upIns_true nd x fs y
    have h1 := mem_insOf_iff nd x true s y true
    simp only [upIns, List.mem_append, Frame.isLeft, Frame.sib, ctxAfter, ih, h1]
    tauto
  | Frame.right i s :: fs, y => by
    have ih := mem_upIns_true nd x fs y
    have h1 := mem_insOf_iff nd x false s y true
    have h2 : ¬ (true = false) := by decide
    simp only [upIns, List.mem_append, Frame.isLeft, Frame.sib, ctxAfter, ih, h1]
    tauto

theorem mem_upIns_false (nd : Nat → Node) (x : Nat) :
    ∀ (fs : List Frame) (y : Nat), (y, false) ∈ upIns nd x fs ↔
      (y ∈ ctxBefore fs ∧ cpBBIntersects (nd x).bb (nd y).bb = true ∧
        (nd y).stamp < (nd x).stamp)
  | [], y => by simp [upIns, ctxBefore]
  | Frame.left i s :: fs, y => by
    have ih := mem_upIns_false nd x fs y
    have h1 := mem_insOf_iff nd x true s y false
    have h2 : ¬ (false = true) := by decide
    simp only [upIns, List.mem_append, Frame.isLeft, Frame.sib, ctxBefore, ih, h1]
    tauto
  | Frame.right i s :: fs, y => by
    have ih := mem_upIns_false nd x fs y
    have h1 := mem_insOf_iff nd x false s y false
    have h2 : ¬ (false = true) := by decide
    simp only [upIns, List.mem_append, Frame.isLeft, Frame.sib, ctxBefore, ih, h1]
    tauto

theorem insOf_fst_sublist (nd : Nat → Node) (x : Nat) (left : Bool) (s : Shape) :
    ((insOf nd x left s).map Prod.fst).Sublist s.leaves := by
  simp only [insOf, hits, List.map_map]
  have : (Prod.fst ∘ fun y => (y, left)) = (id : Nat → Nat) := rfl
  rw [this, List.map_id]
  exact (List.filter_sublist _).trans (List.filter_sublist _)

theorem upIns_fst_sublist (nd : Nat → Node) (x : Nat) :
    ∀ fs : List Frame, ((upIns nd x fs).map Prod.fst).Sublist (ctxLeaves fs)
  | [] => by simp [upIns, ctxLeaves]
  | f :: fs => by
    simp only [upIns, ctxLeaves, List.map_append]
    exact (insOf_fst_sublist nd x _ _).append (upIns_fst_sublist nd x fs)

theorem ctxLeaves_facts (fs : List Frame) (x : Nat)
    (hnd : (plug fs (Shape.leaf x)).leaves.Nodup) :
    (ctxLeaves fs).Nodup ∧ x ∉ ctxLeaves fs := by
  have hp := plug_leaves_perm fs (Shape.leaf x)
  have h2 : ([x] ++ ctxLeaves fs).Nodup := hp.nodup_iff.1 hnd
  simp only [List.singleton_append, List.nodup_cons] at h2
  exact ⟨h2.2, h2.1⟩

theorem mem_ctxLeaves (y : Nat) :
    ∀ fs : List Frame, y ∈ ctxLeaves fs ↔ (y ∈ ctxBefore fs ∨ y ∈ ctxAfter fs)
  | [] => by simp [ctxLeaves, ctxBefore, ctxAfter]
  | Frame.left i s :: fs => by
    simp only [ctxLeaves, ctxBefore, ctxAfter, List.mem_append, Frame.sib, mem_ctxLeaves y fs]
    tauto
  | Frame.right i s :: fs => by
    simp only [ctxLeaves, ctxBefore, ctxAfter, List.mem_append, Frame.sib, mem_ctxLeaves y fs]
    tauto

theorem upCalls_eq (nd : Nat → Node) (x : Nat) :
    ∀ fs : List Frame, upCalls nd x fs = callsOf nd (upLeafCalls nd x fs)
  | [] => rfl
  | f :: fs => by
    have ih := upCalls_eq nd x fs
    simp only [callsOf] at ih
    cases hl : f.isLeft <;>
      simp [upCalls, upLeafCalls, callsOf, markCalls, hl, ih, List.map_map, Function.comp]

theorem cachedCalls_eq (nd : Nat → Node) (pm : Nat → Pair) (x : Nat) (l : List Nat) :
    cachedCalls nd pm x l = callsOf nd (cachedLeafCalls pm x l) := by
  simp [cachedCalls, cachedLeafCalls, callsOf, List.map_map, Function.comp]

theorem callsOf_append (nd : Nat → Node) (a b : List (Nat × Nat)) :
    callsOf nd (a ++ b) = callsOf nd a ++ callsOf nd b := by
  simp [callsOf]

theorem count_map_pair (x : Nat) (b : Nat) :
    ∀ (l : List Nat), l.Nodup → (l.map (fun y => (x, y))).count (x, b) = if b ∈ l then 1 else 0
  | [], _ => by simp
  | y :: l, hnd => by
    simp only [List.nodup_cons] at hnd
    rw [List.map_cons, List.count_cons, count_map_pair x b l hnd.2]
    by_cases hyb : y = b
    · subst hyb
      simp [hnd.1]
    · have : ¬ ((x, y) == (x, b)) = true := by simp [hyb]
      simp [hyb, Ne.symm hyb, this]

theorem count_map_pair_ne (x a b : Nat) (h : a ≠ x) (l : List Nat) :
    (l.map (fun y => (x, y))).count (a, b) = 0 := by
  rw [List.count_eq_zero]
  intro c
  obtain ⟨y, _, hy⟩ := List.mem_map.1 c
  exact h (Prod.mk.inj hy).1.symm

/-- The calls of the walk up the path, counted. -/
theorem upLeafCalls_count (nd : Nat → Node) (x a b : Nat) :
    ∀ fs : List Frame, (ctxLeaves fs).Nodup →
      (upLeafCalls nd x fs).count (a, b) =
        if a = x ∧ b ∈ ctxBefore fs ∧ cpBBIntersects (nd x).bb (nd b).bb = true then 1 else 0
  | [], _ => by simp [upLeafCalls, ctxBefore]
  | Frame.left i s :: fs, hnd => by
    simp only [ctxLeaves, Frame.sib] at hnd
    have ih := upLeafCalls_count nd x a b fs (List.nodup_append.1 hnd).2.1
    simp only [upLeafCalls, Frame.isLeft, if_true, List.nil_append, ctxBefore]
    exact ih
  | Frame.right i s :: fs, hnd => by
    simp only [ctxLeaves, Frame.sib] at hnd
    obtain ⟨n1, n2, n3⟩ := List.nodup_append.1 hnd
    have ih := upLeafCalls_count nd x a b fs n2
    simp only [upLeafCalls, Frame.isLeft, Bool.false_eq_true, if_false, Frame.sib, ctxBefore,
      List.count_append, ih, List.mem_append]
    by_cases hax : a = x
    · subst hax
      have hn : (hits nd a s).Nodup := n1.filter _
      rw [count_map_pair a b _ hn]
      simp only [hits, List.mem_filter, true_and]
      by_cases hbs : b ∈ s.leaves
      · have hbc : b ∉ ctxBefore fs := fun c => n3 hbs ((mem_ctxLeaves b fs).2 (Or.inl c))
        by_cases hi : cpBBIntersects (nd a).bb (nd b).bb = true
        · simp [hbs, hbc, hi]
        · simp [hbs, hbc, hi]
      · simp [hbs]
    · rw [count_map_pair_ne x a b hax]
      simp [hax]

/-! ## The links after `LeafUpdate` -/

theorem ends_of_mem {w : World} {tree : Nat} {lv : List Nat} {L : Nat → List Nat}
    {FP : List Nat} (inv : PairInv w tree lv L FP) (x : Nat) (hx : x ∈ lv) (q : Nat)
    (hq : q ∈ L x) : (w.pair q).a.leaf = some x ∨ (w.pair q).b.leaf = some x := by
  obtain ⟨y, _, _, _, he⟩ := inv.ends x hx q hq
  rcases he with e | e
  · exact Or.inl e.1
  · exact Or.inr e.2

theorem mem_of_ends {w : World} {tree : Nat} {lv : List Nat} {L : Nat → List Nat}
    {FP : List Nat} (inv : PairInv w tree lv L FP) (v : Nat) (hv : v ∈ lv) (q : Nat)
    (hq : q ∈ L v) (x : Nat) (hx : (w.pair q).a.leaf = some x ∨ (w.pair q).b.leaf = some x)
    (hxv : x ≠ v) : q ∈ L x := by
  obtain ⟨y, _, hyv, hqy, he⟩ := inv.ends v hv q hq
  rcases he with e | e
  · rcases hx with c | c
    · rw [e.1] at c
      exact absurd (Option.some.inj c).symm hxv
    · rw [e.2] at c
      rw [← Option.some.inj c]
      exact hqy
  · rcases hx with c | c
    · rw [e.1] at c
      rw [← Option.some.inj c]
      exact hqy
    · rw [e.2] at c
      exact absurd (Option.some.inj c).symm hxv

/-- After the pairs of leaf `x` are cleared, no link has `x` as an endpoint and
the links between other leaves are as before. -/
theorem links_cleared {w : World} {tree : Nat} {lv : List Nat} {L : Nat → List Nat}
    {FP : List Nat} (inv : PairInv w tree lv L FP) (x : Nat) (hx : x ∈ lv) (pm' : Nat → Pair)
    (hpm : ∀ r, r ∉ L x → (pm' r).a.leaf = (w.pair r).a.leaf ∧
      (pm' r).b.leaf = (w.pair r).b.leaf)
    (u v : Nat) (hv : v ∈ lv) :
    links pm' (fun z => if z = x then [] else (L z).filter (fun q => decide (q ∉ L x))) u v =
      if u = x ∨ v = x then 0 else links w.pair L u v := by
  unfold links
  by_cases hvx : v = x
  · simp [hvx]
  · simp only [hvx, if_false, or_false]
    rw [List.countP_filter]
    by_cases hux : u = x
    · simp only [hux, if_true]
      rw [List.countP_eq_zero]
      intro q hq
      simp only [Bool.and_eq_true, decide_eq_true_eq, not_and]
      intro hab hqx
      rw [(hpm q hqx).1] at hab
      exact absurd (mem_of_ends inv v hv q hq x (Or.inl hab.1) (Ne.symm hvx)) hqx
    · simp only [hux, if_false]
      apply List.countP_congr
      intro q hq
      simp only [Bool.and_eq_true, decide_eq_true_eq]
      constructor
      · rintro ⟨hab, hqx⟩
        rw [(hpm q hqx).1, (hpm q hqx).2] at hab
        exact hab
      · intro hab
        have hqx : q ∉ L x := by
          intro c
          rcases ends_of_mem inv x hx q c with e | e
          · rw [hab.1] at e
            exact hux (Option.some.inj e)
          · rw [hab.2] at e
            exact hvx (Option.some.inj e)
        rw [(hpm q hqx).1, (hpm q hqx).2]
        exact ⟨hab, hqx⟩

theorem movedLeaf_false {w : World} {tree x : Nat} :
    movedLeaf w tree x = false ↔
      cpBBContainsBB (w.node x).bb ((w.index tree).bbfunc (w.node x).obj) = true := by
  simp [movedLeaf]

theorem movedLeaf_true {w : World} {tree x : Nat} :
    movedLeaf w tree x = true ↔
      cpBBContainsBB (w.node x).bb ((w.index tree).bbfunc (w.node x).obj) = false := by
  simp [movedLeaf]

/-- The `LeafUpdate` pass over the entries `es`: the leaves that moved get the
expanded box of their object and the current stamp and lose their links. -/
theorem leafUpdateEach_full (tree : Nat) (K fuel : Nat) :
    ∀ (es : List (Nat × Nat)) (t : Shape) (w : World) (L : Nat → List Nat) (FN FP : List Nat),
      TreeOK 1 w tree (some t) L FN FP → (∀ e ∈ es, e.2 ∈ t.leaves) → (es.map Prod.snd).Nodup →
      (∀ z ∈ t.leaves, (L z).length ≤ K) → t.leaves.length ≤ fuel → K ≤ fuel →
      ∃ t' w' L' FN' FP', leafUpdateEach fuel tree es w = some w' ∧
        TreeOK 1 w' tree (some t') L' FN' FP' ∧ t'.leaves.Perm t.leaves ∧
        (∀ z ∈ t.leaves, (L' z).length ≤ K) ∧
        (w'.index tree).leaves = (w.index tree).leaves ∧
        (w'.index tree).stamp = (w.index tree).stamp ∧
        w'.calls = w.calls ∧ Outside tree w w' ∧
        (∀ y ∈ t.leaves, (w'.node y).obj = (w.node y).obj) ∧
        (∀ y ∈ t.leaves, y ∈ es.map Prod.snd → movedLeaf w tree y = true →
          (w'.node y).bb = GetBB w tree (w.node y).obj ∧
          (w'.node y).stamp = (w.index tree).stamp) ∧
        (∀ y ∈ t.leaves, ¬ (y ∈ es.map Prod.snd ∧ movedLeaf w tree y = true) →
          (w'.node y).bb = (w.node y).bb ∧ (w'.node y).stamp = (w.node y).stamp) ∧
        (∀ u, ∀ v ∈ t.leaves, links w'.pair L' u v =
          if (u ∈ es.map Prod.snd ∧ movedLeaf w tree u = true) ∨
              (v ∈ es.map Prod.snd ∧ movedLeaf w tree v = true) then 0
          else links w.pair L u v)
  | [], t, w, L, FN, FP, ok, _, _, hK, _, _ =>
    ⟨t, w, L, FN, FP, rfl, ok, List.Perm.refl _, hK, rfl, rfl, rfl, Outside.outSame tree w,
      (fun _ _ => rfl), (fun _ _ h => by simp at h), (fun _ _ _ => ⟨rfl, rfl⟩),
      (fun u v _ => by simp)⟩
  | e :: es, t, w, L, FN, FP, ok, hes, hnd, hK, hf1, hf2 => by
    have hx := hes e (List.mem_cons_self _ _)
    simp only [List.map_cons, List.nodup_cons] at hnd
    obtain ⟨hstay, hmove⟩ := LeafUpdate_spec tree e.2 t w L FN FP fuel ok hx hf1
      (le_trans (hK _ hx) hf2)
    cases hc : cpBBContainsBB (w.node e.2).bb ((w.index tree).bbfunc (w.node e.2).obj) with
    | true =>
      have hmf : movedLeaf w tree e.2 = false := movedLeaf_false.2 hc
      obtain ⟨t', w', L', FN', FP', hres, ok', hperm, hK', hlv, hst, hcalls, hout, hobj, hmv,
          hnm, hlk⟩ :=
        leafUpdateEach_full tree K fuel es t w L FN FP ok
          (fun e' he' => hes e' (List.mem_cons_of_mem _ he')) hnd.2 hK hf1 hf2
      have hM : ∀ y, (y ∈ e.2 :: es.map Prod.snd ∧ movedLeaf w tree y = true) ↔
          (y ∈ es.map Prod.snd ∧ movedLeaf w tree y = true) := by
        intro y
        constructor
        · rintro ⟨h1, h2⟩
          rcases List.mem_cons.1 h1 with c | c
          · rw [c, hmf] at h2; cases h2
          · exact ⟨c, h2⟩
        · rintro ⟨h1, h2⟩
          exact ⟨List.mem_cons_of_mem _ h1, h2⟩
      refine ⟨t', w', L', FN', FP', ?_, ok', hperm, hK', hlv, hst, hcalls, hout, hobj, ?_, ?_, ?_⟩
      · simp only [leafUpdateEach, hstay hc]
        exact hres
      · intro y hy hin hm
        exact hmv y hy ((hM y).1 ⟨hin, hm⟩).1 hm
      · intro y hy hn
        exact hnm y hy (fun c => hn ((hM y).2 c))
      · intro u v hv
        simp only [List.map_cons, hM]
        exact hlk u v hv
    | false =>
      have hmt : movedLeaf w tree e.2 = true := movedLeaf_true.2 hc
      obtain ⟨t1, w1, FN1, FP1, hres1, ok1, hperm1, hox, hbx, hsx, hoy, hpm, hlv1, hst1, hcalls1,
          hout1⟩ := hmove hc
      have hK1 : ∀ z ∈ t1.leaves,
          ((fun z => if z = e.2 then [] else (L z).filter (fun q => decide (q ∉ L e.2))) z).length
            ≤ K := by
        intro z hz
        by_cases hze : z = e.2
        · simp [hze]
        · simp only [hze, if_false]
          exact le_trans (List.length_filter_le _ _) (hK z (hperm1.mem_iff.1 hz))
      obtain ⟨t', w', L', FN', FP', hres, ok', hperm, hK', hlv, hst, hcalls, hout, hobj, hmv,
          hnm, hlk⟩ :=
        leafUpdateEach_full tree K fuel es t1 w1 _ FN1 FP1 ok1
          (fun e' he' => hperm1.mem_iff.2 (hes e' (List.mem_cons_of_mem _ he'))) hnd.2 hK1
          (by rw [hperm1.length_eq]; exact hf1) hf2
      have hobj1 : ∀ y ∈ t.leaves, (w1.node y).obj = (w.node y).obj := by
        intro y hy
        by_cases hyx : y = e.2
        · rw [hyx]; exact hox
        · exact (hoy y hy hyx).1
      have hmoved1 : ∀ y ∈ t.leaves, y ≠ e.2 → movedLeaf w1 tree y = movedLeaf w tree y := by
        intro y hy hyx
        simp only [movedLeaf]
        rw [(hoy y hy hyx).1, (hoy y hy hyx).2.1, hout1.cfg.2.1]
      have hne : ∀ y, y ∈ es.map Prod.snd → y ≠ e.2 := fun y hy c => hnd.1 (c ▸ hy)
      refine ⟨t', w', L', FN', FP', ?_, ok', hperm.trans hperm1,
        fun z hz => hK' z (hperm1.mem_iff.2 hz), hlv.trans hlv1, hst.trans hst1,
        hcalls.trans hcalls1, hout1.outComp hout, ?_, ?_, ?_, ?_⟩
      · simp only [leafUpdateEach, hres1]
        exact hres
      · intro y hy
        rw [hobj y (hperm1.mem_iff.2 hy)]
        exact hobj1 y hy
      · intro y hy hin hm
        have hy1 : y ∈ t1.leaves := hperm1.mem_iff.2 hy
        rcases List.mem_cons.1 hin with c | c
        · have hnot : ¬ (y ∈ es.map Prod.snd ∧ movedLeaf w1 tree y = true) :=
            fun h => hne y h.1 c
          obtain ⟨b1, s1⟩ := hnm y hy1 hnot
          rw [b1, s1, c]
          exact ⟨hbx, hsx⟩
        · have hyx := hne y c
          obtain ⟨b1, s1⟩ := hmv y hy1 c (by rw [hmoved1 y hy hyx]; exact hm)
          rw [b1, s1, hst1, hobj1 y hy, GetBB_congr w w1 tree hout1.cfg]
          exact ⟨rfl, rfl⟩
      · intro y hy hn
        have hy1 : y ∈ t1.leaves := hperm1.mem_iff.2 hy
        have hyx : y ≠ e.2 := fun c => hn ⟨by rw [c]; exact List.mem_cons_self _ _, c ▸ hmt⟩
        have hnot : ¬ (y ∈ es.map Prod.snd ∧ movedLeaf w1 tree y = true) := by
          rintro ⟨h1, h2⟩
          rw [hmoved1 y hy hyx] at h2
          exact hn ⟨List.mem_cons_of_mem _ h1, h2⟩
        obtain ⟨b1, s1⟩ := hnm y hy1 hnot
        rw [b1, s1]
        exact ⟨(hoy y hy hyx).2.1, (hoy y hy hyx).2.2⟩
      · intro u v hv
        have hv1 : v ∈ t1.leaves := hperm1.mem_iff.2 hv
        rw [hlk u v hv1, links_cleared ok.pairs e.2 hx w1.pair hpm u v hv]
        have hMu : ∀ y, y ∈ t.leaves ∨ y ∉ t.leaves → True := fun _ _ => trivial
        by_cases hue : u = e.2
        · have h1 : (u ∈ (e :: es).map Prod.snd ∧ movedLeaf w tree u = true) :=
            ⟨by rw [hue]; exact List.mem_cons_self _ _, hue ▸ hmt⟩
          simp only [hue, true_or, if_true, ite_self]
          rw [if_pos (Or.inl (hue ▸ h1))]
        · by_cases hve : v = e.2
          · have h1 : (v ∈ (e :: es).map Prod.snd ∧ movedLeaf w tree v = true) :=
              ⟨by rw [hve]; exact List.mem_cons_self _ _, hve ▸ hmt⟩
            simp only [hve, or_true, if_true, ite_self]
            rw [if_pos (Or.inr (hve ▸ h1))]
          · simp only [hue, hve, or_self, if_false]
            have hv' : movedLeaf w1 tree v = movedLeaf w tree v := hmoved1 v hv hve
            by_cases hul : u ∈ t.leaves
            · have hu' : movedLeaf w1 tree u = movedLeaf w tree u := hmoved1 u hul hue
              simp only [List.map_cons, List.mem_cons, hue, hve, false_or, hu', hv']
            · have hun : u ∉ es.map Prod.snd := by
                intro c
                obtain ⟨e', he', hu⟩ := List.mem_map.1 c
                exact hul (hu ▸ hes e' (List.mem_cons_of_mem _ he'))
              simp only [List.map_cons, List.mem_cons, hue, hve, false_or, hun, false_and, hv']

/-! ## The order of the leaves -/

theorem takeWhile_split (done rest : List Nat) (x : Nat) (hx : x ∉ done) :
    (done ++ x :: rest).takeWhile (fun z => decide (z ≠ x)) = done := by
  induction done with
  | nil => simp [List.takeWhile]
  | cons d ds ih =>
    simp only [List.mem_cons, not_or] at hx
    have hd : d ≠ x := fun c => hx.1 c.symm
    rw [List.cons_append, List.takeWhile_cons]
    simp only [hd, ne_eq, not_false_eq_true, decide_True, if_true]
    exact congrArg _ (ih hx.2)

theorem bef_done (done rest : List Nat) (x u : Nat) (hnd : (done ++ x :: rest).Nodup) :
    bef (done ++ x :: rest) u x = true ↔ u ∈ done := by
  have hx : x ∉ done := not_mem_of_split done rest _ x rfl hnd
  simp only [bef, decide_eq_true_eq, takeWhile_split done rest x hx]

theorem bef_rest (done rest : List Nat) (x u : Nat) (hnd : (done ++ x :: rest).Nodup)
    (hux : u ≠ x) (hu : u ∈ done ++ x :: rest) :
    bef (done ++ x :: rest) x u = true ↔ u ∈ rest := by
  have hx : x ∉ done := not_mem_of_split done rest _ x rfl hnd
  have hnd' := List.nodup_append.1 hnd
  have hxr : x ∉ rest := (List.nodup_cons.1 hnd'.2.1).1
  simp only [List.mem_append, List.mem_cons] at hu
  rcases hu with hd | hd | hd
  · obtain ⟨d1, d2, hd12⟩ := List.append_of_mem hd
    have hsplit : done ++ x :: rest = d1 ++ u :: (d2 ++ x :: rest) := by
      rw [hd12]; simp
    have hu1 : u ∉ d1 := by
      have : (d1 ++ u :: (d2 ++ x :: rest)).Nodup := hsplit ▸ hnd
      exact not_mem_of_split d1 _ _ u rfl this
    have hxd1 : x ∉ d1 := fun c => hx (by rw [hd12]; exact List.mem_append_left _ c)
    have hur : u ∉ rest := fun c => hnd'.2.2 hd (List.mem_cons_of_mem _ c)
    simp only [bef, decide_eq_true_eq, hsplit, takeWhile_split d1 _ u hu1, hxd1, hur]
  · exact absurd hd hux
  · obtain ⟨r1, r2, hr12⟩ := List.append_of_mem hd
    have hsplit : done ++ x :: rest = (done ++ x :: r1) ++ u :: r2 := by
      rw [hr12]; simp
    have hu1 : u ∉ done ++ x :: r1 := by
      have : ((done ++ x :: r1) ++ u :: r2).Nodup := hsplit ▸ hnd
      exact not_mem_of_split _ _ _ u rfl this
    simp only [bef, decide_eq_true_eq, hsplit, takeWhile_split _ _ u hu1, hd, iff_true]
    simp

theorem mem_split (done rest : List Nat) (x u : Nat) (hnd : (done ++ x :: rest).Nodup)
    (hux : u ≠ x) (hu : u ∈ done ++ x :: rest) :
    (u ∈ done ∧ u ∉ rest) ∨ (u ∉ done ∧ u ∈ rest) := by
  have hnd' := List.nodup_append.1 hnd
  simp only [List.mem_append, List.mem_cons] at hu
  rcases hu with hd | hd | hd
  · exact Or.inl ⟨hd, fun c => hnd'.2.2 hd (List.mem_cons_of_mem _ c)⟩
  · exact absurd hd hux
  · exact Or.inr ⟨fun c => hnd'.2.2 c (List.mem_cons_of_mem _ hd), hd⟩

theorem bef_total (all : List Nat) (hnd : all.Nodup) (u v : Nat) (hu : u ∈ all) (hv : v ∈ all)
    (huv : u ≠ v) : (bef all u v = true ∧ bef all v u = false) ∨
      (bef all u v = false ∧ bef all v u = true) := by
  obtain ⟨d, r, hdr⟩ := List.append_of_mem hv
  subst hdr
  have h1 := bef_done d r v u hnd
  have h2 := bef_rest d r v u hnd huv hu
  rcases mem_split d r v u hnd huv hu with ⟨c1, c2⟩ | ⟨c1, c2⟩
  · left
    refine ⟨h1.2 c1, ?_⟩
    cases hb : bef (d ++ v :: r) v u with
    | false => rfl
    | true => exact absurd (h2.1 hb) c2
  · right
    refine ⟨?_, h2.2 c2⟩
    cases hb : bef (d ++ v :: r) u v with
    | false => rfl
    | true => exact absurd (h1.1 hb) c1

theorem split_unique (x : Nat) :
    ∀ (d1 r1 d2 r2 : List Nat), d1 ++ x :: r1 = d2 ++ x :: r2 → (d1 ++ x :: r1).Nodup →
      d1 = d2 ∧ r1 = r2
  | [], r1, [], r2, h, _ => by
    simp only [List.nil_append, List.cons.injEq, true_and] at h
    exact ⟨rfl, h⟩
  | [], r1, b :: d2, r2, h, hnd => by
    simp only [List.nil_append, List.cons_append, List.cons.injEq] at h
    obtain ⟨hb, hr⟩ := h
    subst hb
    simp only [List.nil_append, List.nodup_cons] at hnd
    exact absurd (by rw [hr]; simp) hnd.1
  | a :: d1, r1, [], r2, h, hnd => by
    simp only [List.nil_append, List.cons_append, List.cons.injEq] at h
    obtain ⟨hb, hr⟩ := h
    subst hb
    simp only [List.cons_append, List.nodup_cons] at hnd
    exact absurd (by simp) hnd.1
  | a :: d1, r1, b :: d2, r2, h, hnd => by
    simp only [List.cons_append, List.cons.injEq] at h
    obtain ⟨hab, hr⟩ := h
    subst hab
    simp only [List.cons_append, List.nodup_cons] at hnd
    obtain ⟨e1, e2⟩ := split_unique x d1 r1 d2 r2 hr hnd.2
    exact ⟨by rw [e1], e2⟩

theorem ctx_of_split (fs : List Frame) (x : Nat) (done rest : List Nat)
    (h : done ++ x :: rest = (plug fs (Shape.leaf x)).leaves)
    (hnd : (plug fs (Shape.leaf x)).leaves.Nodup) :
    ctxBefore fs = done ∧ ctxAfter fs = rest := by
  have e := plug_leaves_eq fs (Shape.leaf x)
  simp only [Shape.leaves_leaf, List.append_assoc, List.singleton_append] at e
  rw [e] at h hnd
  have := split_unique x _ _ _ _ h.symm hnd
  exact this

/-! ## One step of the mark pass, counted -/

theorem passLinks_moved (w : World) (tree : Nat) (done rest : List Nat) (x u v : Nat)
    (hnd : (done ++ x :: rest).Nodup) (hst : stamped w tree x = true)
    (hu : u ∈ done ++ x :: rest) (hv : v ∈ done ++ x :: rest) (huv : u ≠ v) :
    passLinks w tree (done ++ x :: rest) (done ++ [x]) u v =
      passLinks w tree (done ++ x :: rest) done u v +
        (if u = x ∧ v ∈ rest ∧ cpBBIntersects (w.node u).bb (w.node v).bb = true then 1 else 0) +
        (if v = x ∧ u ∈ done ∧ stamped w tree u = false ∧
          cpBBIntersects (w.node u).bb (w.node v).bb = true then 1 else 0) := by
  have hxd : x ∉ done := not_mem_of_split done rest _ x rfl hnd
  unfold passLinks
  by_cases hux : u = x
  · subst hux
    have hvx : v ≠ u := Ne.symm huv
    have hb := bef_rest done rest u v hnd hvx hv
    have hvd : (v ∈ done ++ [u]) ↔ v ∈ done := by simp [hvx]
    simp only [hst, hxd, hvx, hvd, List.mem_append, List.mem_singleton, or_true, true_and,
      false_and, if_false, and_false, Bool.true_eq_false, Nat.zero_add, Nat.add_zero, hb]
  · by_cases hvx : v = x
    · subst hvx
      have hb := bef_done done rest v u hnd
      have hud : (u ∈ done ++ [v]) ↔ u ∈ done := by simp [hux]
      simp only [hst, hxd, hux, hud, List.mem_append, List.mem_singleton, or_true, true_and,
        false_and, if_false, Nat.add_zero, hb]
    · have hud : (u ∈ done ++ [x]) ↔ u ∈ done := by simp [hux]
      have hvd : (v ∈ done ++ [x]) ↔ v ∈ done := by simp [hvx]
      simp only [hud, hvd, hux, hvx, false_and, if_false, Nat.add_zero]

theorem passLinks_still (w : World) (tree : Nat) (all done : List Nat) (x u v : Nat)
    (hst : stamped w tree x = false) :
    passLinks w tree all (done ++ [x]) u v = passLinks w tree all done u v := by
  unfold passLinks
  have h1 : (stamped w tree u = true ∧ u ∈ done ++ [x]) ↔ (stamped w tree u = true ∧ u ∈ done) := by
    constructor
    · rintro ⟨a, b⟩
      rcases List.mem_append.1 b with c | c
      · exact ⟨a, c⟩
      · rw [List.mem_singleton.1 c, hst] at a; cases a
    · rintro ⟨a, b⟩
      exact ⟨a, List.mem_append_left _ b⟩
  have h2 : (stamped w tree v = true ∧ v ∈ done ++ [x]) ↔ (stamped w tree v = true ∧ v ∈ done) := by
    constructor
    · rintro ⟨a, b⟩
      rcases List.mem_append.1 b with c | c
      · exact ⟨a, c⟩
      · rw [List.mem_singleton.1 c, hst] at a; cases a
    · rintro ⟨a, b⟩
      exact ⟨a, List.mem_append_left _ b⟩
  simp only [← and_assoc, h1, h2]

theorem passCalls_moved (w : World) (tree : Nat) (L : Nat → List Nat) (done rest : List Nat)
    (x a b : Nat) (hnd : (done ++ x :: rest).Nodup) (hst : stamped w tree x = true)
    (ha : a ∈ done ++ x :: rest) :
    passCalls w tree L (done ++ x :: rest) (done ++ [x]) a b =
      passCalls w tree L (done ++ x :: rest) done a b +
        (if a = x ∧ b ∈ done ∧ cpBBIntersects (w.node a).bb (w.node b).bb = true then 1
          else 0) := by
  have hxd : x ∉ done := not_mem_of_split done rest _ x rfl hnd
  unfold passCalls
  have hbd : (stamped w tree b = false ∧ b ∈ done ++ [x]) ↔
      (stamped w tree b = false ∧ b ∈ done) := by
    constructor
    · rintro ⟨p, q⟩
      rcases List.mem_append.1 q with c | c
      · exact ⟨p, c⟩
      · rw [List.mem_singleton.1 c, hst] at p; cases p
    · rintro ⟨p, q⟩
      exact ⟨p, List.mem_append_left _ q⟩
  simp only [hbd]
  by_cases hax : a = x
  · subst hax
    have hb := bef_done done rest a b hnd
    simp only [hst, hxd, List.mem_append, List.mem_singleton, or_true, true_and, false_and,
      if_false, Nat.zero_add, hb]
    omega
  · have had : (a ∈ done ++ [x]) ↔ a ∈ done := by simp [hax]
    simp only [had, hax, false_and, if_false, Nat.add_zero]

theorem passCalls_still (w : World) (tree : Nat) (L : Nat → List Nat) (done rest : List Nat)
    (x a b : Nat) (hnd : (done ++ x :: rest).Nodup) (hst : stamped w tree x = false)
    (ha : a ∈ done ++ x :: rest) :
    passCalls w tree L (done ++ x :: rest) (done ++ [x]) a b =
      passCalls w tree L (done ++ x :: rest) done a b +
        (if b = x then links w.pair L a x + passLinks w tree (done ++ x :: rest) done a x
          else 0) := by
  have hxd : x ∉ done := not_mem_of_split done rest _ x rfl hnd
  unfold passCalls passLinks
  have had : (stamped w tree a = true ∧ a ∈ done ++ [x]) ↔ (stamped w tree a = true ∧ a ∈ done) := by
    constructor
    · rintro ⟨p, q⟩
      rcases List.mem_append.1 q with c | c
      · exact ⟨p, c⟩
      · rw [List.mem_singleton.1 c, hst] at p; cases p
    · rintro ⟨p, q⟩
      exact ⟨p, List.mem_append_left _ q⟩
  simp only [← and_assoc, had]
  simp only [and_assoc]
  by_cases hbx : b = x
  · subst hbx
    have hb := bef_done done rest b a hnd
    simp only [hst, hxd, List.mem_append, List.mem_singleton, or_true, true_and, and_false,
      false_and, if_false, if_true, Nat.add_zero, Bool.false_eq_true, and_self, hb]
    by_cases h1 : a ∈ done <;> by_cases h2 : stamped w tree a = true <;> simp [h1, h2]
  · have hbd : (b ∈ done ++ [x]) ↔ b ∈ done := by simp [hbx]
    simp only [hbd, hbx, if_false, Nat.add_zero]

/-! ## The calls of one leaf, and the sums at the end of the pass -/

theorem callsOf_congr (nd nd' : Nat → Node) (h : ∀ i, (nd' i).obj = (nd i).obj)
    (lc : List (Nat × Nat)) : callsOf nd' lc = callsOf nd lc := by
  simp only [callsOf, h]

theorem mem_upLeafCalls (nd : Nat → Node) (x : Nat) :
    ∀ (fs : List Frame) (e : Nat × Nat), e ∈ upLeafCalls nd x fs →
      e.1 = x ∧ e.2 ∈ ctxBefore fs
  | [], e, h => by simp [upLeafCalls] at h
  | Frame.left i s :: fs, e, h => by
    simp only [upLeafCalls, Frame.isLeft, if_true, List.nil_append] at h
    simpa [ctxBefore] using mem_upLeafCalls nd x fs e h
  | Frame.right i s :: fs, e, h => by
    simp only [upLeafCalls, Frame.isLeft, Bool.false_eq_true, if_false, List.mem_append,
      List.mem_map, Frame.sib] at h
    simp only [ctxBefore, List.mem_append]
    rcases h with ⟨y, hy, he⟩ | h
    · subst he
      simp only [hits, List.mem_filter] at hy
      exact ⟨rfl, Or.inr hy.1⟩
    · have := mem_upLeafCalls nd x fs e h
      exact ⟨this.1, Or.inl this.2⟩

theorem cachedLeafCalls_count (pm : Nat → Pair) (x a b : Nat) (l : List Nat)
    (hl : ∀ p ∈ l, (pm p).b.leaf = some x → ∃ y, (pm p).a.leaf = some y) :
    (cachedLeafCalls pm x l).count (a, b) =
      if b = x then
        l.countP (fun p => decide ((pm p).a.leaf = some a ∧ (pm p).b.leaf = some x))
      else 0 := by
  unfold cachedLeafCalls
  rw [List.count_eq_countP, List.countP_map, List.countP_filter]
  by_cases hbx : b = x
  · subst hbx
    simp only [if_true]
    apply List.countP_congr
    intro p hp
    simp only [Function.comp, Bool.and_eq_true, beq_iff_eq, decide_eq_true_eq, Prod.mk.injEq]
    constructor
    · rintro ⟨⟨h1, _⟩, h2⟩
      obtain ⟨y, hy⟩ := hl p hp h2
      rw [hy] at h1
      simp only [Option.getD_some] at h1
      exact ⟨by rw [hy, h1], h2⟩
    · rintro ⟨h1, h2⟩
      exact ⟨⟨by rw [h1]; rfl, trivial⟩, h2⟩
  · simp only [hbx, if_false]
    rw [List.countP_eq_zero]
    intro p _
    simp only [Function.comp, Bool.and_eq_true, beq_iff_eq, decide_eq_true_eq, Prod.mk.injEq,
      not_and]
    intro h
    exact absurd h.2.symm hbx

theorem cachedLeafCalls_mem {w : World} {tree : Nat} {lv : List Nat} {L : Nat → List Nat}
    {FP : List Nat} (inv : PairInv w tree lv L FP) (x : Nat) (hx : x ∈ lv) (e : Nat × Nat)
    (he : e ∈ cachedLeafCalls w.pair x (L x)) : e.1 ∈ lv ∧ e.2 ∈ lv ∧ e.1 ≠ e.2 := by
  simp only [cachedLeafCalls, List.mem_map, List.mem_filter, decide_eq_true_eq] at he
  obtain ⟨p, ⟨hp, hb⟩, hpe⟩ := he
  subst hpe
  obtain ⟨y, hy, hyx, _, hends⟩ := inv.ends x hx p hp
  rcases hends with c | c
  · rw [c.2] at hb
    exact absurd (Option.some.inj hb) hyx
  · simp only [c.1, Option.getD_some]
    exact ⟨hy, hx, hyx⟩

theorem ends_some {w : World} {tree : Nat} {lv : List Nat} {L : Nat → List Nat}
    {FP : List Nat} (inv : PairInv w tree lv L FP) (x : Nat) (hx : x ∈ lv) :
    ∀ p ∈ L x, (w.pair p).b.leaf = some x → ∃ y, (w.pair p).a.leaf = some y := by
  intro p hp _
  obtain ⟨y, _, _, _, hends⟩ := inv.ends x hx p hp
  rcases hends with c | c
  · exact ⟨x, c.1⟩
  · exact ⟨y, c.1⟩

theorem touch_comm (nd : Nat → Node) (u v : Nat) : touch nd u v = touch nd v u := by
  unfold touch
  rw [cpBBIntersects_comm]

/-- The links the whole mark pass inserts between two leaves. -/
theorem passLinks_final (w : World) (tree : Nat) (all : List Nat) (hnd : all.Nodup) (u v : Nat)
    (hu : u ∈ all) (hv : v ∈ all) (huv : u ≠ v) :
    passLinks w tree all all u v + passLinks w tree all all v u =
      if stamped w tree u = true ∨ stamped w tree v = true then touch w.node u v else 0 := by
  unfold passLinks touch
  rw [cpBBIntersects_comm (w.node v).bb (w.node u).bb]
  rcases bef_total all hnd u v hu hv huv with ⟨b1, b2⟩ | ⟨b1, b2⟩ <;>
    cases hsu : stamped w tree u <;> cases hsv : stamped w tree v <;>
    cases hi : cpBBIntersects (w.node u).bb (w.node v).bb <;>
    simp [b1, b2, hu, hv]

/-- The calls the whole mark pass makes for two leaves. -/
theorem passCalls_final (w : World) (tree : Nat) (L : Nat → List Nat) (all : List Nat)
    (hnd : all.Nodup) (a b : Nat) (ha : a ∈ all) (hb : b ∈ all) (hab : a ≠ b)
    (hzero : stamped w tree a = true ∨ stamped w tree b = true →
      links w.pair L a b = 0 ∧ links w.pair L b a = 0)
    (hboth : stamped w tree a = false → stamped w tree b = false →
      links w.pair L a b + links w.pair L b a = touch w.node a b) :
    passCalls w tree L all all a b + passCalls w tree L all all b a = touch w.node a b := by
  unfold passCalls
  rw [cpBBIntersects_comm (w.node b).bb (w.node a).bb]
  cases hsa : stamped w tree a <;> cases hsb : stamped w tree b
  · have := hboth hsa hsb
    simp only [ha, hb, Bool.false_eq_true, false_and, if_false, and_self, if_true, Nat.add_zero,
      Nat.zero_add]
    exact this
  · obtain ⟨z1, z2⟩ := hzero (Or.inr hsb)
    unfold touch
    rcases bef_total all hnd a b ha hb hab with ⟨b1, b2⟩ | ⟨b1, b2⟩ <;>
      cases hi : cpBBIntersects (w.node a).bb (w.node b).bb <;>
      simp [b1, b2, ha, hb, z1, z2]
  · obtain ⟨z1, z2⟩ := hzero (Or.inl hsa)
    unfold touch
    rcases bef_total all hnd a b ha hb hab with ⟨b1, b2⟩ | ⟨b1, b2⟩ <;>
      cases hi : cpBBIntersects (w.node a).bb (w.node b).bb <;>
      simp [b1, b2, ha, hb, z1, z2]
  · unfold touch
    rcases bef_total all hnd a b ha hb hab with ⟨b1, b2⟩ | ⟨b1, b2⟩ <;>
      cases hi : cpBBIntersects (w.node a).bb (w.node b).bb <;>
      simp [b1, b2, ha, hb]

/-! ## The mark pass -/

theorem stamped_iff (w : World) (tree x : Nat) :
    stamped w tree x = true ↔ (w.node x).stamp = (w.index tree).stamp := by
  simp [stamped]

theorem stamped_false_iff (w : World) (tree x : Nat) :
    stamped w tree x = false ↔ (w.node x).stamp ≠ (w.index tree).stamp := by
  simp [stamped]

/-- One leaf of the mark pass. -/
theorem MarkLeaf_pass (tree : Nat) (func : QueryFunc) (hfunc : func ≠ QueryFunc.null)
    (t : Shape) (w1 : World) (L1 : Nat → List Nat) (FN FP1 : List Nat) (K : Nat)
    (ok1 : TreeOK 1 w1 tree (some t) L1 FN FP1)
    (done : List Nat) (x : Nat) (rest : List Nat) (w : World) (fuel : Nat)
    (hall : done ++ x :: rest = t.leaves)
    (hinv : PassInv tree func t w1 L1 FN K done w)
    (hfuel : K + 2 * t.leaves.length ≤ fuel) :
    ∃ w', MarkLeaf fuel x ⟨tree, none, func⟩ w = some w' ∧
      PassInv tree func t w1 L1 FN K (done ++ [x]) w' ∧
      ∀ i, (w'.node i).skel = (w.node i).skel := by
  obtain ⟨L, FP, lc, ok, hfr, hKc, hcalls, hlinks, hcount, hmem, hquiet⟩ := hinv
  have hnd : t.leaves.Nodup := Shape.leaves_nodup t ok.nodup
  have hndsplit : (done ++ x :: rest).Nodup := hall ▸ hnd
  have hxl : x ∈ t.leaves := by rw [← hall]; simp
  have hxd : x ∉ done := not_mem_of_split done rest t.leaves x hall hnd
  have hdone : ∀ y ∈ done, y ∈ t.leaves := fun y hy => by
    rw [← hall]; exact List.mem_append_left _ hy
  have hdl : done.length + 1 ≤ t.leaves.length := by rw [← hall]; simp
  have hh := Shape.height_le_leaves t
  -- what the pass so far left alone
  have hbb : ∀ i, (w.node i).bb = (w1.node i).bb := fun i => (skel_eq_fields (hfr.skel i)).2.1
  have hobj : ∀ i, (w.node i).obj = (w1.node i).obj := fun i => (skel_eq_fields (hfr.skel i)).1
  have hstp : ∀ i, (w.node i).stamp = (w1.node i).stamp :=
    fun i => (skel_eq_fields (hfr.skel i)).2.2.2.2.2
  have hS : (w.index tree).stamp = (w1.index tree).stamp := core_stamp (hfr.core tree)
  obtain ⟨fs, hfs⟩ := exists_path x t hxl
  have hctx : ctxBefore fs = done ∧ ctxAfter fs = rest :=
    ctx_of_split fs x done rest (hfs ▸ hall) (hfs ▸ hnd)
  obtain ⟨w2, L2, FP2, hres2, inv2, hfr2, hmoved, hstill⟩ :=
    MarkLeaf_spec tree x func hfunc fs w t.leaves L FP fuel ok.noDynamic ok.pairs
      (hfs ▸ ok.root.2.2) (hfs ▸ ok.root.2.1) (hfs ▸ ok.nodup) (hfs ▸ ok.fit _ rfl)
      (fun y hy => hfs ▸ hy)
      (fun _ => by rw [← hfs]; omega) (fun _ => by have := hKc x hxl hxd; omega)
  have ok2 : TreeOK 1 w2 tree (some t) L2 FN FP2 := TreeOK_of_pairFrame ok hfr2 inv2
  refine ⟨w2, hres2, ?_, hfr2.skel⟩
  by_cases hst : (w.node x).stamp = (w.index tree).stamp
  · -- the leaf moved
    obtain ⟨hc2, hg⟩ := hmoved hst
    have hst1 : stamped w1 tree x = true := by
      rw [stamped_iff, ← hstp, ← hS]; exact hst
    obtain ⟨hcn, hxc⟩ := ctxLeaves_facts fs x (hfs ▸ hnd)
    have hinsnd : ((upIns w.node x fs).map Prod.fst).Nodup :=
      hcn.sublist (upIns_fst_sublist w.node x fs)
    have hxins : x ∉ (upIns w.node x fs).map Prod.fst :=
      fun c => hxc (mem_upIns_fst w.node x fs x c)
    refine ⟨L2, FP2, lc ++ upLeafCalls w.node x fs, ok2, hfr.pairTrans hfr2, ?_, ?_, ?_, ?_, ?_,
      fun hq => by rw [hq x hxl] at hst1; cases hst1⟩
    · intro z hz hzd
      simp only [List.mem_append, List.mem_singleton, not_or] at hzd
      simp only [List.length_append, List.length_singleton]
      have h1 := hKc z hz hzd.1
      have := hg.length_le z hzd.2
      omega
    · rw [hc2, hcalls, upCalls_eq, callsOf_congr w1.node w.node hobj, callsOf_append,
        logOf_append, List.append_assoc]
    · intro u hu v hv huv
      rw [hg.links_eq hinsnd hxins hxl u v hv, hlinks u hu v hv huv]
      have hu' : u ∈ done ++ x :: rest := hall ▸ hu
      have hv' : v ∈ done ++ x :: rest := hall ▸ hv
      have key := passLinks_moved w1 tree done rest x u v hndsplit hst1 hu' hv' huv
      rw [hall] at key
      rw [key]
      have e1 : (u = x ∧ (v, true) ∈ upIns w.node x fs) ↔
          (u = x ∧ v ∈ rest ∧ cpBBIntersects (w1.node u).bb (w1.node v).bb = true) := by
        rw [mem_upIns_true, hctx.2, hbb, hbb]
        constructor
        · rintro ⟨a, b, c⟩
          exact ⟨a, b, by rw [a]; exact c⟩
        · rintro ⟨a, b, c⟩
          exact ⟨a, b, by rw [← a]; exact c⟩
      have e2 : (v = x ∧ (u, false) ∈ upIns w.node x fs) ↔
          (v = x ∧ u ∈ done ∧ stamped w1 tree u = false ∧
            cpBBIntersects (w1.node u).bb (w1.node v).bb = true) := by
        rw [mem_upIns_false, hctx.1, hbb, hbb, hstp, hstp, stamped_false_iff]
        have hle := ok1.stamps u hu
        have hsx : (w1.node x).stamp = (w1.index tree).stamp := (stamped_iff _ _ _).1 hst1
        constructor
        · rintro ⟨a, b, c, d⟩
          refine ⟨a, b, ?_, ?_⟩
          · rw [hsx] at d; omega
          · rw [a, cpBBIntersects_comm]; exact c
        · rintro ⟨a, b, c, d⟩
          refine ⟨a, b, ?_, ?_⟩
          · rw [← a, cpBBIntersects_comm]; exact d
          · rw [hsx]; omega
      simp only [e1, e2]
      omega
    · intro a ha b hb hab
      rw [List.count_append, hcount a ha b hb hab, upLeafCalls_count w.node x a b fs hcn]
      have ha' : a ∈ done ++ x :: rest := hall ▸ ha
      have key := passCalls_moved w1 tree L1 done rest x a b hndsplit hst1 ha'
      rw [hall] at key
      rw [key, hctx.1, hbb, hbb]
      have e1 : (a = x ∧ b ∈ done ∧ cpBBIntersects (w1.node x).bb (w1.node b).bb = true) ↔
          (a = x ∧ b ∈ done ∧ cpBBIntersects (w1.node a).bb (w1.node b).bb = true) := by
        constructor
        · rintro ⟨p, q, r⟩
          exact ⟨p, q, by rw [p]; exact r⟩
        · rintro ⟨p, q, r⟩
          exact ⟨p, q, by rw [← p]; exact r⟩
      simp only [e1]
    · intro e he
      rcases List.mem_append.1 he with c | c
      · exact hmem e c
      · obtain ⟨p, q⟩ := mem_upLeafCalls w.node x fs e c
        rw [hctx.1] at q
        refine ⟨p ▸ hxl, hdone _ q, ?_⟩
        rw [p]
        exact fun c' => hxd (c' ▸ q)
  · -- the leaf did not move
    obtain ⟨hw2, hL2, hFP2⟩ := hstill hst
    have hst1 : stamped w1 tree x = false := by
      rw [stamped_false_iff, ← hstp, ← hS]; exact hst
    have hp2 : w2.pair = w.pair := by rw [hw2]; rfl
    refine ⟨L2, FP2, lc ++ cachedLeafCalls w.pair x (L x), ok2, hfr.pairTrans hfr2, ?_, ?_, ?_,
      ?_, ?_, ?_⟩
    · intro z hz hzd
      simp only [List.mem_append, List.mem_singleton, not_or] at hzd
      simp only [List.length_append, List.length_singleton]
      have h1 := hKc z hz hzd.1
      rw [hL2]
      omega
    · rw [hw2, cachedCalls_eq, callsOf_congr w1.node w.node hobj]
      show w.calls ++ _ = _
      rw [hcalls, callsOf_append, logOf_append, List.append_assoc]
    · intro u hu v hv huv
      rw [hL2, hp2, hlinks u hu v hv huv, passLinks_still w1 tree t.leaves done x u v hst1]
    · intro a ha b hb hab
      rw [List.count_append, hcount a ha b hb hab,
        cachedLeafCalls_count w.pair x a b (L x) (ends_some ok.pairs x hxl)]
      have ha' : a ∈ done ++ x :: rest := hall ▸ ha
      have key := passCalls_still w1 tree L1 done rest x a b hndsplit hst1 ha'
      rw [hall] at key
      rw [key]
      by_cases hbx : b = x
      · subst hbx
        simp only [if_true]
        have := hlinks a ha b hb hab
        unfold links at this
        rw [this]
        rfl
      · simp only [hbx, if_false]
    · intro e he
      rcases List.mem_append.1 he with c | c
      · exact hmem e c
      · exact cachedLeafCalls_mem ok.pairs x hxl e c
    · intro hq
      obtain ⟨hw, hL⟩ := hquiet hq
      refine ⟨?_, hL2.trans hL⟩
      rw [hw2, cachedCalls_eq, callsOf_congr w1.node w.node hobj, callsOf_append, logOf_append]
      have hp : w.pair = w1.pair := by rw [hw]; rfl
      rw [hp, hL]
      conv_lhs => rw [hw]
      simp only [World.addCalls, List.append_assoc]

/-- The mark pass of `cpBBTreeReindexQuery` on a sound tree: it returns, and its
links and calls are the ones of `PassInv` for the whole list of leaves. -/
theorem MarkSubtree_full (tree : Nat) (func : QueryFunc) (hfunc : func ≠ QueryFunc.null)
    (t : Shape) (w1 : World) (L1 : Nat → List Nat) (FN FP1 : List Nat) (K fuel : Nat)
    (ok1 : TreeOK 1 w1 tree (some t) L1 FN FP1) (hK : ∀ z ∈ t.leaves, (L1 z).length ≤ K)
    (hfuel : K + 3 * t.leaves.length ≤ fuel) :
    ∃ w', MarkSubtree fuel t.root ⟨tree, none, func⟩ w1 = some w' ∧
      PassInv tree func t w1 L1 FN K t.leaves w' := by
  have hh := Shape.height_le_leaves t
  obtain ⟨w', hres, hinv, _⟩ :=
    MarkSubtree_fold ⟨tree, none, func⟩ t.leaves (PassInv tree func t w1 L1 FN K)
      (K + 2 * t.leaves.length)
      (fun done x rest w fuel1 hall hinv hB =>
        MarkLeaf_pass tree func hfunc t w1 L1 FN FP1 K ok1 done x rest w fuel1 hall hinv hB)
      t [] [] w1 fuel (by simp) ok1.root.2.2
      ⟨L1, FP1, [], ok1, PairFrame.pairRefl tree w1,
        (fun z hz _ => by have := hK z hz; simpa using this),
        (by simp [callsOf, logOf_nil]),
        (fun u _ v _ _ => by simp [passLinks]),
        (fun a _ b _ _ => by simp [passCalls]),
        (fun e he => by cases he),
        (fun _ => ⟨by simp [callsOf, logOf_nil, World.addCalls], rfl⟩)⟩
      (by omega)
  simp only [List.nil_append] at hinv
  exact ⟨w', hres, hinv⟩

/-! ## `cpBBTreeReindexQuery`, with its calls -/

theorem callsOf_congr_mem (nd nd' : Nat → Node) (lc : List (Nat × Nat))
    (h : ∀ e ∈ lc, (nd' e.1).obj = (nd e.1).obj ∧ (nd' e.2).obj = (nd e.2).obj) :
    callsOf nd' lc = callsOf nd lc := by
  unfold callsOf
  apply List.map_congr_left
  intro e he
  rw [(h e he).1, (h e he).2]

theorem passCalls_quiet (w : World) (tree : Nat) (L : Nat → List Nat) (all : List Nat)
    (a b : Nat) (hb : b ∈ all) (ha : stamped w tree a = false) (hsb : stamped w tree b = false) :
    passCalls w tree L all all a b = links w.pair L a b := by
  unfold passCalls
  simp [ha, hsb, hb]

/-- The calls the whole mark pass makes for two leaves, in either order: one
if their boxes intersect when one of them moved, and one for every cached pair
of the two when neither moved. -/
theorem passCalls_unordered (w : World) (tree : Nat) (L : Nat → List Nat) (all : List Nat)
    (hnd : all.Nodup) (a b : Nat) (ha : a ∈ all) (hb : b ∈ all) (hab : a ≠ b)
    (hzero : stamped w tree a = true ∨ stamped w tree b = true →
      links w.pair L a b = 0 ∧ links w.pair L b a = 0) :
    passCalls w tree L all all a b + passCalls w tree L all all b a =
      if stamped w tree a = true ∨ stamped w tree b = true then touch w.node a b
      else links w.pair L a b + links w.pair L b a := by
  unfold passCalls
  rw [cpBBIntersects_comm (w.node b).bb (w.node a).bb]
  cases hsa : stamped w tree a <;> cases hsb : stamped w tree b
  · simp only [ha, hb, Bool.false_eq_true, false_and, if_false, and_self, if_true, Nat.add_zero,
      Nat.zero_add, or_self]
  · obtain ⟨z1, z2⟩ := hzero (Or.inr hsb)
    unfold touch
    rcases bef_total all hnd a b ha hb hab with ⟨b1, b2⟩ | ⟨b1, b2⟩ <;>
      cases hi : cpBBIntersects (w.node a).bb (w.node b).bb <;>
      simp [b1, b2, ha, hb, z1, z2]
  · obtain ⟨z1, z2⟩ := hzero (Or.inl hsa)
    unfold touch
    rcases bef_total all hnd a b ha hb hab with ⟨b1, b2⟩ | ⟨b1, b2⟩ <;>
      cases hi : cpBBIntersects (w.node a).bb (w.node b).bb <;>
      simp [b1, b2, ha, hb, z1, z2]
  · unfold touch
    rcases bef_total all hnd a b ha hb hab with ⟨b1, b2⟩ | ⟨b1, b2⟩ <;>
      cases hi : cpBBIntersects (w.node a).bb (w.node b).bb <;>
      simp [b1, b2, ha, hb]

/-- `cpBBTreeReindexQuery` on a well-formed standalone tree: it returns; the
tree is well-formed again; two leaves of which one moved are linked afterwards
by one pair if their updated boxes intersect and by none if not, and the
callback is called once for them in the first case and never in the second;
two leaves that did not move keep their pairs, and the callback is called once
for each of these. -/
theorem cpBBTreeReindexQuery_counts (tree : Nat) (func : QueryFunc)
    (hfunc : func ≠ QueryFunc.null) (w : World) (t : Shape) (L : Nat → List Nat)
    (FN FP : List Nat) (K fuel : Nat) (wf : WF w tree (some t) L FN FP)
    (hK : ∀ z ∈ t.leaves, (L z).length ≤ K) (hfuel : K + 3 * t.leaves.length ≤ fuel) :
    ∃ t' w' L' FN' FP' lc, cpBBTreeReindexQuery fuel tree func w = some w' ∧
      WF w' tree (some t') L' FN' FP' ∧ t'.leaves.Perm t.leaves ∧
      (w'.index tree).leaves = (w.index tree).leaves ∧
      (w'.index tree).stamp = (w.index tree).stamp + 1 ∧ Outside tree w w' ∧
      (∀ y ∈ t.leaves, (w'.node y).obj = (w.node y).obj ∧
        (w'.node y).bb =
          (if movedLeaf w tree y = true then GetBB w tree (w.node y).obj else (w.node y).bb) ∧
        (w'.node y).stamp =
          (if movedLeaf w tree y = true then (w.index tree).stamp else (w.node y).stamp)) ∧
      w'.calls = w.calls ++ logOf func (callsOf w.node lc) ∧
      (∀ u ∈ t.leaves, ∀ v ∈ t.leaves, u ≠ v →
        links w'.pair L' u v + links w'.pair L' v u =
          if movedLeaf w tree u = true ∨ movedLeaf w tree v = true then touch w'.node u v
          else links w.pair L u v + links w.pair L v u) ∧
      (∀ a ∈ t.leaves, ∀ b ∈ t.leaves, a ≠ b →
        lc.count (a, b) + lc.count (b, a) =
          if movedLeaf w tree a = true ∨ movedLeaf w tree b = true then touch w'.node a b
          else links w.pair L a b + links w.pair L b a) ∧
      (∀ e ∈ lc, e.1 ∈ t.leaves ∧ e.2 ∈ t.leaves ∧ e.1 ≠ e.2) ∧
      ((∀ y ∈ t.leaves, movedLeaf w tree y = false) →
        w' = IncrementStamp tree (w.addCalls (logOf func (callsOf w.node lc))) ∧
        ∀ a ∈ t.leaves, ∀ b ∈ t.leaves, a ≠ b → lc.count (a, b) = links w.pair L a b) := by
  have hr : (w.index tree).root = some t.root := wf.1.root.1
  have hlisted : ((w.index tree).leaves.map Prod.snd).Perm t.leaves := wf.2
  have hnd : t.leaves.Nodup := Shape.leaves_nodup t wf.1.nodup
  have hes : ∀ e ∈ (w.index tree).leaves, e.2 ∈ t.leaves := fun e he =>
    hlisted.mem_iff.1 (List.mem_map_of_mem Prod.snd he)
  have hin : ∀ y ∈ t.leaves, y ∈ (w.index tree).leaves.map Prod.snd := fun y hy =>
    hlisted.mem_iff.2 hy
  obtain ⟨t1, w1, L1, FN1, FP1, hres1, ok1, hperm1, hK1, hlv1, hst1, hcalls1, hout1, hobj1, hmv,
      hnm, hlk⟩ :=
    leafUpdateEach_full tree K fuel (w.index tree).leaves t w L FN FP wf.1.weaken hes
      (hlisted.nodup_iff.2 hnd) hK (by omega) (by omega)
  have hmem1 : ∀ y, y ∈ t1.leaves ↔ y ∈ t.leaves := fun y => hperm1.mem_iff
  have hnd1 : t1.leaves.Nodup := hperm1.nodup_iff.2 hnd
  obtain ⟨w2, hres2, L2, FP2, lc, ok2, hfr2, _, hcalls2, hlinks2, hcount2, hlcmem, hquiet⟩ :=
    MarkSubtree_full tree func hfunc t1 w1 L1 FN1 FP1 K fuel ok1
      (fun z hz => hK1 z ((hmem1 z).1 hz)) (by rw [hperm1.length_eq]; exact hfuel)
  have hinc := IncrementStamp_alone tree w2 ok2.noDynamic
  have hc2 := hfr2.core tree
  have hbb2 : ∀ i, (w2.node i).bb = (w1.node i).bb := fun i => (skel_eq_fields (hfr2.skel i)).2.1
  have hobj2 : ∀ i, (w2.node i).obj = (w1.node i).obj := fun i => (skel_eq_fields (hfr2.skel i)).1
  have hstp2 : ∀ i, (w2.node i).stamp = (w1.node i).stamp :=
    fun i => (skel_eq_fields (hfr2.skel i)).2.2.2.2.2
  -- which leaves carry the current stamp after the update
  have hstamped : ∀ y ∈ t.leaves, stamped w1 tree y = movedLeaf w tree y := by
    intro y hy
    cases hm : movedLeaf w tree y with
    | true =>
      rw [stamped_iff, (hmv y hy (hin y hy) hm).2, hst1]
    | false =>
      rw [stamped_false_iff, (hnm y hy (fun c => by rw [hm] at c; cases c.2)).2, hst1]
      have := wf.1.stamps y hy
      omega
  have hlk1 : ∀ u ∈ t.leaves, ∀ v ∈ t.leaves, links w1.pair L1 u v =
      if movedLeaf w tree u = true ∨ movedLeaf w tree v = true then 0
      else links w.pair L u v := by
    intro u hu v hv
    rw [hlk u v hv]
    simp only [hin u hu, hin v hv, true_and]
  have hzero : ∀ a ∈ t.leaves, ∀ b ∈ t.leaves,
      stamped w1 tree a = true ∨ stamped w1 tree b = true →
      links w1.pair L1 a b = 0 ∧ links w1.pair L1 b a = 0 := by
    intro a ha b hb h
    rw [hstamped a ha, hstamped b hb] at h
    rw [hlk1 a ha b hb, hlk1 b hb a ha, if_pos h, if_pos h.symm]
    exact ⟨rfl, rfl⟩
  have htouch2 : ∀ u v, touch (IncrementStamp tree w2).node u v = touch w1.node u v := by
    intro u v
    rw [hinc]
    unfold touch
    show (if cpBBIntersects (w2.node u).bb (w2.node v).bb = true then 1 else 0) = _
    rw [hbb2, hbb2]
  have hlv : ((IncrementStamp tree w2).index tree).leaves = (w.index tree).leaves := by
    rw [hinc]
    simp only [setIndex_index, upd_same]
    rw [core_leaves hc2, hlv1]
  have hcallsfin : (IncrementStamp tree w2).calls =
      w.calls ++ logOf func (callsOf w.node lc) := by
    rw [hinc]
    show w2.calls = _
    rw [hcalls2, hcalls1, callsOf_congr_mem w.node w1.node lc]
    intro e he
    obtain ⟨h1, h2, _⟩ := hlcmem e he
    exact ⟨hobj1 _ ((hmem1 _).1 h1), hobj1 _ ((hmem1 _).1 h2)⟩
  have hmoved : ∀ a ∈ t.leaves, ∀ b ∈ t.leaves,
      (stamped w1 tree a = true ∨ stamped w1 tree b = true) ↔
        (movedLeaf w tree a = true ∨ movedLeaf w tree b = true) := by
    intro a ha b hb
    rw [hstamped a ha, hstamped b hb]
  refine ⟨t1, IncrementStamp tree w2, L2, FN1, FP2, lc, ?_, ⟨IncrementStamp_ok ok2, ?_⟩, hperm1,
    hlv, ?_, ?_, ?_, hcallsfin, ?_, ?_, ?_, ?_⟩
  · have hr1 : (w1.index tree).root = some t1.root := ok1.root.1
    simp only [cpBBTreeReindexQuery, hr, hres1, ok1.noStatic, GetRootIfTree_none, hr1, hres2]
  · unfold Listed
    rw [hlv]
    exact wf.2.trans hperm1.symm
  · rw [hinc]
    simp only [setIndex_index, upd_same]
    rw [core_stamp hc2, hst1]
  · rw [hinc]
    have o : Outside tree w2 (w2.setIndex tree
        { w2.index tree with stamp := (w2.index tree).stamp + 1 }) :=
      Outside.setIndex tree w2 _ ⟨rfl, rfl, rfl, rfl, rfl⟩
    exact hout1.outComp (hfr2.pairOutside.outComp o)
  · intro y hy
    rw [hinc]
    show (w2.node y).obj = _ ∧ (w2.node y).bb = _ ∧ (w2.node y).stamp = _
    rw [hobj2, hbb2, hstp2]
    refine ⟨hobj1 y hy, ?_⟩
    cases hm : movedLeaf w tree y with
    | true =>
      simp only [if_true]
      exact hmv y hy (hin y hy) hm
    | false =>
      simp only [Bool.false_eq_true, if_false]
      exact hnm y hy (fun c => by rw [hm] at c; cases c.2)
  · -- the links afterwards
    intro u hu0 v hv0 huv
    have hu := (hmem1 u).2 hu0
    have hv := (hmem1 v).2 hv0
    have hp : (IncrementStamp tree w2).pair = w2.pair := by rw [hinc]; rfl
    rw [hp, htouch2, hlinks2 u hu v hv huv, hlinks2 v hv u hu (Ne.symm huv)]
    have hfin := passLinks_final w1 tree t1.leaves hnd1 u v hu hv huv
    by_cases hs : stamped w1 tree u = true ∨ stamped w1 tree v = true
    · obtain ⟨z1, z2⟩ := hzero u hu0 v hv0 hs
      rw [if_pos hs] at hfin
      rw [if_pos ((hmoved u hu0 v hv0).1 hs)]
      omega
    · rw [if_neg hs] at hfin
      have hm := fun c => hs ((hmoved u hu0 v hv0).2 c)
      rw [if_neg hm, hlk1 u hu0 v hv0, hlk1 v hv0 u hu0, if_neg hm,
        if_neg (fun c => hm c.symm)]
      omega
  · intro a ha b hb hab
    have ha1 := (hmem1 a).2 ha
    have hb1 := (hmem1 b).2 hb
    rw [htouch2, hcount2 a ha1 b hb1 hab, hcount2 b hb1 a ha1 (Ne.symm hab),
      passCalls_unordered w1 tree L1 t1.leaves hnd1 a b ha1 hb1 hab (hzero a ha b hb)]
    by_cases hs : stamped w1 tree a = true ∨ stamped w1 tree b = true
    · rw [if_pos hs, if_pos ((hmoved a ha b hb).1 hs)]
    · have hm := fun c => hs ((hmoved a ha b hb).2 c)
      rw [if_neg hs, if_neg hm, hlk1 a ha b hb, hlk1 b hb a ha, if_neg hm,
        if_neg (fun c => hm c.symm)]
  · intro e he
    obtain ⟨h1, h2, h3⟩ := hlcmem e he
    exact ⟨(hmem1 _).1 h1, (hmem1 _).1 h2, h3⟩
  · intro hq
    have hstill := leafUpdateEach_still tree t w L FN FP fuel wf.1.weaken (by omega)
      (fun x hx => by have := hK x hx; omega) (w.index tree).leaves hes
      (fun e he => movedLeaf_false.1 (hq e.2 (hes e he)))
    rw [hres1] at hstill
    have hw1 : w1 = w := Option.some.inj hstill
    have hsf : ∀ y ∈ t1.leaves, stamped w1 tree y = false := by
      intro y hy
      rw [hstamped y ((hmem1 y).1 hy)]
      exact hq y ((hmem1 y).1 hy)
    obtain ⟨hw2, hL2⟩ := hquiet hsf
    refine ⟨?_, ?_⟩
    · rw [hw2, hw1]
    · intro a ha b hb hab
      have ha1 := (hmem1 a).2 ha
      have hb1 := (hmem1 b).2 hb
      rw [hcount2 a ha1 b hb1 hab, passCalls_quiet w1 tree L1 t1.leaves a b hb1 (hsf a ha1)
        (hsf b hb1), hlk1 a ha b hb]
      simp [hq a ha, hq b hb]


theorem Seg_unique (pm : Nat → Pair) (x : Nat) (tl : Option Nat) :
    ∀ (l l' : List Nat) (prev head : Option Nat), tl = none → Seg pm x prev head l tl →
      Seg pm x prev head l' tl → l = l'
  | [], [], _, _, _, _, _ => rfl
  | [], q :: l', _, head, ht, h1, h2 => by
    simp only [Seg] at h1 h2
    rw [h1, ht] at h2
    cases h2.1
  | p :: l, [], _, head, ht, h1, h2 => by
    simp only [Seg] at h1 h2
    rw [h2, ht] at h1
    cases h1.1
  | p :: l, q :: l', prev, head, ht, h1, h2 => by
    simp only [Seg] at h1 h2
    have e : p = q := Option.some.inj (h1.1.symm.trans h2.1)
    subst e
    rw [Seg_unique pm x tl l l' (some p) _ ht h1.2.2.2 h2.2.2.2]

theorem ListFrom_unique (pm : Nat → Pair) (x : Nat) (prev head : Option Nat) (l l' : List Nat)
    (h1 : ListFrom pm x prev head l) (h2 : ListFrom pm x prev head l') : l = l' :=
  Seg_unique pm x none l l' prev head rfl h1 h2

theorem one_le_countP (p : Nat → Bool) (l : List Nat) (a : Nat) (ha : a ∈ l) (pa : p a = true) :
    1 ≤ l.countP p :=
  List.countP_pos_iff.2 ⟨a, ha, pa⟩

theorem LeafOf_iff (w : World) (tree : Nat) (sh : Option Shape) (h : RootRep w tree sh)
    (n : Nat) : n ∈ shLeaves sh ↔ LeafOf w tree n :=
  shLeaves_iff w tree sh h n

/-- `cpBBTreeReindexQuery` on a well-formed tree none of whose leaves moved: the
memory is as before but for the stamp of the tree and the call log, and the
callback is called once for every pair record. -/
theorem reindexQuery_quiet (tree : Nat) (func : QueryFunc) (hfunc : func ≠ QueryFunc.null)
    (w : World) (sh : Option Shape) (L : Nat → List Nat) (FN FP : List Nat) (fuel : Nat)
    (wf : WF w tree sh L FN FP) (hfuel : 3 * cpBBTreeCount w tree + w.pairBrk + 2 ≤ fuel)
    (hstill : ∀ n, LeafOf w tree n →
      cpBBContainsBB (w.node n).bb ((w.index tree).bbfunc (w.node n).obj) = true) :
    ∃ lc, cpBBTreeReindexQuery fuel tree func w =
        some (if (w.index tree).root = none then w
          else (w.addCalls (logOf func (callsOf w.node lc))).setIndex tree
            { w.index tree with stamp := (w.index tree).stamp + 1 }) ∧
      (∀ e ∈ lc, LeafOf w tree e.1 ∧ LeafOf w tree e.2 ∧ e.1 ≠ e.2) ∧
      (∀ a b, LeafOf w tree a → LeafOf w tree b → a ≠ b →
        lc.count (a, b) = links w.pair L a b) := by
  rw [wf.count_eq] at hfuel
  cases sh with
  | none =>
    have hr : (w.index tree).root = none := wf.1.root
    refine ⟨[], ?_, (fun e he => by cases he), ?_⟩
    · simp only [cpBBTreeReindexQuery, hr, if_true]
    · intro a b ha
      have := (LeafOf_iff w tree none wf.1.root a).2 ha
      cases this
  | some t =>
    have hr : (w.index tree).root = some t.root := wf.1.root.1
    have hiff := LeafOf_iff w tree (some t) wf.1.root
    obtain ⟨t1, w1, L1, FN1, FP1, lc, hres1, _, _, _, _, _, _, _, _, hcount, hmem, hquiet⟩ :=
      cpBBTreeReindexQuery_counts tree func hfunc w t L FN FP w.pairBrk fuel wf
        (fun z hz => wf.1.pairs.listLength_le z hz) (by simp only [shLeaves] at hfuel; omega)
    obtain ⟨hw1, hc⟩ := hquiet (fun y hy => movedLeaf_false.2 (hstill y ((hiff y).1 hy)))
    refine ⟨lc, ?_, ?_, ?_⟩
    · rw [hres1, hw1, IncrementStamp_alone tree _ (by exact wf.1.noDynamic), hr]
      rfl
    · intro e he
      exact ⟨(hiff _).1 (hmem e he).1, (hiff _).1 (hmem e he).2.1, (hmem e he).2.2⟩
    · intro a b ha hb hab
      exact hc a ((hiff a).2 ha) b ((hiff b).2 hb) hab

/-! ## Insert followed by Remove -/

theorem forall₂_of_mem_left {α β : Type} {R : α → β → Prop} :
    ∀ {l1 : List α} {l2 : List β}, List.Forall₂ R l1 l2 → ∀ a ∈ l1, ∃ b ∈ l2, R a b
  | _, _, List.Forall₂.nil, a, ha => by cases ha
  | _, _, List.Forall₂.cons h1 h2, a, ha => by
    rcases List.mem_cons.1 ha with e | e
    · subst e
      exact ⟨_, List.mem_cons_self _ _, h1⟩
    · obtain ⟨b, hb, hr⟩ := forall₂_of_mem_left h2 a e
      exact ⟨b, List.mem_cons_of_mem _ hb, hr⟩

theorem cpHashSetFind_head (w : World) (tree hashid obj x : Nat) (rest : List (Nat × Nat))
    (hl : (w.index tree).leaves = (hashid, x) :: rest) (ho : (w.node x).obj = obj) :
    cpHashSetFind w tree hashid obj = some x := by
  simp [cpHashSetFind, hl, ho]

/-- The pairs that `MarkLeaf` inserted for a leaf `x` without pairs are new, so
that dropping the pairs of `x` from the list of another leaf gives back the
list it had. -/
theorem Grown.restore {lv : List Nat} {x : Nat} {pm pm' : Nat → Pair} {L L' : Nat → List Nat}
    {ins : List (Nat × Bool)} (g : Grown lv x pm L pm' L' ins) (hx : L x = []) (z : Nat)
    (hz : z ∈ lv) (hzx : z ≠ x) :
    (L' z).filter (fun q => decide (q ∉ L' x)) = L z ∧ ∀ q ∈ L z, q ∉ L' x := by
  obtain ⟨N, hN, hf⟩ := g.grow
  rw [hx, List.append_nil] at hN
  have hnew : ∀ q ∈ L z, q ∉ L' x := by
    intro q hq c
    rw [hN] at c
    obtain ⟨e, _, hr⟩ := forall₂_of_mem_left hf q c
    exact hr.1 z hz hq
  have hkeep : (L z).filter (fun q => decide (q ∉ L' x)) = L z := by
    rw [List.filter_eq_self]
    intro q hq
    simpa using hnew q hq
  refine ⟨?_, hnew⟩
  by_cases hin : z ∈ ins.map Prod.fst
  · obtain ⟨e, he, hez⟩ := List.mem_map.1 hin
    obtain ⟨p, hp, hr⟩ := forall₂_of_mem hf e (List.mem_reverse.2 he)
    rw [hez] at hr
    rw [hr.2.1, List.filter_cons]
    have hpx : p ∈ L' x := by rw [hN]; exact hp
    simp only [hpx, not_true_eq_false, decide_False, Bool.false_eq_true, if_false]
    exact hkeep
  · rw [g.keep z hzx hin]
    exact hkeep

theorem Grown.new_length {lv : List Nat} {x : Nat} {pm pm' : Nat → Pair} {L L' : Nat → List Nat}
    {ins : List (Nat × Bool)} (g : Grown lv x pm L pm' L' ins) (hx : L x = []) :
    (L' x).length = ins.length := by
  obtain ⟨N, hN, hf⟩ := g.grow
  rw [hx, List.append_nil] at hN
  rw [hN, hf.length_eq, List.length_reverse]

/-- `cpBBTreeInsert` of a new object followed by `cpBBTreeRemove` of it. -/
theorem insert_remove_ok (tree obj hashid : Nat) (w : World) (sh : Option Shape)
    (L : Nat → List Nat) (FN FP : List Nat) (fuel : Nat) (wf : WF w tree sh L FN FP)
    (hobj : obj ≠ 0) (hmiss : cpHashSetFind w tree hashid obj = none)
    (hfuel : 2 * (shLeaves sh).length + 2 ≤ fuel) :
    ∃ w1 w2 sh2 L2 FN2 FP2 x, cpBBTreeInsert fuel tree obj hashid w = some w1 ∧
      cpHashSetFind w1 tree hashid obj = some x ∧
      cpBBTreeRemove fuel tree obj hashid w1 = some w2 ∧
      WF w2 tree sh2 L2 FN2 FP2 ∧ (shLeaves sh2).Perm (shLeaves sh) ∧
      (w2.index tree).leaves = (w.index tree).leaves ∧
      (w2.index tree).stamp = (w.index tree).stamp + 1 ∧
      (∀ z ∈ shLeaves sh, L2 z = L z ∧ (w2.node z).obj = (w.node z).obj ∧
        (w2.node z).bb = (w.node z).bb ∧ (w2.node z).stamp = (w.node z).stamp ∧
        ∀ q ∈ L z, (w2.pair q).a.leaf = (w.pair q).a.leaf ∧
          (w2.pair q).b.leaf = (w.pair q).b.leaf) ∧
      w2.calls = w.calls := by
  obtain ⟨x, fs, w1, L1, FN1, FP1, hres1, wf1, hperm1, hxn, hlv1, hst1, hox, _, _, hoy1, hg,
    hcalls1, _⟩ := cpBBTreeInsert_ok tree obj hashid w sh L FN FP fuel wf hobj hmiss hfuel
  have hxl : x ∉ shLeaves sh := fun c => hxn (shLeaves_sub_shIds sh x c)
  have hfind : cpHashSetFind w1 tree hashid obj = some x :=
    cpHashSetFind_head w1 tree hashid obj x _ hlv1 hox
  have hnd1 : (plug fs (Shape.leaf x)).leaves.Nodup := Shape.leaves_nodup _ wf1.1.nodup
  have hlen1 : (plug fs (Shape.leaf x)).leaves.length = (shLeaves sh).length + 1 := by
    rw [hperm1.length_eq]; rfl
  have hctx : (ctxLeaves fs).length = (shLeaves sh).length := by
    have := (plug_leaves_perm fs (Shape.leaf x)).length_eq
    simp only [Shape.leaves_leaf, List.singleton_append, List.length_cons] at this
    omega
  have hnewlen : (L1 x).length ≤ (shLeaves sh).length := by
    rw [hg.new_length (upd_same _ _ _), ← hctx, ← List.length_map (upIns w1.node x fs) Prod.fst]
    exact (upIns_fst_sublist w1.node x fs).length_le
  obtain ⟨sh2, w2, FN2, FP2, hres2, wf2, hperm2, hlv2, hst2, hoy2, hpm2, hcalls2, _⟩ :=
    cpBBTreeRemove_ok tree obj hashid x w1 (some (plug fs (Shape.leaf x))) L1 FN1 FP1 fuel wf1
      hfind (by simp only [shLeaves]; omega) (by omega)
  simp only [shLeaves] at hperm2
  have hperm : (shLeaves sh2).Perm (shLeaves sh) := (hperm2.trans hperm1).cons_inv
  have hin1 : ∀ z ∈ shLeaves sh, z ∈ (plug fs (Shape.leaf x)).leaves := fun z hz =>
    hperm1.mem_iff.2 (List.mem_cons_of_mem _ hz)
  refine ⟨w1, w2, sh2, _, FN2, FP2, x, hres1, hfind, hres2, wf2, hperm, ?_, ?_, ?_, ?_⟩
  · rw [hlv2, hlv1, List.erase_cons_head]
  · rw [hst2, hst1]
  · intro z hz
    have hzx : z ≠ x := fun c => hxl (c ▸ hz)
    have hz2 : z ∈ shLeaves sh2 := hperm.mem_iff.2 hz
    obtain ⟨hr1, hr2⟩ := hg.restore (upd_same _ _ _) z (hin1 z hz) hzx
    rw [upd_other _ _ _ _ hzx] at hr1 hr2
    refine ⟨?_, (hoy2 z hz2).1.trans (hoy1 z hz).1, (hoy2 z hz2).2.1.trans (hoy1 z hz).2.1,
      (hoy2 z hz2).2.2.trans (hoy1 z hz).2.2, ?_⟩
    · simp only [hzx, if_false]
      exact hr1
    · intro q hq
      have h1 := hpm2 q (hr2 q hq)
      have h2 := hg.leafs z (hin1 z hz) q (by rw [upd_other _ _ _ _ hzx]; exact hq)
      exact ⟨h1.1.trans h2.1, h1.2.trans h2.2⟩
  · rw [hcalls2, hcalls1]

/-! ## A query after `cpBBTreeOptimize` -/

theorem GetBB_cfg (w w' : World) (tree : Nat) (h : SameCfg (w.index tree) (w'.index tree))
    (o : Nat) : GetBB w' tree o = GetBB w tree o := by
  simp only [GetBB, h.2.1, h.2.2.2.2]

/-- `cpBBTreeOptimize` of a well-formed tree, and the calls of a query after it
next to those of a query in its place. -/
theorem optimize_query_same (tree : Nat) (func : QueryFunc) (hfunc : func ≠ QueryFunc.null)
    (w : World) (t : Shape) (L : Nat → List Nat) (FN FP : List Nat) (fuel : Nat)
    (wf : WF w tree (some t) L FN FP) (hfuel : w.pairBrk + 3 * t.leaves.length ≤ fuel) :
    ∃ t' w' FN', cpBBTreeOptimize fuel tree w = some w' ∧ WF w' tree (some t') L FN' FP ∧
      t'.leaves.Perm t.leaves ∧ w'.pair = w.pair ∧ w'.calls = w.calls ∧
      (w'.index tree).leaves = (w.index tree).leaves ∧
      (w'.index tree).stamp = (w.index tree).stamp ∧
      (∀ y ∈ t.leaves, (w.node y).sameButParent (w'.node y)) ∧
      ∃ w1 w2 lc lc', cpBBTreeReindexQuery fuel tree func w = some w1 ∧
        cpBBTreeReindexQuery fuel tree func w' = some w2 ∧
        w1.calls = w.calls ++ logOf func (callsOf w.node lc) ∧
        w2.calls = w.calls ++ logOf func (callsOf w.node lc') ∧
        (∀ e ∈ lc, e.1 ∈ t.leaves ∧ e.2 ∈ t.leaves ∧ e.1 ≠ e.2) ∧
        (∀ e ∈ lc', e.1 ∈ t.leaves ∧ e.2 ∈ t.leaves ∧ e.1 ≠ e.2) ∧
        (∀ a ∈ t.leaves, ∀ b ∈ t.leaves, a ≠ b →
          lc.count (a, b) + lc.count (b, a) = lc'.count (a, b) + lc'.count (b, a)) := by
  have hK : ∀ z ∈ t.leaves, (L z).length ≤ w.pairBrk := fun z hz =>
    wf.1.pairs.listLength_le z hz
  obtain ⟨sh', w', FN', hres, wf', hperm, _, hpair, hcalls, hlv, hst, hsame, hout⟩ :=
    cpBBTreeOptimize_ok tree w (some t) L FN FP fuel wf (by simp only [shLeaves]; omega)
  simp only [shLeaves] at hperm hsame
  cases sh' with
  | none =>
    have := hperm.length_eq
    have hpos := List.length_pos.2 (Shape.leaves_ne_nil t)
    simp [shLeaves] at this
    omega
  | some t' =>
  simp only [shLeaves] at hperm
  obtain ⟨t1, w1, L1, FN1, FP1, lc, hres1, _, _, _, _, _, hnode1, hcalls1, _, hcount1, hmem1,
    _⟩ := cpBBTreeReindexQuery_counts tree func hfunc w t L FN FP w.pairBrk fuel wf hK hfuel
  obtain ⟨t2, w2, L2, FN2, FP2, lc', hres2, _, _, _, _, _, hnode2, hcalls2, _, hcount2, hmem2,
    _⟩ := cpBBTreeReindexQuery_counts tree func hfunc w' t' L FN' FP w.pairBrk fuel wf'
      (fun z hz => hK z (hperm.mem_iff.1 hz)) (by rw [hperm.length_eq]; exact hfuel)
  have hobj : ∀ y ∈ t.leaves, (w'.node y).obj = (w.node y).obj := fun y hy =>
    sameButParent_obj (hsame y hy)
  have hbb : ∀ y ∈ t.leaves, (w'.node y).bb = (w.node y).bb := fun y hy =>
    sameButParent_bb (hsame y hy)
  have hbf : (w'.index tree).bbfunc = (w.index tree).bbfunc := hout.cfg.2.1
  have hmoved : ∀ y ∈ t.leaves, movedLeaf w' tree y = movedLeaf w tree y := by
    intro y hy
    simp only [movedLeaf, hobj y hy, hbb y hy, hbf]
  have hbb12 : ∀ y ∈ t.leaves, (w2.node y).bb = (w1.node y).bb := by
    intro y hy
    rw [(hnode2 y (hperm.mem_iff.2 hy)).2.1, (hnode1 y hy).2.1, hmoved y hy, hobj y hy,
      hbb y hy, GetBB_cfg w w' tree hout.cfg]
  refine ⟨t', w', FN', hres, wf', hperm, hpair, hcalls, hlv, hst, hsame, w1, w2, lc, lc', hres1,
    hres2, hcalls1, ?_, hmem1, ?_, ?_⟩
  · rw [hcalls2, hcalls, callsOf_congr_mem w.node w'.node lc']
    intro e he
    exact ⟨hobj _ (hperm.mem_iff.1 (hmem2 e he).1), hobj _ (hperm.mem_iff.1 (hmem2 e he).2.1)⟩
  · intro e he
    exact ⟨hperm.mem_iff.1 (hmem2 e he).1, hperm.mem_iff.1 (hmem2 e he).2.1, (hmem2 e he).2.2⟩
  · intro a ha b hb hab
    rw [hcount1 a ha b hb hab, hcount2 a (hperm.mem_iff.2 ha) b (hperm.mem_iff.2 hb) hab,
      hmoved a ha, hmoved b hb, hpair]
    unfold touch
    rw [hbb12 a ha, hbb12 b hb]

/-! ## A leaf that moved away -/

theorem count_pos_of_mem (lc : List (Nat × Nat)) (e : Nat × Nat) (he : e ∈ lc) :
    1 ≤ lc.count e :=
  List.count_pos_iff.2 he

/-- A leaf without links to any other leaf has an empty pair list and is at no
end of a pair of another list. -/
theorem unlinked_leaf {w : World} {tree : Nat} {lv : List Nat} {L : Nat → List Nat}
    {FP : List Nat} (inv : PairInv w tree lv L FP) (x : Nat) (hx : x ∈ lv)
    (h0 : ∀ z ∈ lv, z ≠ x → links w.pair L x z + links w.pair L z x = 0) :
    L x = [] ∧ (w.node x).pairs = none ∧
      ∀ z ∈ lv, ∀ p ∈ L z, (w.pair p).a.leaf ≠ some x ∧ (w.pair p).b.leaf ≠ some x := by
  have hnil : L x = [] := by
    rw [List.eq_nil_iff_forall_not_mem]
    intro p hp
    obtain ⟨y, hy, hyx, hpy, he⟩ := inv.ends x hx p hp
    have hz := h0 y hy hyx
    rcases he with e | e
    · have := one_le_countP
        (fun r => decide ((w.pair r).a.leaf = some x ∧ (w.pair r).b.leaf = some y)) (L y) p hpy
        (by simp [e.1, e.2])
      unfold links at hz
      omega
    · have := one_le_countP
        (fun r => decide ((w.pair r).a.leaf = some y ∧ (w.pair r).b.leaf = some x)) (L x) p hp
        (by simp [e.1, e.2])
      unfold links at hz
      omega
  refine ⟨hnil, ?_, ?_⟩
  · have hl := inv.list x hx
    rw [hnil] at hl
    exact hl
  · intro z hz p hp
    by_cases hzx : z = x
    · rw [hzx, hnil] at hp
      cases hp
    · constructor
      · intro c
        have := mem_of_ends inv z hz p hp x (Or.inl c) (Ne.symm hzx)
        rw [hnil] at this
        cases this
      · intro c
        have := mem_of_ends inv z hz p hp x (Or.inr c) (Ne.symm hzx)
        rw [hnil] at this
        cases this

/-- `cpBBTreeReindexQuery` when leaf `x` moved to a box that intersects the box
of no other leaf: no call is for `x`, and no pair has `x` at an end. -/
theorem reindexQuery_isolated (tree : Nat) (func : QueryFunc) (hfunc : func ≠ QueryFunc.null)
    (w : World) (t : Shape) (L : Nat → List Nat) (FN FP : List Nat) (fuel : Nat)
    (wf : WF w tree (some t) L FN FP) (hfuel : w.pairBrk + 3 * t.leaves.length ≤ fuel)
    (x : Nat) (hx : x ∈ t.leaves) (hm : movedLeaf w tree x = true) :
    ∃ t' w' L' FN' FP' lc, cpBBTreeReindexQuery fuel tree func w = some w' ∧
      WF w' tree (some t') L' FN' FP' ∧ t'.leaves.Perm t.leaves ∧
      w'.calls = w.calls ++ logOf func (callsOf w.node lc) ∧
      (w'.node x).bb = GetBB w tree (w.node x).obj ∧
      ((∀ z ∈ t.leaves, z ≠ x → cpBBIntersects (w'.node x).bb (w'.node z).bb = false) →
        (∀ e ∈ lc, e.1 ≠ x ∧ e.2 ≠ x) ∧ L' x = [] ∧ (w'.node x).pairs = none ∧
        ∀ z ∈ t.leaves, ∀ p ∈ L' z, (w'.pair p).a.leaf ≠ some x ∧ (w'.pair p).b.leaf ≠ some x) := by
  obtain ⟨t', w', L', FN', FP', lc, hres, wf', hperm, _, _, _, hnode, hcalls, hlinks, hcount,
    hmem, _⟩ := cpBBTreeReindexQuery_counts tree func hfunc w t L FN FP w.pairBrk fuel wf
      (fun z hz => wf.1.pairs.listLength_le z hz) hfuel
  refine ⟨t', w', L', FN', FP', lc, hres, wf', hperm, hcalls, ?_, ?_⟩
  · rw [(hnode x hx).2.1, hm, if_pos rfl]
  · intro hfar
    have ht0 : ∀ z ∈ t.leaves, z ≠ x → touch w'.node x z = 0 := by
      intro z hz hzx
      unfold touch
      rw [hfar z hz hzx]
      rfl
    have hl0 : ∀ z ∈ t'.leaves, z ≠ x → links w'.pair L' x z + links w'.pair L' z x = 0 := by
      intro z hz hzx
      have hz0 := hperm.mem_iff.1 hz
      rw [hlinks x hx z hz0 (Ne.symm hzx), if_pos (Or.inl hm)]
      exact ht0 z hz0 hzx
    obtain ⟨h1, h2, h3⟩ := unlinked_leaf wf'.1.pairs x (hperm.mem_iff.2 hx) hl0
    refine ⟨?_, h1, h2, fun z hz => h3 z (hperm.mem_iff.2 hz)⟩
    intro e he
    obtain ⟨m1, m2, m3⟩ := hmem e he
    constructor
    · intro c
      have hc := hcount x hx e.2 m2 (by rw [← c]; exact m3)
      rw [if_pos (Or.inl hm), ht0 e.2 m2 (by rw [← c]; exact Ne.symm m3)] at hc
      have := count_pos_of_mem lc (x, e.2) (by rw [← c]; exact he)
      omega
    · intro c
      have hc := hcount x hx e.1 m1 (by rw [← c]; exact Ne.symm m3)
      rw [if_pos (Or.inl hm), ht0 e.1 m1 (by rw [← c]; exact m3)] at hc
      have := count_pos_of_mem lc (e.1, x) (by rw [← c]; exact he)
      omega

/-! ## The scenario trees are well-formed -/

theorem WF_setBBFunc {w : World} {tree : Nat} {sh : Option Shape} {L : Nat → List Nat}
    {FN FP : List Nat} (h : WF w tree sh L FN FP) (f : Nat → cpBB)
    (hf : ∀ o, cpBBValid (f o)) :
    WF (w.setIndex tree { w.index tree with bbfunc := f }) tree sh L FN FP := by
  obtain ⟨h, hl⟩ := h
  refine ⟨⟨?_, ?_, ?_, ?_, h.nodup, h.fit, ?_, h.live, ?_, ?_, h.valid, ?_⟩, ?_⟩
  · simpa using h.isTree
  · simpa using h.noStatic
  · simpa using h.noDynamic
  · exact RootRep_congr w _ tree sh (by simp) (fun _ => ⟨rfl, rfl, rfl, rfl⟩) h.root
  · exact NodePool_congr h.pool (fun _ _ => rfl) (by simp) (Nat.le_refl _) rfl
  · exact PairInv_congr h.pairs rfl (fun _ _ => rfl) (by simp) rfl rfl
  · intro x hx
    have := h.stamps x hx
    simpa using this
  · simpa using hf
  · exact Listed_congr w _ tree sh (by simp) hl

theorem farBB_valid (o : Nat) : cpBBValid (farBB o) := by
  unfold farBB
  split
  · constructor <;> norm_num
  · exact scenarioBB_valid o

theorem twoLeafWorld_wf : ∃ t L FN FP, WF twoLeafWorld 0 (some t) L FN FP := by
  obtain ⟨sh, L, FN, FP, hs⟩ := twoLeafWorld_reached.sound
  cases sh with
  | none =>
    have hr : (twoLeafWorld.index 0).root = none := hs.wf.1.root
    have hr2 : (twoLeafWorld.index 0).root = some 2 := by decide!
    rw [hr2] at hr
    cases hr
  | some t => exact ⟨t, L, FN, FP, hs.wf⟩

theorem farWorld_wf : ∃ t L FN FP, WF farWorld 0 (some t) L FN FP := by
  obtain ⟨t, L, FN, FP, wf⟩ := twoLeafWorld_wf
  exact ⟨t, L, FN, FP, WF_setBBFunc wf farBB farBB_valid⟩

theorem farWorld_leafOf : LeafOf farWorld 0 3 := by
  obtain ⟨t, L, FN, FP, wf⟩ := farWorld_wf
  have hl : ((farWorld.index 0).leaves.map Prod.snd).Perm t.leaves := wf.2
  have h3 : 3 ∈ (farWorld.index 0).leaves.map Prod.snd := by decide!
  exact (LeafOf_iff farWorld 0 (some t) wf.1.root 3).1 (hl.mem_iff.1 h3)

/-! ## The partition of `partitionNodes` -/

/-- One step of `partitionNodes` on three or more nodes, written with
`partitionOf`. -/
theorem partitionNodes_step (f tree n0 n1 n2 : Nat) (rest : List Nat) (w : World) :
    partitionNodes (f + 1) tree (n0 :: n1 :: n2 :: rest) w =
      if (partitionOf w (n0 :: n1 :: n2 :: rest)).2 = (n0 :: n1 :: n2 :: rest).length then
        (insertEach f tree (partitionOf w (n0 :: n1 :: n2 :: rest)).1 none w).bind
          (fun r => r.1.map (fun node => (node, r.2)))
      else
        (partitionNodes f tree ((partitionOf w (n0 :: n1 :: n2 :: rest)).1.take
            (partitionOf w (n0 :: n1 :: n2 :: rest)).2) w).bind
          (fun r1 => (partitionNodes f tree ((partitionOf w (n0 :: n1 :: n2 :: rest)).1.drop
              (partitionOf w (n0 :: n1 :: n2 :: rest)).2) r1.2).bind
            (fun r2 => NodeNew tree r1.1 r2.1 r2.2)) := by
  rw [partitionNodes]
  · simp only [partitionOf, splitOf]
    generalize partitionLoop w _ _ _ _ _ _ = pr
    by_cases h : pr.2 = (n0 :: n1 :: n2 :: rest).length
    · rw [if_pos h, if_pos h]
      cases hi : insertEach f tree pr.1 none w with
      | none => rfl
      | some r =>
        obtain ⟨o, w1⟩ := r
        cases o <;> rfl
    · rw [if_neg h, if_neg h]
      cases h1 : partitionNodes f tree (pr.1.take pr.2) w with
      | none => rfl
      | some r1 =>
        obtain ⟨na, w1⟩ := r1
        show (match partitionNodes f tree (pr.1.drop pr.2) w1 with
            | none => none
            | some (nb, w2) => NodeNew tree na nb w2) =
          (partitionNodes f tree (pr.1.drop pr.2) w1).bind (fun r2 => NodeNew tree na r2.1 r2.2)
        cases h2 : partitionNodes f tree (pr.1.drop pr.2) w1 with
        | none => rfl
        | some r2 => rfl
  · intro e; cases e
  · intro _ e; cases e

/-- The loop of `partitionNodes` on nodes with valid boxes: the nodes are
permuted and `right` ends between one and the number of nodes. -/
theorem partitionOf_spec (w : World) (nodes : List Nat) (hne : nodes ≠ [])
    (hv : ∀ n ∈ nodes, cpBBValid (w.node n).bb) :
    (partitionOf w nodes).1.Perm nodes ∧ 1 ≤ (partitionOf w nodes).2 ∧
      (partitionOf w nodes).2 ≤ nodes.length := by
  cases nodes with
  | nil => exact absurd rfl hne
  | cons n0 rest =>
    have hk := partition_keeps_one w n0 rest hv _ (splitOf w (n0 :: rest)).2.1
      (splitOf w (n0 :: rest)).2.2 (splitOf w (n0 :: rest)).1 _ rfl rfl rfl rfl
    exact partitionLoop_spec w _ _ _ 0 _ (n0 :: rest) (Nat.le_refl _) hk

theorem min_lower_stays_aux (w : World) (n0 : Nat) (rest : List Nat)
    (hv : ∀ n ∈ n0 :: rest, cpBBValid (w.node n).bb) (bb a b : cpBB) (sw : Bool) (split : ℚ)
    (hbb : bb = rest.foldl (fun acc n => cpBBMerge acc (w.node n).bb) (w.node n0).bb)
    (hsplit : split =
      (((collectBounds w sw (n0 :: rest)).insertionSort (fun x y => x ≤ y)).getD
          ((n0 :: rest).length - 1) 0 +
        ((collectBounds w sw (n0 :: rest)).insertionSort (fun x y => x ≤ y)).getD
          (n0 :: rest).length 0) * (1 / 2))
    (ha : a = if sw = true then { bb with r := split } else { bb with t := split })
    (hb : b = if sw = true then { bb with l := split } else { bb with b := split })
    (n : Nat) (hn : n ∈ n0 :: rest)
    (hmin : ∀ m ∈ n0 :: rest, lowerOn sw (w.node n).bb ≤ lowerOn sw (w.node m).bb) :
    ¬ (cpBBMergedArea (w.node n).bb b < cpBBMergedArea (w.node n).bb a) := by
  obtain ⟨f1, f2, f3, f4, f5⟩ := foldl_merge_le w.node rest (w.node n0).bb
  obtain ⟨g1, g2⟩ := foldl_merge_attain w.node rest (w.node n0).bb
  rw [← hbb] at f1 f2 f3 f4 f5 g1 g2
  have hall : ∀ n ∈ n0 :: rest, bb.l ≤ (w.node n).bb.l ∧ bb.b ≤ (w.node n).bb.b ∧
      (w.node n).bb.r ≤ bb.r ∧ (w.node n).bb.t ≤ bb.t := by
    intro n hn
    rcases List.mem_cons.1 hn with e | e
    · subst e; exact ⟨f1, f2, f3, f4⟩
    · exact f5 n e
  have hminl : ∃ n ∈ n0 :: rest, (w.node n).bb.l = bb.l := by
    rcases g1 with h | ⟨n, hn, h⟩
    · exact ⟨n0, List.mem_cons_self _ _, h.symm⟩
    · exact ⟨n, List.mem_cons_of_mem _ hn, h.symm⟩
  have hminb : ∃ n ∈ n0 :: rest, (w.node n).bb.b = bb.b := by
    rcases g2 with h | ⟨n, hn, h⟩
    · exact ⟨n0, List.mem_cons_self _ _, h.symm⟩
    · exact ⟨n, List.mem_cons_of_mem _ hn, h.symm⟩
  have hlen : ((collectBounds w sw (n0 :: rest)).insertionSort (fun x y => x ≤ y)).length =
      2 * (n0 :: rest).length := by
    rw [List.length_insertionSort, collectBounds_length]
  have hbound : ∀ q ∈ (collectBounds w sw (n0 :: rest)).insertionSort (fun x y => x ≤ y),
      if sw = true then bb.l ≤ q ∧ q ≤ bb.r else bb.b ≤ q ∧ q ≤ bb.t := by
    intro q hq
    have hq' : q ∈ collectBounds w sw (n0 :: rest) :=
      (List.perm_insertionSort _ _).mem_iff.1 hq
    obtain ⟨n, hn, hc⟩ := collectBounds_mem w sw _ q hq'
    obtain ⟨h1, h2, h3, h4⟩ := hall n hn
    obtain ⟨v1, v2⟩ := hv n hn
    cases sw with
    | true =>
      simp only [if_true] at hc ⊢
      rcases hc with e | e <;> rw [e] <;> constructor <;> linarith
    | false =>
      simp only [Bool.false_eq_true, if_false] at hc ⊢
      rcases hc with e | e <;> rw [e] <;> constructor <;> linarith
  have hlpos : 0 < (n0 :: rest).length := by simp
  have hq1 := hbound _ (getD_mem_rat _ ((n0 :: rest).length - 1) (by rw [hlen]; omega))
  have hq2 := hbound _ (getD_mem_rat _ (n0 :: rest).length (by rw [hlen]; omega))
  cases sw with
  | true =>
    simp only [if_true] at hq1 hq2 ha hb
    have hs1 : bb.l ≤ split := by rw [hsplit]; linarith
    have hs2 : split ≤ bb.r := by rw [hsplit]; linarith
    have hl : (w.node n).bb.l = bb.l := by
      obtain ⟨n', hn', hl'⟩ := hminl
      have h1 := hmin n' hn'
      simp only [lowerOn, if_true] at h1
      have h2 := (hall n hn).1
      linarith
    rw [ha, hb]
    obtain ⟨h1, h2, h3, h4⟩ := hall n hn
    obtain ⟨v1, v2⟩ := hv n hn
    simp only [cpBBMergedArea, not_lt]
    have e1 : max (w.node n).bb.r bb.r = bb.r := max_eq_right h3
    have e2 : min (w.node n).bb.l split = bb.l := by rw [hl]; exact min_eq_left hs1
    have e3 : min (w.node n).bb.l bb.l = bb.l := by rw [hl]; exact min_self _
    have e4 : max (w.node n).bb.t bb.t = bb.t := max_eq_right h4
    have e5 : min (w.node n).bb.b bb.b = bb.b := min_eq_right h2
    rw [e1, e2, e3, e4, e5]
    have hm : max (w.node n).bb.r split ≤ bb.r := max_le h3 hs2
    exact mul_le_mul_of_nonneg_right (by linarith) (by linarith)
  | false =>
    simp only [Bool.false_eq_true, if_false] at hq1 hq2 ha hb
    have hs1 : bb.b ≤ split := by rw [hsplit]; linarith
    have hs2 : split ≤ bb.t := by rw [hsplit]; linarith
    have hl : (w.node n).bb.b = bb.b := by
      obtain ⟨n', hn', hl'⟩ := hminb
      have h1 := hmin n' hn'
      simp only [lowerOn, Bool.false_eq_true, if_false] at h1
      have h2 := (hall n hn).2.1
      linarith
    rw [ha, hb]
    obtain ⟨h1, h2, h3, h4⟩ := hall n hn
    obtain ⟨v1, v2⟩ := hv n hn
    simp only [cpBBMergedArea, not_lt]
    have e1 : max (w.node n).bb.r bb.r = bb.r := max_eq_right h3
    have e2 : min (w.node n).bb.b split = bb.b := by rw [hl]; exact min_eq_left hs1
    have e3 : min (w.node n).bb.b bb.b = bb.b := by rw [hl]; exact min_self _
    have e4 : max (w.node n).bb.t bb.t = bb.t := max_eq_right h4
    have e5 : min (w.node n).bb.l bb.l = bb.l := min_eq_right h1
    rw [e1, e2, e3, e4, e5]
    have hm : max (w.node n).bb.t split ≤ bb.t := max_le h4 hs2
    exact mul_le_mul_of_nonneg_left (by linarith) (by linarith)



/-- A node with the smallest lower bound on the split axis is not moved to the
right part by the loop of `partitionNodes`. -/
theorem min_lower_stays (w : World) (nodes : List Nat)
    (hv : ∀ n ∈ nodes, cpBBValid (w.node n).bb) (n : Nat) (hn : n ∈ nodes)
    (hmin : ∀ m ∈ nodes,
      lowerOn (splitOf w nodes).1 (w.node n).bb ≤ lowerOn (splitOf w nodes).1 (w.node m).bb) :
    ¬ (cpBBMergedArea (w.node n).bb (splitOf w nodes).2.2 <
      cpBBMergedArea (w.node n).bb (splitOf w nodes).2.1) := by
  cases nodes with
  | nil => cases hn
  | cons n0 rest =>
    exact min_lower_stays_aux w n0 rest hv _ (splitOf w (n0 :: rest)).2.1
      (splitOf w (n0 :: rest)).2.2 (splitOf w (n0 :: rest)).1 _ rfl rfl rfl rfl n hn hmin

/-! ## Boxes made by `GetBB` -/

theorem grow_low (l r v : ℚ) (h : l ≤ r) : l + min (-((r - l) * (1 / 10))) v ≤ l := by
  have h0 : 0 ≤ (r - l) * (1 / 10) := mul_nonneg (sub_nonneg.2 h) (by norm_num)
  have a1 : min (-((r - l) * (1 / 10))) v ≤ 0 := le_trans (min_le_left _ _) (by linarith)
  linarith

theorem grow_high (l r v : ℚ) (h : l ≤ r) : r ≤ r + max ((r - l) * (1 / 10)) v := by
  have h0 : 0 ≤ (r - l) * (1 / 10) := mul_nonneg (sub_nonneg.2 h) (by norm_num)
  have a2 : 0 ≤ max ((r - l) * (1 / 10)) v := le_trans h0 (le_max_left _ _)
  linarith

/-- The box `GetBB` makes contains the tight box of the object. -/
theorem GetBB_contains (w : World) (tree : Nat) (obj : Nat)
    (h : cpBBValid ((w.index tree).bbfunc obj)) :
    cpBBContainsBB (GetBB w tree obj) ((w.index tree).bbfunc obj) = true := by
  unfold GetBB
  cases (w.index tree).velocityFunc with
  | none => simp [cpBBContainsBB]
  | some vf =>
    obtain ⟨h1, h2⟩ := h
    simp only [cpBBContainsBB, cpBBNew, cpvmult, Bool.and_eq_true, decide_eq_true_eq]
    exact ⟨⟨⟨grow_low _ _ _ h1, grow_high _ _ _ h1⟩, grow_low _ _ _ h2⟩, grow_high _ _ _ h2⟩

/-! ## The three-leaf scenario -/

theorem threeLeafWorld_reached : Reached id scenarioBB 0 threeLeafWorld := by
  have h := getD_of_isSome (cpBBTreeInsert 20 0 4 4 twoLeafWorld) World.init (by decide!)
  exact Reached.step 0 twoLeafWorld _ (Op.insert 4 4) 20 twoLeafWorld_reached
    ⟨by decide, rfl, by decide!⟩ (by decide!) h

theorem threeLeafWorld_wf : ∃ t L FN FP, WF threeLeafWorld 0 (some t) L FN FP := by
  obtain ⟨sh, L, FN, FP, hs⟩ := threeLeafWorld_reached.sound
  cases sh with
  | none =>
    have hr : (threeLeafWorld.index 0).root = none := hs.wf.1.root
    have hr2 : (threeLeafWorld.index 0).root = some 2 := by decide!
    rw [hr2] at hr
    cases hr
  | some t => exact ⟨t, L, FN, FP, hs.wf⟩

/-- What `cpBBTreeOptimize` hands to `partitionNodes`: after `SubtreeRecycle`
the leaves are detached nodes with valid boxes. -/
theorem recycled_leaves (tree : Nat) (w : World) (t : Shape) (L : Nat → List Nat)
    (FN FP : List Nat) (fuel : Nat) (wf : WF w tree (some t) L FN FP)
    (hfuel : t.leaves.length ≤ fuel) :
    ∃ w1 FN1, (w.index tree).root = some t.root ∧
      SubtreeRecycle fuel tree t.root w = some w1 ∧ NodePool w1 tree FN1 ∧
      ((w.index tree).leaves.map Prod.snd).Nodup ∧
      ((w.index tree).leaves.map Prod.snd).length = t.leaves.length ∧
      ∀ x ∈ (w.index tree).leaves.map Prod.snd,
        (w1.node x).obj ≠ 0 ∧ x < w1.nodeBrk ∧ x ∉ FN1 ∧ cpBBValid (w1.node x).bb := by
  obtain ⟨hroot, hpar0, hsub⟩ := wf.1.root
  have hnd : t.ids.Nodup := wf.1.nodup
  have hlive : ∀ i ∈ t.ids, i < w.nodeBrk ∧ i ∉ FN := wf.1.live
  have hlnd : t.leaves.Nodup := Shape.leaves_nodup t hnd
  have hlisted : ((w.index tree).leaves.map Prod.snd).Perm t.leaves := wf.2
  obtain ⟨w1, FN1, hres1, pool1, hFN1, hrest1, hbrk1, hfr1⟩ :=
    SubtreeRecycle_spec tree t w FN fuel wf.1.pool hsub hnd hlive
      (le_trans (Shape.height_le_leaves t) hfuel)
  have hleaf_inner : ∀ x ∈ t.leaves, x ∉ t.inner := by
    intro x hx h
    have : (t.inner ++ t.leaves).Nodup := hnd
    exact (List.nodup_append.1 this).2.2 h hx
  refine ⟨w1, FN1, hroot, hres1, pool1, hlisted.nodup_iff.2 hlnd, hlisted.length_eq, ?_⟩
  intro x hx
  have hx' := hlisted.mem_iff.1 hx
  have hl := hlive x (Shape.leaf_mem_ids t x hx')
  rw [hrest1 x (hleaf_inner x hx'), hbrk1]
  refine ⟨Sub_leaf_obj w.node t hsub x hx', hl.1, ?_, wf.1.valid x hx'⟩
  intro hF
  rcases (hFN1 x).1 hF with e | e
  · exact hleaf_inner x hx' e
  · exact hl.2 e

/-! ## The two pools -/

theorem PairRecycle_buffers (tree p j : Nat) (w : World) :
    ((PairRecycle tree p w).index j).allocatedBuffers = (w.index j).allocatedBuffers := by
  by_cases h : j = tree
  · subst h; simp [PairRecycle]
  · simp [PairRecycle, upd_other _ _ _ _ h]

theorem NodeRecycle_buffers (tree n j : Nat) (w : World) :
    ((NodeRecycle tree n w).index j).allocatedBuffers = (w.index j).allocatedBuffers := by
  by_cases h : j = tree
  · subst h; simp [NodeRecycle]
  · simp [NodeRecycle, upd_other _ _ _ _ h]

theorem pairFold_buffers (tree buffer j : Nat) :
    ∀ (is : List Nat) (w : World),
      ((is.foldl (fun v i => PairRecycle tree (buffer + i) v) w).index j).allocatedBuffers =
        (w.index j).allocatedBuffers
  | [], _ => rfl
  | i :: is, w => by
    rw [List.foldl_cons, pairFold_buffers tree buffer j is, PairRecycle_buffers]

theorem nodeFold_buffers (tree buffer j : Nat) :
    ∀ (is : List Nat) (w : World),
      ((is.foldl (fun v i => NodeRecycle tree (buffer + i) v) w).index j).allocatedBuffers =
        (w.index j).allocatedBuffers
  | [], _ => rfl
  | i :: is, w => by
    rw [List.foldl_cons, nodeFold_buffers tree buffer j is, NodeRecycle_buffers]

/-- `PairFromPool` with a free list that is not empty pops its head. -/
theorem PairFromPool_pop (tree : Nat) (w : World) (p : Nat) (ps : List Nat)
    (h : Chain (fun q => (w.pair q).a.next) (w.index tree).pooledPairs (p :: ps)) :
    PairFromPool tree w =
        some (p, w.setIndex tree { w.index tree with pooledPairs := (w.pair p).a.next }) ∧
      Chain (fun q => (w.pair q).a.next) ((w.pair p).a.next) ps := by
  obtain ⟨h1, h2⟩ := h
  exact ⟨by simp [PairFromPool, h1], h2⟩

/-- `NodeFromPool` with a free list that is not empty pops its head. -/
theorem NodeFromPool_pop (tree : Nat) (w : World) (n : Nat) (ns : List Nat)
    (h : Chain (fun i => (w.node i).parent) (w.index tree).pooledNodes (n :: ns)) :
    NodeFromPool tree w =
        some (n, w.setIndex tree { w.index tree with pooledNodes := (w.node n).parent }) ∧
      Chain (fun i => (w.node i).parent) ((w.node n).parent) ns := by
  obtain ⟨h1, h2⟩ := h
  exact ⟨by simp [NodeFromPool, h1], h2⟩

/-- `PairRecycle` followed by `PairFromPool` hands the record back and restores
the free list. -/
theorem PairFromPool_lifo (tree r : Nat) (w : World) :
    ∃ w', PairFromPool tree (PairRecycle tree r w) = some (r, w') ∧
      (w'.index tree).pooledPairs = (w.index tree).pooledPairs ∧
      (∀ q, q ≠ r → w'.pair q = w.pair q) ∧ w'.node = w.node ∧ w'.pairBrk = w.pairBrk ∧
      (w'.index tree).allocatedBuffers = (w.index tree).allocatedBuffers ∧
      ∀ FP, r ∉ FP → Chain (fun q => (w.pair q).a.next) (w.index tree).pooledPairs FP →
        Chain (fun q => (w'.pair q).a.next) (w'.index tree).pooledPairs FP := by
  have hpo := PairRecycle_pooled tree r w
  have hnx : ((PairRecycle tree r w).pair r).a.next = (w.index tree).pooledPairs := by
    simp [PairRecycle_pair]
  refine ⟨(PairRecycle tree r w).setIndex tree
      { (PairRecycle tree r w).index tree with
        pooledPairs := ((PairRecycle tree r w).pair r).a.next }, ?_, ?_, ?_, rfl, rfl, ?_, ?_⟩
  · simp [PairFromPool, hpo]
  · simp [hnx]
  · intro q hq
    exact PairRecycle_pair_other tree r q w hq
  · simp [PairRecycle_buffers]
  · intro FP hr hc
    have e : (((PairRecycle tree r w).setIndex tree
        { (PairRecycle tree r w).index tree with
          pooledPairs := ((PairRecycle tree r w).pair r).a.next }).index tree).pooledPairs =
        (w.index tree).pooledPairs := by simp [hnx]
    rw [e]
    refine Chain_congr _ _ FP _ ?_ hc
    intro q hq
    have hqr : q ≠ r := fun c => hr (c ▸ hq)
    show ((PairRecycle tree r w).pair q).a.next = (w.pair q).a.next
    rw [PairRecycle_pair_other tree r q w hqr]

/-- `NodeRecycle` followed by `NodeFromPool` hands the record back and restores
the free list. -/
theorem NodeFromPool_lifo (tree r : Nat) (w : World) :
    ∃ w', NodeFromPool tree (NodeRecycle tree r w) = some (r, w') ∧
      (w'.index tree).pooledNodes = (w.index tree).pooledNodes ∧
      (∀ q, q ≠ r → w'.node q = w.node q) ∧ w'.pair = w.pair ∧ w'.nodeBrk = w.nodeBrk ∧
      (w'.index tree).allocatedBuffers = (w.index tree).allocatedBuffers ∧
      ∀ FN, r ∉ FN → Chain (fun i => (w.node i).parent) (w.index tree).pooledNodes FN →
        Chain (fun i => (w'.node i).parent) (w'.index tree).pooledNodes FN := by
  have hpo := NodeRecycle_pooled tree r w
  have hnx : ((NodeRecycle tree r w).node r).parent = (w.index tree).pooledNodes := by
    simp [NodeRecycle_node]
  refine ⟨(NodeRecycle tree r w).setIndex tree
      { (NodeRecycle tree r w).index tree with
        pooledNodes := ((NodeRecycle tree r w).node r).parent }, ?_, ?_, ?_, rfl, rfl, ?_, ?_⟩
  · simp [NodeFromPool, hpo]
  · simp [hnx]
  · intro q hq
    exact NodeRecycle_node_other tree r q w hq
  · simp [NodeRecycle_buffers]
  · intro FN hr hc
    have e : (((NodeRecycle tree r w).setIndex tree
        { (NodeRecycle tree r w).index tree with
          pooledNodes := ((NodeRecycle tree r w).node r).parent }).index tree).pooledNodes =
        (w.index tree).pooledNodes := by simp [hnx]
    rw [e]
    refine Chain_congr _ _ FN _ ?_ hc
    intro q hq
    have hqr : q ≠ r := fun c => hr (c ▸ hq)
    show ((NodeRecycle tree r w).node q).parent = (w.node q).parent
    rw [NodeRecycle_node_other tree r q w hqr]

theorem range_map_mem (buffer count q : Nat) :
    q ∈ ((List.range' 1 (count - 1)).map (fun i => buffer + i)).reverse ↔
      (buffer < q ∧ q < buffer + count) := by
  simp only [List.mem_reverse, List.mem_map, List.mem_range'_1]
  constructor
  · rintro ⟨i, hi, e⟩
    omega
  · intro h
    exact ⟨q - buffer, by omega, by omega⟩

theorem range_map_nodup (buffer count : Nat) :
    ((List.range' 1 (count - 1)).map (fun i => buffer + i)).reverse.Nodup :=
  List.nodup_reverse.2 ((List.nodup_range' _ _).map (fun a b h => by simpa using h))

/-- `PairFromPool` with an empty free list: one buffer of `pairCount` records
is added, its first record is returned and the others are on the free list. -/
theorem PairFromPool_refill (tree : Nat) (w : World)
    (hpool : (w.index tree).pooledPairs = none) (hcount : 0 < w.pairCount) :
    ∃ w' FP', PairFromPool tree w = some (w.pairBrk, w') ∧
      (w'.index tree).allocatedBuffers =
        (w.index tree).allocatedBuffers ++ [Buffer.pairs w.pairBrk] ∧
      w'.pairBrk = w.pairBrk + w.pairCount ∧
      Chain (fun q => (w'.pair q).a.next) (w'.index tree).pooledPairs FP' ∧
      FP'.length = w.pairCount - 1 ∧ FP'.Nodup ∧
      (∀ q, q ∈ FP' ↔ (w.pairBrk < q ∧ q < w.pairBrk + w.pairCount)) ∧
      (∀ q, q < w.pairBrk → w'.pair q = w.pair q) := by
  let buffer := w.pairBrk
  let count := w.pairCount
  let w1 : World :=
    { w with
      pair := fun j => if buffer ≤ j ∧ j < buffer + count then zeroPair else w.pair j
      pairBrk := buffer + count }
  let w2 := w1.setIndex tree
    { w1.index tree with
      allocatedBuffers := (w1.index tree).allocatedBuffers ++ [Buffer.pairs buffer] }
  have hc2 : Chain (fun q => (w2.pair q).a.next) (w2.index tree).pooledPairs [] := by
    show (w2.index tree).pooledPairs = none
    simp [w2, w1, hpool]
  obtain ⟨w', hw', c, fr, pf, hbk, _, _⟩ :=
    recycleRange_spec tree buffer (List.range' 1 (count - 1)) w2 [] hc2
      (fun _ _ => List.not_mem_nil _) (List.nodup_range' _ _)
  rw [List.append_nil] at c
  refine ⟨w', _, ?_, ?_, ?_, c, ?_, range_map_nodup buffer count,
    range_map_mem buffer count, ?_⟩
  · have hne : w.pairCount ≠ 0 := Nat.pos_iff_ne_zero.1 hcount
    unfold PairFromPool
    split
    · rename_i p hp
      rw [hpool] at hp
      exact Option.noConfusion hp
    · rw [hw']
      simp only [hne, if_false]
  · rw [hw', pairFold_buffers]
    simp [w2, w1]
  · rw [hbk]
    rfl
  · simp
  · intro q hq
    have hq' : q ∉ (List.range' 1 (count - 1)).map (fun i => buffer + i) := by
      intro hm
      have := (range_map_mem buffer count q).1 (List.mem_reverse.2 hm)
      have hq2 : q < buffer := hq
      omega
    rw [fr q hq']
    have hq2 : ¬ (buffer ≤ q ∧ q < buffer + count) := by
      intro h; have hq2 : q < buffer := hq; omega
    simp [w2, w1, hq2]

/-- `NodeFromPool` with an empty free list: one buffer of `nodeCount` records
is added, its first record is returned and the others are on the free list. -/
theorem NodeFromPool_refill (tree : Nat) (w : World)
    (hpool : (w.index tree).pooledNodes = none) (hcount : 0 < w.nodeCount) :
    ∃ w' FN', NodeFromPool tree w = some (w.nodeBrk, w') ∧
      (w'.index tree).allocatedBuffers =
        (w.index tree).allocatedBuffers ++ [Buffer.nodes w.nodeBrk] ∧
      w'.nodeBrk = w.nodeBrk + w.nodeCount ∧
      Chain (fun i => (w'.node i).parent) (w'.index tree).pooledNodes FN' ∧
      FN'.length = w.nodeCount - 1 ∧ FN'.Nodup ∧
      (∀ q, q ∈ FN' ↔ (w.nodeBrk < q ∧ q < w.nodeBrk + w.nodeCount)) ∧
      (∀ q, q < w.nodeBrk → w'.node q = w.node q) := by
  let buffer := w.nodeBrk
  let count := w.nodeCount
  let w1 : World :=
    { w with
      node := fun j => if buffer ≤ j ∧ j < buffer + count then zeroNode else w.node j
      nodeBrk := buffer + count }
  let w2 := w1.setIndex tree
    { w1.index tree with
      allocatedBuffers := (w1.index tree).allocatedBuffers ++ [Buffer.nodes buffer] }
  have hc2 : Chain (fun q => (w2.node q).parent) (w2.index tree).pooledNodes [] := by
    show (w2.index tree).pooledNodes = none
    simp [w2, w1, hpool]
  obtain ⟨w', hw', c, fr, pf, hbk⟩ :=
    recycleNodeRange_spec tree buffer (List.range' 1 (count - 1)) w2 [] hc2
      (fun _ _ => List.not_mem_nil _) (List.nodup_range' _ _)
  rw [List.append_nil] at c
  refine ⟨w', _, ?_, ?_, ?_, c, ?_, range_map_nodup buffer count,
    range_map_mem buffer count, ?_⟩
  · have hne : w.nodeCount ≠ 0 := Nat.pos_iff_ne_zero.1 hcount
    unfold NodeFromPool
    split
    · rename_i p hp
      rw [hpool] at hp
      exact Option.noConfusion hp
    · rw [hw']
      simp only [hne, if_false]
  · rw [hw', nodeFold_buffers]
    simp [w2, w1]
  · rw [hbk]
    rfl
  · simp
  · intro q hq
    have hq' : q ∉ (List.range' 1 (count - 1)).map (fun i => buffer + i) := by
      intro hm
      have := (range_map_mem buffer count q).1 (List.mem_reverse.2 hm)
      have hq2 : q < buffer := hq
      omega
    rw [fr q hq']
    have hq2 : ¬ (buffer ≤ q ∧ q < buffer + count) := by
      intro h; have hq2 : q < buffer := hq; omega
    simp [w2, w1, hq2]

/-! ## The records `PairInsert` writes -/

theorem linkHead_apply (pm : Nat → Pair) (y : Nat) (next v : Option Nat) (q : Nat) :
    linkHead pm y next v q = if next = some q then (pm q).setPrev (some y) v else pm q := by
  by_cases h : next = some q
  · rw [if_pos h, h]
    simp [linkHead]
  · rw [if_neg h, linkHead_apply_other _ _ _ _ _ h]

theorem ListFrom_head (pm : Nat → Pair) (x : Nat) (pv hd : Option Nat) (l : List Nat)
    (h : ListFrom pm x pv hd l) : hd = l.head? := by
  cases l with
  | nil => exact h
  | cons p ps => exact h.1

/-- `PairInsert` in a well-formed pair structure, record by record. -/
theorem PairInsert_records (tree u v : Nat) (w : World) (lv : List Nat) (L : Nat → List Nat)
    (FP : List Nat) (inv : PairInv w tree lv L FP) (hu : u ∈ lv) (hv : v ∈ lv) (huv : u ≠ v) :
    ∃ p w', PairInsert u v tree w = some w' ∧ (∀ x ∈ lv, p ∉ L x) ∧
      (p ∈ FP ∨ w.pairBrk ≤ p) ∧
      (∀ z, (w'.node z).pairs = if z = u ∨ z = v then some p else (w.node z).pairs) ∧
      (∀ z, (w'.node z).skel = (w.node z).skel) ∧
      w'.pair p = ⟨⟨none, some u, (w.node u).pairs⟩, ⟨none, some v, (w.node v).pairs⟩⟩ ∧
      (∀ q, q < w.pairBrk → q ≠ p → w'.pair q =
        if (w.node v).pairs = some q then
          (if (w.node u).pairs = some q then (w.pair q).setPrev (some u) (some p)
            else w.pair q).setPrev (some v) (some p)
        else if (w.node u).pairs = some q then (w.pair q).setPrev (some u) (some p)
        else w.pair q) := by
  obtain ⟨p, w1, FP', hpool, _, _, _, _, _, hpfresh, _, hpm1, _, _, hnode1⟩ :=
    PairFromPool_spec tree w FP inv.chain inv.freeNodup inv.bound inv.count
  have hfresh : ∀ x ∈ lv, p ∉ L x := by
    intro x hx hp
    rcases hpfresh with h | h
    · exact inv.fresh x hx p hp h
    · have := inv.boundL x hx p hp
      omega
  have h1 : (w.node v).pairs ≠ some p := by
    intro e
    exact hfresh v hv (Seg_head_of_cons w.pair v _ _ _ _ (inv.list v hv) p e rfl)
  have h2 : (w.node u).pairs ≠ some p := by
    intro e
    exact hfresh u hu (Seg_head_of_cons w.pair u _ _ _ _ (inv.list u hu) p e rfl)
  refine ⟨p, _, by rw [PairInsert_eq, hpool], hfresh, hpfresh, ?_, ?_, ?_, ?_⟩
  · intro z
    refine ((setPairs2_node w1.node u v (some p) huv z).2).trans ?_
    rw [hnode1]
    by_cases e1 : z = u
    · simp [e1]
    · by_cases e2 : z = v
      · simp [e2]
      · simp [e1, e2]
  · intro z
    exact ((setPairs2_node w1.node u v (some p) huv z).1).trans (by rw [hnode1])
  · show linkHead (linkHead (upd w1.pair p _) u (w.node u).pairs (some p)) v (w.node v).pairs
      (some p) p = _
    rw [linkHead_apply_other _ _ _ _ _ h1, linkHead_apply_other _ _ _ _ _ h2, upd_same]
  · intro q hq hqp
    show linkHead (linkHead (upd w1.pair p _) u (w.node u).pairs (some p)) v (w.node v).pairs
      (some p) q = _
    rw [linkHead_apply, linkHead_apply, upd_other _ _ _ _ hqp, hpm1 q hq]

/-! ## The order of a pair list -/

theorem walkPairs_of_list (pm : Nat → Pair) (x : Nat) :
    ∀ (l : List Nat) (pv hd : Option Nat) (fuel : Nat), ListFrom pm x pv hd l →
      l.length < fuel → walkPairs pm x fuel hd = l
  | [], pv, hd, fuel, h, hf => by
    have e : hd = none := h
    subst e
    cases fuel with
    | zero => simp at hf
    | succ f => rfl
  | p :: ps, pv, hd, fuel, h, hf => by
    have e : hd = some p := h.1
    subst e
    cases fuel with
    | zero => simp at hf
    | succ f =>
      simp only [walkPairs]
      rw [walkPairs_of_list pm x ps (some p) _ f h.2.2.2 (by simpa using hf)]

theorem newOf_cons (p : Nat) (ps : List Nat) (e : Nat × Nat) (ins : List (Nat × Nat))
    (x : Nat) :
    newOf (p :: ps) (e :: ins) x =
      (if e.1 = x ∨ e.2 = x then [p] else []) ++ newOf ps ins x := rfl

theorem newOf_sub : ∀ (ps : List Nat) (ins : List (Nat × Nat)) (x q : Nat),
    q ∈ newOf ps ins x → q ∈ ps
  | [], _, _, _, h => by simp [newOf] at h
  | _ :: _, [], _, _, h => by simp [newOf] at h
  | p :: ps, e :: ins, x, q, h => by
    rw [newOf_cons, List.mem_append] at h
    rcases h with h | h
    · by_cases c : e.1 = x ∨ e.2 = x
      · rw [if_pos c] at h
        rw [List.mem_singleton.1 h]
        exact List.mem_cons_self _ _
      · rw [if_neg c] at h
        cases h
    · exact List.mem_cons_of_mem _ (newOf_sub ps ins x q h)

/-- A sequence of `PairInsert` calls in a well-formed pair structure: every
call takes a pair that is in no list, and afterwards the list of a leaf holds
the new pairs of the leaf, the newest first, followed by its old list. -/
theorem pairInsertEach_spec (tree : Nat) (lv : List Nat) :
    ∀ (ins : List (Nat × Nat)) (w : World) (L : Nat → List Nat) (FP : List Nat),
      PairInv w tree lv L FP → (∀ e ∈ ins, e.1 ∈ lv ∧ e.2 ∈ lv ∧ e.1 ≠ e.2) →
      ∃ w' ps FP', pairInsertEach tree ins w = some w' ∧ ps.length = ins.length ∧
        ps.Nodup ∧ (∀ p ∈ ps, ∀ x ∈ lv, p ∉ L x) ∧
        PairInv w' tree lv (fun x => (newOf ps ins x).reverse ++ L x) FP'
  | [], w, L, FP, inv, _ =>
    ⟨w, [], FP, rfl, rfl, List.nodup_nil, (fun p hp => by cases hp),
      PairInv_congrL inv (fun x _ => by simp [newOf])⟩
  | e :: ins, w, L, FP, inv, hall => by
    obtain ⟨h1, h2, h3⟩ := hall e (List.mem_cons_self _ _)
    obtain ⟨p, w1, FP1, hres1, hfresh, inv1, _, _, _, _⟩ :=
      PairInsert_spec tree e.1 e.2 w lv L FP inv h1 h2 h3
    obtain ⟨w', ps, FP', hres, hlen, hnd, hfr, inv'⟩ :=
      pairInsertEach_spec tree lv ins w1 _ FP1 inv1
        (fun e' he' => hall e' (List.mem_cons_of_mem _ he'))
    have hL1 : ∀ x, (upd (upd L e.1 (p :: L e.1)) e.2 (p :: L e.2)) x =
        (if e.1 = x ∨ e.2 = x then [p] else []) ++ L x := by
      intro x
      by_cases c2 : x = e.2
      · rw [c2, upd_same]
        simp
      · rw [upd_other _ _ _ _ c2]
        by_cases c1 : x = e.1
        · rw [c1, upd_same]
          simp
        · rw [upd_other _ _ _ _ c1]
          have : ¬ (e.1 = x ∨ e.2 = x) := by
            rintro (c | c)
            · exact c1 c.symm
            · exact c2 c.symm
          simp [this]
    have hpps : p ∉ ps := by
      intro hp
      have := hfr p hp e.1 h1
      rw [hL1 e.1] at this
      simp at this
    refine ⟨w', p :: ps, FP', ?_, by simp [hlen], List.nodup_cons.2 ⟨hpps, hnd⟩, ?_, ?_⟩
    · simp only [pairInsertEach, hres1, Option.bind_some]
      exact hres
    · intro q hq x hx
      rcases List.mem_cons.1 hq with c | c
      · rw [c]
        exact hfresh x hx
      · intro hm
        apply hfr q c x hx
        rw [hL1 x]
        exact List.mem_append_right _ hm
    · refine PairInv_congrL inv' ?_
      intro x _
      rw [newOf_cons, List.reverse_append, List.append_assoc, hL1 x]
      congr 1
      by_cases c : e.1 = x ∨ e.2 = x
      · simp [c]
      · simp [c]

/-! ## The pairs between two leaves -/

/-- With `left` set, `MarkLeafQuery` never reads the callback or the static
root of its context. -/
theorem MarkLeafQuery_left_irrel (tree x : Nat) (sr sr2 : Option Nat) (f f2 : QueryFunc) :
    ∀ (fuel n : Nat) (w : World),
      MarkLeafQuery fuel n x true ⟨tree, sr, f⟩ w = MarkLeafQuery fuel n x true ⟨tree, sr2, f2⟩ w
  | 0, _, _ => rfl
  | fuel + 1, n, w => by
    simp only [MarkLeafQuery, if_true]
    split
    · split
      · rfl
      · cases (w.node n).a with
        | none => rfl
        | some a =>
          cases (w.node n).b with
          | none => rfl
          | some b =>
            simp only []
            rw [MarkLeafQuery_left_irrel tree x sr sr2 f f2 fuel a w]
            cases MarkLeafQuery fuel a x true ⟨tree, sr2, f2⟩ w with
            | none => rfl
            | some w1 => exact MarkLeafQuery_left_irrel tree x sr sr2 f f2 fuel b w1
    · rfl

/-- `MarkLeafQuery` with `left` set, for any callback, the null one
included: it registers one pair for every leaf of the shape whose box
intersects the box of `x` and makes no call. -/
theorem MarkLeafQuery_left (tree x : Nat) (func : QueryFunc) (sr : Option Nat) (lv : List Nat)
    (hx : x ∈ lv) (s : Shape) (w : World) (L : Nat → List Nat) (FP : List Nat) (fuel : Nat)
    (inv : PairInv w tree lv L FP) (hs : Sub w.node s) (hfit : Fit w.node s)
    (hlv : ∀ y ∈ s.leaves, y ∈ lv) (hxs : x ∉ s.leaves) (hnd : s.leaves.Nodup)
    (hfuel : s.height ≤ fuel) :
    ∃ w' L' FP', MarkLeafQuery fuel s.root x true ⟨tree, sr, func⟩ w = some w' ∧
      PairInv w' tree lv L' FP' ∧ PairFrame tree w w' ∧ w'.calls = w.calls ∧
      Grown lv x w.pair L w'.pair L' (insOf w.node x true s) := by
  obtain ⟨w', L', FP', hres, inv', hfr, hcalls, hg⟩ :=
    MarkLeafQuery_spec tree x true QueryFunc.void (by decide) sr lv hx s w L FP fuel inv hs hfit
      hlv hxs hnd hfuel
  refine ⟨w', L', FP', ?_, inv', hfr, ?_, hg⟩
  · rw [MarkLeafQuery_left_irrel tree x sr sr func QueryFunc.void]
    exact hres
  · rw [hcalls]; simp [logOf]

theorem insOf_left (nd : Nat → Node) (x : Nat) (s : Shape) :
    insOf nd x true s = (hits nd x s).map (fun y => (y, true)) := by
  simp [insOf]

theorem Grown.length {lv : List Nat} {x : Nat} {pm pm' : Nat → Pair} {L L' : Nat → List Nat}
    {ins : List (Nat × Bool)} (h : Grown lv x pm L pm' L' ins) :
    (L' x).length = (L x).length + ins.length := by
  obtain ⟨N, hN, hf⟩ := h.grow
  rw [hN, List.length_append, hf.length_eq, List.length_reverse]
  omega

theorem Grown.same {lv : List Nat} {x : Nat} {pm pm' : Nat → Pair} {L L' : Nat → List Nat}
    (h : Grown lv x pm L pm' L' []) (z : Nat) : L' z = L z := by
  by_cases hz : z = x
  · subst hz
    obtain ⟨N, hN, hf⟩ := h.grow
    have : N = [] := by
      cases N with
      | nil => rfl
      | cons a t => cases hf
    rw [hN, this]; rfl
  · exact h.keep z hz (by simp)

/-- The shape read off the heap is the shape the heap holds. -/
theorem shapeAt_of_Sub (nd : Nat → Node) :
    ∀ (t : Shape) (fuel : Nat), Sub nd t → t.height ≤ fuel → shapeAt nd fuel t.root = some t
  | Shape.leaf i, fuel, hs, hf => by
    cases fuel with
    | zero => simp [Shape.height] at hf
    | succ fuel =>
      have hs' : (nd i).obj ≠ 0 := hs
      simp [shapeAt, Shape.root, hs']
  | Shape.node i l r, fuel, hs, hf => by
    cases fuel with
    | zero => simp [Shape.height] at hf
    | succ fuel =>
      obtain ⟨hobj, ha, hb, _, _, hsl, hsr⟩ := hs
      simp only [Shape.height, Nat.add_le_add_iff_right, max_le_iff] at hf
      have e1 := shapeAt_of_Sub nd l fuel hsl hf.1
      have e2 := shapeAt_of_Sub nd r fuel hsr hf.2
      show shapeAt nd (fuel + 1) i = _
      simp only [shapeAt, hobj, ne_eq, not_true_eq_false, if_false, ha, hb, e1, e2]
      rfl

theorem Shape.one_le_height : ∀ t : Shape, 1 ≤ t.height
  | Shape.leaf _ => Nat.le_refl _
  | Shape.node _ _ _ => Nat.le_add_left _ _

/-- A shape with at most three leaves is balanced. -/
theorem balanced_of_small : ∀ t : Shape, t.leaves.length ≤ 3 → t.Balanced
  | Shape.leaf _, _ => trivial
  | Shape.node _ l r, h => by
    simp only [Shape.leaves, List.length_append] at h
    have hl := Shape.height_le_leaves l
    have hr := Shape.height_le_leaves r
    have hl1 := Shape.one_le_height l
    have hr1 := Shape.one_le_height r
    exact ⟨⟨by omega, by omega⟩, balanced_of_small l (by omega), balanced_of_small r (by omega)⟩

theorem nudgeBB_valid (o : Nat) : cpBBValid (nudgeBB o) := by
  unfold nudgeBB
  split
  · constructor <;> norm_num
  · exact scenarioBB_valid o

theorem nudgeWorld_wf : ∃ t L FN FP, WF nudgeWorld 0 (some t) L FN FP := by
  obtain ⟨t, L, FN, FP, wf⟩ := twoLeafWorld_wf
  exact ⟨t, L, FN, FP, WF_setBBFunc wf nudgeBB nudgeBB_valid⟩

theorem sameButBB_fields {n m : Node} (h : n.sameButBB m) :
    m.obj = n.obj ∧ m.a = n.a ∧ m.b = n.b ∧ m.parent = n.parent := by
  unfold Node.sameButBB at h
  rw [h]
  exact ⟨rfl, rfl, rfl, rfl⟩

/-- The loop of `NodeReplaceChild` writes boxes only. -/
theorem refitLoop_sameButBB :
    ∀ (fuel : Nat) (cur : Option Nat) (w w' : World), refitLoop fuel cur w = some w' →
      ∀ j, (w.node j).sameButBB (w'.node j)
  | fuel, none, w, w', h => by
    cases fuel <;> · simp only [refitLoop] at h; cases h; exact fun _ => sameButBB_refl _
  | 0, some _, _, _, h => by simp [refitLoop] at h
  | fuel + 1, some node, w, w', h => by
    cases ha : (w.node node).a with
    | none => simp [refitLoop, ha] at h
    | some a =>
      cases hb : (w.node node).b with
      | none => simp [refitLoop, ha, hb] at h
      | some b =>
        rw [refitLoop_step fuel node a b w ha hb] at h
        have h2 := refitLoop_sameButBB fuel _ _ _ h
        intro j
        refine sameButBB_trans ?_ (h2 j)
        simp only [setNode_node, upd_apply]
        by_cases e : j = node
        · rw [if_pos e, e]; exact sameButBB_set _ _
        · rw [if_neg e]; exact sameButBB_refl _

/-- The parent pointers lead from the innermost internal node of a path
through the internal nodes of the path to the root and end there. -/
theorem CtxSub_chain (nd : Nat → Node) :
    ∀ (fs : List Frame) (h : Nat), CtxSub nd fs h → (nd (ctxRoot fs h)).parent = none →
      Chain (fun i => (nd i).parent) (ctxHead fs) (fs.map Frame.id)
  | [], _, _, _ => rfl
  | f :: fs, h, hc, hr => by
    have hc' := (CtxSub_cons nd f fs h).1 hc
    have hr' : (nd (ctxRoot fs f.id)).parent = none := hr
    refine ⟨rfl, ?_⟩
    show Chain _ ((nd f.id).parent) _
    rw [CtxSub_parent nd fs f.id hc'.2 hr']
    exact CtxSub_chain nd fs f.id hc'.2 hr'

/-- Every internal node of a path has both children. -/
theorem CtxSub_children (nd : Nat → Node) :
    ∀ (fs : List Frame) (h : Nat), CtxSub nd fs h → ∀ j ∈ fs.map Frame.id,
      ∃ a b, (nd j).a = some a ∧ (nd j).b = some b
  | [], _, _, j, hj => by simp at hj
  | f :: fs, h, hc, j, hj => by
    have hc' := (CtxSub_cons nd f fs h).1 hc
    simp only [List.map_cons, List.mem_cons] at hj
    rcases hj with e | e
    · obtain ⟨_, hch⟩ := CtxSub_head_children nd f fs h hc
      rw [e]
      rcases hch with ⟨h1, h2, _⟩ | ⟨h1, h2, _⟩
      · exact ⟨_, _, h1, h2⟩
      · exact ⟨_, _, h1, h2⟩
    · exact CtxSub_children nd fs f.id hc'.2 j e

theorem Shape.inner_length : ∀ t : Shape, t.inner.length + 1 = t.leaves.length
  | Shape.leaf _ => rfl
  | Shape.node _ l r => by
    have h1 := Shape.inner_length l
    have h2 := Shape.inner_length r
    simp only [Shape.inner, Shape.leaves, List.length_cons, List.length_append]
    omega

theorem mem_inner_iff (nd : Nat → Node) (t : Shape) (hs : Sub nd t) (n : Nat) :
    n ∈ t.inner ↔ n ∈ t.ids ∧ (nd n).obj = 0 := by
  constructor
  · intro h
    exact ⟨Shape.inner_mem_ids t n h, Sub_inner_obj nd t hs n h⟩
  · rintro ⟨h, ho⟩
    rcases List.mem_append.1 (show n ∈ t.inner ++ t.leaves from h) with e | e
    · exact e
    · exact absurd ho (Sub_leaf_obj nd t hs n e)

/-- C1: on a tree whose internal boxes are the merges of their children's
boxes, `cpBBTreeQuery` returns and its callbacks are exactly `(obj, L.obj)`
for the leaves `L` whose stored box intersects the query box, one call per
such leaf, in a-before-b order; on an empty tree it makes no call. -/
theorem cpBBTreeQuery_calls (tree obj : Nat) (q : cpBB) (w : World) (fuel : Nat) :
    ((w.index tree).root = none →
      cpBBTreeQuery fuel tree obj q QueryFunc.record w = some w) ∧
    (∀ t : Shape, (w.index tree).root = some t.root → Sub w.node t → Fit w.node t →
      t.height ≤ fuel →
      cpBBTreeQuery fuel tree obj q QueryFunc.record w =
        some (w.addCalls ((t.leaves.filter (fun x => cpBBIntersects (w.node x).bb q)).map
          (fun x => (obj, (w.node x).obj))))) := by
  constructor
  · intro h
    simp only [cpBBTreeQuery, h]
  · intro t h hs hf hfuel
    simp only [cpBBTreeQuery, h]
    exact SubtreeQuery_spec obj q t w fuel hs hf hfuel

/-- Witness for C1: the tree holding objects 1 and 2, queried with the box
{0,0,20,20} and with the box {12,12,20,20}. -/
theorem cpBBTreeQuery_calls_witness :
    cpBBTreeQuery 5 0 9 ⟨0, 0, 20, 20⟩ QueryFunc.record twoLeafWorld =
        some (twoLeafWorld.addCalls [(9, 2), (9, 1)]) ∧
      cpBBTreeQuery 5 0 9 ⟨12, 12, 20, 20⟩ QueryFunc.record twoLeafWorld =
        some (twoLeafWorld.addCalls [(9, 2)]) := by
  have hs : Sub twoLeafWorld.node (Shape.node 2 (Shape.leaf 3) (Shape.leaf 0)) := by
    refine ⟨by decide, by decide, by decide, by decide, by decide, ?_, ?_⟩
    · show (twoLeafWorld.node 3).obj ≠ 0
      decide
    · show (twoLeafWorld.node 0).obj ≠ 0
      decide
  have hf : Fit twoLeafWorld.node (Shape.node 2 (Shape.leaf 3) (Shape.leaf 0)) := by
    refine ⟨by decide, trivial, trivial⟩
  have h1 := (cpBBTreeQuery_calls 0 9 ⟨0, 0, 20, 20⟩ twoLeafWorld 5).2
    (Shape.node 2 (Shape.leaf 3) (Shape.leaf 0)) (by decide) hs hf (by decide)
  have h2 := (cpBBTreeQuery_calls 0 9 ⟨12, 12, 20, 20⟩ twoLeafWorld 5).2
    (Shape.node 2 (Shape.leaf 3) (Shape.leaf 0)) (by decide) hs hf (by decide)
  refine ⟨h1.trans ?_, h2.trans ?_⟩
  · have e : ((Shape.node 2 (Shape.leaf 3) (Shape.leaf 0)).leaves.filter
        (fun x => cpBBIntersects (twoLeafWorld.node x).bb ⟨0, 0, 20, 20⟩)).map
          (fun x => ((9 : Nat), (twoLeafWorld.node x).obj)) = [(9, 2), (9, 1)] := by decide
    rw [e]
  · have e : ((Shape.node 2 (Shape.leaf 3) (Shape.leaf 0)).leaves.filter
        (fun x => cpBBIntersects (twoLeafWorld.node x).bb ⟨12, 12, 20, 20⟩)).map
          (fun x => ((9 : Nat), (twoLeafWorld.node x).obj)) = [(9, 2)] := by decide
    rw [e]

/-- C11: when the tight box of the object is contained in the stored box of
its leaf, `LeafUpdate` returns false and the memory is unchanged: stored box,
stamp, pair list, tree shape and root are what they were. -/
theorem LeafUpdate_contained (fuel leaf tree : Nat) (w : World)
    (h : cpBBContainsBB (w.node leaf).bb ((w.index tree).bbfunc (w.node leaf).obj) = true) :
    LeafUpdate fuel leaf tree w = some (false, w) := by
  simp only [LeafUpdate, h, not_true_eq_false, if_false]

/-- Witness for C11: velocity (1,0), stored box made from the tight box
{0,0,10,10}, new tight box {0.5,0,10.5,10}. -/
theorem LeafUpdate_contained_witness :
    (driftWorld.node 0).bb = ⟨-1, -1, 11, 11⟩ ∧
      (driftWorld.index 0).bbfunc (driftWorld.node 0).obj = ⟨1 / 2, 0, 21 / 2, 10⟩ ∧
      LeafUpdate 10 0 0 driftWorld = some (false, driftWorld) :=
  ⟨by decide!, by decide!, LeafUpdate_contained 10 0 0 driftWorld (by decide!)⟩

/-- C15: on an empty tree the three queries call nothing, and `Reindex`,
`ReindexQuery`, `ReindexObject` and `Optimize` call nothing and leave the
memory as it is. -/
theorem empty_tree_noop (isect : cpBB → cpVect → cpVect → Bool) (tree fuel : Nat) (w : World)
    (func : QueryFunc) (pointObj obj hashid : Nat) (point a b : cpVect) (bb : cpBB) (t_exit : ℚ)
    (hroot : (w.index tree).root = none) :
    cpBBTreePointQuery fuel tree pointObj point func w = some w ∧
      cpBBTreeQuery fuel tree obj bb func w = some w ∧
      cpBBTreeSegmentQuery isect fuel tree obj a b t_exit func w = some w ∧
      cpBBTreeReindex fuel tree w = some w ∧
      cpBBTreeReindexQuery fuel tree func w = some w ∧
      ((w.index tree).leaves = [] → cpBBTreeReindexObject fuel tree obj hashid w = some w) ∧
      cpBBTreeOptimize fuel tree w = some w := by
  refine ⟨?_, ?_, ?_, ?_, ?_, ?_, ?_⟩
  · simp only [cpBBTreePointQuery, hroot]
  · simp only [cpBBTreeQuery, hroot]
  · simp only [cpBBTreeSegmentQuery, hroot]
  · simp only [cpBBTreeReindex, cpBBTreeReindexQuery, hroot]
  · simp only [cpBBTreeReindexQuery, hroot]
  · intro hl
    simp [cpBBTreeReindexObject, cpHashSetFind, hl]
  · unfold cpBBTreeOptimize
    split
    · rfl
    · simp only [hroot]

/-- Witness for C15: the tree that was just created. -/
theorem empty_tree_noop_witness :
    cpBBTreeQuery 5 0 9 ⟨0, 0, 20, 20⟩ QueryFunc.record emptyTreeWorld = some emptyTreeWorld ∧
      cpBBTreeReindexQuery 5 0 QueryFunc.record emptyTreeWorld = some emptyTreeWorld ∧
      cpBBTreeReindexObject 5 0 1 1 emptyTreeWorld = some emptyTreeWorld ∧
      cpBBTreeOptimize 5 0 emptyTreeWorld = some emptyTreeWorld :=
  have h := empty_tree_noop segmentBoxTest 0 5 emptyTreeWorld QueryFunc.record 9 1 1 ⟨0, 0⟩
    ⟨0, 0⟩ ⟨1, 1⟩ ⟨0, 0, 20, 20⟩ 0 (by decide)
  ⟨h.2.1, h.2.2.2.2.1, h.2.2.2.2.2.1 (by decide), h.2.2.2.2.2.2⟩

/-- C16: `cpBBTreeReindexObject` on an object that the hash index does not
hold returns with the memory unchanged: shape, boxes, stamps, pair lists and
tree stamp are what they were, and no callback is made. -/
theorem cpBBTreeReindexObject_absent (fuel tree obj hashid : Nat) (w : World)
    (h : cpHashSetFind w tree hashid obj = none) :
    cpBBTreeReindexObject fuel tree obj hashid w = some w := by
  simp only [cpBBTreeReindexObject, h]

/-- Witness for C16: object 7 is not in the tree that holds objects 1 and 2. -/
theorem cpBBTreeReindexObject_absent_witness :
    cpHashSetFind twoLeafWorld 0 7 7 = none ∧
      cpBBTreeReindexObject 10 0 7 7 twoLeafWorld = some twoLeafWorld :=
  ⟨by decide, cpBBTreeReindexObject_absent 10 0 7 7 twoLeafWorld (by decide)⟩

/-- C17: with a velocity function `GetBB` returns the tight box `B` grown by
`min(-x, v'.x)`, `min(-y, v'.y)`, `max(x, v'.x)`, `max(y, v'.y)` where
`x = (B.r - B.l)/10`, `y = (B.t - B.b)/10` and `v' = v/10`; without one it
returns `B`. -/
theorem GetBB_formula (w : World) (tree obj : Nat) :
    (∀ vf, (w.index tree).velocityFunc = some vf →
      GetBB w tree obj =
        ⟨((w.index tree).bbfunc obj).l +
            min (-((((w.index tree).bbfunc obj).r - ((w.index tree).bbfunc obj).l) / 10))
              ((vf obj).x / 10),
          ((w.index tree).bbfunc obj).b +
            min (-((((w.index tree).bbfunc obj).t - ((w.index tree).bbfunc obj).b) / 10))
              ((vf obj).y / 10),
          ((w.index tree).bbfunc obj).r +
            max ((((w.index tree).bbfunc obj).r - ((w.index tree).bbfunc obj).l) / 10)
              ((vf obj).x / 10),
          ((w.index tree).bbfunc obj).t +
            max ((((w.index tree).bbfunc obj).t - ((w.index tree).bbfunc obj).b) / 10)
              ((vf obj).y / 10)⟩) ∧
    ((w.index tree).velocityFunc = none → GetBB w tree obj = (w.index tree).bbfunc obj) := by
  constructor
  · intro vf h
    have e : ∀ q : ℚ, q * (1 / 10) = q / 10 := fun q => by ring
    simp only [GetBB, h, cpBBNew, cpvmult, e]
  · intro h
    simp only [GetBB, h]

/-- Witness for C17: tight box {0,0,10,10} and velocity (1,0) give
{-1,-1,11,11}. -/
theorem GetBB_formula_witness :
    (velocityWorld.index 0).bbfunc 1 = ⟨0, 0, 10, 10⟩ ∧
      (velocityWorld.index 0).velocityFunc = some scenarioVelocity ∧
      scenarioVelocity 1 = ⟨1, 0⟩ ∧ GetBB velocityWorld 0 1 = ⟨-1, -1, 11, 11⟩ :=
  ⟨by decide, rfl, rfl,
    ((GetBB_formula velocityWorld 0 1).1 scenarioVelocity rfl).trans (by decide!)⟩

/-- C18: `cpBBTreeSegmentQuery` does not look at `t_exit`: two runs that
differ only in it end in the same memory, and on a tree the calls are
`(obj, L.obj)` for the leaves `L` for which the segment meets the box of `L`
and of every ancestor of `L`, each once, `a` before `b`. -/
theorem cpBBTreeSegmentQuery_calls (isect : cpBB → cpVect → cpVect → Bool) (tree obj : Nat)
    (a b : cpVect) (t1 t2 : ℚ) (func : QueryFunc) (w : World) (fuel : Nat) :
    cpBBTreeSegmentQuery isect fuel tree obj a b t1 func w =
        cpBBTreeSegmentQuery isect fuel tree obj a b t2 func w ∧
    (∀ t : Shape, (w.index tree).root = some t.root → Sub w.node t → t.leaves.Nodup →
      t.height ≤ fuel →
      cpBBTreeSegmentQuery isect fuel tree obj a b t1 QueryFunc.record w =
        some (w.addCalls ((t.leaves.filter (fun x =>
          (t.path x).all (fun i => isect (w.node i).bb a b))).map
            (fun x => (obj, (w.node x).obj))))) := by
  refine ⟨rfl, ?_⟩
  intro t hr hs hnd hfuel
  simp only [cpBBTreeSegmentQuery, hr]
  exact SubtreeSegmentQuery_spec isect obj a b t w fuel hs hnd hfuel

/-- Witness for C18: the segment from (12,12) to (20,20) on the tree that holds
objects 1 and 2 reaches the leaf of object 2 only. -/
theorem cpBBTreeSegmentQuery_calls_witness :
    cpBBTreeSegmentQuery segmentBoxTest 5 0 9 ⟨12, 12⟩ ⟨20, 20⟩ 1 QueryFunc.record
        twoLeafWorld = some (twoLeafWorld.addCalls [(9, 2)]) := by
  have hs : Sub twoLeafWorld.node (Shape.node 2 (Shape.leaf 3) (Shape.leaf 0)) := by
    refine ⟨by decide, by decide, by decide, by decide, by decide, ?_, ?_⟩
    · show (twoLeafWorld.node 3).obj ≠ 0
      decide
    · show (twoLeafWorld.node 0).obj ≠ 0
      decide
  have h := (cpBBTreeSegmentQuery_calls segmentBoxTest 0 9 ⟨12, 12⟩ ⟨20, 20⟩ 1 0
    QueryFunc.record twoLeafWorld 5).2 (Shape.node 2 (Shape.leaf 3) (Shape.leaf 0)) (by decide)
    hs (by decide) (by decide)
  refine h.trans ?_
  have e : ((Shape.node 2 (Shape.leaf 3) (Shape.leaf 0)).leaves.filter (fun x =>
      ((Shape.node 2 (Shape.leaf 3) (Shape.leaf 0)).path x).all
        (fun i => segmentBoxTest (twoLeafWorld.node i).bb ⟨12, 12⟩ ⟨20, 20⟩))).map
          (fun x => ((9 : Nat), (twoLeafWorld.node x).obj)) = [(9, 2)] := by decide
  rw [e]

/-- C19: `SubtreeInsert` is the reference definition of the specification;
into an empty subtree it returns the leaf; into a leaf subtree it returns a new
internal node with children `leaf` and `subtree` and box
`merge(leaf.bb, subtree.bb)`; into a tree it returns a tree that holds the old
leaves and the new leaf, each once, with the root box
`merge(subtree.bb, leaf.bb)`. -/
theorem SubtreeInsert_reference (tree x : Nat) (w : World) (FN : List Nat) (fuel : Nat)
    (pool : NodePool w tree FN) (hxobj : (w.node x).obj ≠ 0)
    (hxlive : x < w.nodeBrk ∧ x ∉ FN) :
    (∀ f s l tr w0, SubtreeInsert f s l tr w0 = SubtreeInsertRef f s l tr w0) ∧
    SubtreeInsert fuel none x tree w = some (x, w) ∧
    (∀ i, (w.node i).obj ≠ 0 → i ≠ x → i < w.nodeBrk → i ∉ FN →
      ∃ n w', SubtreeInsert (fuel + 1) (some i) x tree w = some (n, w') ∧
        (w'.node n).obj = 0 ∧ (w'.node n).a = some x ∧ (w'.node n).b = some i ∧
        (w'.node n).bb = cpBBMerge (w.node x).bb (w.node i).bb) ∧
    (∀ t : Shape, Sub w.node t → t.ids.Nodup → x ∉ t.ids →
      (∀ i ∈ t.ids, i < w.nodeBrk ∧ i ∉ FN) → t.height ≤ fuel →
      ∃ t' w', SubtreeInsert fuel (some t.root) x tree w = some (t'.root, w') ∧
        Sub w'.node t' ∧ t'.leaves.Perm (x :: t.leaves) ∧ t'.leaves.Nodup ∧
        (w'.node t'.root).bb = cpBBMerge (w.node t.root).bb (w.node x).bb ∧
        (Fit w.node t → Fit w'.node t')) := by
  refine ⟨SubtreeInsert_eq_ref, ?_, ?_, ?_⟩
  · cases fuel <;> rfl
  · intro i hi hix hib hiF
    obtain ⟨n, w', FN', hres, _, _, _, _, _, ho, hbb, _, ha, hb, _⟩ :=
      NodeNew_spec tree x i w FN pool hxlive.1 hib hxlive.2 hiF (Ne.symm hix)
    refine ⟨n, w', ?_, ho, ha, hb, hbb⟩
    have hleaf : NodeIsLeaf w i = true := by simp [NodeIsLeaf, hi]
    simp only [SubtreeInsert, hleaf, if_true]
    exact hres
  · intro t hs hnd hx hlive hfuel
    have hlive' : ∀ i ∈ x :: t.ids, i < w.nodeBrk ∧ i ∉ FN := by
      intro i hi
      rcases List.mem_cons.1 hi with e | e
      · rw [e]; exact hxlive
      · exact hlive i e
    obtain ⟨n, w', FN', hres, _, _, _, hnfresh, _, hsub, hfit, hbb, _, _, _, _⟩ :=
      SubtreeInsert_spec tree x t w FN fuel pool hs hnd hx hxobj hlive' hfuel
    have hnt : n ∉ t.ids := by
      intro h
      rcases hnfresh with e | e
      · exact (hlive n h).2 e
      · have := (hlive n h).1; omega
    have hnx : n ≠ x := by
      intro h
      rcases hnfresh with e | e
      · exact hxlive.2 (h ▸ e)
      · have := hxlive.1; omega
    exact ⟨insShape w.node x n t, w', hres, hsub, insShape_leaves_perm w.node x n t,
      Shape.leaves_nodup _ (insShape_nodup w.node x n t hnd hx hnt hnx), hbb, hfit⟩

/-- Witness for C19: the leaf of object 2 is inserted into the tree that holds
the leaf of object 1. -/
theorem SubtreeInsert_reference_witness :
    ∃ n w', SubtreeInsert 2 (some 0) pendingLeaf.1 0 pendingLeaf.2 = some (n, w') ∧
      (w'.node n).obj = 0 ∧ (w'.node n).a = some pendingLeaf.1 ∧ (w'.node n).b = some 0 ∧
      (w'.node n).bb = cpBBMerge (pendingLeaf.2.node pendingLeaf.1).bb (pendingLeaf.2.node 0).bb :=
  (SubtreeInsert_reference 0 pendingLeaf.1 pendingLeaf.2 [2, 1] 1
    ⟨⟨by decide, by decide, show (pendingLeaf.2.node 1).parent = none by decide⟩,
      by decide, by decide, by decide⟩ (by decide)
    ⟨by decide, by decide⟩).2.2.1 0 (by decide) (by decide) (by decide) (by decide)

/-- C20: `SubtreeRemove` of a leaf of a well-formed tree: for the root leaf the
result is empty and nothing changes; else the sibling of the leaf takes the
place of the parent (as the new root with a null parent when the parent was the
root, in the slot of the grandparent with the root unchanged otherwise) and
the parent, one internal node, goes to the pool; the leaves that remain are the
old ones without the leaf, in the same order. -/
theorem SubtreeRemove_cases (tree x : Nat) (fs : List Frame) (w : World) (FN : List Nat)
    (fuel : Nat) (pool : NodePool w tree FN)
    (hs : Sub w.node (plug fs (Shape.leaf x)))
    (hroot : (w.node (plug fs (Shape.leaf x)).root).parent = none)
    (hnd : (plug fs (Shape.leaf x)).ids.Nodup)
    (hfit : ∀ f ∈ fs, Fit w.node f.sib)
    (hlive : ∀ i ∈ (plug fs (Shape.leaf x)).ids, i < w.nodeBrk ∧ i ∉ FN)
    (hfuel : (plug fs (Shape.leaf x)).height ≤ fuel) :
    ∃ w', SubtreeRemove fuel (some (plug fs (Shape.leaf x)).root) x tree w =
        some (Option.map Shape.root (unplug fs), w') ∧
      NodePool w' tree (unplugFree fs ++ FN) ∧
      (∀ t', unplug fs = some t' →
        Sub w'.node t' ∧ (w'.node t'.root).parent = none ∧ Fit w'.node t') ∧
      (fs = [] → unplug fs = none ∧ unplugFree fs = [] ∧ w' = w) ∧
      (∀ f, fs = [f] → unplug fs = some f.sib ∧
        unplugFree fs = [(plug fs (Shape.leaf x)).root]) ∧
      (∀ f1 f2 rest, fs = f1 :: f2 :: rest →
        unplug fs = some (plug (f2 :: rest) f1.sib) ∧
        (plug (f2 :: rest) f1.sib).root = (plug fs (Shape.leaf x)).root ∧
        unplugFree fs = [f1.id] ∧ (w.node x).parent = some f1.id) ∧
      (plug fs (Shape.leaf x)).leaves = ctxBefore fs ++ x :: ctxAfter fs ∧
      shLeaves (unplug fs) = ctxBefore fs ++ ctxAfter fs := by
  obtain ⟨w', hres, pool', hsub, hnil⟩ :=
    SubtreeRemove_path tree x fs w FN fuel pool hs hroot hnd hfit hlive hfuel
  refine ⟨w', hres, pool', hsub, ?_, ?_, ?_, ?_, unplug_leaves fs⟩
  · intro h
    subst h
    exact ⟨rfl, rfl, hnil rfl⟩
  · intro f h
    subst h
    refine ⟨rfl, ?_⟩
    rw [plug_root]
    rfl
  · intro f1 f2 rest h
    subst h
    refine ⟨rfl, ?_, rfl, ?_⟩
    · rw [plug_root, plug_root]; rfl
    · have hc := ((Sub_plug w.node _ _).1 hs).2
      cases f1 with
      | left i s => exact hc.2.2.2.1
      | right i s => exact hc.2.2.2.2.1
  · rw [plug_leaves_eq]
    simp

/-- Witness for C20: the leaf of object 2 is taken out of the tree that holds
objects 1 and 2; the leaf of object 1 becomes the root. -/
theorem SubtreeRemove_cases_witness :
    ∃ w', SubtreeRemove 2 (some 2) 3 0 twoLeafWorld = some (some 0, w') ∧
      NodePool w' 0 [2, 1] ∧ (w'.node 0).parent = none := by
  have hs : Sub twoLeafWorld.node (plug [Frame.left 2 (Shape.leaf 0)] (Shape.leaf 3)) := by
    refine ⟨by decide, by decide, by decide, by decide, by decide, ?_, ?_⟩
    · show (twoLeafWorld.node 3).obj ≠ 0
      decide
    · show (twoLeafWorld.node 0).obj ≠ 0
      decide
  obtain ⟨w', hres, pool', hsub, _⟩ :=
    SubtreeRemove_cases 0 3 [Frame.left 2 (Shape.leaf 0)] twoLeafWorld [1] 2
      ⟨⟨by decide, show (twoLeafWorld.node 1).parent = none by decide⟩,
        by decide, by decide, by decide⟩ hs (by decide) (by decide)
      (by
        intro f hf
        simp only [List.mem_singleton] at hf
        subst hf
        trivial)
      (by decide) (by decide)
  exact ⟨w', hres, pool', (hsub _ rfl).2.1⟩

/-- C9: on a well-formed standalone tree in which the tight box of every leaf
is contained in its stored box, `cpBBTreeReindexQuery` returns the memory it
was given but for the stamp of the tree, which is one higher, and the call log
(node heap, pair heap, pools, allocation frontiers, root and leaf index are
the same, so no pair record is created or taken from the pool, and the shape,
the boxes, the leaf stamps and the pair lists are unchanged); its calls are
calls for two distinct leaves, and for leaves `a` and `b` it makes as many
calls as the list of `b` holds pair records with `a` on thread `a` and `b` on
thread `b`, so one call for every cached pair.  `cpBBTreeReindex` changes
nothing but the stamp of the tree. -/
theorem reindex_no_motion (tree : Nat) (func : QueryFunc) (w : World) (sh : Option Shape)
    (L : Nat → List Nat) (FN FP : List Nat) (fuel : Nat) (wf : WF w tree sh L FN FP)
    (hfunc : func ≠ QueryFunc.null) (hfuel : 3 * cpBBTreeCount w tree + w.pairBrk + 2 ≤ fuel)
    (hstill : ∀ n, LeafOf w tree n →
      cpBBContainsBB (w.node n).bb ((w.index tree).bbfunc (w.node n).obj) = true) :
    (∃ lc, cpBBTreeReindexQuery fuel tree func w =
        some (if (w.index tree).root = none then w
          else (w.addCalls (logOf func (callsOf w.node lc))).setIndex tree
            { w.index tree with stamp := (w.index tree).stamp + 1 }) ∧
      (∀ e ∈ lc, LeafOf w tree e.1 ∧ LeafOf w tree e.2 ∧ e.1 ≠ e.2) ∧
      (∀ a b, LeafOf w tree a → LeafOf w tree b → a ≠ b →
        lc.count (a, b) = links w.pair L a b)) ∧
    cpBBTreeReindex fuel tree w =
      some (if (w.index tree).root = none then w
        else w.setIndex tree { w.index tree with stamp := (w.index tree).stamp + 1 }) := by
  refine ⟨reindexQuery_quiet tree func hfunc w sh L FN FP fuel wf hfuel hstill, ?_⟩
  obtain ⟨lc, hres, _, _⟩ := reindexQuery_quiet tree QueryFunc.void (by decide) w sh L FN FP fuel
    wf hfuel hstill
  have hw : w.addCalls (logOf QueryFunc.void (callsOf w.node lc)) = w := by
    simp [World.addCalls, logOf]
  unfold cpBBTreeReindex
  rw [hres, hw]

theorem twoLeafWorld_leafOf (n : Nat) (h : LeafOf twoLeafWorld 0 n) : n = 3 ∨ n = 0 := by
  obtain ⟨sh, L, FN, FP, hs⟩ := twoLeafWorld_reached.sound
  have hm := ((Sound.indexInv hs).1 n).2 h
  have hl : (twoLeafWorld.index 0).leaves.map Prod.snd = [3, 0] := by decide!
  rw [hl] at hm
  simpa using hm

theorem twoLeafWorld_still (n : Nat) (h : LeafOf twoLeafWorld 0 n) :
    cpBBContainsBB (twoLeafWorld.node n).bb
      ((twoLeafWorld.index 0).bbfunc (twoLeafWorld.node n).obj) = true := by
  rcases twoLeafWorld_leafOf n h with e | e <;> subst e <;> decide!

/-- Witness for C9: the tree that holds objects 1 and 2, whose tight boxes are
the stored ones, with a recording callback. -/
theorem reindex_no_motion_witness :
    ∃ sh L FN FP, WF twoLeafWorld 0 sh L FN FP ∧
      (∃ lc, cpBBTreeReindexQuery 20 0 QueryFunc.record twoLeafWorld =
          some (if (twoLeafWorld.index 0).root = none then twoLeafWorld
            else (twoLeafWorld.addCalls
                (logOf QueryFunc.record (callsOf twoLeafWorld.node lc))).setIndex 0
              { twoLeafWorld.index 0 with stamp := (twoLeafWorld.index 0).stamp + 1 }) ∧
        (∀ e ∈ lc, LeafOf twoLeafWorld 0 e.1 ∧ LeafOf twoLeafWorld 0 e.2 ∧ e.1 ≠ e.2) ∧
        (∀ a b, LeafOf twoLeafWorld 0 a → LeafOf twoLeafWorld 0 b → a ≠ b →
          lc.count (a, b) = links twoLeafWorld.pair L a b)) ∧
      cpBBTreeReindex 20 0 twoLeafWorld =
        some (if (twoLeafWorld.index 0).root = none then twoLeafWorld
          else twoLeafWorld.setIndex 0
            { twoLeafWorld.index 0 with stamp := (twoLeafWorld.index 0).stamp + 1 }) :=
  match twoLeafWorld_reached.sound with
  | ⟨sh, L, FN, FP, hs⟩ =>
    ⟨sh, L, FN, FP, hs.wf,
      reindex_no_motion 0 QueryFunc.record twoLeafWorld sh L FN FP 20 hs.wf (by decide)
        (by decide) twoLeafWorld_still⟩

/-- C7: for a well-formed standalone tree and a non-null object that it does
not contain, `cpBBTreeInsert` of the object returns, the tree contains the
object then, and `cpBBTreeRemove` of it returns; afterwards the count and the
leaf index are what they were before the insertion, the leaves are the same
nodes with the same objects and boxes, and the pair list of every leaf holds
the same pair records in the same order, with the same leaves at their
ends. -/
theorem insert_remove_roundtrip (tree obj hashid : Nat) (w : World) (fuel : Nat)
    (h : ∃ sh L FN FP, WF w tree sh L FN FP) (hobj : obj ≠ 0)
    (habs : cpBBTreeContains w tree obj hashid = false)
    (hfuel : 2 * cpBBTreeCount w tree + 2 ≤ fuel) :
    ∃ w1 w2, cpBBTreeInsert fuel tree obj hashid w = some w1 ∧
      cpBBTreeContains w1 tree obj hashid = true ∧
      cpBBTreeRemove fuel tree obj hashid w1 = some w2 ∧
      cpBBTreeCount w2 tree = cpBBTreeCount w tree ∧
      (w2.index tree).leaves = (w.index tree).leaves ∧
      (∀ n, LeafOf w2 tree n ↔ LeafOf w tree n) ∧
      (∀ z, LeafOf w tree z → (w2.node z).obj = (w.node z).obj ∧
        (w2.node z).bb = (w.node z).bb ∧
        ∀ l, ListFrom w.pair z none (w.node z).pairs l →
          ListFrom w2.pair z none (w2.node z).pairs l ∧
          ∀ q ∈ l, (w2.pair q).a.leaf = (w.pair q).a.leaf ∧
            (w2.pair q).b.leaf = (w.pair q).b.leaf) := by
  obtain ⟨sh, L, FN, FP, wf⟩ := h
  rw [wf.count_eq] at hfuel
  obtain ⟨w1, w2, sh2, L2, FN2, FP2, x, hres1, hfind, hres2, wf2, hperm, hlv, _, hsame, _⟩ :=
    insert_remove_ok tree obj hashid w sh L FN FP fuel wf hobj (contains_false_find habs) hfuel
  have hiff := LeafOf_iff w tree sh wf.1.root
  have hiff2 := LeafOf_iff w2 tree sh2 wf2.1.root
  refine ⟨w1, w2, hres1, ?_, hres2, ?_, hlv, ?_, ?_⟩
  · simp only [cpBBTreeContains, hfind, Option.isSome_some]
  · simp only [cpBBTreeCount, cpHashSetCount, hlv]
  · intro n
    rw [← hiff n, ← hiff2 n]
    exact hperm.mem_iff
  · intro z hz
    have hz0 := (hiff z).2 hz
    obtain ⟨hL, ho, hb, _, hq⟩ := hsame z hz0
    refine ⟨ho, hb, ?_⟩
    intro l hl
    have e : l = L z := ListFrom_unique _ _ _ _ _ _ hl (wf.1.pairs.list z hz0)
    subst e
    have h2 := wf2.1.pairs.list z (hperm.mem_iff.2 hz0)
    rw [hL] at h2
    exact ⟨h2, hq⟩

/-- Witness for C7: object 3 is inserted into the tree that holds objects 1
and 2, and removed again. -/
theorem insert_remove_roundtrip_witness :
    ∃ w1 w2, cpBBTreeInsert 20 0 3 3 twoLeafWorld = some w1 ∧
      cpBBTreeContains w1 0 3 3 = true ∧
      cpBBTreeRemove 20 0 3 3 w1 = some w2 ∧
      cpBBTreeCount w2 0 = cpBBTreeCount twoLeafWorld 0 ∧
      (w2.index 0).leaves = (twoLeafWorld.index 0).leaves ∧
      (∀ n, LeafOf w2 0 n ↔ LeafOf twoLeafWorld 0 n) ∧
      (∀ z, LeafOf twoLeafWorld 0 z → (w2.node z).obj = (twoLeafWorld.node z).obj ∧
        (w2.node z).bb = (twoLeafWorld.node z).bb ∧
        ∀ l, ListFrom twoLeafWorld.pair z none (twoLeafWorld.node z).pairs l →
          ListFrom w2.pair z none (w2.node z).pairs l ∧
          ∀ q ∈ l, (w2.pair q).a.leaf = (twoLeafWorld.pair q).a.leaf ∧
            (w2.pair q).b.leaf = (twoLeafWorld.pair q).b.leaf) :=
  insert_remove_roundtrip 0 3 3 twoLeafWorld 20
    (match twoLeafWorld_reached.sound with
      | ⟨sh, L, FN, FP, hs⟩ => ⟨sh, L, FN, FP, hs.wf⟩)
    (by decide) (by decide) (by decide)

/-- C8: for a well-formed non-empty standalone tree `cpBBTreeOptimize` returns,
and afterwards the count, the leaves reachable from the root, the object, box,
stamp and pair list head of every leaf, the whole pair heap, the stamp of the
tree and the call log are what they were.  A `cpBBTreeReindexQuery` after it
and one in its place both return, both call the callback for two distinct
leaves only, and for any two distinct leaves they make the same number of
calls (counting both orders). -/
theorem optimize_pure_rebalance (tree : Nat) (func : QueryFunc) (w : World) (fuel : Nat)
    (h : ∃ t L FN FP, WF w tree (some t) L FN FP) (hfunc : func ≠ QueryFunc.null)
    (hfuel : 3 * cpBBTreeCount w tree + w.pairBrk + 2 ≤ fuel) :
    ∃ w', cpBBTreeOptimize fuel tree w = some w' ∧
      cpBBTreeCount w' tree = cpBBTreeCount w tree ∧
      (∀ n, LeafOf w' tree n ↔ LeafOf w tree n) ∧
      (∀ n, LeafOf w tree n → (w'.node n).obj = (w.node n).obj ∧
        (w'.node n).bb = (w.node n).bb ∧ (w'.node n).stamp = (w.node n).stamp ∧
        (w'.node n).pairs = (w.node n).pairs) ∧
      w'.pair = w.pair ∧ (w'.index tree).stamp = (w.index tree).stamp ∧ w'.calls = w.calls ∧
      ∃ w1 w2 lc lc', cpBBTreeReindexQuery fuel tree func w = some w1 ∧
        cpBBTreeReindexQuery fuel tree func w' = some w2 ∧
        w1.calls = w.calls ++ logOf func (callsOf w.node lc) ∧
        w2.calls = w.calls ++ logOf func (callsOf w.node lc') ∧
        (∀ e ∈ lc, LeafOf w tree e.1 ∧ LeafOf w tree e.2 ∧ e.1 ≠ e.2) ∧
        (∀ e ∈ lc', LeafOf w tree e.1 ∧ LeafOf w tree e.2 ∧ e.1 ≠ e.2) ∧
        (∀ a b, LeafOf w tree a → LeafOf w tree b → a ≠ b →
          lc.count (a, b) + lc.count (b, a) = lc'.count (a, b) + lc'.count (b, a)) := by
  obtain ⟨t, L, FN, FP, wf⟩ := h
  rw [wf.count_eq] at hfuel
  simp only [shLeaves] at hfuel
  obtain ⟨t', w', FN', hres, wf', hperm, hpair, hcalls, hlv, hst, hsame, w1, w2, lc, lc', hres1,
    hres2, hcalls1, hcalls2, hmem1, hmem2, hcount⟩ :=
    optimize_query_same tree func hfunc w t L FN FP fuel wf (by omega)
  have hiff := LeafOf_iff w tree (some t) wf.1.root
  have hiff' := LeafOf_iff w' tree (some t') wf'.1.root
  simp only [shLeaves] at hiff hiff'
  refine ⟨w', hres, ?_, ?_, ?_, hpair, hst, hcalls, w1, w2, lc, lc', hres1, hres2, hcalls1,
    hcalls2, ?_, ?_, ?_⟩
  · simp only [cpBBTreeCount, cpHashSetCount, hlv]
  · intro n
    rw [← hiff n, ← hiff' n]
    exact hperm.mem_iff
  · intro n hn
    have hs := hsame n ((hiff n).2 hn)
    exact ⟨sameButParent_obj hs, sameButParent_bb hs, sameButParent_stamp hs,
      sameButParent_pairs hs⟩
  · intro e he
    exact ⟨(hiff _).1 (hmem1 e he).1, (hiff _).1 (hmem1 e he).2.1, (hmem1 e he).2.2⟩
  · intro e he
    exact ⟨(hiff _).1 (hmem2 e he).1, (hiff _).1 (hmem2 e he).2.1, (hmem2 e he).2.2⟩
  · intro a b ha hb hab
    exact hcount a ((hiff a).2 ha) b ((hiff b).2 hb) hab

/-- Witness for C8: the tree that holds objects 1 and 2, with a recording
callback. -/
theorem optimize_pure_rebalance_witness :
    ∃ w', cpBBTreeOptimize 20 0 twoLeafWorld = some w' ∧
      cpBBTreeCount w' 0 = cpBBTreeCount twoLeafWorld 0 ∧
      (∀ n, LeafOf w' 0 n ↔ LeafOf twoLeafWorld 0 n) ∧
      (∀ n, LeafOf twoLeafWorld 0 n → (w'.node n).obj = (twoLeafWorld.node n).obj ∧
        (w'.node n).bb = (twoLeafWorld.node n).bb ∧
        (w'.node n).stamp = (twoLeafWorld.node n).stamp ∧
        (w'.node n).pairs = (twoLeafWorld.node n).pairs) ∧
      w'.pair = twoLeafWorld.pair ∧ (w'.index 0).stamp = (twoLeafWorld.index 0).stamp ∧
      w'.calls = twoLeafWorld.calls ∧
      ∃ w1 w2 lc lc', cpBBTreeReindexQuery 20 0 QueryFunc.record twoLeafWorld = some w1 ∧
        cpBBTreeReindexQuery 20 0 QueryFunc.record w' = some w2 ∧
        w1.calls = twoLeafWorld.calls ++
          logOf QueryFunc.record (callsOf twoLeafWorld.node lc) ∧
        w2.calls = twoLeafWorld.calls ++
          logOf QueryFunc.record (callsOf twoLeafWorld.node lc') ∧
        (∀ e ∈ lc, LeafOf twoLeafWorld 0 e.1 ∧ LeafOf twoLeafWorld 0 e.2 ∧ e.1 ≠ e.2) ∧
        (∀ e ∈ lc', LeafOf twoLeafWorld 0 e.1 ∧ LeafOf twoLeafWorld 0 e.2 ∧ e.1 ≠ e.2) ∧
        (∀ a b, LeafOf twoLeafWorld 0 a → LeafOf twoLeafWorld 0 b → a ≠ b →
          lc.count (a, b) + lc.count (b, a) = lc'.count (a, b) + lc'.count (b, a)) :=
  optimize_pure_rebalance 0 QueryFunc.record twoLeafWorld 20 twoLeafWorld_wf (by decide)
    (by decide)

/-- C12: in a well-formed standalone tree, for a leaf whose tight box is not
contained in its stored box `LeafUpdate` returns true; on return the stored box
of the leaf is the box `GetBB` makes for its object, the leaves of the tree are
the same nodes as before and the leaf occurs once among them, its stamp is the
authoritative stamp, its pair list is empty, and no pair record of its former
list is in the list of any leaf.  A `cpBBTreeReindexQuery` returns with this
box stored; if the box intersects the box of no other leaf, no call is for the
leaf, its pair list is empty and no pair record in the list of any leaf has it
at an end.  When the leaf with box {5,5,15,15} moved to {100,100,110,110},
away from the leaf with box {0,0,10,10}, the query makes no call and leaves
both pair lists empty. -/
theorem LeafUpdate_moved (tree x : Nat) (func : QueryFunc) (w : World) (fuel : Nat)
    (h : ∃ t L FN FP, WF w tree (some t) L FN FP) (hx : LeafOf w tree x)
    (hm : cpBBContainsBB (w.node x).bb ((w.index tree).bbfunc (w.node x).obj) = false)
    (hfunc : func ≠ QueryFunc.null)
    (hfuel : 3 * cpBBTreeCount w tree + w.pairBrk + 2 ≤ fuel) :
    (∃ w' t', LeafUpdate fuel x tree w = some (true, w') ∧
      (w'.node x).bb = GetBB w tree (w.node x).obj ∧ (w'.node x).obj = (w.node x).obj ∧
      RootRep w' tree (some t') ∧ t'.leaves.count x = 1 ∧
      (∀ n, LeafOf w' tree n ↔ LeafOf w tree n) ∧
      (w'.node x).stamp = GetStamp w' tree ∧ (w'.node x).pairs = none ∧
      (∀ lx, ListFrom w.pair x none (w.node x).pairs lx →
        ∀ z, LeafOf w' tree z → ∀ l, ListFrom w'.pair z none (w'.node z).pairs l →
          ∀ q ∈ lx, q ∉ l)) ∧
    (∃ w2 lc, cpBBTreeReindexQuery fuel tree func w = some w2 ∧
      w2.calls = w.calls ++ logOf func (callsOf w.node lc) ∧
      (w2.node x).bb = GetBB w tree (w.node x).obj ∧
      (∀ n, LeafOf w2 tree n ↔ LeafOf w tree n) ∧
      ((∀ z, LeafOf w2 tree z → z ≠ x →
          cpBBIntersects (w2.node x).bb (w2.node z).bb = false) →
        (∀ e ∈ lc, e.1 ≠ x ∧ e.2 ≠ x) ∧ (w2.node x).pairs = none ∧
        ∀ z, LeafOf w2 tree z → ∀ l, ListFrom w2.pair z none (w2.node z).pairs l →
          ∀ p ∈ l, (w2.pair p).a.leaf ≠ some x ∧ (w2.pair p).b.leaf ≠ some x)) ∧
    ((farWorld.node 3).obj = 2 ∧ (farWorld.node 3).bb = ⟨5, 5, 15, 15⟩ ∧
      (farWorld.index 0).bbfunc 2 = ⟨100, 100, 110, 110⟩ ∧
      (farWorld.node 0).bb = ⟨0, 0, 10, 10⟩ ∧
      [(farWorld.node 0).pairs, (farWorld.node 3).pairs] = [some 0, some 0] ∧
      (cpBBTreeReindexQuery 20 0 QueryFunc.record farWorld).map
        (fun w2 => (w2.calls, [(w2.node 0).pairs, (w2.node 3).pairs])) =
        some ([], [none, none])) := by
  obtain ⟨t, L, FN, FP, wf⟩ := h
  rw [wf.count_eq] at hfuel
  simp only [shLeaves] at hfuel
  have hiff := LeafOf_iff w tree (some t) wf.1.root
  simp only [shLeaves] at hiff
  have hxt : x ∈ t.leaves := (hiff x).2 hx
  have hKx := wf.1.pairs.listLength_le x hxt
  refine ⟨?_, ?_, by decide!, by decide!, by decide!, by decide!, by decide!, by decide!⟩
  · obtain ⟨t', w', FN', FP', hres, ok', hperm, hox, hbx, hsx, _, _, _, hst, _, _⟩ :=
      (LeafUpdate_spec tree x t w L FN FP fuel wf.1.weaken hxt (by omega) (by omega)).2 hm
    have hiff' := LeafOf_iff w' tree (some t') ok'.root
    simp only [shLeaves] at hiff'
    have hnd' : t'.leaves.Nodup := Shape.leaves_nodup t' ok'.nodup
    have hxt' : x ∈ t'.leaves := hperm.mem_iff.2 hxt
    refine ⟨w', t', hres, hbx, hox, ok'.root, List.count_eq_one_of_mem hnd' hxt', ?_, ?_, ?_, ?_⟩
    · intro n
      rw [← hiff n, ← hiff' n]
      exact hperm.mem_iff
    · rw [GetStamp_alone w' tree ok'.noDynamic, hsx, hst]
    · have hl := ok'.pairs.list x hxt'
      simp only [if_true] at hl
      exact hl
    · intro lx hlx z hz l hl q hq
      have e : lx = L x := ListFrom_unique _ _ _ _ _ _ hlx (wf.1.pairs.list x hxt)
      subst e
      have hz' := (hiff' z).2 hz
      have e2 := ListFrom_unique _ _ _ _ _ _ hl (ok'.pairs.list z hz')
      rw [e2]
      by_cases hzx : z = x
      · simp [hzx]
      · simp only [hzx, if_false, List.mem_filter, decide_eq_true_eq, not_and, not_not]
        intro _
        exact hq
  · obtain ⟨t', w2, L', FN', FP', lc, hres, wf', hperm, hcalls, hbx, hfar⟩ :=
      reindexQuery_isolated tree func hfunc w t L FN FP fuel wf (by omega) x hxt
        (movedLeaf_true.2 hm)
    have hiff' := LeafOf_iff w2 tree (some t') wf'.1.root
    simp only [shLeaves] at hiff'
    have hleaf : ∀ n, LeafOf w2 tree n ↔ LeafOf w tree n := by
      intro n
      rw [← hiff n, ← hiff' n]
      exact hperm.mem_iff
    refine ⟨w2, lc, hres, hcalls, hbx, hleaf, ?_⟩
    intro hno
    obtain ⟨h1, _, h3, h4⟩ := hfar (fun z hz hzx => hno z ((hleaf z).2 ((hiff z).1 hz)) hzx)
    refine ⟨h1, h3, ?_⟩
    intro z hz l hl p hp
    have hz' := (hiff' z).2 hz
    have e := ListFrom_unique _ _ _ _ _ _ hl (wf'.1.pairs.list z hz')
    rw [e] at hp
    exact h4 z (hperm.mem_iff.1 hz') p hp

/-- Witness for C12: in the tree that holds objects 1 and 2, object 2 moved
from {5,5,15,15} to {100,100,110,110}; its leaf is node 3. -/
theorem LeafUpdate_moved_witness :
    (∃ w' t', LeafUpdate 20 3 0 farWorld = some (true, w') ∧
      (w'.node 3).bb = GetBB farWorld 0 (farWorld.node 3).obj ∧
      (w'.node 3).obj = (farWorld.node 3).obj ∧
      RootRep w' 0 (some t') ∧ t'.leaves.count 3 = 1 ∧
      (∀ n, LeafOf w' 0 n ↔ LeafOf farWorld 0 n) ∧
      (w'.node 3).stamp = GetStamp w' 0 ∧ (w'.node 3).pairs = none ∧
      (∀ lx, ListFrom farWorld.pair 3 none (farWorld.node 3).pairs lx →
        ∀ z, LeafOf w' 0 z → ∀ l, ListFrom w'.pair z none (w'.node z).pairs l →
          ∀ q ∈ lx, q ∉ l)) ∧
    (∃ w2 lc, cpBBTreeReindexQuery 20 0 QueryFunc.record farWorld = some w2 ∧
      w2.calls = farWorld.calls ++ logOf QueryFunc.record (callsOf farWorld.node lc) ∧
      (w2.node 3).bb = GetBB farWorld 0 (farWorld.node 3).obj ∧
      (∀ n, LeafOf w2 0 n ↔ LeafOf farWorld 0 n) ∧
      ((∀ z, LeafOf w2 0 z → z ≠ 3 →
          cpBBIntersects (w2.node 3).bb (w2.node z).bb = false) →
        (∀ e ∈ lc, e.1 ≠ 3 ∧ e.2 ≠ 3) ∧ (w2.node 3).pairs = none ∧
        ∀ z, LeafOf w2 0 z → ∀ l, ListFrom w2.pair z none (w2.node z).pairs l →
          ∀ p ∈ l, (w2.pair p).a.leaf ≠ some 3 ∧ (w2.pair p).b.leaf ≠ some 3)) ∧
    ((farWorld.node 3).obj = 2 ∧ (farWorld.node 3).bb = ⟨5, 5, 15, 15⟩ ∧
      (farWorld.index 0).bbfunc 2 = ⟨100, 100, 110, 110⟩ ∧
      (farWorld.node 0).bb = ⟨0, 0, 10, 10⟩ ∧
      [(farWorld.node 0).pairs, (farWorld.node 3).pairs] = [some 0, some 0] ∧
      (cpBBTreeReindexQuery 20 0 QueryFunc.record farWorld).map
        (fun w2 => (w2.calls, [(w2.node 0).pairs, (w2.node 3).pairs])) =
        some ([], [none, none])) :=
  LeafUpdate_moved 0 3 QueryFunc.record farWorld 20 farWorld_wf farWorld_leafOf (by decide!)
    (by decide) (by decide!)

/-- C21: in a well-formed pair structure (`PairInv`, with pair lists `L` and
free list `FP`), `PairsClear` of a leaf returns; afterwards the `pairs` pointer
of the leaf is null; the list of every other leaf is its old list without the
pairs of the cleared leaf, in the old order, starting at the head pointer of
that leaf and doubly linked, and the pairs dropped from it are exactly those
with the cleared leaf at an end; the free list is the old one with the pairs
of the cleared leaf pushed onto it; the structure is well-formed again. -/
theorem PairsClear_effect (tree x : Nat) (w : World) (lv : List Nat) (L : Nat → List Nat)
    (FP : List Nat) (fuel : Nat) (inv : PairInv w tree lv L FP) (hx : x ∈ lv)
    (hfuel : (L x).length ≤ fuel) :
    ∃ w', PairsClear fuel x tree w = some w' ∧ (w'.node x).pairs = none ∧
      (∀ z ∈ lv, z ≠ x →
        ListFrom w'.pair z none (w'.node z).pairs
            ((L z).filter (fun q => decide (q ∉ L x))) ∧
          (w'.node z).pairs = ((L z).filter (fun q => decide (q ∉ L x))).head? ∧
          (∀ q ∈ L z, (q ∈ L x ↔
            ((w.pair q).a.leaf = some x ∨ (w.pair q).b.leaf = some x))) ∧
          (∀ q ∈ L z, q ∉ L x → (w'.pair q).a.leaf = (w.pair q).a.leaf ∧
            (w'.pair q).b.leaf = (w.pair q).b.leaf)) ∧
      Chain (fun q => (w'.pair q).a.next) (w'.index tree).pooledPairs ((L x).reverse ++ FP) ∧
      PairInv w' tree lv
        (fun z => if z = x then [] else (L z).filter (fun q => decide (q ∉ L x)))
        ((L x).reverse ++ FP) ∧
      (∀ i, (w'.node i).skel = (w.node i).skel) ∧ w'.calls = w.calls := by
  obtain ⟨w', hres, inv', hfr, hcalls, hleaf⟩ := PairsClear_spec tree lv x w L FP fuel inv hx hfuel
  refine ⟨w', hres, ?_, ?_, inv'.chain, inv', hfr.skel, hcalls⟩
  · have h := inv'.list x hx
    simp only [if_true] at h
    exact h
  · intro z hz hzx
    have h := inv'.list z hz
    simp only [hzx, if_false] at h
    refine ⟨h, ListFrom_head _ _ _ _ _ h, ?_, fun q _ hq => hleaf q hq⟩
    intro q hq
    constructor
    · intro hqx
      exact ends_of_mem inv x hx q hqx
    · intro he
      exact mem_of_ends inv z hz q hq x he (Ne.symm hzx)

/-- Witness for C21: leaf 0 of the tree that holds objects 1, 2 and 4; its
list holds two pairs. -/
theorem PairsClear_effect_witness :
    ∃ lv L FP, PairInv threeLeafWorld 0 lv L FP ∧ 0 ∈ lv ∧
      ∃ w', PairsClear 20 0 0 threeLeafWorld = some w' ∧ (w'.node 0).pairs = none ∧
        Chain (fun q => (w'.pair q).a.next) (w'.index 0).pooledPairs ((L 0).reverse ++ FP) ∧
        PairInv w' 0 lv
          (fun z => if z = 0 then [] else (L z).filter (fun q => decide (q ∉ L 0)))
          ((L 0).reverse ++ FP) := by
  obtain ⟨t, L, FN, FP, wf⟩ := threeLeafWorld_wf
  have hl : ((threeLeafWorld.index 0).leaves.map Prod.snd).Perm t.leaves := wf.2
  have h0 : 0 ∈ t.leaves := hl.mem_iff.1 (by decide!)
  have hlen := wf.1.pairs.listLength_le 0 h0
  have hb : threeLeafWorld.pairBrk = 4 := by decide!
  obtain ⟨w', h1, h2, _, h4, h5, _⟩ :=
    PairsClear_effect 0 0 threeLeafWorld t.leaves L FP 20 wf.1.pairs h0 (by omega)
  exact ⟨t.leaves, L, FP, wf.1.pairs, h0, w', h1, h2, h4, h5⟩

/-- C22: in a well-formed pair structure, `PairInsert(a, b)` for distinct
leaves takes a pair `p` that is in no list and makes it the head of the lists
of `a` and of `b`; `p` is written as `{prev null, leaf a, next = old head of
a}, {prev null, leaf b, next = old head of b}`; the old head of `a` gets `p` as
`prev` on its thread of `a`, the old head of `b` on its thread of `b`; every
other allocated pair record, every other `pairs` pointer and every other node
field is unchanged, so that the list of `a` is `p` followed by its old list,
likewise for `b`, and the other lists are as before. -/
theorem PairInsert_effect (tree a b : Nat) (w : World) (lv : List Nat) (L : Nat → List Nat)
    (FP : List Nat) (inv : PairInv w tree lv L FP) (ha : a ∈ lv) (hb : b ∈ lv) (hab : a ≠ b) :
    ∃ p w' FP', PairInsert a b tree w = some w' ∧ (∀ x ∈ lv, p ∉ L x) ∧
      (w'.node a).pairs = some p ∧ (w'.node b).pairs = some p ∧
      w'.pair p = ⟨⟨none, some a, (w.node a).pairs⟩, ⟨none, some b, (w.node b).pairs⟩⟩ ∧
      (∀ h, (w.node a).pairs = some h → (thr (w'.pair h) a).prev = some p) ∧
      (∀ h, (w.node b).pairs = some h → (thr (w'.pair h) b).prev = some p) ∧
      (∀ q, q < w.pairBrk → q ≠ p → w'.pair q =
        if (w.node b).pairs = some q then
          (if (w.node a).pairs = some q then (w.pair q).setPrev (some a) (some p)
            else w.pair q).setPrev (some b) (some p)
        else if (w.node a).pairs = some q then (w.pair q).setPrev (some a) (some p)
        else w.pair q) ∧
      (∀ z, z ≠ a → z ≠ b → (w'.node z).pairs = (w.node z).pairs) ∧
      (∀ z, (w'.node z).skel = (w.node z).skel) ∧
      PairInv w' tree lv (upd (upd L a (p :: L a)) b (p :: L b)) FP' ∧
      w'.calls = w.calls := by
  obtain ⟨p, w', FP', hres, hfresh, inv', _, _, _, hcalls⟩ :=
    PairInsert_spec tree a b w lv L FP inv ha hb hab
  obtain ⟨p2, w2, hres2, _, _, hheads, hskel, hrec, hoth⟩ :=
    PairInsert_records tree a b w lv L FP inv ha hb hab
  rw [hres] at hres2
  have hw : w' = w2 := Option.some.inj hres2
  subst hw
  have hla := inv'.list a ha
  rw [upd_other _ _ _ _ hab, upd_same] at hla
  have hlb := inv'.list b hb
  rw [upd_same] at hlb
  have hpa : (w'.node a).pairs = some p := hla.1
  have hpp : p2 = p := by
    have := hheads a
    rw [if_pos (Or.inl rfl), hpa] at this
    exact (Option.some.inj this).symm
  subst hpp
  refine ⟨p2, w', FP', hres, hfresh, hpa, hlb.1, hrec, ?_, ?_, hoth, ?_, hskel, inv', hcalls⟩
  · intro h hh
    have hL : ∃ rest, L a = h :: rest := by
      have := inv.list a ha
      rw [hh] at this
      cases hl : L a with
      | nil => rw [hl] at this; cases this
      | cons q rest =>
        rw [hl] at this
        exact ⟨rest, by rw [Option.some.inj this.1]⟩
    obtain ⟨rest, hrest⟩ := hL
    rw [hrest] at hla
    exact hla.2.2.2.2.2.1
  · intro h hh
    have hL : ∃ rest, L b = h :: rest := by
      have := inv.list b hb
      rw [hh] at this
      cases hl : L b with
      | nil => rw [hl] at this; cases this
      | cons q rest =>
        rw [hl] at this
        exact ⟨rest, by rw [Option.some.inj this.1]⟩
    obtain ⟨rest, hrest⟩ := hL
    rw [hrest] at hlb
    exact hlb.2.2.2.2.2.1
  · intro z hza hzb
    rw [hheads z]
    simp [hza, hzb]

/-- Witness for C22: the leaves 3 and 0 of the tree that holds objects 1, 2
and 4. -/
theorem PairInsert_effect_witness :
    ∃ lv L FP, PairInv threeLeafWorld 0 lv L FP ∧ 3 ∈ lv ∧ 0 ∈ lv ∧
      ∃ p w' FP', PairInsert 3 0 0 threeLeafWorld = some w' ∧ (∀ x ∈ lv, p ∉ L x) ∧
        (w'.node 3).pairs = some p ∧ (w'.node 0).pairs = some p ∧
        w'.pair p =
          ⟨⟨none, some 3, (threeLeafWorld.node 3).pairs⟩,
            ⟨none, some 0, (threeLeafWorld.node 0).pairs⟩⟩ ∧
        PairInv w' 0 lv (upd (upd L 3 (p :: L 3)) 0 (p :: L 0)) FP' := by
  obtain ⟨t, L, FN, FP, wf⟩ := threeLeafWorld_wf
  have hl : ((threeLeafWorld.index 0).leaves.map Prod.snd).Perm t.leaves := wf.2
  have h0 : 0 ∈ t.leaves := hl.mem_iff.1 (by decide!)
  have h3 : 3 ∈ t.leaves := hl.mem_iff.1 (by decide!)
  obtain ⟨p, w', FP', h1, h2, h4, h5, h6, _, _, _, _, _, h7, _⟩ :=
    PairInsert_effect 0 3 0 threeLeafWorld t.leaves L FP wf.1.pairs h3 h0 (by decide)
  exact ⟨t.leaves, L, FP, wf.1.pairs, h3, h0, p, w', FP', h1, h2, h4, h5, h6, h7⟩

/-- Counterexample for C23: in the tree that holds objects 1 and 2, the list of
leaf 0 is the pair 0, which links it to leaf 3.  The insertion of object 4
adds the pair 3, which links leaf 0 to the new leaf 1; the walk from the head
of the list of leaf 0 along `next` then meets pair 3 first and pair 0, which
was inserted before it, last. -/
theorem newest_pair_first :
    walkPairs twoLeafWorld.pair 0 5 (twoLeafWorld.node 0).pairs = [0] ∧
      [(twoLeafWorld.pair 0).a.leaf, (twoLeafWorld.pair 0).b.leaf] = [some 3, some 0] ∧
      (cpBBTreeInsert 20 0 4 4 twoLeafWorld).isSome = true ∧
      walkPairs threeLeafWorld.pair 0 5 (threeLeafWorld.node 0).pairs = [3, 0] ∧
      [(threeLeafWorld.pair 0).a.leaf, (threeLeafWorld.pair 0).b.leaf] = [some 3, some 0] ∧
      [(threeLeafWorld.pair 3).a.leaf, (threeLeafWorld.pair 3).b.leaf] = [some 1, some 0] ∧
      walkPairs threeLeafWorld.pair 0 5 (threeLeafWorld.node 0).pairs ≠ [0, 3] := by
  decide!

/-- C23, amended: a sequence of `PairInsert` calls in a well-formed pair
structure returns; every call makes a pair record that was in no list, and
afterwards the walk from the head of the list of a leaf along `next` meets the
new pairs of the leaf in the reverse order of their insertion, the newest
first, and then the pairs the list held before, in their old order. -/
theorem pairs_newest_first (tree : Nat) (lv : List Nat) (ins : List (Nat × Nat)) (w : World)
    (L : Nat → List Nat) (FP : List Nat) (inv : PairInv w tree lv L FP)
    (hall : ∀ e ∈ ins, e.1 ∈ lv ∧ e.2 ∈ lv ∧ e.1 ≠ e.2) :
    ∃ w' ps FP', pairInsertEach tree ins w = some w' ∧ ps.length = ins.length ∧
      ps.Nodup ∧ (∀ p ∈ ps, ∀ x ∈ lv, p ∉ L x) ∧
      PairInv w' tree lv (fun x => (newOf ps ins x).reverse ++ L x) FP' ∧
      ∀ x ∈ lv, ∀ fuel, ((newOf ps ins x).reverse ++ L x).length < fuel →
        walkPairs w'.pair x fuel (w'.node x).pairs = (newOf ps ins x).reverse ++ L x := by
  obtain ⟨w', ps, FP', hres, hlen, hnd, hfr, inv'⟩ :=
    pairInsertEach_spec tree lv ins w L FP inv hall
  refine ⟨w', ps, FP', hres, hlen, hnd, hfr, inv', ?_⟩
  intro x hx fuel hf
  exact walkPairs_of_list w'.pair x _ none _ fuel (inv'.list x hx) hf

/-- Witness for C23: in the tree that holds objects 1, 2 and 4, `PairInsert`
for the leaves 3 and 0 and then for the leaves 1 and 3. -/
theorem pairs_newest_first_witness :
    ∃ lv L FP, PairInv threeLeafWorld 0 lv L FP ∧
      (∀ e ∈ [(3, 0), (1, 3)], e.1 ∈ lv ∧ e.2 ∈ lv ∧ e.1 ≠ e.2) ∧
      ∃ w' ps FP', pairInsertEach 0 [(3, 0), (1, 3)] threeLeafWorld = some w' ∧
        ps.length = [(3, 0), (1, 3)].length ∧ ps.Nodup ∧ (∀ p ∈ ps, ∀ x ∈ lv, p ∉ L x) ∧
        PairInv w' 0 lv (fun x => (newOf ps [(3, 0), (1, 3)] x).reverse ++ L x) FP' ∧
        ∀ x ∈ lv, ∀ fuel, ((newOf ps [(3, 0), (1, 3)] x).reverse ++ L x).length < fuel →
          walkPairs w'.pair x fuel (w'.node x).pairs =
            (newOf ps [(3, 0), (1, 3)] x).reverse ++ L x := by
  obtain ⟨t, L, FN, FP, wf⟩ := threeLeafWorld_wf
  have hl : ((threeLeafWorld.index 0).leaves.map Prod.snd).Perm t.leaves := wf.2
  have h0 : 0 ∈ t.leaves := hl.mem_iff.1 (by decide!)
  have h1 : 1 ∈ t.leaves := hl.mem_iff.1 (by decide!)
  have h3 : 3 ∈ t.leaves := hl.mem_iff.1 (by decide!)
  have hall : ∀ e ∈ [(3, 0), (1, 3)], e.1 ∈ t.leaves ∧ e.2 ∈ t.leaves ∧ e.1 ≠ e.2 := by
    intro e he
    simp only [List.mem_cons, List.mem_singleton, List.not_mem_nil, or_false] at he
    rcases he with c | c <;> subst c
    · exact ⟨h3, h0, by decide⟩
    · exact ⟨h1, h3, by decide⟩
  exact ⟨t.leaves, L, FP, wf.1.pairs, hall,
    pairs_newest_first 0 t.leaves [(3, 0), (1, 3)] threeLeafWorld L FP wf.1.pairs hall⟩

/-- C28: both pools work alike (the pair pool is threaded through `a.next`,
the node pool through `parent`).  With a free list `p :: ps`, `PairFromPool`
returns `p`, leaves `ps` as the free list and allocates nothing; likewise
`NodeFromPool`.  In any memory, `PairRecycle` of a record followed by
`PairFromPool` returns that record, with the head of the free list and every
other record as before, so that the free list is the old one; likewise for
nodes.  With an empty free list, `PairFromPool` appends one buffer of
`pairCount` records (the quotient `CP_BUFFER_BYTES / sizeof(Pair)`) to
`allocatedBuffers`, returns its first record and leaves exactly the other
`pairCount - 1` records of the buffer, each once, on the free list; likewise
`NodeFromPool` with `nodeCount`. -/
theorem pool_discipline (tree : Nat) (w : World) (p : Nat) (ps : List Nat) (n : Nat)
    (ns : List Nat)
    (hp : Chain (fun q => (w.pair q).a.next) (w.index tree).pooledPairs (p :: ps))
    (hn : Chain (fun i => (w.node i).parent) (w.index tree).pooledNodes (n :: ns))
    (tree0 : Nat) (w0 : World) (hp0 : (w0.index tree0).pooledPairs = none)
    (hn0 : (w0.index tree0).pooledNodes = none) (hpc : 0 < w0.pairCount)
    (hnc : 0 < w0.nodeCount) :
    (∃ w', PairFromPool tree w = some (p, w') ∧ w'.pair = w.pair ∧ w'.pairBrk = w.pairBrk ∧
      (w'.index tree).allocatedBuffers = (w.index tree).allocatedBuffers ∧
      Chain (fun q => (w'.pair q).a.next) (w'.index tree).pooledPairs ps) ∧
    (∃ w', NodeFromPool tree w = some (n, w') ∧ w'.node = w.node ∧ w'.nodeBrk = w.nodeBrk ∧
      (w'.index tree).allocatedBuffers = (w.index tree).allocatedBuffers ∧
      Chain (fun i => (w'.node i).parent) (w'.index tree).pooledNodes ns) ∧
    (∀ (v : World) (t r : Nat), ∃ v', PairFromPool t (PairRecycle t r v) = some (r, v') ∧
      (v'.index t).pooledPairs = (v.index t).pooledPairs ∧
      (∀ q, q ≠ r → v'.pair q = v.pair q) ∧ v'.node = v.node ∧ v'.pairBrk = v.pairBrk ∧
      (v'.index t).allocatedBuffers = (v.index t).allocatedBuffers ∧
      ∀ FP, r ∉ FP → Chain (fun q => (v.pair q).a.next) (v.index t).pooledPairs FP →
        Chain (fun q => (v'.pair q).a.next) (v'.index t).pooledPairs FP) ∧
    (∀ (v : World) (t r : Nat), ∃ v', NodeFromPool t (NodeRecycle t r v) = some (r, v') ∧
      (v'.index t).pooledNodes = (v.index t).pooledNodes ∧
      (∀ q, q ≠ r → v'.node q = v.node q) ∧ v'.pair = v.pair ∧ v'.nodeBrk = v.nodeBrk ∧
      (v'.index t).allocatedBuffers = (v.index t).allocatedBuffers ∧
      ∀ FN, r ∉ FN → Chain (fun i => (v.node i).parent) (v.index t).pooledNodes FN →
        Chain (fun i => (v'.node i).parent) (v'.index t).pooledNodes FN) ∧
    (∃ w' FP', PairFromPool tree0 w0 = some (w0.pairBrk, w') ∧
      (w'.index tree0).allocatedBuffers =
        (w0.index tree0).allocatedBuffers ++ [Buffer.pairs w0.pairBrk] ∧
      w'.pairBrk = w0.pairBrk + w0.pairCount ∧
      Chain (fun q => (w'.pair q).a.next) (w'.index tree0).pooledPairs FP' ∧
      FP'.length = w0.pairCount - 1 ∧ FP'.Nodup ∧
      (∀ q, q ∈ FP' ↔ (w0.pairBrk < q ∧ q < w0.pairBrk + w0.pairCount)) ∧
      (∀ q, q < w0.pairBrk → w'.pair q = w0.pair q)) ∧
    (∃ w' FN', NodeFromPool tree0 w0 = some (w0.nodeBrk, w') ∧
      (w'.index tree0).allocatedBuffers =
        (w0.index tree0).allocatedBuffers ++ [Buffer.nodes w0.nodeBrk] ∧
      w'.nodeBrk = w0.nodeBrk + w0.nodeCount ∧
      Chain (fun i => (w'.node i).parent) (w'.index tree0).pooledNodes FN' ∧
      FN'.length = w0.nodeCount - 1 ∧ FN'.Nodup ∧
      (∀ q, q ∈ FN' ↔ (w0.nodeBrk < q ∧ q < w0.nodeBrk + w0.nodeCount)) ∧
      (∀ q, q < w0.nodeBrk → w'.node q = w0.node q)) := by
  refine ⟨?_, ?_, fun v t r => PairFromPool_lifo t r v, fun v t r => NodeFromPool_lifo t r v,
    PairFromPool_refill tree0 w0 hp0 hpc, NodeFromPool_refill tree0 w0 hn0 hnc⟩
  · obtain ⟨h1, h2⟩ := PairFromPool_pop tree w p ps hp
    refine ⟨_, h1, rfl, rfl, by simp, ?_⟩
    simpa using h2
  · obtain ⟨h1, h2⟩ := NodeFromPool_pop tree w n ns hn
    refine ⟨_, h1, rfl, rfl, by simp, ?_⟩
    simpa using h2

/-- Witness for C28: the tree that holds objects 1, 2 and 4, whose free lists
start with pair 1 and node 7, and the tree that was just created, whose free
lists are empty. -/
theorem pool_discipline_witness :
    ∃ ps ns,
      (∃ w', PairFromPool 0 threeLeafWorld = some (1, w') ∧ w'.pair = threeLeafWorld.pair ∧
        w'.pairBrk = threeLeafWorld.pairBrk ∧
        (w'.index 0).allocatedBuffers = (threeLeafWorld.index 0).allocatedBuffers ∧
        Chain (fun q => (w'.pair q).a.next) (w'.index 0).pooledPairs ps) ∧
      (∃ w', NodeFromPool 0 threeLeafWorld = some (7, w') ∧ w'.node = threeLeafWorld.node ∧
        w'.nodeBrk = threeLeafWorld.nodeBrk ∧
        (w'.index 0).allocatedBuffers = (threeLeafWorld.index 0).allocatedBuffers ∧
        Chain (fun i => (w'.node i).parent) (w'.index 0).pooledNodes ns) ∧
      (∃ w' FP', PairFromPool 0 emptyTreeWorld = some (emptyTreeWorld.pairBrk, w') ∧
        (w'.index 0).allocatedBuffers =
          (emptyTreeWorld.index 0).allocatedBuffers ++ [Buffer.pairs emptyTreeWorld.pairBrk] ∧
        w'.pairBrk = emptyTreeWorld.pairBrk + emptyTreeWorld.pairCount ∧
        Chain (fun q => (w'.pair q).a.next) (w'.index 0).pooledPairs FP' ∧
        FP'.length = emptyTreeWorld.pairCount - 1 ∧ FP'.Nodup ∧
        (∀ q, q ∈ FP' ↔
          (emptyTreeWorld.pairBrk < q ∧
            q < emptyTreeWorld.pairBrk + emptyTreeWorld.pairCount)) ∧
        (∀ q, q < emptyTreeWorld.pairBrk → w'.pair q = emptyTreeWorld.pair q)) := by
  obtain ⟨t, L, FN, FP, wf⟩ := threeLeafWorld_wf
  have hcp := wf.1.pairs.chain
  have hcn := wf.1.pool.chain
  have e1 : (threeLeafWorld.index 0).pooledPairs = some 1 := by decide!
  have e2 : (threeLeafWorld.index 0).pooledNodes = some 7 := by decide!
  rw [e1] at hcp
  rw [e2] at hcn
  obtain ⟨ps, hps, _⟩ := Chain_some _ 1 FP hcp
  obtain ⟨ns, hns, _⟩ := Chain_some _ 7 FN hcn
  rw [hps, ← e1] at hcp
  rw [hns, ← e2] at hcn
  have h := pool_discipline 0 threeLeafWorld 1 ps 7 ns hcp hcn 0 emptyTreeWorld (by decide!)
    (by decide!) (by decide!) (by decide!)
  exact ⟨ps, ns, h.1, h.2.1, h.2.2.2.2.1⟩

/-- C29: for a tight box with `l ≤ r` and `b ≤ t` and any velocity function,
the box `GetBB` returns has `l ≤ r` and `b ≤ t` and contains the tight box.
In a well-formed standalone tree, `LeafNew` returns a leaf whose stored box
contains the tight box of its object, and `LeafUpdate` of a leaf returns
(true or false) with the stored box of the leaf containing the tight box of
its object. -/
theorem stored_box_contains (w0 : World) (tree0 obj0 : Nat)
    (hB : cpBBValid ((w0.index tree0).bbfunc obj0))
    (tree x obj fuel : Nat) (w : World) (h : ∃ sh L FN FP, WF w tree sh L FN FP)
    (hx : LeafOf w tree x) (hfuel : 3 * cpBBTreeCount w tree + w.pairBrk + 2 ≤ fuel) :
    (cpBBValid (GetBB w0 tree0 obj0) ∧
      cpBBContainsBB (GetBB w0 tree0 obj0) ((w0.index tree0).bbfunc obj0) = true) ∧
    (∃ n w', LeafNew tree obj w = some (n, w') ∧ (w'.node n).obj = obj ∧
      cpBBContainsBB (w'.node n).bb ((w'.index tree).bbfunc obj) = true) ∧
    (∃ b w', LeafUpdate fuel x tree w = some (b, w') ∧
      cpBBContainsBB (w'.node x).bb ((w'.index tree).bbfunc (w'.node x).obj) = true) := by
  obtain ⟨sh, L, FN, FP, wf⟩ := h
  rw [wf.count_eq] at hfuel
  refine ⟨⟨GetBB_valid w0 tree0 obj0 hB, GetBB_contains w0 tree0 obj0 hB⟩, ?_, ?_⟩
  · obtain ⟨n, w', FN', hres, _, _, _, _, _, ho, hbb, _, _, _, _, _, _, _, _, _, hout⟩ :=
      LeafNew_spec tree obj w FN wf.1.pool
    refine ⟨n, w', hres, ho, ?_⟩
    rw [hbb, hout.cfg.2.1]
    exact GetBB_contains w tree obj (wf.1.validF obj)
  · have hxs : x ∈ shLeaves sh := (LeafOf_iff w tree sh wf.1.root x).2 hx
    cases sh with
    | none => cases hxs
    | some t =>
      simp only [shLeaves] at hxs hfuel
      have hKx := wf.1.pairs.listLength_le x hxs
      obtain ⟨hstay, hmove⟩ := LeafUpdate_spec tree x t w L FN FP fuel wf.1.weaken hxs
        (by omega) (by omega)
      cases hc : cpBBContainsBB (w.node x).bb ((w.index tree).bbfunc (w.node x).obj) with
      | true => exact ⟨false, w, hstay hc, hc⟩
      | false =>
        obtain ⟨t', w', FN', FP', hres, _, _, hox, hbx, _, _, _, _, _, _, hout⟩ := hmove hc
        refine ⟨true, w', hres, ?_⟩
        rw [hbx, hox, hout.cfg.2.1]
        exact GetBB_contains w tree _ (wf.1.validF _)

/-- Witness for C29: the tree with the velocity function (1,0) and object 1,
and the tree in which object 2 moved away from its leaf, node 3. -/
theorem stored_box_contains_witness :
    (cpBBValid (GetBB velocityWorld 0 1) ∧
      cpBBContainsBB (GetBB velocityWorld 0 1) ((velocityWorld.index 0).bbfunc 1) = true) ∧
    (∃ n w', LeafNew 0 5 farWorld = some (n, w') ∧ (w'.node n).obj = 5 ∧
      cpBBContainsBB (w'.node n).bb ((w'.index 0).bbfunc 5) = true) ∧
    (∃ b w', LeafUpdate 20 3 0 farWorld = some (b, w') ∧
      cpBBContainsBB (w'.node 3).bb ((w'.index 0).bbfunc (w'.node 3).obj) = true) :=
  stored_box_contains velocityWorld 0 1
    (show cpBBValid ((velocityWorld.index 0).bbfunc 1) by
      have e : (velocityWorld.index 0).bbfunc 1 = scenarioBB 1 := by decide!
      rw [e]; exact scenarioBB_valid 1)
    0 3 5 20 farWorld
    (match farWorld_wf with
      | ⟨t, L, FN, FP, wf⟩ => ⟨some t, L, FN, FP, wf⟩)
    farWorld_leafOf (by decide!)

/-- C30: for three or more detached leaves with boxes that have `l ≤ r` and
`b ≤ t`, the partition loop of `partitionNodes` ends with `1 ≤ right ≤ count`
and a permutation of the array; a node with the smallest lower bound on the
split axis fails the test that moves a node to the right; when `right < count`
both parts hold between 1 and `count - 1` nodes; `partitionNodes` is the
fallback on the array if `right = count` and `NodeNew` of the results of the
two recursive calls else; and `partitionNodes` returns a subtree with both
children at every internal node that has each input leaf exactly once among
its leaves. -/
theorem partitionNodes_total (tree : Nat) (w : World) (FN : List Nat) (fuel : Nat)
    (nodes : List Nat) (hlen : 3 ≤ nodes.length) (pool : NodePool w tree FN)
    (hnd : nodes.Nodup)
    (hall : ∀ x ∈ nodes,
      (w.node x).obj ≠ 0 ∧ x < w.nodeBrk ∧ x ∉ FN ∧ cpBBValid (w.node x).bb)
    (hfuel : nodes.length ≤ fuel) :
    (1 ≤ (partitionOf w nodes).2 ∧ (partitionOf w nodes).2 ≤ nodes.length ∧
      (partitionOf w nodes).1.Perm nodes) ∧
    (∀ n ∈ nodes,
      (∀ m ∈ nodes, lowerOn (splitOf w nodes).1 (w.node n).bb ≤
        lowerOn (splitOf w nodes).1 (w.node m).bb) →
      ¬ (cpBBMergedArea (w.node n).bb (splitOf w nodes).2.2 <
        cpBBMergedArea (w.node n).bb (splitOf w nodes).2.1)) ∧
    ((partitionOf w nodes).2 < nodes.length →
      1 ≤ ((partitionOf w nodes).1.take (partitionOf w nodes).2).length ∧
      ((partitionOf w nodes).1.take (partitionOf w nodes).2).length ≤ nodes.length - 1 ∧
      1 ≤ ((partitionOf w nodes).1.drop (partitionOf w nodes).2).length ∧
      ((partitionOf w nodes).1.drop (partitionOf w nodes).2).length ≤ nodes.length - 1) ∧
    (∀ f, partitionNodes (f + 1) tree nodes w =
      if (partitionOf w nodes).2 = nodes.length then
        (insertEach f tree (partitionOf w nodes).1 none w).bind
          (fun r => r.1.map (fun node => (node, r.2)))
      else
        (partitionNodes f tree ((partitionOf w nodes).1.take (partitionOf w nodes).2) w).bind
          (fun r1 => (partitionNodes f tree
              ((partitionOf w nodes).1.drop (partitionOf w nodes).2) r1.2).bind
            (fun r2 => NodeNew tree r1.1 r2.1 r2.2))) ∧
    (∃ t' w', partitionNodes fuel tree nodes w = some (t'.root, w') ∧ Sub w'.node t' ∧
      t'.ids.Nodup ∧ t'.leaves.Perm nodes ∧ ∀ x ∈ nodes, t'.leaves.count x = 1) := by
  have hne : nodes ≠ [] := by
    intro e
    rw [e] at hlen
    simp at hlen
  have hv : ∀ n ∈ nodes, cpBBValid (w.node n).bb := fun n hn => (hall n hn).2.2.2
  obtain ⟨hperm, h1, h2⟩ := partitionOf_spec w nodes hne hv
  have hplen : (partitionOf w nodes).1.length = nodes.length := hperm.length_eq
  refine ⟨⟨h1, h2, hperm⟩, fun n hn hmin => min_lower_stays w nodes hv n hn hmin, ?_, ?_, ?_⟩
  · intro hlt
    rw [List.length_take, List.length_drop, hplen]
    omega
  · intro f
    match nodes, hlen with
    | n0 :: n1 :: n2 :: rest, _ => exact partitionNodes_step f tree n0 n1 n2 rest w
  · obtain ⟨t', w', FN', hres, _, hsub, _, hnd', hperm', _⟩ :=
      partitionNodes_spec tree nodes.length nodes w FN fuel (Nat.le_refl _) hne pool hnd hall
        hfuel
    refine ⟨t', w', hres, hsub, hnd', hperm', ?_⟩
    intro x hx
    exact List.count_eq_one_of_mem (Shape.leaves_nodup t' hnd') (hperm'.mem_iff.2 hx)

/-- Witness for C30: the three leaves of the tree that holds objects 1, 2 and
4, after `cpBBTreeOptimize` has recycled the internal nodes. -/
theorem partitionNodes_total_witness :
    ∃ w1 FN1, SubtreeRecycle 20 0 2 threeLeafWorld = some w1 ∧ NodePool w1 0 FN1 ∧
      (1 ≤ (partitionOf w1 [1, 3, 0]).2 ∧ (partitionOf w1 [1, 3, 0]).2 ≤ 3 ∧
        (partitionOf w1 [1, 3, 0]).1.Perm [1, 3, 0]) ∧
      (∃ t' w', partitionNodes 20 0 [1, 3, 0] w1 = some (t'.root, w') ∧ Sub w'.node t' ∧
        t'.ids.Nodup ∧ t'.leaves.Perm [1, 3, 0] ∧ ∀ x ∈ [1, 3, 0], t'.leaves.count x = 1) := by
  obtain ⟨t, L, FN, FP, wf⟩ := threeLeafWorld_wf
  have hl : (threeLeafWorld.index 0).leaves.map Prod.snd = [1, 3, 0] := by decide!
  have hlen : t.leaves.length = 3 := by
    have h : ((threeLeafWorld.index 0).leaves.map Prod.snd).Perm t.leaves := wf.2
    rw [← h.length_eq, hl]
    rfl
  obtain ⟨w1, FN1, hroot, hres, pool, hnd, _, hall⟩ :=
    recycled_leaves 0 threeLeafWorld t L FN FP 20 wf (by omega)
  have hr2 : (threeLeafWorld.index 0).root = some 2 := by decide!
  rw [hr2] at hroot
  rw [← Option.some.inj hroot] at hres
  rw [hl] at hnd hall
  have hthm := partitionNodes_total 0 w1 FN1 20 [1, 3, 0] (by decide) pool hnd hall (by decide)
  exact ⟨w1, FN1, hres, pool, hthm.1, hthm.2.2.2.2⟩

/-- C25: when tree `tree` has the dynamic partner `d`, `LeafAddPairs` on a
leaf `x` does nothing if `d` is not a tree or has an empty root; if `d` is a
tree whose root holds the shape `s`, it returns without a callback and
registers exactly one new pair for each leaf `D` of `s` whose stored box
intersects the box of `x`, with `x` on thread `a` and `D` on thread `b`, every
such pair at the head of the list of `D`, and the list of every leaf outside
`s`, those of the tree of `x` among them, is unchanged. -/
theorem LeafAddPairs_partner (tree d x : Nat) (w : World) (fuel : Nat)
    (hd : (w.index tree).dynamicIndex = some d) :
    (GetRootIfTree w (some d) = none → LeafAddPairs fuel x tree w = some w) ∧
    (∀ (s : Shape) (lv : List Nat) (L : Nat → List Nat) (FP : List Nat),
      (w.index d).isTree = true → (w.index d).root = some s.root → Sub w.node s →
      Fit w.node s → s.leaves.Nodup → PairInv w d lv L FP → x ∈ lv →
      (∀ y ∈ s.leaves, y ∈ lv) → x ∉ s.leaves → s.height ≤ fuel →
      ∃ w' L' FP', LeafAddPairs fuel x tree w = some w' ∧ PairInv w' d lv L' FP' ∧
        w'.calls = w.calls ∧
        Grown lv x w.pair L w'.pair L' ((hits w.node x s).map (fun D => (D, true))) ∧
        (L' x).length = (L x).length + (hits w.node x s).length ∧
        (∀ D, D ∈ hits w.node x s ↔
          (D ∈ s.leaves ∧ cpBBIntersects (w.node x).bb (w.node D).bb = true)) ∧
        (∀ z, z ≠ x → z ∉ s.leaves → L' z = L z)) := by
  constructor
  · intro h
    simp only [LeafAddPairs, hd, h]
  · intro s lv L FP hT hroot hs hfit hnd inv hx hlv hxs hfuel
    obtain ⟨w', L', FP', hres, inv', _, hcalls, hg⟩ :=
      MarkLeafQuery_left d x QueryFunc.null none lv hx s w L FP fuel inv hs hfit hlv hxs hnd
        hfuel
    rw [insOf_left] at hg
    refine ⟨w', L', FP', ?_, inv', hcalls, hg, ?_, ?_, ?_⟩
    · simp only [LeafAddPairs, hd, GetRootIfTree, hT, if_true, hroot]
      exact hres
    · rw [hg.length, List.length_map]
    · intro D
      simp [hits]
    · intro z hzx hzs
      refine hg.keep z hzx ?_
      intro hm
      simp only [List.map_map, List.mem_map, Function.comp] at hm
      obtain ⟨y, hy, rfl⟩ := hm
      exact hzs (List.mem_filter.1 hy).1

theorem metWorld_pairInv : PairInv metWorld 1 [4, 0] (fun _ => []) [] := by
  refine ⟨?_, fun _ _ => List.nodup_nil, ?_, ?_, List.nodup_nil, ?_, ?_, ?_, by decide!⟩
  · intro x hx
    simp only [List.mem_cons, List.mem_singleton, List.not_mem_nil, or_false] at hx
    rcases hx with e | e <;> subst e
    · show (metWorld.node 4).pairs = none
      decide!
    · show (metWorld.node 0).pairs = none
      decide!
  · intro x _ p hp
    cases hp
  · show (metWorld.index 1).pooledPairs = none
    decide!
  · intro x _ p hp
    cases hp
  · intro p hp
    cases hp
  · intro x _ p hp
    cases hp

/-- Witness for C25: in `loneWorld` the dynamic partner of the static tree is
empty, and in `metWorld` the leaf 4 of the static tree (object 5, moved onto
object 4) meets the only leaf 0 of the dynamic tree. -/
theorem LeafAddPairs_partner_witness :
    (GetRootIfTree loneWorld (some 1) = none ∧ LeafAddPairs 20 0 0 loneWorld = some loneWorld) ∧
    (hits metWorld.node 4 (Shape.leaf 0) = [0] ∧
      ∃ w' L' FP', LeafAddPairs 20 4 0 metWorld = some w' ∧ PairInv w' 1 [4, 0] L' FP' ∧
        w'.calls = metWorld.calls ∧
        Grown [4, 0] 4 metWorld.pair (fun _ => []) w'.pair L'
          ((hits metWorld.node 4 (Shape.leaf 0)).map (fun D => (D, true))) ∧
        (L' 4).length = ([] : List Nat).length + (hits metWorld.node 4 (Shape.leaf 0)).length ∧
        (∀ D, D ∈ hits metWorld.node 4 (Shape.leaf 0) ↔
          (D ∈ (Shape.leaf 0).leaves ∧
            cpBBIntersects (metWorld.node 4).bb (metWorld.node D).bb = true)) ∧
        (∀ z, z ≠ 4 → z ∉ (Shape.leaf 0).leaves → L' z = [])) :=
  ⟨⟨by decide!, (LeafAddPairs_partner 0 1 0 loneWorld 20 (by decide!)).1 (by decide!)⟩,
    by decide!,
    (LeafAddPairs_partner 0 1 4 metWorld 20 (by decide!)).2 (Shape.leaf 0) [4, 0] (fun _ => [])
      [] (by decide!) (by decide!) (show (metWorld.node 0).obj ≠ 0 by decide!) trivial
      (by simp [Shape.leaves]) metWorld_pairInv (by simp) (by simp [Shape.leaves])
      (by simp [Shape.leaves]) (by decide)⟩

/-- C26, counterexample: the tree of `nudgeWorld` has no dynamic partner;
object 2 has moved, `LeafUpdate` on its leaf 3 returns true and leaves the pair
lists of the leaves 3 and 0 empty, and `LeafAddPairs` on leaf 3 then makes the
pair record 0 with the leaves 3 and 0 at its ends and puts it at the head of
both lists; `cpBBTreeReindexObject` runs exactly these two calls. -/
theorem LeafAddPairs_makes_pair :
    (nudgeWorld.index 0).dynamicIndex = none ∧
      (LeafUpdate 20 3 0 nudgeWorld).map Prod.fst = some true ∧
      (nudgedWorld.index 0).dynamicIndex = none ∧ (nudgedWorld.node 3).obj = 2 ∧
      [(nudgedWorld.node 3).pairs, (nudgedWorld.node 0).pairs] = [none, none] ∧
      (LeafAddPairs 20 3 0 nudgedWorld).map
        (fun w => ([(w.node 3).pairs, (w.node 0).pairs], (w.pair 0).a.leaf, (w.pair 0).b.leaf)) =
        some ([some 0, some 0], some 3, some 0) ∧
      (cpBBTreeReindexObject 20 0 2 2 nudgeWorld).map
        (fun w => [(w.node 3).pairs, (w.node 0).pairs]) = some [some 0, some 0] := by
  decide!

/-- C26, amended: in a standalone tree (no dynamic and no static partner)
`LeafAddPairs` on a leaf `x` returns and makes no callback; if the leaf carries
the current stamp, the list of `x` grows by one new pair for each leaf that
the walk of `MarkLeaf` up the path of `x` selects, so the lists are all
unchanged exactly in case the walk selects no leaf, and if the leaf carries an
older stamp nothing changes at all. -/
theorem LeafAddPairs_alone (tree x : Nat) (fs : List Frame) (w : World) (L : Nat → List Nat)
    (FN FP : List Nat) (fuel : Nat)
    (ok : TreeOK 1 w tree (some (plug fs (Shape.leaf x))) L FN FP)
    (hfuel : 2 * (plug fs (Shape.leaf x)).leaves.length + (L x).length ≤ fuel) :
    (w.index tree).dynamicIndex = none ∧
    ∃ w' L' FP', LeafAddPairs fuel x tree w = some w' ∧
      PairInv w' tree (plug fs (Shape.leaf x)).leaves L' FP' ∧ w'.calls = w.calls ∧
      ((w.node x).stamp = GetStamp w tree →
        Grown (plug fs (Shape.leaf x)).leaves x w.pair L w'.pair L' (upIns w.node x fs) ∧
        (L' x).length = (L x).length + (upIns w.node x fs).length ∧
        ((upIns w.node x fs = [] ↔ L' x = L x) ∧ (upIns w.node x fs = [] → ∀ z, L' z = L z))) ∧
      ((w.node x).stamp ≠ GetStamp w tree → w' = w ∧ L' = L) := by
  have hh := Shape.height_le_leaves (plug fs (Shape.leaf x))
  refine ⟨ok.noDynamic, ?_⟩
  rw [GetStamp_alone w tree ok.noDynamic]
  obtain ⟨w', L', FP', hres, inv', _, hmoved, hstill⟩ :=
    MarkLeaf_spec tree x QueryFunc.void (by decide) fs w _ L FP fuel
      ok.noDynamic ok.pairs ok.root.2.2 ok.root.2.1 ok.nodup (ok.fit _ rfl) (fun y hy => hy)
      (fun _ => by omega) (fun _ => by omega)
  have hw : ∀ cs, w.addCalls (logOf QueryFunc.void cs) = w := fun cs => by
    simp [World.addCalls, logOf]
  refine ⟨w', L', FP', ?_, inv', ?_, ?_, ?_⟩
  · simp only [LeafAddPairs, ok.noDynamic, ok.noStatic, GetRootIfTree_none]
    exact hres
  · by_cases hst : (w.node x).stamp = (w.index tree).stamp
    · rw [(hmoved hst).1]; simp [logOf]
    · rw [(hstill hst).1, hw]
  · intro hst
    have hg := (hmoved hst).2
    refine ⟨hg, hg.length, ⟨fun e => ?_, fun e => ?_⟩, fun e => ?_⟩
    · rw [e] at hg; exact hg.same x
    · have hl := hg.length
      rw [e] at hl
      exact List.length_eq_zero.1 (by omega)
    · rw [e] at hg; exact hg.same
  · intro hst
    obtain ⟨e1, e2, _⟩ := hstill hst
    exact ⟨by rw [e1, hw], e2⟩

/-- Witness for C26: the leaf 3 of `nudgedWorld`, which `LeafUpdate` has just
stamped. -/
theorem LeafAddPairs_alone_witness :
    ∃ fs L FN FP, TreeOK 1 nudgedWorld 0 (some (plug fs (Shape.leaf 3))) L FN FP ∧
      ((nudgedWorld.index 0).dynamicIndex = none ∧
      ∃ w' L' FP', LeafAddPairs 20 3 0 nudgedWorld = some w' ∧
        PairInv w' 0 (plug fs (Shape.leaf 3)).leaves L' FP' ∧ w'.calls = nudgedWorld.calls ∧
        ((nudgedWorld.node 3).stamp = GetStamp nudgedWorld 0 →
          Grown (plug fs (Shape.leaf 3)).leaves 3 nudgedWorld.pair L w'.pair L'
            (upIns nudgedWorld.node 3 fs) ∧
          (L' 3).length = (L 3).length + (upIns nudgedWorld.node 3 fs).length ∧
          ((upIns nudgedWorld.node 3 fs = [] ↔ L' 3 = L 3) ∧
            (upIns nudgedWorld.node 3 fs = [] → ∀ z, L' z = L z))) ∧
        ((nudgedWorld.node 3).stamp ≠ GetStamp nudgedWorld 0 → w' = nudgedWorld ∧ L' = L)) := by
  obtain ⟨t, L, FN, FP, wf⟩ := nudgeWorld_wf
  have hl : ((nudgeWorld.index 0).leaves.map Prod.snd).Perm t.leaves := wf.2
  have h3 : 3 ∈ t.leaves := hl.mem_iff.1 (by decide!)
  have hc := wf.count_eq
  have hc2 : cpBBTreeCount nudgeWorld 0 = 2 := by decide!
  rw [hc2] at hc
  simp only [shLeaves] at hc
  have hK := wf.1.pairs.listLength_le 3 h3
  have hb : nudgeWorld.pairBrk = 4 := by decide!
  obtain ⟨t', w', FN', FP', hres, ok', hperm, _⟩ :=
    (LeafUpdate_spec 0 3 t nudgeWorld L FN FP 20 wf.1.weaken h3 (by omega) (by omega)).2
      (by decide!)
  have e : nudgedWorld = w' := by
    unfold nudgedWorld
    rw [hres]
    rfl
  obtain ⟨fs, hfs⟩ := exists_path 3 t' (hperm.mem_iff.2 h3)
  rw [← e, hfs] at ok'
  have hlen : (plug fs (Shape.leaf 3)).leaves.length = 2 := by
    rw [← hfs, hperm.length_eq, ← hc]
  exact ⟨fs, _, FN', FP', ok',
    LeafAddPairs_alone 0 3 fs nudgedWorld _ FN' FP' 20 ok' (by rw [hlen]; simp)⟩

theorem sameBB_valid (o : Nat) : cpBBValid (sameBB o) := by
  constructor <;> norm_num [sameBB]

theorem rowBB_valid (o : Nat) : cpBBValid (rowBB o) := by
  unfold rowBB
  split
  · constructor <;> norm_num
  · split
    · constructor <;> norm_num
    · split
      · constructor <;> norm_num
      · constructor <;> norm_num

theorem sameWorld_reached : Reached id sameBB 0 (leafWorld sameBB 4) := by
  have r0 : Reached id sameBB 0 (leafWorld sameBB 0) :=
    Reached.new World.init (by decide) (by decide) sameBB_valid
  have r1 : Reached id sameBB 0 (leafWorld sameBB 1) :=
    Reached.step 0 _ _ (Op.insert 1 1) 20 r0 ⟨by decide, rfl, by decide!⟩ (by decide!)
      (getD_of_isSome _ World.init (by decide!))
  have r2 : Reached id sameBB 0 (leafWorld sameBB 2) :=
    Reached.step 0 _ _ (Op.insert 2 2) 20 r1 ⟨by decide, rfl, by decide!⟩ (by decide!)
      (getD_of_isSome _ World.init (by decide!))
  have r3 : Reached id sameBB 0 (leafWorld sameBB 3) :=
    Reached.step 0 _ _ (Op.insert 3 3) 20 r2 ⟨by decide, rfl, by decide!⟩ (by decide!)
      (getD_of_isSome _ World.init (by decide!))
  exact Reached.step 0 _ _ (Op.insert 4 4) 20 r3 ⟨by decide, rfl, by decide!⟩ (by decide!)
    (getD_of_isSome _ World.init (by decide!))

theorem rowWorld_reached : Reached id rowBB 0 (leafWorld rowBB 4) := by
  have r0 : Reached id rowBB 0 (leafWorld rowBB 0) :=
    Reached.new World.init (by decide) (by decide) rowBB_valid
  have r1 : Reached id rowBB 0 (leafWorld rowBB 1) :=
    Reached.step 0 _ _ (Op.insert 1 1) 20 r0 ⟨by decide, rfl, by decide!⟩ (by decide!)
      (getD_of_isSome _ World.init (by decide!))
  have r2 : Reached id rowBB 0 (leafWorld rowBB 2) :=
    Reached.step 0 _ _ (Op.insert 2 2) 20 r1 ⟨by decide, rfl, by decide!⟩ (by decide!)
      (getD_of_isSome _ World.init (by decide!))
  have r3 : Reached id rowBB 0 (leafWorld rowBB 3) :=
    Reached.step 0 _ _ (Op.insert 3 3) 20 r2 ⟨by decide, rfl, by decide!⟩ (by decide!)
      (getD_of_isSome _ World.init (by decide!))
  exact Reached.step 0 _ _ (Op.insert 4 4) 20 r3 ⟨by decide, rfl, by decide!⟩ (by decide!)
    (getD_of_isSome _ World.init (by decide!))

/-- C27, counterexample: four objects are inserted into a new tree and the
tree is optimized.  With the unit boxes at x = 0, 1, 2 and 10 `partitionNodes`
splits the four leaves three to one and the three leaves two to one, never
falling back; with four identical boxes it moves no leaf and falls back to
`SubtreeInsert`, which descends into child `a` every time.  Both times the
root of the result has a child of height 3 and a child of height 1 (a leaf has
height 1), so the result is not balanced. -/
theorem optimize_chain :
    (Reached id rowBB 0 (leafWorld rowBB 4) ∧
      ((leafWorld rowBB 4).index 0).leaves.map Prod.snd = [7, 1, 3, 0] ∧
      partitionOf (recycledWorld rowBB 4) [7, 1, 3, 0] = ([0, 1, 3, 7], 3) ∧
      partitionOf (recycledWorld rowBB 4) [0, 1, 3] = ([0, 3, 1], 2) ∧
      (cpBBTreeOptimize 20 0 (leafWorld rowBB 4)).bind (fun w => treeShape w 20 0) =
        some (Shape.node 6
          (Shape.node 4 (Shape.node 2 (Shape.leaf 0) (Shape.leaf 3)) (Shape.leaf 1))
          (Shape.leaf 7)) ∧
      ¬ (Shape.node 6
          (Shape.node 4 (Shape.node 2 (Shape.leaf 0) (Shape.leaf 3)) (Shape.leaf 1))
          (Shape.leaf 7)).Balanced) ∧
    (Reached id sameBB 0 (leafWorld sameBB 4) ∧
      ((leafWorld sameBB 4).index 0).leaves.map Prod.snd = [7, 1, 3, 0] ∧
      partitionOf (recycledWorld sameBB 4) [7, 1, 3, 0] = ([7, 1, 3, 0], 4) ∧
      (cpBBTreeOptimize 20 0 (leafWorld sameBB 4)).bind (fun w => treeShape w 20 0) =
        some (Shape.node 2
          (Shape.node 4 (Shape.node 6 (Shape.leaf 0) (Shape.leaf 3)) (Shape.leaf 1))
          (Shape.leaf 7)) ∧
      ¬ (Shape.node 2
          (Shape.node 4 (Shape.node 6 (Shape.leaf 0) (Shape.leaf 3)) (Shape.leaf 1))
          (Shape.leaf 7)).Balanced) ∧
    (Shape.node 4 (Shape.node 6 (Shape.leaf 0) (Shape.leaf 3)) (Shape.leaf 1)).height = 3 ∧
    (Shape.leaf 7).height = 1 :=
  ⟨⟨rowWorld_reached, by decide!, by decide!, by decide!, by decide!, by decide⟩,
    ⟨sameWorld_reached, by decide!, by decide!, by decide!, by decide⟩, by decide, by decide⟩

/-- C27, amended: on a non-empty well-formed standalone tree
`cpBBTreeOptimize` returns; the root then holds a shape over the same leaves,
the tree is well formed, the pair records are untouched, and the shape is
balanced if the tree has at most three leaves. -/
theorem optimize_shape (tree : Nat) (w : World) (fuel : Nat)
    (h : ∃ t L FN FP, WF w tree (some t) L FN FP) (hfuel : cpBBTreeCount w tree ≤ fuel) :
    ∃ w' t', cpBBTreeOptimize fuel tree w = some w' ∧ RootRep w' tree (some t') ∧
      treeShape w' fuel tree = some t' ∧ (∃ L FN FP, WF w' tree (some t') L FN FP) ∧
      (∀ n, LeafOf w' tree n ↔ LeafOf w tree n) ∧
      t'.leaves.length = cpBBTreeCount w tree ∧ w'.pair = w.pair ∧
      (cpBBTreeCount w tree ≤ 3 → t'.Balanced) := by
  obtain ⟨t, L, FN, FP, wf⟩ := h
  rw [wf.count_eq] at hfuel ⊢
  obtain ⟨sh', w', FN', hres, wf', hperm, _, hpair, _⟩ :=
    cpBBTreeOptimize_ok tree w (some t) L FN FP fuel wf hfuel
  cases sh' with
  | none =>
    have hl := hperm.length_eq
    have h1 := Shape.height_le_leaves t
    have h2 := Shape.one_le_height t
    simp only [shLeaves, List.length_nil] at hl
    omega
  | some t' =>
    simp only [shLeaves] at hperm hfuel ⊢
    have hroot : RootRep w' tree (some t') := wf'.1.root
    have hht : t'.height ≤ fuel := by
      have := Shape.height_le_leaves t'
      have := hperm.length_eq
      omega
    refine ⟨w', t', hres, hroot, ?_, ⟨L, FN', FP, wf'⟩, ?_, hperm.length_eq, hpair, ?_⟩
    · unfold treeShape
      rw [hroot.1]
      exact shapeAt_of_Sub w'.node t' fuel hroot.2.2 hht
    · intro n
      rw [← LeafOf_iff w' tree (some t') wf'.1.root n, ← LeafOf_iff w tree (some t) wf.1.root n]
      exact hperm.mem_iff
    · intro h3
      exact balanced_of_small t' (by rw [hperm.length_eq]; exact h3)

/-- Witness for C27: the tree that holds objects 1 and 2. -/
theorem optimize_shape_witness :
    ∃ w' t', cpBBTreeOptimize 20 0 twoLeafWorld = some w' ∧ RootRep w' 0 (some t') ∧
      treeShape w' 20 0 = some t' ∧ (∃ L FN FP, WF w' 0 (some t') L FN FP) ∧
      (∀ n, LeafOf w' 0 n ↔ LeafOf twoLeafWorld 0 n) ∧
      t'.leaves.length = cpBBTreeCount twoLeafWorld 0 ∧ w'.pair = twoLeafWorld.pair ∧
      (cpBBTreeCount twoLeafWorld 0 ≤ 3 → t'.Balanced) :=
  optimize_shape 0 twoLeafWorld 20 twoLeafWorld_wf (by decide)

theorem NodeReplaceChild_entry (fuel parent child value tree : Nat) (w : World)
    (hleaf : NodeIsLeaf w parent = false)
    (hch : some child = (w.node parent).a ∨ some child = (w.node parent).b) :
    NodeReplaceChild fuel parent child (some value) tree w =
      refitLoop fuel (some parent) (replaceEntry parent child value tree w) := by
  unfold NodeReplaceChild replaceEntry
  rw [hleaf]
  simp only [Bool.false_eq_true, if_false, hch, not_true_eq_false]
  split <;> rfl

/-- C31: in a well-formed tree, for a leaf `x` whose parent `f1.id` exists
and is not the root, `SubtreeRemove` reaches `NodeReplaceChild` with the
grandparent `f2.id`, which is not a leaf and has the parent as its child `a` or
`b`, and with a non-null `value` (the sibling of the leaf); `NodeReplaceChild`
returns.  Its loop starts in the memory `replaceEntry`, visits exactly the
internal nodes of the path from the grandparent to the root (the chain of the
parent pointers, which ends at the root), each of which is not a leaf and has
both children, and writes boxes only. -/
theorem NodeReplaceChild_asserts (tree x : Nat) (f1 f2 : Frame) (rest : List Frame)
    (w : World) (FN : List Nat) (fuel : Nat) (pool : NodePool w tree FN)
    (hs : Sub w.node (plug (f1 :: f2 :: rest) (Shape.leaf x)))
    (hroot : (w.node (plug (f1 :: f2 :: rest) (Shape.leaf x)).root).parent = none)
    (hnd : (plug (f1 :: f2 :: rest) (Shape.leaf x)).ids.Nodup)
    (hfit : ∀ f ∈ f1 :: f2 :: rest, Fit w.node f.sib)
    (hlive : ∀ i ∈ (plug (f1 :: f2 :: rest) (Shape.leaf x)).ids, i < w.nodeBrk ∧ i ∉ FN)
    (hfuel : (f2 :: rest).length ≤ fuel) :
    (w.node x).parent = some f1.id ∧
    f1.id ≠ (plug (f1 :: f2 :: rest) (Shape.leaf x)).root ∧
    (w.node f1.id).parent = some f2.id ∧
    NodeIsLeaf w f2.id = false ∧
    (some f1.id = (w.node f2.id).a ∨ some f1.id = (w.node f2.id).b) ∧
    NodeOther w f1.id x = some f1.sib.root ∧
    ∃ w', NodeReplaceChild fuel f2.id f1.id (NodeOther w f1.id x) tree w = some w' ∧
      SubtreeRemove fuel (some (plug (f1 :: f2 :: rest) (Shape.leaf x)).root) x tree w =
        some (some (plug (f1 :: f2 :: rest) (Shape.leaf x)).root, w') ∧
      refitLoop fuel (some f2.id) (replaceEntry f2.id f1.id f1.sib.root tree w) = some w' ∧
      Chain (fun i => ((replaceEntry f2.id f1.id f1.sib.root tree w).node i).parent)
        (some f2.id) ((f2 :: rest).map Frame.id) ∧
      (∀ n ∈ (f2 :: rest).map Frame.id,
        NodeIsLeaf (replaceEntry f2.id f1.id f1.sib.root tree w) n = false ∧
        ∃ a b, ((replaceEntry f2.id f1.id f1.sib.root tree w).node n).a = some a ∧
          ((replaceEntry f2.id f1.id f1.sib.root tree w).node n).b = some b) ∧
      (∀ j, ((replaceEntry f2.id f1.id f1.sib.root tree w).node j).sameButBB (w'.node j)) := by
  obtain ⟨w', hres, _, hsub', hroot', _⟩ :=
    SubtreeRemove_deep tree x f1 f2 rest w FN fuel pool hs hroot hnd hfit hlive hfuel
  have hs' := (Sub_plug w.node (f1 :: f2 :: rest) (Shape.leaf x)).1 hs
  obtain ⟨_, hctx⟩ := hs'
  simp only [Shape.root_leaf] at hctx
  obtain ⟨_, hctx2⟩ := (CtxSub_cons w.node f1 (f2 :: rest) x).1 hctx
  have hnd' := (plug_nodup (f1 :: f2 :: rest) (Shape.leaf x)).1 hnd
  obtain ⟨_, hndc, hdisj⟩ := hnd'
  have hx_ctx : x ∉ ctxIds (f1 :: f2 :: rest) := hdisj x (by simp [Shape.ids])
  have hA := List.nodup_cons.1 hndc
  have hp_ctx2 : f1.id ∉ ctxIds (f2 :: rest) := fun h => hA.1 (List.mem_append_right _ h)
  have hxs : x ∉ f1.sib.ids := fun h => hx_ctx (by simp [ctxIds, h])
  have hxc : x ≠ f1.sib.root := fun e => hxs (e ▸ Shape.root_mem_ids f1.sib)
  have hroot_eq : (plug (f1 :: f2 :: rest) (Shape.leaf x)).root = ctxRoot rest f2.id := by
    rw [plug_root]; rfl
  have hroot_eq' : (plug (f2 :: rest) f1.sib).root = ctxRoot rest f2.id := by
    rw [plug_root]; rfl
  have hroot_ctx : ctxRoot rest f2.id ∈ ctxIds (f2 :: rest) :=
    map_id_subset_ctxIds _ _ (ctxRoot_mem rest f2 f1.id)
  have hp_root : f1.id ≠ ctxRoot rest f2.id := fun e => hp_ctx2 (e ▸ hroot_ctx)
  have hx_root : x ≠ ctxRoot rest f2.id := fun e => hx_ctx (by
    rw [e]; simp only [ctxIds]
    exact List.mem_cons_of_mem _ (List.mem_append_right _ hroot_ctx))
  have hparx : (w.node x).parent = some f1.id := by
    cases f1 with
    | left i s' => exact hctx.2.2.2.1
    | right i s' => exact hctx.2.2.2.2.1
  have hparp : (w.node f1.id).parent = some f2.id := by
    cases f2 with
    | left i s' => exact hctx2.2.2.2.1
    | right i s' => exact hctx2.2.2.2.2.1
  have hother : NodeOther w f1.id x = some f1.sib.root := by
    rw [NodeOther_eq]
    exact CtxSub_other w.node f1 (f2 :: rest) x hctx hxc
  obtain ⟨hgobj, hgch⟩ := CtxSub_head_children w.node f2 rest f1.id hctx2
  have hleaf : NodeIsLeaf w f2.id = false := by simp [NodeIsLeaf, hgobj]
  have hch : some f1.id = (w.node f2.id).a ∨ some f1.id = (w.node f2.id).b := by
    rcases hgch with ⟨h1, _, _⟩ | ⟨_, h2, _⟩
    · exact Or.inl h1.symm
    · exact Or.inr h2.symm
  rw [hroot_eq] at hres ⊢
  rw [hroot_eq'] at hres
  have hx1 : ¬ (some x = some (ctxRoot rest f2.id)) := fun e => hx_root (Option.some.inj e)
  have hp1 : ¬ (some f1.id = some (ctxRoot rest f2.id)) := fun e => hp_root (Option.some.inj e)
  have hrep : NodeReplaceChild fuel f2.id f1.id (NodeOther w f1.id x) tree w = some w' := by
    simp only [SubtreeRemove, hx1, if_false, hparx, hp1, hparp] at hres
    cases hr : NodeReplaceChild fuel f2.id f1.id (NodeOther w f1.id x) tree w with
    | none => rw [hr] at hres; cases hres
    | some w1 =>
      rw [hr] at hres
      simp only [Option.some.injEq, Prod.mk.injEq, true_and] at hres
      rw [hres]
  have hloop : refitLoop fuel (some f2.id) (replaceEntry f2.id f1.id f1.sib.root tree w) =
      some w' := by
    rw [← NodeReplaceChild_entry fuel f2.id f1.id f1.sib.root tree w hleaf hch, ← hother]
    exact hrep
  have hsame := refitLoop_sameButBB _ _ _ _ hloop
  have hctx' : CtxSub w'.node (f2 :: rest) f1.sib.root :=
    ((Sub_plug w'.node (f2 :: rest) f1.sib).1 hsub').2
  have hroot2 : (w'.node (ctxRoot (f2 :: rest) f1.sib.root)).parent = none := by
    rw [← plug_root]; exact hroot'
  have hchain := CtxSub_chain w'.node (f2 :: rest) f1.sib.root hctx' hroot2
  refine ⟨hparx, hp_root, hparp, hleaf, hch, hother, w', hrep, hres, hloop, ?_, ?_, hsame⟩
  · refine Chain_congr _ _ _ _ ?_ hchain
    intro n _
    exact ((sameButBB_fields (hsame n)).2.2.2).symm
  · intro n hn
    obtain ⟨ho, ha, hb, _⟩ := sameButBB_fields (hsame n)
    have hobj := CtxSub_obj w'.node (f2 :: rest) f1.sib.root hctx' n hn
    obtain ⟨a, b, h1, h2⟩ := CtxSub_children w'.node (f2 :: rest) f1.sib.root hctx' n hn
    refine ⟨?_, a, b, ?_, ?_⟩
    · simp [NodeIsLeaf, ← ho, hobj]
    · rw [← ha]; exact h1
    · rw [← hb]; exact h2

/-- Witness for C31: the leaf 1 of the tree that holds objects 1, 2 and 4; its
parent is node 4, its grandparent the root 2. -/
theorem NodeReplaceChild_asserts_witness :
    ∃ FN, NodePool threeLeafWorld 0 FN ∧
      (threeLeafWorld.node 1).parent = some 4 ∧
      (threeLeafWorld.node 4).parent = some 2 ∧
      NodeIsLeaf threeLeafWorld 2 = false ∧
      (some 4 = (threeLeafWorld.node 2).a ∨ some 4 = (threeLeafWorld.node 2).b) ∧
      NodeOther threeLeafWorld 4 1 = some 0 ∧
      ∃ w', NodeReplaceChild 20 2 4 (NodeOther threeLeafWorld 4 1) 0 threeLeafWorld = some w' ∧
        SubtreeRemove 20 (some 2) 1 0 threeLeafWorld = some (some 2, w') ∧
        refitLoop 20 (some 2) (replaceEntry 2 4 0 0 threeLeafWorld) = some w' ∧
        Chain (fun i => ((replaceEntry 2 4 0 0 threeLeafWorld).node i).parent) (some 2) [2] := by
  obtain ⟨t, L, FN, FP, wf⟩ := threeLeafWorld_wf
  have hr : (threeLeafWorld.index 0).root = some t.root := wf.1.root.1
  have hr2 : (threeLeafWorld.index 0).root = some 2 := by decide!
  have hroot : t.root = 2 := by
    rw [hr2] at hr
    exact (Option.some.inj hr).symm
  have hc := wf.count_eq
  have hc2 : cpBBTreeCount threeLeafWorld 0 = 3 := by decide!
  rw [hc2] at hc
  simp only [shLeaves] at hc
  have hh := Shape.height_le_leaves t
  have h1 := shapeAt_of_Sub threeLeafWorld.node t 8 wf.1.root.2.2 (by omega)
  rw [hroot] at h1
  have h2 : shapeAt threeLeafWorld.node 8 2 =
      some (plug [Frame.left 4 (Shape.leaf 0), Frame.right 2 (Shape.leaf 3)] (Shape.leaf 1)) := by
    decide!
  rw [h2] at h1
  have ht := (Option.some.inj h1).symm
  subst ht
  have hfit : ∀ f ∈ [Frame.left 4 (Shape.leaf 0), Frame.right 2 (Shape.leaf 3)],
      Fit threeLeafWorld.node f.sib := by
    intro f hf
    simp only [List.mem_cons, List.mem_singleton, List.not_mem_nil, or_false] at hf
    rcases hf with e | e <;> subst e <;> trivial
  obtain ⟨a1, _, a3, a4, a5, a6, w', b1, b2, b3, b4, _⟩ :=
    NodeReplaceChild_asserts 0 1 (Frame.left 4 (Shape.leaf 0)) (Frame.right 2 (Shape.leaf 3)) []
      threeLeafWorld FN 20 wf.1.pool wf.1.root.2.2 wf.1.root.2.1 wf.1.nodup hfit wf.1.live
      (by decide)
  exact ⟨FN, wf.1.pool, a1, a3, a4, a5, a6, w', b1, b2, b3, b4⟩

/-- C32: on a sound standalone tree every public mutation returns, and
afterwards, with `FN` the node free list and `FP` the pair free list (the
chains from `pooledNodes` and `pooledPairs`): no node of `FN` is reachable
from the root or listed in the hash index; no pair of `FP` is in the pair list
of a leaf; and the reachable internal nodes (the reachable nodes without an
object) are the nodes of a duplicate-free list `inner` with
`inner.length + 1 = cpBBTreeCount`, if the root is not null. -/
theorem no_use_after_recycle (hash : Nat → Nat) (tree : Nat) (op : Op) (w : World) (fuel : Nat)
    (h : ∃ sh L FN FP, Sound hash w tree sh L FN FP) (hpre : op.pre hash w tree)
    (hfuel : 3 * cpBBTreeCount w tree + w.pairBrk + 2 ≤ fuel) :
    ∃ (w' : World) (FN FP : List Nat) (L : Nat → List Nat) (inner : List Nat),
      op.run fuel tree w = some w' ∧
      Chain (fun i => (w'.node i).parent) (w'.index tree).pooledNodes FN ∧
      Chain (fun p => (w'.pair p).a.next) (w'.index tree).pooledPairs FP ∧
      (∀ n ∈ FN, ¬ Reach w'.node (w'.index tree).root n ∧
        n ∉ (w'.index tree).leaves.map Prod.snd) ∧
      (∀ x, LeafOf w' tree x →
        ListFrom w'.pair x none (w'.node x).pairs (L x) ∧ ∀ p ∈ FP, p ∉ L x) ∧
      inner.Nodup ∧
      (∀ n, n ∈ inner ↔ (Reach w'.node (w'.index tree).root n ∧ (w'.node n).obj = 0)) ∧
      ((w'.index tree).root ≠ none → inner.length + 1 = cpBBTreeCount w' tree) := by
  obtain ⟨sh, L, FN, FP, hs⟩ := h
  obtain ⟨w', sh', L', FN', FP', hres, hs', _⟩ :=
    Op.run_sound hash tree op w sh L FN FP fuel hs hpre hfuel
  have ok := hs'.wf.1
  have hl : ((w'.index tree).leaves.map Prod.snd).Perm (shLeaves sh') := hs'.wf.2
  have hfree : ∀ n ∈ FN', ¬ Reach w'.node (w'.index tree).root n ∧
      n ∉ (w'.index tree).leaves.map Prod.snd := by
    intro n hn
    have hnot : n ∉ shIds sh' := fun hm => (ok.live n hm).2 hn
    refine ⟨fun hre => hnot ((Reach_iff w' tree sh' ok.root n).1 hre), fun hm => hnot ?_⟩
    exact shLeaves_sub_shIds sh' n (hl.mem_iff.1 hm)
  have hpairs : ∀ x, LeafOf w' tree x →
      ListFrom w'.pair x none (w'.node x).pairs (L' x) ∧ ∀ p ∈ FP', p ∉ L' x := by
    intro x hx
    have hxl := (LeafOf_iff w' tree sh' ok.root x).2 hx
    exact ⟨ok.pairs.list x hxl, fun p hp hpl => ok.pairs.fresh x hxl p hpl hp⟩
  cases sh' with
  | none =>
    have hr : (w'.index tree).root = none := ok.root
    refine ⟨w', FN', FP', L', [], hres, ok.pool.chain, ok.pairs.chain, hfree, hpairs,
      List.nodup_nil, ?_, fun hne => absurd hr hne⟩
    intro n
    simp only [List.not_mem_nil, false_iff, not_and]
    intro hre
    rw [hr] at hre
    exact absurd rfl (Reach_none w'.node none n hre)
  | some t =>
    have hsub : Sub w'.node t := ok.root.2.2
    have hnd : (t.inner ++ t.leaves).Nodup := ok.nodup
    refine ⟨w', FN', FP', L', t.inner, hres, ok.pool.chain, ok.pairs.chain, hfree, hpairs,
      (List.nodup_append.1 hnd).1, ?_, fun _ => ?_⟩
    · intro n
      rw [mem_inner_iff w'.node t hsub n, Reach_iff w' tree (some t) ok.root n]
      rfl
    · rw [hs'.wf.count_eq]
      exact Shape.inner_length t

/-- Witness for C32: object 1 is removed from the tree that holds objects 1, 2
and 4; its leaf, an internal node and two pairs go to the free lists. -/
theorem no_use_after_recycle_witness :
    ∃ (w' : World) (FN FP : List Nat) (L : Nat → List Nat) (inner : List Nat),
      (Op.remove 1 1).run 20 0 threeLeafWorld = some w' ∧
      Chain (fun i => (w'.node i).parent) (w'.index 0).pooledNodes FN ∧
      Chain (fun p => (w'.pair p).a.next) (w'.index 0).pooledPairs FP ∧
      (∀ n ∈ FN, ¬ Reach w'.node (w'.index 0).root n ∧
        n ∉ (w'.index 0).leaves.map Prod.snd) ∧
      (∀ x, LeafOf w' 0 x →
        ListFrom w'.pair x none (w'.node x).pairs (L x) ∧ ∀ p ∈ FP, p ∉ L x) ∧
      inner.Nodup ∧
      (∀ n, n ∈ inner ↔ (Reach w'.node (w'.index 0).root n ∧ (w'.node n).obj = 0)) ∧
      ((w'.index 0).root ≠ none → inner.length + 1 = cpBBTreeCount w' 0) :=
  no_use_after_recycle id 0 (Op.remove 1 1) threeLeafWorld 20 threeLeafWorld_reached.sound
    ⟨rfl, by decide!⟩ (by decide!)

/-- C33, failing input: the tree record of `threeLeafWorld` is initialised
again.  Its `pooledPairs` field pointed to the pair record 1 and still does
after `cpBBTreeInit`, while the node free list and the buffer array are
empty; the first `PairFromPool` returns the old record 1 and allocates no
buffer, whereas the first `NodeFromPool` allocates a new buffer at the
frontier 8. -/
theorem cpBBTreeInit_stale_pool :
    (threeLeafWorld.index 0).pooledPairs = some 1 ∧
      ((cpBBTreeInit 0 scenarioBB none threeLeafWorld).index 0).pooledPairs = some 1 ∧
      ((cpBBTreeInit 0 scenarioBB none threeLeafWorld).index 0).pooledNodes = none ∧
      ((cpBBTreeInit 0 scenarioBB none threeLeafWorld).index 0).allocatedBuffers = [] ∧
      (PairFromPool 0 (cpBBTreeInit 0 scenarioBB none threeLeafWorld)).map
        (fun r => (r.1, (r.2.index 0).allocatedBuffers, r.2.pairBrk)) =
        some (1, [], threeLeafWorld.pairBrk) ∧
      (NodeFromPool 0 (cpBBTreeInit 0 scenarioBB none threeLeafWorld)).map
        (fun r => (r.1, (r.2.index 0).allocatedBuffers, r.2.nodeBrk)) =
        some (8, [Buffer.nodes 8], 12) := by
  decide!

/-- C33: what `cpBBTreeInit` establishes for every prior content of the
memory: the root is null, the stamp 0, the velocity function null, the hash set
empty, the node free list empty and the buffer array empty, but the field
`pooledPairs` keeps its prior value.  So if that value was null (as in a record
from `cpBBTreeAlloc`), the first `PairFromPool` allocates a buffer at the
frontier and returns its first record; if it was a pointer `p`, the first
`PairFromPool` returns `p` and allocates nothing. -/
theorem cpBBTreeInit_state (tree : Nat) (bbfunc : Nat → cpBB) (staticIndex : Option Nat)
    (w : World) :
    ((cpBBTreeInit tree bbfunc staticIndex w).index tree).root = none ∧
    ((cpBBTreeInit tree bbfunc staticIndex w).index tree).stamp = 0 ∧
    ((cpBBTreeInit tree bbfunc staticIndex w).index tree).velocityFunc = none ∧
    ((cpBBTreeInit tree bbfunc staticIndex w).index tree).leaves = [] ∧
    ((cpBBTreeInit tree bbfunc staticIndex w).index tree).pooledNodes = none ∧
    ((cpBBTreeInit tree bbfunc staticIndex w).index tree).allocatedBuffers = [] ∧
    ((cpBBTreeInit tree bbfunc staticIndex w).index tree).pooledPairs =
      (w.index tree).pooledPairs ∧
    ((cpBBTreeNew bbfunc staticIndex w).2.index (cpBBTreeNew bbfunc staticIndex w).1).pooledPairs
      = none ∧
    ((w.index tree).pooledPairs = none → 0 < w.pairCount →
      ∃ w', PairFromPool tree (cpBBTreeInit tree bbfunc staticIndex w) = some (w.pairBrk, w') ∧
        (w'.index tree).allocatedBuffers = [Buffer.pairs w.pairBrk] ∧
        w'.pairBrk = w.pairBrk + w.pairCount) ∧
    (∀ p, (w.index tree).pooledPairs = some p →
      ∃ w', PairFromPool tree (cpBBTreeInit tree bbfunc staticIndex w) = some (p, w') ∧
        (w'.index tree).allocatedBuffers = [] ∧ w'.pairBrk = w.pairBrk) := by
  have hpp : ((cpBBTreeInit tree bbfunc staticIndex w).index tree).pooledPairs =
      (w.index tree).pooledPairs := by
    cases staticIndex with
    | none => simp [cpBBTreeInit, cpSpatialIndexInit, World.setIndex, upd_apply]
    | some s =>
      by_cases e : tree = s
      · simp [cpBBTreeInit, cpSpatialIndexInit, World.setIndex, upd_apply, e]
      · simp [cpBBTreeInit, cpSpatialIndexInit, World.setIndex, upd_apply, e]
  have hbrk : (cpBBTreeInit tree bbfunc staticIndex w).pairBrk = w.pairBrk := by
    cases staticIndex <;> rfl
  have hcnt : (cpBBTreeInit tree bbfunc staticIndex w).pairCount = w.pairCount := by
    cases staticIndex <;> rfl
  have hbuf : ((cpBBTreeInit tree bbfunc staticIndex w).index tree).allocatedBuffers = [] := by
    simp [cpBBTreeInit, World.setIndex, upd_apply]
  refine ⟨by simp [cpBBTreeInit, World.setIndex, upd_apply],
    by simp [cpBBTreeInit, World.setIndex, upd_apply],
    by simp [cpBBTreeInit, World.setIndex, upd_apply],
    by simp [cpBBTreeInit, World.setIndex, upd_apply],
    by simp [cpBBTreeInit, World.setIndex, upd_apply], hbuf, hpp, ?_, ?_, ?_⟩
  · cases staticIndex with
    | none =>
      simp [cpBBTreeNew, cpBBTreeAlloc, cpBBTreeInit, cpSpatialIndexInit, World.setIndex,
        upd_apply, zeroTree]
    | some s =>
      by_cases e : w.indexBrk = s
      · simp [cpBBTreeNew, cpBBTreeAlloc, cpBBTreeInit, cpSpatialIndexInit, World.setIndex,
          upd_apply, zeroTree, e]
      · simp [cpBBTreeNew, cpBBTreeAlloc, cpBBTreeInit, cpSpatialIndexInit, World.setIndex,
          upd_apply, zeroTree, e]
  · intro hnone hc
    obtain ⟨w', _, h1, h2, h3, _⟩ :=
      PairFromPool_refill tree (cpBBTreeInit tree bbfunc staticIndex w) (by rw [hpp, hnone])
        (by rw [hcnt]; exact hc)
    rw [hbrk] at h1 h2 h3
    rw [hbuf] at h2
    rw [hcnt] at h3
    exact ⟨w', h1, h2, h3⟩
  · intro p hp
    refine ⟨(cpBBTreeInit tree bbfunc staticIndex w).setIndex tree
      { (cpBBTreeInit tree bbfunc staticIndex w).index tree with
        pooledPairs := ((cpBBTreeInit tree bbfunc staticIndex w).pair p).a.next }, ?_, ?_, ?_⟩
    · simp only [PairFromPool, hpp, hp]
    · simp [World.setIndex, upd_apply, hbuf]
    · simp [World.setIndex, hbrk]

/-- C34: `cpShapeSegmentQuery` returns `NULL` without a call of the class
function exactly if the group of the query and the group of the shape are both
non-zero and equal, or the bitwise AND of the layers of the query and of the
shape is zero; it then leaves the memory as it is.  Otherwise it makes one
call, of the `segmentQuery` function of the class of the shape with the shape,
the end points and `info`, and returns the pointer and the memory that this
call returns. -/
theorem cpShapeSegmentQuery_filter {σ : Type}
    (segmentQuery : Nat → cpShape → cpVect → cpVect → Option Nat → σ → Option Nat × σ)
    (shape : cpShape) (a b : cpVect) (layers group : Nat) (info : Option Nat) (s : σ) :
    (((cpShapeSegmentQuery segmentQuery shape a b layers group info s).1 = none ∧
        (cpShapeSegmentQuery segmentQuery shape a b layers group info s).2.2 = []) ↔
      ((group ≠ 0 ∧ shape.group ≠ 0 ∧ group = shape.group) ∨ layers &&& shape.layers = 0)) ∧
    (((group ≠ 0 ∧ shape.group ≠ 0 ∧ group = shape.group) ∨ layers &&& shape.layers = 0) →
      cpShapeSegmentQuery segmentQuery shape a b layers group info s = (none, s, [])) ∧
    (¬ ((group ≠ 0 ∧ shape.group ≠ 0 ∧ group = shape.group) ∨ layers &&& shape.layers = 0) →
      cpShapeSegmentQuery segmentQuery shape a b layers group info s =
        ((segmentQuery shape.klass shape a b info s).1,
          (segmentQuery shape.klass shape a b info s).2,
          [⟨shape.klass, shape, a, b, info⟩])) := by
  by_cases hc : (group ≠ 0 ∧ shape.group ≠ 0 ∧ group = shape.group) ∨
      layers &&& shape.layers = 0
  · have hc' : (group ≠ 0 ∧ shape.group ≠ 0 ∧ group = shape.group) ∨
        ¬ ((layers &&& shape.layers) ≠ 0) := by
      rcases hc with h | h
      · exact Or.inl h
      · exact Or.inr (by simp [h])
    have e : cpShapeSegmentQuery segmentQuery shape a b layers group info s = (none, s, []) := by
      unfold cpShapeSegmentQuery
      rw [if_pos hc']
    exact ⟨⟨fun _ => hc, fun _ => by rw [e]; exact ⟨rfl, rfl⟩⟩, fun _ => e, fun h => absurd hc h⟩
  · have hc' : ¬ ((group ≠ 0 ∧ shape.group ≠ 0 ∧ group = shape.group) ∨
        ¬ ((layers &&& shape.layers) ≠ 0)) := by
      intro h
      rcases h with h | h
      · exact hc (Or.inl h)
      · exact hc (Or.inr (not_not.1 h))
    have e : cpShapeSegmentQuery segmentQuery shape a b layers group info s =
        ((segmentQuery shape.klass shape a b info s).1,
          (segmentQuery shape.klass shape a b info s).2,
          [⟨shape.klass, shape, a, b, info⟩]) := by
      unfold cpShapeSegmentQuery
      rw [if_neg hc']
    refine ⟨⟨fun h => ?_, fun h => absurd h hc⟩, fun h => absurd h hc, fun _ => e⟩
    rw [e] at h
    exact absurd h.2 (by simp)

end BBTree
